import Mathlib

/-! Aqsis subdivision topology (`render/subdivision2.cpp`)

A shallow embedding of `CqSubdivision2`: the lath arena, the per-vertex
adjacency table, the facet list, facet insertion (`AddFacet`), the linkage
pass (`Finalise`), Catmull-Clark face refinement (`SubdivideFace`) and the
regularity test (`CanUsePatch`); and of `CqSurfaceSubdivisionPatch::Diceable`
and `CqSurfaceSubdivisionMesh::Split`.

Pointers to laths are modelled as positions in `m_apLaths`: every lath the
code allocates is pushed onto `m_apLaths` exactly once, directly after its
allocation, so a `CqLath*` and an index into `m_apLaths` determine each other.
The NULL pointer is `none`.  Dereferencing NULL, indexing a vector out of
range and a loop that does not terminate are all modelled by the result
`none` of the enclosing operation.
-/

set_option autoImplicit false

namespace Aqsis

/-! ## Data model -/

/-- Modelled from the spec: the class `CqLath` (declared in `lath.h`) with one
field per link the specification lists: the vertex index, the clockwise link
around the facet, the clockwise link around the vertex, the parent facet
back-link and the child-vertex, mid-edge and face-point forward links.  The
field names are the ones the setters used in `subdivision2.cpp` refer to
(`SetpClockwiseFacet`, `SetpClockwiseVertex`, `SetpParentFacet`,
`SetpChildVertex`, `SetpMidVertex`, `SetpFaceVertex`, `SetVertexIndex`). -/
structure CqLath where
  m_pClockwiseVertex : Option Nat
  m_pClockwiseFacet : Option Nat
  m_pParentFacet : Option Nat
  m_pChildVertex : Option Nat
  m_pMidVertex : Option Nat
  m_pFaceVertex : Option Nat
  m_VertexIndex : Nat
deriving DecidableEq, Repr

/-- The result of `new CqLath( iV )`: all links NULL. -/
def CqLath.new (iV : Nat) : CqLath :=
  ⟨none, none, none, none, none, none, iV⟩

/-- The type tags `SubdivideFace` switches on when it grows an attribute array. -/
inductive EqVariableType where
  | type_float | type_integer | type_point | type_normal | type_vector
  | type_color | type_hpoint | type_string | type_matrix
deriving DecidableEq, Repr

/-- One attribute array of the external attribute store, reduced to what the
topology code reads and writes: its type tag and its size.  The stored
values are floating point data and are not modelled. -/
structure CqParameter where
  m_Type : EqVariableType
  m_Size : Nat
deriving DecidableEq, Repr

/-- The number of times `n` can be halved before it is below 2: the integer
part of its binary logarithm, at most `fuel`. -/
def TqFloat.log2 : Nat → Nat → Nat
  | 0, _ => 0
  | fuel + 1, n => if n < 2 then 0 else TqFloat.log2 fuel (n / 2) + 1

/-- The value a `TqFloat` (a 32-bit IEEE 754 `float`) holds after it is
assigned the real number `x`: `x` rounded to the nearest number with a 24-bit
significand and an exponent of at least `-126` (so the subnormal numbers are
included), a tie going to the even significand.  A magnitude that rounds to
`2^128` or more is an infinity, for which `2^128` stands here. -/
def TqFloat.round (x : ℚ) : ℚ :=
  let n := x.num.natAbs
  let d := x.den
  if n = 0 then 0 else
  let e0 : Int := (TqFloat.log2 n n : Int) - (TqFloat.log2 d d : Int)
  let e1 : Int :=
    if (if 0 ≤ e0 then d * 2 ^ e0.toNat ≤ n else d ≤ n * 2 ^ (-e0).toNat) then e0 else e0 - 1
  let e : Int := if e1 < -126 then -126 else e1
  let k : Int := e - 23
  let num2 : Nat := if k < 0 then n * 2 ^ (-k).toNat else n
  let den2 : Nat := if k < 0 then d else d * 2 ^ k.toNat
  let q := num2 / den2
  let r := num2 % den2
  let m : Nat :=
    if 2 * r < den2 then q else if den2 < 2 * r then q + 1 else if q % 2 = 0 then q else q + 1
  let a : ℚ := if k < 0 then mkRat (m : Int) (2 ^ (-k).toNat) else ((m * 2 ^ k.toNat : Nat) : ℚ)
  let a : ℚ := if (2 : ℚ) ^ 128 ≤ a then (2 : ℚ) ^ 128 else a
  if x < 0 then -a else a

/-- The product `a * b` of two `TqFloat` values: the exact product, rounded
to a `TqFloat`. -/
def TqFloat.mul (a b : ℚ) : ℚ := TqFloat.round (a * b)

/-- The state of a `CqSubdivision2`.  `aUserParams` lists, for each time slot
in order, the attribute arrays of that slot's `CqPolygonPoints`.  The two
sharpness maps are `std::map<CqLath*, TqFloat>`; a weight is the rational
number the `TqFloat` holds. -/
structure CqSubdivision2 where
  m_apLaths : List CqLath
  m_apFacets : List Nat
  m_aapVertices : List (List Nat)
  m_fFinalised : Bool
  m_bInterpolateBoundary : Bool
  m_mapSharpEdges : List (Nat × ℚ)
  m_mapSharpCorners : List (Nat × ℚ)
  aUserParams : List (List CqParameter)
deriving DecidableEq, Repr

namespace CqSubdivision2

/-- The lath a non-NULL pointer refers to; `none` for a dangling pointer. -/
def lath (s : CqSubdivision2) (h : Nat) : Option CqLath := s.m_apLaths[h]?

/-- Overwrite the lath at `h` (the pointer must be valid). -/
def setLath (s : CqSubdivision2) (h : Nat) (f : CqLath → CqLath) : Option CqSubdivision2 :=
  match s.m_apLaths[h]? with
  | none => none
  | some l => some { s with m_apLaths := s.m_apLaths.set h (f l) }

/-- `pL->cf()`: the outer option is the dereference, the inner one the link. -/
def cf (s : CqSubdivision2) (h : Nat) : Option (Option Nat) :=
  (s.lath h).map CqLath.m_pClockwiseFacet

/-- `pL->cv()`. -/
def cv (s : CqSubdivision2) (h : Nat) : Option (Option Nat) :=
  (s.lath h).map CqLath.m_pClockwiseVertex

/-- `pL->VertexIndex()`. -/
def VertexIndex (s : CqSubdivision2) (h : Nat) : Option Nat :=
  (s.lath h).map CqLath.m_VertexIndex

/-- `pL->cf()` followed by a dereference of the result: fails on NULL. -/
def cfD (s : CqSubdivision2) (h : Nat) : Option Nat :=
  (s.lath h).bind CqLath.m_pClockwiseFacet

/-- `pVerts[i].push_back(h)` on the adjacency table; fails out of range. -/
def pushVertexLath (s : CqSubdivision2) (iVertex h : Nat) : Option CqSubdivision2 :=
  if iVertex < s.m_aapVertices.length then
    some { s with m_aapVertices := s.m_aapVertices.modify (fun l => l ++ [h]) iVertex }
  else none

/-- `m_apLaths.push_back(new CqLath(...))`: returns the new pointer. -/
def pushLath (s : CqSubdivision2) (l : CqLath) : CqSubdivision2 × Nat :=
  ({ s with m_apLaths := s.m_apLaths ++ [l] }, s.m_apLaths.length)

/-- `CqSubdivision2::pFacet`. -/
def pFacet (s : CqSubdivision2) (iIndex : Nat) : Option Nat := s.m_apFacets[iIndex]?

/-- `CqSubdivision2::pVertex`. -/
def pVertex (s : CqSubdivision2) (iIndex : Nat) : Option Nat :=
  (s.m_aapVertices[iIndex]?).bind (fun l => l[0]?)

/-- `CqSubdivision2::Prepare`: `resize` keeps the leading entries and pads
with empty adjacency lists. -/
def Prepare (s : CqSubdivision2) (cVerts : Nat) : CqSubdivision2 :=
  { s with
    m_aapVertices := s.m_aapVertices.take cVerts ++
      List.replicate (cVerts - s.m_aapVertices.length) [],
    m_fFinalised := false }

/-- The state the constructor leaves: no laths, no facets, no vertices. -/
def empty (params : List (List CqParameter)) : CqSubdivision2 :=
  ⟨[], [], [], false, false, [], [], params⟩

/-! ## AddFacet -/

/-- The `for` loop of `AddFacet` over the remaining indices: `iVert` is the
loop counter, `pLastLath` and `pFirstLath` the two locals. -/
def AddFacet.loop : List Nat → Nat → CqSubdivision2 → Option Nat → Option Nat →
    Option (CqSubdivision2 × Option Nat × Option Nat)
  | [], _, s, pLastLath, pFirstLath => some (s, pLastLath, pFirstLath)
  | idx :: rest, iVert, s, pLastLath, pFirstLath =>
    let pNewLath := s.m_apLaths.length
    let newLath : CqLath := { CqLath.new idx with m_pClockwiseFacet := pLastLath }
    let s1 : CqSubdivision2 := { s with m_apLaths := s.m_apLaths ++ [newLath] }
    let pFirstLath1 := if iVert = 0 then some pNewLath else pFirstLath
    match s1.pushVertexLath idx pNewLath with
    | none => none
    | some s2 => AddFacet.loop rest (iVert + 1) s2 (some pNewLath) pFirstLath1

/-- `CqSubdivision2::AddFacet(cVerts, pIndices)` with `cVerts` the length of
the index list.  Returns the new state and `pFirstLath`. -/
def AddFacet (s : CqSubdivision2) (pIndices : List Nat) : Option (CqSubdivision2 × Nat) :=
  match AddFacet.loop pIndices 0 s none none with
  | none => none
  | some (s1, pLastLath, pFirstLath) =>
    match pFirstLath with
    | none => none
    | some pFirst =>
      match s1.setLath pFirst (fun l => { l with m_pClockwiseFacet := pLastLath }) with
      | none => none
      | some s2 => some ({ s2 with m_apFacets := s2.m_apFacets ++ [pFirst] }, pFirst)

/-- The laths the loop of `AddFacet` appends for the index list, the first
new lath being stored at position `base`. -/
def AddFacet.newLaths : List Nat → Nat → Option Nat → List CqLath
  | [], _, _ => []
  | idx :: rest, base, pLast =>
    { CqLath.new idx with m_pClockwiseFacet := pLast } ::
      AddFacet.newLaths rest (base + 1) (some base)

/-- The adjacency table after the loop of `AddFacet`. -/
def AddFacet.newAdj : List Nat → Nat → List (List Nat) → List (List Nat)
  | [], _, t => t
  | idx :: rest, base, t => AddFacet.newAdj rest (base + 1) (t.modify (fun l => l ++ [base]) idx)

/-- The value of `pLastLath` after the loop of `AddFacet`. -/
def AddFacet.lastLath : List Nat → Nat → Option Nat → Option Nat
  | [], _, pLast => pLast
  | _ :: rest, base, _ => AddFacet.lastLath rest (base + 1) (some base)

/-- The laths of a facet as `AddFacet` leaves them: the loop's laths with the
first one linked to the last. -/
def AddFacet.facetLaths : List Nat → Nat → List CqLath
  | [], _ => []
  | idx :: rest, base =>
    { CqLath.new idx with m_pClockwiseFacet := some (base + rest.length) } ::
      AddFacet.newLaths rest (base + 1) (some base)

/-- The new laths `AddFacet` enters in the adjacency list of vertex `v`, in
order: `base + k` for every position `k` of the index list holding `v`. -/
def AddFacet.hits : List Nat → Nat → Nat → List Nat
  | [], _, _ => []
  | idx :: rest, base, v =>
    (if idx = v then [base] else []) ++ AddFacet.hits rest (base + 1) v

/-- The state after a successful `AddFacet`. -/
def AddFacet.result (s : CqSubdivision2) (l : List Nat) : CqSubdivision2 :=
  { s with
    m_apLaths := s.m_apLaths ++ AddFacet.facetLaths l s.m_apLaths.length,
    m_apFacets := s.m_apFacets ++ [s.m_apLaths.length],
    m_aapVertices := AddFacet.newAdj l s.m_apLaths.length s.m_aapVertices }

/-- Follow `cf()` links `k` times from `h`. -/
def cfIter (s : CqSubdivision2) : Nat → Nat → Option Nat
  | 0, h => if h < s.m_apLaths.length then some h else none
  | k + 1, h => (s.cfD h).bind (cfIter s k)


/-- Run a loop body over the successive values of the loop variable,
threading the loop state; any failing iteration fails the loop. -/
def forEach {σ α : Type} (body : α → σ → Option σ) : List α → σ → Option σ
  | [], st => some st
  | a :: rest, st => (body a st).bind (forEach body rest)

/-! ## Lath queries -/

/-- The `while(this != pLdash->cf())` walk of `ccf`. -/
def ccf.loop (s : CqSubdivision2) (this : Nat) : Nat → Nat → Option Nat
  | 0, _ => none
  | fuel + 1, pLdash =>
    match s.cfD pLdash with
    | none => none
    | some pNext => if pNext = this then some pLdash else ccf.loop s this fuel pNext

/-- Modelled from the spec: `CqLath::ccf` (in `lath.cpp`), the predecessor on
the facet ring.  The specification gives a lath no counter-clockwise storage,
so the predecessor is found by following face-neighbour links round the ring
until the lath whose face-neighbour is the start. -/
def ccf (s : CqSubdivision2) (this : Nat) : Option Nat :=
  (s.cfD this).bind (ccf.loop s this s.m_apLaths.length)

/-- Modelled from the spec: `CqLath::ec` (in `lath.h`), the companion lath
across the edge: the face-neighbour of the vertex-neighbour, NULL when the
vertex-neighbour link is missing (a boundary). -/
def ec (s : CqSubdivision2) (this : Nat) : Option (Option Nat) :=
  match s.cv this with
  | none => none
  | some none => some none
  | some (some c) => s.cf c

/-- Modelled from the spec: `CqLath::ccv` (in `lath.h`), the lath whose
vertex-neighbour is this one, derived from the stored links alone as the edge
companion of the face-neighbour; NULL at a boundary. -/
def ccv (s : CqSubdivision2) (this : Nat) : Option (Option Nat) :=
  (s.cfD this).bind (s.ec)

/-- The walk of `Qfv` from `pNext` until the start lath is met again. -/
def Qfv.loop (s : CqSubdivision2) (this : Nat) : Nat → Nat → Option (List Nat)
  | 0, _ => none
  | fuel + 1, pNext =>
    if pNext = this then some []
    else match s.cfD pNext with
      | none => none
      | some p => (Qfv.loop s this fuel p).map (fun r => pNext :: r)

/-- Modelled from the spec: `CqLath::Qfv` (in `lath.cpp`), the corner-ring
enumeration of a face: the lath itself, then its face-neighbours in order
until back at the start. -/
def Qfv (s : CqSubdivision2) (this : Nat) : Option (List Nat) :=
  (s.cfD this).bind (fun p => (Qfv.loop s this s.m_apLaths.length p).map (fun r => this :: r))

/-- The walk of `Qvf`: the inner `none` reports a missing vertex-neighbour link. -/
def Qvf.loop (s : CqSubdivision2) (this : Nat) : Nat → Option Nat → Option (Option (List Nat))
  | 0, _ => none
  | _ + 1, none => some none
  | fuel + 1, some pNext =>
    if pNext = this then some (some [])
    else match s.cv pNext with
      | none => none
      | some p => (Qvf.loop s this fuel p).map (fun r => r.map (fun l => pNext :: l))

/-- Modelled from the spec: `CqLath::Qvf` (in `lath.cpp`), the ring of laths
round a vertex, one per incident face: the lath itself, then its
vertex-neighbours until back at the start; the result is empty when a
vertex-neighbour link is missing on the way. -/
def Qvf (s : CqSubdivision2) (this : Nat) : Option (List Nat) :=
  match s.cv this with
  | none => none
  | some p =>
    match Qvf.loop s this s.m_apLaths.length p with
    | none => none
    | some none => some []
    | some (some r) => some (this :: r)

/-- Whether lath `x` lies on the facet ring of one of the laths in `acc`. -/
def Qff.seen (s : CqSubdivision2) (x : Nat) : List Nat → Option Bool
  | [] => some false
  | y :: rest =>
    match s.Qfv y with
    | none => none
    | some ring => if ring.contains x then some true else Qff.seen s x rest

/-- Modelled from the spec: `CqLath::Qff` (in `lath.cpp`), the 1-ring of faces
of a face: the faces met by walking the vertex ring at each corner, each face
listed once (by the first lath that reaches it). -/
def Qff (s : CqSubdivision2) (this : Nat) : Option (List Nat) :=
  (s.Qfv this).bind (fun corners =>
    forEach (fun c acc =>
      (s.Qvf c).bind (fun around =>
        forEach (fun x acc1 =>
          (Qff.seen s x acc1).map (fun dup => if dup then acc1 else acc1 ++ [x]))
          around acc))
      corners [])

/-- The list `ring` is one closed cycle of the partial successor function
`next`: its members are distinct, each is the successor of the one before it,
and the first is the successor of the last. -/
def IsCycle (next : Nat → Option Nat) (ring : List Nat) : Prop :=
  ring ≠ [] ∧ ring.Nodup ∧ List.Chain' (fun a b => next a = some b) ring ∧
    (ring.getLast?).bind next = ring.head?

/-- The laths of `ring`, in face-neighbour order, form one closed facet
ring: they are distinct, each is the face-neighbour of the one before it, and
the first is the face-neighbour of the last. -/
def IsRing (s : CqSubdivision2) (ring : List Nat) : Prop :=
  IsCycle s.cfD ring

/-- The positions `base + k, ..., base + 1`, in this order. -/
def descFrom (base : Nat) : Nat → List Nat
  | 0 => []
  | k + 1 => (base + k + 1) :: descFrom base k

/-- A sequence of `AddFacet` calls, one for each index list. -/
def AddFacets (s : CqSubdivision2) : List (List Nat) → Option CqSubdivision2
  | [] => some s
  | f :: rest => (s.AddFacet f).bind (fun r => AddFacets r.1 rest)

/-- A mesh built with `Prepare` and `AddFacet` on a newly constructed
topology over the given attribute arrays. -/
def buildMesh (params : List (List CqParameter)) (cVerts : Nat) (facets : List (List Nat)) :
    Option CqSubdivision2 :=
  AddFacets ((empty params).Prepare cVerts) facets

/-- What holds of every mesh built with `Prepare` and `AddFacet` before
`Finalise` is called: no lath has a vertex-neighbour, parent or child link
yet, every lath lies on a closed facet ring, every facet entry is a lath, every
vertex index is inside the adjacency table, and the adjacency list of a vertex
holds exactly the laths that reference the vertex, each once. -/
structure Fresh (s : CqSubdivision2) : Prop where
  links : ∀ l ∈ s.m_apLaths, l.m_pClockwiseVertex = none ∧ l.m_pParentFacet = none ∧
    l.m_pChildVertex = none ∧ l.m_pMidVertex = none ∧ l.m_pFaceVertex = none
  rings : ∀ h, h < s.m_apLaths.length → ∃ ring, s.IsRing ring ∧ h ∈ ring
  facets : ∀ f ∈ s.m_apFacets, f < s.m_apLaths.length
  vertexLt : ∀ h v, s.VertexIndex h = some v → v < s.m_aapVertices.length
  adj : ∀ v h, (∃ a, s.m_aapVertices[v]? = some a ∧ h ∈ a) ↔ s.VertexIndex h = some v
  adjNodup : ∀ a ∈ s.m_aapVertices, a.Nodup

/-! ## Sharpness maps -/

/-- Modelled from the spec: `CqSubdivision2::EdgeSharpness` (in
`subdivision2.h`): the weight tagged on the lath, zero when untagged. -/
def EdgeSharpness (s : CqSubdivision2) (pLath : Nat) : ℚ :=
  match s.m_mapSharpEdges.find? (fun e => e.1 = pLath) with
  | none => 0
  | some e => e.2

/-- Modelled from the spec: `CqSubdivision2::CornerSharpness` (in
`subdivision2.h`): the weight tagged on the lath, zero when untagged. -/
def CornerSharpness (s : CqSubdivision2) (pLath : Nat) : ℚ :=
  match s.m_mapSharpCorners.find? (fun e => e.1 = pLath) with
  | none => 0
  | some e => e.2

/-- Modelled from the spec: `CqSubdivision2::AddSharpEdge` (in
`subdivision2.h`): tag the lath with the weight, replacing an earlier tag. -/
def AddSharpEdge (s : CqSubdivision2) (pLath : Nat) (Sharpness : ℚ) : CqSubdivision2 :=
  { s with m_mapSharpEdges :=
      (pLath, Sharpness) :: s.m_mapSharpEdges.filter (fun e => e.1 ≠ pLath) }

/-- Modelled from the spec: `CqSubdivision2::AddSharpCorner` (in
`subdivision2.h`): tag the lath with the weight, replacing an earlier tag. -/
def AddSharpCorner (s : CqSubdivision2) (pLath : Nat) (Sharpness : ℚ) : CqSubdivision2 :=
  { s with m_mapSharpCorners :=
      (pLath, Sharpness) :: s.m_mapSharpCorners.filter (fun e => e.1 ≠ pLath) }

/-! ## Finalise -/

/-- The inner `for(iLath = 0; iLath < cLaths; iLath++)` scan of both passes
of `Finalise`: the first unvisited position whose lath has the wanted key
(`key` is `cf()->VertexIndex()` in the forward pass and `ccf()->VertexIndex()`
in the backward pass).  `some none` means the scan ran to `cLaths`. -/
def Finalise.scan (vert : List Nat) (aVisited : List Bool) (key : Nat → Option Nat)
    (target : Nat) : List Nat → Option (Option Nat)
  | [] => some none
  | iLath :: rest =>
    match aVisited[iLath]?, vert[iLath]? with
    | some visited, some h =>
      if visited then Finalise.scan vert aVisited key target rest
      else match key h with
        | none => none
        | some v =>
          if v = target then some (some iLath)
          else Finalise.scan vert aVisited key target rest
    | _, _ => none

/-- The forward `while(!fDone)` loop of `Finalise` at one vertex.  The loop
state is the topology, `aVisited`, `cVisited` and `pCurrent` (the local
`iCurrent` is written but never read). -/
def Finalise.forward (vert : List Nat) : Nat → CqSubdivision2 → List Bool → Nat → Nat →
    Option (CqSubdivision2 × List Bool × Nat × Nat)
  | 0, _, _, _, _ => none
  | fuel + 1, s, aVisited, cVisited, pCurrent =>
    match (s.ccf pCurrent).bind s.VertexIndex with
    | none => none
    | some ccwVertex =>
      match Finalise.scan vert aVisited (fun h => (s.cfD h).bind s.VertexIndex) ccwVertex
          (List.range vert.length) with
      | none => none
      | some none => some (s, aVisited, cVisited, pCurrent)
      | some (some iLath) =>
        match vert[iLath]? with
        | none => none
        | some h =>
          match s.setLath pCurrent (fun l => { l with m_pClockwiseVertex := some h }) with
          | none => none
          | some s1 =>
            Finalise.forward vert fuel s1 (aVisited.set iLath true) (cVisited + 1) h

/-- The backward `while(!fDone)` loop of `Finalise` at one vertex.  The loop
state is the topology, `aVisited`, `cVisited`, `pStart` and `iStart`. -/
def Finalise.backward (vert : List Nat) : Nat → CqSubdivision2 → List Bool → Nat → Nat → Nat →
    Option (CqSubdivision2 × List Bool × Nat × Nat × Nat)
  | 0, _, _, _, _, _ => none
  | fuel + 1, s, aVisited, cVisited, pStart, iStart =>
    match (s.cfD pStart).bind s.VertexIndex with
    | none => none
    | some cwVertex =>
      match Finalise.scan vert aVisited (fun h => (s.ccf h).bind s.VertexIndex) cwVertex
          (List.range vert.length) with
      | none => none
      | some none => some (s, aVisited, cVisited, pStart, iStart)
      | some (some iLath) =>
        match vert[iLath]? with
        | none => none
        | some h =>
          match s.setLath h (fun l => { l with m_pClockwiseVertex := some pStart }) with
          | none => none
          | some s1 =>
            Finalise.backward vert fuel s1 (aVisited.set iStart true) (cVisited + 1) h iLath

/-- The body of the outer loop of `Finalise` for one adjacency list.  The
boolean is `false` when the body executes `return( TqFalse )`. -/
def Finalise.vertex (s : CqSubdivision2) (vert : List Nat) : Option (CqSubdivision2 × Bool) :=
  let cLaths := vert.length
  if cLaths ≤ 1 then some (s, true)
  else
    match vert[0]? with
    | none => none
    | some pStart =>
      match Finalise.forward vert (2 * cLaths + 2) s (List.replicate cLaths false) 0 pStart with
      | none => none
      | some (s1, aVisited1, cVisited1, pCurrent) =>
        match s1.cv pCurrent with
        | none => none
        | some pcv =>
          match (if pcv = none then
                  Finalise.backward vert (2 * cLaths + 2) s1 aVisited1 cVisited1 pStart 0
                else some (s1, aVisited1, cVisited1, pStart, 0)) with
          | none => none
          | some (s2, _, cVisited2, _, _) =>
            if cVisited2 + 1 < cLaths then some (s2, false) else some (s2, true)

/-- The outer loop of `Finalise` over the adjacency table. -/
def Finalise.loop : List (List Nat) → CqSubdivision2 → Option (CqSubdivision2 × Bool)
  | [], s => some (s, true)
  | vert :: rest, s =>
    match Finalise.vertex s vert with
    | none => none
    | some (s1, false) => some (s1, false)
    | some (s1, true) => Finalise.loop rest s1

/-- `CqSubdivision2::Finalise`: the new state and the returned flag. -/
def Finalise (s : CqSubdivision2) : Option (CqSubdivision2 × Bool) :=
  match Finalise.loop s.m_aapVertices s with
  | none => none
  | some (s1, false) => some (s1, false)
  | some (s1, true) => some ({ s1 with m_fFinalised := true }, true)


/-! ## New vertices -/

/-- The inner loop of `AddVertex`, `AddEdgeVertex` and `AddFaceVertex` over
the attribute arrays of one time slot: every array grows by one slot
(`SetSize( iIndex+1 )`) and `iIndex` is left at the old size of the last
array visited.  The `switch` on the array type only selects how the new slot
is filled (nothing is written for `type_string` and `type_matrix`); the
stored values are not modelled. -/
def growSlot : List CqParameter → Option Nat → List CqParameter × Option Nat
  | [], iIndex => ([], iIndex)
  | p :: rest, _ =>
    let r := growSlot rest (some p.m_Size)
    ({ p with m_Size := p.m_Size + 1 } :: r.1, r.2)

/-- The outer loop over the time slots. -/
def growAll : List (List CqParameter) → Option Nat → List (List CqParameter) × Option Nat
  | [], iIndex => ([], iIndex)
  | slot :: rest, iIndex =>
    let r1 := growSlot slot iIndex
    let r2 := growAll rest r1.2
    (r1.1 :: r2.1, r2.2)

/-- The common body of the three vertex-adding functions: grow every
attribute array, then `m_aapVertices.resize(iIndex+1)` and return `iIndex`.
`iIndex0` is the initial value of the local `iIndex`, `none` when it is left
uninitialised. -/
def addVertexWith (iIndex0 : Option Nat) (s : CqSubdivision2) : Option (CqSubdivision2 × Nat) :=
  let r := growAll s.aUserParams iIndex0
  match r.2 with
  | none => none
  | some iIndex =>
    some ({ s with
            aUserParams := r.1,
            m_aapVertices := s.m_aapVertices.take (iIndex + 1) ++
              List.replicate (iIndex + 1 - s.m_aapVertices.length) [] }, iIndex)

/-- `CqSubdivision2::AddVertex` (`TqInt iIndex=0`).  The lath argument only
selects the source vertices of the interpolated values. -/
def AddVertex (s : CqSubdivision2) (_pVertex : Nat) : Option (CqSubdivision2 × Nat) :=
  addVertexWith (some 0) s

/-- `CqSubdivision2::AddEdgeVertex` (`TqInt iIndex;` is not initialised). -/
def AddEdgeVertex (s : CqSubdivision2) (_pVertex : Nat) : Option (CqSubdivision2 × Nat) :=
  addVertexWith none s

/-- `CqSubdivision2::AddFaceVertex` (`TqInt iIndex=0`). -/
def AddFaceVertex (s : CqSubdivision2) (_pVertex : Nat) : Option (CqSubdivision2 × Nat) :=
  addVertexWith (some 0) s

/-! ## SubdivideFace -/

/-- The macro `modulo(a, b)`, `(a * b >= 0 ? a % b : (a % b) + b)`, on C
integers (`%` truncates towards zero). -/
def modulo (a b : Int) : Int :=
  if a * b ≥ 0 then Int.tmod a b else Int.tmod a b + b

/-- Modelled from the spec: `struct SqFaceLathList` holds the four laths
`pA`, `pB`, `pC`, `pD` of one child face. -/
structure SqFaceLathList where
  pA : Nat
  pB : Nat
  pC : Nat
  pD : Nat
deriving DecidableEq, Repr

/-- One iteration of the loop "Create new points for the edge midpoints":
the index stored in `aVertices[i+n]`. -/
def SubdivideFace.edgePoint (q : Nat) (st : CqSubdivision2 × List Nat) :
    Option (CqSubdivision2 × List Nat) :=
  match st.1.ec q with
  | none => none
  | some none => (st.1.AddEdgeVertex q).map (fun r => (r.1, st.2 ++ [r.2]))
  | some (some e) =>
    match st.1.lath e with
    | none => none
    | some le =>
      match le.m_pMidVertex with
      | none => (st.1.AddEdgeVertex q).map (fun r => (r.1, st.2 ++ [r.2]))
      | some m => (st.1.VertexIndex m).map (fun iVert => (st.1, st.2 ++ [iVert]))

/-- One iteration of the loop "Create new points for the existing vertices":
the index stored in `aVertices[i]`. -/
def SubdivideFace.cornerPoint (q : Nat) (st : CqSubdivision2 × List Nat) :
    Option (CqSubdivision2 × List Nat) :=
  match st.1.lath q with
  | none => none
  | some lq =>
    match lq.m_pChildVertex with
    | none => (st.1.AddVertex q).map (fun r => (r.1, st.2 ++ [r.2]))
    | some c => (st.1.VertexIndex c).map (fun iVert => (st.1, st.2 ++ [iVert]))

/-- The `do ... while( pNextV && pNextV != aQfv[i] )` loop that sets the
child vertex pointer clockwise round the vertex.  Returns the final `pNextV`. -/
def SubdivideFace.childForward (pLathA start : Nat) : Nat → CqSubdivision2 → Nat →
    Option (CqSubdivision2 × Option Nat)
  | 0, _, _ => none
  | fuel + 1, s, pNextV =>
    match s.setLath pNextV (fun l => { l with m_pChildVertex := some pLathA }) with
    | none => none
    | some s1 =>
      match s1.cv pNextV with
      | none => none
      | some none => some (s1, none)
      | some (some p) =>
        if p = start then some (s1, some p)
        else SubdivideFace.childForward pLathA start fuel s1 p

/-- The `while( pNextV )` loop that sets the child vertex pointer
anticlockwise round the vertex; the `assert( pNextV != aQfv[i] )` fails the
operation. -/
def SubdivideFace.childBackward (pLathA start : Nat) : Nat → CqSubdivision2 → Option Nat →
    Option CqSubdivision2
  | 0, _, _ => none
  | _ + 1, s, none => some s
  | fuel + 1, s, some pNextV =>
    if pNextV = start then none
    else
      match s.setLath pNextV (fun l => { l with m_pChildVertex := some pLathA }) with
      | none => none
      | some s1 =>
        match s1.ccv pNextV with
        | none => none
        | some p => SubdivideFace.childBackward pLathA start fuel s1 p

/-- The loop state of the lath-creating loop: the topology, `apFaceLaths`
(the entries filled so far) and `apSubFaces`. -/
abbrev SubdivideFace.CreateState := CqSubdivision2 × List SqFaceLathList × List Nat

/-- The first part of an iteration of the lath-creating loop: allocate the
four laths of one child face, join them clockwise round the face, set their
parent facet and enter them in the vertex reference table. -/
def SubdivideFace.newLaths (pFace vA vB vC vD : Nat) (s : CqSubdivision2) :
    Option (CqSubdivision2 × SqFaceLathList) :=
  let rA := s.pushLath (CqLath.new vA)
  let rB := rA.1.pushLath (CqLath.new vB)
  let rC := rB.1.pushLath (CqLath.new vC)
  let rD := rC.1.pushLath (CqLath.new vD)
  (rD.1.setLath rA.2 (fun l => { l with m_pClockwiseFacet := some rB.2 })).bind fun s =>
  (s.setLath rB.2 (fun l => { l with m_pClockwiseFacet := some rC.2 })).bind fun s =>
  (s.setLath rC.2 (fun l => { l with m_pClockwiseFacet := some rD.2 })).bind fun s =>
  (s.setLath rD.2 (fun l => { l with m_pClockwiseFacet := some rA.2 })).bind fun s =>
  (s.setLath rA.2 (fun l => { l with m_pParentFacet := some pFace })).bind fun s =>
  (s.setLath rB.2 (fun l => { l with m_pParentFacet := some pFace })).bind fun s =>
  (s.setLath rC.2 (fun l => { l with m_pParentFacet := some pFace })).bind fun s =>
  (s.setLath rD.2 (fun l => { l with m_pParentFacet := some pFace })).bind fun s =>
  (s.pushVertexLath vA rA.2).bind fun s =>
  (s.pushVertexLath vB rB.2).bind fun s =>
  (s.pushVertexLath vC rC.2).bind fun s =>
  (s.pushVertexLath vD rD.2).bind fun s =>
  some (s, ⟨rA.2, rB.2, rC.2, rD.2⟩)

/-- The second part of an iteration: set the child vertex pointer of every
lath round the vertex of corner `q`, clockwise and, when a boundary is hit,
anticlockwise from `q` as well. -/
def SubdivideFace.setChildVertex (pLathA q : Nat) (s : CqSubdivision2) : Option CqSubdivision2 :=
  (SubdivideFace.childForward pLathA q (s.m_apLaths.length + 1) s q).bind fun r =>
  match r.2 with
  | some _ => some r.1
  | none =>
    (r.1.ccv q).bind fun p =>
      SubdivideFace.childBackward pLathA q (r.1.m_apLaths.length + 1) r.1 p

/-- The part "Transfer sharpness information" of an iteration. -/
def SubdivideFace.transferSharpness (q qNext pLathA pLathB : Nat) (s : CqSubdivision2) :
    CqSubdivision2 :=
  let sharpness := s.EdgeSharpness q
  let s1 := if sharpness > 0 then s.AddSharpEdge pLathA (TqFloat.mul sharpness sharpness) else s
  let sharpness2 := s1.EdgeSharpness qNext
  let s2 := if sharpness2 > 0 then s1.AddSharpEdge pLathB (TqFloat.mul sharpness2 sharpness2) else s1
  if s2.CornerSharpness q > 0 then s2.AddSharpCorner pLathA (s2.CornerSharpness q) else s2

/-- One iteration of the loop "Now create new laths for the new facets". -/
def SubdivideFace.createFace (pFace : Nat) (aQfv aVertices : List Nat) (n : Nat) (i : Nat)
    (st : SubdivideFace.CreateState) : Option SubdivideFace.CreateState :=
  (aVertices[i]?).bind fun vA =>
  (aVertices[(modulo ((i : Int) + 1) n).toNat + n]?).bind fun vB =>
  (aVertices[2 * n]?).bind fun vC =>
  (aVertices[i + n]?).bind fun vD =>
  (aQfv[i]?).bind fun q =>
  (aQfv[(modulo ((i : Int) + 1) n).toNat]?).bind fun qNext =>
  (SubdivideFace.newLaths pFace vA vB vC vD st.1).bind fun r =>
  (SubdivideFace.setChildVertex r.2.pA q r.1).bind fun s =>
  (s.setLath q (fun l => { l with m_pMidVertex := some r.2.pD })).bind fun s =>
  let s1 := SubdivideFace.transferSharpness q qNext r.2.pA r.2.pB s
  some ({ s1 with m_apFacets := s1.m_apFacets ++ [r.2.pA] },
        st.2.1 ++ [r.2], st.2.2 ++ [r.2.pA])

/-- The scan of the adjacency list of the new corner vertex in the first
linking loop: one step for the lath `X` the iterator points at. -/
def SubdivideFace.linkCorner (f : SqFaceLathList) (X : Nat) (s : CqSubdivision2) :
    Option CqSubdivision2 :=
  match (s.cfD X).bind s.VertexIndex, s.VertexIndex f.pD with
  | some v, some vD =>
    (if v = vD then s.setLath f.pA (fun l => { l with m_pClockwiseVertex := some X })
      else some s).bind fun s =>
    match (s.ccf X).bind s.VertexIndex, s.VertexIndex f.pB with
    | some v2, some vB =>
      if v2 = vB then s.setLath X (fun l => { l with m_pClockwiseVertex := some f.pA })
      else some s
    | _, _ => none
  | _, _ => none

/-- One iteration of the first linking loop ("Now connect up the laths we
have created"). -/
def SubdivideFace.linkFace (aQfv : List Nat) (apFaceLaths : List SqFaceLathList) (n : Nat)
    (i : Nat) (s : CqSubdivision2) : Option CqSubdivision2 :=
  match aQfv[i]?, apFaceLaths[i]?, apFaceLaths[(i + 1) % n]? with
  | some q, some f, some fNext =>
    (s.setLath q (fun l => { l with m_pFaceVertex := some f.pC })).bind fun s =>
    (s.setLath fNext.pD (fun l => { l with m_pClockwiseVertex := some f.pB })).bind fun s =>
    (s.setLath f.pC (fun l => { l with m_pClockwiseVertex := some fNext.pC })).bind fun s =>
    (s.VertexIndex f.pA).bind fun vA =>
    (s.m_aapVertices[vA]?).bind fun adj =>
    forEach (SubdivideFace.linkCorner f) adj s
  | _, _, _ => none

/-- The scan of the adjacency list of `pB`'s vertex in the second linking
loop: one step for the lath `X`. -/
def SubdivideFace.linkEdgeB (f : SqFaceLathList) (X : Nat) (s : CqSubdivision2) :
    Option CqSubdivision2 :=
  match (s.cfD X).bind s.VertexIndex, s.VertexIndex f.pA with
  | some v, some vA =>
    if v = vA then s.setLath f.pB (fun l => { l with m_pClockwiseVertex := some X })
    else some s
  | _, _ => none

/-- The scan of the adjacency list of `pD`'s vertex in the second linking
loop: one step for the lath `X`. -/
def SubdivideFace.linkEdgeD (f : SqFaceLathList) (X : Nat) (s : CqSubdivision2) :
    Option CqSubdivision2 :=
  match (s.ccf X).bind s.VertexIndex, s.VertexIndex f.pA with
  | some v, some vA =>
    if v = vA then s.setLath X (fun l => { l with m_pClockwiseVertex := some f.pD })
    else some s
  | _, _ => none

/-- One iteration of the second linking loop (the edge midpoints). -/
def SubdivideFace.linkEdge (apFaceLaths : List SqFaceLathList) (i : Nat) (s : CqSubdivision2) :
    Option CqSubdivision2 :=
  match apFaceLaths[i]? with
  | none => none
  | some f =>
    (s.VertexIndex f.pB).bind fun vB =>
    (s.m_aapVertices[vB]?).bind fun adjB =>
    (forEach (SubdivideFace.linkEdgeB f) adjB s).bind fun s =>
    (s.VertexIndex f.pD).bind fun vD =>
    (s.m_aapVertices[vD]?).bind fun adjD =>
    forEach (SubdivideFace.linkEdgeD f) adjD s

/-- The part of `SubdivideFace` after the neighbour pre-pass: the new
points, the new laths and the two linking loops.  Returns the new state and
`apSubFaces`. -/
def SubdivideFace.refine (s : CqSubdivision2) (pFace : Nat) : Option (CqSubdivision2 × List Nat) :=
  (s.Qfv pFace).bind fun aQfv =>
  let n := aQfv.length
  (s.AddFaceVertex pFace).bind fun r =>
  let iVert := r.2
  (forEach SubdivideFace.edgePoint aQfv (r.1, [])).bind fun rE =>
  (forEach SubdivideFace.cornerPoint aQfv (rE.1, [])).bind fun rV =>
  let aVertices := rV.2 ++ rE.2 ++ [iVert]
  (forEach (SubdivideFace.createFace pFace aQfv aVertices n) (List.range n) (rV.1, [], [])).bind
    fun rC =>
  (forEach (SubdivideFace.linkFace aQfv rC.2.1 n) (List.range n) rC.1).bind fun s1 =>
  (forEach (SubdivideFace.linkEdge rC.2.1) (List.range n) s1).bind fun s2 =>
  some (s2, rC.2.2)

/-- `CqSubdivision2::SubdivideFace`.  `Qff` stands for `CqLath::Qff`, which
is defined in `lath.cpp`; `depth` bounds the nesting of the recursive calls of
the pre-pass.  Returns the new state and `apSubFaces`. -/
def SubdivideFace (Qff : CqSubdivision2 → Nat → Option (List Nat)) :
    Nat → CqSubdivision2 → Nat → Option (CqSubdivision2 × List Nat)
  | 0, _, _ => none
  | depth + 1, s, pFace =>
    match s.lath pFace with
    | none => none
    | some l =>
      match l.m_pFaceVertex with
      | some fv =>
        (s.Qvf fv).bind fun aQvf =>
        (aQvf.mapM (fun x => (s.ccf x).bind s.ccf)).map fun sub => (s, sub)
      | none =>
        (match l.m_pParentFacet with
          | none => some s
          | some par =>
            (Qff s par).bind fun aQff =>
              forEach (fun f st => (SubdivideFace Qff depth st f).map Prod.fst) aQff s).bind
          fun s1 => SubdivideFace.refine s1 pFace


/-! ## Vertex chains and manifold vertices -/

/-- The forward part of the walk round a vertex, as the `do ... while` loop of
`SubdivideFace` makes it: the laths met from `p` by following vertex-neighbour
links until the link is missing (`false`) or leads back to `start` (`true`). -/
def vertexChain.forward (s : CqSubdivision2) (start : Nat) : Nat → Nat → Option (List Nat × Bool)
  | 0, _ => none
  | fuel + 1, p =>
    match s.cv p with
    | none => none
    | some none => some ([p], false)
    | some (some q) =>
      if q = start then some ([p], true)
      else (vertexChain.forward s start fuel q).map (fun r => (p :: r.1, r.2))

/-- The backward part of the walk round a vertex: the laths met from `p` by
following `ccv()` until it is NULL; meeting `start` again fails the walk. -/
def vertexChain.backward (s : CqSubdivision2) (start : Nat) : Nat → Option Nat → Option (List Nat)
  | 0, _ => none
  | _ + 1, none => some []
  | fuel + 1, some p =>
    if p = start then none
    else match s.ccv p with
      | none => none
      | some q => (vertexChain.backward s start fuel q).map (fun r => p :: r)

/-- The vertex-chain of a lath: the laths reached by following vertex-neighbour
links forward and, when the forward walk ends at a missing link, the laths
reached backward from the start as well. -/
def vertexChain (s : CqSubdivision2) (start : Nat) : Option (List Nat) :=
  match vertexChain.forward s start (s.m_apLaths.length + 1) start with
  | none => none
  | some (fw, true) => some fw
  | some (fw, false) =>
    (s.ccv start).bind fun p =>
      (vertexChain.backward s start (s.m_apLaths.length + 1) p).map (fun bw => fw ++ bw)

/-- The vertex index of the face-neighbour of a lath: the far end of the
edge the lath's facet leaves the vertex by. -/
def outKey (s : CqSubdivision2) (h : Nat) : Option Nat := (s.cfD h).bind s.VertexIndex

/-- The vertex index of the face-predecessor of a lath: the far end of the
edge the lath's facet reaches the vertex by. -/
def innKey (s : CqSubdivision2) (h : Nat) : Option Nat := (s.ccf h).bind s.VertexIndex

/-- Vertex `v` is manifold: the facet corners in its adjacency list can be
arranged as one consistently oriented fan, open or closed.  Each corner's
incoming edge is the outgoing edge of the next corner of the fan, no two
corners leave the vertex by the same edge and no two reach it by the same edge
(so an edge at the vertex is used by at most two facets, in opposite
directions), and no corner leaves and reaches the vertex by the same edge. -/
def ManifoldVertex (s : CqSubdivision2) (v : Nat) : Prop :=
  ∃ fan : List Nat, fan.Perm ((s.m_aapVertices[v]?).getD []) ∧
    (fan.map s.outKey).Nodup ∧ (fan.map s.innKey).Nodup ∧
    List.Chain' (fun a b => s.innKey a = s.outKey b) fan ∧
    ∀ h ∈ fan, s.outKey h ≠ s.innKey h

/-- The links `f` at the laths of adjacency list `vert` are the ones the
matching rule prescribes: `x` is linked to `y` exactly when `y` is at the same
vertex and leaves it by the edge `x` reaches it by. -/
def Matched (s : CqSubdivision2) (f : Nat → Option Nat) (vert : List Nat) : Prop :=
  ∀ x ∈ vert, ∀ y, f x = some y ↔ (y ∈ vert ∧ s.outKey y = s.innKey x)

/-- The state with the vertex-neighbour link of every lath `h` replaced by
`f h`. -/
def withCv (s : CqSubdivision2) (f : Nat → Option Nat) : CqSubdivision2 :=
  { s with m_apLaths :=
      s.m_apLaths.mapIdx (fun i l => { l with m_pClockwiseVertex := f i }) }

/-- The last lath of the path `c, path`. -/
def lastOf : Nat → List Nat → Nat
  | c, [] => c
  | _, m :: rest => lastOf m rest

/-- The links after each lath of the path `c, path` has been given the next
one as vertex-neighbour. -/
def linkAlong (f : Nat → Option Nat) : Nat → List Nat → Nat → Option Nat
  | _, [] => f
  | c, m :: rest => linkAlong (Function.update f c (some m)) m rest

/-- The links after each lath of the path `c, path` has been made the
vertex-neighbour of the next one. -/
def linkBack (f : Nat → Option Nat) : Nat → List Nat → Nat → Option Nat
  | _, [] => f
  | c, m :: rest => linkBack (Function.update f m (some c)) m rest

/-! ## Well-formed topologies -/

/-- The attribute arrays all have `m` slots and there is at least one array. -/
def Uniform (params : List (List CqParameter)) (m : Nat) : Prop :=
  params.flatten ≠ [] ∧ ∀ p ∈ params.flatten, p.m_Size = m

/-- A well-formed topology: every link of every lath points at a lath, every
lath lies on a closed facet ring, every vertex index is inside the adjacency
table, an adjacency list holds only laths that reference its vertex, and the
attribute arrays all have as many slots as the adjacency table has entries. -/
structure Valid (s : CqSubdivision2) : Prop where
  ptr : ∀ l ∈ s.m_apLaths,
    (∀ p, l.m_pClockwiseVertex = some p → p < s.m_apLaths.length) ∧
    (∀ p, l.m_pParentFacet = some p → p < s.m_apLaths.length) ∧
    (∀ p, l.m_pChildVertex = some p → p < s.m_apLaths.length) ∧
    (∀ p, l.m_pMidVertex = some p → p < s.m_apLaths.length) ∧
    (∀ p, l.m_pFaceVertex = some p → p < s.m_apLaths.length)
  rings : ∀ h, h < s.m_apLaths.length → ∃ ring, s.IsRing ring ∧ h ∈ ring
  vlt : ∀ l ∈ s.m_apLaths, l.m_VertexIndex < s.m_aapVertices.length
  adj : ∀ (v : Nat) (a : List Nat) (h : Nat),
    s.m_aapVertices[v]? = some a → h ∈ a → s.VertexIndex h = some v
  params : Uniform s.aUserParams s.m_aapVertices.length

/-- The state after `k` new vertices have been added to a well-formed
topology: `k` more slots in every attribute array and `k` more, empty,
adjacency lists. -/
def growBy (k : Nat) (s : CqSubdivision2) : CqSubdivision2 :=
  { s with
    aUserParams := s.aUserParams.map (fun slot => slot.map (fun p =>
      { p with m_Size := p.m_Size + k })),
    m_aapVertices := s.m_aapVertices ++ List.replicate k [] }

/-! ## The new points of a refinement -/

/-- The test of the edge-midpoint loop: the index of the mid-edge vertex
the edge companion already refers to, `some none` when a new vertex has to be
made, `none` when a pointer dangles. -/
def SubdivideFace.edgeReuse (s : CqSubdivision2) (q : Nat) : Option (Option Nat) :=
  match s.ec q with
  | none => none
  | some none => some none
  | some (some e) =>
    match s.lath e with
    | none => none
    | some le =>
      match le.m_pMidVertex with
      | none => some none
      | some m => (s.VertexIndex m).map some

/-- The test of the corner loop: the index of the child vertex the corner
already refers to, `some none` when a new vertex has to be made. -/
def SubdivideFace.cornerReuse (s : CqSubdivision2) (q : Nat) : Option (Option Nat) :=
  match s.lath q with
  | none => none
  | some lq =>
    match lq.m_pChildVertex with
    | none => some none
    | some c => (s.VertexIndex c).map some

/-- The indices one of the two point loops stores, when the vertex table had
`T` entries before the refinement and `k` vertices have been added since:
a reused index, or the next new one.  Returns the number of vertices added
and the indices stored. -/
def SubdivideFace.pointsFold (reuse : Nat → Option (Option Nat)) (T : Nat) :
    List Nat → Nat → Option (Nat × List Nat)
  | [], k => some (k, [])
  | q :: qs, k =>
    match reuse q with
    | none => none
    | some none =>
      (SubdivideFace.pointsFold reuse T qs (k + 1)).map (fun r => (r.1, (T + k) :: r.2))
    | some (some v) =>
      (SubdivideFace.pointsFold reuse T qs k).map (fun r => (r.1, v :: r.2))

/-- The number of vertices a refinement of the face with corner ring `aQfv`
adds and the array `aVertices` it fills: the face point is made first, then
the edge points, then the corner children. -/
def SubdivideFace.aVertices (s : CqSubdivision2) (aQfv : List Nat) : Option (Nat × List Nat) :=
  (SubdivideFace.pointsFold (SubdivideFace.edgeReuse s) s.m_aapVertices.length aQfv 1).bind
    fun rE =>
  (SubdivideFace.pointsFold (SubdivideFace.cornerReuse s) s.m_aapVertices.length aQfv rE.1).map
    fun rV => (rV.1, rV.2 ++ rE.2 ++ [s.m_aapVertices.length])

/-! ## The new laths of a refinement -/

/-- A lath without its child-vertex and mid-vertex pointers: what the
lath-creating loop of `SubdivideFace` leaves alone. -/
def CqLath.dropCM (l : CqLath) : CqLath :=
  { l with m_pChildVertex := none, m_pMidVertex := none }

/-- A lath without its vertex-neighbour and face-vertex pointers: what the
linking loops of `SubdivideFace` leave alone. -/
def CqLath.dropCF (l : CqLath) : CqLath :=
  { l with m_pClockwiseVertex := none, m_pFaceVertex := none }

/-- The four laths of a child face as the lath-creating loop leaves them,
when the first of them is lath `base`. -/
def SubdivideFace.four (pFace base vA vB vC vD : Nat) : List CqLath :=
  [ ⟨none, some (base + 1), some pFace, none, none, none, vA⟩,
    ⟨none, some (base + 2), some pFace, none, none, none, vB⟩,
    ⟨none, some (base + 3), some pFace, none, none, none, vC⟩,
    ⟨none, some base, some pFace, none, none, none, vD⟩ ]

/-- The adjacency table after the four laths of a child face are entered. -/
def SubdivideFace.hitFour (table : List (List Nat)) (base vA vB vC vD : Nat) : List (List Nat) :=
  (((table.modify (fun l => l ++ [base]) vA).modify (fun l => l ++ [base + 1]) vB).modify
    (fun l => l ++ [base + 2]) vC).modify (fun l => l ++ [base + 3]) vD

/-- The state in which the laths in `chain` have `pLathA` as child vertex. -/
def markChild (s : CqSubdivision2) (chain : List Nat) (pLathA : Nat) : CqSubdivision2 :=
  { s with m_apLaths := s.m_apLaths.mapIdx (fun h l =>
      if h ∈ chain then { l with m_pChildVertex := some pLathA } else l) }

/-- The state of the lath-creating loop after the four laths of a child
face are allocated, joined, given their parent and entered in the table. -/
def SubdivideFace.allocated (pFace vA vB vC vD : Nat) (s : CqSubdivision2) : CqSubdivision2 :=
  { s with
    m_apLaths := s.m_apLaths ++ SubdivideFace.four pFace s.m_apLaths.length vA vB vC vD,
    m_aapVertices := SubdivideFace.hitFour s.m_aapVertices s.m_apLaths.length vA vB vC vD }

/-- What one iteration of the lath-creating loop does for corner `q`, whose
vertex-chain is `chain`: the four new laths, the child-vertex pointer on the
chain, the mid-vertex pointer on `q`, the new facet and the new entries of
`apFaceLaths` and `apSubFaces`. -/
structure SubdivideFace.Step (pFace q vA vB vC vD : Nat) (chain : List Nat)
    (st st' : SubdivideFace.CreateState) : Prop where
  laths : ∀ h, st'.1.lath h =
    ((st.1.m_apLaths ++ SubdivideFace.four pFace st.1.m_apLaths.length vA vB vC vD)[h]?).map
      (fun l =>
        { (if h ∈ chain then { l with m_pChildVertex := some st.1.m_apLaths.length } else l) with
          m_pMidVertex := if h = q then some (st.1.m_apLaths.length + 3)
            else l.m_pMidVertex })
  table : st'.1.m_aapVertices =
    SubdivideFace.hitFour st.1.m_aapVertices st.1.m_apLaths.length vA vB vC vD
  facets : st'.1.m_apFacets = st.1.m_apFacets ++ [st.1.m_apLaths.length]
  params : st'.1.aUserParams = st.1.aUserParams
  faces : st'.2.1 = st.2.1 ++ [⟨st.1.m_apLaths.length, st.1.m_apLaths.length + 1,
    st.1.m_apLaths.length + 2, st.1.m_apLaths.length + 3⟩]
  subs : st'.2.2 = st.2.2 ++ [st.1.m_apLaths.length]

/-- The four laths of the `j`-th child face of a face refined in a topology
of `N` laths, with the vertex array `aV` and `n` corners. -/
def SubdivideFace.child (pFace N : Nat) (aV : List Nat) (n j : Nat) : List CqLath :=
  SubdivideFace.four pFace (N + 4 * j) (aV.getD j 0) (aV.getD ((j + 1) % n + n) 0)
    (aV.getD (2 * n) 0) (aV.getD (j + n) 0)

/-- The laths of the first `i` child faces. -/
def SubdivideFace.children (pFace N : Nat) (aV : List Nat) (n : Nat) : Nat → List CqLath
  | 0 => []
  | i + 1 => SubdivideFace.children pFace N aV n i ++ SubdivideFace.child pFace N aV n i

/-- The adjacency table after the first `i` child faces are entered. -/
def SubdivideFace.tableAfter (table : List (List Nat)) (N : Nat) (aV : List Nat) (n : Nat) :
    Nat → List (List Nat)
  | 0 => table
  | i + 1 => SubdivideFace.hitFour (SubdivideFace.tableAfter table N aV n i) (N + 4 * i)
      (aV.getD i 0) (aV.getD ((i + 1) % n + n) 0) (aV.getD (2 * n) 0) (aV.getD (i + n) 0)

/-- The entry of `apFaceLaths` for the `j`-th child face. -/
def SubdivideFace.faceLaths (N j : Nat) : SqFaceLathList :=
  ⟨N + 4 * j, N + 4 * j + 1, N + 4 * j + 2, N + 4 * j + 3⟩

/-- The state of the lath-creating loop after `i` iterations, started from
the laths `L0`, the adjacency table `Tb0`, the facets `F0` and the attribute
arrays `P0`. -/
structure SubdivideFace.Created (L0 : List CqLath) (Tb0 : List (List Nat)) (F0 : List Nat)
    (P0 : List (List CqParameter)) (pFace : Nat) (aV : List Nat) (n i : Nat)
    (st : SubdivideFace.CreateState) : Prop where
  laths : st.1.m_apLaths.map CqLath.dropCM =
    L0.map CqLath.dropCM ++ SubdivideFace.children pFace L0.length aV n i
  table : st.1.m_aapVertices = SubdivideFace.tableAfter Tb0 L0.length aV n i
  facets : st.1.m_apFacets = F0 ++ (List.range i).map (fun j => L0.length + 4 * j)
  params : st.1.aUserParams = P0
  faces : st.2.1 = (List.range i).map (SubdivideFace.faceLaths L0.length)
  subs : st.2.2 = (List.range i).map (fun j => L0.length + 4 * j)
  ptr : ∀ h l, st.1.lath h = some l →
    (∀ c, l.m_pChildVertex = some c → c < L0.length + 4 * i) ∧
    (∀ m, l.m_pMidVertex = some m → m < L0.length + 4 * i)

/-- The vertex index of the `k`-th lath of the `j`-th child face: the child
vertex of corner `j`, the mid-edge vertex of the next edge, the face point and
the mid-edge vertex of edge `j`. -/
def SubdivideFace.cornerVertex (aV : List Nat) (n j : Nat) : Nat → Nat
  | 0 => aV.getD j 0
  | 1 => aV.getD ((j + 1) % n + n) 0
  | 2 => aV.getD (2 * n) 0
  | _ => aV.getD (j + n) 0

/-- The vertex-neighbour of a lath, dereferenced: fails on NULL. -/
def cvD (s : CqSubdivision2) (h : Nat) : Option Nat :=
  (s.lath h).bind CqLath.m_pClockwiseVertex

/-- State `s'` comes from `s` by writes to vertex-neighbour links of laths in
`W` and to face-vertex pointers of laths in `Wf` only. -/
structure LinkRel (W Wf : Nat → Prop) (s s' : CqSubdivision2) : Prop where
  same : s'.m_apLaths.map CqLath.dropCF = s.m_apLaths.map CqLath.dropCF
  table : s'.m_aapVertices = s.m_aapVertices
  facets : s'.m_apFacets = s.m_apFacets
  params : s'.aUserParams = s.aUserParams
  cvFrame : ∀ h, ¬ W h → s'.cv h = s.cv h
  faceFrame : ∀ h, ¬ Wf h →
    (s'.lath h).map CqLath.m_pFaceVertex = (s.lath h).map CqLath.m_pFaceVertex

/-- No lath of the topology has been refined or is the child of a refined
face: the state of a control mesh. -/
def Unrefined (s : CqSubdivision2) : Prop :=
  ∀ l ∈ s.m_apLaths, l.m_pParentFacet = none ∧ l.m_pChildVertex = none ∧
    l.m_pMidVertex = none ∧ l.m_pFaceVertex = none

/-- The child-vertex and mid-vertex pointers after `i` iterations of the
lath-creating loop on the corners `aQfv`, started in state `s`: corner `j`
has the fourth lath of child `j` as mid vertex, the other old laths keep
their mid vertex, and the laths on the vertex-chain of corner `j` have the
first lath of child `j` as child vertex unless the chain of a later corner
meets that chain. -/
structure SubdivideFace.Marked (s : CqSubdivision2) (aQfv : List Nat) (i : Nat)
    (st : SubdivideFace.CreateState) : Prop where
  mid : ∀ j, j < i → (st.1.lath (aQfv.getD j 0)).map CqLath.m_pMidVertex =
    some (some (s.m_apLaths.length + (4 * j + 3)))
  midFrame : ∀ h, (∀ j, j < i → h ≠ aQfv.getD j 0) → h < s.m_apLaths.length →
    (st.1.lath h).map CqLath.m_pMidVertex = (s.lath h).map CqLath.m_pMidVertex
  child : ∀ j, j < i → ∀ chain, s.vertexChain (aQfv.getD j 0) = some chain →
    (∀ j2, j < j2 → j2 < i →
      ∃ chain2, s.vertexChain (aQfv.getD j2 0) = some chain2 ∧ List.Disjoint chain chain2) →
    ∀ K ∈ chain, (st.1.lath K).map CqLath.m_pChildVertex =
      some (some (s.m_apLaths.length + 4 * j))

/-- What a successful refinement of the face of lath `pFace` does: `aQfv` is
the corner ring, `k` the number of new vertices, `aV` the vertex array, `sc`
the state after the lath-creating loop, `s'` the final state and `sub` the
child faces returned. -/
structure SubdivideFace.Refined (s : CqSubdivision2) (pFace : Nat) (s' : CqSubdivision2)
    (sub aQfv : List Nat) (k : Nat) (aV : List Nat) (sc : CqSubdivision2) : Prop where
  qfv : s.Qfv pFace = some aQfv
  ring : s.IsRing aQfv
  points : SubdivideFace.aVertices s aQfv = some (k, aV)
  created : SubdivideFace.Created s.m_apLaths (growBy k s).m_aapVertices s.m_apFacets
    (growBy k s).aUserParams pFace aV aQfv.length aQfv.length
    (sc, (List.range aQfv.length).map (SubdivideFace.faceLaths s.m_apLaths.length), sub)
  marked : SubdivideFace.Marked s aQfv aQfv.length
    (sc, (List.range aQfv.length).map (SubdivideFace.faceLaths s.m_apLaths.length), sub)
  validC : sc.Valid
  valid : s'.Valid
  link : LinkRel
    (fun h => s.m_apLaths.length ≤ h ∨
      ∃ j, j < 2 * aQfv.length ∧ sc.VertexIndex h = some (aV.getD j 0))
    (fun h => h ∈ aQfv) sc s'
  cvC : ∀ j, j < aQfv.length →
    s'.cv (s.m_apLaths.length + (4 * j + 2)) =
      some (some (s.m_apLaths.length + (4 * ((j + 1) % aQfv.length) + 2)))
  face : ∀ j, j < aQfv.length →
    (s'.lath (aQfv.getD j 0)).map CqLath.m_pFaceVertex =
      some (some (s.m_apLaths.length + (4 * j + 2)))

/-! ## Example meshes -/

/-- One attribute array (the positions) sized for `cVerts` vertices, in a
single time slot. -/
def positionsOnly (cVerts : Nat) : List (List CqParameter) :=
  [[⟨EqVariableType.type_point, cVerts⟩]]

/-- A single quad on the vertices 0, 1, 2, 3, before `Finalise`. -/
def quadMesh : CqSubdivision2 :=
  (buildMesh (positionsOnly 4) 4 [[0, 1, 2, 3]]).getD (empty [])

/-- Two quads, on the vertices 0, 1, 4, 3 and 1, 2, 5, 4, sharing the edge
between vertices 1 and 4, before `Finalise`. -/
def twoQuads : CqSubdivision2 :=
  (buildMesh (positionsOnly 6) 6 [[0, 1, 4, 3], [1, 2, 5, 4]]).getD (empty [])

/-- The fan of each vertex of `twoQuads`. -/
def twoQuads.fan : Nat → List Nat
  | 4 => [7, 2]
  | v => (twoQuads.m_aapVertices[v]?).getD []

/-- Three triangles forming a closed fan round vertex 0, and a fourth
triangle that touches that fan at vertex 0 only, before `Finalise`. -/
def fanAndStray : CqSubdivision2 :=
  (buildMesh (positionsOnly 6) 6 [[0, 1, 2], [0, 2, 3], [0, 3, 1], [0, 4, 5]]).getD (empty [])

/-- The state `Finalise` leaves `fanAndStray` in. -/
def fanAndStray.finalised : CqSubdivision2 :=
  (fanAndStray.Finalise.map Prod.fst).getD (empty [])

/-- The state `Finalise` leaves `quadMesh` in. -/
def quadMesh.finalised : CqSubdivision2 :=
  (quadMesh.Finalise.map Prod.fst).getD (empty [])

/-- The state after the quad of `quadMesh.finalised` is subdivided. -/
def quadMesh.refined : CqSubdivision2 :=
  ((SubdivideFace Qff 1 quadMesh.finalised 0).map Prod.fst).getD (empty [])

/-- The state `Finalise` leaves `twoQuads` in. -/
def twoQuads.finalised : CqSubdivision2 :=
  (twoQuads.Finalise.map Prod.fst).getD (empty [])

/-- The state after the first quad of `twoQuads.finalised` is subdivided. -/
def twoQuads.refined1 : CqSubdivision2 :=
  ((SubdivideFace Qff 1 twoQuads.finalised 0).map Prod.fst).getD (empty [])

/-- The state after both quads of `twoQuads.finalised` are subdivided, the
first one first. -/
def twoQuads.refined2 : CqSubdivision2 :=
  ((SubdivideFace Qff 1 twoQuads.refined1 4).map Prod.fst).getD (empty [])

end CqSubdivision2

end Aqsis

namespace Aqsis

namespace CqSubdivision2

/-! ## CanUsePatch -/

/-- Modelled from the spec: `CqLath::cQfv` (in `lath.h`), the corner count of
the face of a lath: the number of laths on its facet ring. -/
def cQfv (s : CqSubdivision2) (this : Nat) : Option Nat :=
  (s.Qfv this).map List.length

/-- Modelled from the spec: `CqLath::cQvv` (in `lath.h`), the valence of the
vertex of a lath: the count of its 1-ring faces, which is empty when a
vertex-neighbour link is missing on the way round. -/
def cQvv (s : CqSubdivision2) (this : Nat) : Option Nat :=
  (s.Qvf this).map List.length

/-- The loop `while( (*iFV) != pEnd )` of `CanUsePatch` ("Check for no
internal boundaries"): `some false` when the walk meets NULL, `some true`
when it is back at the corner lath `pFV`. -/
def CanUsePatch.closes (s : CqSubdivision2) (pFV : Nat) : Nat → Option Nat → Option Bool
  | 0, _ => none
  | fuel + 1, pEnd =>
    if pEnd = some pFV then some true
    else match pEnd with
      | none => some false
      | some p => (s.cv p).bind (CanUsePatch.closes s pFV fuel)

/-- A `for` loop over a vector whose body leaves the function with `false`
when its test fails: `some true` when the loop runs to its end. -/
def CanUsePatch.every {α : Type} (check : α → Option Bool) : List α → Option Bool
  | [] => some true
  | a :: rest => (check a).bind fun ok => if ok then CanUsePatch.every check rest else some false

/-- The body of the first loop of `CanUsePatch`, for the corner lath `pFV`:
valence, then sharpness, then the walk round the vertex. -/
def CanUsePatch.corner (s : CqSubdivision2) (pFV : Nat) : Option Bool :=
  (s.cQvv pFV).bind fun c =>
  if c ≠ 4 then some false
  else if s.EdgeSharpness pFV ≠ 0 ∨ s.CornerSharpness pFV ≠ 0 then some false
  else (s.cv pFV).bind (CanUsePatch.closes s pFV (s.m_apLaths.length + 1))

/-- The body of the innermost loop of `CanUsePatch`: the sharpness test of a
corner lath of a neighbouring face. -/
def CanUsePatch.smooth (s : CqSubdivision2) (pFV : Nat) : Option Bool :=
  if s.EdgeSharpness pFV ≠ 0 ∨ s.CornerSharpness pFV ≠ 0 then some false else some true

/-- The body of the second loop of `CanUsePatch`, for the face `pFF` of the
1-ring: four corners, all of them smooth. -/
def CanUsePatch.neighbour (s : CqSubdivision2) (pFF : Nat) : Option Bool :=
  (s.cQfv pFF).bind fun c =>
  if c ≠ 4 then some false
  else (s.Qfv pFF).bind (CanUsePatch.every (CanUsePatch.smooth s))

/-- `CqSubdivision2::CanUsePatch`.  `Qff` stands for `CqLath::Qff`, which is
defined in `lath.cpp`. -/
def CanUsePatch (Qff : CqSubdivision2 → Nat → Option (List Nat)) (s : CqSubdivision2)
    (pFace : Nat) : Option Bool :=
  (s.cQfv pFace).bind fun c =>
  if c ≠ 4 then some false
  else
    (s.Qfv pFace).bind fun aQfv =>
    (CanUsePatch.every (CanUsePatch.corner s) aQfv).bind fun ok =>
    if ok then
      (Qff s pFace).bind fun aQff =>
      if aQff.length ≠ 9 then some false
      else CanUsePatch.every (CanUsePatch.neighbour s) aQff
    else some false

/-- Follow `cv()` links `k` times from `h`; fails on a missing link. -/
def cvIter (s : CqSubdivision2) : Nat → Nat → Option Nat
  | 0, h => some h
  | k + 1, h => (s.cvD h).bind (cvIter s k)

/-- The vertex-neighbour chain of lath `q` closes back on `q` without
reaching a missing link. -/
def ClosedChain (s : CqSubdivision2) (q : Nat) : Prop :=
  ∃ k, 0 < k ∧ s.cvIter k q = some q

/-- A lath with neither an edge nor a corner sharpness. -/
def Smooth (s : CqSubdivision2) (q : Nat) : Prop :=
  s.EdgeSharpness q = 0 ∧ s.CornerSharpness q = 0

/-- The conditions the specification lists for the regular-patch fast path
of the face of lath `pFace`: four corners, each of valence four, smooth and
with a closed vertex-neighbour chain, and a 1-ring of nine faces that are
quads with smooth corners. -/
def CanUsePatch.Regular (Qff : CqSubdivision2 → Nat → Option (List Nat)) (s : CqSubdivision2)
    (pFace : Nat) : Prop :=
  ∃ aQfv aQff, s.Qfv pFace = some aQfv ∧ aQfv.length = 4 ∧
    (∀ q ∈ aQfv, s.cQvv q = some 4) ∧
    (∀ q ∈ aQfv, s.Smooth q) ∧
    (∀ q ∈ aQfv, s.ClosedChain q) ∧
    Qff s pFace = some aQff ∧ aQff.length = 9 ∧
    ∀ g ∈ aQff, ∃ ring, s.Qfv g = some ring ∧ ring.length = 4 ∧ ∀ q ∈ ring, s.Smooth q

end CqSubdivision2

end Aqsis

namespace Aqsis

/-! ## Surface patches -/

/-- The values of `enum EqSplitDir` that `Diceable` stores. -/
inductive EqSplitDir where
  | SplitDir_U
  | SplitDir_V
deriving DecidableEq, Repr

/-- Modelled from the spec: the part of a `CqSurfaceSubdivisionPatch`
(declared in `subdivision2.h`) that `Diceable` reads and writes: the face
lath, the un-diceable mark of the cull check, the discard flag, the split
direction and the two dice sizes. -/
structure CqSurfaceSubdivisionPatch where
  m_pFace : Nat
  m_fDiceable : Bool
  m_fDiscard : Bool
  m_SplitDir : EqSplitDir
  m_uDiceSize : Int
  m_vDiceSize : Int
deriving DecidableEq, Repr

/-- What `Diceable` takes from outside this file.  A `TqFloat` is modelled
as a rational number, so the rounding of float arithmetic is not modelled.
`raster i` is `matCtoR * P[i]`, the raster position of control point `i`;
`ShadingRate` is the attribute `System/ShadingRate`; `SqrtGridSize` is the
option `System/SqrtGridSize`, `none` when it is not set; `sqrt` is the
library function; `ROUND` and `CEIL_POW2` are the macros of `aqsis.h`. -/
structure DiceContext where
  raster : Nat → ℚ × ℚ
  ShadingRate : ℚ
  SqrtGridSize : Option ℚ
  sqrt : ℚ → ℚ
  ROUND : ℚ → ℚ
  CEIL_POW2 : Int → Int

/-- The macro `MAX(a, b)`. -/
def MAX (a b : ℚ) : ℚ := if a > b then a else b

/-- The constant `FLT_EPSILON` of `float.h`, 2^-23. -/
def FLT_EPSILON : ℚ := 1 / 8388608

/-- The conversion `static_cast<TqInt>` of a float: truncation towards zero. -/
def truncate (x : ℚ) : Int := Int.tdiv x.num x.den

/-- `CqVector2D::Magnitude2`, the squared length of a raster vector. -/
def Magnitude2 (v : ℚ × ℚ) : ℚ := v.1 * v.1 + v.2 * v.2

/-- The difference of two raster positions (`CqVector2D::operator-`). -/
def vsub (a b : ℚ × ℚ) : ℚ × ℚ := (a.1 - b.1, a.2 - b.2)

namespace CqSurfaceSubdivisionPatch

/-- The value of `uLen` in `Diceable` after `uLen = sqrt( uLen / ShadingRate )`,
for the raster hull `h0 .. h3`. -/
def Diceable.uLen (ctx : DiceContext) (h0 h1 h2 h3 : ℚ × ℚ) : ℚ :=
  let Vec1 := vsub h1 h0
  let Vec2 := vsub h2 h3
  let uLen := if Magnitude2 Vec1 > Magnitude2 Vec2 then Magnitude2 Vec1 else Magnitude2 Vec2
  ctx.sqrt (uLen / ctx.ShadingRate)

/-- The value of `vLen` in `Diceable` after `vLen = sqrt( vLen / ShadingRate )`.
The second vector is `avecHull[ 1 ] - avecHull[ 1 ]` in the source. -/
def Diceable.vLen (ctx : DiceContext) (h0 h1 h3 : ℚ × ℚ) : ℚ :=
  let Vec1 := vsub h3 h0
  let Vec2 := vsub h1 h1
  let vLen := if Magnitude2 Vec1 > Magnitude2 Vec2 then Magnitude2 Vec1 else Magnitude2 Vec2
  ctx.sqrt (vLen / ctx.ShadingRate)

/-- The part of `Diceable` after the raster hull is known: split direction,
dice sizes, the discard test and the grid-size test. -/
def Diceable.sizes (ctx : DiceContext) (p : CqSurfaceSubdivisionPatch)
    (h0 h1 h2 h3 : ℚ × ℚ) : CqSurfaceSubdivisionPatch × Bool :=
  let uLen := Diceable.uLen ctx h0 h1 h2 h3
  let vLen := Diceable.vLen ctx h0 h1 h3
  let p1 := { p with m_SplitDir :=
    if uLen > vLen then EqSplitDir.SplitDir_U else EqSplitDir.SplitDir_V }
  let uLen := MAX (ctx.ROUND uLen) 1
  let vLen := MAX (ctx.ROUND vLen) 1
  let p2 := { p1 with m_uDiceSize := truncate uLen, m_vDiceSize := truncate vLen }
  let p3 := { p2 with m_uDiceSize := ctx.CEIL_POW2 p2.m_uDiceSize,
                      m_vDiceSize := ctx.CEIL_POW2 p2.m_vDiceSize }
  if uLen < FLT_EPSILON ∨ vLen < FLT_EPSILON then
    ({ p3 with m_fDiscard := true }, false)
  else
    let gs : ℚ := match ctx.SqrtGridSize with
      | some g => g
      | none => 16
    if (p3.m_uDiceSize : ℚ) > gs then (p3, false)
    else if (p3.m_vDiceSize : ℚ) > gs then (p3, false)
    else (p3, true)

/-- `CqSurfaceSubdivisionPatch::Diceable` on the topology `s`.  Returns the
patch after the call and the result. -/
def Diceable (ctx : DiceContext) (Qff : CqSubdivision2 → Nat → Option (List Nat))
    (s : CqSubdivision2) (p : CqSurfaceSubdivisionPatch) :
    Option (CqSurfaceSubdivisionPatch × Bool) :=
  if !p.m_fDiceable then some (p, false)
  else
    (s.CanUsePatch Qff p.m_pFace).bind fun patch =>
    if patch then some (p, false)
    else
      (s.Qfv p.m_pFace).bind fun aQfv =>
      match aQfv with
      | [q0, q1, q2, q3] =>
        (s.VertexIndex q0).bind fun i0 =>
        (s.VertexIndex q1).bind fun i1 =>
        (s.VertexIndex q2).bind fun i2 =>
        (s.VertexIndex q3).bind fun i3 =>
        some (Diceable.sizes ctx p (ctx.raster i0) (ctx.raster i1) (ctx.raster i2)
          (ctx.raster i3))
      | _ => some (p, false)

end CqSurfaceSubdivisionPatch

/-! ## Surface meshes -/

namespace CqSurfaceSubdivisionMesh

/-- The body of the loop of `Split` for the facet index `face`; the state is
`aSplits` and `CreatedPolys`.  A surface in `aSplits` is represented by the
lath its patch is constructed with. -/
def Split.body (isBoundaryFacet : CqSubdivision2 → Nat → Bool)
    (isHoleFace : CqSubdivision2 → Nat → Bool) (s : CqSubdivision2) (face : Nat)
    (st : List Nat × Nat) : Option (List Nat × Nat) :=
  (s.pFacet face).bind fun pF =>
  if (!isBoundaryFacet s pF) || s.m_bInterpolateBoundary then
    if !isHoleFace s face then some (st.1 ++ [pF], st.2 + 1) else some st
  else some st

/-- `CqSurfaceSubdivisionMesh::Split` for a mesh of `m_NumFaces` facets over
the topology `s`.  `isBoundaryFacet` stands for `CqLath::isBoundaryFacet` and
`isHoleFace` for `CqSubdivision2::isHoleFace`, which are defined outside this
file.  Returns `aSplits` after the call and the result. -/
def Split (isBoundaryFacet : CqSubdivision2 → Nat → Bool)
    (isHoleFace : CqSubdivision2 → Nat → Bool) (s : CqSubdivision2) (m_NumFaces : Nat)
    (aSplits : List Nat) : Option (List Nat × Nat) :=
  CqSubdivision2.forEach (Split.body isBoundaryFacet isHoleFace s) (List.range m_NumFaces)
    (aSplits, 0)

/-- Facet `k` is one `Split` makes a patch for: not a hole, and not on the
boundary unless the boundary is interpolated. -/
def Eligible (isBoundaryFacet : CqSubdivision2 → Nat → Bool)
    (isHoleFace : CqSubdivision2 → Nat → Bool) (s : CqSubdivision2) (k : Nat) : Bool :=
  !isHoleFace s k &&
    (s.m_bInterpolateBoundary || match s.pFacet k with
      | some pF => !isBoundaryFacet s pF
      | none => false)

end CqSurfaceSubdivisionMesh

end Aqsis

namespace Aqsis

namespace CqSubdivision2

/-! ## What a refinement keeps and what it adds -/

/-- The entry of the sharp-edge map for lath `h`, if there is one. -/
def edgeTag (s : CqSubdivision2) (h : Nat) : Option (Nat × ℚ) :=
  s.m_mapSharpEdges.find? (fun e => e.1 = h)

/-- The entry of the sharp-corner map for lath `h`, if there is one. -/
def cornerTag (s : CqSubdivision2) (h : Nat) : Option (Nat × ℚ) :=
  s.m_mapSharpCorners.find? (fun e => e.1 = h)

/-- The part of a lath that is fixed when it is made: its vertex index, its
face-neighbour link and its parent link. -/
def CqLath.core (l : CqLath) : Nat × Option Nat × Option Nat :=
  (l.m_VertexIndex, l.m_pClockwiseFacet, l.m_pParentFacet)

/-- State `t` comes from state `s` by appending only: the laths of `s` are
the first laths of `t`, with the same vertex index, face-neighbour link and
parent link; the facets of `s` are the first facets of `t`; every adjacency
list of `s` is at the same place in `t` and is the beginning of the list
there; and the laths of `s` have the sharpness tags they had. -/
structure Grows (s t : CqSubdivision2) : Prop where
  laths : s.m_apLaths.map CqLath.core <+: t.m_apLaths.map CqLath.core
  facets : s.m_apFacets <+: t.m_apFacets
  table : ∀ (v : Nat) (a : List Nat), s.m_aapVertices[v]? = some a →
    ∃ a2 : List Nat, t.m_aapVertices[v]? = some a2 ∧ a <+: a2
  edges : ∀ h, h < s.m_apLaths.length → t.edgeTag h = s.edgeTag h
  corners : ∀ h, h < s.m_apLaths.length → t.cornerTag h = s.cornerTag h

/-- One edge transfer of the part "Transfer sharpness information": lath `p`
gets the squared edge weight of lath `q` when that weight is positive. -/
def SubdivideFace.tagEdge (q p : Nat) (s : CqSubdivision2) : CqSubdivision2 :=
  if s.EdgeSharpness q > 0 then s.AddSharpEdge p (TqFloat.mul (s.EdgeSharpness q) (s.EdgeSharpness q)) else s

/-- The corner transfer of the part "Transfer sharpness information": lath
`p` gets the corner weight of lath `q` when that weight is positive. -/
def SubdivideFace.tagCorner (q p : Nat) (s : CqSubdivision2) : CqSubdivision2 :=
  if s.CornerSharpness q > 0 then s.AddSharpCorner p (s.CornerSharpness q) else s

/-- State `t` has the sharpness maps of state `s`. -/
def SameSharp (s t : CqSubdivision2) : Prop :=
  t.m_mapSharpEdges = s.m_mapSharpEdges ∧ t.m_mapSharpCorners = s.m_mapSharpCorners

/-- Only laths of the topology carry a sharpness tag. -/
def SharpKeys (s : CqSubdivision2) : Prop :=
  ∀ h, s.m_apLaths.length ≤ h → s.edgeTag h = none ∧ s.cornerTag h = none

/-- The sharpness tags of state `t` after `i` iterations of the lath-creating
loop on the corners `aQfv`, started in state `s`: the first lath of child `j`
has the squared edge weight and the corner weight of corner `j` where these
are positive, the second lath of child `j` has the squared edge weight of the
next corner where it is positive, and every other tag is the one of `s`. -/
structure SubdivideFace.Tagged (s : CqSubdivision2) (aQfv : List Nat) (i : Nat)
    (t : CqSubdivision2) : Prop where
  edgeA : ∀ j, j < i → t.edgeTag (s.m_apLaths.length + 4 * j) =
    if 0 < s.EdgeSharpness (aQfv.getD j 0) then
      some (s.m_apLaths.length + 4 * j,
        TqFloat.mul (s.EdgeSharpness (aQfv.getD j 0)) (s.EdgeSharpness (aQfv.getD j 0)))
    else s.edgeTag (s.m_apLaths.length + 4 * j)
  edgeB : ∀ j, j < i → t.edgeTag (s.m_apLaths.length + 4 * j + 1) =
    if 0 < s.EdgeSharpness (aQfv.getD ((j + 1) % aQfv.length) 0) then
      some (s.m_apLaths.length + 4 * j + 1,
        TqFloat.mul (s.EdgeSharpness (aQfv.getD ((j + 1) % aQfv.length) 0))
            (s.EdgeSharpness (aQfv.getD ((j + 1) % aQfv.length) 0)))
    else s.edgeTag (s.m_apLaths.length + 4 * j + 1)
  edgeRest : ∀ h, (∀ j, j < i → h ≠ s.m_apLaths.length + 4 * j ∧
      h ≠ s.m_apLaths.length + 4 * j + 1) → t.edgeTag h = s.edgeTag h
  cornerA : ∀ j, j < i → t.cornerTag (s.m_apLaths.length + 4 * j) =
    if 0 < s.CornerSharpness (aQfv.getD j 0) then
      some (s.m_apLaths.length + 4 * j, s.CornerSharpness (aQfv.getD j 0))
    else s.cornerTag (s.m_apLaths.length + 4 * j)
  cornerRest : ∀ h, (∀ j, j < i → h ≠ s.m_apLaths.length + 4 * j) →
    t.cornerTag h = s.cornerTag h

/-! ## Reachable states -/

/-- The states of a topology over the control facets `facets`: built with
`Prepare` and `AddFacet` over attribute arrays sized to the vertex table,
then possibly passed through `Finalise`, then refined by any number of
successful `SubdivideFace` calls. -/
inductive Reachable (Qff : CqSubdivision2 → Nat → Option (List Nat))
    (facets : List (List Nat)) : CqSubdivision2 → Prop where
  | built {params : List (List CqParameter)} {cVerts : Nat} {s : CqSubdivision2} :
      buildMesh params cVerts facets = some s → Uniform params cVerts → Reachable Qff facets s
  | finalised {params : List (List CqParameter)} {cVerts : Nat} {s0 s : CqSubdivision2}
      {b : Bool} :
      buildMesh params cVerts facets = some s0 → Uniform params cVerts →
      s0.Finalise = some (s, b) → Reachable Qff facets s
  | subdivided {d : Nat} {s s2 : CqSubdivision2} {pFace : Nat} {sub : List Nat} :
      Reachable Qff facets s → SubdivideFace Qff d s pFace = some (s2, sub) →
      Reachable Qff facets s2

/-- The facet rings of a state over the control facets `facets`: a lath
without a parent lies on the ring of one of the control facets, which has as
many laths as the facet has indices; a lath with a parent lies on a ring of
four; and the ring of the `k`-th facet entry has as many laths as the `k`-th
control facet has indices. -/
structure Levels (facets : List (List Nat)) (s : CqSubdivision2) : Prop where
  control : ∀ h lh, s.lath h = some lh → lh.m_pParentFacet = none →
    ∃ (k : Nat) (l : List Nat) (f : Nat) (ring : List Nat), facets[k]? = some l ∧
      s.m_apFacets[k]? = some f ∧ s.IsRing ring ∧
      h ∈ ring ∧ f ∈ ring ∧ ring.length = l.length
  refined : ∀ h lh, s.lath h = some lh → lh.m_pParentFacet ≠ none →
    ∃ ring, s.IsRing ring ∧ h ∈ ring ∧ ring.length = 4
  facet : ∀ (k : Nat) (l : List Nat), facets[k]? = some l →
    ∃ (f : Nat) (ring : List Nat), s.m_apFacets[k]? = some f ∧ s.IsRing ring ∧ f ∈ ring ∧ ring.length = l.length

end CqSubdivision2

end Aqsis

namespace Aqsis

/-! ## Dice sizes -/

/-- The cap on the dice sizes: the option `System/SqrtGridSize` when it is
set, 16 otherwise. -/
def gridCap (ctx : DiceContext) : ℚ := ctx.SqrtGridSize.getD 16

/-! ## Example patches and render contexts -/

/-- Doubling from `p` until `n` is reached, at most `fuel` times. -/
def ceilPow2.go (n : Nat) : Nat → Nat → Nat
  | 0, p => p
  | fuel + 1, p => if n ≤ p then p else ceilPow2.go n fuel (2 * p)

/-- An example for `CEIL_POW2`: the least power of two not below `x`. -/
def ceilPow2 (x : Int) : Int := (ceilPow2.go x.toNat x.toNat 1 : Nat)

/-- An example for `sqrt`, exact on the squares of natural numbers: the
integer square root of the integer part. -/
def sqrtExample (x : ℚ) : ℚ := (Nat.sqrt (truncate x).toNat : ℚ)

/-- An example for `ROUND`: the nearest integer, halves upwards. -/
def roundExample (x : ℚ) : ℚ := (Int.floor (x + 1 / 2) : ℚ)

/-- A render context in which every control point has the raster position
(0, 0): the raster extent of every face is zero in both directions. -/
def flatContext : DiceContext :=
  ⟨fun _ => (0, 0), 1, none, sqrtExample, roundExample, ceilPow2⟩

/-- A render context in which the control points 0, 1, 2, 3 are the corners
of a raster square of side 5, at shading rate 1. -/
def squareContext : DiceContext :=
  ⟨fun i => if i = 0 then (0, 0) else if i = 1 then (5, 0) else if i = 2 then (5, 5)
      else (0, 5), 1, none, sqrtExample, roundExample, ceilPow2⟩

/-- A patch for the face of lath 0, not marked un-diceable and not discarded. -/
def patch0 : CqSurfaceSubdivisionPatch :=
  ⟨0, true, false, EqSplitDir.SplitDir_U, 0, 0⟩

namespace CqSubdivision2

/-- A closed regular mesh: nine quads on a 3 x 3 torus grid. -/
def torus : CqSubdivision2 :=
  (buildMesh (positionsOnly 9) 9
    [[0, 3, 4, 1], [1, 4, 5, 2], [2, 5, 3, 0], [3, 6, 7, 4], [4, 7, 8, 5], [5, 8, 6, 3],
      [6, 0, 1, 7], [7, 1, 2, 8], [8, 2, 0, 6]]).getD (empty [])

/-- The state `Finalise` leaves `torus` in. -/
def torus.finalised : CqSubdivision2 :=
  (torus.Finalise.map Prod.fst).getD (empty [])

/-- The finalised single quad with the edge weight `w` and the corner
weight `c` tagged on lath 0. -/
def sharpQuad (w c : ℚ) : CqSubdivision2 :=
  (quadMesh.finalised.AddSharpEdge 0 w).AddSharpCorner 0 c

/-- The state after the quad of `sharpQuad w c` is subdivided. -/
def sharpQuad.refined (w c : ℚ) : CqSubdivision2 :=
  ((SubdivideFace Qff 1 (sharpQuad w c) 0).map Prod.fst).getD (empty [])

/-- The finalised single quad with the corner weight `c` tagged on lath 0
and no other tag. -/
def cornerQuad (c : ℚ) : CqSubdivision2 :=
  quadMesh.finalised.AddSharpCorner 0 c

/-- The state after the quad of `cornerQuad c` is subdivided. -/
def cornerQuad.refined (c : ℚ) : CqSubdivision2 :=
  ((SubdivideFace Qff 1 (cornerQuad c) 0).map Prod.fst).getD (empty [])

end CqSubdivision2

end Aqsis

namespace Aqsis

namespace CqSubdivision2

/-! ## Attribute arrays after a new vertex -/

/-- The attribute arrays with one more slot in every array of every time
slot; the type tag of an array is kept. -/
def grownParams (params : List (List CqParameter)) : List (List CqParameter) :=
  params.map (fun slot => slot.map (fun p => { p with m_Size := p.m_Size + 1 }))

/-! ## The matching rule of vertex-neighbour links -/

/-- The pair of laths `L`, `M` obeys the matching rule of `Finalise`: both
reference the same vertex, and the face-neighbour of `M` references the vertex
the face-predecessor of `L` references (the facet of `M` leaves the vertex by
the edge the facet of `L` reaches it by). -/
def LinkMatches (s : CqSubdivision2) (L M : Nat) : Prop :=
  (∃ v, s.VertexIndex L = some v ∧ s.VertexIndex M = some v) ∧
    ∃ w, s.outKey M = some w ∧ s.innKey L = some w

/-- State `t` comes from state `s` by writes of vertex-neighbour links that
obey the matching rule: the laths are the same otherwise, and every
vertex-neighbour link of `t` is one of `s` or joins a matching pair. -/
structure LinksFrom (s t : CqSubdivision2) : Prop where
  core : t.m_apLaths.map CqLath.dropCF = s.m_apLaths.map CqLath.dropCF
  links : ∀ L M, t.cv L = some (some M) → s.cv L = some (some M) ∨ s.LinkMatches L M

/-! ## Face points -/

/-- The face points of the refined faces are in place: a lath with a
face-vertex pointer `c` lies on a facet ring, the vertex ring of `c` is a
closed cycle of laths of one vertex with as many laths as the facet ring, and
no mid-vertex or child-vertex pointer of the topology leads to a lath of that
vertex. -/
structure FacePoints (s : CqSubdivision2) : Prop where
  cycle : ∀ (h : Nat) (l : CqLath) (c : Nat), s.lath h = some l → l.m_pFaceVertex = some c →
    ∃ (ring tl : List Nat), s.Qfv h = some ring ∧ IsCycle s.cvD (c :: tl) ∧
      (c :: tl).length = ring.length ∧ ∀ x ∈ c :: tl, s.VertexIndex x = s.VertexIndex c
  apart : ∀ (h : Nat) (l : CqLath) (c y : Nat) (ly : CqLath) (m : Nat),
    s.lath h = some l → l.m_pFaceVertex = some c → s.lath y = some ly →
    (ly.m_pMidVertex = some m ∨ ly.m_pChildVertex = some m) →
    s.VertexIndex m ≠ s.VertexIndex c

/-- Where the child-vertex and mid-vertex pointers of state `st` come from,
when `st` is reached from state `s` by `i` iterations of the lath-creating
loop: a child-vertex pointer is the first lath of one of the `i` new child
faces or the pointer the lath had in `s`, a mid-vertex pointer is the fourth
lath of one of the new child faces or the pointer the lath had in `s`. -/
def SubdivideFace.Origin (s : CqSubdivision2) (i : Nat) (st : CqSubdivision2) : Prop :=
  ∀ (y : Nat) (ly : CqLath), st.lath y = some ly →
    (∀ m, ly.m_pChildVertex = some m →
      (∃ j, j < i ∧ m = s.m_apLaths.length + 4 * j) ∨
        ∃ l0, s.lath y = some l0 ∧ l0.m_pChildVertex = some m) ∧
    (∀ m, ly.m_pMidVertex = some m →
      (∃ j, j < i ∧ m = s.m_apLaths.length + (4 * j + 3)) ∨
        ∃ l0, s.lath y = some l0 ∧ l0.m_pMidVertex = some m)

/-! ## Matched topologies -/

/-- The vertex-neighbour links of a well-formed topology are exactly the ones
the matching rule prescribes (lath `x` is linked to lath `y` exactly when `y`
is at the vertex of `x` and its facet leaves the vertex by the edge the facet
of `x` reaches it by), and no two facets leave a vertex by the same edge. -/
structure MatchedLinks (s : CqSubdivision2) : Prop where
  valid : s.Valid
  link : ∀ x y, x < s.m_apLaths.length → y < s.m_apLaths.length →
    (s.cv x = some (some y) ↔
      (s.VertexIndex y = s.VertexIndex x ∧ s.outKey y = s.innKey x))
  out : ∀ x y, x < s.m_apLaths.length → y < s.m_apLaths.length →
    s.VertexIndex x = s.VertexIndex y → s.outKey x = s.outKey y → x = y

/-- The face-neighbour of a lath of a well-formed topology. -/
def nx (s : CqSubdivision2) (h : Nat) : Nat := (s.cfD h).getD 0

/-- The face-predecessor of a lath of a well-formed topology. -/
def pv (s : CqSubdivision2) (h : Nat) : Nat := (s.ccf h).getD 0

/-- The vertex index of a lath of a well-formed topology. -/
def vx (s : CqSubdivision2) (h : Nat) : Nat := (s.VertexIndex h).getD 0

end CqSubdivision2

end Aqsis

namespace Aqsis

/-! ## Image channels

`CqImageChannel` is declared in `imagechannel.h`; the sources hold its unit
tests, `imagechannel_test.cpp`, only.  A channel is a strided view of one
component of an interleaved pixel array.  Samples are exact rationals here,
whatever the sample type. -/

/-- The sample types the unit tests name. -/
inductive EqChannelType where
  | Channel_Float32 | Channel_Unsigned16 | Channel_Unsigned8
deriving DecidableEq, Repr

/-- Modelled from the spec: `std::numeric_limits<T>::max()` of the sample
type of a channel, for the integer types (their minimum is zero); `none` for
the floating point type. -/
def EqChannelType.max : EqChannelType → Option ℚ
  | .Channel_Float32 => none
  | .Channel_Unsigned16 => some 65535
  | .Channel_Unsigned8 => some 255

/-- The value `v` is a value of the sample type: any number for the floating
point type, a whole number from zero to the maximum for an integer type. -/
def EqChannelType.Holds (t : EqChannelType) (v : ℚ) : Prop :=
  ∀ m, t.max = some m → ∃ k : Nat, v = k ∧ (k : ℚ) ≤ m

/-- Modelled from the spec: the state of a `CqImageChannel` (in
`imagechannel.h`): the sample type, the position of the first sample in the
underlying array (the data pointer), the width and height in pixels, the
distance between the samples of neighbouring pixels (the stride, counted in
samples of the array) and the number of pixels skipped at the end of each
row. -/
structure CqImageChannel where
  m_chanInfo : EqChannelType
  m_data : Nat
  m_width : Nat
  m_height : Nat
  m_stride : Nat
  m_rowSkip : Nat
deriving DecidableEq, Repr

/-- The test helper `channelFromArray`: the channel of `width` by `height`
pixels over an array with `chansPerPixel` interleaved samples per pixel, whose
first sample is at `offset`; the byte stride `chansPerPixel*sizeof(T)` is
`chansPerPixel` samples. -/
def channelFromArray (type : EqChannelType) (width height chansPerPixel offset rowSkip : Nat) :
    CqImageChannel :=
  ⟨type, offset, width, height, chansPerPixel, rowSkip⟩

namespace CqImageChannel

/-- The position in the underlying array of the sample of the pixel in row
`row` and column `col`: rows are `m_width + m_rowSkip` pixels apart. -/
def sampleIndex (ch : CqImageChannel) (row col : Nat) : Nat :=
  ch.m_data + (row * (ch.m_width + ch.m_rowSkip) + col) * ch.m_stride

/-- Rounding to the nearest whole number, halves away from zero (`lround`). -/
def lround (x : ℚ) : Int :=
  if 0 ≤ x then ⌊x + 1 / 2⌋ else -⌊-x + 1 / 2⌋

/-- Limiting `x` to the interval from `lo` to `hi`. -/
def clamp (x lo hi : ℚ) : ℚ := max lo (min x hi)

/-- Modelled from the spec: the conversion of a sample to the common
floating point form: the full range of an integer type is scaled onto the
interval from 0 to 1, a floating point sample is taken as it is. -/
def convertToFloat (t : EqChannelType) (v : ℚ) : ℚ :=
  match t.max with
  | some m => v / m
  | none => v

/-- Modelled from the spec: the conversion from the common floating point
form to a sample type: for an integer type the value is limited to the
interval from 0 to 1, scaled onto the full range of the type and rounded to
the nearest whole number; for the floating point type it is taken as it is. -/
def convertFromFloat (t : EqChannelType) (x : ℚ) : ℚ :=
  match t.max with
  | some m => lround (clamp x 0 1 * m)
  | none => x

/-- The conversion of one sample from the type of the source channel to the
type of the destination channel; samples of the same type are copied as they
are. -/
def convert (src dest : EqChannelType) (v : ℚ) : ℚ :=
  if src = dest then v else convertFromFloat dest (convertToFloat src v)

/-- The copy of the pixels `col, col + 1, ..` of row `row`, `n` of them, in
this order; reading or writing outside an array fails. -/
def copyFrom.row (dest src : CqImageChannel) (srcBuf : List ℚ) (row : Nat) :
    Nat → Nat → List ℚ → Option (List ℚ)
  | 0, _, destBuf => some destBuf
  | n + 1, col, destBuf =>
    match srcBuf[src.sampleIndex row col]? with
    | none => none
    | some v =>
      if dest.sampleIndex row col < destBuf.length then
        copyFrom.row dest src srcBuf row n (col + 1)
          (destBuf.set (dest.sampleIndex row col) (convert src.m_chanInfo dest.m_chanInfo v))
      else none

/-- The copy of the rows `row, row + 1, ..`, `n` of them, in this order. -/
def copyFrom.rows (dest src : CqImageChannel) (srcBuf : List ℚ) :
    Nat → Nat → List ℚ → Option (List ℚ)
  | 0, _, destBuf => some destBuf
  | n + 1, row, destBuf =>
    (copyFrom.row dest src srcBuf row dest.m_width 0 destBuf).bind
      (copyFrom.rows dest src srcBuf n (row + 1))

/-- Modelled from the spec: `CqImageChannel::copyFrom` (in `imagechannel.h`
and `imagechannel.cpp`): `destChan.copyFrom(srcChan)` for channels `dest` over
the array `destBuf` and `src` over the array `srcBuf`.  The channels must have
the same width and height.  Every pixel of the source channel, row by row, is
converted to the sample type of the destination channel and stored at the same
pixel of the destination channel.  The result is the destination array after
the copy. -/
def copyFrom (dest src : CqImageChannel) (destBuf srcBuf : List ℚ) : Option (List ℚ) :=
  if src.m_width = dest.m_width ∧ src.m_height = dest.m_height then
    copyFrom.rows dest src srcBuf dest.m_height 0 destBuf
  else none

/-- The sample positions of a channel of its pixels: the positions a copy
reads in the source array or writes in the destination array. -/
def Selected (ch : CqImageChannel) (i : Nat) : Prop :=
  ∃ row col, row < ch.m_height ∧ col < ch.m_width ∧ i = ch.sampleIndex row col

end CqImageChannel

end Aqsis

namespace Aqsis

/-! ## Dicing a patch -/

/-- Modelled from the spec: the part of a `CqMicroPolyGrid` (declared in
`micropolygon.h`) that `Dice` fixes: the two resolutions the grid is
constructed with and, in the order of the calls of `StoreDice`, the grid index
written and the vertex index whose values are stored there. -/
structure CqMicroPolyGrid where
  uGridRes : Int
  vGridRes : Int
  stored : List (Int × Nat)
deriving DecidableEq, Repr

namespace CqSurfaceSubdivisionPatch

open CqSubdivision2

/-- The value of `MAX(m_uDiceSize, m_vDiceSize)`. -/
def Dice.maxSize (p : CqSurfaceSubdivisionPatch) : Int :=
  if p.m_uDiceSize > p.m_vDiceSize then p.m_uDiceSize else p.m_vDiceSize

/-- The subdivision depth `sdcount` of `Dice` for the dice size. -/
def Dice.sdcount (dicesize : Int) : Nat :=
  if dicesize = 16 then 4 else if dicesize = 8 then 3 else if dicesize = 4 then 2
  else if dicesize = 2 then 1 else 1

/-- One pass of the loop over `isd`: every face of `apSubFace1` is
subdivided in turn and the child faces are collected in `apSubFace2`. -/
def Dice.level (Qff : CqSubdivision2 → Nat → Option (List Nat)) (depth : Nat)
    (s : CqSubdivision2) (apSubFace1 : List Nat) : Option (CqSubdivision2 × List Nat) :=
  forEach (fun iSF (st : CqSubdivision2 × List Nat) =>
    (SubdivideFace Qff depth st.1 iSF).map fun r => (r.1, st.2 ++ r.2)) apSubFace1 (s, [])

/-- The loop `for( isd = 0; isd < sdcount; isd++ )`. -/
def Dice.subdivide (Qff : CqSubdivision2 → Nat → Option (List Nat)) (depth : Nat) :
    Nat → CqSubdivision2 → List Nat → Option (CqSubdivision2 × List Nat)
  | 0, s, apSubFace1 => some (s, apSubFace1)
  | sdcount + 1, s, apSubFace1 =>
    (Dice.level Qff depth s apSubFace1).bind fun r => Dice.subdivide Qff depth sdcount r.1 r.2

/-- The loop `while( c < nc )` over one row of the grid; `next` is the step
to the next lath of the row (a step from NULL fails). -/
def Dice.row (s : CqSubdivision2) (next : Nat → Option (Option Nat)) (nc : Int) :
    Nat → Nat → Option Nat → Int → List (Int × Nat) → Option (List (Int × Nat))
  | 0, _, _, _, _ => none
  | fuel + 1, c, pLath, indexA, stored =>
    if (c : Int) < nc then
      (pLath.bind s.VertexIndex).bind fun ivA =>
      (if (c : Int) < nc - 1 then pLath.bind next else some pLath).bind fun pLath1 =>
      Dice.row s next nc fuel (c + 1) pLath1 (indexA + 1) (stored ++ [(indexA, ivA)])
    else some stored

/-- The step `pLath->cv()->ccf()` of the first row. -/
def Dice.stepFirst (s : CqSubdivision2) (pLath : Nat) : Option (Option Nat) :=
  (s.cv pLath).bind fun o => o.bind fun x => (s.ccf x).map some

/-- The step `pLath->ccv()->cf()` of the other rows. -/
def Dice.stepRest (s : CqSubdivision2) (pLath : Nat) : Option (Option Nat) :=
  (s.ccv pLath).bind fun o => o.bind s.cf

/-- The loop `while( r <= nr )` over the rows after the first. -/
def Dice.rows (s : CqSubdivision2) (nc nr : Int) :
    Nat → Nat → Option Nat → List (Int × Nat) → Option (List (Int × Nat))
  | 0, _, _, _ => none
  | fuel + 1, r, pTemp, stored =>
    if (r : Int) ≤ nr then
      (pTemp.bind s.cf).bind fun pLath =>
      (if (r : Int) < nr then pLath.bind s.ccv else some pTemp).bind fun pTemp1 =>
      (pLath.bind s.VertexIndex).bind fun ivA =>
      (pLath.bind s.cf).bind fun pLath1 =>
      (Dice.row s (Dice.stepRest s) nc (nc.toNat + 1) 0 pLath1 ((r : Int) * (nc + 1) + 1)
        (stored ++ [((r : Int) * (nc + 1), ivA)])).bind fun stored1 =>
      Dice.rows s nc nr fuel (r + 1) pTemp1 stored1
    else some stored

/-- The extraction of the grid values: the walk from `apSubFace1[0]` over
`nr + 1` rows of `nc + 1` vertices. -/
def Dice.extract (s : CqSubdivision2) (apSubFace1 : List Nat) (nc nr : Int) :
    Option (List (Int × Nat)) :=
  match apSubFace1[0]? with
  | none => none
  | some pLath =>
    (s.VertexIndex pLath).bind fun ivA =>
    (s.ccf pLath).bind fun pLath1 =>
    (Dice.row s (Dice.stepFirst s) nc (nc.toNat + 1) 0 (some pLath1) 1 [(0, ivA)]).bind
      fun stored => Dice.rows s nc nr (nr.toNat + 1) 1 (some pLath) stored

/-- The body of the loop over the time slots of `Dice`: the grid of
resolution `dicesize` is constructed, the face is subdivided `sdcount` levels
deep and the grid values are extracted with
`nc = nr = MAX(m_uDiceSize, m_vDiceSize)`. -/
def Dice.slot (Qff : CqSubdivision2 → Nat → Option (List Nat)) (depth : Nat)
    (p : CqSurfaceSubdivisionPatch) (s : CqSubdivision2) :
    Option (CqSubdivision2 × CqMicroPolyGrid) :=
  let sdcount := Dice.sdcount (Dice.maxSize p)
  let dicesize : Int := 2 ^ sdcount
  (Dice.subdivide Qff depth sdcount s [p.m_pFace]).bind fun r =>
  (Dice.extract r.1 r.2 (Dice.maxSize p) (Dice.maxSize p)).map fun stored =>
    (r.1, ⟨dicesize, dicesize, stored⟩)

/-- `CqSurfaceSubdivisionPatch::Dice` on the topology `s`, as far as the
topology and the grid indices go: the topology after the call and the grids
made, one for each time slot.  `depth` bounds the recursion of
`SubdivideFace`. -/
def Dice (Qff : CqSubdivision2 → Nat → Option (List Nat)) (depth : Nat)
    (s : CqSubdivision2) (p : CqSurfaceSubdivisionPatch) :
    Option (CqSubdivision2 × List CqMicroPolyGrid) :=
  forEach (fun (_ : Nat) (st : CqSubdivision2 × List CqMicroPolyGrid) =>
    (Dice.slot Qff depth p st.1).map fun r => (r.1, st.2 ++ [r.2]))
    (List.range s.aUserParams.length) (s, [])

end CqSurfaceSubdivisionPatch

/-! ## Splitting a patch -/

/-- Modelled from the spec: the part of a `CqSurfacePatchBicubic` (declared
in `patch.h`) that `Split` fixes: the sixteen vertex indices its control
points are copied from and the time slot whose attribute arrays they are
copied from. -/
structure CqSurfacePatchBicubic where
  aiVertices : List Nat
  iTime : Nat
deriving DecidableEq, Repr

/-- Modelled from the spec: a surface pushed on `aSplits` by `Split`: a
bicubic patch, a `CqDeformingSurface` holding one bicubic patch for each time
slot, or a new `CqSurfaceSubdivisionPatch` over the same topology for the face
of a lath. -/
inductive CqBasicSurface where
  | bicubic (pSurface : CqSurfacePatchBicubic)
  | deforming (slots : List CqSurfacePatchBicubic)
  | subdivisionPatch (pFace : Nat)
deriving DecidableEq, Repr

namespace CqSurfaceSubdivisionPatch

open CqSubdivision2

/-- The step `->ccv()` followed by a dereference of the result. -/
def Split.ccvD (s : CqSubdivision2) (h : Nat) : Option Nat :=
  (s.ccv h).bind id

/-- One step of the walk of `Split` along a row: the pointer moves by `step`
and the vertex index of the lath reached is pushed on `aiVertices`. -/
def Split.point (s : CqSubdivision2) (step : Nat → Option Nat) (st : Nat × List Nat) :
    Option (Nat × List Nat) :=
  (step st.1).bind fun pPoint => (s.VertexIndex pPoint).map fun v => (pPoint, st.2 ++ [v])

/-- One row of the walk of `Split`: the vertex index of the first lath
`pRow` of the row is pushed, then those of the laths reached by the three
steps. -/
def Split.row (s : CqSubdivision2) (pRow : Nat) (steps : List (Nat → Option Nat))
    (aiVertices : List Nat) : Option (List Nat) :=
  (s.VertexIndex pRow).bind fun v =>
    (forEach (Split.point s) steps (pRow, aiVertices ++ [v])).map Prod.snd

/-- The step `pPoint->cv()->ccf()` of the first row. -/
def Split.stepFirst (s : CqSubdivision2) (pPoint : Nat) : Option Nat :=
  (s.cvD pPoint).bind s.ccf

/-- The step `pPoint->ccv()->cf()` of the other rows. -/
def Split.stepRest (s : CqSubdivision2) (pPoint : Nat) : Option Nat :=
  (Split.ccvD s pPoint).bind s.cfD

/-- The walk of `Split` over the sixteen control vertices of the regular
patch round the face of lath `pFace`, row by row.  Every pointer of the walk is
dereferenced, so a missing link fails the walk.  The first row starts at
`pFace()->cv()->cv()->cf()->cf()` and steps by `ccf()` and twice by
`cv()->ccf()`; the second row starts at `pRow->cf()`, the third and the fourth
at `pRow->ccv()->cf()` (the fourth from the start of the third), and these
step by `cf()` and twice by `ccv()->cf()`. -/
def Split.aiVertices (s : CqSubdivision2) (pFace : Nat) : Option (List Nat) :=
  ((((s.cvD pFace).bind s.cvD).bind s.cfD).bind s.cfD).bind fun pRow0 =>
  (Split.row s pRow0 [s.ccf, Split.stepFirst s, Split.stepFirst s] []).bind fun ai0 =>
  (s.cfD pRow0).bind fun pRow1 =>
  (Split.row s pRow1 [s.cfD, Split.stepRest s, Split.stepRest s] ai0).bind fun ai1 =>
  (Split.stepRest s pRow1).bind fun pRow2 =>
  (Split.row s pRow2 [s.cfD, Split.stepRest s, Split.stepRest s] ai1).bind fun ai2 =>
  (Split.stepRest s pRow2).bind fun pRow3 =>
  Split.row s pRow3 [s.cfD, Split.stepRest s, Split.stepRest s] ai2

/-- The surface `Split` pushes on `aSplits` when the regular patch is used:
the bicubic patch itself for one time slot, otherwise a deforming surface with
a time slot for each bicubic patch. -/
def Split.surface (ai : List Nat) (cTimes : Nat) : CqBasicSurface :=
  let apSurfaces := (List.range cTimes).map fun iTime => (⟨ai, iTime⟩ : CqSurfacePatchBicubic)
  match apSurfaces with
  | [pSurface] => CqBasicSurface.bicubic pSurface
  | _ => CqBasicSurface.deforming apSurfaces

/-- `CqSurfaceSubdivisionPatch::Split` on the topology `s`: the topology and
`aSplits` after the call, and the result `aSplits.size()`.  `depth` bounds the
recursion of `SubdivideFace`. -/
def Split (Qff : CqSubdivision2 → Nat → Option (List Nat)) (depth : Nat)
    (s : CqSubdivision2) (p : CqSurfaceSubdivisionPatch) (aSplits : List CqBasicSurface) :
    Option (CqSubdivision2 × List CqBasicSurface × Nat) :=
  (s.CanUsePatch Qff p.m_pFace).bind fun patch =>
  if patch then
    (Split.aiVertices s p.m_pFace).map fun ai =>
      let aSplits1 := aSplits ++ [Split.surface ai s.aUserParams.length]
      (s, aSplits1, aSplits1.length)
  else
    (SubdivideFace Qff depth s p.m_pFace).map fun r =>
      let aSplits1 := aSplits ++ r.2.map CqBasicSurface.subdivisionPatch
      (r.1, aSplits1, aSplits1.length)

end CqSurfaceSubdivisionPatch

end Aqsis

namespace Aqsis
namespace CqSubdivision2

/-! ## What Finalise may touch -/

/-- The state `t` differs from `s` at most in the vertex-neighbour links of
the laths in `W`: there are as many laths, each is the lath of `s` with some
vertex-neighbour link, the laths outside `W` are the same, and so is every
other member of the topology. -/
structure Finalise.Touched (W : Nat → Prop) (s t : CqSubdivision2) : Prop where
  rest : t = { s with m_apLaths := t.m_apLaths }
  length : t.m_apLaths.length = s.m_apLaths.length
  lath : ∀ (h : Nat) (l : CqLath), s.m_apLaths[h]? = some l →
    ∃ o, t.m_apLaths[h]? = some { l with m_pClockwiseVertex := o }
  same : ∀ h, ¬ W h → t.m_apLaths[h]? = s.m_apLaths[h]?

/-- The four laths of `f` are joined clockwise round a face, as the
lath-creating loop of `SubdivideFace` joins the laths of a child face: the
vertex after each lath, and the vertex before it, is the vertex of its
neighbour in the order `pA`, `pB`, `pC`, `pD`. -/
structure SubdivideFace.Joined (s : CqSubdivision2) (f : SqFaceLathList) : Prop where
  outA : s.outKey f.pA = s.VertexIndex f.pB
  outB : s.outKey f.pB = s.VertexIndex f.pC
  outC : s.outKey f.pC = s.VertexIndex f.pD
  outD : s.outKey f.pD = s.VertexIndex f.pA
  innA : s.innKey f.pA = s.VertexIndex f.pD
  innB : s.innKey f.pB = s.VertexIndex f.pA
  innC : s.innKey f.pC = s.VertexIndex f.pB
  innD : s.innKey f.pD = s.VertexIndex f.pC

/-- State `t` comes from state `s` by writes of the linking loops of
`SubdivideFace`: the laths are the same but for vertex-neighbour links and
face-vertex pointers, the adjacency table is the same, and a lath that had a
vertex-neighbour link has one. -/
structure SubdivideFace.Kept (s t : CqSubdivision2) : Prop where
  core : t.m_apLaths.map CqLath.dropCF = s.m_apLaths.map CqLath.dropCF
  table : t.m_aapVertices = s.m_aapVertices
  kept : ∀ h x, s.cv h = some (some x) → ∃ y, t.cv h = some (some y)

/-- What a successful refinement is known to have done, all told: `s'` is
refined from `s` as `SubdivideFace.Refined` says, the child-vertex and
mid-vertex pointers have the origin `SubdivideFace.Origin` says, the topology
has grown, every vertex-neighbour link was there before or joins a matching
pair, a lath that was linked is linked, the adjacency table is the one of `s` with the new laths entered, the
fourth lath of every child face is linked, the second lath of a child face is
linked when a lath of its adjacency list matches it, and every lath of the
adjacency list of the fourth lath that matches it is linked. -/
structure SubdivideFace.Traced (s : CqSubdivision2) (pFace : Nat) (s' : CqSubdivision2)
    (sub aQfv : List Nat) (k : Nat) (aV : List Nat) (sc : CqSubdivision2) : Prop where
  refined : SubdivideFace.Refined s pFace s' sub aQfv k aV sc
  origin : SubdivideFace.Origin s aQfv.length s'
  grows : Grows s s'
  links : ∀ L M, s'.cv L = some (some M) → s.cv L = some (some M) ∨ s'.LinkMatches L M
  kept : ∀ h x, s.cv h = some (some x) → ∃ y, s'.cv h = some (some y)
  table : s'.m_aapVertices =
    SubdivideFace.tableAfter (growBy k s).m_aapVertices s.m_apLaths.length aV aQfv.length
      aQfv.length
  occF : ∀ j, j < aQfv.length →
    ∃ y, s'.cv (s.m_apLaths.length + (4 * j + 3)) = some (some y)
  occB : ∀ j adj X, j < aQfv.length →
    s'.m_aapVertices[aV.getD ((j + 1) % aQfv.length + aQfv.length) 0]? = some adj →
    X ∈ adj → s'.outKey X = some (aV.getD j 0) →
    ∃ y, s'.cv (s.m_apLaths.length + (4 * j + 1)) = some (some y)
  occD : ∀ j adj X, j < aQfv.length →
    s'.m_aapVertices[aV.getD (j + aQfv.length) 0]? = some adj → X ∈ adj →
    s'.innKey X = some (aV.getD j 0) → ∃ y, s'.cv X = some (some y)

/-- A triangle on the vertices 0, 1, 2 and two degenerate quads 0, 2, 3, 2
and 0, 2, 4, 2 (each repeats vertex 2, so its lath at vertex 0 has vertex 2
both before and after it), before `Finalise`. -/
def pinchedFan : CqSubdivision2 :=
  (buildMesh (positionsOnly 5) 5 [[0, 1, 2], [0, 2, 3, 2], [0, 2, 4, 2]]).getD (empty [])

/-- The nine quads of a 3 x 3 torus grid, numbered so that the quad of the
first facet has the corners 0, 1, 2, 3, and two stray triangles at vertex 4,
which make that vertex non-manifold; before `Finalise`. -/
def strayTorus : CqSubdivision2 :=
  (buildMesh (positionsOnly 13) 13
    [[0, 2, 3, 1], [1, 3, 8, 7], [7, 8, 2, 0], [2, 4, 5, 3], [3, 5, 6, 8], [8, 6, 4, 2],
      [4, 0, 1, 5], [5, 1, 7, 6], [6, 7, 0, 4], [4, 9, 10], [4, 11, 12]]).getD (empty [])

/-- The state `Finalise` leaves `strayTorus` in when it returns false at
vertex 4: the vertices 0 to 3 are linked, the vertices after vertex 4 are
not. -/
def strayTorus.linked : CqSubdivision2 :=
  (strayTorus.Finalise.map Prod.fst).getD (empty [])

end CqSubdivision2

/-- A render context in which the hull of the quad of `quadMesh` (control
points 0, 3, 2, 1 in the order of `Qfv`) is a raster trapezium: the edge from
hull point 0 to hull point 3 has length 1 and the opposite edge, from hull
point 1 to hull point 2, has length 8; the shading rate is 1. -/
def trapeziumContext : DiceContext :=
  ⟨fun i => if i = 0 then (0, 0) else if i = 1 then (0, 1) else if i = 2 then (4, 8)
      else (4, 0), 1, none, sqrtExample, roundExample, ceilPow2⟩

/-! ## Texture map buffers -/

/-- The part of a `CqTextureMapBuffer` (`texturemap.h`) that `GetValue` and
`SetValue` use: the segment data, an array of `TqUchar`, and the width, the
height and the number of samples of a pixel.  The index arithmetic is done in
natural numbers: it is exact for every segment of fewer than 2^31 bytes. -/
structure CqTextureMapBuffer where
  m_pBufferData : List (Fin 256)
  m_Width : Nat
  m_Height : Nat
  m_Samples : Nat
deriving DecidableEq, Repr

namespace CqTextureMapBuffer

/-- `CqTextureMapBuffer::ElemSize`: `m_Samples * sizeof(TqUchar)`. -/
def ElemSize (b : CqTextureMapBuffer) : Nat := b.m_Samples * 1

/-- `CqTextureMapBuffer::GetValue`; `none` when the index is outside the
segment data. -/
def GetValue (b : CqTextureMapBuffer) (x y sample : Nat) : Option ℚ :=
  let iv := y * (b.m_Width * b.ElemSize)
  let iu := x * b.ElemSize
  (b.m_pBufferData[iv + iu + sample]?).map fun c => (c.val : ℚ) / 256

/-- `CqTextureMapBuffer::SetValue`.  The float `value * 256.0f` is converted
to `TqUchar` by truncation; the conversion is undefined when the truncated
value is not one of 0 .. 255, and so is a store outside the segment data:
both are `none`. -/
def SetValue (b : CqTextureMapBuffer) (x y sample : Nat) (value : ℚ) :
    Option CqTextureMapBuffer :=
  let iv := y * (b.m_Width * b.ElemSize)
  let iu := x * b.ElemSize
  let c := truncate (value * 256)
  if iv + iu + sample < b.m_pBufferData.length ∧ 0 ≤ c ∧ c < 256 then
    some { b with m_pBufferData := b.m_pBufferData.set (iv + iu + sample) (Fin.ofNat c.toNat) }
  else none

/-- A segment of two by two pixels of three samples, all zero. -/
def blank : CqTextureMapBuffer := ⟨List.replicate 12 0, 2, 2, 3⟩

end CqTextureMapBuffer

end Aqsis

namespace Aqsis
namespace CqSubdivision2

/-! ## More example meshes -/

/-- A single quad whose facet index list is 0, 1, 0, 2: it passes through
vertex 0 twice; before `Finalise`. -/
def pinchedQuad : CqSubdivision2 :=
  (buildMesh (positionsOnly 3) 3 [[0, 1, 0, 2]]).getD (empty [])

/-- The state `Finalise` leaves `pinchedQuad` in. -/
def pinchedQuad.finalised : CqSubdivision2 :=
  (pinchedQuad.Finalise.map Prod.fst).getD (empty [])

/-- The nine quads of the 3 x 3 torus grid `torus` and a triangle on the
vertices 3, 9, 4, which lies on the edge from vertex 3 to vertex 4 of the
torus like a fin; before `Finalise`. -/
def finnedTorus : CqSubdivision2 :=
  (buildMesh (positionsOnly 10) 10
    [[0, 3, 4, 1], [1, 4, 5, 2], [2, 5, 3, 0], [3, 6, 7, 4], [4, 7, 8, 5], [5, 8, 6, 3],
      [6, 0, 1, 7], [7, 1, 2, 8], [8, 2, 0, 6], [3, 9, 4]]).getD (empty [])

/-- The state `Finalise` leaves `finnedTorus` in. -/
def finnedTorus.finalised : CqSubdivision2 :=
  (finnedTorus.Finalise.map Prod.fst).getD (empty [])

/-- A hexagon whose facet index list is 0, 1, 2, 0, 3, 4 (it passes through
vertex 0 twice, like a bow tie) and the two triangles 0, 2, 1 and 0, 4, 3
that fill its loops from the other side; before `Finalise`. -/
def bowTie : CqSubdivision2 :=
  (buildMesh (positionsOnly 5) 5 [[0, 1, 2, 0, 3, 4], [0, 2, 1], [0, 4, 3]]).getD (empty [])

/-- The state `Finalise` leaves `bowTie` in. -/
def bowTie.finalised : CqSubdivision2 :=
  (bowTie.Finalise.map Prod.fst).getD (empty [])

/-- The state after `SubdivideFace` on the hexagon of `bowTie.finalised`. -/
def bowTie.refined1 : CqSubdivision2 :=
  ((SubdivideFace Qff 1 bowTie.finalised 0).map Prod.fst).getD (empty [])

/-- The state after `SubdivideFace` on the hexagon and then on the triangle
0, 2, 1 of `bowTie.finalised`. -/
def bowTie.refined2 : CqSubdivision2 :=
  ((SubdivideFace Qff 1 bowTie.refined1 6).map Prod.fst).getD (empty [])

/-- A strip of three quads, 0, 1, 5, 4 and 1, 2, 6, 5 and 2, 3, 7, 6; before
`Finalise`. -/
def quadStrip : CqSubdivision2 :=
  (buildMesh (positionsOnly 8) 8 [[0, 1, 5, 4], [1, 2, 6, 5], [2, 3, 7, 6]]).getD (empty [])

/-- The state `Finalise` leaves `quadStrip` in. -/
def quadStrip.finalised : CqSubdivision2 :=
  (quadStrip.Finalise.map Prod.fst).getD (empty [])

/-- The state after `SubdivideFace` on the first quad of `quadStrip.finalised`. -/
def quadStrip.refined1 : CqSubdivision2 :=
  ((SubdivideFace Qff 1 quadStrip.finalised 0).map Prod.fst).getD (empty [])

/-- The state after `SubdivideFace` on the first and then on the second quad
of `quadStrip.finalised`. -/
def quadStrip.refined2 : CqSubdivision2 :=
  ((SubdivideFace Qff 1 quadStrip.refined1 4).map Prod.fst).getD (empty [])

/-- The state after `SubdivideFace` on the first, the second and then the
third quad of `quadStrip.finalised`. -/
def quadStrip.refined3 : CqSubdivision2 :=
  ((SubdivideFace Qff 1 quadStrip.refined2 8).map Prod.fst).getD (empty [])

/-- A triangle on the vertices 0, 1, 2 and two copies of the triangle with
the opposite orientation, 0, 2, 1 and 1, 0, 2: every edge is used by three
facets; before `Finalise`. -/
def tripleTriangle : CqSubdivision2 :=
  (buildMesh (positionsOnly 3) 3 [[0, 1, 2], [0, 2, 1], [1, 0, 2]]).getD (empty [])

/-- The state `Finalise` leaves `tripleTriangle` in. -/
def tripleTriangle.finalised : CqSubdivision2 :=
  (tripleTriangle.Finalise.map Prod.fst).getD (empty [])

/-- The state after `SubdivideFace` on the first triangle of
`tripleTriangle.finalised`. -/
def tripleTriangle.refined1 : CqSubdivision2 :=
  ((SubdivideFace Qff 1 tripleTriangle.finalised 0).map Prod.fst).getD (empty [])

/-- The state after `SubdivideFace` on the first and then on the second
triangle of `tripleTriangle.finalised`. -/
def tripleTriangle.refined2 : CqSubdivision2 :=
  ((SubdivideFace Qff 1 tripleTriangle.refined1 3).map Prod.fst).getD (empty [])

/-- The state after `SubdivideFace` on the first, the second and then the
third triangle of `tripleTriangle.finalised`. -/
def tripleTriangle.refined3 : CqSubdivision2 :=
  ((SubdivideFace Qff 1 tripleTriangle.refined2 6).map Prod.fst).getD (empty [])

/-! ## Sequences of calls -/

/-- State `t` is reached from state `s` by a sequence of successful calls of
`SubdivideFace`, on any faces and with any depth bounds; the sequence may be
empty. -/
inductive Calls (Qff : CqSubdivision2 → Nat → Option (List Nat)) :
    CqSubdivision2 → CqSubdivision2 → Prop where
  | refl (s : CqSubdivision2) : Calls Qff s s
  | step {s t u : CqSubdivision2} {d pFace : Nat} {sub : List Nat} :
      Calls Qff s t → SubdivideFace Qff d t pFace = some (u, sub) → Calls Qff s u

end CqSubdivision2

end Aqsis

namespace Aqsis
namespace CqSubdivision2

/-! ## States refined from a control mesh -/

/-- The face-vertex pointer of lath `h`, `none` when it is NULL or `h` is no
lath. -/
def facePtr (s : CqSubdivision2) (h : Nat) : Option Nat :=
  (s.lath h).bind CqLath.m_pFaceVertex

/-- The mid-vertex pointer of lath `h`, `none` when it is NULL or `h` is no
lath. -/
def midPtr (s : CqSubdivision2) (h : Nat) : Option Nat :=
  (s.lath h).bind CqLath.m_pMidVertex

/-- The child-vertex pointer of lath `h`, `none` when it is NULL or `h` is no
lath. -/
def childPtr (s : CqSubdivision2) (h : Nat) : Option Nat :=
  (s.lath h).bind CqLath.m_pChildVertex

/-- State `t` descends from the control mesh `s0`: it is well-formed, it has
grown from `s0`, the laths of `s0` have the vertex-neighbour links they had,
every later lath references a later vertex and is linked to later laths only,
and every child-vertex and mid-vertex pointer leads to a later lath. -/
structure Descends (s0 t : CqSubdivision2) : Prop where
  valid : t.Valid
  grows : Grows s0 t
  cvOld : ∀ y, y < s0.m_apLaths.length → t.cv y = s0.cv y
  newV : ∀ y v, s0.m_apLaths.length ≤ y → t.VertexIndex y = some v →
    s0.m_aapVertices.length ≤ v
  ptrNew : ∀ y l m, t.lath y = some l →
    (l.m_pMidVertex = some m ∨ l.m_pChildVertex = some m) → s0.m_apLaths.length ≤ m
  cvNew : ∀ L M, s0.m_apLaths.length ≤ L → t.cv L = some (some M) → s0.m_apLaths.length ≤ M

/-- Where the child-vertex pointers of state `st` come from, when `st` is
reached from state `s` by `i` iterations of the lath-creating loop on the
corners `aQfv`: a child-vertex pointer is the first lath of one of the `i` new
child faces, and then the lath is reached from the corner of that child face
along vertex-neighbour links, forwards (`cv`) or backwards (`ccv`), or it is
the pointer the lath had in `s`; and a lath that had a child-vertex pointer in
`s` has one. -/
structure SubdivideFace.Source (s : CqSubdivision2) (aQfv : List Nat) (i : Nat)
    (st : CqSubdivision2) : Prop where
  origin : ∀ (y : Nat) (ly : CqLath) (m : Nat), st.lath y = some ly →
    ly.m_pChildVertex = some m →
    (∃ j, j < i ∧ m = s.m_apLaths.length + 4 * j ∧
      ∀ P : Nat → Prop, (∀ x z, s.cv x = some (some z) → P x → P z) →
        (∀ x z, s.ccv x = some (some z) → P x → P z) → P (aQfv.getD j 0) → P y) ∨
    ∃ l0, s.lath y = some l0 ∧ l0.m_pChildVertex = some m
  kept : ∀ (y : Nat) (l0 : CqLath) (m0 : Nat), s.lath y = some l0 →
    l0.m_pChildVertex = some m0 → ∃ ly m, st.lath y = some ly ∧ ly.m_pChildVertex = some m

end CqSubdivision2
end Aqsis

namespace Aqsis
namespace CqSubdivision2

/-! ## The mid-edge vertex of an edge refined from one side -/

/-- The mid-edge vertex `m` of an edge in a state in which only the face of
the corner `q1` of the two faces at the edge is refined: the laths at `m` are
the child laths `D` and `B` of that face, both entered in the adjacency list of
`m`; `D` is linked to `B` and the link of `B` is missing; the facet of `D`
leaves `m` for the vertex `a` and reaches it from the face point `fp`, the
facet of `B` leaves `m` for `fp` and reaches it from the vertex `b`; no
child-vertex pointer leads to a lath at `m`, and the only mid-vertex pointer
that does is the one of `q1`. -/
structure EdgeOpen (u : CqSubdivision2) (m D B a fp b q1 : Nat) : Prop where
  child : ∀ y c, u.childPtr y = some c → u.VertexIndex c ≠ some m
  mid : ∀ y c, u.midPtr y = some c → u.VertexIndex c = some m → y = q1
  all : ∀ h, u.VertexIndex h = some m → h = D ∨ h = B
  cvD : u.cv D = some (some B)
  cvB : u.cv B = some none
  atD : u.VertexIndex D = some m
  atB : u.VertexIndex B = some m
  outD : u.outKey D = some a
  innD : u.innKey D = some fp
  outB : u.outKey B = some fp
  innB : u.innKey B = some b
  listed : ∃ adj, u.m_aapVertices[m]? = some adj ∧ D ∈ adj ∧ B ∈ adj

/-- The mid-edge vertex `m` of an edge both of whose faces are refined: the
laths at `m` are the child laths `D1`, `B1` of the face of the corner `q1` and
`D2`, `B2` of the face of the corner `q2`, linked in the closed cycle `D1`,
`B1`, `D2`, `B2`; the facets of the four laths leave `m` for the vertices `a`,
`fp`, `b`, `fp2` and reach it from `fp`, `b`, `fp2`, `a`; no child-vertex
pointer leads to a lath at `m`, and the only mid-vertex pointers that do are
the ones of `q1` and `q2`. -/
structure EdgeClosed (u : CqSubdivision2) (m D1 B1 D2 B2 a fp b fp2 q1 q2 : Nat) : Prop where
  child : ∀ y c, u.childPtr y = some c → u.VertexIndex c ≠ some m
  mid : ∀ y c, u.midPtr y = some c → u.VertexIndex c = some m → y = q1 ∨ y = q2
  all : ∀ h, u.VertexIndex h = some m ↔ (h = D1 ∨ h = B1 ∨ h = D2 ∨ h = B2)
  cvD1 : u.cv D1 = some (some B1)
  cvB1 : u.cv B1 = some (some D2)
  cvD2 : u.cv D2 = some (some B2)
  cvB2 : u.cv B2 = some (some D1)
  outD1 : u.outKey D1 = some a
  outB1 : u.outKey B1 = some fp
  outD2 : u.outKey D2 = some b
  outB2 : u.outKey B2 = some fp2
  innD1 : u.innKey D1 = some fp
  innB1 : u.innKey B1 = some b
  innD2 : u.innKey D2 = some fp2
  innB2 : u.innKey B2 = some a

end CqSubdivision2
end Aqsis

namespace Aqsis
namespace CqSubdivision2

/-! ## Elementary facts about the accessors -/

theorem lath_isSome_iff (s : CqSubdivision2) (h : Nat) :
    (s.lath h).isSome ↔ h < s.m_apLaths.length := by
  unfold lath
  rw [Option.isSome_iff_exists]
  constructor
  · rintro ⟨a, ha⟩
    exact (List.getElem?_eq_some.mp ha).1
  · intro hlt
    exact ⟨_, List.getElem?_eq_getElem hlt⟩

theorem lath_lt {s : CqSubdivision2} {h : Nat} {l : CqLath} (e : s.lath h = some l) :
    h < s.m_apLaths.length :=
  (s.lath_isSome_iff h).mp (by rw [e]; rfl)

theorem cfD_lt {s : CqSubdivision2} {h c : Nat} (e : s.cfD h = some c) :
    h < s.m_apLaths.length := by
  unfold cfD at e
  cases hl : s.lath h with
  | none => rw [hl] at e; cases e
  | some l => exact lath_lt hl

/-! ## The closed form of the `AddFacet` loop -/

/-- The laths the loop of `AddFacet` appends for the remaining indices. -/
theorem AddFacet.loop_spec (l : List Nat) :
    ∀ (iVert : Nat) (s : CqSubdivision2) (pLast pFirst : Option Nat),
      (∀ v ∈ l, v < s.m_aapVertices.length) →
      AddFacet.loop l iVert s pLast pFirst =
        some ({ s with
                m_apLaths := s.m_apLaths ++ AddFacet.newLaths l s.m_apLaths.length pLast,
                m_aapVertices := AddFacet.newAdj l s.m_apLaths.length s.m_aapVertices },
              AddFacet.lastLath l s.m_apLaths.length pLast,
              if iVert = 0 ∧ l ≠ [] then some s.m_apLaths.length else pFirst) := by
  induction l with
  | nil => intro iVert s pLast pFirst _; simp [AddFacet.loop, AddFacet.newLaths, AddFacet.newAdj, AddFacet.lastLath]
  | cons idx rest ih =>
    intro iVert s pLast pFirst hr
    have h1 : idx < s.m_aapVertices.length := hr idx (List.mem_cons_self _ _)
    simp only [AddFacet.loop, pushVertexLath, h1, if_true]
    rw [ih]
    · simp only [AddFacet.newLaths, AddFacet.newAdj, AddFacet.lastLath, List.length_append,
        List.length_singleton, List.append_assoc, List.singleton_append]
      congr 2
      by_cases h0 : iVert = 0 <;> simp [h0]
    · intro v hv
      simp only [List.length_modify]
      exact hr v (List.mem_cons_of_mem _ hv)


theorem AddFacet.newLaths_length (l : List Nat) :
    ∀ (base : Nat) (pLast : Option Nat), (AddFacet.newLaths l base pLast).length = l.length := by
  induction l with
  | nil => intros; rfl
  | cons idx rest ih => intro base pLast; simp [AddFacet.newLaths, ih]

theorem AddFacet.newLaths_getElem? (l : List Nat) :
    ∀ (base : Nat) (pLast : Option Nat) (k : Nat),
      (AddFacet.newLaths l base pLast)[k]? =
        (l[k]?).map (fun idx => { CqLath.new idx with
          m_pClockwiseFacet := if k = 0 then pLast else some (base + k - 1) }) := by
  induction l with
  | nil => intros; simp [AddFacet.newLaths]
  | cons idx rest ih =>
    intro base pLast k
    cases k with
    | zero => simp [AddFacet.newLaths]
    | succ k =>
      simp only [AddFacet.newLaths, List.getElem?_cons_succ, ih]
      cases hk : rest[k]? with
      | none => rfl
      | some v =>
        simp only [Option.map_some']
        congr 2
        by_cases h0 : k = 0
        · subst h0; simp
        · simp only [h0, if_false, Nat.add_one_ne_zero]
          congr 1
          omega

theorem AddFacet.lastLath_eq (l : List Nat) :
    ∀ (base : Nat) (pLast : Option Nat),
      AddFacet.lastLath l base pLast = if l = [] then pLast else some (base + l.length - 1) := by
  induction l with
  | nil => intros; rfl
  | cons idx rest ih =>
    intro base pLast
    simp only [AddFacet.lastLath, ih, List.length_cons]
    by_cases hr : rest = []
    · subst hr; simp
    · have : 0 < rest.length := List.length_pos.mpr hr
      simp only [hr, if_false, reduceCtorEq]
      congr 1
      omega

theorem AddFacet.newAdj_length (l : List Nat) :
    ∀ (base : Nat) (t : List (List Nat)), (AddFacet.newAdj l base t).length = t.length := by
  induction l with
  | nil => intros; rfl
  | cons idx rest ih => intro base t; simp [AddFacet.newAdj, ih]

theorem AddFacet.newAdj_getElem? (l : List Nat) :
    ∀ (base : Nat) (t : List (List Nat)) (v : Nat),
      (AddFacet.newAdj l base t)[v]? = (t[v]?).map (fun a => a ++ AddFacet.hits l base v) := by
  induction l with
  | nil => intro base t v; simp [AddFacet.newAdj, AddFacet.hits]
  | cons idx rest ih =>
    intro base t v
    simp only [AddFacet.newAdj, ih, AddFacet.hits, List.getElem?_modify]
    cases ht : t[v]? with
    | none => simp
    | some a =>
      by_cases hv : idx = v
      · simp [hv]
      · simp [hv]

theorem AddFacet.facetLaths_length (l : List Nat) (base : Nat) :
    (AddFacet.facetLaths l base).length = l.length := by
  cases l with
  | nil => rfl
  | cons idx rest => simp [AddFacet.facetLaths, AddFacet.newLaths_length]

theorem AddFacet.facetLaths_getElem? (l : List Nat) (base k : Nat) :
    (AddFacet.facetLaths l base)[k]? =
      (l[k]?).map (fun idx => { CqLath.new idx with
        m_pClockwiseFacet := some (base + if k = 0 then l.length - 1 else k - 1) }) := by
  cases l with
  | nil => simp [AddFacet.facetLaths]
  | cons idx rest =>
    cases k with
    | zero => simp [AddFacet.facetLaths]
    | succ k =>
      simp only [AddFacet.facetLaths, List.getElem?_cons_succ, AddFacet.newLaths_getElem?]
      cases hk : rest[k]? with
      | none => rfl
      | some v =>
        simp only [Option.map_some', Nat.add_one_ne_zero, if_false]
        congr 2
        by_cases h0 : k = 0
        · subst h0; simp
        · simp only [h0, if_false]
          congr 1
          omega

/-- The closed form of `AddFacet` on a non-empty index list inside the
prepared range. -/
theorem AddFacet_eq (s : CqSubdivision2) (l : List Nat) (hne : l ≠ [])
    (hr : ∀ v ∈ l, v < s.m_aapVertices.length) :
    AddFacet s l =
      some ({ s with
              m_apLaths := s.m_apLaths ++ AddFacet.facetLaths l s.m_apLaths.length,
              m_apFacets := s.m_apFacets ++ [s.m_apLaths.length],
              m_aapVertices := AddFacet.newAdj l s.m_apLaths.length s.m_aapVertices },
            s.m_apLaths.length) := by
  cases l with
  | nil => exact absurd rfl hne
  | cons idx rest =>
    unfold AddFacet
    rw [AddFacet.loop_spec _ _ _ _ _ hr]
    simp only [true_and, if_true, ne_eq, reduceCtorEq, not_false_eq_true, setLath,
      AddFacet.newLaths, AddFacet.lastLath, AddFacet.lastLath_eq, AddFacet.facetLaths]
    have e1 : (s.m_apLaths ++ ({ CqLath.new idx with m_pClockwiseFacet := none } ::
        AddFacet.newLaths rest (s.m_apLaths.length + 1) (some s.m_apLaths.length)))[s.m_apLaths.length]?
        = some { CqLath.new idx with m_pClockwiseFacet := none } := by
      rw [List.getElem?_append_right (le_refl _)]; simp
    rw [e1]
    simp only [Option.some.injEq, Prod.mk.injEq, and_true]
    have e2 : ∀ (a b : CqLath) (tl : List CqLath),
        (s.m_apLaths ++ (a :: tl)).set s.m_apLaths.length b = s.m_apLaths ++ (b :: tl) := by
      intro a b tl
      rw [List.set_append_right _ _ (le_refl _)]; simp
    rw [e2]
    congr 3
    by_cases hrest : rest = []
    · subst hrest; simp [CqLath.new]
    · have : 0 < rest.length := List.length_pos.mpr hrest
      simp only [hrest, if_false, CqLath.new]
      congr 2
      omega

end CqSubdivision2
end Aqsis

namespace Aqsis
namespace CqSubdivision2

/-! ## Facet rings -/

theorem IsCycle.cycle_cons_iff (next : Nat → Option Nat) (a : Nat) (tl : List Nat) :
    IsCycle next (a :: tl) ↔
      (a :: tl).Nodup ∧ List.Chain' (fun x y => next x = some y) (a :: tl ++ [a]) := by
  unfold IsCycle
  constructor
  · rintro ⟨_, hnd, hch, hlast⟩
    refine ⟨hnd, ?_⟩
    rw [List.chain'_append]
    refine ⟨hch, List.chain'_singleton _, ?_⟩
    intro x hx y hy
    simp only [List.head?_cons, Option.mem_def, Option.some.injEq] at hy
    subst hy
    rw [Option.mem_def] at hx
    rw [hx] at hlast
    simpa using hlast
  · rintro ⟨hnd, hch⟩
    rw [List.chain'_append] at hch
    refine ⟨by simp, hnd, hch.1, ?_⟩
    obtain ⟨_, _, h3⟩ := hch
    cases hl : (a :: tl).getLast? with
    | none => simp at hl
    | some z =>
      have := h3 z (by rw [Option.mem_def]; exact hl) a (by simp)
      simpa using this

theorem IsCycle.cycle_rotate_one {next : Nat → Option Nat} {a : Nat} {tl : List Nat}
    (hr : IsCycle next (a :: tl)) : IsCycle next (tl ++ [a]) := by
  rw [IsCycle.cycle_cons_iff] at hr
  obtain ⟨hnd, hch⟩ := hr
  cases tl with
  | nil => rw [List.nil_append, IsCycle.cycle_cons_iff]; exact ⟨hnd, hch⟩
  | cons b tl' =>
    rw [List.cons_append, IsCycle.cycle_cons_iff]
    constructor
    · have : (b :: tl' ++ [a]).Perm (a :: b :: tl') := by
        simpa using (List.perm_append_comm : (b :: tl' ++ [a]).Perm ([a] ++ b :: tl'))
      exact this.nodup_iff.mpr hnd
    · have h1 : List.Chain' (fun x y => next x = some y) (b :: tl' ++ [a]) := by
        have := hch
        simp only [List.cons_append] at this
        exact (List.chain'_cons.mp this).2
      have h2 : next a = some b := by
        simp only [List.cons_append] at hch
        exact (List.chain'_cons.mp hch).1
      rw [List.chain'_append]
      refine ⟨by simpa using h1, List.chain'_singleton _, ?_⟩
      intro x hx y hy
      simp only [List.head?_cons, Option.mem_def, Option.some.injEq] at hy
      subst hy
      have : (b :: (tl' ++ [a])).getLast? = some a := by
        rw [← List.cons_append, List.getLast?_append]; simp
      rw [Option.mem_def, this] at hx
      cases hx
      exact h2

theorem IsCycle.cycle_rotate {next : Nat → Option Nat} {ring : List Nat} (hr : IsCycle next ring)
    (k : Nat) : IsCycle next (ring.rotate k) := by
  induction k generalizing ring with
  | zero => simpa using hr
  | succ k ih =>
    cases ring with
    | nil => exact absurd rfl hr.1
    | cons a tl =>
      rw [List.rotate_cons_succ]
      exact ih hr.cycle_rotate_one

/-- A cycle can be entered at any of its members. -/
theorem IsCycle.cycle_of_mem {next : Nat → Option Nat} {ring : List Nat} (hr : IsCycle next ring)
    {h : Nat} (hh : h ∈ ring) : ∃ tl, IsCycle next (h :: tl) ∧ (h :: tl).IsRotated ring := by
  obtain ⟨k, hk, rfl⟩ := List.getElem_of_mem hh
  have hrot := hr.cycle_rotate k
  have hlen : (ring.rotate k).length = ring.length := List.length_rotate _ _
  cases hrk : ring.rotate k with
  | nil => rw [hrk] at hlen; simp at hlen; omega
  | cons a tl =>
    have ha : a = ring[k] := by
      have h0 : (ring.rotate k)[0]? = some a := by rw [hrk]; simp
      rw [List.getElem?_rotate (by omega)] at h0
      simp only [Nat.zero_add, Nat.mod_eq_of_lt hk] at h0
      rw [List.getElem?_eq_getElem hk] at h0
      exact (Option.some.inj h0).symm
    refine ⟨tl, ?_, ?_⟩
    · rw [← ha, ← hrk]; exact hrot
    · rw [← ha, ← hrk]
      exact (List.IsRotated.symm ⟨k, rfl⟩)

/-- The successor of the head of a cycle: the second member, or the head
itself when the cycle has one member. -/
theorem IsCycle.next_head {next : Nat → Option Nat} {a : Nat} {tl : List Nat}
    (hr : IsCycle next (a :: tl)) : next a = some ((tl ++ [a]).headI) := by
  rw [IsCycle.cycle_cons_iff] at hr
  have hch := hr.2
  simp only [List.cons_append] at hch
  cases tl with
  | nil => simpa using hch
  | cons y r =>
    simp only [List.cons_append, List.headI_cons]
    exact (List.chain'_cons.mp hch).1

/-- The last member of a cycle has the head as successor. -/
theorem IsCycle.next_last {next : Nat → Option Nat} {a : Nat} {tl : List Nat}
    (hr : IsCycle next (a :: tl)) : next ((a :: tl).getLast (by simp)) = some a := by
  have h4 := hr.2.2.2
  rw [List.getLast?_eq_getLast _ (by simp)] at h4
  simpa using h4

/-- Every member of a cycle has a successor, which is on the cycle too. -/
theorem IsCycle.next_mem {next : Nat → Option Nat} {ring : List Nat} (hr : IsCycle next ring) :
    ∀ h ∈ ring, ∃ c, next h = some c ∧ c ∈ ring := by
  intro h hh
  obtain ⟨tl, hr', hrot⟩ := hr.cycle_of_mem hh
  refine ⟨_, hr'.next_head, ?_⟩
  have : (tl ++ [h]).headI ∈ h :: tl := by
    cases tl with
    | nil => simp
    | cons y r => simp
  exact hrot.mem_iff.mp this

theorem IsCycle.cycle_congr {next next2 : Nat → Option Nat} {ring : List Nat}
    (h : ∀ x ∈ ring, next2 x = next x) (hr : IsCycle next ring) : IsCycle next2 ring := by
  obtain ⟨hne, hnd, hch, hlast⟩ := hr
  refine ⟨hne, hnd, ?_, ?_⟩
  · rw [List.Chain'.iff_mem] at hch ⊢
    exact hch.imp (fun {a b} hab => ⟨hab.1, hab.2.1, by rw [h a hab.1]; exact hab.2.2⟩)
  · cases hl : ring.getLast? with
    | none => rw [hl] at hlast; simpa using hlast
    | some z =>
      rw [hl] at hlast
      simp only [Option.some_bind] at hlast ⊢
      rw [h z (List.mem_of_mem_getLast? hl)]
      exact hlast

theorem IsRing.ring_cons_iff (s : CqSubdivision2) (a : Nat) (tl : List Nat) :
    s.IsRing (a :: tl) ↔
      (a :: tl).Nodup ∧ List.Chain' (fun x y => s.cfD x = some y) (a :: tl ++ [a]) :=
  IsCycle.cycle_cons_iff s.cfD a tl

theorem IsRing.ring_rotate {s : CqSubdivision2} {ring : List Nat} (hr : s.IsRing ring) (k : Nat) :
    s.IsRing (ring.rotate k) :=
  IsCycle.cycle_rotate hr k

theorem IsRing.ring_of_mem {s : CqSubdivision2} {ring : List Nat} (hr : s.IsRing ring) {h : Nat}
    (hh : h ∈ ring) : ∃ tl, s.IsRing (h :: tl) ∧ (h :: tl).IsRotated ring :=
  IsCycle.cycle_of_mem hr hh

/-- Every lath of a ring has a face-neighbour, which is on the ring too. -/
theorem IsRing.cfD_mem {s : CqSubdivision2} {ring : List Nat} (hr : s.IsRing ring) :
    ∀ h ∈ ring, ∃ c, s.cfD h = some c ∧ c ∈ ring :=
  IsCycle.next_mem hr

theorem IsRing.ring_congr {s t : CqSubdivision2} {ring : List Nat}
    (h : ∀ x ∈ ring, t.cfD x = s.cfD x) (hr : s.IsRing ring) : t.IsRing ring :=
  IsCycle.cycle_congr h hr

theorem IsRing.nodup {s : CqSubdivision2} {ring : List Nat} (hr : s.IsRing ring) :
    ring.Nodup := hr.2.1

theorem IsRing.lt {s : CqSubdivision2} {ring : List Nat} (hr : s.IsRing ring) :
    ∀ h ∈ ring, h < s.m_apLaths.length := by
  intro h hh
  obtain ⟨c, hc, _⟩ := hr.cfD_mem h hh
  exact cfD_lt hc

theorem IsRing.length_le {s : CqSubdivision2} {ring : List Nat} (hr : s.IsRing ring) :
    ring.length ≤ s.m_apLaths.length := by
  have hsub : ring ⊆ List.range s.m_apLaths.length := by
    intro h hh
    exact List.mem_range.mpr (hr.lt h hh)
  have := (List.subperm_of_subset hr.nodup hsub).length_le
  simpa using this

/-- The walk of `Qfv` along a chain of face-neighbours that ends at the start. -/
theorem Qfv.qfv_loop_chain (s : CqSubdivision2) (this : Nat) (seg : List Nat) :
    ∀ (fuel : Nat), seg.length < fuel →
      List.Chain' (fun x y => s.cfD x = some y) (seg ++ [this]) → this ∉ seg →
      Qfv.loop s this fuel ((seg ++ [this]).headI) = some seg := by
  induction seg with
  | nil =>
    intro fuel hf _ _
    cases fuel with
    | zero => simp at hf
    | succ f => simp [Qfv.loop]
  | cons x seg' ih =>
    intro fuel hf hch hnot
    cases fuel with
    | zero => simp at hf
    | succ f =>
      have hx : x ≠ this := fun e => hnot (by simp [e])
      have hch' : List.Chain' (fun x y => s.cfD x = some y) (seg' ++ [this]) := by
        simp only [List.cons_append] at hch
        exact List.Chain'.tail hch
      have hnext : s.cfD x = some ((seg' ++ [this]).headI) := by
        simp only [List.cons_append] at hch
        cases seg' with
        | nil => simpa using hch
        | cons y r =>
          simp only [List.cons_append, List.headI_cons]
          exact (List.chain'_cons.mp hch).1
      simp only [List.cons_append, List.headI_cons, Qfv.loop, hx, if_false, hnext]
      rw [ih f (by simp at hf; omega) hch' (fun h => hnot (List.mem_cons_of_mem _ h))]
      rfl

theorem Qfv_of_ring {s : CqSubdivision2} {a : Nat} {tl : List Nat} (hr : s.IsRing (a :: tl)) :
    s.Qfv a = some (a :: tl) := by
  have hlen := hr.length_le
  rw [IsRing.ring_cons_iff] at hr
  obtain ⟨hnd, hch⟩ := hr
  have hnot : a ∉ tl := (List.nodup_cons.mp hnd).1
  have hch' : List.Chain' (fun x y => s.cfD x = some y) (tl ++ [a]) := by
    simp only [List.cons_append] at hch
    exact List.Chain'.tail hch
  have hnext : s.cfD a = some ((tl ++ [a]).headI) := by
    simp only [List.cons_append] at hch
    cases tl with
    | nil => simpa using hch
    | cons y r =>
      simp only [List.cons_append, List.headI_cons]
      exact (List.chain'_cons.mp hch).1
  unfold Qfv
  rw [hnext]
  simp only [Option.some_bind]
  rw [Qfv.qfv_loop_chain s a tl _ (by simpa using hlen) hch' hnot]
  rfl

/-- The walk of `ccf` along a chain of face-neighbours that ends at the start. -/
theorem ccf.ccf_loop_chain (s : CqSubdivision2) (this : Nat) (seg : List Nat) :
    ∀ (x : Nat) (fuel : Nat), seg.length < fuel →
      List.Chain' (fun x y => s.cfD x = some y) (x :: seg ++ [this]) → this ∉ seg →
      ccf.loop s this fuel x = some ((x :: seg).getLast (by simp)) := by
  induction seg with
  | nil =>
    intro x fuel hf hch _
    cases fuel with
    | zero => simp at hf
    | succ f =>
      have : s.cfD x = some this := by simpa using hch
      simp [ccf.loop, this]
  | cons y seg' ih =>
    intro x fuel hf hch hnot
    cases fuel with
    | zero => simp at hf
    | succ f =>
      have hy : y ≠ this := fun e => hnot (by simp [e])
      simp only [List.cons_append] at hch
      have hxy : s.cfD x = some y := (List.chain'_cons.mp hch).1
      simp only [ccf.loop, hxy, hy, if_false]
      rw [ih y f (by simp at hf; omega) (by simpa using (List.chain'_cons.mp hch).2)
        (fun h => hnot (List.mem_cons_of_mem _ h))]
      simp

theorem ccf_of_ring {s : CqSubdivision2} {a : Nat} {tl : List Nat} (hr : s.IsRing (a :: tl)) :
    s.ccf a = some ((a :: tl).getLast (by simp)) := by
  have hlen := hr.length_le
  rw [IsRing.ring_cons_iff] at hr
  obtain ⟨hnd, hch⟩ := hr
  have hnot : a ∉ tl := (List.nodup_cons.mp hnd).1
  unfold ccf
  cases tl with
  | nil =>
    have h1 : s.cfD a = some a := by simpa using hch
    rw [h1]
    simp only [Option.some_bind, List.getLast_singleton]
    have hpos : 0 < s.m_apLaths.length := by simpa using hlen
    obtain ⟨f, hf⟩ : ∃ f, s.m_apLaths.length = f + 1 := ⟨_, (Nat.succ_pred_eq_of_pos hpos).symm⟩
    rw [hf]
    simp [ccf.loop, h1]
  | cons b tl' =>
    simp only [List.cons_append] at hch
    have h1 : s.cfD a = some b := (List.chain'_cons.mp hch).1
    rw [h1]
    simp only [Option.some_bind]
    rw [ccf.ccf_loop_chain s a tl' b _ (by simp at hlen; omega)
      (by simpa using (List.chain'_cons.mp hch).2)
      (fun h => hnot (List.mem_cons_of_mem _ h))]
    simp

end CqSubdivision2
end Aqsis

namespace Aqsis
namespace CqSubdivision2

/-! ## The state `AddFacet` produces -/

theorem AddFacet.result_lath_old (s : CqSubdivision2) (l : List Nat) (h : Nat)
    (hh : h < s.m_apLaths.length) : (AddFacet.result s l).lath h = s.lath h := by
  simp [AddFacet.result, lath, List.getElem?_append_left hh]

theorem AddFacet.result_lath_new (s : CqSubdivision2) (l : List Nat) (k : Nat) :
    (AddFacet.result s l).lath (s.m_apLaths.length + k) =
      (l[k]?).map (fun idx => { CqLath.new idx with
        m_pClockwiseFacet :=
          some (s.m_apLaths.length + if k = 0 then l.length - 1 else k - 1) }) := by
  simp only [AddFacet.result, lath]
  rw [List.getElem?_append_right (Nat.le_add_right _ _)]
  simp only [Nat.add_sub_cancel_left]
  exact AddFacet.facetLaths_getElem? l _ k

theorem AddFacet.result_cfD_new (s : CqSubdivision2) (l : List Nat) (k : Nat)
    (hk : k < l.length) :
    (AddFacet.result s l).cfD (s.m_apLaths.length + k) =
      some (s.m_apLaths.length + if k = 0 then l.length - 1 else k - 1) := by
  unfold cfD
  rw [AddFacet.result_lath_new, List.getElem?_eq_getElem hk]
  rfl

theorem AddFacet.result_VertexIndex_new (s : CqSubdivision2) (l : List Nat) (k : Nat) :
    (AddFacet.result s l).VertexIndex (s.m_apLaths.length + k) = l[k]? := by
  unfold VertexIndex
  rw [AddFacet.result_lath_new]
  cases l[k]? <;> rfl

theorem mem_descFrom (base k x : Nat) : x ∈ descFrom base k ↔ base < x ∧ x ≤ base + k := by
  induction k with
  | zero => simp only [descFrom, List.not_mem_nil, false_iff]; omega
  | succ k ih => simp only [descFrom, List.mem_cons, ih]; omega

theorem descFrom_length (base k : Nat) : (descFrom base k).length = k := by
  induction k with
  | zero => rfl
  | succ k ih => simp [descFrom, ih]

theorem descFrom_nodup (base k : Nat) : (descFrom base k).Nodup := by
  induction k with
  | zero => simp [descFrom]
  | succ k ih =>
    simp only [descFrom, List.nodup_cons, ih, and_true, mem_descFrom]
    omega

theorem descFrom_getElem? (base k j : Nat) :
    (descFrom base k)[j]? = if j < k then some (base + k - j) else none := by
  induction k generalizing j with
  | zero => simp [descFrom]
  | succ k ih =>
    cases j with
    | zero => simp [descFrom]; omega
    | succ j =>
      simp only [descFrom, List.getElem?_cons_succ, ih]
      by_cases hj : j < k
      · simp only [hj, if_true, Nat.add_lt_add_iff_right]
        congr 1
        omega
      · simp [hj]

theorem descFrom_chain (R : Nat → Nat → Prop) (base k : Nat)
    (h : ∀ j, j < k → R (base + j + 1) (base + j)) :
    List.Chain' R (descFrom base k ++ [base]) := by
  induction k with
  | zero => simp [descFrom]
  | succ k ih =>
    simp only [descFrom, List.cons_append]
    rw [List.chain'_cons']
    refine ⟨?_, ih (fun j hj => h j (Nat.lt_succ_of_lt hj))⟩
    intro y hy
    cases k with
    | zero =>
      simp only [descFrom, List.nil_append, List.head?_cons, Option.mem_def,
        Option.some.injEq] at hy
      subst hy
      exact h 0 (by omega)
    | succ k' =>
      simp only [descFrom, List.cons_append, List.head?_cons, Option.mem_def,
        Option.some.injEq] at hy
      subst hy
      exact h (k' + 1) (by omega)

/-- The laths `AddFacet` creates form one facet ring, entered at the first of
them and running through the others from the last one down. -/
theorem AddFacet.result_ring (s : CqSubdivision2) (l : List Nat) (hne : l ≠ []) :
    (AddFacet.result s l).IsRing
      (s.m_apLaths.length :: descFrom s.m_apLaths.length (l.length - 1)) := by
  have hpos : 0 < l.length := List.length_pos.mpr hne
  rw [IsRing.ring_cons_iff]
  constructor
  · rw [List.nodup_cons]
    refine ⟨?_, descFrom_nodup _ _⟩
    rw [mem_descFrom]
    omega
  · rw [List.cons_append, List.chain'_cons']
    constructor
    · intro y hy
      have e0 := AddFacet.result_cfD_new s l 0 hpos
      simp only [Nat.add_zero, if_true] at e0
      rw [e0]
      cases hk : l.length - 1 with
      | zero =>
        rw [hk] at hy
        simp only [descFrom, List.nil_append, List.head?_cons, Option.mem_def,
          Option.some.injEq] at hy
        subst hy
        simp
      | succ k =>
        rw [hk] at hy
        simp only [descFrom, List.cons_append, List.head?_cons, Option.mem_def,
          Option.some.injEq] at hy
        subst hy
        simp only [Option.some.injEq]
        omega
    · apply descFrom_chain
      intro j hj
      have := AddFacet.result_cfD_new s l (j + 1) (by omega)
      simpa [Nat.add_assoc] using this

end CqSubdivision2
end Aqsis

namespace Aqsis
namespace CqSubdivision2

theorem AddFacet.result_length (s : CqSubdivision2) (l : List Nat) :
    (AddFacet.result s l).m_apLaths.length = s.m_apLaths.length + l.length := by
  simp [AddFacet.result, AddFacet.facetLaths_length]

theorem AddFacet.result_cfIter (s : CqSubdivision2) (l : List Nat) :
    ∀ (j k : Nat), j ≤ k → k < l.length →
      (AddFacet.result s l).cfIter j (s.m_apLaths.length + k) =
        some (s.m_apLaths.length + k - j) := by
  intro j
  induction j with
  | zero =>
    intro k _ hk
    simp only [cfIter, AddFacet.result_length, Nat.sub_zero]
    rw [if_pos (by omega)]
  | succ j ih =>
    intro k hjk hk
    have hk0 : k ≠ 0 := by omega
    simp only [cfIter, AddFacet.result_cfD_new s l k hk, hk0, if_false, Option.some_bind]
    rw [ih (k - 1) (by omega) (by omega)]
    congr 1
    omega

theorem AddFacet.result_cfIter_first (s : CqSubdivision2) (l : List Nat) (j : Nat)
    (hj : j < l.length) :
    (AddFacet.result s l).cfIter (j + 1) s.m_apLaths.length =
      some (s.m_apLaths.length + (l.length - 1 - j)) := by
  have e0 := AddFacet.result_cfD_new s l 0 (by omega)
  simp only [Nat.add_zero, if_true] at e0
  simp only [cfIter, e0, Option.some_bind]
  rw [AddFacet.result_cfIter s l j (l.length - 1) (by omega) (by omega)]
  congr 1
  omega

theorem AddFacet.hits_eq (l : List Nat) :
    ∀ (base v : Nat),
      AddFacet.hits l base v =
        ((List.range l.length).filter (fun k => decide (l[k]? = some v))).map
          (fun k => base + k) := by
  induction l with
  | nil => intros; rfl
  | cons idx rest ih =>
    intro base v
    have hf : ((fun k => decide ((idx :: rest)[k]? = some v)) ∘ Nat.succ) =
        (fun k => decide (rest[k]? = some v)) := by
      funext k
      simp
    have hm : ∀ (L : List Nat),
        List.map (fun k => base + k) (List.map Nat.succ L) =
          List.map (fun k => base + 1 + k) L := by
      intro L
      rw [List.map_map]
      apply List.map_congr_left
      intro k _
      simp only [Function.comp]
      omega
    simp only [AddFacet.hits, ih, List.length_cons, List.range_succ_eq_map, List.filter_cons,
      List.getElem?_cons_zero, Option.some.injEq, List.filter_map, hf]
    by_cases hv : idx = v
    · simp only [hv, decide_True, if_true, List.map_cons, Nat.add_zero, List.singleton_append,
        hm]
    · simp only [hv, decide_False, if_false, List.nil_append, Bool.false_eq_true, hm]

end CqSubdivision2
end Aqsis

namespace Aqsis
namespace CqSubdivision2

/-! ## Meshes built with `Prepare` and `AddFacet` -/

theorem AddFacet.loop_some (l : List Nat) :
    ∀ (iVert : Nat) (s : CqSubdivision2) (pLast pFirst : Option Nat)
      (r : CqSubdivision2 × Option Nat × Option Nat),
      AddFacet.loop l iVert s pLast pFirst = some r →
      ∀ v ∈ l, v < s.m_aapVertices.length := by
  induction l with
  | nil => intro _ _ _ _ _ _ v hv; cases hv
  | cons idx rest ih =>
    intro iVert s pLast pFirst r hsome v hv
    simp only [AddFacet.loop, pushVertexLath] at hsome
    by_cases h1 : idx < s.m_aapVertices.length
    · simp only [h1, if_true] at hsome
      rcases List.mem_cons.mp hv with rfl | hv'
      · exact h1
      · have := ih _ _ _ _ _ hsome v hv'
        simpa using this
    · simp [h1] at hsome

theorem AddFacet_some {s : CqSubdivision2} {l : List Nat} {r : CqSubdivision2 × Nat}
    (h : s.AddFacet l = some r) :
    l ≠ [] ∧ (∀ v ∈ l, v < s.m_aapVertices.length) ∧
      r = (AddFacet.result s l, s.m_apLaths.length) := by
  have hr : ∀ v ∈ l, v < s.m_aapVertices.length := by
    unfold AddFacet at h
    cases hl : AddFacet.loop l 0 s none none with
    | none => rw [hl] at h; cases h
    | some x => exact AddFacet.loop_some l _ _ _ _ _ hl
  have hne : l ≠ [] := by
    rintro rfl
    simp [AddFacet, AddFacet.loop] at h
  refine ⟨hne, hr, ?_⟩
  rw [AddFacet_eq s l hne hr] at h
  exact (Option.some.inj h).symm

theorem AddFacet.result_cfD_old (s : CqSubdivision2) (l : List Nat) (h : Nat)
    (hh : h < s.m_apLaths.length) : (AddFacet.result s l).cfD h = s.cfD h := by
  unfold cfD
  rw [AddFacet.result_lath_old s l h hh]

theorem AddFacet.result_VertexIndex_old (s : CqSubdivision2) (l : List Nat) (h : Nat)
    (hh : h < s.m_apLaths.length) : (AddFacet.result s l).VertexIndex h = s.VertexIndex h := by
  unfold VertexIndex
  rw [AddFacet.result_lath_old s l h hh]

theorem VertexIndex_lt {s : CqSubdivision2} {h v : Nat} (e : s.VertexIndex h = some v) :
    h < s.m_apLaths.length := by
  unfold VertexIndex at e
  cases hl : s.lath h with
  | none => rw [hl] at e; cases e
  | some l => exact lath_lt hl

theorem AddFacet.mem_hits (l : List Nat) (base v h : Nat) :
    h ∈ AddFacet.hits l base v ↔ ∃ k, l[k]? = some v ∧ h = base + k := by
  rw [AddFacet.hits_eq]
  simp only [List.mem_map, List.mem_filter, List.mem_range, decide_eq_true_eq]
  constructor
  · rintro ⟨k, ⟨_, hk⟩, rfl⟩
    exact ⟨k, hk, rfl⟩
  · rintro ⟨k, hk, rfl⟩
    exact ⟨k, ⟨(List.getElem?_eq_some.mp hk).1, hk⟩, rfl⟩

theorem AddFacet.hits_nodup (l : List Nat) (base v : Nat) : (AddFacet.hits l base v).Nodup := by
  rw [AddFacet.hits_eq]
  apply List.Nodup.map
  · intro a b hab
    simp only at hab
    omega
  · exact (List.nodup_range _).filter _

theorem Fresh.addFacet {s : CqSubdivision2} (hs : s.Fresh) {l : List Nat} (hne : l ≠ [])
    (hr : ∀ v ∈ l, v < s.m_aapVertices.length) : (AddFacet.result s l).Fresh := by
  have hlen := AddFacet.result_length s l
  have hvnew : ∀ h v, (AddFacet.result s l).VertexIndex h = some v →
      (s.VertexIndex h = some v ∧ h < s.m_apLaths.length) ∨
        (∃ k, l[k]? = some v ∧ h = s.m_apLaths.length + k) := by
    intro h v e
    by_cases hh : h < s.m_apLaths.length
    · left
      rw [AddFacet.result_VertexIndex_old s l h hh] at e
      exact ⟨e, hh⟩
    · right
      refine ⟨h - s.m_apLaths.length, ?_, by omega⟩
      have : h = s.m_apLaths.length + (h - s.m_apLaths.length) := by omega
      rw [this, AddFacet.result_VertexIndex_new] at e
      exact e
  constructor
  · intro x hx
    simp only [AddFacet.result, List.mem_append] at hx
    rcases hx with hx | hx
    · exact hs.links x hx
    · obtain ⟨k, hk, rfl⟩ := List.getElem_of_mem hx
      have := AddFacet.facetLaths_getElem? l s.m_apLaths.length k
      rw [List.getElem?_eq_getElem hk] at this
      cases hlk : l[k]? with
      | none => rw [hlk] at this; cases this
      | some idx =>
        rw [hlk] at this
        simp only [Option.map_some', Option.some.injEq] at this
        rw [this]
        simp [CqLath.new]
  · intro h hh
    by_cases hold : h < s.m_apLaths.length
    · obtain ⟨ring, hring, hmem⟩ := hs.rings h hold
      refine ⟨ring, hring.ring_congr ?_, hmem⟩
      intro x hx
      exact AddFacet.result_cfD_old s l x (hring.lt x hx)
    · refine ⟨_, AddFacet.result_ring s l hne, ?_⟩
      rw [hlen] at hh
      rw [List.mem_cons, mem_descFrom]
      omega
  · intro f hf
    simp only [AddFacet.result, List.mem_append, List.mem_singleton] at hf
    have hpos : 0 < l.length := List.length_pos.mpr hne
    rcases hf with hf | rfl
    · have := hs.facets f hf
      omega
    · omega
  · intro h v e
    have hT : (AddFacet.result s l).m_aapVertices.length = s.m_aapVertices.length := by
      simp [AddFacet.result, AddFacet.newAdj_length]
    rw [hT]
    rcases hvnew h v e with ⟨e', _⟩ | ⟨k, hk, _⟩
    · exact hs.vertexLt h v e'
    · exact hr v (List.getElem?_mem hk)
  · intro v h
    have hadj : (AddFacet.result s l).m_aapVertices[v]? =
        (s.m_aapVertices[v]?).map (fun a => a ++ AddFacet.hits l s.m_apLaths.length v) := by
      simp only [AddFacet.result]
      exact AddFacet.newAdj_getElem? l _ _ v
    rw [hadj]
    constructor
    · rintro ⟨a, ha, hmem⟩
      cases hv : s.m_aapVertices[v]? with
      | none => rw [hv] at ha; cases ha
      | some a0 =>
        rw [hv] at ha
        simp only [Option.map_some', Option.some.injEq] at ha
        subst ha
        rcases List.mem_append.mp hmem with h1 | h1
        · have e := (hs.adj v h).mp ⟨a0, hv, h1⟩
          rw [AddFacet.result_VertexIndex_old s l h (VertexIndex_lt e)]
          exact e
        · obtain ⟨k, hk, rfl⟩ := (AddFacet.mem_hits l _ v h).mp h1
          rw [AddFacet.result_VertexIndex_new]
          exact hk
    · intro e
      rcases hvnew h v e with ⟨e', _⟩ | ⟨k, hk, rfl⟩
      · obtain ⟨a, ha, hmem⟩ := (hs.adj v h).mpr e'
        exact ⟨_, by rw [ha]; rfl, List.mem_append_left _ hmem⟩
      · have hvT : v < s.m_aapVertices.length := hr v (List.getElem?_mem hk)
        refine ⟨_, by rw [List.getElem?_eq_getElem hvT]; rfl, List.mem_append_right _ ?_⟩
        exact (AddFacet.mem_hits l _ v _).mpr ⟨k, hk, rfl⟩
  · intro a ha
    obtain ⟨v, hv, rfl⟩ := List.getElem_of_mem ha
    have hadj : (AddFacet.result s l).m_aapVertices[v]? =
        (s.m_aapVertices[v]?).map (fun a => a ++ AddFacet.hits l s.m_apLaths.length v) := by
      simp only [AddFacet.result]
      exact AddFacet.newAdj_getElem? l _ _ v
    rw [List.getElem?_eq_getElem hv] at hadj
    cases hv0 : s.m_aapVertices[v]? with
    | none => rw [hv0] at hadj; cases hadj
    | some a0 =>
      rw [hv0] at hadj
      simp only [Option.map_some', Option.some.injEq] at hadj
      rw [hadj]
      rw [List.nodup_append]
      refine ⟨hs.adjNodup a0 (List.getElem?_mem hv0), AddFacet.hits_nodup _ _ _, ?_⟩
      intro x hx1 hx2
      have e := (hs.adj v x).mp ⟨a0, hv0, hx1⟩
      have := VertexIndex_lt e
      obtain ⟨k, _, rfl⟩ := (AddFacet.mem_hits l _ v x).mp hx2
      omega

theorem Fresh.prepare (params : List (List CqParameter)) (cVerts : Nat) :
    ((empty params).Prepare cVerts).Fresh := by
  constructor
  · intro l hl
    simp [Prepare, empty] at hl
  · intro h hh
    simp [Prepare, empty] at hh
  · intro f hf
    simp [Prepare, empty] at hf
  · intro h v e
    simp [Prepare, empty, VertexIndex, lath] at e
  · intro v h
    simp only [Prepare, empty, VertexIndex, lath, List.take_nil, List.nil_append,
      List.length_nil, Nat.sub_zero, List.getElem?_nil, Option.map_none', reduceCtorEq,
      iff_false, not_exists, not_and]
    intro a ha
    have := List.getElem?_mem ha
    rw [List.mem_replicate] at this
    rw [this.2]
    simp
  · intro a ha
    simp only [Prepare, empty, List.take_nil, List.nil_append, List.length_nil,
      Nat.sub_zero, List.mem_replicate] at ha
    rw [ha.2]
    exact List.nodup_nil

theorem Fresh.addFacets {fs : List (List Nat)} :
    ∀ {s t : CqSubdivision2}, s.Fresh → s.AddFacets fs = some t → t.Fresh := by
  induction fs with
  | nil =>
    intro s t hs h
    simp only [AddFacets, Option.some.injEq] at h
    subst h
    exact hs
  | cons f rest ih =>
    intro s t hs h
    simp only [AddFacets] at h
    cases hf : s.AddFacet f with
    | none => rw [hf] at h; cases h
    | some r =>
      rw [hf] at h
      obtain ⟨hne, hr, rfl⟩ := AddFacet_some hf
      exact ih (hs.addFacet hne hr) h

theorem Fresh.buildMesh {params : List (List CqParameter)} {cVerts : Nat}
    {facets : List (List Nat)} {s : CqSubdivision2}
    (h : buildMesh params cVerts facets = some s) : s.Fresh :=
  Fresh.addFacets (Fresh.prepare params cVerts) h

end CqSubdivision2
end Aqsis

namespace Aqsis
namespace CqSubdivision2

/-! ## States that differ in the vertex-neighbour links only -/

theorem withCv_length (s : CqSubdivision2) (f : Nat → Option Nat) :
    (s.withCv f).m_apLaths.length = s.m_apLaths.length := by
  simp [withCv]

theorem withCv_lath (s : CqSubdivision2) (f : Nat → Option Nat) (h : Nat) :
    (s.withCv f).lath h = (s.lath h).map (fun l => { l with m_pClockwiseVertex := f h }) := by
  simp [withCv, lath, List.getElem?_mapIdx]

theorem withCv_cfD (s : CqSubdivision2) (f : Nat → Option Nat) (h : Nat) :
    (s.withCv f).cfD h = s.cfD h := by
  unfold cfD
  rw [withCv_lath]
  cases s.lath h <;> rfl

theorem withCv_VertexIndex (s : CqSubdivision2) (f : Nat → Option Nat) (h : Nat) :
    (s.withCv f).VertexIndex h = s.VertexIndex h := by
  unfold VertexIndex
  rw [withCv_lath]
  cases s.lath h <;> rfl

theorem withCv_cf (s : CqSubdivision2) (f : Nat → Option Nat) (h : Nat) :
    (s.withCv f).cf h = s.cf h := by
  unfold cf
  rw [withCv_lath]
  cases s.lath h <;> rfl

theorem withCv_cv (s : CqSubdivision2) (f : Nat → Option Nat) (h : Nat)
    (hh : h < s.m_apLaths.length) : (s.withCv f).cv h = some (f h) := by
  unfold cv
  rw [withCv_lath]
  have : (s.lath h).isSome := (s.lath_isSome_iff h).mpr hh
  cases hl : s.lath h with
  | none => rw [hl] at this; cases this
  | some l => rfl

theorem ccf.loop_congr {s t : CqSubdivision2} (hst : ∀ h, t.cfD h = s.cfD h) (this : Nat) :
    ∀ (fuel p : Nat), ccf.loop t this fuel p = ccf.loop s this fuel p := by
  intro fuel
  induction fuel with
  | zero => intro p; rfl
  | succ f ih =>
    intro p
    simp only [ccf.loop, hst]
    cases s.cfD p with
    | none => rfl
    | some q =>
      simp only
      split
      · rfl
      · exact ih q

theorem ccf_congr {s t : CqSubdivision2} (hst : ∀ h, t.cfD h = s.cfD h)
    (hlen : t.m_apLaths.length = s.m_apLaths.length) (h : Nat) : t.ccf h = s.ccf h := by
  unfold ccf
  rw [hst, hlen]
  cases s.cfD h with
  | none => rfl
  | some c => exact ccf.loop_congr hst h _ c

theorem withCv_ccf (s : CqSubdivision2) (f : Nat → Option Nat) (h : Nat) :
    (s.withCv f).ccf h = s.ccf h :=
  ccf_congr (withCv_cfD s f) (withCv_length s f) h

theorem withCv_outKey (s : CqSubdivision2) (f : Nat → Option Nat) (h : Nat) :
    (s.withCv f).outKey h = s.outKey h := by
  unfold outKey
  rw [withCv_cfD]
  cases s.cfD h with
  | none => rfl
  | some c => exact withCv_VertexIndex s f c

theorem withCv_innKey (s : CqSubdivision2) (f : Nat → Option Nat) (h : Nat) :
    (s.withCv f).innKey h = s.innKey h := by
  unfold innKey
  rw [withCv_ccf]
  cases s.ccf h with
  | none => rfl
  | some c => exact withCv_VertexIndex s f c

theorem withCv_setCv (s : CqSubdivision2) (f : Nat → Option Nat) (h m : Nat)
    (hh : h < s.m_apLaths.length) :
    (s.withCv f).setLath h (fun l => { l with m_pClockwiseVertex := some m }) =
      some (s.withCv (Function.update f h (some m))) := by
  unfold setLath
  have hl : (s.withCv f).m_apLaths[h]? =
      some { s.m_apLaths[h] with m_pClockwiseVertex := f h } := by
    simp [withCv, List.getElem?_mapIdx, List.getElem?_eq_getElem hh]
  rw [hl]
  simp only [withCv, Option.some.injEq]
  congr 1
  apply List.ext_getElem?
  intro i
  rw [List.getElem?_set, List.getElem?_mapIdx, List.getElem?_mapIdx]
  by_cases hi : h = i
  · subst hi
    simp [hh, List.getElem?_eq_getElem hh]
  · simp only [hi, if_false]
    cases s.m_apLaths[i]? with
    | none => rfl
    | some l => simp [Function.update, Ne.symm hi]

theorem withCv_of_none (s : CqSubdivision2)
    (hs : ∀ l ∈ s.m_apLaths, l.m_pClockwiseVertex = none) :
    s.withCv (fun _ => none) = s := by
  have : s.m_apLaths.mapIdx (fun _ l => { l with m_pClockwiseVertex := none }) = s.m_apLaths := by
    apply List.ext_getElem?
    intro i
    rw [List.getElem?_mapIdx]
    cases hi : s.m_apLaths[i]? with
    | none => rfl
    | some l =>
      have := hs l (List.getElem?_mem hi)
      simp only [Option.map_some', Option.some.injEq]
      cases l
      simp_all
  simp only [withCv, this]

theorem withCv_congr (s : CqSubdivision2) (f g : Nat → Option Nat)
    (h : ∀ i, i < s.m_apLaths.length → f i = g i) : s.withCv f = s.withCv g := by
  simp only [withCv]
  congr 1
  apply List.ext_getElem?
  intro i
  rw [List.getElem?_mapIdx, List.getElem?_mapIdx]
  cases hi : s.m_apLaths[i]? with
  | none => rfl
  | some l =>
    have := h i (List.getElem?_eq_some.mp hi).1
    simp [this]

/-! ## The scan of `Finalise` -/

theorem Finalise.scan_eq_find (vert : List Nat) (aVisited : List Bool) (key : Nat → Option Nat)
    (κ : Nat → Nat) (target : Nat) (hlen : aVisited.length = vert.length)
    (hkey : ∀ h ∈ vert, key h = some (κ h)) :
    ∀ idxs : List Nat, (∀ i ∈ idxs, i < vert.length) →
      Finalise.scan vert aVisited key target idxs =
        some (idxs.find? (fun i => !(aVisited.getD i true) && decide (κ (vert.getD i 0) = target))) := by
  intro idxs
  induction idxs with
  | nil => intro _; rfl
  | cons i rest ih =>
    intro hi
    have hiv : i < vert.length := hi i (List.mem_cons_self _ _)
    have hia : i < aVisited.length := by omega
    have ih' := ih (fun j hj => hi j (List.mem_cons_of_mem _ hj))
    simp only [Finalise.scan, List.getElem?_eq_getElem hiv, List.getElem?_eq_getElem hia,
      List.find?_cons, List.getD_eq_getElem?_getD, Option.getD_some]
    by_cases hv : aVisited[i] = true
    · simp only [hv, if_true, Bool.not_true, Bool.false_and]
      simpa [List.getD_eq_getElem?_getD] using ih'
    · have hv' : aVisited[i] = false := by simpa using hv
      simp only [hv', Bool.false_eq_true, if_false, Bool.not_false, Bool.true_and,
        hkey vert[i] (List.getElem_mem _)]
      by_cases ht : κ vert[i] = target
      · simp [ht]
      · simp only [ht, if_false, decide_False]
        simpa [List.getD_eq_getElem?_getD] using ih'

end CqSubdivision2
end Aqsis

namespace Aqsis
namespace CqSubdivision2

theorem find?_unique {α : Type} (p : α → Bool) (a : α) :
    ∀ (l : List α), a ∈ l → p a = true → (∀ b ∈ l, p b = true → b = a) →
      l.find? p = some a := by
  intro l
  induction l with
  | nil => intro h; cases h
  | cons x rest ih =>
    intro hmem hpa huniq
    by_cases hx : p x = true
    · have := huniq x (List.mem_cons_self _ _) hx
      subst this
      simp [List.find?_cons, hx]
    · have hxa : x ≠ a := fun e => hx (e ▸ hpa)
      have hmem' : a ∈ rest := by
        rcases List.mem_cons.mp hmem with e | h
        · exact absurd e.symm hxa
        · exact h
      simp only [List.find?_cons, hx]
      exact ih hmem' hpa (fun b hb => huniq b (List.mem_cons_of_mem _ hb))

section Vertex

variable (s0 : CqSubdivision2) (vert : List Nat) (out inn : Nat → Nat)

/-- The visited flags in which exactly the laths of `done` are marked. -/
theorem Finalise.visited_getD (done : List Nat) (i : Nat) (hi : i < vert.length) :
    (vert.map (fun h => decide (h ∈ done))).getD i true = decide (vert.getD i 0 ∈ done) := by
  simp [List.getD_eq_getElem?_getD, List.getElem?_eq_getElem hi]

theorem Finalise.visited_set (hnd : vert.Nodup) (done : List Nat) (i m : Nat)
    (hi : vert[i]? = some m) :
    (vert.map (fun h => decide (h ∈ done))).set i true =
      vert.map (fun h => decide (h ∈ m :: done)) := by
  obtain ⟨hlt, hm⟩ := List.getElem?_eq_some.mp hi
  apply List.ext_getElem?
  intro j
  rw [List.getElem?_set, List.getElem?_map, List.getElem?_map]
  by_cases hij : i = j
  · subst hij
    simp [hlt, hi]
  · simp only [hij, if_false]
    cases hj : vert[j]? with
    | none => rfl
    | some x =>
      obtain ⟨hjlt, hx⟩ := List.getElem?_eq_some.mp hj
      have hxm : x ≠ m := by
        intro e
        apply hij
        have : vert[j] = vert[i] := by rw [hx, hm, e]
        exact ((hnd.getElem_inj_iff).mp this).symm
      simp [hxm]

/-- The scan finds the position of the one unvisited lath with the wanted key. -/
theorem Finalise.scan_unique (key : Nat → Option Nat) (κ : Nat → Nat)
    (hkey : ∀ h ∈ vert, key h = some (κ h)) (hnd : vert.Nodup)
    (done : List Nat) (target m : Nat) (hm : m ∈ vert) (hmd : m ∉ done)
    (hmk : κ m = target) (huniq : ∀ x ∈ vert, x ∉ done → κ x = target → x = m) :
    ∃ i, vert[i]? = some m ∧
      Finalise.scan vert (vert.map (fun h => decide (h ∈ done))) key target
        (List.range vert.length) = some (some i) := by
  obtain ⟨i, hi, rfl⟩ := List.getElem_of_mem hm
  refine ⟨i, List.getElem?_eq_getElem hi, ?_⟩
  rw [Finalise.scan_eq_find vert _ key κ target (by simp) hkey _
    (fun j hj => List.mem_range.mp hj)]
  congr 1
  apply find?_unique
  · exact List.mem_range.mpr hi
  · rw [Finalise.visited_getD vert done i hi]
    simp [List.getD_eq_getElem?_getD, List.getElem?_eq_getElem hi, hmd, hmk]
  · intro j hj hp
    have hjlt := List.mem_range.mp hj
    rw [Finalise.visited_getD vert done j hjlt] at hp
    simp only [List.getD_eq_getElem?_getD, List.getElem?_eq_getElem hjlt, Option.getD_some,
      Bool.and_eq_true, Bool.not_eq_true', decide_eq_false_iff_not, decide_eq_true_eq] at hp
    have := huniq vert[j] (List.getElem_mem _) hp.1 hp.2
    exact (hnd.getElem_inj_iff).mp this

/-- The scan runs to the end when every lath with the wanted key is visited. -/
theorem Finalise.scan_none (key : Nat → Option Nat) (κ : Nat → Nat)
    (hkey : ∀ h ∈ vert, key h = some (κ h))
    (done : List Nat) (target : Nat) (hall : ∀ x ∈ vert, κ x = target → x ∈ done) :
    Finalise.scan vert (vert.map (fun h => decide (h ∈ done))) key target
      (List.range vert.length) = some none := by
  rw [Finalise.scan_eq_find vert _ key κ target (by simp) hkey _
    (fun j hj => List.mem_range.mp hj)]
  congr 1
  rw [List.find?_eq_none]
  intro j hj hp
  have hjlt := List.mem_range.mp hj
  rw [Finalise.visited_getD vert done j hjlt] at hp
  simp only [List.getD_eq_getElem?_getD, List.getElem?_eq_getElem hjlt, Option.getD_some,
    Bool.and_eq_true, Bool.not_eq_true', decide_eq_false_iff_not, decide_eq_true_eq] at hp
  exact hp.1 (hall vert[j] (List.getElem_mem _) hp.2)

/-- The forward loop of `Finalise` follows a path of unvisited laths, each
the only match of the one before, links it up and stops at its end. -/
theorem Finalise.forward_path
    (hout : ∀ h ∈ vert, s0.outKey h = some (out h))
    (hinn : ∀ h ∈ vert, s0.innKey h = some (inn h))
    (hnd : vert.Nodup) (hlt : ∀ h ∈ vert, h < s0.m_apLaths.length)
    (hinj : ∀ x ∈ vert, ∀ y ∈ vert, out x = out y → x = y) :
    ∀ (path : List Nat) (c : Nat) (f : Nat → Option Nat) (done : List Nat) (cVis fuel : Nat),
      c ∈ vert → (∀ x ∈ path, x ∈ vert) → path.Nodup → (∀ x ∈ path, x ∉ done) →
      List.Chain (fun a b => inn a = out b) c path →
      (∀ x ∈ vert, out x = inn (lastOf c path) → x ∈ done ∨ x ∈ path) →
      path.length < fuel →
      Finalise.forward vert fuel (s0.withCv f) (vert.map (fun h => decide (h ∈ done))) cVis c =
        some (s0.withCv (linkAlong f c path),
          vert.map (fun h => decide (h ∈ path.reverse ++ done)),
          cVis + path.length, lastOf c path) := by
  intro path
  induction path with
  | nil =>
    intro c f done cVis fuel hc _ _ _ _ hend hfuel
    cases fuel with
    | zero => simp at hfuel
    | succ fuel =>
      have hk : ((s0.withCv f).ccf c).bind (s0.withCv f).VertexIndex = some (inn c) := by
        have := withCv_innKey s0 f c
        unfold innKey at this
        rw [this]
        exact hinn c hc
      have hscan := Finalise.scan_none vert
        (fun h => ((s0.withCv f).cfD h).bind (s0.withCv f).VertexIndex) out
        (fun h hh => by
          have := withCv_outKey s0 f h
          unfold outKey at this
          simp only [this]
          exact hout h hh)
        done (inn c)
        (fun x hx hxo => by
          rcases hend x hx (by simpa [lastOf] using hxo) with h | h
          · exact h
          · cases h)
      simp only [Finalise.forward, hk, hscan, lastOf, linkAlong, List.reverse_nil,
        List.nil_append, List.length_nil, Nat.add_zero]
  | cons m rest ih =>
    intro c f done cVis fuel hc hpv hpnd hpd hch hend hfuel
    cases fuel with
    | zero => simp at hfuel
    | succ fuel =>
      have hk : ((s0.withCv f).ccf c).bind (s0.withCv f).VertexIndex = some (inn c) := by
        have := withCv_innKey s0 f c
        unfold innKey at this
        rw [this]
        exact hinn c hc
      have hmv : m ∈ vert := hpv m (List.mem_cons_self _ _)
      have hcm : inn c = out m := (List.chain_cons.mp hch).1
      obtain ⟨i, hi, hscan⟩ := Finalise.scan_unique vert
        (fun h => ((s0.withCv f).cfD h).bind (s0.withCv f).VertexIndex) out
        (fun h hh => by
          have := withCv_outKey s0 f h
          unfold outKey at this
          simp only [this]
          exact hout h hh)
        hnd done (inn c) m hmv (hpd m (List.mem_cons_self _ _)) hcm.symm
        (fun x hx _ hxo => hinj x hx m hmv (by rw [hxo, hcm]))
      simp only [Finalise.forward, hk, hscan, hi,
        withCv_setCv s0 f c m (hlt c hc), Finalise.visited_set vert hnd done i m hi]
      rw [ih m (Function.update f c (some m)) (m :: done) (cVis + 1) fuel hmv
        (fun x hx => hpv x (List.mem_cons_of_mem _ hx))
        (List.nodup_cons.mp hpnd).2
        (fun x hx => by
          intro hmem
          rcases List.mem_cons.mp hmem with e | h
          · subst e
            exact (List.nodup_cons.mp hpnd).1 hx
          · exact hpd x (List.mem_cons_of_mem _ hx) h)
        (List.chain_cons.mp hch).2
        (fun x hx hxo => by
          rcases hend x hx (by simpa [lastOf] using hxo) with h | h
          · exact Or.inl (List.mem_cons_of_mem _ h)
          · rcases List.mem_cons.mp h with e | h'
            · exact Or.inl (by rw [e]; exact List.mem_cons_self _ _)
            · exact Or.inr h')
        (by simp at hfuel; omega)]
      have harith : cVis + 1 + rest.length = cVis + (rest.length + 1) := by omega
      simp only [lastOf, linkAlong, List.reverse_cons, List.append_assoc, List.singleton_append,
        List.length_cons, harith]


/-- The backward loop of `Finalise` follows a path of unvisited laths, each
the only match of the one before, links it up and stops at its end. -/
theorem Finalise.backward_path
    (hout : ∀ h ∈ vert, s0.outKey h = some (out h))
    (hinn : ∀ h ∈ vert, s0.innKey h = some (inn h))
    (hnd : vert.Nodup) (hlt : ∀ h ∈ vert, h < s0.m_apLaths.length)
    (hinj : ∀ x ∈ vert, ∀ y ∈ vert, inn x = inn y → x = y) :
    ∀ (path : List Nat) (c iStart : Nat) (f : Nat → Option Nat) (done : List Nat)
      (cVis fuel : Nat),
      vert[iStart]? = some c → (∀ x ∈ path, x ∈ vert) → (c :: path).Nodup →
      (∀ x ∈ path, x ∉ done) →
      List.Chain (fun a b => inn b = out a) c path →
      (∀ x ∈ vert, inn x ≠ out (lastOf c path)) →
      path.length < fuel →
      ∃ V iS,
        Finalise.backward vert fuel (s0.withCv f) (vert.map (fun h => decide (h ∈ done)))
            cVis c iStart =
          some (s0.withCv (linkBack f c path), V, cVis + path.length, lastOf c path, iS) := by
  intro path
  induction path with
  | nil =>
    intro c iStart f done cVis fuel hc _ _ _ _ hend hfuel
    cases fuel with
    | zero => simp at hfuel
    | succ fuel =>
      have hcv : c ∈ vert := List.getElem?_mem hc
      have hk : ((s0.withCv f).cfD c).bind (s0.withCv f).VertexIndex = some (out c) := by
        have := withCv_outKey s0 f c
        unfold outKey at this
        rw [this]
        exact hout c hcv
      have hscan := Finalise.scan_none vert
        (fun h => ((s0.withCv f).ccf h).bind (s0.withCv f).VertexIndex) inn
        (fun h hh => by
          have := withCv_innKey s0 f h
          unfold innKey at this
          simp only [this]
          exact hinn h hh)
        done (out c)
        (fun x hx hxo => absurd hxo (by simpa [lastOf] using hend x hx))
      refine ⟨vert.map (fun h => decide (h ∈ done)), iStart, ?_⟩
      simp only [Finalise.backward, hk, hscan, lastOf, linkBack, List.length_nil, Nat.add_zero]
  | cons m rest ih =>
    intro c iStart f done cVis fuel hc hpv hpnd hpd hch hend hfuel
    cases fuel with
    | zero => simp at hfuel
    | succ fuel =>
      have hcv : c ∈ vert := List.getElem?_mem hc
      have hk : ((s0.withCv f).cfD c).bind (s0.withCv f).VertexIndex = some (out c) := by
        have := withCv_outKey s0 f c
        unfold outKey at this
        rw [this]
        exact hout c hcv
      have hmv : m ∈ vert := hpv m (List.mem_cons_self _ _)
      have hcm : inn m = out c := (List.chain_cons.mp hch).1
      obtain ⟨i, hi, hscan⟩ := Finalise.scan_unique vert
        (fun h => ((s0.withCv f).ccf h).bind (s0.withCv f).VertexIndex) inn
        (fun h hh => by
          have := withCv_innKey s0 f h
          unfold innKey at this
          simp only [this]
          exact hinn h hh)
        hnd done (out c) m hmv (hpd m (List.mem_cons_self _ _)) hcm
        (fun x hx _ hxo => hinj x hx m hmv (by rw [hxo, hcm]))
      have hnd2 := (List.nodup_cons.mp hpnd).2
      obtain ⟨V, iS, hrec⟩ := ih m i (Function.update f m (some c)) (c :: done) (cVis + 1) fuel
        hi (fun x hx => hpv x (List.mem_cons_of_mem _ hx)) hnd2
        (fun x hx => by
          intro hmem
          rcases List.mem_cons.mp hmem with e | h
          · subst e
            exact (List.nodup_cons.mp hpnd).1 (List.mem_cons_of_mem _ hx)
          · exact hpd x (List.mem_cons_of_mem _ hx) h)
        (List.chain_cons.mp hch).2
        (fun x hx => by simpa [lastOf] using hend x hx)
        (by simp at hfuel; omega)
      refine ⟨V, iS, ?_⟩
      have harith : cVis + 1 + rest.length = cVis + (rest.length + 1) := by omega
      simp only [Finalise.backward, hk, hscan, hi,
        withCv_setCv s0 f m c (hlt m hmv), Finalise.visited_set vert hnd done iStart c hc]
      rw [hrec]
      simp only [lastOf, linkBack, List.length_cons, harith]

end Vertex

end CqSubdivision2
end Aqsis

namespace Aqsis
namespace CqSubdivision2

/-! ## The links written along a path -/

theorem lastOf_mem (c : Nat) (path : List Nat) : lastOf c path ∈ c :: path := by
  induction path generalizing c with
  | nil => simp [lastOf]
  | cons m rest ih =>
    simp only [lastOf]
    exact List.mem_cons_of_mem _ (ih m)

theorem lastOf_append_singleton (c : Nat) (path : List Nat) (x : Nat) :
    lastOf c (path ++ [x]) = x := by
  induction path generalizing c with
  | nil => simp [lastOf]
  | cons m rest ih => simp only [List.cons_append, lastOf]; exact ih m

theorem lastOf_reverse_cons (c : Nat) (path : List Nat) (x : Nat) :
    lastOf c ((x :: path).reverse) = x := by
  rw [List.reverse_cons]
  exact lastOf_append_singleton c _ x

theorem mem_dropLast_of_ne_lastOf (c : Nat) (path : List Nat) (x : Nat)
    (hx : x ∈ c :: path) (hne : x ≠ lastOf c path) : x ∈ (c :: path).dropLast := by
  induction path generalizing c with
  | nil =>
    simp only [List.mem_singleton] at hx
    exact absurd hx (by simpa [lastOf] using hne)
  | cons m rest ih =>
    simp only [List.dropLast_cons₂, List.mem_cons]
    rcases List.mem_cons.mp hx with e | h
    · exact Or.inl e
    · exact Or.inr (ih m h (by simpa [lastOf] using hne))

theorem not_infix_lastOf (c : Nat) (path : List Nat) (b : Nat) (hnd : (c :: path).Nodup) :
    ¬ [lastOf c path, b] <:+: (c :: path) := by
  induction path generalizing c with
  | nil =>
    intro h
    have := h.length_le
    simp at this
  | cons m rest ih =>
    intro h
    simp only [lastOf] at h
    rcases List.infix_cons_iff.mp h with hp | hi
    · obtain ⟨t, ht⟩ := hp
      simp only [List.cons_append, List.cons.injEq] at ht
      have h1 : c ∈ m :: rest := by rw [← ht.1]; exact lastOf_mem m rest
      exact (List.nodup_cons.mp hnd).1 h1
    · exact ih m (List.nodup_cons.mp hnd).2 hi

theorem infix_pair_mem {a b : Nat} {L : List Nat} (h : [a, b] <:+: L) : a ∈ L ∧ b ∈ L := by
  constructor
  · exact h.subset (by simp)
  · exact h.subset (by simp)

theorem chain'_infix_pair (R : Nat → Nat → Prop) {a b : Nat} {L : List Nat}
    (hch : List.Chain' R L) (h : [a, b] <:+: L) : R a b := by
  have := hch.infix h
  simpa using this

theorem linkAlong_cases (path : List Nat) :
    ∀ (c : Nat) (f : Nat → Option Nat) (x : Nat),
      linkAlong f c path x = f x ∨
        ∃ b, [x, b] <:+: (c :: path) ∧ linkAlong f c path x = some b := by
  induction path with
  | nil => intro c f x; exact Or.inl rfl
  | cons m rest ih =>
    intro c f x
    simp only [linkAlong]
    rcases ih m (Function.update f c (some m)) x with h | ⟨b, hb, hv⟩
    · by_cases hxc : x = c
      · subst hxc
        right
        refine ⟨m, ⟨[], rest, by simp⟩, ?_⟩
        rw [h]
        simp
      · left
        rw [h]
        simp [Function.update, hxc]
    · right
      exact ⟨b, List.infix_cons hb, hv⟩

theorem linkAlong_isSome (path : List Nat) :
    ∀ (c : Nat) (f : Nat → Option Nat) (x : Nat), x ∈ (c :: path).dropLast →
      ∃ b, linkAlong f c path x = some b := by
  induction path with
  | nil => intro c f x hx; simp at hx
  | cons m rest ih =>
    intro c f x hx
    simp only [List.dropLast_cons₂, List.mem_cons] at hx
    simp only [linkAlong]
    by_cases hin : x ∈ (m :: rest).dropLast
    · exact ih m _ x hin
    · rcases hx with e | h
      · subst e
        rcases linkAlong_cases rest m (Function.update f x (some m)) x with h1 | ⟨b, _, hv⟩
        · exact ⟨m, by rw [h1]; simp⟩
        · exact ⟨b, hv⟩
      · exact absurd h hin

theorem linkBack_cases (path : List Nat) :
    ∀ (c : Nat) (f : Nat → Option Nat) (x : Nat),
      linkBack f c path x = f x ∨
        ∃ b, [b, x] <:+: (c :: path) ∧ linkBack f c path x = some b := by
  induction path with
  | nil => intro c f x; exact Or.inl rfl
  | cons m rest ih =>
    intro c f x
    simp only [linkBack]
    rcases ih m (Function.update f m (some c)) x with h | ⟨b, hb, hv⟩
    · by_cases hxm : x = m
      · subst hxm
        right
        refine ⟨c, ⟨[], rest, by simp⟩, ?_⟩
        rw [h]
        simp
      · left
        rw [h]
        simp [Function.update, hxm]
    · right
      exact ⟨b, List.infix_cons hb, hv⟩

theorem linkBack_isSome (path : List Nat) :
    ∀ (c : Nat) (f : Nat → Option Nat) (x : Nat), x ∈ path →
      ∃ b, linkBack f c path x = some b := by
  induction path with
  | nil => intro c f x hx; cases hx
  | cons m rest ih =>
    intro c f x hx
    simp only [linkBack]
    by_cases hin : x ∈ rest
    · exact ih m _ x hin
    · rcases List.mem_cons.mp hx with e | h
      · subst e
        rcases linkBack_cases rest x (Function.update f x (some c)) x with h1 | ⟨b, _, hv⟩
        · exact ⟨c, by rw [h1]; simp⟩
        · exact ⟨b, hv⟩
      · exact absurd h hin

end CqSubdivision2
end Aqsis

namespace Aqsis
namespace CqSubdivision2

theorem getLast?_eq_lastOf (c : Nat) (path : List Nat) :
    (c :: path).getLast? = some (lastOf c path) := by
  induction path generalizing c with
  | nil => rfl
  | cons m rest ih => rw [List.getLast?_cons_cons, ih m]; rfl

theorem lastOf_append_cons (c : Nat) (l1 : List Nat) (a : Nat) (l2 : List Nat) :
    lastOf c (l1 ++ a :: l2) = lastOf a l2 := by
  induction l1 generalizing c with
  | nil => rfl
  | cons m rest ih => simp only [List.cons_append, lastOf]; exact ih m

theorem pred_exists (c : Nat) (path : List Nat) (x : Nat) (hx : x ∈ c :: path) (hne : x ≠ c) :
    ∃ a, [a, x] <:+: (c :: path) := by
  induction path generalizing c with
  | nil => simp only [List.mem_singleton] at hx; exact absurd hx hne
  | cons m rest ih =>
    rcases List.mem_cons.mp hx with e | h
    · exact absurd e hne
    · by_cases hxm : x = m
      · subst hxm
        exact ⟨c, ⟨[], rest, by simp⟩⟩
      · obtain ⟨a, ha⟩ := ih m h hxm
        exact ⟨a, List.infix_cons ha⟩

theorem succ_exists (c : Nat) (path : List Nat) (x : Nat) (hx : x ∈ c :: path)
    (hne : x ≠ lastOf c path) : ∃ b, [x, b] <:+: (c :: path) := by
  induction path generalizing c with
  | nil =>
    simp only [List.mem_singleton] at hx
    exact absurd hx (by simpa [lastOf] using hne)
  | cons m rest ih =>
    rcases List.mem_cons.mp hx with e | h
    · subst e
      exact ⟨m, ⟨[], rest, by simp⟩⟩
    · obtain ⟨b, hb⟩ := ih m h (by simpa [lastOf] using hne)
      exact ⟨b, List.infix_cons hb⟩

theorem not_infix_head (c : Nat) (path : List Nat) (a : Nat) (hnd : (c :: path).Nodup) :
    ¬ [a, c] <:+: (c :: path) := by
  rintro ⟨s, t, hst⟩
  cases s with
  | nil =>
    simp only [List.nil_append, List.cons_append, List.cons.injEq] at hst
    have : c ∈ path := by rw [← hst.2]; simp
    exact (List.nodup_cons.mp hnd).1 this
  | cons s0 s' =>
    simp only [List.cons_append, List.cons.injEq, List.append_assoc] at hst
    have : c ∈ path := by rw [← hst.2]; simp
    exact (List.nodup_cons.mp hnd).1 this

theorem chain_infix_pair (R : Nat → Nat → Prop) {a b c : Nat} {path : List Nat}
    (hch : List.Chain R c path) (h : [a, b] <:+: (c :: path)) : R a b :=
  chain'_infix_pair R (show List.Chain' R (c :: path) from hch) h

section Vertex

variable (s0 : CqSubdivision2) (vert : List Nat) (out inn : Nat → Nat)

/-- The body of `Finalise` at a manifold vertex with at least two laths: it
succeeds, reports no failure, leaves the links of all other laths alone and
links every lath of the vertex to the lath that leaves the vertex by the edge
the first one reaches it by, when there is one. -/
theorem Finalise.vertex_manifold
    (hout : ∀ h ∈ vert, s0.outKey h = some (out h))
    (hinn : ∀ h ∈ vert, s0.innKey h = some (inn h))
    (hnd : vert.Nodup) (hlt : ∀ h ∈ vert, h < s0.m_apLaths.length)
    (houts : ∀ x ∈ vert, ∀ y ∈ vert, out x = out y → x = y)
    (hinns : ∀ x ∈ vert, ∀ y ∈ vert, inn x = inn y → x = y)
    (fan : List Nat) (hperm : fan.Perm vert)
    (hchain : List.Chain' (fun a b => inn a = out b) fan)
    (hk : 2 ≤ vert.length) (f : Nat → Option Nat) (hf : ∀ h ∈ vert, f h = none) :
    ∃ f', Finalise.vertex (s0.withCv f) vert = some (s0.withCv f', true) ∧
      (∀ h, h ∉ vert → f' h = f h) ∧
      (∀ x ∈ vert, ∀ y, f' x = some y ↔ (y ∈ vert ∧ out y = inn x)) := by
  -- the start lath and the split of the fan round it
  obtain ⟨pStart, vtl, hvert⟩ : ∃ p t, vert = p :: t := by
    cases vert with
    | nil => simp at hk
    | cons p t => exact ⟨p, t, rfl⟩
  have hv0 : vert[0]? = some pStart := by rw [hvert]; simp
  have hpv : pStart ∈ vert := by rw [hvert]; exact List.mem_cons_self _ _
  have hfnd : fan.Nodup := hperm.nodup_iff.mpr hnd
  have hmemf : ∀ x, x ∈ fan ↔ x ∈ vert := fun x => hperm.mem_iff
  obtain ⟨pre, post, hfan⟩ := List.append_of_mem ((hmemf pStart).mpr hpv)
  obtain ⟨hd, ftl, hfan2⟩ : ∃ a t, fan = a :: t := by
    cases fan with
    | nil => cases pre <;> cases hfan
    | cons a t => exact ⟨a, t, rfl⟩
  have hlastfan : lastOf hd ftl = lastOf pStart post := by
    cases pre with
    | nil =>
      simp only [List.nil_append] at hfan
      rw [hfan2] at hfan
      injection hfan with h1 h2
      subst h1 h2
      rfl
    | cons p0 pre' =>
      simp only [List.cons_append] at hfan
      rw [hfan2] at hfan
      injection hfan with h1 h2
      subst h1 h2
      exact lastOf_append_cons _ _ _ _
  have hhead : (pre ++ [pStart]).head? = some hd := by
    cases pre with
    | nil =>
      simp only [List.nil_append] at hfan
      rw [hfan2] at hfan
      injection hfan with h1 h2
      subst h1
      rfl
    | cons p0 pre' =>
      simp only [List.cons_append] at hfan
      rw [hfan2] at hfan
      injection hfan with h1 h2
      subst h1
      rfl
  have hhdv : hd ∈ vert := (hmemf hd).mp (by rw [hfan2]; exact List.mem_cons_self _ _)
  have hsplit := List.chain'_split.mp (hfan ▸ hchain)
  have hch_pre : List.Chain' (fun a b => inn a = out b) (pre ++ [pStart]) := hsplit.1
  have hch_post : List.Chain (fun a b => inn a = out b) pStart post := hsplit.2
  have hklen : vert.length = pre.length + 1 + post.length := by
    rw [← hperm.length_eq, hfan]
    simp
    omega
  have hprev : ∀ x ∈ pre, x ∈ vert := fun x hx => (hmemf x).mp (by rw [hfan]; simp [hx])
  have hpostv : ∀ x ∈ post, x ∈ vert := fun x hx => (hmemf x).mp (by rw [hfan]; simp [hx])
  have hfnd' : (pre ++ pStart :: post).Nodup := hfan ▸ hfnd
  have hvsplit : ∀ x ∈ vert, x ∈ pre ∨ x ∈ pStart :: post := by
    intro x hx
    have := (hmemf x).mpr hx
    rw [hfan] at this
    exact List.mem_append.mp this
  unfold Finalise.vertex
  have hk' : ¬ vert.length ≤ 1 := by omega
  simp only [hk', if_false, hv0]
  by_cases hclosed : ∃ x ∈ vert, out x = inn (lastOf pStart post)
  · -- a closed fan: the forward pass runs once round it
    obtain ⟨x, hxv, hxo⟩ := hclosed
    have hxhd : x = hd := by
      by_contra hne
      have hxf : x ∈ hd :: ftl := by rw [← hfan2]; exact (hmemf x).mpr hxv
      obtain ⟨a, ha⟩ := pred_exists hd ftl x hxf hne
      have hav : a ∈ vert := (hmemf a).mp (by rw [hfan2]; exact (infix_pair_mem ha).1)
      have hR : inn a = out x := chain'_infix_pair (fun a b => inn a = out b) (hfan2 ▸ hchain) ha
      have hlv : lastOf pStart post ∈ vert := by
        rcases List.mem_cons.mp (lastOf_mem pStart post) with e | h
        · rw [e]; exact hpv
        · exact hpostv _ h
      have hal : a = lastOf hd ftl := by
        rw [hlastfan]
        exact hinns a hav _ hlv (by rw [hR, hxo])
      rw [hal] at ha
      exact not_infix_lastOf hd ftl x (hfan2 ▸ hfnd) ha
    subst hxhd
    have hPperm : (post ++ pre ++ [pStart]).Perm fan := by
      rw [hfan, List.append_assoc]
      have h1 : (post ++ (pre ++ [pStart])).Perm ((pre ++ [pStart]) ++ post) :=
        List.perm_append_comm
      simpa using h1
    have hPv : ∀ y ∈ post ++ pre ++ [pStart], y ∈ vert :=
      fun y hy => (hmemf y).mp (hPperm.mem_iff.mp hy)
    have hPnd : (post ++ pre ++ [pStart]).Nodup := hPperm.nodup_iff.mpr hfnd
    have hPch : List.Chain (fun a b => inn a = out b) pStart (post ++ pre ++ [pStart]) := by
      have : List.Chain' (fun a b => inn a = out b) ((pStart :: post) ++ (pre ++ [pStart])) := by
        rw [List.chain'_append]
        refine ⟨hch_post, hch_pre, ?_⟩
        intro a ha b hb
        rw [getLast?_eq_lastOf, Option.mem_def, Option.some.injEq] at ha
        rw [hhead, Option.mem_def, Option.some.injEq] at hb
        subst ha hb
        exact hxo.symm
      simpa [List.append_assoc] using this
    have hPlast : lastOf pStart (post ++ pre ++ [pStart]) = pStart :=
      lastOf_append_singleton _ _ _
    have hPlen : (post ++ pre ++ [pStart]).length = vert.length := by
      simp; omega
    have hfw := Finalise.forward_path s0 vert out inn hout hinn hnd hlt houts
      (post ++ pre ++ [pStart]) pStart f [] 0 (2 * vert.length + 2) hpv hPv hPnd
      (fun _ _ h => by cases h) hPch
      (fun y hy _ => Or.inr (hPperm.mem_iff.mpr ((hmemf y).mpr hy)))
      (by rw [hPlen]; omega)
    have hrep : List.replicate vert.length false = vert.map (fun h => decide (h ∈ ([] : List Nat))) := by
      apply List.ext_getElem?
      intro i
      by_cases hi : i < vert.length
      · simp [List.getElem?_replicate, hi, List.getElem?_eq_getElem hi]
      · simp [List.getElem?_replicate, hi]
    have hf0 : s0.withCv f = s0.withCv f := rfl
    rw [hrep, hfw]
    simp only [hPlast]
    have hdl : (pStart :: (post ++ pre ++ [pStart])).dropLast = pStart :: (post ++ pre) := by
      rw [← List.cons_append, List.dropLast_concat]
    obtain ⟨b, hb⟩ := linkAlong_isSome (post ++ pre ++ [pStart]) pStart f pStart
      (by rw [hdl]; exact List.mem_cons_self _ _)
    rw [withCv_cv s0 _ pStart (hlt pStart hpv), hb]
    simp only [reduceCtorEq, if_false, hPlen, Nat.zero_add]
    have : ¬ vert.length + 1 < vert.length := by omega
    simp only [this, if_false]
    have hfwd : ∀ x ∈ vert, ∀ y, linkAlong f pStart (post ++ pre ++ [pStart]) x = some y →
        y ∈ vert ∧ out y = inn x := by
      intro x hx y hxy
      rcases linkAlong_cases (post ++ pre ++ [pStart]) pStart f x with h | ⟨b', hb', hv'⟩
      · rw [h, hf x hx] at hxy; cases hxy
      · rw [hv'] at hxy
        cases hxy
        have hmem := (infix_pair_mem hb').2
        refine ⟨?_, (chain_infix_pair (fun a b => inn a = out b) hPch hb').symm⟩
        rcases List.mem_cons.mp hmem with e | h
        · rw [e]; exact hpv
        · exact hPv _ h
    refine ⟨_, rfl, ?_, ?_⟩
    · intro h hh
      rcases linkAlong_cases (post ++ pre ++ [pStart]) pStart f h with h1 | ⟨b', hb', _⟩
      · exact h1
      · have hmem := (infix_pair_mem hb').1
        exfalso
        apply hh
        rcases List.mem_cons.mp hmem with e | h'
        · rw [e]; exact hpv
        · exact hPv _ h'
    · intro x hx y
      constructor
      · exact hfwd x hx y
      · rintro ⟨hy, hyo⟩
        have hxs : x ∈ (pStart :: (post ++ pre ++ [pStart])).dropLast := by
          rw [hdl]
          rcases hvsplit x hx with h | h
          · simp [h]
          · rcases List.mem_cons.mp h with e | h'
            · simp [e]
            · simp [h']
        obtain ⟨b', hb'⟩ := linkAlong_isSome (post ++ pre ++ [pStart]) pStart f x hxs
        have := hfwd x hx b' hb'
        rw [hb']
        congr 1
        exact houts b' this.1 y hy (by rw [this.2, hyo])
  · -- an open fan: forward to its end, then backward to its start
    have hopen : ∀ x ∈ vert, out x ≠ inn (lastOf pStart post) :=
      fun x hx e => hclosed ⟨x, hx, e⟩
    have hpsnd : (pStart :: post).Nodup := (List.nodup_append.mp hfnd').2.1
    have hfw := Finalise.forward_path s0 vert out inn hout hinn hnd hlt houts
      post pStart f [] 0 (2 * vert.length + 2) hpv hpostv (List.nodup_cons.mp hpsnd).2
      (fun _ _ h => by cases h) hch_post
      (fun y hy e => absurd e (hopen y hy))
      (by omega)
    have hrep : List.replicate vert.length false = vert.map (fun h => decide (h ∈ ([] : List Nat))) := by
      apply List.ext_getElem?
      intro i
      by_cases hi : i < vert.length
      · simp [List.getElem?_replicate, hi, List.getElem?_eq_getElem hi]
      · simp [List.getElem?_replicate, hi]
    rw [hrep, hfw]
    have hlv : lastOf pStart post ∈ vert := by
      rcases List.mem_cons.mp (lastOf_mem pStart post) with e | h
      · rw [e]; exact hpv
      · exact hpostv _ h
    have hf1last : linkAlong f pStart post (lastOf pStart post) = none := by
      rcases linkAlong_cases post pStart f (lastOf pStart post) with h | ⟨b', hb', _⟩
      · rw [h]; exact hf _ hlv
      · exact absurd hb' (not_infix_lastOf pStart post b' hpsnd)
    simp only [withCv_cv s0 _ _ (hlt _ hlv), hf1last, if_true]
    -- the backward pass
    have hprend : (pStart :: pre.reverse).Nodup := by
      have h1 : (pre ++ [pStart]).Nodup := by
        have := (List.nodup_append.mp hfnd').1
        rw [List.nodup_append]
        refine ⟨this, List.nodup_singleton _, ?_⟩
        intro a ha hb
        simp only [List.mem_singleton] at hb
        subst hb
        exact (List.nodup_append.mp hfnd').2.2 ha (List.mem_cons_self _ _)
      have h2 : (pStart :: pre.reverse).Perm (pre ++ [pStart]) := by
        have : (pre ++ [pStart]).reverse = pStart :: pre.reverse := by simp
        rw [← this]
        exact List.reverse_perm _
      exact h2.nodup_iff.mpr h1
    have hbch : List.Chain (fun a b => inn b = out a) pStart pre.reverse := by
      have h1 : List.Chain' (flip (fun a b => inn a = out b)) ((pre ++ [pStart]).reverse) :=
        List.chain'_reverse.mpr (by simpa [flip] using hch_pre)
      have h2 : (pre ++ [pStart]).reverse = pStart :: pre.reverse := by simp
      rw [h2] at h1
      exact h1
    have hblast : lastOf pStart pre.reverse = hd := by
      cases pre with
      | nil =>
        simp only [List.nil_append, List.head?_cons, Option.some.injEq] at hhead
        simp [lastOf, hhead]
      | cons p0 pre' =>
        simp only [List.cons_append, List.head?_cons, Option.some.injEq] at hhead
        rw [lastOf_reverse_cons, hhead]
    have hbend : ∀ x ∈ vert, inn x ≠ out (lastOf pStart pre.reverse) := by
      intro x hx e
      rw [hblast] at e
      by_cases hxl : x = lastOf hd ftl
      · rw [hxl, hlastfan] at e
        exact hopen hd hhdv e.symm
      · have hxf : x ∈ hd :: ftl := by rw [← hfan2]; exact (hmemf x).mpr hx
        obtain ⟨b', hb'⟩ := succ_exists hd ftl x hxf hxl
        have hbv : b' ∈ vert := (hmemf b').mp (by rw [hfan2]; exact (infix_pair_mem hb').2)
        have hR : inn x = out b' := chain'_infix_pair (fun a b => inn a = out b) (hfan2 ▸ hchain) hb'
        have : b' = hd := houts b' hbv hd hhdv (by rw [← hR, e])
        rw [this] at hb'
        exact not_infix_head hd ftl x (hfan2 ▸ hfnd) hb'
    obtain ⟨V, iS, hbw⟩ := Finalise.backward_path s0 vert out inn hout hinn hnd hlt hinns
      pre.reverse pStart 0 (linkAlong f pStart post) (post.reverse ++ []) (0 + post.length)
      (2 * vert.length + 2) hv0
      (fun x hx => hprev x (List.mem_reverse.mp hx)) hprend
      (fun x hx hmem => by
        simp only [List.append_nil, List.mem_reverse] at hmem hx
        exact (List.nodup_append.mp hfnd').2.2 hx (List.mem_cons_of_mem _ hmem))
      hbch hbend (by simp; omega)
    rw [hbw]
    simp only [List.length_reverse, Nat.zero_add]
    have : ¬ post.length + pre.length + 1 < vert.length := by omega
    simp only [this, if_false]
    have hfwd : ∀ x ∈ vert, ∀ y,
        linkBack (linkAlong f pStart post) pStart pre.reverse x = some y →
        y ∈ vert ∧ out y = inn x := by
      intro x hx y hxy
      rcases linkBack_cases pre.reverse pStart (linkAlong f pStart post) x with h | ⟨b', hb', hv'⟩
      · rw [h] at hxy
        rcases linkAlong_cases post pStart f x with h1 | ⟨b', hb', hv'⟩
        · rw [h1, hf x hx] at hxy; cases hxy
        · rw [hv'] at hxy
          cases hxy
          have hmem := (infix_pair_mem hb').2
          refine ⟨?_, (chain_infix_pair (fun a b => inn a = out b) hch_post hb').symm⟩
          rcases List.mem_cons.mp hmem with e | h'
          · rw [e]; exact hpv
          · exact hpostv _ h'
      · rw [hv'] at hxy
        cases hxy
        have hmem := (infix_pair_mem hb').1
        refine ⟨?_, ?_⟩
        · rcases List.mem_cons.mp hmem with e | h'
          · rw [e]; exact hpv
          · exact hprev _ (List.mem_reverse.mp h')
        · have := chain_infix_pair (fun a b => inn b = out a) hbch hb'
          exact this.symm
    refine ⟨_, rfl, ?_, ?_⟩
    · intro h hh
      rcases linkBack_cases pre.reverse pStart (linkAlong f pStart post) h with h1 | ⟨b', hb', _⟩
      · rw [h1]
        rcases linkAlong_cases post pStart f h with h2 | ⟨b', hb', _⟩
        · exact h2
        · have hmem := (infix_pair_mem hb').1
          exfalso
          apply hh
          rcases List.mem_cons.mp hmem with e | h'
          · rw [e]; exact hpv
          · exact hpostv _ h'
      · have hmem := (infix_pair_mem hb').2
        exfalso
        apply hh
        rcases List.mem_cons.mp hmem with e | h'
        · rw [e]; exact hpv
        · exact hprev _ (List.mem_reverse.mp h')
    · intro x hx y
      constructor
      · exact hfwd x hx y
      · rintro ⟨hy, hyo⟩
        have hxl : x ≠ lastOf pStart post := by
          intro e
          rw [e] at hyo
          exact hopen y hy hyo
        have hsome : ∃ b', linkBack (linkAlong f pStart post) pStart pre.reverse x = some b' := by
          rcases hvsplit x hx with h | h
          · exact linkBack_isSome pre.reverse pStart _ x (List.mem_reverse.mpr h)
          · obtain ⟨b1, hb1⟩ := linkAlong_isSome post pStart f x
              (mem_dropLast_of_ne_lastOf pStart post x h hxl)
            rcases linkBack_cases pre.reverse pStart (linkAlong f pStart post) x
              with h1 | ⟨b', _, hv'⟩
            · exact ⟨b1, by rw [h1, hb1]⟩
            · exact ⟨b', hv'⟩
        obtain ⟨b', hb'⟩ := hsome
        have := hfwd x hx b' hb'
        rw [hb']
        congr 1
        exact houts b' this.1 y hy (by rw [this.2, hyo])

end Vertex

end CqSubdivision2
end Aqsis

namespace Aqsis
namespace CqSubdivision2

/-! ## Facts about fresh meshes -/

theorem Fresh.cfD_ccf {s : CqSubdivision2} (hs : s.Fresh) {h : Nat}
    (hh : h < s.m_apLaths.length) :
    ∃ c, s.cfD h = some c ∧ c < s.m_apLaths.length ∧ s.ccf c = some h := by
  obtain ⟨ring, hring, hmem⟩ := hs.rings h hh
  obtain ⟨tl, hr, _⟩ := hring.ring_of_mem hmem
  have hnext : s.cfD h = some ((tl ++ [h]).headI) := IsCycle.next_head hr
  have hrot : s.IsRing (tl ++ [h]) := IsCycle.cycle_rotate_one hr
  cases tl with
  | nil =>
    refine ⟨h, by simpa using hnext, hh, ?_⟩
    have := ccf_of_ring hr
    simpa using this
  | cons c tl' =>
    simp only [List.cons_append, List.headI_cons] at hnext
    have hc : c < s.m_apLaths.length := hr.lt c (by simp)
    refine ⟨c, hnext, hc, ?_⟩
    have hrot' : s.IsRing (c :: (tl' ++ [h])) := by simpa using hrot
    have := ccf_of_ring hrot'
    rw [this]
    congr 1
    rw [List.getLast_cons (by simp), List.getLast_append_singleton]

theorem Fresh.ccf_cfD {s : CqSubdivision2} (hs : s.Fresh) {h : Nat}
    (hh : h < s.m_apLaths.length) :
    ∃ p, s.ccf h = some p ∧ p < s.m_apLaths.length ∧ s.cfD p = some h := by
  obtain ⟨ring, hring, hmem⟩ := hs.rings h hh
  obtain ⟨tl, hr, _⟩ := hring.ring_of_mem hmem
  refine ⟨_, ccf_of_ring hr, hr.lt _ (List.getLast_mem _), IsCycle.next_last hr⟩

theorem VertexIndex_some {s : CqSubdivision2} {h : Nat} (hh : h < s.m_apLaths.length) :
    ∃ v, s.VertexIndex h = some v := by
  unfold VertexIndex lath
  rw [List.getElem?_eq_getElem hh]
  exact ⟨_, rfl⟩

theorem Fresh.outKey_some {s : CqSubdivision2} (hs : s.Fresh) {h : Nat}
    (hh : h < s.m_apLaths.length) : s.outKey h = some ((s.outKey h).getD 0) := by
  obtain ⟨c, hc, hclt, _⟩ := hs.cfD_ccf hh
  obtain ⟨v, hv⟩ := VertexIndex_some hclt
  simp [outKey, hc, hv]

theorem Fresh.innKey_some {s : CqSubdivision2} (hs : s.Fresh) {h : Nat}
    (hh : h < s.m_apLaths.length) : s.innKey h = some ((s.innKey h).getD 0) := by
  obtain ⟨p, hp, hplt, _⟩ := hs.ccf_cfD hh
  obtain ⟨v, hv⟩ := VertexIndex_some hplt
  simp [innKey, hp, hv]

theorem Fresh.mem_adj_lt {s : CqSubdivision2} (hs : s.Fresh) {v h : Nat} {a : List Nat}
    (ha : s.m_aapVertices[v]? = some a) (hh : h ∈ a) : h < s.m_apLaths.length :=
  VertexIndex_lt ((hs.adj v h).mp ⟨a, ha, hh⟩)

theorem Fresh.adj_disjoint {s : CqSubdivision2} (hs : s.Fresh) {i j h : Nat} {a b : List Nat}
    (hij : i ≠ j) (ha : s.m_aapVertices[i]? = some a) (hb : s.m_aapVertices[j]? = some b)
    (hha : h ∈ a) : h ∉ b := by
  intro hhb
  have e1 := (hs.adj i h).mp ⟨a, ha, hha⟩
  have e2 := (hs.adj j h).mp ⟨b, hb, hhb⟩
  rw [e1] at e2
  exact hij (Option.some.inj e2)

theorem ManifoldVertex.data {s : CqSubdivision2} (hs : s.Fresh) {v : Nat} {vert : List Nat}
    (hv : s.m_aapVertices[v]? = some vert) (hm : s.ManifoldVertex v) :
    ∃ fan : List Nat, fan.Perm vert ∧
      (∀ x ∈ vert, ∀ y ∈ vert, (s.outKey x).getD 0 = (s.outKey y).getD 0 → x = y) ∧
      (∀ x ∈ vert, ∀ y ∈ vert, (s.innKey x).getD 0 = (s.innKey y).getD 0 → x = y) ∧
      List.Chain' (fun a b => (s.innKey a).getD 0 = (s.outKey b).getD 0) fan ∧
      (∀ x ∈ vert, (s.outKey x).getD 0 ≠ (s.innKey x).getD 0) := by
  obtain ⟨fan, hperm, houts, hinns, hchain, hnd⟩ := hm
  rw [hv] at hperm
  simp only [Option.getD_some] at hperm
  refine ⟨fan, hperm, ?_, ?_, ?_, ?_⟩
  · intro x hx y hy e
    have hx' := hperm.mem_iff.mpr hx
    have hy' := hperm.mem_iff.mpr hy
    apply List.inj_on_of_nodup_map houts hx' hy'
    rw [hs.outKey_some (hs.mem_adj_lt hv hx), hs.outKey_some (hs.mem_adj_lt hv hy), e]
  · intro x hx y hy e
    have hx' := hperm.mem_iff.mpr hx
    have hy' := hperm.mem_iff.mpr hy
    apply List.inj_on_of_nodup_map hinns hx' hy'
    rw [hs.innKey_some (hs.mem_adj_lt hv hx), hs.innKey_some (hs.mem_adj_lt hv hy), e]
  · exact hchain.imp (fun {a b} hab => by rw [hab])
  · intro x hx e
    apply hnd x (hperm.mem_iff.mpr hx)
    rw [hs.outKey_some (hs.mem_adj_lt hv hx), hs.innKey_some (hs.mem_adj_lt hv hx), e]

theorem Matched.total {s : CqSubdivision2} (hs : s.Fresh) {f : Nat → Option Nat}
    {vert : List Nat} (hlt : ∀ h ∈ vert, h < s.m_apLaths.length)
    (h : ∀ x ∈ vert, ∀ y, f x = some y ↔
      (y ∈ vert ∧ (s.outKey y).getD 0 = (s.innKey x).getD 0)) : s.Matched f vert := by
  intro x hx y
  rw [h x hx y]
  constructor
  · rintro ⟨hy, e⟩
    refine ⟨hy, ?_⟩
    rw [hs.outKey_some (hlt y hy), hs.innKey_some (hlt x hx), e]
  · rintro ⟨hy, e⟩
    exact ⟨hy, by rw [e]⟩

/-- The outer loop of `Finalise` over the remaining adjacency lists of a
fresh mesh whose vertices are all manifold. -/
theorem Finalise.loop_manifold {s : CqSubdivision2} (hs : s.Fresh)
    (hm : ∀ v, v < s.m_aapVertices.length → s.ManifoldVertex v) :
    ∀ (rest pre : List (List Nat)), s.m_aapVertices = pre ++ rest →
      ∀ (f : Nat → Option Nat),
        (∀ vert ∈ rest, ∀ h ∈ vert, f h = none) →
        (∀ vert ∈ pre, s.Matched f vert) →
        ∃ F, Finalise.loop rest (s.withCv f) = some (s.withCv F, true) ∧
          ∀ vert ∈ s.m_aapVertices, s.Matched F vert := by
  intro rest
  induction rest with
  | nil =>
    intro pre hpre f _ hdone
    refine ⟨f, rfl, ?_⟩
    intro vert hvert
    rw [hpre, List.append_nil] at hvert
    exact hdone vert hvert
  | cons vert rest' ih =>
    intro pre hpre f hnone hdone
    have hv : s.m_aapVertices[pre.length]? = some vert := by
      rw [hpre, List.getElem?_append_right (le_refl _)]
      simp
    have hvT : pre.length < s.m_aapVertices.length := (List.getElem?_eq_some.mp hv).1
    have hlt : ∀ h ∈ vert, h < s.m_apLaths.length := fun h hh => hs.mem_adj_lt hv hh
    have hnd : vert.Nodup := hs.adjNodup vert (List.getElem?_mem hv)
    obtain ⟨fan, hperm, houts, hinns, hchain, hndeg⟩ := (hm _ hvT).data hs hv
    -- the links after this vertex
    have hstep : ∃ f', Finalise.vertex (s.withCv f) vert = some (s.withCv f', true) ∧
        (∀ h, h ∉ vert → f' h = f h) ∧ s.Matched f' vert := by
      by_cases hk : 2 ≤ vert.length
      · obtain ⟨f', h1, h2, h3⟩ := Finalise.vertex_manifold s vert
          (fun h => (s.outKey h).getD 0) (fun h => (s.innKey h).getD 0)
          (fun h hh => hs.outKey_some (hlt h hh)) (fun h hh => hs.innKey_some (hlt h hh))
          hnd hlt houts hinns fan hperm hchain hk f
          (fun h hh => hnone vert (List.mem_cons_self _ _) h hh)
        exact ⟨f', h1, h2, Matched.total hs hlt h3⟩
      · refine ⟨f, ?_, fun _ _ => rfl, ?_⟩
        · unfold Finalise.vertex
          have : vert.length ≤ 1 := by omega
          simp [this]
        · apply Matched.total hs hlt
          intro x hx y
          rw [hnone vert (List.mem_cons_self _ _) x hx]
          simp only [reduceCtorEq, false_iff, not_and]
          intro hy e
          have hxy : y = x := by
            cases vert with
            | nil => cases hx
            | cons a t =>
              cases t with
              | nil =>
                simp only [List.mem_singleton] at hx hy
                rw [hx, hy]
              | cons b t' => simp at hk
          rw [hxy] at e
          exact hndeg x hx e
    obtain ⟨f', hvtx, hframe, hmatched⟩ := hstep
    have hdisj : ∀ (j : Nat) (b : List Nat), j ≠ pre.length → s.m_aapVertices[j]? = some b →
        ∀ h ∈ b, f' h = f h := by
      intro j b hj hb h hh
      apply hframe
      exact hs.adj_disjoint hj hb hv hh
    have hmatch_congr : ∀ (b : List Nat) (g g' : Nat → Option Nat), (∀ h ∈ b, g' h = g h) →
        s.Matched g b → s.Matched g' b := by
      intro b g g' hgg hM x hx y
      rw [hgg x hx]
      exact hM x hx y
    obtain ⟨F, hF, hall⟩ := ih (pre ++ [vert]) (by rw [hpre]; simp) f'
      (by
        intro vert1 hv1 h hh
        obtain ⟨j, hj, hje⟩ := List.getElem_of_mem hv1
        have hpos : s.m_aapVertices[pre.length + 1 + j]? = some vert1 := by
          rw [hpre, List.getElem?_append_right (by omega)]
          have : pre.length + 1 + j - pre.length = j + 1 := by omega
          rw [this, List.getElem?_cons_succ, List.getElem?_eq_getElem hj, hje]
        rw [hdisj _ _ (by omega) hpos h hh]
        exact hnone vert1 (List.mem_cons_of_mem _ hv1) h hh)
      (by
        intro vert0 hv0
        rcases List.mem_append.mp hv0 with h0 | h0
        · obtain ⟨j, hj, hje⟩ := List.getElem_of_mem h0
          have hpos : s.m_aapVertices[j]? = some vert0 := by
            rw [hpre, List.getElem?_append_left hj, List.getElem?_eq_getElem hj, hje]
          exact hmatch_congr vert0 f f' (fun h hh => hdisj j vert0 (by omega) hpos h hh)
            (hdone vert0 h0)
        · simp only [List.mem_singleton] at h0
          rw [h0]
          exact hmatched)
    refine ⟨F, ?_, hall⟩
    simp only [Finalise.loop, hvtx]
    exact hF

/-- `Finalise` on a fresh mesh whose vertices are all manifold: it returns
true, sets the finalised flag and changes only the vertex-neighbour links,
which afterwards follow the matching rule at every vertex. -/
theorem Finalise_manifold_links {s : CqSubdivision2} (hs : s.Fresh)
    (hm : ∀ v, v < s.m_aapVertices.length → s.ManifoldVertex v) :
    ∃ F, s.Finalise = some ({ s.withCv F with m_fFinalised := true }, true) ∧
      ∀ vert ∈ s.m_aapVertices, s.Matched F vert := by
  obtain ⟨F, hF, hall⟩ := Finalise.loop_manifold hs hm s.m_aapVertices [] rfl (fun _ => none)
    (fun _ _ _ _ => rfl) (fun _ h => by cases h)
  refine ⟨F, ?_, hall⟩
  unfold Finalise
  have h0 : s.withCv (fun _ => none) = s :=
    withCv_of_none s (fun l hl => (hs.links l hl).1)
  rw [h0] at hF
  rw [hF]

end CqSubdivision2
end Aqsis

namespace Aqsis
namespace CqSubdivision2

/-! ## Vertex chains after `Finalise` -/

theorem cf_of_cfD {s : CqSubdivision2} {h c : Nat} (e : s.cfD h = some c) :
    s.cf h = some (some c) := by
  unfold cfD at e
  unfold cf
  cases hl : s.lath h with
  | none => rw [hl] at e; cases e
  | some l =>
    rw [hl] at e
    simp only [Option.some_bind] at e
    simp [e]

theorem cfD_of_cf {s t : CqSubdivision2} (h : ∀ x, t.cf x = s.cf x) (x : Nat) :
    t.cfD x = s.cfD x := by
  have := h x
  unfold cf at this
  unfold cfD
  cases h1 : t.lath x with
  | none =>
    cases h2 : s.lath x with
    | none => rfl
    | some l2 => rw [h1, h2] at this; cases this
  | some l1 =>
    cases h2 : s.lath x with
    | none => rw [h1, h2] at this; cases this
    | some l2 =>
      rw [h1, h2] at this
      simp only [Option.map_some', Option.some.injEq] at this
      simp [this]

theorem vertexChain.forward_closed (t : CqSubdivision2) (start : Nat) (seg : List Nat) :
    ∀ (c fuel : Nat), seg.length < fuel →
      List.Chain' (fun x y => t.cv x = some (some y)) (c :: seg ++ [start]) → start ∉ seg →
      vertexChain.forward t start fuel c = some (c :: seg, true) := by
  induction seg with
  | nil =>
    intro c fuel hf hch _
    cases fuel with
    | zero => simp at hf
    | succ fuel =>
      have : t.cv c = some (some start) := by simpa using hch
      simp [vertexChain.forward, this]
  | cons m rest ih =>
    intro c fuel hf hch hnot
    cases fuel with
    | zero => simp at hf
    | succ fuel =>
      simp only [List.cons_append] at hch
      have h1 : t.cv c = some (some m) := (List.chain'_cons.mp hch).1
      have hm : m ≠ start := fun e => hnot (by simp [e])
      simp only [vertexChain.forward, h1, hm, if_false]
      rw [ih m fuel (by simp at hf; omega) (by simpa using (List.chain'_cons.mp hch).2)
        (fun h => hnot (List.mem_cons_of_mem _ h))]
      rfl

theorem vertexChain.forward_open (t : CqSubdivision2) (start : Nat) (seg : List Nat) :
    ∀ (c fuel : Nat), seg.length < fuel →
      List.Chain (fun x y => t.cv x = some (some y)) c seg → start ∉ seg →
      t.cv (lastOf c seg) = some none →
      vertexChain.forward t start fuel c = some (c :: seg, false) := by
  induction seg with
  | nil =>
    intro c fuel hf _ _ hend
    cases fuel with
    | zero => simp at hf
    | succ fuel =>
      simp only [lastOf] at hend
      simp [vertexChain.forward, hend]
  | cons m rest ih =>
    intro c fuel hf hch hnot hend
    cases fuel with
    | zero => simp at hf
    | succ fuel =>
      have h1 : t.cv c = some (some m) := (List.chain_cons.mp hch).1
      have hm : m ≠ start := fun e => hnot (by simp [e])
      simp only [vertexChain.forward, h1, hm, if_false]
      rw [ih m fuel (by simp at hf; omega) (List.chain_cons.mp hch).2
        (fun h => hnot (List.mem_cons_of_mem _ h)) (by simpa [lastOf] using hend)]
      rfl

theorem vertexChain.backward_open (t : CqSubdivision2) (start : Nat) (seg : List Nat) :
    ∀ (c fuel : Nat), seg.length < fuel →
      List.Chain (fun x y => t.ccv x = some (some y)) c seg → start ∉ seg →
      t.ccv (lastOf c seg) = some none →
      (t.ccv c).bind (fun p => vertexChain.backward t start fuel p) = some seg := by
  induction seg with
  | nil =>
    intro c fuel hf _ _ hend
    cases fuel with
    | zero => simp at hf
    | succ fuel =>
      simp only [lastOf] at hend
      simp [vertexChain.backward, hend]
  | cons m rest ih =>
    intro c fuel hf hch hnot hend
    cases fuel with
    | zero => simp at hf
    | succ fuel =>
      have h1 : t.ccv c = some (some m) := (List.chain_cons.mp hch).1
      have hm : m ≠ start := fun e => hnot (by simp [e])
      have := ih m fuel (by simp at hf; omega) (List.chain_cons.mp hch).2
        (fun h => hnot (List.mem_cons_of_mem _ h)) (by simpa [lastOf] using hend)
      simp only [h1, Option.some_bind, vertexChain.backward, hm, if_false]
      cases hq : t.ccv m with
      | none => rw [hq] at this; cases this
      | some q =>
        rw [hq] at this
        simp only [Option.some_bind] at this
        simp [this]

end CqSubdivision2
end Aqsis

namespace Aqsis
namespace CqSubdivision2

theorem fan_closing (out inn : Nat → Nat) (hd : Nat) (ftl : List Nat)
    (hnd : (hd :: ftl).Nodup)
    (hinns : ∀ x ∈ hd :: ftl, ∀ y ∈ hd :: ftl, inn x = inn y → x = y)
    (hchain : List.Chain' (fun a b => inn a = out b) (hd :: ftl))
    (y : Nat) (hy : y ∈ hd :: ftl) (hyo : out y = inn (lastOf hd ftl)) : y = hd := by
  by_contra hne
  obtain ⟨a, ha⟩ := pred_exists hd ftl y hy hne
  have hR : inn a = out y := chain'_infix_pair (fun a b => inn a = out b) hchain ha
  have hal : a = lastOf hd ftl :=
    hinns a (infix_pair_mem ha).1 _ (lastOf_mem hd ftl) (by rw [hR, hyo])
  rw [hal] at ha
  exact not_infix_lastOf hd ftl y hnd ha

theorem fan_opening (out inn : Nat → Nat) (hd : Nat) (ftl : List Nat)
    (hnd : (hd :: ftl).Nodup)
    (houts : ∀ x ∈ hd :: ftl, ∀ y ∈ hd :: ftl, out x = out y → x = y)
    (hchain : List.Chain' (fun a b => inn a = out b) (hd :: ftl))
    (x : Nat) (hx : x ∈ hd :: ftl) (hxo : inn x = out hd) : x = lastOf hd ftl := by
  by_contra hne
  obtain ⟨b, hb⟩ := succ_exists hd ftl x hx hne
  have hR : inn x = out b := chain'_infix_pair (fun a b => inn a = out b) hchain hb
  have : b = hd := houts b (infix_pair_mem hb).2 hd (List.mem_cons_self _ _) (by rw [← hR, hxo])
  rw [this] at hb
  exact not_infix_head hd ftl x hnd hb

section Chains

variable {s : CqSubdivision2} (hs : s.Fresh) (F : Nat → Option Nat)
  (hF : ∀ vert ∈ s.m_aapVertices, s.Matched F vert)
  (t : CqSubdivision2) (ht2 : ∀ h, t.cf h = s.cf h)
  (ht3 : ∀ h, h < s.m_apLaths.length → t.cv h = some (F h))

include hs hF ht2 ht3

/-- After `Finalise`, `ccv()` of a lath is the lath linked to it. -/
theorem ccv_of_link {v K L : Nat} {vert : List Nat} (hv : s.m_aapVertices[v]? = some vert)
    (hK : K ∈ vert) (hKL : F K = some L) : t.ccv L = some (some K) := by
  obtain ⟨hL, hkey⟩ := (hF vert (List.getElem?_mem hv) K hK L).mp hKL
  have hLlt := hs.mem_adj_lt hv hL
  have hKlt := hs.mem_adj_lt hv hK
  obtain ⟨Q, hQ, hQlt, hccfQ⟩ := hs.cfD_ccf hLlt
  obtain ⟨M', hM', hM'lt, hcfM'⟩ := hs.ccf_cfD hKlt
  obtain ⟨w, hw⟩ := VertexIndex_some hQlt
  have hoL : s.outKey L = some w := by simp [outKey, hQ, hw]
  have hiK : s.innKey K = s.VertexIndex M' := by simp [innKey, hM']
  have hwM : s.VertexIndex M' = some w := by rw [← hiK, ← hkey, hoL]
  obtain ⟨a, ha, hMa⟩ := (hs.adj w M').mpr hwM
  obtain ⟨a', ha', hQa⟩ := (hs.adj w Q).mpr hw
  rw [ha] at ha'
  cases ha'
  have hvK := (hs.adj v K).mp ⟨vert, hv, hK⟩
  have hvL := (hs.adj v L).mp ⟨vert, hv, hL⟩
  have hoM : s.outKey M' = some v := by simp [outKey, hcfM', hvK]
  have hiQ : s.innKey Q = some v := by simp [innKey, hccfQ, hvL]
  have hFQ : F Q = some M' :=
    (hF a (List.getElem?_mem ha) Q hQa M').mpr ⟨hMa, by rw [hoM, hiQ]⟩
  have h1 : t.cfD L = some Q := by rw [cfD_of_cf ht2, hQ]
  have h2 : t.cv Q = some (some M') := by rw [ht3 Q hQlt, hFQ]
  have h3 : t.cf M' = some (some K) := by rw [ht2, cf_of_cfD hcfM']
  simp [ccv, ec, h1, h2, h3]

/-- After `Finalise`, `ccv()` of a lath no lath is linked to is NULL. -/
theorem ccv_of_no_link {v L : Nat} {vert : List Nat} (hv : s.m_aapVertices[v]? = some vert)
    (hL : L ∈ vert) (hno : ∀ K ∈ vert, F K ≠ some L) : t.ccv L = some none := by
  have hLlt := hs.mem_adj_lt hv hL
  obtain ⟨Q, hQ, hQlt, hccfQ⟩ := hs.cfD_ccf hLlt
  obtain ⟨w, hw⟩ := VertexIndex_some hQlt
  have hoL : s.outKey L = some w := by simp [outKey, hQ, hw]
  obtain ⟨a, ha, hQa⟩ := (hs.adj w Q).mpr hw
  have hvL := (hs.adj v L).mp ⟨vert, hv, hL⟩
  have hiQ : s.innKey Q = some v := by simp [innKey, hccfQ, hvL]
  have h1 : t.cfD L = some Q := by rw [cfD_of_cf ht2, hQ]
  cases hFQ : F Q with
  | none =>
    have h2 : t.cv Q = some none := by rw [ht3 Q hQlt, hFQ]
    simp [ccv, ec, h1, h2]
  | some M' =>
    exfalso
    obtain ⟨hMa, hkey⟩ := (hF a (List.getElem?_mem ha) Q hQa M').mp hFQ
    have hM'lt := hs.mem_adj_lt ha hMa
    obtain ⟨K, hK, hKlt, hccfK⟩ := hs.cfD_ccf hM'lt
    have hoM : s.outKey M' = s.VertexIndex K := by simp [outKey, hK]
    have hvK : s.VertexIndex K = some v := by rw [← hoM, hkey, hiQ]
    obtain ⟨vert', hv', hKv⟩ := (hs.adj v K).mpr hvK
    rw [hv] at hv'
    cases hv'
    have hwM := (hs.adj w M').mp ⟨a, ha, hMa⟩
    have hiK : s.innKey K = some w := by simp [innKey, hccfK, hwM]
    exact hno K hKv ((hF vert (List.getElem?_mem hv) K hKv L).mpr ⟨hL, by rw [hoL, hiK]⟩)

/-- After `Finalise` on a mesh whose vertices are manifold, the vertex-chain
of the first lath of an adjacency list passes through every lath of the list
exactly once. -/
theorem vertexChain_of_matched (ht1 : t.m_apLaths.length = s.m_apLaths.length)
    {v h0 : Nat} {vert : List Nat} (hm : s.ManifoldVertex v)
    (hv : s.m_aapVertices[v]? = some vert) (hh0 : vert[0]? = some h0) :
    ∃ chain, t.vertexChain h0 = some chain ∧ chain.Perm vert := by
  obtain ⟨fan, hperm, houts, hinns, hchain, _⟩ := hm.data hs hv
  have hvm := List.getElem?_mem hv
  have hlt : ∀ h ∈ vert, h < s.m_apLaths.length := fun h hh => hs.mem_adj_lt hv hh
  have hnd : vert.Nodup := hs.adjNodup vert hvm
  have hfnd : fan.Nodup := hperm.nodup_iff.mpr hnd
  have hmemf : ∀ x, x ∈ fan ↔ x ∈ vert := fun x => hperm.mem_iff
  have hlenN : vert.length ≤ s.m_apLaths.length := by
    have hsub : vert ⊆ List.range s.m_apLaths.length :=
      fun h hh => List.mem_range.mpr (hlt h hh)
    simpa using (List.subperm_of_subset hnd hsub).length_le
  have hMg : ∀ x ∈ vert, ∀ y, F x = some y ↔
      (y ∈ vert ∧ (s.outKey y).getD 0 = (s.innKey x).getD 0) := by
    intro x hx y
    rw [hF vert hvm x hx y]
    constructor
    · rintro ⟨hy, e⟩
      exact ⟨hy, by rw [e]⟩
    · rintro ⟨hy, e⟩
      exact ⟨hy, by rw [hs.outKey_some (hlt y hy), hs.innKey_some (hlt x hx), e]⟩
  have hlink : ∀ a ∈ vert, ∀ b ∈ vert,
      (s.innKey a).getD 0 = (s.outKey b).getD 0 → F a = some b :=
    fun a ha b hb e => (hMg a ha b).mpr ⟨hb, e.symm⟩
  have hcv : ∀ x ∈ vert, t.cv x = some (F x) := fun x hx => ht3 x (hlt x hx)
  have hpv : h0 ∈ vert := List.getElem?_mem hh0
  obtain ⟨pre, post, hfan⟩ := List.append_of_mem ((hmemf h0).mpr hpv)
  obtain ⟨hd, ftl, hfan2⟩ : ∃ a t, fan = a :: t := by
    cases fan with
    | nil => cases pre <;> cases hfan
    | cons a t => exact ⟨a, t, rfl⟩
  have hhdv : hd ∈ vert := (hmemf hd).mp (by rw [hfan2]; exact List.mem_cons_self _ _)
  have hlastv : lastOf hd ftl ∈ vert := (hmemf _).mp (by rw [hfan2]; exact lastOf_mem hd ftl)
  have houts' : ∀ x ∈ hd :: ftl, ∀ y ∈ hd :: ftl,
      (s.outKey x).getD 0 = (s.outKey y).getD 0 → x = y :=
    fun x hx y hy => houts x ((hmemf x).mp (hfan2 ▸ hx)) y ((hmemf y).mp (hfan2 ▸ hy))
  have hinns' : ∀ x ∈ hd :: ftl, ∀ y ∈ hd :: ftl,
      (s.innKey x).getD 0 = (s.innKey y).getD 0 → x = y :=
    fun x hx y hy => hinns x ((hmemf x).mp (hfan2 ▸ hx)) y ((hmemf y).mp (hfan2 ▸ hy))
  unfold vertexChain
  rw [ht1]
  by_cases hclosed : (s.outKey hd).getD 0 = (s.innKey (lastOf hd ftl)).getD 0
  · -- a closed fan is a cycle of the links
    have hcyc : IsCycle F fan := by
      refine ⟨by rw [hfan2]; simp, hfnd, ?_, ?_⟩
      · rw [List.Chain'.iff_mem] at hchain ⊢
        exact hchain.imp (fun {a b} hab =>
          ⟨hab.1, hab.2.1, hlink a ((hmemf a).mp hab.1) b ((hmemf b).mp hab.2.1) hab.2.2⟩)
      · rw [hfan2, getLast?_eq_lastOf]
        simp only [Option.some_bind, List.head?_cons]
        exact hlink _ hlastv hd hhdv hclosed.symm
    obtain ⟨tl, hcyc0, hrot⟩ := hcyc.cycle_of_mem ((hmemf h0).mpr hpv)
    have hmem0 : ∀ x ∈ h0 :: tl, x ∈ vert := fun x hx => (hmemf x).mp (hrot.mem_iff.mp hx)
    have hch0 := ((IsCycle.cycle_cons_iff F h0 tl).mp hcyc0).2
    have hch1 : List.Chain' (fun x y => t.cv x = some (some y)) (h0 :: tl ++ [h0]) := by
      rw [List.Chain'.iff_mem] at hch0 ⊢
      refine hch0.imp (fun {a b} hab => ⟨hab.1, hab.2.1, ?_⟩)
      have hav : a ∈ vert := by
        have h1 : a ∈ (h0 :: tl) ++ [h0] := hab.1
        rcases List.mem_append.mp h1 with h | h
        · exact hmem0 a h
        · rw [List.mem_singleton.mp h]; exact hpv
      rw [hcv a hav, hab.2.2]
    have hnotin : h0 ∉ tl := (List.nodup_cons.mp hcyc0.2.1).1
    have hlen : tl.length < s.m_apLaths.length + 1 := by
      have := hrot.perm.length_eq
      have h2 := hperm.length_eq
      simp at this
      omega
    rw [vertexChain.forward_closed t h0 tl h0 _ hlen hch1 hnotin]
    exact ⟨h0 :: tl, rfl, hrot.perm.trans hperm⟩
  · -- an open fan: forward to its end, backward to its start
    have hFlast : F (lastOf hd ftl) = none := by
      cases hFl : F (lastOf hd ftl) with
      | none => rfl
      | some y =>
        exfalso
        obtain ⟨hy, hyo⟩ := (hMg _ hlastv y).mp hFl
        have := fan_closing (fun h => (s.outKey h).getD 0) (fun h => (s.innKey h).getD 0)
          hd ftl (hfan2 ▸ hfnd) hinns' (hfan2 ▸ hchain) y (hfan2 ▸ (hmemf y).mpr hy) hyo
        rw [this] at hyo
        exact hclosed hyo
    have hlastfan : lastOf hd ftl = lastOf h0 post := by
      cases pre with
      | nil =>
        simp only [List.nil_append] at hfan
        rw [hfan2] at hfan
        injection hfan with h1 h2
        subst h1 h2
        rfl
      | cons p0 pre' =>
        simp only [List.cons_append] at hfan
        rw [hfan2] at hfan
        injection hfan with h1 h2
        subst h1 h2
        exact lastOf_append_cons _ _ _ _
    have hhead : lastOf h0 pre.reverse = hd := by
      cases pre with
      | nil =>
        simp only [List.nil_append] at hfan
        rw [hfan2] at hfan
        injection hfan with h1 h2
        simp [lastOf, h1]
      | cons p0 pre' =>
        simp only [List.cons_append] at hfan
        rw [hfan2] at hfan
        injection hfan with h1 h2
        rw [lastOf_reverse_cons, h1]
    have hfnd' : (pre ++ h0 :: post).Nodup := hfan ▸ hfnd
    have hsplit := List.chain'_split.mp (hfan ▸ hchain)
    have hprev : ∀ x ∈ pre, x ∈ vert := fun x hx => (hmemf x).mp (by rw [hfan]; simp [hx])
    have hpostv : ∀ x ∈ post, x ∈ vert := fun x hx => (hmemf x).mp (by rw [hfan]; simp [hx])
    have hklen : vert.length = pre.length + 1 + post.length := by
      rw [← hperm.length_eq, hfan]
      simp
      omega
    -- forward
    have hfwch : List.Chain (fun x y => t.cv x = some (some y)) h0 post := by
      have h1 : List.Chain' (fun a b => (s.innKey a).getD 0 = (s.outKey b).getD 0)
          (h0 :: post) := hsplit.2
      rw [List.Chain'.iff_mem] at h1
      have h2 := h1.imp (fun {a b} hab => by
        have hav : a ∈ vert := by
          rcases List.mem_cons.mp hab.1 with e | h
          · rw [e]; exact hpv
          · exact hpostv a h
        have hbv : b ∈ vert := by
          rcases List.mem_cons.mp hab.2.1 with e | h
          · rw [e]; exact hpv
          · exact hpostv b h
        show t.cv a = some (some b)
        rw [hcv a hav, hlink a hav b hbv hab.2.2])
      exact h2
    have hfw := vertexChain.forward_open t h0 post h0 (s.m_apLaths.length + 1) (by omega) hfwch
      (fun h => (List.nodup_cons.mp (List.nodup_append.mp hfnd').2.1).1 h)
      (by rw [← hlastfan, hcv _ hlastv, hFlast])
    rw [hfw]
    simp only
    -- backward
    have hbch : List.Chain (fun x y => t.ccv x = some (some y)) h0 pre.reverse := by
      have h1 : List.Chain' (flip (fun a b => (s.innKey a).getD 0 = (s.outKey b).getD 0))
          ((pre ++ [h0]).reverse) := List.chain'_reverse.mpr (by simpa [flip] using hsplit.1)
      have h2 : (pre ++ [h0]).reverse = h0 :: pre.reverse := by simp
      rw [h2, List.Chain'.iff_mem] at h1
      have h3 := h1.imp (fun {a b} hab => by
        have hav : a ∈ vert := by
          rcases List.mem_cons.mp hab.1 with e | h
          · rw [e]; exact hpv
          · exact hprev a (List.mem_reverse.mp h)
        have hbv : b ∈ vert := by
          rcases List.mem_cons.mp hab.2.1 with e | h
          · rw [e]; exact hpv
          · exact hprev b (List.mem_reverse.mp h)
        show t.ccv a = some (some b)
        exact ccv_of_link hs F hF t ht2 ht3 hv hbv (hlink b hbv a hav hab.2.2))
      exact h3
    have hbend : t.ccv (lastOf h0 pre.reverse) = some none := by
      rw [hhead]
      apply ccv_of_no_link hs F hF t ht2 ht3 hv hhdv
      intro K hK hFK
      obtain ⟨_, hyo⟩ := (hMg K hK hd).mp hFK
      have := fan_opening (fun h => (s.outKey h).getD 0) (fun h => (s.innKey h).getD 0)
        hd ftl (hfan2 ▸ hfnd) houts' (hfan2 ▸ hchain) K (hfan2 ▸ (hmemf K).mpr hK) hyo.symm
      rw [this, hFlast] at hFK
      cases hFK
    have hbw := vertexChain.backward_open t h0 pre.reverse h0 (s.m_apLaths.length + 1)
      (by simp; omega) hbch
      (fun h => (List.nodup_append.mp hfnd').2.2 (List.mem_reverse.mp h)
        (List.mem_cons_self _ _))
      hbend
    cases hq : t.ccv h0 with
    | none => rw [hq] at hbw; cases hbw
    | some q =>
      rw [hq] at hbw
      simp only [Option.some_bind] at hbw ⊢
      rw [hbw]
      refine ⟨h0 :: post ++ pre.reverse, rfl, ?_⟩
      refine List.Perm.trans ?_ hperm
      rw [hfan]
      have h1 : (h0 :: post ++ pre.reverse).Perm (pre.reverse ++ (h0 :: post)) :=
        List.perm_append_comm
      exact h1.trans ((List.reverse_perm pre).append_right _)

end Chains

end CqSubdivision2
end Aqsis

namespace Aqsis
namespace CqSubdivision2

/-! ## Loops -/

theorem forEach_append {σ α : Type} (body : α → σ → Option σ) (l1 l2 : List α) (st : σ) :
    forEach body (l1 ++ l2) st = (forEach body l1 st).bind (forEach body l2) := by
  induction l1 generalizing st with
  | nil => simp [forEach]
  | cons a rest ih =>
    simp only [List.cons_append, forEach]
    cases body a st with
    | none => rfl
    | some st1 => simp only [Option.some_bind]; exact ih st1

/-- A property kept by every successful iteration holds after the loop. -/
theorem forEach_inv {σ α : Type} (body : α → σ → Option σ) (P : σ → Prop) (l : List α)
    (hstep : ∀ a ∈ l, ∀ st st', P st → body a st = some st' → P st') :
    ∀ st st', P st → forEach body l st = some st' → P st' := by
  induction l with
  | nil =>
    intro st st' hP h
    simp only [forEach, Option.some.injEq] at h
    exact h ▸ hP
  | cons a rest ih =>
    intro st st' hP h
    simp only [forEach] at h
    cases hb : body a st with
    | none => rw [hb] at h; cases h
    | some st1 =>
      rw [hb] at h
      exact ih (fun b hb' => hstep b (List.mem_cons_of_mem _ hb')) st1 st'
        (hstep a (List.mem_cons_self _ _) st st1 hP hb) h

/-- A loop whose iterations succeed while a property holds succeeds. -/
theorem forEach_some {σ α : Type} (body : α → σ → Option σ) (P : σ → Prop) (l : List α)
    (hstep : ∀ a ∈ l, ∀ st, P st → ∃ st', body a st = some st' ∧ P st') :
    ∀ st, P st → ∃ st', forEach body l st = some st' ∧ P st' := by
  induction l with
  | nil => intro st hP; exact ⟨st, rfl, hP⟩
  | cons a rest ih =>
    intro st hP
    obtain ⟨st1, h1, hP1⟩ := hstep a (List.mem_cons_self _ _) st hP
    obtain ⟨st2, h2, hP2⟩ := ih (fun b hb => hstep b (List.mem_cons_of_mem _ hb)) st1 hP1
    exact ⟨st2, by simp only [forEach, h1, Option.some_bind, h2], hP2⟩

/-- A counted loop whose `i`-th iteration takes the property of stage `i` to
that of stage `i + 1`. -/
theorem forEach_range {σ : Type} (body : Nat → σ → Option σ) (P : Nat → σ → Prop) :
    ∀ (n : Nat), (∀ i, i < n → ∀ st, P i st → ∃ st', body i st = some st' ∧ P (i + 1) st') →
      ∀ st, P 0 st → ∃ st', forEach body (List.range n) st = some st' ∧ P n st' := by
  intro n
  induction n with
  | zero => intro _ st hP; exact ⟨st, rfl, hP⟩
  | succ n ih =>
    intro hstep st hP
    obtain ⟨st1, h1, hP1⟩ := ih (fun i hi => hstep i (Nat.lt_succ_of_lt hi)) st hP
    obtain ⟨st2, h2, hP2⟩ := hstep n (Nat.lt_succ_self n) st1 hP1
    refine ⟨st2, ?_, hP2⟩
    rw [List.range_succ, forEach_append, h1]
    simp [forEach, h2]

/-- The invariant form of `forEach_range` for a loop known to succeed. -/
theorem forEach_range_inv {σ : Type} (body : Nat → σ → Option σ) (P : Nat → σ → Prop) :
    ∀ (n : Nat), (∀ i, i < n → ∀ st st', P i st → body i st = some st' → P (i + 1) st') →
      ∀ st st', P 0 st → forEach body (List.range n) st = some st' → P n st' := by
  intro n
  induction n with
  | zero =>
    intro _ st st' hP h
    simp only [List.range_zero, forEach, Option.some.injEq] at h
    exact h ▸ hP
  | succ n ih =>
    intro hstep st st' hP h
    rw [List.range_succ, forEach_append] at h
    cases h1 : forEach body (List.range n) st with
    | none => rw [h1] at h; cases h
    | some st1 =>
      rw [h1] at h
      simp only [Option.some_bind, forEach] at h
      cases h2 : body n st1 with
      | none => rw [h2] at h; cases h
      | some st2 =>
        rw [h2] at h
        simp only [Option.some_bind, Option.some.injEq] at h
        subst h
        exact hstep n (Nat.lt_succ_self n) st1 st2
          (ih (fun i hi => hstep i (Nat.lt_succ_of_lt hi)) st st1 hP h1) h2

/-! ## Writes to one lath -/

theorem setLath_eq_some {s s' : CqSubdivision2} {h : Nat} {g : CqLath → CqLath}
    (e : s.setLath h g = some s') :
    ∃ l, s.lath h = some l ∧ s' = { s with m_apLaths := s.m_apLaths.set h (g l) } := by
  unfold setLath at e
  cases hl : s.m_apLaths[h]? with
  | none => rw [hl] at e; cases e
  | some l =>
    rw [hl] at e
    exact ⟨l, hl, (Option.some.inj e).symm⟩

theorem setLath_of_lt (s : CqSubdivision2) {h : Nat} (g : CqLath → CqLath)
    (hh : h < s.m_apLaths.length) :
    s.setLath h g = some { s with m_apLaths := s.m_apLaths.set h (g s.m_apLaths[h]) } := by
  unfold setLath
  rw [List.getElem?_eq_getElem hh]

theorem setLath_lath {s s' : CqSubdivision2} {h : Nat} {g : CqLath → CqLath}
    (e : s.setLath h g = some s') (h' : Nat) :
    s'.lath h' = if h' = h then (s.lath h').map g else s.lath h' := by
  obtain ⟨l, hl, rfl⟩ := setLath_eq_some e
  simp only [lath, List.getElem?_set]
  by_cases hh : h = h'
  · subst hh
    have hlt := lath_lt hl
    unfold lath at hl
    simp [hlt, hl]
  · simp [hh, Ne.symm hh]

theorem setLath_length {s s' : CqSubdivision2} {h : Nat} {g : CqLath → CqLath}
    (e : s.setLath h g = some s') : s'.m_apLaths.length = s.m_apLaths.length := by
  obtain ⟨l, _, rfl⟩ := setLath_eq_some e
  simp

/-! ## New vertices in a well-formed topology -/

theorem growSlot_eq (slot : List CqParameter) :
    ∀ (iIndex : Option Nat), growSlot slot iIndex =
      (slot.map (fun p => { p with m_Size := p.m_Size + 1 }),
        match slot.getLast? with
        | some p => some p.m_Size
        | none => iIndex) := by
  induction slot with
  | nil => intro _; rfl
  | cons p rest ih =>
    intro iIndex
    simp only [growSlot, ih, List.map_cons]
    cases rest with
    | nil => rfl
    | cons q rest' =>
      rw [List.getLast?_cons_cons]
      cases hq : (q :: rest').getLast? with
      | none => simp at hq
      | some r => rfl

theorem growAll_eq (params : List (List CqParameter)) :
    ∀ (iIndex : Option Nat), growAll params iIndex =
      (params.map (fun slot => slot.map (fun p => { p with m_Size := p.m_Size + 1 })),
        match params.flatten.getLast? with
        | some p => some p.m_Size
        | none => iIndex) := by
  induction params with
  | nil => intro _; rfl
  | cons slot rest ih =>
    intro iIndex
    simp only [growAll, ih, growSlot_eq, List.map_cons, List.flatten_cons]
    congr 1
    rw [List.getLast?_append]
    cases h1 : rest.flatten.getLast? with
    | none => simp
    | some p => simp

theorem Uniform.last {params : List (List CqParameter)} {m : Nat} (h : Uniform params m) :
    ∃ p, params.flatten.getLast? = some p ∧ p.m_Size = m := by
  obtain ⟨hne, hall⟩ := h
  refine ⟨params.flatten.getLast hne, List.getLast?_eq_getLast _ hne, ?_⟩
  exact hall _ (List.getLast_mem hne)

theorem Uniform.grow {params : List (List CqParameter)} {m : Nat} (h : Uniform params m)
    (k : Nat) :
    Uniform (params.map (fun slot => slot.map (fun p => { p with m_Size := p.m_Size + k })))
      (m + k) := by
  obtain ⟨hne, hall⟩ := h
  have hj : (params.map (fun slot => slot.map
      (fun (p : CqParameter) => ({ p with m_Size := p.m_Size + k } : CqParameter)))).flatten =
      params.flatten.map (fun p => { p with m_Size := p.m_Size + k }) := by
    rw [List.map_flatten]
  constructor
  · rw [hj]
    simpa using hne
  · intro p hp
    rw [hj] at hp
    obtain ⟨p0, hp0, rfl⟩ := List.mem_map.mp hp
    simp [hall p0 hp0]

theorem growBy_zero (s : CqSubdivision2) : growBy 0 s = s := by
  cases s
  simp only [growBy, Nat.add_zero, List.replicate_zero, List.append_nil]
  congr 1
  simp

theorem growBy_laths (k : Nat) (s : CqSubdivision2) : (growBy k s).m_apLaths = s.m_apLaths := rfl

theorem growBy_table_length (k : Nat) (s : CqSubdivision2) :
    (growBy k s).m_aapVertices.length = s.m_aapVertices.length + k := by
  simp [growBy]

/-- Adding a vertex to a well-formed topology that has grown by `k` vertices:
the new index is the number of vertices so far. -/
theorem addVertexWith_growBy (iIndex0 : Option Nat) {s : CqSubdivision2}
    (hu : Uniform s.aUserParams s.m_aapVertices.length) (k : Nat) :
    addVertexWith iIndex0 (growBy k s) =
      some (growBy (k + 1) s, s.m_aapVertices.length + k) := by
  obtain ⟨p, hp, hsz⟩ := (hu.grow k).last
  unfold addVertexWith
  have hp' : (growBy k s).aUserParams.flatten.getLast? = some p := hp
  simp only [growAll_eq, hp', hsz]
  congr 1
  simp only [growBy, Prod.mk.injEq, and_true]
  refine congrArg₂ (fun a b => ({ s with aUserParams := a, m_aapVertices := b } : CqSubdivision2))
    ?_ ?_
  · simp only [List.map_map]
    apply List.map_congr_left
    intro slot _
    simp only [Function.comp, List.map_map]
    apply List.map_congr_left
    intro q _
    simp [Nat.add_assoc]
  · have hlen : (s.m_aapVertices ++ List.replicate k ([] : List Nat)).length =
        s.m_aapVertices.length + k := by simp
    rw [List.take_of_length_le (by omega), hlen]
    have : s.m_aapVertices.length + k + 1 - (s.m_aapVertices.length + k) = 1 := by omega
    rw [this, List.append_assoc]
    congr 1
    simp [List.replicate_succ']

end CqSubdivision2
end Aqsis

namespace Aqsis
namespace CqSubdivision2

/-! ## The point loops of SubdivideFace -/

theorem SubdivideFace.edgePoint_growBy {s : CqSubdivision2}
    (hu : Uniform s.aUserParams s.m_aapVertices.length) (k q : Nat) (acc : List Nat) :
    SubdivideFace.edgePoint q (growBy k s, acc) =
      match SubdivideFace.edgeReuse s q with
      | none => none
      | some none => some (growBy (k + 1) s, acc ++ [s.m_aapVertices.length + k])
      | some (some v) => some (growBy k s, acc ++ [v]) := by
  have hec : (growBy k s).ec q = s.ec q := rfl
  have hlath : ∀ h, (growBy k s).lath h = s.lath h := fun _ => rfl
  have hvi : ∀ h, (growBy k s).VertexIndex h = s.VertexIndex h := fun _ => rfl
  have hadd : (growBy k s).AddEdgeVertex q =
      some (growBy (k + 1) s, s.m_aapVertices.length + k) := addVertexWith_growBy none hu k
  unfold SubdivideFace.edgePoint SubdivideFace.edgeReuse
  simp only [hec, hlath, hvi, hadd]
  cases s.ec q with
  | none => rfl
  | some o =>
    cases o with
    | none => rfl
    | some e =>
      simp only
      cases s.lath e with
      | none => rfl
      | some le =>
        simp only
        cases le.m_pMidVertex with
        | none => rfl
        | some m =>
          simp only
          cases s.VertexIndex m <;> rfl

theorem SubdivideFace.cornerPoint_growBy {s : CqSubdivision2}
    (hu : Uniform s.aUserParams s.m_aapVertices.length) (k q : Nat) (acc : List Nat) :
    SubdivideFace.cornerPoint q (growBy k s, acc) =
      match SubdivideFace.cornerReuse s q with
      | none => none
      | some none => some (growBy (k + 1) s, acc ++ [s.m_aapVertices.length + k])
      | some (some v) => some (growBy k s, acc ++ [v]) := by
  have hlath : ∀ h, (growBy k s).lath h = s.lath h := fun _ => rfl
  have hvi : ∀ h, (growBy k s).VertexIndex h = s.VertexIndex h := fun _ => rfl
  have hadd : (growBy k s).AddVertex q =
      some (growBy (k + 1) s, s.m_aapVertices.length + k) := addVertexWith_growBy (some 0) hu k
  unfold SubdivideFace.cornerPoint SubdivideFace.cornerReuse
  simp only [hlath, hvi, hadd]
  cases s.lath q with
  | none => rfl
  | some lq =>
    simp only
    cases lq.m_pChildVertex with
    | none => rfl
    | some c =>
      simp only
      cases s.VertexIndex c <;> rfl

/-- A point loop, given that each iteration either reuses an index or adds
one vertex. -/
theorem SubdivideFace.points_loop {s : CqSubdivision2}
    (body : Nat → CqSubdivision2 × List Nat → Option (CqSubdivision2 × List Nat))
    (reuse : Nat → Option (Option Nat))
    (hbody : ∀ (k q : Nat) (acc : List Nat), body q (growBy k s, acc) =
      match reuse q with
      | none => none
      | some none => some (growBy (k + 1) s, acc ++ [s.m_aapVertices.length + k])
      | some (some v) => some (growBy k s, acc ++ [v])) :
    ∀ (qs : List Nat) (k : Nat) (acc : List Nat),
      forEach body qs (growBy k s, acc) =
        (SubdivideFace.pointsFold reuse s.m_aapVertices.length qs k).map
          (fun r => (growBy r.1 s, acc ++ r.2)) := by
  intro qs
  induction qs with
  | nil => intro k acc; simp [forEach, SubdivideFace.pointsFold]
  | cons q rest ih =>
    intro k acc
    simp only [forEach, SubdivideFace.pointsFold, hbody]
    cases reuse q with
    | none => rfl
    | some o =>
      cases o with
      | none =>
        simp only [Option.some_bind, ih]
        cases SubdivideFace.pointsFold reuse s.m_aapVertices.length rest (k + 1) with
        | none => rfl
        | some r => simp
      | some v =>
        simp only [Option.some_bind, ih]
        cases SubdivideFace.pointsFold reuse s.m_aapVertices.length rest k with
        | none => rfl
        | some r => simp

/-- The body of the refinement after the point loops, for the vertex array
`aVertices` and the state `st` the point loops leave. -/
theorem SubdivideFace.refine_eq {s : CqSubdivision2}
    (hu : Uniform s.aUserParams s.m_aapVertices.length) (pFace : Nat) :
    SubdivideFace.refine s pFace =
      (s.Qfv pFace).bind fun aQfv =>
      (SubdivideFace.aVertices s aQfv).bind fun kv =>
      (forEach (SubdivideFace.createFace pFace aQfv kv.2 aQfv.length) (List.range aQfv.length)
        (growBy kv.1 s, [], [])).bind fun rC =>
      (forEach (SubdivideFace.linkFace aQfv rC.2.1 aQfv.length) (List.range aQfv.length)
        rC.1).bind fun s1 =>
      (forEach (SubdivideFace.linkEdge rC.2.1) (List.range aQfv.length) s1).bind fun s2 =>
      some (s2, rC.2.2) := by
  unfold SubdivideFace.refine
  cases s.Qfv pFace with
  | none => rfl
  | some aQfv =>
    simp only [Option.some_bind]
    have hadd : s.AddFaceVertex pFace = some (growBy 1 s, s.m_aapVertices.length) := by
      have := addVertexWith_growBy (some 0) hu 0
      rw [growBy_zero] at this
      exact this
    rw [hadd]
    simp only [Option.some_bind]
    rw [SubdivideFace.points_loop SubdivideFace.edgePoint (SubdivideFace.edgeReuse s)
      (SubdivideFace.edgePoint_growBy hu) aQfv 1 []]
    unfold SubdivideFace.aVertices
    cases SubdivideFace.pointsFold (SubdivideFace.edgeReuse s) s.m_aapVertices.length aQfv 1 with
    | none => rfl
    | some rE =>
      simp only [Option.map_some', Option.some_bind, List.nil_append]
      rw [SubdivideFace.points_loop SubdivideFace.cornerPoint (SubdivideFace.cornerReuse s)
        (SubdivideFace.cornerPoint_growBy hu) aQfv rE.1 []]
      cases SubdivideFace.pointsFold (SubdivideFace.cornerReuse s) s.m_aapVertices.length aQfv
        rE.1 with
      | none => rfl
      | some rV => simp only [Option.map_some', Option.some_bind, List.nil_append]

/-! ### What the point loops store -/

theorem SubdivideFace.pointsFold_spec (reuse : Nat → Option (Option Nat)) (T : Nat) :
    ∀ (qs : List Nat) (k k' : Nat) (vs : List Nat),
      SubdivideFace.pointsFold reuse T qs k = some (k', vs) →
      k ≤ k' ∧ vs.length = qs.length ∧
      ∀ (i : Nat) (q : Nat), qs[i]? = some q →
        ∃ v, vs[i]? = some v ∧
          ((reuse q = some (some v)) ∨ (reuse q = some none ∧ T + k ≤ v ∧ v < T + k')) := by
  intro qs
  induction qs with
  | nil =>
    intro k k' vs h
    simp only [SubdivideFace.pointsFold, Option.some.injEq, Prod.mk.injEq] at h
    obtain ⟨rfl, rfl⟩ := h
    simp
  | cons q rest ih =>
    intro k k' vs h
    simp only [SubdivideFace.pointsFold] at h
    cases hr : reuse q with
    | none => rw [hr] at h; cases h
    | some o =>
      rw [hr] at h
      cases o with
      | none =>
        simp only at h
        cases hf : SubdivideFace.pointsFold reuse T rest (k + 1) with
        | none => rw [hf] at h; cases h
        | some r =>
          rw [hf] at h
          simp only [Option.map_some', Option.some.injEq, Prod.mk.injEq] at h
          obtain ⟨rfl, rfl⟩ := h
          obtain ⟨h1, h2, h3⟩ := ih (k + 1) r.1 r.2 hf
          refine ⟨by omega, by simp [h2], ?_⟩
          intro i q' hq'
          cases i with
          | zero =>
            simp only [List.getElem?_cons_zero, Option.some.injEq] at hq'
            subst hq'
            exact ⟨T + k, by simp, Or.inr ⟨hr, by omega, by omega⟩⟩
          | succ i =>
            simp only [List.getElem?_cons_succ] at hq'
            obtain ⟨v, hv, hcase⟩ := h3 i q' hq'
            refine ⟨v, by simpa using hv, ?_⟩
            rcases hcase with hc | ⟨hc, hlo, hhi⟩
            · exact Or.inl hc
            · exact Or.inr ⟨hc, by omega, hhi⟩
      | some v =>
        simp only at h
        cases hf : SubdivideFace.pointsFold reuse T rest k with
        | none => rw [hf] at h; cases h
        | some r =>
          rw [hf] at h
          simp only [Option.map_some', Option.some.injEq, Prod.mk.injEq] at h
          obtain ⟨rfl, rfl⟩ := h
          obtain ⟨h1, h2, h3⟩ := ih k r.1 r.2 hf
          refine ⟨h1, by simp [h2], ?_⟩
          intro i q' hq'
          cases i with
          | zero =>
            simp only [List.getElem?_cons_zero, Option.some.injEq] at hq'
            subst hq'
            exact ⟨v, by simp, Or.inl hr⟩
          | succ i =>
            simp only [List.getElem?_cons_succ] at hq'
            obtain ⟨w, hw, hcase⟩ := h3 i q' hq'
            exact ⟨w, by simpa using hw, hcase⟩

/-- The point loop succeeds when the test succeeds at every corner. -/
theorem SubdivideFace.pointsFold_some (reuse : Nat → Option (Option Nat)) (T : Nat) :
    ∀ (qs : List Nat) (k : Nat), (∀ q ∈ qs, reuse q ≠ none) →
      ∃ r, SubdivideFace.pointsFold reuse T qs k = some r := by
  intro qs
  induction qs with
  | nil => intro k _; exact ⟨_, rfl⟩
  | cons q rest ih =>
    intro k hq
    have hrest : ∀ q' ∈ rest, reuse q' ≠ none := fun q' h => hq q' (List.mem_cons_of_mem _ h)
    simp only [SubdivideFace.pointsFold]
    cases hr : reuse q with
    | none => exact absurd hr (hq q (List.mem_cons_self _ _))
    | some o =>
      cases o with
      | none =>
        obtain ⟨r, hr'⟩ := ih (k + 1) hrest
        exact ⟨_, by simp only [hr', Option.map_some']; rfl⟩
      | some v =>
        obtain ⟨r, hr'⟩ := ih k hrest
        exact ⟨_, by simp only [hr', Option.map_some']; rfl⟩

/-- When no index is reused the loop stores consecutive new indices. -/
theorem SubdivideFace.pointsFold_fresh (reuse : Nat → Option (Option Nat)) (T : Nat) :
    ∀ (qs : List Nat) (k : Nat), (∀ q ∈ qs, reuse q = some none) →
      SubdivideFace.pointsFold reuse T qs k =
        some (k + qs.length, (List.range qs.length).map (fun i => T + k + i)) := by
  intro qs
  induction qs with
  | nil => intro k _; rfl
  | cons q rest ih =>
    intro k hq
    have hrest : ∀ q' ∈ rest, reuse q' = some none :=
      fun q' h => hq q' (List.mem_cons_of_mem _ h)
    simp only [SubdivideFace.pointsFold, hq q (List.mem_cons_self _ _), ih (k + 1) hrest,
      Option.map_some', List.length_cons, Option.some.injEq, Prod.mk.injEq]
    refine ⟨by omega, ?_⟩
    rw [List.range_succ_eq_map, List.map_cons, List.map_map]
    congr 1
    apply List.map_congr_left
    intro i _
    simp only [Function.comp]
    omega

end CqSubdivision2
end Aqsis

namespace Aqsis
namespace CqSubdivision2

/-! ## One child face -/

theorem getElem?_append_add {α : Type} (L X : List α) (j : Nat) :
    (L ++ X)[L.length + j]? = X[j]? := by
  rw [List.getElem?_append_right (Nat.le_add_right _ _), Nat.add_sub_cancel_left]

theorem set_append_add {α : Type} (L X : List α) (j : Nat) (x : α) :
    (L ++ X).set (L.length + j) x = L ++ X.set j x := by
  rw [List.set_append_right _ _ (Nat.le_add_right _ _), Nat.add_sub_cancel_left]

theorem SubdivideFace.newLaths_eq (pFace vA vB vC vD : Nat) (s : CqSubdivision2)
    (hA : vA < s.m_aapVertices.length) (hB : vB < s.m_aapVertices.length)
    (hC : vC < s.m_aapVertices.length) (hD : vD < s.m_aapVertices.length) :
    SubdivideFace.newLaths pFace vA vB vC vD s =
      some ({ s with
              m_apLaths := s.m_apLaths ++
                SubdivideFace.four pFace s.m_apLaths.length vA vB vC vD,
              m_aapVertices :=
                SubdivideFace.hitFour s.m_aapVertices s.m_apLaths.length vA vB vC vD },
            ⟨s.m_apLaths.length, s.m_apLaths.length + 1, s.m_apLaths.length + 2,
              s.m_apLaths.length + 3⟩) := by
  obtain ⟨L, F, Tb, fin, ib, se, sc, P⟩ := s
  simp only at hA hB hC hD
  have g1 : (L ++ [CqLath.new vA]).length = L.length + 1 := by simp
  have g2 : (L ++ [CqLath.new vA] ++ [CqLath.new vB]).length = L.length + 2 := by simp
  have g3 : (L ++ [CqLath.new vA] ++ [CqLath.new vB] ++ [CqLath.new vC]).length =
      L.length + 3 := by simp
  have a4 : L ++ [CqLath.new vA] ++ [CqLath.new vB] ++ [CqLath.new vC] ++ [CqLath.new vD] =
      L ++ [CqLath.new vA, CqLath.new vB, CqLath.new vC, CqLath.new vD] := by simp
  simp only [SubdivideFace.newLaths, pushLath, g1, g2, g3, a4, setLath]
  have e : ∀ (X : List CqLath) (j : Nat), (L ++ X)[L.length + j]? = X[j]? :=
    fun X j => getElem?_append_add L X j
  have st : ∀ (X : List CqLath) (j : Nat) (x : CqLath),
      (L ++ X).set (L.length + j) x = L ++ X.set j x := fun X j x => set_append_add L X j x
  have e0 : ∀ (X : List CqLath), (L ++ X)[L.length]? = X[0]? := fun X => e X 0
  have st0 : ∀ (X : List CqLath) (x : CqLath), (L ++ X).set L.length x = L ++ X.set 0 x :=
    fun X x => st X 0 x
  simp only [e, st, e0, st0, List.getElem?_cons_zero, List.getElem?_cons_succ, List.set_cons_zero,
    List.set_cons_succ, Option.some_bind, pushVertexLath, List.length_modify, hA, hB, hC, hD,
    if_true, SubdivideFace.four, SubdivideFace.hitFour, CqLath.new]

theorem SubdivideFace.transferSharpness_laths (q qNext pA pB : Nat) (s : CqSubdivision2) :
    (SubdivideFace.transferSharpness q qNext pA pB s).m_apLaths = s.m_apLaths := by
  unfold SubdivideFace.transferSharpness AddSharpEdge AddSharpCorner
  simp only
  split <;> split <;> split <;> rfl

theorem SubdivideFace.transferSharpness_table (q qNext pA pB : Nat) (s : CqSubdivision2) :
    (SubdivideFace.transferSharpness q qNext pA pB s).m_aapVertices = s.m_aapVertices := by
  unfold SubdivideFace.transferSharpness AddSharpEdge AddSharpCorner
  simp only
  split <;> split <;> split <;> rfl

theorem SubdivideFace.transferSharpness_facets (q qNext pA pB : Nat) (s : CqSubdivision2) :
    (SubdivideFace.transferSharpness q qNext pA pB s).m_apFacets = s.m_apFacets := by
  unfold SubdivideFace.transferSharpness AddSharpEdge AddSharpCorner
  simp only
  split <;> split <;> split <;> rfl

theorem SubdivideFace.transferSharpness_params (q qNext pA pB : Nat) (s : CqSubdivision2) :
    (SubdivideFace.transferSharpness q qNext pA pB s).aUserParams = s.aUserParams := by
  unfold SubdivideFace.transferSharpness AddSharpEdge AddSharpCorner
  simp only
  split <;> split <;> split <;> rfl

end CqSubdivision2
end Aqsis

namespace Aqsis
namespace CqSubdivision2

/-! ## States that agree on part of every lath -/

theorem lath_map_of_map_eq (π : CqLath → CqLath) {s t : CqSubdivision2}
    (h : t.m_apLaths.map π = s.m_apLaths.map π) (x : Nat) :
    (t.lath x).map π = (s.lath x).map π := by
  unfold lath
  rw [← List.getElem?_map, ← List.getElem?_map, h]

theorem length_of_map_eq (π : CqLath → CqLath) {s t : CqSubdivision2}
    (h : t.m_apLaths.map π = s.m_apLaths.map π) :
    t.m_apLaths.length = s.m_apLaths.length := by
  have := congrArg List.length h
  simpa using this

/-- A field that the projection keeps is the same in both states. -/
theorem field_of_map_eq {β : Type} (π : CqLath → CqLath) (g : CqLath → β)
    (hg : ∀ l, g (π l) = g l) {s t : CqSubdivision2}
    (h : t.m_apLaths.map π = s.m_apLaths.map π) (x : Nat) :
    (t.lath x).map g = (s.lath x).map g := by
  have e := lath_map_of_map_eq π h x
  cases ht : t.lath x with
  | none =>
    rw [ht] at e
    cases hs : s.lath x with
    | none => rfl
    | some l => rw [hs] at e; cases e
  | some l =>
    rw [ht] at e
    cases hs : s.lath x with
    | none => rw [hs] at e; cases e
    | some l' =>
      rw [hs] at e
      simp only [Option.map_some', Option.some.injEq] at e ⊢
      rw [← hg l, ← hg l', e]


theorem cv_of_dropCM {s t : CqSubdivision2}
    (h : t.m_apLaths.map CqLath.dropCM = s.m_apLaths.map CqLath.dropCM) (x : Nat) : t.cv x = s.cv x :=
  field_of_map_eq CqLath.dropCM CqLath.m_pClockwiseVertex (fun _ => rfl) h x

theorem cf_of_dropCM {s t : CqSubdivision2}
    (h : t.m_apLaths.map CqLath.dropCM = s.m_apLaths.map CqLath.dropCM) (x : Nat) : t.cf x = s.cf x :=
  field_of_map_eq CqLath.dropCM CqLath.m_pClockwiseFacet (fun _ => rfl) h x

theorem VertexIndex_of_dropCM {s t : CqSubdivision2}
    (h : t.m_apLaths.map CqLath.dropCM = s.m_apLaths.map CqLath.dropCM) (x : Nat) : t.VertexIndex x = s.VertexIndex x :=
  field_of_map_eq CqLath.dropCM CqLath.m_VertexIndex (fun _ => rfl) h x

theorem cfD_of_dropCM {s t : CqSubdivision2}
    (h : t.m_apLaths.map CqLath.dropCM = s.m_apLaths.map CqLath.dropCM) (x : Nat) : t.cfD x = s.cfD x :=
  cfD_of_cf (cf_of_dropCM h) x

theorem ccf_of_dropCM {s t : CqSubdivision2}
    (h : t.m_apLaths.map CqLath.dropCM = s.m_apLaths.map CqLath.dropCM) (x : Nat) : t.ccf x = s.ccf x :=
  ccf_congr (cfD_of_dropCM h) (length_of_map_eq _ h) x

theorem ec_of_dropCM {s t : CqSubdivision2}
    (h : t.m_apLaths.map CqLath.dropCM = s.m_apLaths.map CqLath.dropCM) (x : Nat) : t.ec x = s.ec x := by
  unfold ec
  rw [cv_of_dropCM h]
  cases s.cv x with
  | none => rfl
  | some o =>
    cases o with
    | none => rfl
    | some c => exact cf_of_dropCM h c

theorem ccv_of_dropCM {s t : CqSubdivision2}
    (h : t.m_apLaths.map CqLath.dropCM = s.m_apLaths.map CqLath.dropCM) (x : Nat) : t.ccv x = s.ccv x := by
  unfold ccv
  rw [cfD_of_dropCM h]
  cases s.cfD x with
  | none => rfl
  | some c => exact ec_of_dropCM h c



theorem cf_of_dropCF {s t : CqSubdivision2}
    (h : t.m_apLaths.map CqLath.dropCF = s.m_apLaths.map CqLath.dropCF) (x : Nat) : t.cf x = s.cf x :=
  field_of_map_eq CqLath.dropCF CqLath.m_pClockwiseFacet (fun _ => rfl) h x

theorem VertexIndex_of_dropCF {s t : CqSubdivision2}
    (h : t.m_apLaths.map CqLath.dropCF = s.m_apLaths.map CqLath.dropCF) (x : Nat) : t.VertexIndex x = s.VertexIndex x :=
  field_of_map_eq CqLath.dropCF CqLath.m_VertexIndex (fun _ => rfl) h x

theorem cfD_of_dropCF {s t : CqSubdivision2}
    (h : t.m_apLaths.map CqLath.dropCF = s.m_apLaths.map CqLath.dropCF) (x : Nat) : t.cfD x = s.cfD x :=
  cfD_of_cf (cf_of_dropCF h) x

theorem ccf_of_dropCF {s t : CqSubdivision2}
    (h : t.m_apLaths.map CqLath.dropCF = s.m_apLaths.map CqLath.dropCF) (x : Nat) : t.ccf x = s.ccf x :=
  ccf_congr (cfD_of_dropCF h) (length_of_map_eq _ h) x


/-! ## Marking the laths round a vertex -/

theorem markChild_lath (s : CqSubdivision2) (chain : List Nat) (pA h : Nat) :
    (markChild s chain pA).lath h =
      (s.lath h).map (fun l => if h ∈ chain then { l with m_pChildVertex := some pA } else l) := by
  simp [markChild, lath, List.getElem?_mapIdx]

theorem markChild_length (s : CqSubdivision2) (chain : List Nat) (pA : Nat) :
    (markChild s chain pA).m_apLaths.length = s.m_apLaths.length := by
  simp [markChild]

theorem markChild_dropCM (s : CqSubdivision2) (chain : List Nat) (pA : Nat) :
    (markChild s chain pA).m_apLaths.map CqLath.dropCM = s.m_apLaths.map CqLath.dropCM := by
  apply List.ext_getElem?
  intro h
  have := markChild_lath s chain pA h
  unfold lath at this
  rw [List.getElem?_map, List.getElem?_map, this]
  cases s.m_apLaths[h]? with
  | none => rfl
  | some l =>
    simp only [Option.map_some', Option.some.injEq]
    split <;> rfl

theorem markChild_nil (s : CqSubdivision2) (pA : Nat) : markChild s [] pA = s := by
  obtain ⟨L, F, Tb, fin, ib, se, sc, P⟩ := s
  simp only [markChild, List.not_mem_nil, if_false, mk.injEq, and_true]
  apply List.ext_getElem?
  intro h
  simp [List.getElem?_mapIdx]

theorem markChild_setLath (s : CqSubdivision2) (chain : List Nat) (pA p : Nat)
    (hp : p < s.m_apLaths.length) :
    (markChild s chain pA).setLath p (fun l => { l with m_pChildVertex := some pA }) =
      some (markChild s (chain ++ [p]) pA) := by
  have hp' : p < (markChild s chain pA).m_apLaths.length := by
    rw [markChild_length]; exact hp
  rw [setLath_of_lt _ _ hp']
  obtain ⟨L, F, Tb, fin, ib, se, sc, P⟩ := s
  simp only [markChild, Option.some.injEq, mk.injEq, and_true]
  apply List.ext_getElem?
  intro h
  simp only [List.getElem?_set, List.getElem?_mapIdx, List.length_mapIdx, List.getElem_mapIdx,
    List.mem_append, List.mem_singleton]
  simp only at hp
  by_cases hh : p = h
  · subst hh
    simp only [if_true, hp, or_true, List.getElem?_eq_getElem hp, Option.map_some']
    split <;> rfl
  · have hh' : ¬ h = p := fun e => hh e.symm
    simp only [hh, hh', if_false, or_false]

theorem vertexChain.forward_congr {s t : CqSubdivision2} (hcv : ∀ x, t.cv x = s.cv x)
    (start : Nat) : ∀ (fuel p : Nat),
      vertexChain.forward t start fuel p = vertexChain.forward s start fuel p := by
  intro fuel
  induction fuel with
  | zero => intro p; rfl
  | succ f ih =>
    intro p
    simp only [vertexChain.forward, hcv, ih]

theorem vertexChain.backward_congr {s t : CqSubdivision2} (hccv : ∀ x, t.ccv x = s.ccv x)
    (start : Nat) : ∀ (fuel : Nat) (p : Option Nat),
      vertexChain.backward t start fuel p = vertexChain.backward s start fuel p := by
  intro fuel
  induction fuel with
  | zero => intro p; rfl
  | succ f ih =>
    intro p
    cases p with
    | none => rfl
    | some p => simp only [vertexChain.backward, hccv, ih]

theorem vertexChain_of_dropCM {s t : CqSubdivision2}
    (h : t.m_apLaths.map CqLath.dropCM = s.m_apLaths.map CqLath.dropCM) (q : Nat) :
    t.vertexChain q = s.vertexChain q := by
  unfold vertexChain
  rw [length_of_map_eq _ h, vertexChain.forward_congr (cv_of_dropCM h),
    ccv_of_dropCM h]
  cases vertexChain.forward s q (s.m_apLaths.length + 1) q with
  | none => rfl
  | some r =>
    obtain ⟨fw, b⟩ := r
    cases b with
    | true => rfl
    | false =>
      simp only
      cases s.ccv q with
      | none => rfl
      | some p =>
        simp only [Option.some_bind]
        rw [vertexChain.backward_congr (ccv_of_dropCM h)]

/-- The clockwise marking loop marks what the forward walk meets. -/
theorem SubdivideFace.childForward_eq (s : CqSubdivision2) (pA start : Nat) :
    ∀ (fuel : Nat) (done : List Nat) (p : Nat),
      SubdivideFace.childForward pA start fuel (markChild s done pA) p =
        (vertexChain.forward s start fuel p).map (fun r =>
          (markChild s (done ++ r.1) pA, if r.2 then some start else none)) := by
  intro fuel
  induction fuel with
  | zero => intro done p; rfl
  | succ f ih =>
    intro done p
    simp only [SubdivideFace.childForward, vertexChain.forward]
    by_cases hp : p < s.m_apLaths.length
    · rw [markChild_setLath s done pA p hp]
      simp only [cv_of_dropCM (markChild_dropCM s (done ++ [p]) pA)]
      cases s.cv p with
      | none => rfl
      | some o =>
        cases o with
        | none => simp
        | some q =>
          simp only
          by_cases hq : q = start
          · simp [hq]
          · simp only [hq, if_false, ih]
            cases vertexChain.forward s start f q with
            | none => rfl
            | some r => simp
    · have h1 : (markChild s done pA).setLath p
          (fun l => { l with m_pChildVertex := some pA }) = none := by
        unfold setLath
        have : (markChild s done pA).m_apLaths[p]? = none := by
          apply List.getElem?_eq_none
          rw [markChild_length]
          omega
        rw [this]
      have h2 : s.cv p = none := by
        unfold cv lath
        rw [List.getElem?_eq_none (by omega)]
        rfl
      rw [h1, h2]
      rfl

/-- The anticlockwise marking loop marks what the backward walk meets. -/
theorem SubdivideFace.childBackward_eq (s : CqSubdivision2) (pA start : Nat) :
    ∀ (fuel : Nat) (done : List Nat) (p : Option Nat),
      SubdivideFace.childBackward pA start fuel (markChild s done pA) p =
        (vertexChain.backward s start fuel p).map (fun r => markChild s (done ++ r) pA) := by
  intro fuel
  induction fuel with
  | zero => intro done p; rfl
  | succ f ih =>
    intro done p
    cases p with
    | none => simp [SubdivideFace.childBackward, vertexChain.backward]
    | some p =>
      simp only [SubdivideFace.childBackward, vertexChain.backward]
      by_cases hps : p = start
      · simp [hps]
      · simp only [hps, if_false]
        by_cases hp : p < s.m_apLaths.length
        · rw [markChild_setLath s done pA p hp]
          simp only [ccv_of_dropCM (markChild_dropCM s (done ++ [p]) pA)]
          cases s.ccv p with
          | none => rfl
          | some o =>
            simp only [ih]
            cases vertexChain.backward s start f o with
            | none => rfl
            | some r => simp
        · have h1 : (markChild s done pA).setLath p
              (fun l => { l with m_pChildVertex := some pA }) = none := by
            unfold setLath
            have : (markChild s done pA).m_apLaths[p]? = none := by
              apply List.getElem?_eq_none
              rw [markChild_length]
              omega
            rw [this]
          have h2 : s.ccv p = none := by
            unfold ccv cfD lath
            rw [List.getElem?_eq_none (by omega)]
            rfl
          rw [h1, h2]
          rfl

/-- Setting the child vertex round a corner marks exactly the vertex-chain
of the corner, and fails exactly when the walk round the vertex fails. -/
theorem SubdivideFace.setChildVertex_eq (s : CqSubdivision2) (pA q : Nat) :
    SubdivideFace.setChildVertex pA q s =
      (s.vertexChain q).map (fun chain => markChild s chain pA) := by
  unfold SubdivideFace.setChildVertex vertexChain
  have h0 := SubdivideFace.childForward_eq s pA q (s.m_apLaths.length + 1) [] q
  rw [markChild_nil] at h0
  rw [h0]
  cases vertexChain.forward s q (s.m_apLaths.length + 1) q with
  | none => rfl
  | some r =>
    obtain ⟨fw, b⟩ := r
    cases b with
    | true => simp
    | false =>
      simp only [Option.map_some', Option.some_bind, List.nil_append, Bool.false_eq_true,
        if_false, markChild_length]
      rw [ccv_of_dropCM (markChild_dropCM s fw pA)]
      cases s.ccv q with
      | none => rfl
      | some p =>
        simp only [Option.some_bind]
        rw [SubdivideFace.childBackward_eq]
        cases vertexChain.backward s q (s.m_apLaths.length + 1) p with
        | none => rfl
        | some bw => rfl

end CqSubdivision2
end Aqsis

namespace Aqsis
namespace CqSubdivision2

/-! ## One iteration of the lath-creating loop -/

theorem modulo_natCast (a b : Nat) : (modulo (a : Int) (b : Int)).toNat = a % b := by
  unfold modulo
  have h : (a : Int) * b ≥ 0 := by positivity
  rw [if_pos h]
  have : Int.tmod (a : Int) (b : Int) = ((a % b : Nat) : Int) := (Int.ofNat_tmod a b).symm
  rw [this]
  exact Int.toNat_natCast _

theorem modulo_succ (i n : Nat) : (modulo ((i : Int) + 1) (n : Int)).toNat = (i + 1) % n := by
  have := modulo_natCast (i + 1) n
  simpa using this

/-- The state after the four laths of a child face are allocated. -/
theorem SubdivideFace.createFace_eq (pFace : Nat) (aQfv aV : List Nat) (n i : Nat)
    (st : SubdivideFace.CreateState) {vA vB vC vD q qNext : Nat}
    (hvA : aV[i]? = some vA) (hvB : aV[(i + 1) % n + n]? = some vB)
    (hvC : aV[2 * n]? = some vC) (hvD : aV[i + n]? = some vD)
    (hq : aQfv[i]? = some q) (hqN : aQfv[(i + 1) % n]? = some qNext)
    (hA : vA < st.1.m_aapVertices.length) (hB : vB < st.1.m_aapVertices.length)
    (hC : vC < st.1.m_aapVertices.length) (hD : vD < st.1.m_aapVertices.length) :
    SubdivideFace.createFace pFace aQfv aV n i st =
      (vertexChain { st.1 with
          m_apLaths := st.1.m_apLaths ++
            SubdivideFace.four pFace st.1.m_apLaths.length vA vB vC vD,
          m_aapVertices :=
            SubdivideFace.hitFour st.1.m_aapVertices st.1.m_apLaths.length vA vB vC vD } q).bind
        fun chain =>
      ((markChild { st.1 with
          m_apLaths := st.1.m_apLaths ++
            SubdivideFace.four pFace st.1.m_apLaths.length vA vB vC vD,
          m_aapVertices :=
            SubdivideFace.hitFour st.1.m_aapVertices st.1.m_apLaths.length vA vB vC vD }
          chain st.1.m_apLaths.length).setLath q
          (fun l => { l with m_pMidVertex := some (st.1.m_apLaths.length + 3) })).bind fun s2 =>
      some ({ SubdivideFace.transferSharpness q qNext st.1.m_apLaths.length
                (st.1.m_apLaths.length + 1) s2 with
              m_apFacets := (SubdivideFace.transferSharpness q qNext st.1.m_apLaths.length
                (st.1.m_apLaths.length + 1) s2).m_apFacets ++ [st.1.m_apLaths.length] },
            st.2.1 ++ [⟨st.1.m_apLaths.length, st.1.m_apLaths.length + 1,
              st.1.m_apLaths.length + 2, st.1.m_apLaths.length + 3⟩],
            st.2.2 ++ [st.1.m_apLaths.length]) := by
  unfold SubdivideFace.createFace
  simp only [modulo_succ, hvA, hvB, hvC, hvD, hq, hqN, Option.some_bind,
    SubdivideFace.newLaths_eq pFace vA vB vC vD st.1 hA hB hC hD,
    SubdivideFace.setChildVertex_eq]
  cases vertexChain _ q with
  | none => rfl
  | some chain => rfl

theorem SubdivideFace.allocated_length (pFace vA vB vC vD : Nat) (s : CqSubdivision2) :
    (SubdivideFace.allocated pFace vA vB vC vD s).m_apLaths.length = s.m_apLaths.length + 4 := by
  simp [SubdivideFace.allocated, SubdivideFace.four]

/-- A successful iteration of the lath-creating loop has walked the
vertex-chain of its corner and done the step for it. -/
theorem SubdivideFace.createFace_step (pFace : Nat) (aQfv aV : List Nat) (n i : Nat)
    (st st' : SubdivideFace.CreateState) {vA vB vC vD q qNext : Nat}
    (hvA : aV[i]? = some vA) (hvB : aV[(i + 1) % n + n]? = some vB)
    (hvC : aV[2 * n]? = some vC) (hvD : aV[i + n]? = some vD)
    (hq : aQfv[i]? = some q) (hqN : aQfv[(i + 1) % n]? = some qNext)
    (hA : vA < st.1.m_aapVertices.length) (hB : vB < st.1.m_aapVertices.length)
    (hC : vC < st.1.m_aapVertices.length) (hD : vD < st.1.m_aapVertices.length)
    (e : SubdivideFace.createFace pFace aQfv aV n i st = some st') :
    ∃ chain, (SubdivideFace.allocated pFace vA vB vC vD st.1).vertexChain q = some chain ∧
      SubdivideFace.Step pFace q vA vB vC vD chain st st' := by
  rw [SubdivideFace.createFace_eq pFace aQfv aV n i st hvA hvB hvC hvD hq hqN hA hB hC hD] at e
  change ((SubdivideFace.allocated pFace vA vB vC vD st.1).vertexChain q).bind _ = _ at e
  cases hch : (SubdivideFace.allocated pFace vA vB vC vD st.1).vertexChain q with
  | none => rw [hch] at e; cases e
  | some chain =>
    rw [hch] at e
    simp only [Option.some_bind] at e
    refine ⟨chain, rfl, ?_⟩
    change ((markChild (SubdivideFace.allocated pFace vA vB vC vD st.1) chain
      st.1.m_apLaths.length).setLath q _).bind _ = _ at e
    cases hs2 : (markChild (SubdivideFace.allocated pFace vA vB vC vD st.1) chain
      st.1.m_apLaths.length).setLath q
      (fun l => { l with m_pMidVertex := some (st.1.m_apLaths.length + 3) }) with
    | none => rw [hs2] at e; cases e
    | some s2 =>
      rw [hs2] at e
      simp only [Option.some_bind, Option.some.injEq] at e
      obtain ⟨l0, _, hs2'⟩ := setLath_eq_some hs2
      have hl := setLath_lath hs2
      subst e
      refine ⟨?_, ?_, ?_, ?_, rfl, rfl⟩
      · intro h
        change (SubdivideFace.transferSharpness q qNext st.1.m_apLaths.length
          (st.1.m_apLaths.length + 1) s2).m_apLaths[h]? = _
        rw [SubdivideFace.transferSharpness_laths]
        change s2.lath h = _
        rw [hl h, markChild_lath]
        change (if h = q then Option.map _ (Option.map _
          ((st.1.m_apLaths ++ SubdivideFace.four pFace st.1.m_apLaths.length vA vB vC vD)[h]?))
          else Option.map _
          ((st.1.m_apLaths ++ SubdivideFace.four pFace st.1.m_apLaths.length vA vB vC vD)[h]?))
          = _
        cases (st.1.m_apLaths ++ SubdivideFace.four pFace st.1.m_apLaths.length vA vB vC vD)[h]? with
        | none => simp
        | some l =>
          by_cases hhq : h = q
          · simp only [hhq, if_true, Option.map_some']
          · simp only [hhq, if_false, Option.map_some']
            split <;> rfl
      · change (SubdivideFace.transferSharpness q qNext st.1.m_apLaths.length
          (st.1.m_apLaths.length + 1) s2).m_aapVertices = _
        rw [SubdivideFace.transferSharpness_table, hs2']
        rfl
      · change (SubdivideFace.transferSharpness q qNext st.1.m_apLaths.length
          (st.1.m_apLaths.length + 1) s2).m_apFacets ++ _ = _
        rw [SubdivideFace.transferSharpness_facets, hs2']
        rfl
      · change (SubdivideFace.transferSharpness q qNext st.1.m_apLaths.length
          (st.1.m_apLaths.length + 1) s2).aUserParams = _
        rw [SubdivideFace.transferSharpness_params, hs2']
        rfl

/-- An iteration of the lath-creating loop succeeds when the walk round the
vertex of its corner does. -/
theorem SubdivideFace.createFace_some (pFace : Nat) (aQfv aV : List Nat) (n i : Nat)
    (st : SubdivideFace.CreateState) {vA vB vC vD q qNext : Nat} {chain : List Nat}
    (hvA : aV[i]? = some vA) (hvB : aV[(i + 1) % n + n]? = some vB)
    (hvC : aV[2 * n]? = some vC) (hvD : aV[i + n]? = some vD)
    (hq : aQfv[i]? = some q) (hqN : aQfv[(i + 1) % n]? = some qNext)
    (hA : vA < st.1.m_aapVertices.length) (hB : vB < st.1.m_aapVertices.length)
    (hC : vC < st.1.m_aapVertices.length) (hD : vD < st.1.m_aapVertices.length)
    (hch : (SubdivideFace.allocated pFace vA vB vC vD st.1).vertexChain q = some chain)
    (hql : q < st.1.m_apLaths.length) :
    ∃ st', SubdivideFace.createFace pFace aQfv aV n i st = some st' := by
  rw [SubdivideFace.createFace_eq pFace aQfv aV n i st hvA hvB hvC hvD hq hqN hA hB hC hD]
  change ∃ st', ((SubdivideFace.allocated pFace vA vB vC vD st.1).vertexChain q).bind _ = some st'
  rw [hch]
  simp only [Option.some_bind]
  have hlt : q < (markChild (SubdivideFace.allocated pFace vA vB vC vD st.1) chain
      st.1.m_apLaths.length).m_apLaths.length := by
    rw [markChild_length, SubdivideFace.allocated_length]
    omega
  change ∃ st', ((markChild (SubdivideFace.allocated pFace vA vB vC vD st.1) chain
      st.1.m_apLaths.length).setLath q _).bind _ = some st'
  rw [setLath_of_lt _ _ hlt]
  exact ⟨_, rfl⟩

end CqSubdivision2
end Aqsis

namespace Aqsis
namespace CqSubdivision2

/-! ## The lath-creating loop -/

theorem SubdivideFace.children_length (pFace N : Nat) (aV : List Nat) (n : Nat) :
    ∀ i, (SubdivideFace.children pFace N aV n i).length = 4 * i := by
  intro i
  induction i with
  | zero => rfl
  | succ i ih =>
    simp only [SubdivideFace.children, List.length_append, ih, SubdivideFace.child,
      SubdivideFace.four, List.length_cons, List.length_nil]
    omega

theorem SubdivideFace.four_dropCM (pFace base vA vB vC vD : Nat) :
    (SubdivideFace.four pFace base vA vB vC vD).map CqLath.dropCM =
      SubdivideFace.four pFace base vA vB vC vD := rfl

theorem SubdivideFace.hitFour_length (table : List (List Nat)) (base vA vB vC vD : Nat) :
    (SubdivideFace.hitFour table base vA vB vC vD).length = table.length := by
  simp [SubdivideFace.hitFour]

theorem SubdivideFace.tableAfter_length (table : List (List Nat)) (N : Nat) (aV : List Nat)
    (n : Nat) : ∀ i, (SubdivideFace.tableAfter table N aV n i).length = table.length := by
  intro i
  induction i with
  | zero => rfl
  | succ i ih => simp only [SubdivideFace.tableAfter, SubdivideFace.hitFour_length, ih]

theorem SubdivideFace.Created.created_length {L0 : List CqLath} {Tb0 : List (List Nat)} {F0 : List Nat}
    {P0 : List (List CqParameter)} {pFace : Nat} {aV : List Nat} {n i : Nat}
    {st : SubdivideFace.CreateState}
    (hc : SubdivideFace.Created L0 Tb0 F0 P0 pFace aV n i st) :
    st.1.m_apLaths.length = L0.length + 4 * i := by
  have := congrArg List.length hc.laths
  simpa [SubdivideFace.children_length] using this

theorem SubdivideFace.Created.created_zero (s : CqSubdivision2) (pFace : Nat) (aV : List Nat) (n : Nat)
    (hptr : ∀ l ∈ s.m_apLaths,
      (∀ c, l.m_pChildVertex = some c → c < s.m_apLaths.length) ∧
      (∀ m, l.m_pMidVertex = some m → m < s.m_apLaths.length)) :
    SubdivideFace.Created s.m_apLaths s.m_aapVertices s.m_apFacets s.aUserParams pFace aV n 0
      (s, [], []) := by
  refine ⟨by simp [SubdivideFace.children], rfl, by simp, rfl, rfl, rfl, ?_⟩
  intro h l hl
  have := hptr l (List.getElem?_mem hl)
  simpa using this

/-- The step of an iteration keeps the description of the loop state. -/
theorem SubdivideFace.Created.created_step {L0 : List CqLath} {Tb0 : List (List Nat)} {F0 : List Nat}
    {P0 : List (List CqParameter)} {pFace : Nat} {aV : List Nat} {n i : Nat}
    {st st' : SubdivideFace.CreateState} {q : Nat} {chain : List Nat}
    (hc : SubdivideFace.Created L0 Tb0 F0 P0 pFace aV n i st)
    (hs : SubdivideFace.Step pFace q (aV.getD i 0) (aV.getD ((i + 1) % n + n) 0)
      (aV.getD (2 * n) 0) (aV.getD (i + n) 0) chain st st') :
    SubdivideFace.Created L0 Tb0 F0 P0 pFace aV n (i + 1) st' := by
  have hlen := hc.created_length
  refine ⟨?_, ?_, ?_, ?_, ?_, ?_, ?_⟩
  · have h1 : st'.1.m_apLaths.map CqLath.dropCM =
        (st.1.m_apLaths ++ SubdivideFace.four pFace st.1.m_apLaths.length (aV.getD i 0)
          (aV.getD ((i + 1) % n + n) 0) (aV.getD (2 * n) 0) (aV.getD (i + n) 0)).map
          CqLath.dropCM := by
      apply List.ext_getElem?
      intro h
      have := hs.laths h
      unfold lath at this
      rw [List.getElem?_map, List.getElem?_map, this]
      cases (st.1.m_apLaths ++ SubdivideFace.four pFace st.1.m_apLaths.length (aV.getD i 0)
          (aV.getD ((i + 1) % n + n) 0) (aV.getD (2 * n) 0) (aV.getD (i + n) 0))[h]? with
      | none => rfl
      | some l =>
        simp only [Option.map_some', Option.some.injEq]
        split <;> rfl
    rw [h1, List.map_append, hc.laths, SubdivideFace.four_dropCM, hlen, List.append_assoc]
    rfl
  · rw [hs.table, hc.table, hlen]
    rfl
  · rw [hs.facets, hc.facets, hlen, List.range_succ, List.map_append, List.append_assoc]
    rfl
  · rw [hs.params, hc.params]
  · rw [hs.faces, hc.faces, hlen, List.range_succ, List.map_append]
    rfl
  · rw [hs.subs, hc.subs, hlen, List.range_succ, List.map_append]
    rfl
  · intro h l' hl'
    rw [hs.laths h] at hl'
    cases hx : (st.1.m_apLaths ++ SubdivideFace.four pFace st.1.m_apLaths.length (aV.getD i 0)
        (aV.getD ((i + 1) % n + n) 0) (aV.getD (2 * n) 0) (aV.getD (i + n) 0))[h]? with
    | none => rw [hx] at hl'; cases hl'
    | some l =>
      rw [hx] at hl'
      simp only [Option.map_some', Option.some.injEq] at hl'
      have hold : (∀ c, l.m_pChildVertex = some c → c < L0.length + 4 * i) ∧
          (∀ m, l.m_pMidVertex = some m → m < L0.length + 4 * i) := by
        by_cases hh : h < st.1.m_apLaths.length
        · rw [List.getElem?_append_left hh] at hx
          exact hc.ptr h l hx
        · rw [List.getElem?_append_right (by omega)] at hx
          have hm := List.getElem?_mem hx
          simp only [SubdivideFace.four, List.mem_cons, List.mem_singleton, List.not_mem_nil,
            or_false] at hm
          rcases hm with rfl | rfl | rfl | rfl <;> simp
      subst hl'
      constructor
      · intro c hcv
        by_cases hch : h ∈ chain
        · simp only [hch, if_true, Option.some.injEq] at hcv
          omega
        · simp only [hch, if_false] at hcv
          have := hold.1 c hcv
          omega
      · intro m hm
        by_cases hq : h = q
        · simp only [hq, if_true, Option.some.injEq] at hm
          omega
        · simp only [hq, if_false] at hm
          have := hold.2 m hm
          omega

end CqSubdivision2
end Aqsis

namespace Aqsis
namespace CqSubdivision2

theorem getElem?_getD_of_lt {α : Type} (l : List α) (j : Nat) (d : α) (h : j < l.length) :
    l[j]? = some (l.getD j d) := by
  simp [List.getD_eq_getElem?_getD, List.getElem?_eq_getElem h]

theorem getD_mem_of_lt {α : Type} (l : List α) (j : Nat) (d : α) (h : j < l.length) :
    l.getD j d ∈ l := List.getElem?_mem (getElem?_getD_of_lt l j d h)

/-! ## The lath-creating loop as a whole -/

/-- A successful iteration, in terms of the loop description. -/
theorem SubdivideFace.Created.iter {L0 : List CqLath} {Tb0 : List (List Nat)} {F0 : List Nat}
    {P0 : List (List CqParameter)} {pFace : Nat} {aQfv aV : List Nat} {n i : Nat}
    {st st' : SubdivideFace.CreateState}
    (hn : aQfv.length = n) (hV : aV.length = 2 * n + 1) (hlt : ∀ v ∈ aV, v < Tb0.length)
    (hi : i < n) (hc : SubdivideFace.Created L0 Tb0 F0 P0 pFace aV n i st)
    (e : SubdivideFace.createFace pFace aQfv aV n i st = some st') :
    ∃ chain, (SubdivideFace.allocated pFace (aV.getD i 0) (aV.getD ((i + 1) % n + n) 0)
        (aV.getD (2 * n) 0) (aV.getD (i + n) 0) st.1).vertexChain (aQfv.getD i 0) = some chain ∧
      SubdivideFace.Step pFace (aQfv.getD i 0) (aV.getD i 0) (aV.getD ((i + 1) % n + n) 0)
        (aV.getD (2 * n) 0) (aV.getD (i + n) 0) chain st st' := by
  have hm : (i + 1) % n < n := Nat.mod_lt _ (by omega)
  have htl : st.1.m_aapVertices.length = Tb0.length := by
    rw [hc.table, SubdivideFace.tableAfter_length]
  exact SubdivideFace.createFace_step pFace aQfv aV n i st st'
    (getElem?_getD_of_lt aV i 0 (by omega)) (getElem?_getD_of_lt aV _ 0 (by omega))
    (getElem?_getD_of_lt aV _ 0 (by omega)) (getElem?_getD_of_lt aV _ 0 (by omega))
    (getElem?_getD_of_lt aQfv i 0 (by omega)) (getElem?_getD_of_lt aQfv _ 0 (by omega))
    (htl ▸ hlt _ (getD_mem_of_lt aV _ 0 (by omega)))
    (htl ▸ hlt _ (getD_mem_of_lt aV _ 0 (by omega)))
    (htl ▸ hlt _ (getD_mem_of_lt aV _ 0 (by omega)))
    (htl ▸ hlt _ (getD_mem_of_lt aV _ 0 (by omega))) e

/-- The description of the state after the lath-creating loop. -/
theorem SubdivideFace.created_of_loop {s : CqSubdivision2} {pFace : Nat} {aQfv aV : List Nat}
    {n : Nat} {st : SubdivideFace.CreateState}
    (hn : aQfv.length = n) (hV : aV.length = 2 * n + 1)
    (hlt : ∀ v ∈ aV, v < s.m_aapVertices.length)
    (hptr : ∀ l ∈ s.m_apLaths,
      (∀ c, l.m_pChildVertex = some c → c < s.m_apLaths.length) ∧
      (∀ m, l.m_pMidVertex = some m → m < s.m_apLaths.length))
    (e : forEach (SubdivideFace.createFace pFace aQfv aV n) (List.range n) (s, [], []) =
      some st) :
    SubdivideFace.Created s.m_apLaths s.m_aapVertices s.m_apFacets s.aUserParams pFace aV n n
      st := by
  refine forEach_range_inv (SubdivideFace.createFace pFace aQfv aV n)
    (fun i st => SubdivideFace.Created s.m_apLaths s.m_aapVertices s.m_apFacets s.aUserParams
      pFace aV n i st) n ?_ (s, [], []) st (SubdivideFace.Created.created_zero s pFace aV n hptr) e
  intro i hi st1 st2 hc e1
  obtain ⟨chain, _, hstep⟩ := SubdivideFace.Created.iter hn hV hlt hi hc e1
  exact hc.created_step hstep

/-! ## Walks in a state with more laths -/

theorem cv_of_append {s t : CqSubdivision2} {X : List CqLath}
    (h : t.m_apLaths.map CqLath.dropCM = s.m_apLaths.map CqLath.dropCM ++ X) {x : Nat}
    {o : Option Nat} (e : s.cv x = some o) : t.cv x = some o := by
  have hx : x < s.m_apLaths.length := by
    unfold cv at e
    cases hl : s.lath x with
    | none => rw [hl] at e; cases e
    | some l => exact lath_lt hl
  have h1 : (t.m_apLaths.map CqLath.dropCM)[x]? = (s.m_apLaths.map CqLath.dropCM)[x]? := by
    rw [h, List.getElem?_append_left (by simpa using hx)]
  rw [List.getElem?_map, List.getElem?_map] at h1
  unfold cv lath at e ⊢
  cases ht : t.m_apLaths[x]? with
  | none =>
    rw [ht] at h1
    cases hs : s.m_apLaths[x]? with
    | none => rw [hs] at e; cases e
    | some l => rw [hs] at h1; cases h1
  | some l' =>
    rw [ht] at h1
    cases hs : s.m_apLaths[x]? with
    | none => rw [hs] at e; cases e
    | some l =>
      rw [hs] at h1 e
      simp only [Option.map_some', Option.some.injEq] at h1 e ⊢
      rw [← e]
      have h2 := congrArg CqLath.m_pClockwiseVertex h1
      exact h2

theorem cf_of_append {s t : CqSubdivision2} {X : List CqLath}
    (h : t.m_apLaths.map CqLath.dropCM = s.m_apLaths.map CqLath.dropCM ++ X) {x : Nat}
    {o : Option Nat} (e : s.cf x = some o) : t.cf x = some o := by
  have hx : x < s.m_apLaths.length := by
    unfold cf at e
    cases hl : s.lath x with
    | none => rw [hl] at e; cases e
    | some l => exact lath_lt hl
  have h1 : (t.m_apLaths.map CqLath.dropCM)[x]? = (s.m_apLaths.map CqLath.dropCM)[x]? := by
    rw [h, List.getElem?_append_left (by simpa using hx)]
  rw [List.getElem?_map, List.getElem?_map] at h1
  unfold cf lath at e ⊢
  cases ht : t.m_apLaths[x]? with
  | none =>
    rw [ht] at h1
    cases hs : s.m_apLaths[x]? with
    | none => rw [hs] at e; cases e
    | some l => rw [hs] at h1; cases h1
  | some l' =>
    rw [ht] at h1
    cases hs : s.m_apLaths[x]? with
    | none => rw [hs] at e; cases e
    | some l =>
      rw [hs] at h1 e
      simp only [Option.map_some', Option.some.injEq] at h1 e ⊢
      rw [← e]
      have h2 := congrArg CqLath.m_pClockwiseFacet h1
      exact h2

theorem VertexIndex_of_append {s t : CqSubdivision2} {X : List CqLath}
    (h : t.m_apLaths.map CqLath.dropCM = s.m_apLaths.map CqLath.dropCM ++ X) {x : Nat}
    {o : Nat} (e : s.VertexIndex x = some o) : t.VertexIndex x = some o := by
  have hx : x < s.m_apLaths.length := by
    unfold VertexIndex at e
    cases hl : s.lath x with
    | none => rw [hl] at e; cases e
    | some l => exact lath_lt hl
  have h1 : (t.m_apLaths.map CqLath.dropCM)[x]? = (s.m_apLaths.map CqLath.dropCM)[x]? := by
    rw [h, List.getElem?_append_left (by simpa using hx)]
  rw [List.getElem?_map, List.getElem?_map] at h1
  unfold VertexIndex lath at e ⊢
  cases ht : t.m_apLaths[x]? with
  | none =>
    rw [ht] at h1
    cases hs : s.m_apLaths[x]? with
    | none => rw [hs] at e; cases e
    | some l => rw [hs] at h1; cases h1
  | some l' =>
    rw [ht] at h1
    cases hs : s.m_apLaths[x]? with
    | none => rw [hs] at e; cases e
    | some l =>
      rw [hs] at h1 e
      simp only [Option.map_some', Option.some.injEq] at h1 e ⊢
      rw [← e]
      have h2 := congrArg CqLath.m_VertexIndex h1
      exact h2

theorem cfD_of_append {s t : CqSubdivision2} {X : List CqLath}
    (h : t.m_apLaths.map CqLath.dropCM = s.m_apLaths.map CqLath.dropCM ++ X) {x c : Nat}
    (e : s.cfD x = some c) : t.cfD x = some c := by
  have e1 : s.cf x = some (some c) := cf_of_cfD e
  have e2 := cf_of_append h e1
  unfold cf at e2
  unfold cfD
  cases hl : t.lath x with
  | none => rw [hl] at e2; cases e2
  | some l =>
    rw [hl] at e2
    simp only [Option.map_some', Option.some.injEq] at e2
    simpa using e2

theorem ec_of_append {s t : CqSubdivision2} {X : List CqLath}
    (h : t.m_apLaths.map CqLath.dropCM = s.m_apLaths.map CqLath.dropCM ++ X) {x : Nat}
    {o : Option Nat} (e : s.ec x = some o) : t.ec x = some o := by
  unfold ec at e ⊢
  cases hcv : s.cv x with
  | none => rw [hcv] at e; cases e
  | some oc =>
    rw [hcv] at e
    rw [cv_of_append h hcv]
    cases oc with
    | none => exact e
    | some c => exact cf_of_append h e

theorem ccv_of_append {s t : CqSubdivision2} {X : List CqLath}
    (h : t.m_apLaths.map CqLath.dropCM = s.m_apLaths.map CqLath.dropCM ++ X) {x : Nat}
    {o : Option Nat} (e : s.ccv x = some o) : t.ccv x = some o := by
  unfold ccv at e ⊢
  cases hc : s.cfD x with
  | none => rw [hc] at e; cases e
  | some c =>
    rw [hc] at e
    rw [cfD_of_append h hc]
    exact ec_of_append h e

theorem vertexChain.forward_of_append {s t : CqSubdivision2} {X : List CqLath}
    (h : t.m_apLaths.map CqLath.dropCM = s.m_apLaths.map CqLath.dropCM ++ X) (start : Nat) :
    ∀ (fuel fuel' p : Nat) (r : List Nat × Bool), fuel ≤ fuel' →
      vertexChain.forward s start fuel p = some r →
      vertexChain.forward t start fuel' p = some r := by
  intro fuel
  induction fuel with
  | zero => intro fuel' p r _ e; cases e
  | succ f ih =>
    intro fuel' p r hle e
    obtain ⟨g, rfl⟩ : ∃ g, fuel' = g + 1 := ⟨fuel' - 1, by omega⟩
    simp only [vertexChain.forward] at e ⊢
    cases hcv : s.cv p with
    | none => rw [hcv] at e; cases e
    | some o =>
      rw [hcv] at e
      rw [cv_of_append h hcv]
      cases o with
      | none => exact e
      | some q =>
        simp only at e ⊢
        by_cases hq : q = start
        · simpa [hq] using e
        · simp only [hq, if_false] at e ⊢
          cases hf : vertexChain.forward s start f q with
          | none => rw [hf] at e; cases e
          | some r' =>
            rw [hf] at e
            rw [ih g q r' (by omega) hf]
            exact e

theorem vertexChain.backward_of_append {s t : CqSubdivision2} {X : List CqLath}
    (h : t.m_apLaths.map CqLath.dropCM = s.m_apLaths.map CqLath.dropCM ++ X) (start : Nat) :
    ∀ (fuel fuel' : Nat) (p : Option Nat) (r : List Nat), fuel ≤ fuel' →
      vertexChain.backward s start fuel p = some r →
      vertexChain.backward t start fuel' p = some r := by
  intro fuel
  induction fuel with
  | zero => intro fuel' p r _ e; cases e
  | succ f ih =>
    intro fuel' p r hle e
    obtain ⟨g, rfl⟩ : ∃ g, fuel' = g + 1 := ⟨fuel' - 1, by omega⟩
    cases p with
    | none => simpa [vertexChain.backward] using e
    | some p =>
      simp only [vertexChain.backward] at e ⊢
      by_cases hp : p = start
      · simp [hp] at e
      · simp only [hp, if_false] at e ⊢
        cases hc : s.ccv p with
        | none => rw [hc] at e; cases e
        | some o =>
          rw [hc] at e
          rw [ccv_of_append h hc]
          simp only at e ⊢
          cases hb : vertexChain.backward s start f o with
          | none => rw [hb] at e; cases e
          | some r' =>
            rw [hb] at e
            rw [ih g o r' (by omega) hb]
            exact e

/-- A vertex-chain is still the vertex-chain after laths are appended and
child-vertex and mid-vertex pointers are set. -/
theorem vertexChain_of_append {s t : CqSubdivision2} {X : List CqLath}
    (h : t.m_apLaths.map CqLath.dropCM = s.m_apLaths.map CqLath.dropCM ++ X) {q : Nat}
    {chain : List Nat} (e : s.vertexChain q = some chain) : t.vertexChain q = some chain := by
  have hlen : s.m_apLaths.length ≤ t.m_apLaths.length := by
    have := congrArg List.length h
    simp only [List.length_map, List.length_append] at this
    omega
  unfold vertexChain at e ⊢
  cases hf : vertexChain.forward s q (s.m_apLaths.length + 1) q with
  | none => rw [hf] at e; cases e
  | some r =>
    rw [hf] at e
    rw [vertexChain.forward_of_append h q _ (t.m_apLaths.length + 1) q r (by omega) hf]
    obtain ⟨fw, b⟩ := r
    cases b with
    | true => exact e
    | false =>
      simp only at e ⊢
      cases hc : s.ccv q with
      | none => rw [hc] at e; cases e
      | some p =>
        rw [hc] at e
        rw [ccv_of_append h hc]
        simp only [Option.some_bind] at e ⊢
        cases hb : vertexChain.backward s q (s.m_apLaths.length + 1) p with
        | none => rw [hb] at e; cases e
        | some bw =>
          rw [hb] at e
          rw [vertexChain.backward_of_append h q _ (t.m_apLaths.length + 1) p bw (by omega) hb]
          exact e

end CqSubdivision2
end Aqsis

namespace Aqsis
namespace CqSubdivision2

/-! ## The state after the lath-creating loop -/

theorem SubdivideFace.children_getElem? (pFace N : Nat) (aV : List Nat) (n : Nat) :
    ∀ (i j k : Nat), j < i → k < 4 →
      (SubdivideFace.children pFace N aV n i)[4 * j + k]? =
        (SubdivideFace.child pFace N aV n j)[k]? := by
  intro i
  induction i with
  | zero => intro j k hj; omega
  | succ i ih =>
    intro j k hj hk
    simp only [SubdivideFace.children]
    by_cases hji : j < i
    · rw [List.getElem?_append_left (by rw [SubdivideFace.children_length]; omega)]
      exact ih j k hji hk
    · have hje : j = i := by omega
      subst hje
      rw [List.getElem?_append_right (by rw [SubdivideFace.children_length]; omega),
        SubdivideFace.children_length]
      congr 1
      omega

theorem SubdivideFace.children_dropCM (pFace N : Nat) (aV : List Nat) (n : Nat) :
    ∀ i, (SubdivideFace.children pFace N aV n i).map CqLath.dropCM =
      SubdivideFace.children pFace N aV n i := by
  intro i
  induction i with
  | zero => rfl
  | succ i ih =>
    simp only [SubdivideFace.children, List.map_append, ih]
    rfl

/-- An old lath after the loop: only its child-vertex and mid-vertex
pointers may differ. -/
theorem SubdivideFace.Created.old {L0 : List CqLath} {Tb0 : List (List Nat)} {F0 : List Nat}
    {P0 : List (List CqParameter)} {pFace : Nat} {aV : List Nat} {n i : Nat}
    {st : SubdivideFace.CreateState}
    (hc : SubdivideFace.Created L0 Tb0 F0 P0 pFace aV n i st) {h : Nat} (hh : h < L0.length) :
    ∃ l l0, st.1.lath h = some l ∧ L0[h]? = some l0 ∧ CqLath.dropCM l = CqLath.dropCM l0 := by
  have h1 := congrArg (fun L => L[h]?) hc.laths
  simp only [List.getElem?_map] at h1
  rw [List.getElem?_append_left (by simpa using hh), List.getElem?_map,
    List.getElem?_eq_getElem hh] at h1
  unfold lath
  cases hl : st.1.m_apLaths[h]? with
  | none => rw [hl] at h1; cases h1
  | some l =>
    rw [hl] at h1
    simp only [Option.map_some', Option.some.injEq] at h1
    exact ⟨l, L0[h], rfl, List.getElem?_eq_getElem hh, h1⟩

/-- A new lath after the loop. -/
theorem SubdivideFace.Created.new {L0 : List CqLath} {Tb0 : List (List Nat)} {F0 : List Nat}
    {P0 : List (List CqParameter)} {pFace : Nat} {aV : List Nat} {n i : Nat}
    {st : SubdivideFace.CreateState}
    (hc : SubdivideFace.Created L0 Tb0 F0 P0 pFace aV n i st) {j k : Nat} (hj : j < i)
    (hk : k < 4) :
    ∃ l l0, st.1.lath (L0.length + (4 * j + k)) = some l ∧
      (SubdivideFace.child pFace L0.length aV n j)[k]? = some l0 ∧ CqLath.dropCM l = l0 := by
  have h1 := congrArg (fun L => L[L0.length + (4 * j + k)]?) hc.laths
  simp only [List.getElem?_map] at h1
  have hL : (L0.map CqLath.dropCM).length = L0.length := by simp
  have key := getElem?_append_add (L0.map CqLath.dropCM)
    (SubdivideFace.children pFace L0.length aV n i) (4 * j + k)
  rw [hL] at key
  rw [key, SubdivideFace.children_getElem? pFace L0.length aV n i j k hj hk] at h1
  have hlt : k < (SubdivideFace.child pFace L0.length aV n j).length := by
    simp [SubdivideFace.child, SubdivideFace.four]; exact hk
  rw [List.getElem?_eq_getElem hlt] at h1
  unfold lath
  cases hl : st.1.m_apLaths[L0.length + (4 * j + k)]? with
  | none => rw [hl] at h1; cases h1
  | some l =>
    rw [hl] at h1
    simp only [Option.map_some', Option.some.injEq] at h1
    exact ⟨l, _, rfl, List.getElem?_eq_getElem hlt, h1⟩

/-- Every lath after the loop is an old one or one of the new ones. -/
theorem SubdivideFace.Created.cases {L0 : List CqLath} {Tb0 : List (List Nat)} {F0 : List Nat}
    {P0 : List (List CqParameter)} {pFace : Nat} {aV : List Nat} {n i : Nat}
    {st : SubdivideFace.CreateState}
    (hc : SubdivideFace.Created L0 Tb0 F0 P0 pFace aV n i st) {h : Nat}
    (hh : h < st.1.m_apLaths.length) :
    h < L0.length ∨ ∃ j k, j < i ∧ k < 4 ∧ h = L0.length + (4 * j + k) := by
  rw [hc.created_length] at hh
  by_cases h0 : h < L0.length
  · exact Or.inl h0
  · refine Or.inr ⟨(h - L0.length) / 4, (h - L0.length) % 4, ?_, Nat.mod_lt _ (by omega), ?_⟩
    · omega
    · omega

end CqSubdivision2
end Aqsis

namespace Aqsis
namespace CqSubdivision2

/-! ## Well-formedness after the point loops and the lath-creating loop -/

theorem Valid.lath_ptr {s : CqSubdivision2} (hv : s.Valid) {h : Nat} {l : CqLath}
    (hl : s.lath h = some l) :
    (∀ p, l.m_pClockwiseVertex = some p → p < s.m_apLaths.length) ∧
    (∀ p, l.m_pParentFacet = some p → p < s.m_apLaths.length) ∧
    (∀ p, l.m_pChildVertex = some p → p < s.m_apLaths.length) ∧
    (∀ p, l.m_pMidVertex = some p → p < s.m_apLaths.length) ∧
    (∀ p, l.m_pFaceVertex = some p → p < s.m_apLaths.length) :=
  hv.ptr l (List.getElem?_mem hl)

theorem Valid.growBy {s : CqSubdivision2} (hv : s.Valid) (k : Nat) : (growBy k s).Valid := by
  refine ⟨hv.ptr, hv.rings, ?_, ?_, ?_⟩
  · intro l hl
    have := hv.vlt l hl
    rw [growBy_table_length]
    omega
  · intro v a h hva hh
    change (s.m_aapVertices ++ List.replicate k [])[v]? = some a at hva
    by_cases hlt : v < s.m_aapVertices.length
    · rw [List.getElem?_append_left hlt] at hva
      exact hv.adj v a h hva hh
    · rw [List.getElem?_append_right (by omega)] at hva
      have := List.getElem?_mem hva
      rw [List.mem_replicate] at this
      rw [this.2] at hh
      cases hh
  · rw [growBy_table_length]
    exact hv.params.grow k

/-- The fields of a new lath after the loop. -/
theorem SubdivideFace.Created.new_fields {L0 : List CqLath} {Tb0 : List (List Nat)}
    {F0 : List Nat} {P0 : List (List CqParameter)} {pFace : Nat} {aV : List Nat} {n i : Nat}
    {st : SubdivideFace.CreateState}
    (hc : SubdivideFace.Created L0 Tb0 F0 P0 pFace aV n i st) {j k : Nat} (hj : j < i)
    (hk : k < 4) :
    ∃ l, st.1.lath (L0.length + (4 * j + k)) = some l ∧
      l.m_pClockwiseVertex = none ∧
      l.m_pClockwiseFacet = some (L0.length + (4 * j + (k + 1) % 4)) ∧
      l.m_pParentFacet = some pFace ∧ l.m_pFaceVertex = none ∧
      l.m_VertexIndex = SubdivideFace.cornerVertex aV n j k := by
  obtain ⟨l, l0, hl, hl0, hd⟩ := hc.new hj hk
  refine ⟨l, hl, ?_⟩
  have e1 : l.m_pClockwiseVertex = l0.m_pClockwiseVertex := by
    have := congrArg CqLath.m_pClockwiseVertex hd; exact this
  have e2 : l.m_pClockwiseFacet = l0.m_pClockwiseFacet := by
    have := congrArg CqLath.m_pClockwiseFacet hd; exact this
  have e3 : l.m_pParentFacet = l0.m_pParentFacet := by
    have := congrArg CqLath.m_pParentFacet hd; exact this
  have e4 : l.m_pFaceVertex = l0.m_pFaceVertex := by
    have := congrArg CqLath.m_pFaceVertex hd; exact this
  have e5 : l.m_VertexIndex = l0.m_VertexIndex := by
    have := congrArg CqLath.m_VertexIndex hd; exact this
  rw [e1, e2, e3, e4, e5]
  simp only [SubdivideFace.child, SubdivideFace.four] at hl0
  have hk' : k = 0 ∨ k = 1 ∨ k = 2 ∨ k = 3 := by omega
  rcases hk' with rfl | rfl | rfl | rfl
  · simp only [List.getElem?_cons_zero, Option.some.injEq] at hl0
    subst hl0
    exact ⟨rfl, rfl, rfl, rfl, rfl⟩
  · simp only [List.getElem?_cons_succ, List.getElem?_cons_zero, Option.some.injEq] at hl0
    subst hl0
    exact ⟨rfl, rfl, rfl, rfl, rfl⟩
  · simp only [List.getElem?_cons_succ, List.getElem?_cons_zero, Option.some.injEq] at hl0
    subst hl0
    exact ⟨rfl, rfl, rfl, rfl, rfl⟩
  · simp only [List.getElem?_cons_succ, List.getElem?_cons_zero, Option.some.injEq] at hl0
    subst hl0
    exact ⟨rfl, by simp, rfl, rfl, rfl⟩

theorem SubdivideFace.Created.created_cfD_new {L0 : List CqLath} {Tb0 : List (List Nat)}
    {F0 : List Nat} {P0 : List (List CqParameter)} {pFace : Nat} {aV : List Nat} {n i : Nat}
    {st : SubdivideFace.CreateState}
    (hc : SubdivideFace.Created L0 Tb0 F0 P0 pFace aV n i st) {j k : Nat} (hj : j < i)
    (hk : k < 4) :
    st.1.cfD (L0.length + (4 * j + k)) = some (L0.length + (4 * j + (k + 1) % 4)) := by
  obtain ⟨l, hl, _, h2, _⟩ := hc.new_fields hj hk
  unfold cfD
  rw [hl]
  exact h2

theorem SubdivideFace.Created.created_VertexIndex_new {L0 : List CqLath} {Tb0 : List (List Nat)}
    {F0 : List Nat} {P0 : List (List CqParameter)} {pFace : Nat} {aV : List Nat} {n i : Nat}
    {st : SubdivideFace.CreateState}
    (hc : SubdivideFace.Created L0 Tb0 F0 P0 pFace aV n i st) {j k : Nat} (hj : j < i)
    (hk : k < 4) :
    st.1.VertexIndex (L0.length + (4 * j + k)) = some (SubdivideFace.cornerVertex aV n j k) := by
  obtain ⟨l, hl, _, _, _, _, h5⟩ := hc.new_fields hj hk
  unfold VertexIndex
  rw [hl]
  exact congrArg some h5

/-- The four laths of a child face form a facet ring. -/
theorem SubdivideFace.Created.created_ring_new {L0 : List CqLath} {Tb0 : List (List Nat)}
    {F0 : List Nat} {P0 : List (List CqParameter)} {pFace : Nat} {aV : List Nat} {n i : Nat}
    {st : SubdivideFace.CreateState}
    (hc : SubdivideFace.Created L0 Tb0 F0 P0 pFace aV n i st) {j : Nat} (hj : j < i) :
    st.1.IsRing [L0.length + (4 * j + 0), L0.length + (4 * j + 1), L0.length + (4 * j + 2),
      L0.length + (4 * j + 3)] := by
  rw [IsRing.ring_cons_iff]
  constructor
  · simp only [List.nodup_cons, List.mem_cons, List.mem_singleton, List.not_mem_nil,
      List.nodup_nil, not_false_eq_true, and_true, not_or]
    omega
  · have h0 := hc.created_cfD_new hj (show 0 < 4 by omega)
    have h1 := hc.created_cfD_new hj (show 1 < 4 by omega)
    have h2 := hc.created_cfD_new hj (show 2 < 4 by omega)
    have h3 := hc.created_cfD_new hj (show 3 < 4 by omega)
    simp only [List.cons_append, List.nil_append, List.chain'_cons, List.chain'_singleton,
      and_true]
    exact ⟨h0, h1, h2, h3⟩

end CqSubdivision2
end Aqsis

namespace Aqsis
namespace CqSubdivision2

/-! ## The adjacency table after the lath-creating loop -/

theorem mem_modify_append {Tb : List (List Nat)} {x u v h : Nat} {a : List Nat}
    (hv : (Tb.modify (fun l => l ++ [x]) u)[v]? = some a) (hh : h ∈ a) :
    (∃ a0, Tb[v]? = some a0 ∧ h ∈ a0) ∨ (h = x ∧ v = u) := by
  rw [List.getElem?_modify] at hv
  cases hT : Tb[v]? with
  | none => rw [hT] at hv; cases hv
  | some a0 =>
    rw [hT] at hv
    simp only [Option.map_eq_map, Option.map_some', Option.some.injEq] at hv
    by_cases huv : u = v
    · simp only [huv, if_true] at hv
      subst hv
      rcases List.mem_append.mp hh with h1 | h1
      · exact Or.inl ⟨a0, rfl, h1⟩
      · exact Or.inr ⟨by simpa using h1, huv.symm⟩
    · simp only [huv, if_false] at hv
      subst hv
      exact Or.inl ⟨a0, rfl, hh⟩

theorem SubdivideFace.mem_hitFour {Tb : List (List Nat)} {b vA vB vC vD v h : Nat}
    {a : List Nat} (hv : (SubdivideFace.hitFour Tb b vA vB vC vD)[v]? = some a) (hh : h ∈ a) :
    (∃ a0, Tb[v]? = some a0 ∧ h ∈ a0) ∨ (h = b ∧ v = vA) ∨ (h = b + 1 ∧ v = vB) ∨
      (h = b + 2 ∧ v = vC) ∨ (h = b + 3 ∧ v = vD) := by
  unfold SubdivideFace.hitFour at hv
  rcases mem_modify_append hv hh with ⟨a3, h3, hm3⟩ | hD
  · rcases mem_modify_append h3 hm3 with ⟨a2, h2, hm2⟩ | hC
    · rcases mem_modify_append h2 hm2 with ⟨a1, h1, hm1⟩ | hB
      · rcases mem_modify_append h1 hm1 with h0 | hA
        · exact Or.inl h0
        · exact Or.inr (Or.inl hA)
      · exact Or.inr (Or.inr (Or.inl hB))
    · exact Or.inr (Or.inr (Or.inr (Or.inl hC)))
  · exact Or.inr (Or.inr (Or.inr (Or.inr hD)))

theorem SubdivideFace.mem_tableAfter {Tb0 : List (List Nat)} {N : Nat} {aV : List Nat}
    {n : Nat} : ∀ (i : Nat) {v h : Nat} {a : List Nat},
      (SubdivideFace.tableAfter Tb0 N aV n i)[v]? = some a → h ∈ a →
      (∃ a0, Tb0[v]? = some a0 ∧ h ∈ a0) ∨
        ∃ j k, j < i ∧ k < 4 ∧ h = N + (4 * j + k) ∧ v = SubdivideFace.cornerVertex aV n j k := by
  intro i
  induction i with
  | zero => intro v h a hv hh; exact Or.inl ⟨a, hv, hh⟩
  | succ i ih =>
    intro v h a hv hh
    simp only [SubdivideFace.tableAfter] at hv
    rcases SubdivideFace.mem_hitFour hv hh with ⟨a0, h0, hm0⟩ | hA | hB | hC | hD
    · rcases ih h0 hm0 with hold | ⟨j, k, hj, hk, e1, e2⟩
      · exact Or.inl hold
      · exact Or.inr ⟨j, k, by omega, hk, e1, e2⟩
    · exact Or.inr ⟨i, 0, by omega, by omega, by omega, hA.2⟩
    · exact Or.inr ⟨i, 1, by omega, by omega, by omega, hB.2⟩
    · exact Or.inr ⟨i, 2, by omega, by omega, by omega, hC.2⟩
    · exact Or.inr ⟨i, 3, by omega, by omega, by omega, hD.2⟩

theorem SubdivideFace.cornerVertex_mem {aV : List Nat} {n j k : Nat} (hV : aV.length = 2 * n + 1)
    (hj : j < n) : SubdivideFace.cornerVertex aV n j k ∈ aV := by
  have hm : (j + 1) % n < n := Nat.mod_lt _ (by omega)
  unfold SubdivideFace.cornerVertex
  split
  · exact getD_mem_of_lt aV _ 0 (by omega)
  · exact getD_mem_of_lt aV _ 0 (by omega)
  · exact getD_mem_of_lt aV _ 0 (by omega)
  · exact getD_mem_of_lt aV _ 0 (by omega)

/-- The state after the lath-creating loop is well-formed. -/
theorem SubdivideFace.Created.created_valid {s : CqSubdivision2} (hv : s.Valid) {pFace : Nat}
    {aV : List Nat} {n : Nat} {st : SubdivideFace.CreateState}
    (hp : pFace < s.m_apLaths.length) (hV : aV.length = 2 * n + 1)
    (hlt : ∀ v ∈ aV, v < s.m_aapVertices.length)
    (hc : SubdivideFace.Created s.m_apLaths s.m_aapVertices s.m_apFacets s.aUserParams pFace
      aV n n st) :
    st.1.Valid := by
  have hlen := hc.created_length
  have htl : st.1.m_aapVertices.length = s.m_aapVertices.length := by
    rw [hc.table, SubdivideFace.tableAfter_length]
  refine ⟨?_, ?_, ?_, ?_, ?_⟩
  · intro l hl
    obtain ⟨h, hlt', hget⟩ := List.getElem_of_mem hl
    have hl' : st.1.lath h = some l := by
      unfold lath; rw [List.getElem?_eq_getElem hlt', hget]
    have hcm := hc.ptr h l hl'
    rw [hlen]
    rcases hc.cases hlt' with hold | ⟨j, k, hj, hk, rfl⟩
    · obtain ⟨l1, l0, h1, h0, hd⟩ := hc.old hold
      rw [hl'] at h1
      cases h1
      have hp0 := hv.lath_ptr (show s.lath h = some l0 from h0)
      have e1 : l.m_pClockwiseVertex = l0.m_pClockwiseVertex := by
        have := congrArg CqLath.m_pClockwiseVertex hd; exact this
      have e3 : l.m_pParentFacet = l0.m_pParentFacet := by
        have := congrArg CqLath.m_pParentFacet hd; exact this
      have e4 : l.m_pFaceVertex = l0.m_pFaceVertex := by
        have := congrArg CqLath.m_pFaceVertex hd; exact this
      rw [e1, e3, e4]
      refine ⟨?_, ?_, hcm.1, hcm.2, ?_⟩
      · intro p hp'; have := hp0.1 p hp'; omega
      · intro p hp'; have := hp0.2.1 p hp'; omega
      · intro p hp'; have := hp0.2.2.2.2 p hp'; omega
    · obtain ⟨l1, h1, f1, _, f3, f4, _⟩ := hc.new_fields hj hk
      rw [hl'] at h1
      cases h1
      rw [f1, f3, f4]
      refine ⟨?_, ?_, hcm.1, hcm.2, ?_⟩
      · intro p hp'; cases hp'
      · intro p hp'
        simp only [Option.some.injEq] at hp'
        omega
      · intro p hp'; cases hp'
  · intro h hh
    rcases hc.cases hh with hold | ⟨j, k, hj, hk, rfl⟩
    · obtain ⟨ring, hr, hmem⟩ := hv.rings h hold
      refine ⟨ring, IsRing.ring_congr ?_ hr, hmem⟩
      intro x hx
      obtain ⟨c, hcx, _⟩ := hr.cfD_mem x hx
      rw [hcx]
      exact cfD_of_append (X := SubdivideFace.children pFace s.m_apLaths.length aV n n)
        hc.laths hcx
    · refine ⟨_, hc.created_ring_new hj, ?_⟩
      have hk' : k = 0 ∨ k = 1 ∨ k = 2 ∨ k = 3 := by omega
      rcases hk' with rfl | rfl | rfl | rfl <;> simp
  · intro l hl
    obtain ⟨h, hlt', hget⟩ := List.getElem_of_mem hl
    have hl' : st.1.lath h = some l := by
      unfold lath; rw [List.getElem?_eq_getElem hlt', hget]
    rw [htl]
    rcases hc.cases hlt' with hold | ⟨j, k, hj, hk, rfl⟩
    · obtain ⟨l1, l0, h1, h0, hd⟩ := hc.old hold
      rw [hl'] at h1
      cases h1
      have e5 : l.m_VertexIndex = l0.m_VertexIndex := by
        have := congrArg CqLath.m_VertexIndex hd; exact this
      rw [e5]
      exact hv.vlt l0 (List.getElem?_mem h0)
    · obtain ⟨l1, h1, _, _, _, _, f5⟩ := hc.new_fields hj hk
      rw [hl'] at h1
      cases h1
      rw [f5]
      exact hlt _ (SubdivideFace.cornerVertex_mem hV hj)
  · intro v a h hva hh
    rw [hc.table] at hva
    rcases SubdivideFace.mem_tableAfter n hva hh with ⟨a0, h0, hm0⟩ | ⟨j, k, hj, hk, rfl, rfl⟩
    · exact VertexIndex_of_append (X := SubdivideFace.children pFace s.m_apLaths.length aV n n)
        hc.laths (hv.adj v a0 h h0 hm0)
    · exact hc.created_VertexIndex_new hj hk
  · rw [htl, hc.params]
    exact hv.params

end CqSubdivision2
end Aqsis

namespace Aqsis
namespace CqSubdivision2

/-! ## Writes of the linking loops -/

theorem LinkRel.refl (W Wf : Nat → Prop) (s : CqSubdivision2) : LinkRel W Wf s s :=
  ⟨rfl, rfl, rfl, rfl, fun _ _ => rfl, fun _ _ => rfl⟩

theorem LinkRel.trans {W Wf : Nat → Prop} {a b c : CqSubdivision2} (h1 : LinkRel W Wf a b)
    (h2 : LinkRel W Wf b c) : LinkRel W Wf a c :=
  ⟨h2.same.trans h1.same, h2.table.trans h1.table, h2.facets.trans h1.facets,
    h2.params.trans h1.params, fun h hw => (h2.cvFrame h hw).trans (h1.cvFrame h hw),
    fun h hw => (h2.faceFrame h hw).trans (h1.faceFrame h hw)⟩

theorem LinkRel.mono {W Wf : Nat → Prop} {a b : CqSubdivision2} (h1 : LinkRel W Wf a b)
    (W2 Wf2 : Nat → Prop)
    (hW : ∀ h, W h → W2 h) (hWf : ∀ h, Wf h → Wf2 h) : LinkRel W2 Wf2 a b :=
  ⟨h1.same, h1.table, h1.facets, h1.params, fun h hw => h1.cvFrame h (fun k => hw (hW h k)),
    fun h hw => h1.faceFrame h (fun k => hw (hWf h k))⟩

theorem LinkRel.link_length {W Wf : Nat → Prop} {a b : CqSubdivision2} (h1 : LinkRel W Wf a b) :
    b.m_apLaths.length = a.m_apLaths.length :=
  length_of_map_eq _ h1.same

/-- Well-formedness after writes to vertex-neighbour links and face-vertex
pointers, when the pointers written refer to laths. -/
theorem Valid.of_linkRel {W Wf : Nat → Prop} {s t : CqSubdivision2} (hv : s.Valid)
    (hr : LinkRel W Wf s t)
    (hp : ∀ h l, t.lath h = some l →
      (∀ c, l.m_pClockwiseVertex = some c → c < t.m_apLaths.length) ∧
      (∀ c, l.m_pFaceVertex = some c → c < t.m_apLaths.length)) : t.Valid := by
  have hlen := hr.link_length
  refine ⟨?_, ?_, ?_, ?_, ?_⟩
  · intro l hl
    obtain ⟨h, hlt', hget⟩ := List.getElem_of_mem hl
    have hl' : t.lath h = some l := by
      unfold lath; rw [List.getElem?_eq_getElem hlt', hget]
    have e := lath_map_of_map_eq CqLath.dropCF hr.same h
    rw [hl'] at e
    cases hs : s.lath h with
    | none => rw [hs] at e; cases e
    | some l0 =>
      rw [hs] at e
      simp only [Option.map_some', Option.some.injEq] at e
      have hp0 := hv.lath_ptr hs
      have e3 : l.m_pParentFacet = l0.m_pParentFacet := by
        have := congrArg CqLath.m_pParentFacet e; exact this
      have e4 : l.m_pChildVertex = l0.m_pChildVertex := by
        have := congrArg CqLath.m_pChildVertex e; exact this
      have e5 : l.m_pMidVertex = l0.m_pMidVertex := by
        have := congrArg CqLath.m_pMidVertex e; exact this
      rw [e3, e4, e5, hlen]
      refine ⟨?_, hp0.2.1, hp0.2.2.1, hp0.2.2.2.1, ?_⟩
      · intro c hc; have := (hp h l hl').1 c hc; omega
      · intro c hc; have := (hp h l hl').2 c hc; omega
  · intro h hh
    rw [hlen] at hh
    obtain ⟨ring, hring, hmem⟩ := hv.rings h hh
    exact ⟨ring, IsRing.ring_congr (fun x _ => cfD_of_dropCF hr.same x) hring, hmem⟩
  · intro l hl
    obtain ⟨h, hlt', hget⟩ := List.getElem_of_mem hl
    have hl' : t.lath h = some l := by
      unfold lath; rw [List.getElem?_eq_getElem hlt', hget]
    have e := VertexIndex_of_dropCF hr.same h
    unfold VertexIndex at e
    rw [hl'] at e
    cases hs : s.lath h with
    | none => rw [hs] at e; cases e
    | some l0 =>
      rw [hs] at e
      simp only [Option.map_some', Option.some.injEq] at e
      rw [e, hr.table]
      exact hv.vlt l0 (List.getElem?_mem hs)
  · intro v a h hva hh
    rw [hr.table] at hva
    rw [VertexIndex_of_dropCF hr.same]
    exact hv.adj v a h hva hh
  · rw [hr.table, hr.params]
    exact hv.params

theorem setLath_fields {s s' : CqSubdivision2} {h : Nat} {g : CqLath → CqLath}
    (e : s.setLath h g = some s') :
    s'.m_aapVertices = s.m_aapVertices ∧ s'.m_apFacets = s.m_apFacets ∧
      s'.aUserParams = s.aUserParams := by
  obtain ⟨l, _, rfl⟩ := setLath_eq_some e
  exact ⟨rfl, rfl, rfl⟩

theorem setLath_dropCF {s s' : CqSubdivision2} {h : Nat} {g : CqLath → CqLath}
    (e : s.setLath h g = some s') (hg : ∀ l, CqLath.dropCF (g l) = CqLath.dropCF l) :
    s'.m_apLaths.map CqLath.dropCF = s.m_apLaths.map CqLath.dropCF := by
  apply List.ext_getElem?
  intro x
  have := setLath_lath e x
  unfold lath at this
  rw [List.getElem?_map, List.getElem?_map, this]
  split
  · cases s.m_apLaths[x]? with
    | none => rfl
    | some l => simp [hg]
  · rfl

/-- A write to one vertex-neighbour link. -/
theorem Valid.setCv {s : CqSubdivision2} (hv : s.Valid) {X c : Nat} (hX : X < s.m_apLaths.length)
    (hc : c < s.m_apLaths.length) :
    ∃ s', s.setLath X (fun l => { l with m_pClockwiseVertex := some c }) = some s' ∧ s'.Valid ∧
      LinkRel (fun h => h = X) (fun _ => False) s s' ∧ s'.cv X = some (some c) := by
  obtain ⟨s', e⟩ : ∃ s', s.setLath X (fun l => { l with m_pClockwiseVertex := some c }) =
      some s' := ⟨_, setLath_of_lt s _ hX⟩
  refine ⟨s', e, ?_⟩
  have hl := setLath_lath e
  have hf := setLath_fields e
  have hrel : LinkRel (fun h => h = X) (fun _ => False) s s' := by
    refine ⟨setLath_dropCF e (fun l => by rfl), hf.1, hf.2.1, hf.2.2, ?_, ?_⟩
    · intro h hh
      unfold cv
      rw [hl h, if_neg hh]
    · intro h _
      rw [hl h]
      split
      · cases s.lath h <;> rfl
      · rfl
  refine ⟨?_, hrel, ?_⟩
  · apply hv.of_linkRel hrel
    intro h l hlath
    rw [hl h] at hlath
    rw [hrel.link_length]
    by_cases hh : h = X
    · rw [if_pos hh] at hlath
      cases hs : s.lath h with
      | none => rw [hs] at hlath; cases hlath
      | some l0 =>
        rw [hs] at hlath
        simp only [Option.map_some', Option.some.injEq] at hlath
        subst hlath
        exact ⟨fun c' hc' => by simp only [Option.some.injEq] at hc'; omega,
          (hv.lath_ptr hs).2.2.2.2⟩
    · rw [if_neg hh] at hlath
      exact ⟨(hv.lath_ptr hlath).1, (hv.lath_ptr hlath).2.2.2.2⟩
  · unfold cv
    rw [hl X, if_pos rfl]
    have : (s.lath X).isSome := (s.lath_isSome_iff X).mpr hX
    cases hs : s.lath X with
    | none => rw [hs] at this; cases this
    | some l0 => rfl

/-- A write to one face-vertex pointer. -/
theorem Valid.setFace {s : CqSubdivision2} (hv : s.Valid) {X c : Nat}
    (hX : X < s.m_apLaths.length) (hc : c < s.m_apLaths.length) :
    ∃ s', s.setLath X (fun l => { l with m_pFaceVertex := some c }) = some s' ∧ s'.Valid ∧
      LinkRel (fun _ => False) (fun h => h = X) s s' ∧
      (s'.lath X).map CqLath.m_pFaceVertex = some (some c) := by
  obtain ⟨s', e⟩ : ∃ s', s.setLath X (fun l => { l with m_pFaceVertex := some c }) =
      some s' := ⟨_, setLath_of_lt s _ hX⟩
  refine ⟨s', e, ?_⟩
  have hl := setLath_lath e
  have hf := setLath_fields e
  have hrel : LinkRel (fun _ => False) (fun h => h = X) s s' := by
    refine ⟨setLath_dropCF e (fun l => by rfl), hf.1, hf.2.1, hf.2.2, ?_, ?_⟩
    · intro h _
      unfold cv
      rw [hl h]
      split
      · cases s.lath h <;> rfl
      · rfl
    · intro h hh
      rw [hl h, if_neg hh]
  refine ⟨?_, hrel, ?_⟩
  · apply hv.of_linkRel hrel
    intro h l hlath
    rw [hl h] at hlath
    rw [hrel.link_length]
    by_cases hh : h = X
    · rw [if_pos hh] at hlath
      cases hs : s.lath h with
      | none => rw [hs] at hlath; cases hlath
      | some l0 =>
        rw [hs] at hlath
        simp only [Option.map_some', Option.some.injEq] at hlath
        subst hlath
        exact ⟨(hv.lath_ptr hs).1,
          fun c' hc' => by simp only [Option.some.injEq] at hc'; omega⟩
    · rw [if_neg hh] at hlath
      exact ⟨(hv.lath_ptr hlath).1, (hv.lath_ptr hlath).2.2.2.2⟩
  · rw [hl X, if_pos rfl]
    have : (s.lath X).isSome := (s.lath_isSome_iff X).mpr hX
    cases hs : s.lath X with
    | none => rw [hs] at this; cases this
    | some l0 => rfl

end CqSubdivision2
end Aqsis

namespace Aqsis
namespace CqSubdivision2

/-! ## The scans of the linking loops -/

theorem Valid.cfD_some {s : CqSubdivision2} (hv : s.Valid) {h : Nat}
    (hh : h < s.m_apLaths.length) : ∃ c, s.cfD h = some c ∧ c < s.m_apLaths.length := by
  obtain ⟨ring, hr, hm⟩ := hv.rings h hh
  obtain ⟨c, hc, hcm⟩ := hr.cfD_mem h hm
  exact ⟨c, hc, hr.lt c hcm⟩

theorem Valid.ccf_some {s : CqSubdivision2} (hv : s.Valid) {h : Nat}
    (hh : h < s.m_apLaths.length) : ∃ c, s.ccf h = some c ∧ c < s.m_apLaths.length := by
  obtain ⟨ring, hr, hm⟩ := hv.rings h hh
  obtain ⟨tl, hr', _⟩ := hr.ring_of_mem hm
  refine ⟨_, ccf_of_ring hr', hr'.lt _ (List.getLast_mem _)⟩

theorem Valid.valid_outKey_some {s : CqSubdivision2} (hv : s.Valid) {h : Nat}
    (hh : h < s.m_apLaths.length) : ∃ v, (s.cfD h).bind s.VertexIndex = some v := by
  obtain ⟨c, hc, hlt⟩ := hv.cfD_some hh
  obtain ⟨v, hv'⟩ := VertexIndex_some hlt
  exact ⟨v, by rw [hc]; exact hv'⟩

theorem Valid.valid_innKey_some {s : CqSubdivision2} (hv : s.Valid) {h : Nat}
    (hh : h < s.m_apLaths.length) : ∃ v, (s.ccf h).bind s.VertexIndex = some v := by
  obtain ⟨c, hc, hlt⟩ := hv.ccf_some hh
  obtain ⟨v, hv'⟩ := VertexIndex_some hlt
  exact ⟨v, by rw [hc]; exact hv'⟩

theorem Valid.valid_mem_adj_lt {s : CqSubdivision2} (hv : s.Valid) {v h : Nat} {a : List Nat}
    (hva : s.m_aapVertices[v]? = some a) (hh : h ∈ a) : h < s.m_apLaths.length := by
  have := hv.adj v a h hva hh
  unfold VertexIndex at this
  cases hl : s.lath h with
  | none => rw [hl] at this; cases this
  | some l => exact lath_lt hl

/-- A conditional write to a vertex-neighbour link. -/
theorem Valid.setCv_if {s : CqSubdivision2} (hv : s.Valid) {X c : Nat} (b : Prop) [Decidable b]
    (hX : X < s.m_apLaths.length) (hc : c < s.m_apLaths.length) :
    ∃ s', (if b then s.setLath X (fun l => { l with m_pClockwiseVertex := some c })
        else some s) = some s' ∧ s'.Valid ∧ LinkRel (fun h => h = X) (fun _ => False) s s' := by
  by_cases hb : b
  · obtain ⟨s', e, hv', hr, _⟩ := hv.setCv hX hc
    exact ⟨s', by rw [if_pos hb]; exact e, hv', hr⟩
  · exact ⟨s, by rw [if_neg hb], hv, LinkRel.refl _ _ s⟩

theorem SubdivideFace.linkCorner_spec {s : CqSubdivision2} (hv : s.Valid) (f : SqFaceLathList)
    {X : Nat} (hX : X < s.m_apLaths.length) (hA : f.pA < s.m_apLaths.length)
    (hB : f.pB < s.m_apLaths.length) (hD : f.pD < s.m_apLaths.length) :
    ∃ s', SubdivideFace.linkCorner f X s = some s' ∧ s'.Valid ∧
      LinkRel (fun h => h = f.pA ∨ h = X) (fun _ => False) s s' := by
  obtain ⟨v, hv1⟩ := hv.valid_outKey_some hX
  obtain ⟨vD, hvD⟩ := VertexIndex_some hD
  obtain ⟨s1, e1, hval1, hr1⟩ := hv.setCv_if (v = vD) hA hX
  have hlen1 := hr1.link_length
  obtain ⟨v2, hv2⟩ := hval1.valid_innKey_some (show X < s1.m_apLaths.length by omega)
  obtain ⟨vB, hvB⟩ := VertexIndex_some (show f.pB < s1.m_apLaths.length by omega)
  obtain ⟨s2, e2, hval2, hr2⟩ := hval1.setCv_if (v2 = vB)
    (show X < s1.m_apLaths.length by omega) (show f.pA < s1.m_apLaths.length by omega)
  refine ⟨s2, ?_, hval2, ?_⟩
  · unfold SubdivideFace.linkCorner
    rw [hv1, hvD]
    simp only
    rw [e1]
    simp only [Option.some_bind]
    rw [hv2, hvB]
    exact e2
  · exact (hr1.mono _ _ (fun h hh => Or.inl hh) (fun _ hh => hh)).trans
      (hr2.mono _ _ (fun h hh => Or.inr hh) (fun _ hh => hh))

theorem SubdivideFace.linkEdgeB_spec {s : CqSubdivision2} (hv : s.Valid) (f : SqFaceLathList)
    {X : Nat} (hX : X < s.m_apLaths.length) (hA : f.pA < s.m_apLaths.length)
    (hB : f.pB < s.m_apLaths.length) :
    ∃ s', SubdivideFace.linkEdgeB f X s = some s' ∧ s'.Valid ∧
      LinkRel (fun h => h = f.pB) (fun _ => False) s s' := by
  obtain ⟨v, hv1⟩ := hv.valid_outKey_some hX
  obtain ⟨vA, hvA⟩ := VertexIndex_some hA
  obtain ⟨s1, e1, hval1, hr1⟩ := hv.setCv_if (v = vA) hB hX
  refine ⟨s1, ?_, hval1, hr1⟩
  unfold SubdivideFace.linkEdgeB
  rw [hv1, hvA]
  exact e1

theorem SubdivideFace.linkEdgeD_spec {s : CqSubdivision2} (hv : s.Valid) (f : SqFaceLathList)
    {X : Nat} (hX : X < s.m_apLaths.length) (hA : f.pA < s.m_apLaths.length)
    (hD : f.pD < s.m_apLaths.length) :
    ∃ s', SubdivideFace.linkEdgeD f X s = some s' ∧ s'.Valid ∧
      LinkRel (fun h => h = X) (fun _ => False) s s' := by
  obtain ⟨v, hv1⟩ := hv.valid_innKey_some hX
  obtain ⟨vA, hvA⟩ := VertexIndex_some hA
  obtain ⟨s1, e1, hval1, hr1⟩ := hv.setCv_if (v = vA) hX hD
  refine ⟨s1, ?_, hval1, hr1⟩
  unfold SubdivideFace.linkEdgeD
  rw [hv1, hvA]
  exact e1

/-- A scan of an adjacency list that writes only to the laths in `W`. -/
theorem SubdivideFace.scan_spec {s : CqSubdivision2} (hv : s.Valid)
    (body : Nat → CqSubdivision2 → Option CqSubdivision2) (W : Nat → Prop) (adj : List Nat)
    (hbody : ∀ X ∈ adj, ∀ t : CqSubdivision2, t.Valid → t.m_apLaths.length = s.m_apLaths.length →
      ∃ t', body X t = some t' ∧ t'.Valid ∧ LinkRel W (fun _ => False) t t') :
    ∃ s', forEach body adj s = some s' ∧ s'.Valid ∧ LinkRel W (fun _ => False) s s' := by
  obtain ⟨s', e, hv', hr⟩ := forEach_some body
    (fun t => t.Valid ∧ LinkRel W (fun _ => False) s t) adj
    (fun X hX t ht => by
      obtain ⟨t', e', hv', hr'⟩ := hbody X hX t ht.1 ht.2.link_length
      exact ⟨t', e', hv', ht.2.trans hr'⟩)
    s ⟨hv, LinkRel.refl _ _ s⟩
  exact ⟨s', e, hv', hr⟩

end CqSubdivision2
end Aqsis

namespace Aqsis
namespace CqSubdivision2

/-! ## One iteration of each linking loop -/

theorem Valid.vertex_lt {s : CqSubdivision2} (hv : s.Valid) {h v : Nat}
    (e : s.VertexIndex h = some v) : v < s.m_aapVertices.length := by
  unfold VertexIndex at e
  cases hl : s.lath h with
  | none => rw [hl] at e; cases e
  | some l =>
    rw [hl] at e
    simp only [Option.map_some', Option.some.injEq] at e
    rw [← e]
    exact hv.vlt l (List.getElem?_mem hl)

theorem Valid.adj_some {s : CqSubdivision2} (hv : s.Valid) {h v : Nat}
    (e : s.VertexIndex h = some v) : ∃ a, s.m_aapVertices[v]? = some a :=
  ⟨_, List.getElem?_eq_getElem (hv.vertex_lt e)⟩

theorem SubdivideFace.linkFace_spec {s : CqSubdivision2} (hv : s.Valid) {aQfv : List Nat}
    {faces : List SqFaceLathList} {n i q : Nat} {f fN : SqFaceLathList}
    (hq : aQfv[i]? = some q) (hf : faces[i]? = some f) (hfN : faces[(i + 1) % n]? = some fN)
    (hql : q < s.m_apLaths.length)
    (hA : f.pA < s.m_apLaths.length) (hB : f.pB < s.m_apLaths.length)
    (hC : f.pC < s.m_apLaths.length) (hD : f.pD < s.m_apLaths.length)
    (hNC : fN.pC < s.m_apLaths.length) (hND : fN.pD < s.m_apLaths.length) :
    ∃ s', SubdivideFace.linkFace aQfv faces n i s = some s' ∧ s'.Valid ∧
      LinkRel (fun h => h = fN.pD ∨ h = f.pC ∨ s.VertexIndex h = s.VertexIndex f.pA)
        (fun h => h = q) s s' ∧
      (s.VertexIndex f.pC ≠ s.VertexIndex f.pA → s'.cv f.pC = some (some fN.pC)) ∧
      (s'.lath q).map CqLath.m_pFaceVertex = some (some f.pC) := by
  obtain ⟨s1, e1, hv1, hr1, hface⟩ := hv.setFace hql hC
  have hl1 := hr1.link_length
  obtain ⟨s2, e2, hv2, hr2, _⟩ := hv1.setCv (show fN.pD < s1.m_apLaths.length by omega)
    (show f.pB < s1.m_apLaths.length by omega)
  have hl2 := hr2.link_length
  obtain ⟨s3, e3, hv3, hr3, hcv⟩ := hv2.setCv (show f.pC < s2.m_apLaths.length by omega)
    (show fN.pC < s2.m_apLaths.length by omega)
  have hl3 := hr3.link_length
  have hvi3 : ∀ x, s3.VertexIndex x = s.VertexIndex x := fun x => by
    rw [VertexIndex_of_dropCF hr3.same, VertexIndex_of_dropCF hr2.same,
      VertexIndex_of_dropCF hr1.same]
  obtain ⟨vA, hvA⟩ := VertexIndex_some (show f.pA < s3.m_apLaths.length by omega)
  obtain ⟨adj, hadj⟩ := hv3.adj_some hvA
  obtain ⟨s4, e4, hv4, hr4⟩ := SubdivideFace.scan_spec hv3 (SubdivideFace.linkCorner f)
    (fun h => s3.VertexIndex h = some vA) adj
    (fun X hX t ht hlen => by
      have hXl : X < s3.m_apLaths.length := hv3.valid_mem_adj_lt hadj hX
      obtain ⟨t', e', hv', hr'⟩ := SubdivideFace.linkCorner_spec ht f
        (show X < t.m_apLaths.length by omega) (show f.pA < t.m_apLaths.length by omega)
        (show f.pB < t.m_apLaths.length by omega) (show f.pD < t.m_apLaths.length by omega)
      refine ⟨t', e', hv', hr'.mono _ _ ?_ (fun _ hh => hh)⟩
      intro h hh
      rcases hh with rfl | rfl
      · exact hvA
      · exact hv3.adj vA adj _ hadj hX)
  refine ⟨s4, ?_, hv4, ?_, ?_, ?_⟩
  · unfold SubdivideFace.linkFace
    rw [hq, hf, hfN]
    simp only
    rw [e1]
    simp only [Option.some_bind]
    rw [e2]
    simp only [Option.some_bind]
    rw [e3]
    simp only [Option.some_bind]
    rw [hvA]
    simp only [Option.some_bind]
    rw [hadj]
    exact e4
  · have r1 := hr1.mono (fun h => h = fN.pD ∨ h = f.pC ∨
        s.VertexIndex h = s.VertexIndex f.pA) (fun h => h = q)
        (fun h hh => hh.elim) (fun h hh => hh)
    have r2 := hr2.mono (fun h => h = fN.pD ∨ h = f.pC ∨
        s.VertexIndex h = s.VertexIndex f.pA) (fun h => h = q)
        (fun h hh => Or.inl hh) (fun h hh => hh.elim)
    have r3 := hr3.mono (fun h => h = fN.pD ∨ h = f.pC ∨
        s.VertexIndex h = s.VertexIndex f.pA) (fun h => h = q)
        (fun h hh => Or.inr (Or.inl hh)) (fun h hh => hh.elim)
    have r4 := hr4.mono (fun h => h = fN.pD ∨ h = f.pC ∨
        s.VertexIndex h = s.VertexIndex f.pA) (fun h => h = q)
        (fun h hh => Or.inr (Or.inr (by rw [← hvi3 h, ← hvi3 f.pA, hh, hvA])))
        (fun h hh => hh.elim)
    exact ((r1.trans r2).trans r3).trans r4
  · intro hne
    rw [hr4.cvFrame f.pC (by
      intro hh
      apply hne
      rw [← hvi3 f.pC, ← hvi3 f.pA, hh, hvA])]
    exact hcv
  · rw [hr4.faceFrame q (fun hh => hh), hr3.faceFrame q (fun hh => hh),
      hr2.faceFrame q (fun hh => hh)]
    exact hface

theorem SubdivideFace.linkEdge_spec {s : CqSubdivision2} (hv : s.Valid)
    {faces : List SqFaceLathList} {i : Nat} {f : SqFaceLathList}
    (hf : faces[i]? = some f)
    (hA : f.pA < s.m_apLaths.length) (hB : f.pB < s.m_apLaths.length)
    (hD : f.pD < s.m_apLaths.length) :
    ∃ s', SubdivideFace.linkEdge faces i s = some s' ∧ s'.Valid ∧
      LinkRel (fun h => h = f.pB ∨ s.VertexIndex h = s.VertexIndex f.pD)
        (fun _ => False) s s' := by
  obtain ⟨vB, hvB⟩ := VertexIndex_some hB
  obtain ⟨adjB, hadjB⟩ := hv.adj_some hvB
  obtain ⟨s1, e1, hv1, hr1⟩ := SubdivideFace.scan_spec hv (SubdivideFace.linkEdgeB f)
    (fun h => h = f.pB) adjB
    (fun X hX t ht hlen => by
      have hXl : X < s.m_apLaths.length := hv.valid_mem_adj_lt hadjB hX
      exact SubdivideFace.linkEdgeB_spec ht f
        (show X < t.m_apLaths.length by omega) (show f.pA < t.m_apLaths.length by omega)
        (show f.pB < t.m_apLaths.length by omega))
  have hl1 := hr1.link_length
  have hvi1 : ∀ x, s1.VertexIndex x = s.VertexIndex x :=
    fun x => VertexIndex_of_dropCF hr1.same x
  obtain ⟨vD, hvD⟩ := VertexIndex_some (show f.pD < s1.m_apLaths.length by omega)
  obtain ⟨adjD, hadjD⟩ := hv1.adj_some hvD
  obtain ⟨s2, e2, hv2, hr2⟩ := SubdivideFace.scan_spec hv1 (SubdivideFace.linkEdgeD f)
    (fun h => s1.VertexIndex h = some vD) adjD
    (fun X hX t ht hlen => by
      have hXl : X < s1.m_apLaths.length := hv1.valid_mem_adj_lt hadjD hX
      obtain ⟨t', e', hv', hr'⟩ := SubdivideFace.linkEdgeD_spec ht f
        (show X < t.m_apLaths.length by omega) (show f.pA < t.m_apLaths.length by omega)
        (show f.pD < t.m_apLaths.length by omega)
      refine ⟨t', e', hv', hr'.mono _ _ ?_ (fun _ hh => hh)⟩
      intro h hh
      rw [hh]
      exact hv1.adj vD adjD _ hadjD hX)
  refine ⟨s2, ?_, hv2, ?_⟩
  · unfold SubdivideFace.linkEdge
    rw [hf]
    simp only
    rw [hvB]
    simp only [Option.some_bind]
    rw [hadjB]
    simp only [Option.some_bind]
    rw [e1]
    simp only [Option.some_bind]
    rw [hvD]
    simp only [Option.some_bind]
    rw [hadjD]
    exact e2
  · have r1 := hr1.mono (fun h => h = f.pB ∨ s.VertexIndex h = s.VertexIndex f.pD)
        (fun _ => False) (fun h hh => Or.inl hh) (fun h hh => hh)
    have r2 := hr2.mono (fun h => h = f.pB ∨ s.VertexIndex h = s.VertexIndex f.pD)
        (fun _ => False)
        (fun h hh => Or.inr (by rw [← hvi1 h, ← hvi1 f.pD, hh, hvD])) (fun h hh => hh)
    exact r1.trans r2

end CqSubdivision2
end Aqsis

namespace Aqsis
namespace CqSubdivision2

/-! ## The two linking loops as a whole -/

theorem getD_inj_of_nodup {l : List Nat} (hnd : l.Nodup) {i j : Nat} (hi : i < l.length)
    (hj : j < l.length) (e : l.getD i 0 = l.getD j 0) : i = j := by
  rw [List.getD_eq_getElem l 0 hi, List.getD_eq_getElem l 0 hj] at e
  exact (List.Nodup.getElem_inj_iff hnd).mp e

theorem SubdivideFace.faces_getElem? (N n i : Nat) (hi : i < n) :
    ((List.range n).map (SubdivideFace.faceLaths N))[i]? = some (SubdivideFace.faceLaths N i) := by
  simp [List.getElem?_range, hi]

/-- The state after both linking loops.  The loops succeed in a well-formed
state; they write vertex-neighbour links of new laths and of laths at the new
vertices only, and face-vertex pointers of the corners only; afterwards the
face-vertex pointer of corner `j` is the face-point lath of child `j` and the
face-point laths are linked in a cycle. -/
theorem SubdivideFace.linked {sc : CqSubdivision2} (hv : sc.Valid) {N n : Nat}
    (aQfv aV : List Nat) (hlen : sc.m_apLaths.length = N + 4 * n)
    (hn : aQfv.length = n) (hq : ∀ q ∈ aQfv, q < N) (hnd : aQfv.Nodup)
    (hvi : ∀ j k, j < n → k < 4 →
      sc.VertexIndex (N + (4 * j + k)) = some (SubdivideFace.cornerVertex aV n j k))
    (hT : ∀ j, j < 2 * n → aV.getD j 0 ≠ aV.getD (2 * n) 0) :
    ∃ s1 s2,
      forEach (SubdivideFace.linkFace aQfv ((List.range n).map (SubdivideFace.faceLaths N)) n)
        (List.range n) sc = some s1 ∧
      forEach (SubdivideFace.linkEdge ((List.range n).map (SubdivideFace.faceLaths N)))
        (List.range n) s1 = some s2 ∧
      s2.Valid ∧
      LinkRel (fun h => N ≤ h ∨ ∃ j, j < 2 * n ∧ sc.VertexIndex h = some (aV.getD j 0))
        (fun h => h ∈ aQfv) sc s2 ∧
      (∀ j, j < n → s2.cv (N + (4 * j + 2)) = some (some (N + (4 * ((j + 1) % n) + 2)))) ∧
      (∀ j, j < n → (s2.lath (aQfv.getD j 0)).map CqLath.m_pFaceVertex =
        some (some (N + (4 * j + 2)))) := by
  have hviA : ∀ j, j < n → sc.VertexIndex (N + 4 * j) = some (aV.getD j 0) := fun j hj =>
    hvi j 0 hj (by omega)
  have hviC : ∀ j, j < n → sc.VertexIndex (N + (4 * j + 2)) = some (aV.getD (2 * n) 0) :=
    fun j hj => hvi j 2 hj (by omega)
  have hviD : ∀ j, j < n → sc.VertexIndex (N + (4 * j + 3)) = some (aV.getD (j + n) 0) :=
    fun j hj => hvi j 3 hj (by omega)
  -- the first loop
  obtain ⟨s1, e1, hv1, hr1, hcv1, hface1⟩ := forEach_range
    (SubdivideFace.linkFace aQfv ((List.range n).map (SubdivideFace.faceLaths N)) n)
    (fun i st => st.Valid ∧
      LinkRel (fun h => N ≤ h ∨ ∃ j, j < 2 * n ∧ sc.VertexIndex h = some (aV.getD j 0))
        (fun h => h ∈ aQfv) sc st ∧
      (∀ j, j < i → st.cv (N + (4 * j + 2)) = some (some (N + (4 * ((j + 1) % n) + 2)))) ∧
      (∀ j, j < i → (st.lath (aQfv.getD j 0)).map CqLath.m_pFaceVertex =
        some (some (N + (4 * j + 2))))) n
    (fun i hi st ⟨hvs, hrs, hcvs, hfs⟩ => by
      have hm : (i + 1) % n < n := Nat.mod_lt _ (by omega)
      have hl := hrs.link_length
      have hvis : ∀ x, st.VertexIndex x = sc.VertexIndex x :=
        fun x => VertexIndex_of_dropCF hrs.same x
      have hqi : aQfv.getD i 0 < N := hq _ (getD_mem_of_lt aQfv i 0 (by omega))
      obtain ⟨st', e', hv', hr', hcv', hf'⟩ := SubdivideFace.linkFace_spec (n := n) hvs
        (getElem?_getD_of_lt aQfv i 0 (by omega)) (SubdivideFace.faces_getElem? N n i hi)
        (SubdivideFace.faces_getElem? N n _ hm)
        (show aQfv.getD i 0 < st.m_apLaths.length by omega)
        (show N + 4 * i < st.m_apLaths.length by omega)
        (show N + 4 * i + 1 < st.m_apLaths.length by omega)
        (show N + 4 * i + 2 < st.m_apLaths.length by omega)
        (show N + 4 * i + 3 < st.m_apLaths.length by omega)
        (show N + 4 * ((i + 1) % n) + 2 < st.m_apLaths.length by omega)
        (show N + 4 * ((i + 1) % n) + 3 < st.m_apLaths.length by omega)
      have hne : st.VertexIndex (N + 4 * i + 2) ≠ st.VertexIndex (N + 4 * i) := by
        rw [hvis, hvis, Nat.add_assoc, hviC i hi, hviA i hi]
        intro h
        exact hT i (by omega) (Option.some.inj h).symm
      refine ⟨st', e', hv', hrs.trans (hr'.mono _ _ ?_ ?_), ?_, ?_⟩
      · intro h hh
        rcases hh with rfl | rfl | hh
        · exact Or.inl (by simp only [SubdivideFace.faceLaths]; omega)
        · exact Or.inl (by simp only [SubdivideFace.faceLaths]; omega)
        · refine Or.inr ⟨i, by omega, ?_⟩
          rw [← hvis h, hh]
          show st.VertexIndex (N + 4 * i) = _
          rw [hvis, hviA i hi]
      · intro h hh
        rw [hh]
        exact getD_mem_of_lt aQfv i 0 (by omega)
      · intro j hj
        by_cases hji : j = i
        · subst hji
          have := hcv' hne
          simp only [SubdivideFace.faceLaths] at this
          rw [Nat.add_assoc, Nat.add_assoc] at this
          exact this
        · rw [hr'.cvFrame]
          · exact hcvs j (by omega)
          · simp only [SubdivideFace.faceLaths]
            intro hh
            rcases hh with hh | hh | hh
            · omega
            · omega
            · rw [hvis, hvis, hviC j (by omega), hviA i hi] at hh
              exact hT i (by omega) (Option.some.inj hh).symm
      · intro j hj
        by_cases hji : j = i
        · subst hji
          simp only [SubdivideFace.faceLaths] at hf'
          rw [Nat.add_assoc] at hf'
          exact hf'
        · rw [hr'.faceFrame]
          · exact hfs j (by omega)
          · intro hh
            exact hji (getD_inj_of_nodup hnd (by omega) (by omega) hh))
    sc ⟨hv, LinkRel.refl _ _ sc, fun j hj => by omega, fun j hj => by omega⟩
  -- the second loop
  obtain ⟨s2, e2, hv2, hr2, hcv2, hface2⟩ := forEach_range
    (SubdivideFace.linkEdge ((List.range n).map (SubdivideFace.faceLaths N)))
    (fun _ st => st.Valid ∧
      LinkRel (fun h => N ≤ h ∨ ∃ j, j < 2 * n ∧ sc.VertexIndex h = some (aV.getD j 0))
        (fun h => h ∈ aQfv) sc st ∧
      (∀ j, j < n → st.cv (N + (4 * j + 2)) = some (some (N + (4 * ((j + 1) % n) + 2)))) ∧
      (∀ j, j < n → (st.lath (aQfv.getD j 0)).map CqLath.m_pFaceVertex =
        some (some (N + (4 * j + 2))))) n
    (fun i hi st ⟨hvs, hrs, hcvs, hfs⟩ => by
      have hl := hrs.link_length
      have hvis : ∀ x, st.VertexIndex x = sc.VertexIndex x :=
        fun x => VertexIndex_of_dropCF hrs.same x
      obtain ⟨st', e', hv', hr'⟩ := SubdivideFace.linkEdge_spec hvs
        (SubdivideFace.faces_getElem? N n i hi)
        (show N + 4 * i < st.m_apLaths.length by omega)
        (show N + 4 * i + 1 < st.m_apLaths.length by omega)
        (show N + 4 * i + 3 < st.m_apLaths.length by omega)
      refine ⟨st', e', hv', hrs.trans (hr'.mono _ _ ?_ ?_), ?_, ?_⟩
      · intro h hh
        rcases hh with rfl | hh
        · exact Or.inl (by simp only [SubdivideFace.faceLaths]; omega)
        · refine Or.inr ⟨i + n, by omega, ?_⟩
          rw [← hvis h, hh]
          show st.VertexIndex (N + 4 * i + 3) = _
          rw [hvis, Nat.add_assoc, hviD i hi]
      · intro h hh
        exact hh.elim
      · intro j hj
        rw [hr'.cvFrame]
        · exact hcvs j hj
        · simp only [SubdivideFace.faceLaths]
          intro hh
          rcases hh with hh | hh
          · omega
          · rw [hvis, hvis, hviC j hj, Nat.add_assoc, hviD i hi] at hh
            exact hT (i + n) (by omega) (Option.some.inj hh).symm
      · intro j hj
        rw [hr'.faceFrame _ (fun hh => hh)]
        exact hfs j hj)
    s1 ⟨hv1, hr1, hcv1, hface1⟩
  exact ⟨s1, s2, e1, e2, hv2, hr2, hcv2, hface2⟩

end CqSubdivision2
end Aqsis

namespace Aqsis
namespace CqSubdivision2

/-! ## The vertex array of a refinement -/

theorem SubdivideFace.edgeReuse_lt {s : CqSubdivision2} (hv : s.Valid) {q v : Nat}
    (e : SubdivideFace.edgeReuse s q = some (some v)) : v < s.m_aapVertices.length := by
  unfold SubdivideFace.edgeReuse at e
  cases h1 : s.ec q with
  | none => rw [h1] at e; cases e
  | some o =>
    rw [h1] at e
    cases o with
    | none => cases e
    | some x =>
      simp only at e
      cases h2 : s.lath x with
      | none => rw [h2] at e; cases e
      | some le =>
        rw [h2] at e
        simp only at e
        cases h3 : le.m_pMidVertex with
        | none => rw [h3] at e; cases e
        | some m =>
          rw [h3] at e
          simp only at e
          cases h4 : s.VertexIndex m with
          | none => rw [h4] at e; cases e
          | some w =>
            rw [h4] at e
            simp only [Option.map_some', Option.some.injEq] at e
            subst e
            exact hv.vertex_lt h4

theorem SubdivideFace.cornerReuse_lt {s : CqSubdivision2} (hv : s.Valid) {q v : Nat}
    (e : SubdivideFace.cornerReuse s q = some (some v)) : v < s.m_aapVertices.length := by
  unfold SubdivideFace.cornerReuse at e
  cases h2 : s.lath q with
  | none => rw [h2] at e; cases e
  | some lq =>
    rw [h2] at e
    simp only at e
    cases h3 : lq.m_pChildVertex with
    | none => rw [h3] at e; cases e
    | some c =>
      rw [h3] at e
      simp only at e
      cases h4 : s.VertexIndex c with
      | none => rw [h4] at e; cases e
      | some w =>
        rw [h4] at e
        simp only [Option.map_some', Option.some.injEq] at e
        subst e
        exact hv.vertex_lt h4

theorem Valid.cv_some {s : CqSubdivision2} (_hv : s.Valid) {h : Nat}
    (hh : h < s.m_apLaths.length) : ∃ o, s.cv h = some o := by
  unfold cv lath
  rw [List.getElem?_eq_getElem hh]
  exact ⟨_, rfl⟩

theorem Valid.cv_lt {s : CqSubdivision2} (hv : s.Valid) {h c : Nat}
    (e : s.cv h = some (some c)) : c < s.m_apLaths.length := by
  unfold cv at e
  cases hl : s.lath h with
  | none => rw [hl] at e; cases e
  | some l =>
    rw [hl] at e
    simp only [Option.map_some', Option.some.injEq] at e
    exact (hv.lath_ptr hl).1 c e

theorem SubdivideFace.edgeReuse_some {s : CqSubdivision2} (hv : s.Valid) {q : Nat}
    (hq : q < s.m_apLaths.length) : SubdivideFace.edgeReuse s q ≠ none := by
  unfold SubdivideFace.edgeReuse ec
  obtain ⟨o, ho⟩ := hv.cv_some hq
  rw [ho]
  cases o with
  | none => simp
  | some c =>
    have hc := hv.cv_lt ho
    obtain ⟨e, he, hel⟩ := hv.cfD_some hc
    simp only [cf_of_cfD he]
    have hle : (s.lath e).isSome := (s.lath_isSome_iff e).mpr hel
    cases hl : s.lath e with
    | none => rw [hl] at hle; cases hle
    | some le =>
      simp only
      cases hm : le.m_pMidVertex with
      | none => simp
      | some m =>
        simp only
        have hml := (hv.lath_ptr hl).2.2.2.1 m hm
        obtain ⟨w, hw⟩ := VertexIndex_some hml
        rw [hw]
        simp

theorem SubdivideFace.cornerReuse_some {s : CqSubdivision2} (hv : s.Valid) {q : Nat}
    (hq : q < s.m_apLaths.length) : SubdivideFace.cornerReuse s q ≠ none := by
  unfold SubdivideFace.cornerReuse
  have hle : (s.lath q).isSome := (s.lath_isSome_iff q).mpr hq
  cases hl : s.lath q with
  | none => rw [hl] at hle; cases hle
  | some lq =>
    simp only
    cases hm : lq.m_pChildVertex with
    | none => simp
    | some c =>
      simp only
      have hml := (hv.lath_ptr hl).2.2.1 c hm
      obtain ⟨w, hw⟩ := VertexIndex_some hml
      rw [hw]
      simp

/-- The point loops succeed in a well-formed topology. -/
theorem SubdivideFace.aVertices_some {s : CqSubdivision2} (hv : s.Valid) {aQfv : List Nat}
    (hq : ∀ q ∈ aQfv, q < s.m_apLaths.length) :
    ∃ kv, SubdivideFace.aVertices s aQfv = some kv := by
  unfold SubdivideFace.aVertices
  obtain ⟨rE, hE⟩ := SubdivideFace.pointsFold_some (SubdivideFace.edgeReuse s)
    s.m_aapVertices.length aQfv 1 (fun q hq' => SubdivideFace.edgeReuse_some hv (hq q hq'))
  obtain ⟨rV, hV⟩ := SubdivideFace.pointsFold_some (SubdivideFace.cornerReuse s)
    s.m_aapVertices.length aQfv rE.1 (fun q hq' => SubdivideFace.cornerReuse_some hv (hq q hq'))
  rw [hE]
  simp only [Option.some_bind]
  rw [hV]
  exact ⟨_, rfl⟩

/-- The shape of the vertex array: corner children, edge points, face point. -/
theorem SubdivideFace.aVertices_parts {s : CqSubdivision2} {aQfv : List Nat} {k : Nat}
    {aV : List Nat} (e : SubdivideFace.aVertices s aQfv = some (k, aV)) :
    ∃ kE vE vV,
      SubdivideFace.pointsFold (SubdivideFace.edgeReuse s) s.m_aapVertices.length aQfv 1 =
        some (kE, vE) ∧
      SubdivideFace.pointsFold (SubdivideFace.cornerReuse s) s.m_aapVertices.length aQfv kE =
        some (k, vV) ∧
      aV = vV ++ vE ++ [s.m_aapVertices.length] := by
  unfold SubdivideFace.aVertices at e
  cases hE : SubdivideFace.pointsFold (SubdivideFace.edgeReuse s) s.m_aapVertices.length aQfv 1
    with
  | none => rw [hE] at e; cases e
  | some rE =>
    rw [hE] at e
    simp only [Option.some_bind] at e
    cases hV : SubdivideFace.pointsFold (SubdivideFace.cornerReuse s) s.m_aapVertices.length aQfv
      rE.1 with
    | none => rw [hV] at e; cases e
    | some rV =>
      rw [hV] at e
      simp only [Option.map_some', Option.some.injEq, Prod.mk.injEq] at e
      obtain ⟨rfl, rfl⟩ := e
      exact ⟨rE.1, rE.2, rV.2, rfl, hV, rfl⟩

/-- The entries of the vertex array. -/
theorem SubdivideFace.aVertices_spec {s : CqSubdivision2} (hv : s.Valid) {aQfv : List Nat}
    {k : Nat} {aV : List Nat} (e : SubdivideFace.aVertices s aQfv = some (k, aV)) :
    aV.length = 2 * aQfv.length + 1 ∧ 1 ≤ k ∧
      (∀ v ∈ aV, v < s.m_aapVertices.length + k) ∧
      aV.getD (2 * aQfv.length) 0 = s.m_aapVertices.length ∧
      (∀ j, j < 2 * aQfv.length → aV.getD j 0 ≠ s.m_aapVertices.length) := by
  obtain ⟨kE, vE, vV, hE, hV, rfl⟩ := SubdivideFace.aVertices_parts e
  obtain ⟨hE1, hE2, hE3⟩ := SubdivideFace.pointsFold_spec _ _ _ _ _ _ hE
  obtain ⟨hV1, hV2, hV3⟩ := SubdivideFace.pointsFold_spec _ _ _ _ _ _ hV
  have hVe : ∀ v ∈ vV, v < s.m_aapVertices.length + k ∧ v ≠ s.m_aapVertices.length := by
    intro v hvm
    obtain ⟨i, hi, hget⟩ := List.getElem_of_mem hvm
    have hiq : i < aQfv.length := by omega
    obtain ⟨w, hw, hcase⟩ := hV3 i aQfv[i] (List.getElem?_eq_getElem hiq)
    rw [List.getElem?_eq_getElem hi, hget] at hw
    cases hw
    rcases hcase with hc | ⟨_, hlo, hhi⟩
    · have := SubdivideFace.cornerReuse_lt hv hc
      omega
    · omega
  have hEe : ∀ v ∈ vE, v < s.m_aapVertices.length + k ∧ v ≠ s.m_aapVertices.length := by
    intro v hvm
    obtain ⟨i, hi, hget⟩ := List.getElem_of_mem hvm
    have hiq : i < aQfv.length := by omega
    obtain ⟨w, hw, hcase⟩ := hE3 i aQfv[i] (List.getElem?_eq_getElem hiq)
    rw [List.getElem?_eq_getElem hi, hget] at hw
    cases hw
    rcases hcase with hc | ⟨_, hlo, hhi⟩
    · have := SubdivideFace.edgeReuse_lt hv hc
      omega
    · omega
  refine ⟨by simp [hE2, hV2]; omega, by omega, ?_, ?_, ?_⟩
  · intro v hvm
    simp only [List.mem_append, List.mem_singleton] at hvm
    rcases hvm with (h1 | h1) | h1
    · exact (hVe v h1).1
    · exact (hEe v h1).1
    · omega
  · rw [List.getD_eq_getElem?_getD,
      List.getElem?_append_right (by simp [hE2, hV2]; omega)]
    simp [hE2, hV2]
    have : 2 * aQfv.length - (aQfv.length + aQfv.length) = 0 := by omega
    rw [this]
    rfl
  · intro j hj
    have hjl : j < (vV ++ vE).length := by simp [hE2, hV2]; omega
    rw [List.getD_eq_getElem?_getD, List.getElem?_append_left hjl,
      List.getElem?_eq_getElem hjl]
    simp only [Option.getD_some]
    have hm : (vV ++ vE)[j] ∈ vV ++ vE := List.getElem_mem _
    rcases List.mem_append.mp hm with h1 | h1
    · exact (hVe _ h1).2
    · exact (hEe _ h1).2

end CqSubdivision2
end Aqsis

namespace Aqsis
namespace CqSubdivision2

/-! ## The child-vertex and mid-vertex pointers after the lath-creating loop -/

theorem vertexChain.forward_lt (s : CqSubdivision2) (start : Nat) :
    ∀ (fuel p : Nat) (r : List Nat × Bool), vertexChain.forward s start fuel p = some r →
      ∀ K ∈ r.1, K < s.m_apLaths.length := by
  intro fuel
  induction fuel with
  | zero => intro p r e; cases e
  | succ f ih =>
    intro p r e K hK
    simp only [vertexChain.forward] at e
    cases hcv : s.cv p with
    | none => rw [hcv] at e; cases e
    | some o =>
      have hp : p < s.m_apLaths.length := by
        unfold cv at hcv
        cases hl : s.lath p with
        | none => rw [hl] at hcv; cases hcv
        | some l => exact lath_lt hl
      rw [hcv] at e
      cases o with
      | none =>
        simp only [Option.some.injEq] at e
        subst e
        simp only [List.mem_singleton] at hK
        omega
      | some q =>
        simp only at e
        by_cases hq : q = start
        · simp only [hq, if_true, Option.some.injEq] at e
          subst e
          simp only [List.mem_singleton] at hK
          omega
        · simp only [hq, if_false] at e
          cases hf : vertexChain.forward s start f q with
          | none => rw [hf] at e; cases e
          | some r' =>
            rw [hf] at e
            simp only [Option.map_some', Option.some.injEq] at e
            subst e
            rcases List.mem_cons.mp hK with rfl | h1
            · exact hp
            · exact ih q r' hf K h1

theorem vertexChain.backward_lt (s : CqSubdivision2) (start : Nat) :
    ∀ (fuel : Nat) (p : Option Nat) (r : List Nat), vertexChain.backward s start fuel p = some r →
      ∀ K ∈ r, K < s.m_apLaths.length := by
  intro fuel
  induction fuel with
  | zero => intro p r e; cases e
  | succ f ih =>
    intro p r e K hK
    cases p with
    | none =>
      simp only [vertexChain.backward, Option.some.injEq] at e
      subst e
      cases hK
    | some p =>
      simp only [vertexChain.backward] at e
      by_cases hp : p = start
      · simp [hp] at e
      · simp only [hp, if_false] at e
        cases hc : s.ccv p with
        | none => rw [hc] at e; cases e
        | some o =>
          have hpl : p < s.m_apLaths.length := by
            unfold ccv at hc
            cases hcf : s.cfD p with
            | none => rw [hcf] at hc; cases hc
            | some c =>
              unfold cfD at hcf
              cases hl : s.lath p with
              | none => rw [hl] at hcf; cases hcf
              | some l => exact lath_lt hl
          rw [hc] at e
          simp only at e
          cases hb : vertexChain.backward s start f o with
          | none => rw [hb] at e; cases e
          | some r' =>
            rw [hb] at e
            simp only [Option.map_some', Option.some.injEq] at e
            subst e
            rcases List.mem_cons.mp hK with rfl | h1
            · exact hpl
            · exact ih o r' hb K h1

/-- The laths of a vertex-chain are laths of the topology. -/
theorem vertexChain_lt {s : CqSubdivision2} {q : Nat} {chain : List Nat}
    (e : s.vertexChain q = some chain) : ∀ K ∈ chain, K < s.m_apLaths.length := by
  unfold vertexChain at e
  cases hf : vertexChain.forward s q (s.m_apLaths.length + 1) q with
  | none => rw [hf] at e; cases e
  | some r =>
    rw [hf] at e
    obtain ⟨fw, b⟩ := r
    have hfw := vertexChain.forward_lt s q _ q _ hf
    cases b with
    | true =>
      simp only [Option.some.injEq] at e
      subst e
      exact hfw
    | false =>
      simp only at e
      cases hc : s.ccv q with
      | none => rw [hc] at e; cases e
      | some p =>
        rw [hc] at e
        simp only [Option.some_bind] at e
        cases hb : vertexChain.backward s q (s.m_apLaths.length + 1) p with
        | none => rw [hb] at e; cases e
        | some bw =>
          rw [hb] at e
          simp only [Option.map_some', Option.some.injEq] at e
          subst e
          intro K hK
          rcases List.mem_append.mp hK with h1 | h1
          · exact hfw K h1
          · exact vertexChain.backward_lt s q _ p bw hb K h1

theorem SubdivideFace.Marked.marked_zero (s : CqSubdivision2) (aQfv : List Nat) :
    SubdivideFace.Marked s aQfv 0 (s, [], []) :=
  ⟨fun j hj => by omega, fun _ _ _ => rfl, fun j hj => by omega⟩

/-- The step of an iteration keeps the description of the pointers. -/
theorem SubdivideFace.Marked.marked_step {s : CqSubdivision2} {pFace : Nat} {aQfv aV : List Nat}
    {n i : Nat} {st st' : SubdivideFace.CreateState} {chain : List Nat}
    (hnd : aQfv.Nodup) (hi : i < aQfv.length) (hq : ∀ q ∈ aQfv, q < s.m_apLaths.length)
    (hc : SubdivideFace.Created s.m_apLaths s.m_aapVertices s.m_apFacets s.aUserParams pFace aV
      n i st)
    (hm : SubdivideFace.Marked s aQfv i st)
    (hch : (SubdivideFace.allocated pFace (aV.getD i 0) (aV.getD ((i + 1) % n + n) 0)
        (aV.getD (2 * n) 0) (aV.getD (i + n) 0) st.1).vertexChain (aQfv.getD i 0) = some chain)
    (hs : SubdivideFace.Step pFace (aQfv.getD i 0) (aV.getD i 0) (aV.getD ((i + 1) % n + n) 0)
      (aV.getD (2 * n) 0) (aV.getD (i + n) 0) chain st st') :
    SubdivideFace.Marked s aQfv (i + 1) st' := by
  have hlen := hc.created_length
  have hA : (SubdivideFace.allocated pFace (aV.getD i 0) (aV.getD ((i + 1) % n + n) 0)
      (aV.getD (2 * n) 0) (aV.getD (i + n) 0) st.1).m_apLaths.map CqLath.dropCM =
      s.m_apLaths.map CqLath.dropCM ++
        (SubdivideFace.children pFace s.m_apLaths.length aV n i ++
          SubdivideFace.four pFace st.1.m_apLaths.length (aV.getD i 0)
            (aV.getD ((i + 1) % n + n) 0) (aV.getD (2 * n) 0) (aV.getD (i + n) 0)) := by
    simp only [SubdivideFace.allocated, List.map_append, hc.laths,
      SubdivideFace.four_dropCM, List.append_assoc]
  -- an old lath after the step
  have hold : ∀ h, h < s.m_apLaths.length → ∃ l l', st.1.lath h = some l ∧
      st'.1.lath h = some l' ∧
      l'.m_pMidVertex = (if h = aQfv.getD i 0 then some (st.1.m_apLaths.length + 3)
        else l.m_pMidVertex) ∧
      l'.m_pChildVertex = (if h ∈ chain then some st.1.m_apLaths.length
        else l.m_pChildVertex) := by
    intro h hh
    have hlt : h < st.1.m_apLaths.length := by omega
    have h1 := hs.laths h
    rw [List.getElem?_append_left hlt, List.getElem?_eq_getElem hlt] at h1
    refine ⟨st.1.m_apLaths[h], _, ?_, h1, rfl, ?_⟩
    · unfold lath
      exact List.getElem?_eq_getElem hlt
    · by_cases hc' : h ∈ chain
      · simp only [hc', if_true]
      · simp only [hc', if_false]
  refine ⟨?_, ?_, ?_⟩
  · intro j hj
    have hqj : aQfv.getD j 0 < s.m_apLaths.length := hq _ (getD_mem_of_lt aQfv j 0 (by omega))
    obtain ⟨l, l', hl, hl', hmid, _⟩ := hold _ hqj
    rw [hl']
    simp only [Option.map_some', hmid]
    by_cases hji : j = i
    · subst hji
      simp only [if_true, hlen, Nat.add_assoc]
    · have hne : aQfv.getD j 0 ≠ aQfv.getD i 0 := fun e =>
        hji (getD_inj_of_nodup hnd (by omega) hi e)
      have := hm.mid j (by omega)
      rw [hl] at this
      simp only [Option.map_some', hne, if_false] at this ⊢
      exact this
  · intro h hne hh
    obtain ⟨l, l', hl, hl', hmid, _⟩ := hold _ hh
    rw [hl']
    have := hm.midFrame h (fun j hj => hne j (by omega)) hh
    rw [hl] at this
    simp only [Option.map_some', hmid, hne i (by omega), if_false] at this ⊢
    exact this
  · intro j hj chainj hcj hlater K hK
    have hKl := vertexChain_lt hcj K hK
    obtain ⟨l, l', hl, hl', _, hchild⟩ := hold _ hKl
    rw [hl']
    simp only [Option.map_some', hchild]
    by_cases hji : j = i
    · subst hji
      have := vertexChain_of_append hA hcj
      rw [hch] at this
      cases this
      simp only [hK, if_true, hlen]
    · obtain ⟨chain2, hc2, hdis⟩ := hlater i (by omega) (by omega)
      have := vertexChain_of_append hA hc2
      rw [hch] at this
      cases this
      have hKn : K ∉ chain := fun hKc => hdis hK hKc
      have hprev := hm.child j (by omega) chainj hcj
        (fun j2 h1 h2 => hlater j2 h1 (by omega)) K hK
      rw [hl] at hprev
      simp only [Option.map_some', hKn, if_false] at hprev ⊢
      exact hprev

/-- The description of the pointers after the lath-creating loop. -/
theorem SubdivideFace.marked_of_loop {s : CqSubdivision2} {pFace : Nat} {aQfv aV : List Nat}
    {st : SubdivideFace.CreateState}
    (hV : aV.length = 2 * aQfv.length + 1)
    (hlt : ∀ v ∈ aV, v < s.m_aapVertices.length)
    (hptr : ∀ l ∈ s.m_apLaths,
      (∀ c, l.m_pChildVertex = some c → c < s.m_apLaths.length) ∧
      (∀ m, l.m_pMidVertex = some m → m < s.m_apLaths.length))
    (hnd : aQfv.Nodup) (hq : ∀ q ∈ aQfv, q < s.m_apLaths.length)
    (e : forEach (SubdivideFace.createFace pFace aQfv aV aQfv.length) (List.range aQfv.length)
      (s, [], []) = some st) :
    SubdivideFace.Marked s aQfv aQfv.length st := by
  have := forEach_range_inv (SubdivideFace.createFace pFace aQfv aV aQfv.length)
    (fun i st => SubdivideFace.Created s.m_apLaths s.m_aapVertices s.m_apFacets s.aUserParams
      pFace aV aQfv.length i st ∧ SubdivideFace.Marked s aQfv i st) aQfv.length
    (fun i hi st1 st2 hc e1 => by
      obtain ⟨chain, hch, hstep⟩ := SubdivideFace.Created.iter rfl hV hlt hi hc.1 e1
      exact ⟨hc.1.created_step hstep, SubdivideFace.Marked.marked_step hnd hi hq hc.1 hc.2 hch hstep⟩)
    (s, [], []) st
    ⟨SubdivideFace.Created.created_zero s pFace aV aQfv.length hptr, SubdivideFace.Marked.marked_zero s aQfv⟩ e
  exact this.2

end CqSubdivision2
end Aqsis

namespace Aqsis
namespace CqSubdivision2

/-! ## The refinement of one face -/

theorem Valid.qfv {s : CqSubdivision2} (hv : s.Valid) {pFace : Nat} {aQfv : List Nat}
    (e : s.Qfv pFace = some aQfv) :
    pFace < s.m_apLaths.length ∧ s.IsRing aQfv ∧ ∃ tl, aQfv = pFace :: tl := by
  have hp : pFace < s.m_apLaths.length := by
    unfold Qfv at e
    cases hc : s.cfD pFace with
    | none => rw [hc] at e; cases e
    | some c =>
      unfold cfD at hc
      cases hl : s.lath pFace with
      | none => rw [hl] at hc; cases hc
      | some l => exact lath_lt hl
  obtain ⟨ring, hr, hm⟩ := hv.rings pFace hp
  obtain ⟨tl, hr', _⟩ := hr.ring_of_mem hm
  have := Qfv_of_ring hr'
  rw [e] at this
  cases this
  exact ⟨hp, hr', tl, rfl⟩

theorem Valid.childMid {s : CqSubdivision2} (hv : s.Valid) :
    ∀ l ∈ s.m_apLaths,
      (∀ c, l.m_pChildVertex = some c → c < s.m_apLaths.length) ∧
      (∀ m, l.m_pMidVertex = some m → m < s.m_apLaths.length) :=
  fun l hl => ⟨(hv.ptr l hl).2.2.1, (hv.ptr l hl).2.2.2.1⟩

/-- From a successful lath-creating loop on, the refinement succeeds, and
what it does. -/
theorem SubdivideFace.refine_of_created {s : CqSubdivision2} (hv : s.Valid) {pFace : Nat}
    {aQfv : List Nat} {k : Nat} {aV : List Nat} {st : SubdivideFace.CreateState}
    (hq : s.Qfv pFace = some aQfv) (hp : SubdivideFace.aVertices s aQfv = some (k, aV))
    (hc : forEach (SubdivideFace.createFace pFace aQfv aV aQfv.length)
      (List.range aQfv.length) (growBy k s, [], []) = some st) :
    ∃ s', SubdivideFace.refine s pFace = some (s', st.2.2) ∧
      SubdivideFace.Refined s pFace s' st.2.2 aQfv k aV st.1 := by
  obtain ⟨hpl, hring, tl, htl⟩ := hv.qfv hq
  obtain ⟨hV, hk, hlt, hTT, hne⟩ := SubdivideFace.aVertices_spec hv hp
  have hv0 := hv.growBy k
  have hlt0 : ∀ v ∈ aV, v < (growBy k s).m_aapVertices.length := by
    intro v hvm
    rw [growBy_table_length]
    exact hlt v hvm
  have hcr := SubdivideFace.created_of_loop (s := growBy k s) rfl hV hlt0 hv0.childMid hc
  have hvC := SubdivideFace.Created.created_valid hv0 (show pFace < (growBy k s).m_apLaths.length from hpl)
    hV hlt0 hcr
  have hlen : st.1.m_apLaths.length = s.m_apLaths.length + 4 * aQfv.length := hcr.created_length
  obtain ⟨s1, s2, e1, e2, hv2, hr2, hcv2, hf2⟩ := SubdivideFace.linked hvC
    (N := s.m_apLaths.length) (n := aQfv.length) aQfv aV hlen rfl
    (fun q hq' => hring.lt q hq') hring.nodup
    (fun j k' hj hk' => hcr.created_VertexIndex_new hj hk')
    (fun j hj => by rw [hTT]; exact hne j hj)
  have hmk := SubdivideFace.marked_of_loop (s := growBy k s) hV hlt0 hv0.childMid hring.nodup
    (fun q hq' => hring.lt q hq') hc
  have hfaces : st.2.1 =
      (List.range aQfv.length).map (SubdivideFace.faceLaths s.m_apLaths.length) := hcr.faces
  refine ⟨s2, ?_, ?_⟩
  · rw [SubdivideFace.refine_eq hv.params, hq]
    simp only [Option.some_bind]
    rw [hp]
    simp only [Option.some_bind]
    rw [hc]
    simp only [Option.some_bind]
    rw [hfaces, e1]
    simp only [Option.some_bind]
    rw [e2]
    rfl
  · exact ⟨hq, hring, hp,
      ⟨hcr.laths, hcr.table, hcr.facets, hcr.params, rfl, hcr.subs, hcr.ptr⟩,
      ⟨hmk.mid, hmk.midFrame, fun j hj chain hcj hlater K hK =>
        hmk.child j hj chain ((vertexChain_of_dropCM (s := s) (t := growBy k s) rfl _).trans hcj)
          (fun j2 h1 h2 => by
            obtain ⟨chain2, hc2, hd⟩ := hlater j2 h1 h2
            exact ⟨chain2, (vertexChain_of_dropCM (s := s) (t := growBy k s) rfl _).trans hc2,
              hd⟩) K hK⟩,
      hvC, hv2, hr2, hcv2, hf2⟩

/-- What a successful refinement has done. -/
theorem SubdivideFace.refine_spec {s : CqSubdivision2} (hv : s.Valid) {pFace : Nat}
    {s' : CqSubdivision2} {sub : List Nat}
    (e : SubdivideFace.refine s pFace = some (s', sub)) :
    ∃ aQfv k aV sc, SubdivideFace.Refined s pFace s' sub aQfv k aV sc := by
  have e0 := e
  rw [SubdivideFace.refine_eq hv.params] at e
  cases hq : s.Qfv pFace with
  | none => rw [hq] at e; cases e
  | some aQfv =>
    rw [hq] at e
    simp only [Option.some_bind] at e
    cases hp : SubdivideFace.aVertices s aQfv with
    | none => rw [hp] at e; cases e
    | some kv =>
      rw [hp] at e
      simp only [Option.some_bind] at e
      cases hc : forEach (SubdivideFace.createFace pFace aQfv kv.2 aQfv.length)
          (List.range aQfv.length) (growBy kv.1 s, [], []) with
      | none => rw [hc] at e; cases e
      | some st =>
        obtain ⟨s2, e2, href⟩ := SubdivideFace.refine_of_created hv hq
          (show SubdivideFace.aVertices s aQfv = some (kv.1, kv.2) from hp) hc
        rw [e0] at e2
        simp only [Option.some.injEq, Prod.mk.injEq] at e2
        obtain ⟨rfl, rfl⟩ := e2
        exact ⟨aQfv, kv.1, kv.2, st.1, href⟩

/-- The lath-creating loop succeeds when the walk round the vertex of every
corner does. -/
theorem SubdivideFace.create_some {s : CqSubdivision2} (hv : s.Valid) (pFace : Nat)
    {aQfv aV : List Nat} (hV : aV.length = 2 * aQfv.length + 1)
    (hlt : ∀ v ∈ aV, v < s.m_aapVertices.length)
    (hq : ∀ q ∈ aQfv, q < s.m_apLaths.length)
    (hch : ∀ q ∈ aQfv, ∃ chain, s.vertexChain q = some chain) :
    ∃ st, forEach (SubdivideFace.createFace pFace aQfv aV aQfv.length)
      (List.range aQfv.length) (s, [], []) = some st := by
  obtain ⟨st, e, _⟩ := forEach_range (SubdivideFace.createFace pFace aQfv aV aQfv.length)
    (fun i st => SubdivideFace.Created s.m_apLaths s.m_aapVertices s.m_apFacets s.aUserParams
      pFace aV aQfv.length i st) aQfv.length
    (fun i hi st hc => by
      have hm : (i + 1) % aQfv.length < aQfv.length := Nat.mod_lt _ (by omega)
      have htl : st.1.m_aapVertices.length = s.m_aapVertices.length := by
        rw [hc.table, SubdivideFace.tableAfter_length]
      have hqm := getD_mem_of_lt aQfv i 0 hi
      obtain ⟨chain, hchain⟩ := hch _ hqm
      have hl := hc.created_length
      have hA : (SubdivideFace.allocated pFace (aV.getD i 0)
          (aV.getD ((i + 1) % aQfv.length + aQfv.length) 0) (aV.getD (2 * aQfv.length) 0)
          (aV.getD (i + aQfv.length) 0) st.1).m_apLaths.map CqLath.dropCM =
          s.m_apLaths.map CqLath.dropCM ++
            (SubdivideFace.children pFace s.m_apLaths.length aV aQfv.length i ++
              SubdivideFace.four pFace st.1.m_apLaths.length (aV.getD i 0)
                (aV.getD ((i + 1) % aQfv.length + aQfv.length) 0)
                (aV.getD (2 * aQfv.length) 0) (aV.getD (i + aQfv.length) 0)) := by
        simp only [SubdivideFace.allocated, List.map_append, hc.laths,
          SubdivideFace.four_dropCM, List.append_assoc]
      have hchain' := vertexChain_of_append hA hchain
      obtain ⟨st', e'⟩ := SubdivideFace.createFace_some pFace aQfv aV aQfv.length i st
        (getElem?_getD_of_lt aV i 0 (by omega)) (getElem?_getD_of_lt aV _ 0 (by omega))
        (getElem?_getD_of_lt aV _ 0 (by omega)) (getElem?_getD_of_lt aV _ 0 (by omega))
        (getElem?_getD_of_lt aQfv i 0 (by omega)) (getElem?_getD_of_lt aQfv _ 0 (by omega))
        (htl ▸ hlt _ (getD_mem_of_lt aV _ 0 (by omega)))
        (htl ▸ hlt _ (getD_mem_of_lt aV _ 0 (by omega)))
        (htl ▸ hlt _ (getD_mem_of_lt aV _ 0 (by omega)))
        (htl ▸ hlt _ (getD_mem_of_lt aV _ 0 (by omega))) hchain'
        (by have := hq _ hqm; omega)
      obtain ⟨chain2, _, hstep⟩ := SubdivideFace.Created.iter rfl hV hlt hi hc e'
      exact ⟨st', e', hc.created_step hstep⟩)
    (s, [], []) (SubdivideFace.Created.created_zero s pFace aV aQfv.length hv.childMid)
  exact ⟨st, e⟩

/-- The refinement of a face succeeds in a well-formed topology when the walk
round the vertex of every corner of the face does. -/
theorem SubdivideFace.refine_some {s : CqSubdivision2} (hv : s.Valid) {pFace : Nat}
    (hp : pFace < s.m_apLaths.length)
    (hch : ∀ aQfv, s.Qfv pFace = some aQfv →
      ∀ q ∈ aQfv, ∃ chain, s.vertexChain q = some chain) :
    ∃ s' sub aQfv k aV sc, SubdivideFace.refine s pFace = some (s', sub) ∧
      SubdivideFace.Refined s pFace s' sub aQfv k aV sc := by
  obtain ⟨ring, hr, hm⟩ := hv.rings pFace hp
  obtain ⟨tl, hr', _⟩ := hr.ring_of_mem hm
  have hq := Qfv_of_ring hr'
  obtain ⟨kv, hkv⟩ := SubdivideFace.aVertices_some hv (fun q hq' => hr'.lt q hq')
  obtain ⟨hV, hk, hlt, hTT, hne⟩ := SubdivideFace.aVertices_spec hv
    (show SubdivideFace.aVertices s (pFace :: tl) = some (kv.1, kv.2) from hkv)
  have hv0 := hv.growBy kv.1
  obtain ⟨st, hst⟩ := SubdivideFace.create_some (s := growBy kv.1 s) hv0 pFace hV
    (fun v hvm => by rw [growBy_table_length]; exact hlt v hvm)
    (fun q hq' => hr'.lt q hq')
    (fun q hq' => by
      obtain ⟨chain, hc⟩ := hch _ hq q hq'
      exact ⟨chain, (vertexChain_of_dropCM (s := s) (t := growBy kv.1 s) rfl q).trans hc⟩)
  obtain ⟨s', e', href⟩ := SubdivideFace.refine_of_created hv hq
    (show SubdivideFace.aVertices s (pFace :: tl) = some (kv.1, kv.2) from hkv) hst
  exact ⟨s', st.2.2, _, _, _, _, e', href⟩

end CqSubdivision2
end Aqsis

namespace Aqsis
namespace CqSubdivision2

/-! ## The ring of laths round a vertex -/

theorem cv_of_cvD {s : CqSubdivision2} {h c : Nat} (e : s.cvD h = some c) :
    s.cv h = some (some c) := by
  unfold cvD at e
  unfold cv
  cases hl : s.lath h with
  | none => rw [hl] at e; cases e
  | some l =>
    rw [hl] at e
    simp only [Option.some_bind] at e
    simp [e]

theorem cvD_of_cv {s : CqSubdivision2} {h c : Nat} (e : s.cv h = some (some c)) :
    s.cvD h = some c := by
  unfold cv at e
  unfold cvD
  cases hl : s.lath h with
  | none => rw [hl] at e; cases e
  | some l =>
    rw [hl] at e
    simp only [Option.map_some', Option.some.injEq] at e
    simpa using e

theorem cvD_lt {s : CqSubdivision2} {h c : Nat} (e : s.cvD h = some c) :
    h < s.m_apLaths.length := by
  unfold cvD at e
  cases hl : s.lath h with
  | none => rw [hl] at e; cases e
  | some l => exact lath_lt hl

/-- The walk of `Qvf` along a chain of vertex-neighbours that ends at the
start. -/
theorem Qvf.qvf_loop_chain (s : CqSubdivision2) (this : Nat) (seg : List Nat) :
    ∀ (fuel : Nat), seg.length < fuel →
      List.Chain' (fun x y => s.cvD x = some y) (seg ++ [this]) → this ∉ seg →
      Qvf.loop s this fuel (some ((seg ++ [this]).headI)) = some (some seg) := by
  induction seg with
  | nil =>
    intro fuel hf _ _
    cases fuel with
    | zero => simp at hf
    | succ f => simp [Qvf.loop]
  | cons x seg' ih =>
    intro fuel hf hch hnot
    cases fuel with
    | zero => simp at hf
    | succ f =>
      have hx : x ≠ this := fun e => hnot (by simp [e])
      have hch' : List.Chain' (fun x y => s.cvD x = some y) (seg' ++ [this]) := by
        simp only [List.cons_append] at hch
        exact List.Chain'.tail hch
      have hnext : s.cvD x = some ((seg' ++ [this]).headI) := by
        simp only [List.cons_append] at hch
        cases seg' with
        | nil => simpa using hch
        | cons y r =>
          simp only [List.cons_append, List.headI_cons]
          exact (List.chain'_cons.mp hch).1
      simp only [List.cons_append, List.headI_cons, Qvf.loop, hx, if_false, cv_of_cvD hnext]
      rw [ih f (by simp at hf; omega) hch' (fun h => hnot (List.mem_cons_of_mem _ h))]
      rfl

theorem Qvf_of_cycle {s : CqSubdivision2} {a : Nat} {tl : List Nat}
    (hr : IsCycle s.cvD (a :: tl)) : s.Qvf a = some (a :: tl) := by
  have hlen : (a :: tl).length ≤ s.m_apLaths.length := by
    have hsub : (a :: tl) ⊆ List.range s.m_apLaths.length := by
      intro h hh
      obtain ⟨c, hc, _⟩ := hr.next_mem h hh
      exact List.mem_range.mpr (cvD_lt hc)
    have := (List.subperm_of_subset hr.2.1 hsub).length_le
    simpa using this
  rw [IsCycle.cycle_cons_iff] at hr
  obtain ⟨hnd, hch⟩ := hr
  have hnot : a ∉ tl := (List.nodup_cons.mp hnd).1
  have hch' : List.Chain' (fun x y => s.cvD x = some y) (tl ++ [a]) := by
    simp only [List.cons_append] at hch
    exact List.Chain'.tail hch
  have hnext : s.cvD a = some ((tl ++ [a]).headI) := by
    simp only [List.cons_append] at hch
    cases tl with
    | nil => simpa using hch
    | cons y r =>
      simp only [List.cons_append, List.headI_cons]
      exact (List.chain'_cons.mp hch).1
  unfold Qvf
  rw [cv_of_cvD hnext]
  simp only
  rw [Qvf.qvf_loop_chain s a tl _ (by simpa using hlen) hch' hnot]

/-- A cycle given by a successor rule on positions. -/
theorem IsCycle.of_range (next : Nat → Option Nat) (g : Nat → Nat) (n : Nat) (hn : 0 < n)
    (hinj : ∀ i j, i < n → j < n → g i = g j → i = j)
    (hnext : ∀ j, j < n → next (g j) = some (g ((j + 1) % n))) :
    IsCycle next ((List.range n).map g) := by
  refine ⟨?_, ?_, ?_, ?_⟩
  · intro h
    have := congrArg List.length h
    simp at this
    omega
  · apply List.Nodup.map_on _ (List.nodup_range n)
    intro i hi j hj e
    exact hinj i j (List.mem_range.mp hi) (List.mem_range.mp hj) e
  · rw [List.chain'_iff_get]
    intro i hi
    simp only [List.length_map, List.length_range] at hi
    simp only [List.get_eq_getElem, List.getElem_map, List.getElem_range]
    rw [hnext i (by omega), Nat.mod_eq_of_lt (by omega)]
  · obtain ⟨m, rfl⟩ : ∃ m, n = m + 1 := ⟨n - 1, by omega⟩
    rw [List.range_succ, List.map_append]
    simp only [List.map_cons, List.map_nil, List.getLast?_append, List.getLast?_singleton]
    change (some (g m)).bind next = _
    simp only [Option.some_bind]
    rw [hnext m (by omega), Nat.mod_self]
    cases m with
    | zero => rfl
    | succ m' =>
      rw [List.range_succ_eq_map]
      rfl

theorem mapM_eq_map {f : Nat → Option Nat} {g : Nat → Nat} {l : List Nat}
    (h : ∀ x ∈ l, f x = some (g x)) : l.mapM f = some (l.map g) := by
  induction l with
  | nil => rfl
  | cons a tl ih =>
    rw [List.mapM_cons, h a (List.mem_cons_self _ _),
      ih (fun x hx => h x (List.mem_cons_of_mem _ hx))]
    rfl

/-- A facet ring of four laths. -/
theorem IsRing.of_four {s : CqSubdivision2} {a b c d : Nat}
    (hd : [a, b, c, d].Nodup) (h1 : s.cfD a = some b) (h2 : s.cfD b = some c)
    (h3 : s.cfD c = some d) (h4 : s.cfD d = some a) : s.IsRing [a, b, c, d] := by
  rw [IsRing.ring_cons_iff]
  refine ⟨hd, ?_⟩
  simp only [List.cons_append, List.nil_append, List.chain'_cons, List.chain'_singleton,
    and_true]
  exact ⟨h1, h2, h3, h4⟩

end CqSubdivision2
end Aqsis

namespace Aqsis
namespace CqSubdivision2

/-! ## The state after a refinement -/

theorem SubdivideFace.Refined.refined_length {s s' : CqSubdivision2} {pFace : Nat} {sub aQfv : List Nat}
    {k : Nat} {aV : List Nat} {sc : CqSubdivision2}
    (hr : SubdivideFace.Refined s pFace s' sub aQfv k aV sc) :
    s'.m_apLaths.length = s.m_apLaths.length + 4 * aQfv.length := by
  rw [hr.link.link_length]
  exact hr.created.created_length

theorem SubdivideFace.Refined.sub_eq {s s' : CqSubdivision2} {pFace : Nat} {sub aQfv : List Nat}
    {k : Nat} {aV : List Nat} {sc : CqSubdivision2}
    (hr : SubdivideFace.Refined s pFace s' sub aQfv k aV sc) :
    sub = (List.range aQfv.length).map (fun j => s.m_apLaths.length + 4 * j) :=
  hr.created.subs

theorem SubdivideFace.Refined.facets {s s' : CqSubdivision2} {pFace : Nat} {sub aQfv : List Nat}
    {k : Nat} {aV : List Nat} {sc : CqSubdivision2}
    (hr : SubdivideFace.Refined s pFace s' sub aQfv k aV sc) :
    s'.m_apFacets = s.m_apFacets ++ sub := by
  rw [hr.link.facets, hr.created.facets, hr.sub_eq]

theorem SubdivideFace.Refined.table_length {s s' : CqSubdivision2} {pFace : Nat}
    {sub aQfv : List Nat} {k : Nat} {aV : List Nat} {sc : CqSubdivision2}
    (hr : SubdivideFace.Refined s pFace s' sub aQfv k aV sc) :
    s'.m_aapVertices.length = s.m_aapVertices.length + k := by
  rw [hr.link.table, hr.created.table, SubdivideFace.tableAfter_length, growBy_table_length]

theorem SubdivideFace.Refined.params {s s' : CqSubdivision2} {pFace : Nat}
    {sub aQfv : List Nat} {k : Nat} {aV : List Nat} {sc : CqSubdivision2}
    (hr : SubdivideFace.Refined s pFace s' sub aQfv k aV sc) :
    s'.aUserParams = (growBy k s).aUserParams := by
  rw [hr.link.params, hr.created.params]

theorem SubdivideFace.Refined.cfD_new {s s' : CqSubdivision2} {pFace : Nat}
    {sub aQfv : List Nat} {k : Nat} {aV : List Nat} {sc : CqSubdivision2}
    (hr : SubdivideFace.Refined s pFace s' sub aQfv k aV sc) {j i : Nat}
    (hj : j < aQfv.length) (hi : i < 4) :
    s'.cfD (s.m_apLaths.length + (4 * j + i)) =
      some (s.m_apLaths.length + (4 * j + (i + 1) % 4)) := by
  rw [cfD_of_dropCF hr.link.same]
  exact hr.created.created_cfD_new hj hi

theorem SubdivideFace.Refined.VertexIndex_new {s s' : CqSubdivision2} {pFace : Nat}
    {sub aQfv : List Nat} {k : Nat} {aV : List Nat} {sc : CqSubdivision2}
    (hr : SubdivideFace.Refined s pFace s' sub aQfv k aV sc) {j i : Nat}
    (hj : j < aQfv.length) (hi : i < 4) :
    s'.VertexIndex (s.m_apLaths.length + (4 * j + i)) =
      some (SubdivideFace.cornerVertex aV aQfv.length j i) := by
  rw [VertexIndex_of_dropCF hr.link.same]
  exact hr.created.created_VertexIndex_new hj hi

/-- The child face `j` is a facet ring of four laths, started at any of them. -/
theorem SubdivideFace.Refined.ring_new {s s' : CqSubdivision2} {pFace : Nat}
    {sub aQfv : List Nat} {k : Nat} {aV : List Nat} {sc : CqSubdivision2}
    (hr : SubdivideFace.Refined s pFace s' sub aQfv k aV sc) {j : Nat}
    (hj : j < aQfv.length) (i : Nat) :
    s'.IsRing [s.m_apLaths.length + (4 * j + i % 4), s.m_apLaths.length + (4 * j + (i + 1) % 4),
      s.m_apLaths.length + (4 * j + (i + 2) % 4), s.m_apLaths.length + (4 * j + (i + 3) % 4)] := by
  have h0 := hr.cfD_new hj (Nat.mod_lt i (show 0 < 4 by omega))
  have h1 := hr.cfD_new hj (Nat.mod_lt (i + 1) (show 0 < 4 by omega))
  have h2 := hr.cfD_new hj (Nat.mod_lt (i + 2) (show 0 < 4 by omega))
  have h3 := hr.cfD_new hj (Nat.mod_lt (i + 3) (show 0 < 4 by omega))
  have a0 : (i % 4 + 1) % 4 = (i + 1) % 4 := by omega
  have a1 : ((i + 1) % 4 + 1) % 4 = (i + 2) % 4 := by omega
  have a2 : ((i + 2) % 4 + 1) % 4 = (i + 3) % 4 := by omega
  have a3 : ((i + 3) % 4 + 1) % 4 = i % 4 := by omega
  rw [a0] at h0
  rw [a1] at h1
  rw [a2] at h2
  rw [a3] at h3
  apply IsRing.of_four _ h0 h1 h2 h3
  simp only [List.nodup_cons, List.mem_cons, List.mem_singleton, List.not_mem_nil,
    List.nodup_nil, not_false_eq_true, and_true, not_or]
  omega

theorem SubdivideFace.Refined.ccf_C {s s' : CqSubdivision2} {pFace : Nat}
    {sub aQfv : List Nat} {k : Nat} {aV : List Nat} {sc : CqSubdivision2}
    (hr : SubdivideFace.Refined s pFace s' sub aQfv k aV sc) {j : Nat}
    (hj : j < aQfv.length) :
    (s'.ccf (s.m_apLaths.length + (4 * j + 2))).bind s'.ccf = some (s.m_apLaths.length + 4 * j) := by
  have r2 := ccf_of_ring (hr.ring_new hj 2)
  have r1 := ccf_of_ring (hr.ring_new hj 1)
  simp only [List.getLast_cons_cons, List.getLast_singleton] at r1 r2
  have e2 : s'.ccf (s.m_apLaths.length + (4 * j + 2)) = some (s.m_apLaths.length + (4 * j + 1)) :=
    r2
  have e1 : s'.ccf (s.m_apLaths.length + (4 * j + 1)) = some (s.m_apLaths.length + (4 * j + 0)) :=
    r1
  rw [e2]
  simp only [Option.some_bind]
  rw [e1]
  rfl

theorem Qfv_head {s : CqSubdivision2} {p : Nat} {l : List Nat} (e : s.Qfv p = some l) :
    ∃ tl, l = p :: tl := by
  unfold Qfv at e
  cases hc : s.cfD p with
  | none => rw [hc] at e; cases e
  | some c =>
    rw [hc] at e
    simp only [Option.some_bind] at e
    cases hl : Qfv.loop s p s.m_apLaths.length c with
    | none => rw [hl] at e; cases e
    | some r =>
      rw [hl] at e
      simp only [Option.map_some', Option.some.injEq] at e
      exact ⟨r, e.symm⟩

/-- The face-point laths of the children, in order, are the ring round the
face point. -/
theorem SubdivideFace.Refined.qvf {s s' : CqSubdivision2} {pFace : Nat}
    {sub aQfv : List Nat} {k : Nat} {aV : List Nat} {sc : CqSubdivision2}
    (hr : SubdivideFace.Refined s pFace s' sub aQfv k aV sc) :
    s'.Qvf (s.m_apLaths.length + 2) =
      some ((List.range aQfv.length).map (fun j => s.m_apLaths.length + (4 * j + 2))) := by
  obtain ⟨tl, htl⟩ := Qfv_head hr.qfv
  have hn : 0 < aQfv.length := by rw [htl]; simp
  have hcy := IsCycle.of_range s'.cvD (fun j => s.m_apLaths.length + (4 * j + 2)) aQfv.length hn
    (fun i j _ _ e => by simp only at e; omega)
    (fun j hj => cvD_of_cv (hr.cvC j hj))
  obtain ⟨m, hm⟩ : ∃ m, aQfv.length = m + 1 := ⟨aQfv.length - 1, by omega⟩
  rw [hm] at hcy ⊢
  rw [List.range_succ_eq_map, List.map_cons] at hcy ⊢
  exact Qvf_of_cycle hcy

/-- A second call on a refined face takes the early return and computes the
child faces from the ring round the face point. -/
theorem SubdivideFace.Refined.again {s s' : CqSubdivision2} {pFace : Nat}
    {sub aQfv : List Nat} {k : Nat} {aV : List Nat} {sc : CqSubdivision2}
    (hr : SubdivideFace.Refined s pFace s' sub aQfv k aV sc)
    (Qff : CqSubdivision2 → Nat → Option (List Nat)) (d : Nat) :
    SubdivideFace Qff (d + 1) s' pFace = some (s', sub) := by
  obtain ⟨tl, htl⟩ := Qfv_head hr.qfv
  have hn : 0 < aQfv.length := by rw [htl]; simp
  have hface := hr.face 0 hn
  have h0 : aQfv.getD 0 0 = pFace := by rw [htl]; rfl
  rw [h0] at hface
  unfold SubdivideFace
  cases hl : s'.lath pFace with
  | none => rw [hl] at hface; cases hface
  | some l =>
    rw [hl] at hface
    simp only [Option.map_some', Option.some.injEq] at hface
    simp only [hface]
    have hq := hr.qvf
    rw [show s.m_apLaths.length + (4 * 0 + 2) = s.m_apLaths.length + 2 from rfl, hq]
    simp only [Option.some_bind]
    rw [mapM_eq_map (g := fun x => x - 2)]
    · simp only [Option.map_some', List.map_map, Option.some.injEq, Prod.mk.injEq, true_and]
      rw [hr.sub_eq]
      apply List.map_congr_left
      intro j _
      simp only [Function.comp]
      omega
    · intro x hx
      obtain ⟨j, hj, rfl⟩ := List.mem_map.mp hx
      have := hr.ccf_C (List.mem_range.mp hj)
      rw [this]
      congr 1

end CqSubdivision2
end Aqsis

namespace Aqsis
namespace CqSubdivision2

/-! ## SubdivideFace as a whole -/

theorem SubdivideFace_early (Qff : CqSubdivision2 → Nat → Option (List Nat)) (d : Nat)
    {s : CqSubdivision2} {pFace : Nat} {l : CqLath} {fv : Nat} (hl : s.lath pFace = some l)
    (hf : l.m_pFaceVertex = some fv) :
    SubdivideFace Qff (d + 1) s pFace =
      (s.Qvf fv).bind fun aQvf =>
        (aQvf.mapM (fun x => (s.ccf x).bind s.ccf)).map fun sub => (s, sub) := by
  unfold SubdivideFace
  simp only [hl, hf]

theorem SubdivideFace_late (Qff : CqSubdivision2 → Nat → Option (List Nat)) (d : Nat)
    {s : CqSubdivision2} {pFace : Nat} {l : CqLath} (hl : s.lath pFace = some l)
    (hf : l.m_pFaceVertex = none) :
    SubdivideFace Qff (d + 1) s pFace =
      (match l.m_pParentFacet with
        | none => some s
        | some par =>
          (Qff s par).bind fun aQff =>
            forEach (fun f st => (SubdivideFace Qff d st f).map Prod.fst) aQff s).bind
        fun s1 => SubdivideFace.refine s1 pFace := by
  conv => lhs; unfold SubdivideFace; simp only [hl, hf]
  all_goals (cases l.m_pParentFacet <;> rfl)

/-- Every successful call keeps the topology well-formed. -/
theorem SubdivideFace_valid (Qff : CqSubdivision2 → Nat → Option (List Nat)) :
    ∀ (d : Nat) (s : CqSubdivision2) (pFace : Nat) (s' : CqSubdivision2) (sub : List Nat),
      s.Valid → SubdivideFace Qff d s pFace = some (s', sub) → s'.Valid := by
  intro d
  induction d with
  | zero => intro s pFace s' sub _ e; simp [SubdivideFace] at e
  | succ d ih =>
    intro s pFace s' sub hv e
    cases hl : s.lath pFace with
    | none => simp [SubdivideFace, hl] at e
    | some l =>
      cases hf : l.m_pFaceVertex with
      | some fv =>
        rw [SubdivideFace_early Qff d hl hf] at e
        cases hq : s.Qvf fv with
        | none => rw [hq] at e; cases e
        | some aQvf =>
          rw [hq] at e
          simp only [Option.some_bind] at e
          cases hm : aQvf.mapM (fun x => (s.ccf x).bind s.ccf) with
          | none => rw [hm] at e; cases e
          | some r =>
            rw [hm] at e
            simp only [Option.map_some', Option.some.injEq, Prod.mk.injEq] at e
            rw [← e.1]
            exact hv
      | none =>
        rw [SubdivideFace_late Qff d hl hf] at e
        have hpre : ∀ s1, (match l.m_pParentFacet with
            | none => some s
            | some par =>
              (Qff s par).bind fun aQff =>
                forEach (fun f st => (SubdivideFace Qff d st f).map Prod.fst) aQff s) = some s1 →
            s1.Valid := by
          intro s1 e1
          cases hp : l.m_pParentFacet with
          | none =>
            rw [hp] at e1
            simp only [Option.some.injEq] at e1
            rw [← e1]
            exact hv
          | some par =>
            rw [hp] at e1
            simp only at e1
            cases hQ : Qff s par with
            | none => rw [hQ] at e1; cases e1
            | some aQff =>
              rw [hQ] at e1
              simp only [Option.some_bind] at e1
              refine forEach_inv _ (fun st => st.Valid) aQff ?_ s s1 hv e1
              intro f _ st st' hst est
              cases hS : SubdivideFace Qff d st f with
              | none => rw [hS] at est; cases est
              | some r =>
                rw [hS] at est
                simp only [Option.map_some', Option.some.injEq] at est
                subst est
                exact ih st f r.1 r.2 hst hS
        cases hP : (match l.m_pParentFacet with
            | none => some s
            | some par =>
              (Qff s par).bind fun aQff =>
                forEach (fun f st => (SubdivideFace Qff d st f).map Prod.fst) aQff s) with
        | none => rw [hP] at e; cases e
        | some s1 =>
          rw [hP] at e
          simp only [Option.some_bind] at e
          obtain ⟨aQfv, k, aV, sc, href⟩ := SubdivideFace.refine_spec (hpre s1 hP) e
          exact href.valid

/-- A successful call on a face that was not refined before has refined it,
in a well-formed state. -/
theorem SubdivideFace_late_inv (Qff : CqSubdivision2 → Nat → Option (List Nat)) (d : Nat)
    {s : CqSubdivision2} (hv : s.Valid) {pFace : Nat} {l : CqLath} (hl : s.lath pFace = some l)
    (hf : l.m_pFaceVertex = none) {s' : CqSubdivision2} {sub : List Nat}
    (e : SubdivideFace Qff (d + 1) s pFace = some (s', sub)) :
    ∃ s0 aQfv k aV sc, s0.Valid ∧ (l.m_pParentFacet = none → s0 = s) ∧
      SubdivideFace.refine s0 pFace = some (s', sub) ∧
      SubdivideFace.Refined s0 pFace s' sub aQfv k aV sc := by
  rw [SubdivideFace_late Qff d hl hf] at e
  cases hP : (match l.m_pParentFacet with
      | none => some s
      | some par =>
        (Qff s par).bind fun aQff =>
          forEach (fun f st => (SubdivideFace Qff d st f).map Prod.fst) aQff s) with
  | none => rw [hP] at e; cases e
  | some s1 =>
    rw [hP] at e
    simp only [Option.some_bind] at e
    have hv1 : s1.Valid := by
      cases hp : l.m_pParentFacet with
      | none =>
        rw [hp] at hP
        simp only [Option.some.injEq] at hP
        rw [← hP]
        exact hv
      | some par =>
        rw [hp] at hP
        simp only at hP
        cases hQ : Qff s par with
        | none => rw [hQ] at hP; cases hP
        | some aQff =>
          rw [hQ] at hP
          simp only [Option.some_bind] at hP
          refine forEach_inv _ (fun st => st.Valid) aQff ?_ s s1 hv hP
          intro f _ st st' hst est
          cases hS : SubdivideFace Qff d st f with
          | none => rw [hS] at est; cases est
          | some r =>
            rw [hS] at est
            simp only [Option.map_some', Option.some.injEq] at est
            subst est
            exact SubdivideFace_valid Qff d st f r.1 r.2 hst hS
    obtain ⟨aQfv, k, aV, sc, href⟩ := SubdivideFace.refine_spec hv1 e
    refine ⟨s1, aQfv, k, aV, sc, hv1, ?_, e, href⟩
    intro hp
    rw [hp] at hP
    simp only [Option.some.injEq] at hP
    exact hP.symm

end CqSubdivision2
end Aqsis

namespace Aqsis
namespace CqSubdivision2

/-! ## Finalised control meshes are well-formed -/

theorem Fresh.valid {s : CqSubdivision2} (hs : s.Fresh)
    (hu : Uniform s.aUserParams s.m_aapVertices.length) : s.Valid ∧ s.Unrefined := by
  refine ⟨⟨?_, hs.rings, ?_, ?_, hu⟩, ?_⟩
  · intro l hl
    obtain ⟨h1, h2, h3, h4, h5⟩ := hs.links l hl
    rw [h1, h2, h3, h4, h5]
    simp
  · intro l hl
    obtain ⟨h, hlt, hget⟩ := List.getElem_of_mem hl
    apply hs.vertexLt h
    unfold VertexIndex lath
    rw [List.getElem?_eq_getElem hlt, hget]
    rfl
  · intro v a h hva hh
    exact (hs.adj v h).mp ⟨a, hva, hh⟩
  · intro l hl
    obtain ⟨_, h2, h3, h4, h5⟩ := hs.links l hl
    exact ⟨h2, h3, h4, h5⟩

theorem AddFacets_frame {fs : List (List Nat)} :
    ∀ {s t : CqSubdivision2}, s.AddFacets fs = some t →
      t.aUserParams = s.aUserParams ∧ t.m_aapVertices.length = s.m_aapVertices.length := by
  induction fs with
  | nil =>
    intro s t h
    simp only [AddFacets, Option.some.injEq] at h
    subst h
    exact ⟨rfl, rfl⟩
  | cons f rest ih =>
    intro s t h
    simp only [AddFacets] at h
    cases hr : s.AddFacet f with
    | none => rw [hr] at h; cases h
    | some r =>
      rw [hr] at h
      simp only [Option.some_bind] at h
      obtain ⟨_, _, rfl⟩ := AddFacet_some hr
      obtain ⟨h1, h2⟩ := ih h
      refine ⟨h1, ?_⟩
      rw [h2]
      simp [AddFacet.result, AddFacet.newAdj_length]

theorem buildMesh_frame {params : List (List CqParameter)} {cVerts : Nat}
    {facets : List (List Nat)} {s : CqSubdivision2}
    (h : buildMesh params cVerts facets = some s) :
    s.aUserParams = params ∧ s.m_aapVertices.length = cVerts := by
  obtain ⟨h1, h2⟩ := AddFacets_frame h
  refine ⟨h1, ?_⟩
  rw [h2]
  simp [Prepare, empty]

theorem Unrefined.unrefined_of_linkRel {W : Nat → Prop} {s t : CqSubdivision2} (hs : s.Unrefined)
    (hr : LinkRel W (fun _ => False) s t) : t.Unrefined := by
  intro l hl
  obtain ⟨h, hlt, hget⟩ := List.getElem_of_mem hl
  have hl' : t.lath h = some l := by
    unfold lath; rw [List.getElem?_eq_getElem hlt, hget]
  have e := lath_map_of_map_eq CqLath.dropCF hr.same h
  have ef := hr.faceFrame h (fun hh => hh)
  rw [hl'] at e ef
  cases hs0 : s.lath h with
  | none => rw [hs0] at e; cases e
  | some l0 =>
    rw [hs0] at e ef
    simp only [Option.map_some', Option.some.injEq] at e ef
    obtain ⟨h2, h3, h4, h5⟩ := hs l0 (List.getElem?_mem hs0)
    have e3 : l.m_pParentFacet = l0.m_pParentFacet := by
      have := congrArg CqLath.m_pParentFacet e; exact this
    have e4 : l.m_pChildVertex = l0.m_pChildVertex := by
      have := congrArg CqLath.m_pChildVertex e; exact this
    have e5 : l.m_pMidVertex = l0.m_pMidVertex := by
      have := congrArg CqLath.m_pMidVertex e; exact this
    rw [e3, e4, e5, ef]
    exact ⟨h2, h3, h4, h5⟩

/-- One write of `Finalise` keeps a well-formed control mesh. -/
theorem Finalise.write_valid {s s1 : CqSubdivision2} (hv : s.Valid) (hu : s.Unrefined)
    {X c : Nat} (hc : c < s.m_apLaths.length)
    (e : s.setLath X (fun l => { l with m_pClockwiseVertex := some c }) = some s1) :
    s1.Valid ∧ s1.Unrefined ∧ s1.m_aapVertices = s.m_aapVertices ∧
      s1.m_apLaths.length = s.m_apLaths.length := by
  obtain ⟨l, hl, _⟩ := setLath_eq_some e
  obtain ⟨s', e', hv', hr, _⟩ := hv.setCv (lath_lt hl) hc
  rw [e] at e'
  cases e'
  exact ⟨hv', hu.unrefined_of_linkRel hr, hr.table, hr.link_length⟩

theorem Finalise.forward_valid (vert : List Nat) {s0 : CqSubdivision2}
    (hvert : ∀ h ∈ vert, h < s0.m_apLaths.length) :
    ∀ (fuel : Nat) (s : CqSubdivision2) (aVisited : List Bool) (cVisited pCurrent : Nat)
      (r : CqSubdivision2 × List Bool × Nat × Nat),
      s.Valid → s.Unrefined → s.m_aapVertices = s0.m_aapVertices →
      s.m_apLaths.length = s0.m_apLaths.length →
      Finalise.forward vert fuel s aVisited cVisited pCurrent = some r →
      r.1.Valid ∧ r.1.Unrefined ∧ r.1.m_aapVertices = s0.m_aapVertices ∧
        r.1.m_apLaths.length = s0.m_apLaths.length := by
  intro fuel
  induction fuel with
  | zero => intro s aVisited cVisited pCurrent r _ _ _ _ e; cases e
  | succ f ih =>
    intro s aVisited cVisited pCurrent r hv hu ht hl e
    simp only [Finalise.forward] at e
    cases h1 : (s.ccf pCurrent).bind s.VertexIndex with
    | none => rw [h1] at e; cases e
    | some ccwVertex =>
      rw [h1] at e
      simp only at e
      cases h2 : Finalise.scan vert aVisited (fun h => (s.cfD h).bind s.VertexIndex) ccwVertex
          (List.range vert.length) with
      | none => rw [h2] at e; cases e
      | some o =>
        rw [h2] at e
        cases o with
        | none =>
          simp only [Option.some.injEq] at e
          subst e
          exact ⟨hv, hu, ht, hl⟩
        | some iLath =>
          simp only at e
          cases h3 : vert[iLath]? with
          | none => rw [h3] at e; cases e
          | some h =>
            rw [h3] at e
            simp only at e
            cases h4 : s.setLath pCurrent (fun l => { l with m_pClockwiseVertex := some h }) with
            | none => rw [h4] at e; cases e
            | some s1 =>
              rw [h4] at e
              simp only at e
              have hh : h < s.m_apLaths.length := by
                rw [hl]; exact hvert h (List.getElem?_mem h3)
              obtain ⟨hv1, hu1, ht1, hl1⟩ := Finalise.write_valid hv hu hh h4
              exact ih s1 _ _ _ r hv1 hu1 (ht1.trans ht) (hl1.trans hl) e

theorem Finalise.backward_valid (vert : List Nat) {s0 : CqSubdivision2} :
    ∀ (fuel : Nat) (s : CqSubdivision2) (aVisited : List Bool) (cVisited pStart iStart : Nat)
      (r : CqSubdivision2 × List Bool × Nat × Nat × Nat),
      s.Valid → s.Unrefined → s.m_aapVertices = s0.m_aapVertices →
      s.m_apLaths.length = s0.m_apLaths.length → pStart < s0.m_apLaths.length →
      Finalise.backward vert fuel s aVisited cVisited pStart iStart = some r →
      r.1.Valid ∧ r.1.Unrefined ∧ r.1.m_aapVertices = s0.m_aapVertices ∧
        r.1.m_apLaths.length = s0.m_apLaths.length := by
  intro fuel
  induction fuel with
  | zero => intro s aVisited cVisited pStart iStart r _ _ _ _ _ e; cases e
  | succ f ih =>
    intro s aVisited cVisited pStart iStart r hv hu ht hl hp e
    simp only [Finalise.backward] at e
    cases h1 : (s.cfD pStart).bind s.VertexIndex with
    | none => rw [h1] at e; cases e
    | some cwVertex =>
      rw [h1] at e
      simp only at e
      cases h2 : Finalise.scan vert aVisited (fun h => (s.ccf h).bind s.VertexIndex) cwVertex
          (List.range vert.length) with
      | none => rw [h2] at e; cases e
      | some o =>
        rw [h2] at e
        cases o with
        | none =>
          simp only [Option.some.injEq] at e
          subst e
          exact ⟨hv, hu, ht, hl⟩
        | some iLath =>
          simp only at e
          cases h3 : vert[iLath]? with
          | none => rw [h3] at e; cases e
          | some h =>
            rw [h3] at e
            simp only at e
            cases h4 : s.setLath h (fun l => { l with m_pClockwiseVertex := some pStart }) with
            | none => rw [h4] at e; cases e
            | some s1 =>
              rw [h4] at e
              simp only at e
              obtain ⟨l, hlath, _⟩ := setLath_eq_some h4
              have hh : h < s0.m_apLaths.length := by rw [← hl]; exact lath_lt hlath
              obtain ⟨hv1, hu1, ht1, hl1⟩ := Finalise.write_valid hv hu
                (show pStart < s.m_apLaths.length by omega) h4
              exact ih s1 _ _ _ _ r hv1 hu1 (ht1.trans ht) (hl1.trans hl) hh e

theorem Finalise.vertex_valid {s : CqSubdivision2} (hv : s.Valid) (hu : s.Unrefined)
    {vert : List Nat} (hvert : ∀ h ∈ vert, h < s.m_apLaths.length)
    {r : CqSubdivision2 × Bool} (e : Finalise.vertex s vert = some r) :
    r.1.Valid ∧ r.1.Unrefined ∧ r.1.m_aapVertices = s.m_aapVertices ∧
      r.1.m_apLaths.length = s.m_apLaths.length := by
  unfold Finalise.vertex at e
  simp only at e
  by_cases hc : vert.length ≤ 1
  · rw [if_pos hc] at e
    simp only [Option.some.injEq] at e
    subst e
    exact ⟨hv, hu, rfl, rfl⟩
  · rw [if_neg hc] at e
    cases h0 : vert[0]? with
    | none => rw [h0] at e; cases e
    | some pStart =>
      rw [h0] at e
      simp only at e
      have hps : pStart < s.m_apLaths.length := hvert _ (List.getElem?_mem h0)
      cases h1 : Finalise.forward vert (2 * vert.length + 2) s
          (List.replicate vert.length false) 0 pStart with
      | none => rw [h1] at e; cases e
      | some r1 =>
        rw [h1] at e
        obtain ⟨s1, aV1, cV1, pC⟩ := r1
        simp only at e
        obtain ⟨hv1, hu1, ht1, hl1⟩ := Finalise.forward_valid vert hvert _ s _ _ _ _ hv hu rfl rfl h1
        simp only at hv1 hu1 ht1 hl1
        cases h2 : s1.cv pC with
        | none => rw [h2] at e; cases e
        | some pcv =>
          rw [h2] at e
          simp only at e
          cases h3 : (if pcv = none then
              Finalise.backward vert (2 * vert.length + 2) s1 aV1 cV1 pStart 0
            else some (s1, aV1, cV1, pStart, 0)) with
          | none => rw [h3] at e; cases e
          | some r2 =>
            rw [h3] at e
            obtain ⟨s2, aV2, cV2, pS2, iS2⟩ := r2
            simp only at e
            have hres : s2.Valid ∧ s2.Unrefined ∧ s2.m_aapVertices = s.m_aapVertices ∧
                s2.m_apLaths.length = s.m_apLaths.length := by
              by_cases hp : pcv = none
              · rw [if_pos hp] at h3
                exact Finalise.backward_valid vert _ s1 _ _ _ _ _ hv1 hu1 ht1 hl1 hps h3
              · rw [if_neg hp] at h3
                simp only [Option.some.injEq, Prod.mk.injEq] at h3
                rw [← h3.1]
                exact ⟨hv1, hu1, ht1, hl1⟩
            split at e
            · simp only [Option.some.injEq] at e
              subst e
              exact hres
            · simp only [Option.some.injEq] at e
              subst e
              exact hres

theorem Finalise.loop_valid {s0 : CqSubdivision2} :
    ∀ (verts : List (List Nat)) (s : CqSubdivision2) (r : CqSubdivision2 × Bool),
      (∀ vert ∈ verts, ∀ h ∈ vert, h < s0.m_apLaths.length) →
      s.Valid → s.Unrefined → s.m_apLaths.length = s0.m_apLaths.length →
      Finalise.loop verts s = some r → r.1.Valid ∧ r.1.Unrefined := by
  intro verts
  induction verts with
  | nil =>
    intro s r _ hv hu _ e
    simp only [Finalise.loop, Option.some.injEq] at e
    subst e
    exact ⟨hv, hu⟩
  | cons vert rest ih =>
    intro s r hverts hv hu hl e
    simp only [Finalise.loop] at e
    cases h1 : Finalise.vertex s vert with
    | none => rw [h1] at e; cases e
    | some r1 =>
      rw [h1] at e
      obtain ⟨s1, b⟩ := r1
      obtain ⟨hv1, hu1, _, hl1⟩ := Finalise.vertex_valid hv hu
        (fun h hh => by rw [hl]; exact hverts vert (List.mem_cons_self _ _) h hh) h1
      cases b with
      | false =>
        simp only [Option.some.injEq] at e
        subst e
        exact ⟨hv1, hu1⟩
      | true =>
        simp only at e
        exact ih s1 r (fun v hv' => hverts v (List.mem_cons_of_mem _ hv')) hv1 hu1
          (hl1.trans hl) e

/-- `Finalise` keeps a well-formed control mesh well-formed. -/
theorem Finalise_valid {s : CqSubdivision2} (hv : s.Valid) (hu : s.Unrefined)
    {r : CqSubdivision2 × Bool} (e : s.Finalise = some r) : r.1.Valid ∧ r.1.Unrefined := by
  unfold Finalise at e
  cases h1 : Finalise.loop s.m_aapVertices s with
  | none => rw [h1] at e; cases e
  | some r1 =>
    rw [h1] at e
    obtain ⟨s1, b⟩ := r1
    obtain ⟨hv1, hu1⟩ := Finalise.loop_valid s.m_aapVertices s _
      (fun vert hvert h hh => by
        obtain ⟨v, hlt, hget⟩ := List.getElem_of_mem hvert
        exact hv.valid_mem_adj_lt (v := v) (by rw [List.getElem?_eq_getElem hlt, hget]) hh)
      hv hu rfl h1
    cases b with
    | false =>
      simp only [Option.some.injEq] at e
      subst e
      exact ⟨hv1, hu1⟩
    | true =>
      simp only [Option.some.injEq] at e
      subst e
      exact ⟨⟨hv1.ptr, hv1.rings, hv1.vlt, hv1.adj, hv1.params⟩, hu1⟩

/-- A control mesh built with `Prepare` and `AddFacet` over attribute arrays
sized for its vertices, then finalised, is well-formed and unrefined. -/
theorem finalised_valid {params : List (List CqParameter)} {cVerts : Nat}
    {facets : List (List Nat)} {s0 : CqSubdivision2} {r : CqSubdivision2 × Bool}
    (hb : buildMesh params cVerts facets = some s0) (hu : Uniform params cVerts)
    (e : s0.Finalise = some r) : r.1.Valid ∧ r.1.Unrefined := by
  obtain ⟨hp, ht⟩ := buildMesh_frame hb
  obtain ⟨hv0, hu0⟩ := (Fresh.buildMesh hb).valid (by rw [hp, ht]; exact hu)
  exact Finalise_valid hv0 hu0 e

end CqSubdivision2
end Aqsis

namespace Aqsis
namespace CqSubdivision2

/-! ## Old laths after a refinement -/

/-- The fields of an old lath that the lath-creating loop leaves alone. -/
theorem SubdivideFace.Refined.old_created {s s' : CqSubdivision2} {pFace : Nat}
    {sub aQfv : List Nat} {k : Nat} {aV : List Nat} {sc : CqSubdivision2}
    (hr : SubdivideFace.Refined s pFace s' sub aQfv k aV sc) {h : Nat}
    (hh : h < s.m_apLaths.length) :
    ∃ l lc, s.lath h = some l ∧ sc.lath h = some lc ∧
      lc.m_pClockwiseVertex = l.m_pClockwiseVertex ∧
      lc.m_pClockwiseFacet = l.m_pClockwiseFacet ∧ lc.m_pParentFacet = l.m_pParentFacet ∧
      lc.m_pFaceVertex = l.m_pFaceVertex ∧ lc.m_VertexIndex = l.m_VertexIndex := by
  obtain ⟨lc, l, h1, h0, hd⟩ := hr.created.old hh
  refine ⟨l, lc, h0, h1, ?_, ?_, ?_, ?_, ?_⟩
  · have := congrArg CqLath.m_pClockwiseVertex hd; exact this
  · have := congrArg CqLath.m_pClockwiseFacet hd; exact this
  · have := congrArg CqLath.m_pParentFacet hd; exact this
  · have := congrArg CqLath.m_pFaceVertex hd; exact this
  · have := congrArg CqLath.m_VertexIndex hd; exact this

/-- The fields of a lath that the linking loops leave alone. -/
theorem SubdivideFace.Refined.linked_fields {s s' : CqSubdivision2} {pFace : Nat}
    {sub aQfv : List Nat} {k : Nat} {aV : List Nat} {sc : CqSubdivision2}
    (hr : SubdivideFace.Refined s pFace s' sub aQfv k aV sc) {h : Nat} {lc : CqLath}
    (hc : sc.lath h = some lc) :
    ∃ l', s'.lath h = some l' ∧
      l'.m_pClockwiseFacet = lc.m_pClockwiseFacet ∧ l'.m_pParentFacet = lc.m_pParentFacet ∧
      l'.m_pChildVertex = lc.m_pChildVertex ∧ l'.m_pMidVertex = lc.m_pMidVertex ∧
      l'.m_VertexIndex = lc.m_VertexIndex := by
  have e := lath_map_of_map_eq CqLath.dropCF hr.link.same h
  rw [hc] at e
  cases hl : s'.lath h with
  | none => rw [hl] at e; cases e
  | some l' =>
    rw [hl] at e
    simp only [Option.map_some', Option.some.injEq] at e
    refine ⟨l', rfl, ?_, ?_, ?_, ?_, ?_⟩
    · have := congrArg CqLath.m_pClockwiseFacet e; exact this
    · have := congrArg CqLath.m_pParentFacet e; exact this
    · have := congrArg CqLath.m_pChildVertex e; exact this
    · have := congrArg CqLath.m_pMidVertex e; exact this
    · have := congrArg CqLath.m_VertexIndex e; exact this

theorem SubdivideFace.Refined.VertexIndex_old {s s' : CqSubdivision2} {pFace : Nat}
    {sub aQfv : List Nat} {k : Nat} {aV : List Nat} {sc : CqSubdivision2}
    (hr : SubdivideFace.Refined s pFace s' sub aQfv k aV sc) {h : Nat}
    (hh : h < s.m_apLaths.length) : s'.VertexIndex h = s.VertexIndex h := by
  obtain ⟨l, lc, h0, hc, _, _, _, _, e5⟩ := hr.old_created hh
  obtain ⟨l', h', _, _, _, _, e5'⟩ := hr.linked_fields hc
  unfold VertexIndex
  rw [h0, h']
  simp only [Option.map_some', Option.some.injEq]
  rw [e5', e5]

theorem SubdivideFace.Refined.cf_old {s s' : CqSubdivision2} {pFace : Nat}
    {sub aQfv : List Nat} {k : Nat} {aV : List Nat} {sc : CqSubdivision2}
    (hr : SubdivideFace.Refined s pFace s' sub aQfv k aV sc) {h : Nat}
    (hh : h < s.m_apLaths.length) : s'.cf h = s.cf h := by
  obtain ⟨l, lc, h0, hc, _, e2, _, _, _⟩ := hr.old_created hh
  obtain ⟨l', h', e2', _, _, _, _⟩ := hr.linked_fields hc
  unfold cf
  rw [h0, h']
  simp only [Option.map_some', Option.some.injEq]
  rw [e2', e2]

/-- The parent of a new lath is the refined face. -/
theorem SubdivideFace.Refined.parent_new {s s' : CqSubdivision2} {pFace : Nat}
    {sub aQfv : List Nat} {k : Nat} {aV : List Nat} {sc : CqSubdivision2}
    (hr : SubdivideFace.Refined s pFace s' sub aQfv k aV sc) {j i : Nat}
    (hj : j < aQfv.length) (hi : i < 4) :
    (s'.lath (s.m_apLaths.length + (4 * j + i))).map CqLath.m_pParentFacet =
      some (some pFace) := by
  obtain ⟨lc, hc, _, _, e3, _, _⟩ := hr.created.new_fields hj hi
  obtain ⟨l', h', _, e3', _, _, _⟩ := hr.linked_fields hc
  rw [h']
  simp only [Option.map_some', Option.some.injEq]
  rw [e3', e3]

/-- The mid-vertex pointer of corner `j` after the refinement. -/
theorem SubdivideFace.Refined.mid_corner {s s' : CqSubdivision2} {pFace : Nat}
    {sub aQfv : List Nat} {k : Nat} {aV : List Nat} {sc : CqSubdivision2}
    (hr : SubdivideFace.Refined s pFace s' sub aQfv k aV sc) {j : Nat}
    (hj : j < aQfv.length) :
    (s'.lath (aQfv.getD j 0)).map CqLath.m_pMidVertex =
      some (some (s.m_apLaths.length + (4 * j + 3))) := by
  have hm := hr.marked.mid j hj
  cases hc : sc.lath (aQfv.getD j 0) with
  | none => simp only at hm; rw [hc] at hm; cases hm
  | some lc =>
    simp only at hm
    rw [hc] at hm
    obtain ⟨l', h', _, _, _, e5, _⟩ := hr.linked_fields hc
    rw [h']
    simp only [Option.map_some', Option.some.injEq] at hm ⊢
    rw [e5, hm]

/-- The mid-vertex pointer of an old lath that is no corner of the face. -/
theorem SubdivideFace.Refined.mid_other {s s' : CqSubdivision2} {pFace : Nat}
    {sub aQfv : List Nat} {k : Nat} {aV : List Nat} {sc : CqSubdivision2}
    (hr : SubdivideFace.Refined s pFace s' sub aQfv k aV sc) {h : Nat}
    (hh : h < s.m_apLaths.length) (hn : h ∉ aQfv) :
    (s'.lath h).map CqLath.m_pMidVertex = (s.lath h).map CqLath.m_pMidVertex := by
  have hm := hr.marked.midFrame h
    (fun j hj e => hn (e ▸ getD_mem_of_lt aQfv j 0 hj)) hh
  simp only at hm
  obtain ⟨l, lc, h0, hc, _⟩ := hr.old_created hh
  obtain ⟨l', h', _, _, _, e5, _⟩ := hr.linked_fields hc
  rw [hc] at hm
  rw [h', ← hm]
  simp only [Option.map_some', Option.some.injEq]
  exact e5

/-- The child-vertex pointer on the vertex-chain of corner `j`. -/
theorem SubdivideFace.Refined.child_chain {s s' : CqSubdivision2} {pFace : Nat}
    {sub aQfv : List Nat} {k : Nat} {aV : List Nat} {sc : CqSubdivision2}
    (hr : SubdivideFace.Refined s pFace s' sub aQfv k aV sc) {j : Nat}
    (hj : j < aQfv.length) {chain : List Nat}
    (hc : s.vertexChain (aQfv.getD j 0) = some chain)
    (hlater : ∀ j2, j < j2 → j2 < aQfv.length →
      ∃ chain2, s.vertexChain (aQfv.getD j2 0) = some chain2 ∧ List.Disjoint chain chain2)
    {K : Nat} (hK : K ∈ chain) :
    (s'.lath K).map CqLath.m_pChildVertex = some (some (s.m_apLaths.length + 4 * j)) := by
  have hm := hr.marked.child j hj chain hc hlater K hK
  simp only at hm
  cases hcl : sc.lath K with
  | none => rw [hcl] at hm; cases hm
  | some lc =>
    rw [hcl] at hm
    obtain ⟨l', h', _, _, e4, _, _⟩ := hr.linked_fields hcl
    rw [h']
    simp only [Option.map_some', Option.some.injEq] at hm ⊢
    rw [e4, hm]

/-- The face-vertex pointer and the parent of an old lath off the face. -/
theorem SubdivideFace.Refined.face_other {s s' : CqSubdivision2} {pFace : Nat}
    {sub aQfv : List Nat} {k : Nat} {aV : List Nat} {sc : CqSubdivision2}
    (hr : SubdivideFace.Refined s pFace s' sub aQfv k aV sc) {h : Nat}
    (hh : h < s.m_apLaths.length) (hn : h ∉ aQfv) :
    ∃ l l', s.lath h = some l ∧ s'.lath h = some l' ∧
      l'.m_pFaceVertex = l.m_pFaceVertex ∧ l'.m_pParentFacet = l.m_pParentFacet := by
  obtain ⟨l, lc, h0, hc, _, _, e3, e4, _⟩ := hr.old_created hh
  obtain ⟨l', h', _, e3', _, _, _⟩ := hr.linked_fields hc
  have hf := hr.link.faceFrame h hn
  rw [h', hc] at hf
  simp only [Option.map_some', Option.some.injEq] at hf
  exact ⟨l, l', h0, h', hf.trans e4, e3'.trans e3⟩

/-- The vertex-neighbour link of an old lath whose vertex is none of the
vertices of the child faces. -/
theorem SubdivideFace.Refined.cv_other {s s' : CqSubdivision2} {pFace : Nat}
    {sub aQfv : List Nat} {k : Nat} {aV : List Nat} {sc : CqSubdivision2}
    (hr : SubdivideFace.Refined s pFace s' sub aQfv k aV sc) {h : Nat}
    (hh : h < s.m_apLaths.length)
    (hn : ∀ j, j < 2 * aQfv.length → s.VertexIndex h ≠ some (aV.getD j 0)) :
    s'.cv h = s.cv h := by
  obtain ⟨l, lc, h0, hc, e1, _, _, _, e5⟩ := hr.old_created hh
  have hvi : sc.VertexIndex h = s.VertexIndex h := by
    unfold VertexIndex
    rw [h0, hc]
    simp only [Option.map_some', Option.some.injEq]
    exact e5
  rw [hr.link.cvFrame h (by
    intro hw
    rcases hw with hw | ⟨j, hj, hw⟩
    · omega
    · exact hn j hj (hvi ▸ hw))]
  unfold cv
  rw [h0, hc]
  simp only [Option.map_some', Option.some.injEq]
  exact e1

end CqSubdivision2
end Aqsis

namespace Aqsis
namespace CqSubdivision2

/-! ## Refining a face of a control mesh -/

theorem Unrefined.lath {s : CqSubdivision2} (hu : s.Unrefined) {h : Nat} {l : CqLath}
    (hl : s.lath h = some l) :
    l.m_pParentFacet = none ∧ l.m_pChildVertex = none ∧ l.m_pMidVertex = none ∧
      l.m_pFaceVertex = none :=
  hu l (List.getElem?_mem hl)

theorem Unrefined.edgeReuse {s : CqSubdivision2} (hv : s.Valid) (hu : s.Unrefined) {q : Nat}
    (hq : q < s.m_apLaths.length) : SubdivideFace.edgeReuse s q = some none := by
  unfold SubdivideFace.edgeReuse ec
  obtain ⟨o, ho⟩ := hv.cv_some hq
  rw [ho]
  cases o with
  | none => rfl
  | some c =>
    have hc := hv.cv_lt ho
    obtain ⟨e, he, hel⟩ := hv.cfD_some hc
    simp only [cf_of_cfD he]
    have hle : (s.lath e).isSome := (s.lath_isSome_iff e).mpr hel
    cases hl : s.lath e with
    | none => rw [hl] at hle; cases hle
    | some le =>
      simp only [(hu.lath hl).2.2.1]

theorem Unrefined.cornerReuse {s : CqSubdivision2} (hu : s.Unrefined) {q : Nat}
    (hq : q < s.m_apLaths.length) : SubdivideFace.cornerReuse s q = some none := by
  unfold SubdivideFace.cornerReuse
  have hle : (s.lath q).isSome := (s.lath_isSome_iff q).mpr hq
  cases hl : s.lath q with
  | none => rw [hl] at hle; cases hle
  | some lq =>
    simp only [(hu.lath hl).2.1]

/-- In a control mesh every point of a refinement is new: the face point,
then the edge points, then the corner children. -/
theorem Unrefined.aVertices {s : CqSubdivision2} (hv : s.Valid) (hu : s.Unrefined)
    {aQfv : List Nat} (hq : ∀ q ∈ aQfv, q < s.m_apLaths.length) :
    SubdivideFace.aVertices s aQfv =
      some (1 + aQfv.length + aQfv.length,
        (List.range aQfv.length).map (fun i => s.m_aapVertices.length + (1 + aQfv.length) + i) ++
        (List.range aQfv.length).map (fun i => s.m_aapVertices.length + 1 + i) ++
        [s.m_aapVertices.length]) := by
  unfold SubdivideFace.aVertices
  rw [SubdivideFace.pointsFold_fresh _ _ _ _ (fun q hq' => hu.edgeReuse hv (hq q hq'))]
  simp only [Option.some_bind]
  rw [SubdivideFace.pointsFold_fresh _ _ _ _ (fun q hq' => hu.cornerReuse (hq q hq'))]
  rfl

/-- The vertex-chain of a lath without neighbours round its vertex. -/
theorem vertexChain_isolated {s : CqSubdivision2} (hv : s.Valid)
    (hcv : ∀ l ∈ s.m_apLaths, l.m_pClockwiseVertex = none) {q : Nat}
    (hq : q < s.m_apLaths.length) : s.vertexChain q = some [q] := by
  have hcvn : ∀ h, h < s.m_apLaths.length → s.cv h = some none := by
    intro h hh
    unfold cv lath
    rw [List.getElem?_eq_getElem hh]
    simp only [Option.map_some', Option.some.injEq]
    exact hcv _ (List.getElem_mem _)
  obtain ⟨c, hc, hcl⟩ := hv.cfD_some hq
  have hccv : s.ccv q = some none := by
    unfold ccv ec
    rw [hc]
    simp only [Option.some_bind, hcvn c hcl]
  unfold vertexChain
  simp only [vertexChain.forward, hcvn q hq, hccv, Option.some_bind, vertexChain.backward,
    Option.map_some', List.append_nil]

/-- On a face of a control mesh, `SubdivideFace` is the refinement itself. -/
theorem Unrefined.subdivide {s : CqSubdivision2} (hu : s.Unrefined)
    (Qff : CqSubdivision2 → Nat → Option (List Nat)) (d : Nat) {pFace : Nat}
    (hp : pFace < s.m_apLaths.length) :
    SubdivideFace Qff (d + 1) s pFace = SubdivideFace.refine s pFace := by
  have hle : (s.lath pFace).isSome := (s.lath_isSome_iff pFace).mpr hp
  cases hl : s.lath pFace with
  | none => rw [hl] at hle; cases hle
  | some l =>
    obtain ⟨h2, _, _, h5⟩ := hu.lath hl
    rw [SubdivideFace_late Qff d hl h5, h2]
    rfl

end CqSubdivision2
end Aqsis

namespace Aqsis
namespace CqSubdivision2

/-! ## The pre-pass over refined neighbours -/

theorem forEach_noop {σ α : Type} (body : α → σ → Option σ) (st : σ) :
    ∀ (l : List α), (∀ a ∈ l, body a st = some st) → forEach body l st = some st := by
  intro l
  induction l with
  | nil => intro _; rfl
  | cons a rest ih =>
    intro h
    simp only [forEach, h a (List.mem_cons_self _ _), Option.some_bind]
    exact ih (fun b hb => h b (List.mem_cons_of_mem _ hb))

/-- On an unrefined face whose pre-pass changes nothing, `SubdivideFace` is
the refinement itself. -/
theorem SubdivideFace_of_noop (Qff : CqSubdivision2 → Nat → Option (List Nat)) (d : Nat)
    {s : CqSubdivision2} {pFace : Nat} {l : CqLath} (hl : s.lath pFace = some l)
    (hf : l.m_pFaceVertex = none)
    (hpar : l.m_pParentFacet = none ∨
      ∃ par aQff, l.m_pParentFacet = some par ∧ Qff s par = some aQff ∧
        ∀ f ∈ aQff, ∃ r, SubdivideFace Qff d s f = some (s, r)) :
    SubdivideFace Qff (d + 1) s pFace = SubdivideFace.refine s pFace := by
  rw [SubdivideFace_late Qff d hl hf]
  rcases hpar with hp | ⟨par, aQff, hp, hQ, hall⟩
  · rw [hp]
    rfl
  · rw [hp]
    simp only
    rw [hQ]
    simp only [Option.some_bind]
    rw [forEach_noop _ s aQff (fun f hf' => by
      obtain ⟨r, hr⟩ := hall f hf'
      rw [hr]
      rfl)]
    rfl

end CqSubdivision2
end Aqsis

namespace Aqsis
namespace CqSubdivision2

/-! ## A second face refined after a first one -/

theorem SubdivideFace.Refined.cfD_old {s s' : CqSubdivision2} {pFace : Nat}
    {sub aQfv : List Nat} {k : Nat} {aV : List Nat} {sc : CqSubdivision2}
    (hr : SubdivideFace.Refined s pFace s' sub aQfv k aV sc) {h : Nat}
    (hh : h < s.m_apLaths.length) : s'.cfD h = s.cfD h := by
  obtain ⟨l, lc, h0, hc, _, e2, _, _, _⟩ := hr.old_created hh
  obtain ⟨l', h', e2', _, _, _, _⟩ := hr.linked_fields hc
  unfold cfD
  rw [h0, h']
  simp only [Option.some_bind]
  rw [e2', e2]

/-- A facet ring of the old topology is a facet ring after the refinement. -/
theorem SubdivideFace.Refined.ring_old {s s' : CqSubdivision2} {pFace : Nat}
    {sub aQfv : List Nat} {k : Nat} {aV : List Nat} {sc : CqSubdivision2}
    (hr : SubdivideFace.Refined s pFace s' sub aQfv k aV sc) {ring : List Nat}
    (hring : s.IsRing ring) : s'.IsRing ring :=
  IsRing.ring_congr (fun x hx => hr.cfD_old (hring.lt x hx)) hring

theorem SubdivideFace.Refined.qfv_old {s s' : CqSubdivision2} (hv : s.Valid) {pFace : Nat}
    {sub aQfv : List Nat} {k : Nat} {aV : List Nat} {sc : CqSubdivision2}
    (hr : SubdivideFace.Refined s pFace s' sub aQfv k aV sc) {f : Nat} {ring : List Nat}
    (hq : s.Qfv f = some ring) : s'.Qfv f = some ring := by
  obtain ⟨_, hring, tl, rfl⟩ := hv.qfv hq
  exact Qfv_of_ring (hr.ring_old hring)

/-- Every entry of the vertex array of a refinement in a control mesh is a
new vertex. -/
theorem Unrefined.aV_fresh {s : CqSubdivision2} (hv : s.Valid) (hu : s.Unrefined)
    {aQfv : List Nat} (hq : ∀ q ∈ aQfv, q < s.m_apLaths.length) {k : Nat} {aV : List Nat}
    (e : SubdivideFace.aVertices s aQfv = some (k, aV)) :
    ∀ v ∈ aV, s.m_aapVertices.length ≤ v := by
  rw [hu.aVertices hv hq] at e
  simp only [Option.some.injEq, Prod.mk.injEq] at e
  obtain ⟨_, rfl⟩ := e
  intro v hvm
  simp only [List.mem_append, List.mem_map, List.mem_range, List.mem_singleton] at hvm
  rcases hvm with (⟨i, _, rfl⟩ | ⟨i, _, rfl⟩) | rfl <;> omega

/-- In a state refined from a control mesh, a face of the control mesh that
shares no lath with the refined face is still unrefined, and a call on it is
the refinement itself. -/
theorem SubdivideFace.Refined.subdivide_other {s s' : CqSubdivision2} (hu : s.Unrefined)
    {pFace : Nat} {sub aQfv : List Nat} {k : Nat} {aV : List Nat} {sc : CqSubdivision2}
    (hr : SubdivideFace.Refined s pFace s' sub aQfv k aV sc)
    (Qff : CqSubdivision2 → Nat → Option (List Nat)) (d : Nat) {f : Nat}
    (hf : f < s.m_apLaths.length) (hn : f ∉ aQfv) :
    SubdivideFace Qff (d + 1) s' f = SubdivideFace.refine s' f := by
  obtain ⟨l, l', h0, h', e1, e2⟩ := hr.face_other hf hn
  obtain ⟨hp, _, _, hfv⟩ := hu.lath h0
  exact SubdivideFace_of_noop Qff d h' (e1.trans hfv) (Or.inl (e2.trans hp))

/-- The entry of the vertex array for an edge whose mid-edge vertex exists. -/
theorem SubdivideFace.aVertices_edge {s : CqSubdivision2} {aQfv : List Nat} {k : Nat}
    {aV : List Nat} (e : SubdivideFace.aVertices s aQfv = some (k, aV)) {i q v : Nat}
    (hq : aQfv[i]? = some q) (hre : SubdivideFace.edgeReuse s q = some (some v)) :
    aV.getD (i + aQfv.length) 0 = v := by
  obtain ⟨kE, vE, vV, hE, hV, rfl⟩ := SubdivideFace.aVertices_parts e
  obtain ⟨_, hE2, hE3⟩ := SubdivideFace.pointsFold_spec _ _ _ _ _ _ hE
  obtain ⟨_, hV2, _⟩ := SubdivideFace.pointsFold_spec _ _ _ _ _ _ hV
  obtain ⟨w, hw, hcase⟩ := hE3 i q hq
  have hwv : w = v := by
    rcases hcase with hc | ⟨hc, _⟩
    · rw [hre] at hc
      simp only [Option.some.injEq] at hc
      exact hc.symm
    · rw [hre] at hc
      cases hc
  subst hwv
  have hi : i < vE.length := by
    by_contra hcon
    rw [List.getElem?_eq_none (by omega)] at hw
    cases hw
  rw [List.getD_eq_getElem?_getD, List.append_assoc,
    List.getElem?_append_right (by omega)]
  have : i + aQfv.length - vV.length = i := by omega
  rw [this, List.getElem?_append_left hi, hw]
  rfl

/-- The entry of the vertex array for a corner whose child vertex exists. -/
theorem SubdivideFace.aVertices_corner {s : CqSubdivision2} {aQfv : List Nat} {k : Nat}
    {aV : List Nat} (e : SubdivideFace.aVertices s aQfv = some (k, aV)) {i q v : Nat}
    (hq : aQfv[i]? = some q) (hre : SubdivideFace.cornerReuse s q = some (some v)) :
    aV.getD i 0 = v := by
  obtain ⟨kE, vE, vV, hE, hV, rfl⟩ := SubdivideFace.aVertices_parts e
  obtain ⟨_, hV2, hV3⟩ := SubdivideFace.pointsFold_spec _ _ _ _ _ _ hV
  obtain ⟨w, hw, hcase⟩ := hV3 i q hq
  have hwv : w = v := by
    rcases hcase with hc | ⟨hc, _⟩
    · rw [hre] at hc
      simp only [Option.some.injEq] at hc
      exact hc.symm
    · rw [hre] at hc
      cases hc
  subst hwv
  have hi : i < vV.length := by
    by_contra hcon
    rw [List.getElem?_eq_none (by omega)] at hw
    cases hw
  rw [List.getD_eq_getElem?_getD, List.append_assoc, List.getElem?_append_left hi, hw]
  rfl

theorem getD_of_getElem? {l : List Nat} {i q : Nat} (h : l[i]? = some q) :
    i < l.length ∧ l.getD i 0 = q := by
  have hi : i < l.length := by
    by_contra hcon
    rw [List.getElem?_eq_none (by omega)] at h
    cases h
  refine ⟨hi, ?_⟩
  rw [List.getD_eq_getElem?_getD, h]
  rfl

end CqSubdivision2
end Aqsis

namespace Aqsis
namespace CqSubdivision2

/-! ## Two faces of a control mesh refined one after the other -/

/-- A successful call on a face of a control mesh has refined the face. -/
theorem SubdivideFace.first_call {s s1 : CqSubdivision2} (hv : s.Valid) (hu : s.Unrefined)
    (Qff : CqSubdivision2 → Nat → Option (List Nat)) (d1 : Nat) {f1 : Nat}
    {ring1 r1 : List Nat} (hr1 : s.Qfv f1 = some ring1)
    (h1 : SubdivideFace Qff d1 s f1 = some (s1, r1)) :
    ∃ k1 aV1 sc1, SubdivideFace.Refined s f1 s1 r1 ring1 k1 aV1 sc1 := by
  cases d1 with
  | zero => simp [SubdivideFace] at h1
  | succ d =>
    obtain ⟨hp, _, _⟩ := hv.qfv hr1
    rw [hu.subdivide Qff d hp] at h1
    obtain ⟨aQfv, k, aV, sc, href⟩ := SubdivideFace.refine_spec hv h1
    have hqq : aQfv = ring1 := by
      have := href.qfv
      rw [hr1] at this
      exact (Option.some.inj this).symm
    subst hqq
    exact ⟨k, aV, sc, href⟩

/-- A successful call on another face of the control mesh, after the first
face was refined, has refined that face. -/
theorem SubdivideFace.second_call {s s1 s2 : CqSubdivision2} (hv : s.Valid) (hu : s.Unrefined)
    (Qff : CqSubdivision2 → Nat → Option (List Nat)) (d2 : Nat) {f1 f2 : Nat}
    {ring1 ring2 r1 r2 : List Nat} {k1 : Nat} {aV1 : List Nat} {sc1 : CqSubdivision2}
    (href1 : SubdivideFace.Refined s f1 s1 r1 ring1 k1 aV1 sc1)
    (hr2 : s.Qfv f2 = some ring2) (hdis : List.Disjoint ring1 ring2)
    (h2 : SubdivideFace Qff d2 s1 f2 = some (s2, r2)) :
    ∃ k2 aV2 sc2, SubdivideFace.Refined s1 f2 s2 r2 ring2 k2 aV2 sc2 := by
  cases d2 with
  | zero => simp [SubdivideFace] at h2
  | succ d =>
    obtain ⟨hp, _, tl, htl⟩ := hv.qfv hr2
    have hn : f2 ∉ ring1 := fun hm => hdis hm (by rw [htl]; exact List.mem_cons_self _ _)
    rw [href1.subdivide_other hu Qff d hp hn] at h2
    obtain ⟨aQfv, k, aV, sc, href⟩ := SubdivideFace.refine_spec href1.valid h2
    have hqq : aQfv = ring2 := by
      have := href.qfv
      rw [href1.qfv_old hv hr2] at this
      exact (Option.some.inj this).symm
    subst hqq
    exact ⟨k, aV, sc, href⟩

theorem map_eq_some_some {s : CqSubdivision2} {h : Nat} {g : CqLath → Option Nat} {c : Nat}
    (e : (s.lath h).map g = some (some c)) : ∃ l, s.lath h = some l ∧ g l = some c := by
  cases hl : s.lath h with
  | none => rw [hl] at e; cases e
  | some l =>
    rw [hl] at e
    simp only [Option.map_some', Option.some.injEq] at e
    exact ⟨l, rfl, e⟩

/-- After the first face is refined, the edge-midpoint test of the second
face finds the mid-edge vertex of the shared edge. -/
theorem SubdivideFace.Refined.edgeReuse_shared {s s1 : CqSubdivision2} (hv : s.Valid)
    (hu : s.Unrefined) {f1 : Nat} {ring1 r1 : List Nat} {k1 : Nat} {aV1 : List Nat}
    {sc1 : CqSubdivision2} (href1 : SubdivideFace.Refined s f1 s1 r1 ring1 k1 aV1 sc1)
    {i1 q1 q2 : Nat} (hq1 : ring1[i1]? = some q1) (hq2 : q2 < s.m_apLaths.length)
    (he21 : s.ec q2 = some (some q1)) :
    SubdivideFace.edgeReuse s1 q2 = some (some (aV1.getD (i1 + ring1.length) 0)) := by
  obtain ⟨hi1, hg1⟩ := getD_of_getElem? hq1
  obtain ⟨hV, _, _, _, _⟩ := SubdivideFace.aVertices_spec hv href1.points
  have hfresh := hu.aV_fresh hv (fun q hq => href1.ring.lt q hq) href1.points
  -- the vertex-neighbour of `q2` and its face-neighbour are as before
  have hcv2 : s1.cv q2 = s.cv q2 := by
    apply href1.cv_other hq2
    intro j hj hcon
    have h1 := hv.vertex_lt hcon
    have h2 := hfresh _ (getD_mem_of_lt aV1 j 0 (by omega))
    omega
  unfold ec at he21
  cases hc : s.cv q2 with
  | none => rw [hc] at he21; cases he21
  | some o =>
    rw [hc] at he21
    cases o with
    | none => cases he21
    | some c =>
      simp only at he21
      have hcl := hv.cv_lt hc
      have hcf : s1.cf c = some (some q1) := by rw [href1.cf_old hcl]; exact he21
      -- the mid-vertex pointer of `q1`
      have hmid := href1.mid_corner hi1
      rw [hg1] at hmid
      obtain ⟨le, hle, hlm⟩ := map_eq_some_some hmid
      have hvi := href1.VertexIndex_new hi1 (show 3 < 4 by omega)
      unfold SubdivideFace.edgeReuse ec
      rw [hcv2, hc]
      simp only [hcf, hle, hlm, hvi, Option.map_some']
      rfl

/-- After the first face is refined, the corner test of the second face finds
the child vertex of a corner on the vertex-chain of a corner of the first. -/
theorem SubdivideFace.Refined.cornerReuse_shared {s s1 : CqSubdivision2}
    {f1 : Nat} {ring1 r1 : List Nat} {k1 : Nat} {aV1 : List Nat}
    {sc1 : CqSubdivision2} (href1 : SubdivideFace.Refined s f1 s1 r1 ring1 k1 aV1 sc1)
    {j q2 : Nat} (hj : j < ring1.length)
    (hchild : (s1.lath q2).map CqLath.m_pChildVertex =
      some (some (s.m_apLaths.length + 4 * j))) :
    SubdivideFace.cornerReuse s1 q2 = some (some (aV1.getD j 0)) := by
  obtain ⟨l, hl, hlc⟩ := map_eq_some_some hchild
  have hvi := href1.VertexIndex_new hj (show 0 < 4 by omega)
  unfold SubdivideFace.cornerReuse
  simp only [hl, hlc]
  rw [show s.m_apLaths.length + 4 * j = s.m_apLaths.length + (4 * j + 0) from rfl, hvi]
  rfl

end CqSubdivision2
end Aqsis

namespace Aqsis
namespace CqSubdivision2

/-- C1: for every non-empty index list inside the prepared range, `AddFacet`
appends exactly one new lath per index, the `k`-th of them referencing
`pIndices[k]`, and returns the first; following face-neighbour links from the
returned lath visits the laths of `pIndices[0]`, `pIndices[n-1]`, ...,
`pIndices[1]` in this order and is back at the returned lath after exactly `n`
steps, not earlier. -/
theorem AddFacet_face_cycle (s : CqSubdivision2) (pIndices : List Nat) (hne : pIndices ≠ [])
    (hr : ∀ v ∈ pIndices, v < s.m_aapVertices.length) :
    ∃ s' new, s.AddFacet pIndices = some (s', s.m_apLaths.length) ∧
      s'.m_apLaths = s.m_apLaths ++ new ∧ new.length = pIndices.length ∧
      (∀ k, k < pIndices.length →
        s'.VertexIndex (s.m_apLaths.length + k) = pIndices[k]?) ∧
      (∀ j, j < pIndices.length →
        s'.cfIter (j + 1) s.m_apLaths.length =
          some (s.m_apLaths.length + (pIndices.length - 1 - j))) ∧
      (List.range pIndices.length).map
          (fun j => (s'.cfIter j s.m_apLaths.length).bind s'.VertexIndex) =
        (pIndices.head?.toList ++ pIndices.tail.reverse).map some := by
  refine ⟨AddFacet.result s pIndices, AddFacet.facetLaths pIndices s.m_apLaths.length,
    AddFacet_eq s pIndices hne hr, rfl, AddFacet.facetLaths_length _ _,
    fun k _ => AddFacet.result_VertexIndex_new s pIndices k,
    fun j hj => AddFacet.result_cfIter_first s pIndices j hj, ?_⟩
  have hpos : 0 < pIndices.length := List.length_pos.mpr hne
  apply List.ext_getElem?
  intro j
  by_cases hj : j < pIndices.length
  · rw [List.getElem?_map, List.getElem?_range hj]
    simp only [Option.map_some']
    cases pIndices with
    | nil => exact absurd rfl hne
    | cons idx rest =>
      cases j with
      | zero =>
        simp only [cfIter, AddFacet.result_length, List.length_cons]
        rw [if_pos (by omega)]
        simp only [Option.some_bind]
        have := AddFacet.result_VertexIndex_new s (idx :: rest) 0
        simp only [Nat.add_zero] at this
        rw [this]
        simp
      | succ j =>
        rw [AddFacet.result_cfIter_first s (idx :: rest) j (by omega)]
        simp only [Option.some_bind, AddFacet.result_VertexIndex_new, List.length_cons] at hj ⊢
        simp only [List.head?_cons, Option.toList_some, List.tail_cons, List.singleton_append,
          List.map_cons, List.getElem?_cons_succ, List.getElem?_map]
        have hj' : j < rest.length := by omega
        rw [List.getElem?_reverse hj']
        have e1 : rest.length + 1 - 1 - j = (rest.length - 1 - j) + 1 := by omega
        rw [e1, List.getElem?_cons_succ]
        rw [List.getElem?_eq_getElem (by omega)]
        rfl
  · rw [List.getElem?_eq_none (by simpa using hj), List.getElem?_eq_none]
    cases pIndices with
    | nil => exact absurd rfl hne
    | cons idx rest => simp at hj ⊢; omega

theorem AddFacet_face_cycle_witness :
    ∃ s' new, ((empty []).Prepare 4).AddFacet [0, 1, 2, 3] = some (s', 0) ∧
      s'.m_apLaths = [] ++ new ∧ new.length = 4 ∧
      (∀ k, k < 4 → s'.VertexIndex (0 + k) = [0, 1, 2, 3][k]?) ∧
      (∀ j, j < 4 → s'.cfIter (j + 1) 0 = some (0 + (4 - 1 - j))) ∧
      (List.range 4).map (fun j => (s'.cfIter j 0).bind s'.VertexIndex) =
        [some 0, some 3, some 2, some 1] :=
  AddFacet_face_cycle ((empty []).Prepare 4) [0, 1, 2, 3] (by decide) (by decide)

/-- C2: for every non-empty index list inside the prepared range, `AddFacet`
returns the lath created for `pIndices[0]`, appends it as the new last facet
entry (so `pFacet` of the previous facet count returns it), appends to the
adjacency list of every vertex `v` the new laths of the positions holding `v`,
in order, and changes nothing else: the laths, facet entries and adjacency
entries that existed keep their place and content, and so do the flags, the
sharpness maps and the attribute arrays. -/
theorem AddFacet_frame (s : CqSubdivision2) (pIndices : List Nat) (hne : pIndices ≠ [])
    (hr : ∀ v ∈ pIndices, v < s.m_aapVertices.length) :
    ∃ s', s.AddFacet pIndices = some (s', s.m_apLaths.length) ∧
      s'.VertexIndex s.m_apLaths.length = pIndices[0]? ∧
      s'.m_apFacets = s.m_apFacets ++ [s.m_apLaths.length] ∧
      s'.pFacet s.m_apFacets.length = some s.m_apLaths.length ∧
      s'.m_aapVertices.length = s.m_aapVertices.length ∧
      (∀ v, s'.m_aapVertices[v]? = (s.m_aapVertices[v]?).map (fun a => a ++
        ((List.range pIndices.length).filter (fun k => decide (pIndices[k]? = some v))).map
          (fun k => s.m_apLaths.length + k))) ∧
      s'.m_apLaths.take s.m_apLaths.length = s.m_apLaths ∧
      s'.m_apLaths.length = s.m_apLaths.length + pIndices.length ∧
      s'.m_fFinalised = s.m_fFinalised ∧
      s'.m_bInterpolateBoundary = s.m_bInterpolateBoundary ∧
      s'.m_mapSharpEdges = s.m_mapSharpEdges ∧
      s'.m_mapSharpCorners = s.m_mapSharpCorners ∧
      s'.aUserParams = s.aUserParams := by
  refine ⟨AddFacet.result s pIndices, AddFacet_eq s pIndices hne hr, ?_, rfl, ?_, ?_, ?_, ?_,
    AddFacet.result_length s pIndices, rfl, rfl, rfl, rfl, rfl⟩
  · simpa using AddFacet.result_VertexIndex_new s pIndices 0
  · simp [pFacet, AddFacet.result]
  · simp [AddFacet.result, AddFacet.newAdj_length]
  · intro v
    simp only [AddFacet.result]
    rw [AddFacet.newAdj_getElem?, AddFacet.hits_eq]
  · simp [AddFacet.result]

theorem AddFacet_frame_witness :
    ∃ s', ((empty []).Prepare 4).AddFacet [0, 1, 2, 3] = some (s', 0) ∧
      s'.VertexIndex 0 = some 0 ∧
      s'.m_apFacets = [] ++ [0] ∧
      s'.pFacet 0 = some 0 ∧
      s'.m_aapVertices.length = 4 ∧
      (∀ v, s'.m_aapVertices[v]? = (((empty []).Prepare 4).m_aapVertices[v]?).map (fun a => a ++
        ((List.range 4).filter (fun k => decide ([0, 1, 2, 3][k]? = some v))).map
          (fun k => 0 + k))) ∧
      s'.m_apLaths.take 0 = [] ∧
      s'.m_apLaths.length = 0 + 4 ∧
      s'.m_fFinalised = false ∧
      s'.m_bInterpolateBoundary = false ∧
      s'.m_mapSharpEdges = [] ∧
      s'.m_mapSharpCorners = [] ∧
      s'.aUserParams = [] :=
  AddFacet_frame ((empty []).Prepare 4) [0, 1, 2, 3] (by decide) (by decide)

/-- C3: in a mesh built with `Prepare` and `AddFacet`, for every facet entry
`f` and every lath `L` on the ring of `f`, the ring collected from `L` by
following face-neighbour links until back at `L` is a rotation of the ring
collected from `f`, and so is the sequence of vertex indices read along it. -/
theorem facet_ring_rotation {params : List (List CqParameter)} {cVerts : Nat}
    {facets : List (List Nat)} {s : CqSubdivision2}
    (hb : buildMesh params cVerts facets = some s) (i f : Nat) (hf : s.pFacet i = some f) :
    ∃ r0, s.Qfv f = some r0 ∧
      ∀ L ∈ r0, ∃ r, s.Qfv L = some r ∧ r.IsRotated r0 ∧
        (r.map s.VertexIndex).IsRotated (r0.map s.VertexIndex) := by
  have hs := Fresh.buildMesh hb
  have hflt : f < s.m_apLaths.length := hs.facets f (List.getElem?_mem hf)
  obtain ⟨ring, hring, hmem⟩ := hs.rings f hflt
  obtain ⟨tl, hr0, _⟩ := hring.ring_of_mem hmem
  refine ⟨f :: tl, Qfv_of_ring hr0, ?_⟩
  intro L hL
  obtain ⟨tl', hr1, hrot⟩ := hr0.ring_of_mem hL
  exact ⟨L :: tl', Qfv_of_ring hr1, hrot, hrot.map _⟩

theorem facet_ring_rotation_witness :
    ∃ r0, quadMesh.Qfv 0 = some r0 ∧
      ∀ L ∈ r0, ∃ r, quadMesh.Qfv L = some r ∧ r.IsRotated r0 ∧
        (r.map quadMesh.VertexIndex).IsRotated (r0.map quadMesh.VertexIndex) :=
  @facet_ring_rotation (positionsOnly 4) 4 [[0, 1, 2, 3]] quadMesh (by decide) 0 0 (by decide)

end CqSubdivision2
end Aqsis

namespace Aqsis
namespace CqSubdivision2

/-- C4: for every mesh built with `Prepare` and `AddFacet` in which every
vertex is manifold, `Finalise` returns true and leaves the adjacency table as
it was, and afterwards the vertex-chain of the first lath of every adjacency
list (the laths reached by following vertex-neighbour links forward, together
with those reached backward when the forward walk meets a missing link) holds
exactly the laths of that list, each once. -/
theorem Finalise_manifold {params : List (List CqParameter)} {cVerts : Nat}
    {facets : List (List Nat)} {s : CqSubdivision2}
    (hb : buildMesh params cVerts facets = some s)
    (hm : ∀ v, v < s.m_aapVertices.length → s.ManifoldVertex v) :
    ∃ s', s.Finalise = some (s', true) ∧ s'.m_aapVertices = s.m_aapVertices ∧
      ∀ (v : Nat) (vert : List Nat) (h0 : Nat),
        s'.m_aapVertices[v]? = some vert → vert[0]? = some h0 →
        ∃ chain, s'.vertexChain h0 = some chain ∧ chain.Perm vert ∧ chain.Nodup := by
  have hs := Fresh.buildMesh hb
  obtain ⟨F, hfin, hall⟩ := Finalise_manifold_links hs hm
  refine ⟨_, hfin, rfl, ?_⟩
  intro v vert h0 hv hh0
  have hv' : s.m_aapVertices[v]? = some vert := hv
  have hvT : v < s.m_aapVertices.length := (List.getElem?_eq_some.mp hv').1
  obtain ⟨chain, hc, hp⟩ := vertexChain_of_matched hs F hall
    { s.withCv F with m_fFinalised := true }
    (fun h => withCv_cf s F h) (fun h hh => withCv_cv s F h hh) (withCv_length s F)
    (hm v hvT) hv' hh0
  exact ⟨chain, hc, hp, hp.nodup_iff.mpr (hs.adjNodup vert (List.getElem?_mem hv'))⟩

theorem chain'_of_zip_tail (R : Nat → Nat → Prop) :
    ∀ l : List Nat, (∀ p ∈ l.zip l.tail, R p.1 p.2) → List.Chain' R l := by
  intro l
  induction l with
  | nil => intro _; exact List.chain'_nil
  | cons a tl ih =>
    intro h
    cases tl with
    | nil => exact List.chain'_singleton a
    | cons b tl' =>
      rw [List.chain'_cons]
      refine ⟨h (a, b) (by simp), ih ?_⟩
      intro p hp
      exact h p (by
        simp only [List.tail_cons, List.zip_cons_cons, List.mem_cons] at hp ⊢
        exact Or.inr hp)

theorem twoQuads_manifold :
    ∀ v, v < twoQuads.m_aapVertices.length → twoQuads.ManifoldVertex v := by
  have h : ∀ v, v < 6 →
      ((twoQuads.fan v).map twoQuads.outKey).Nodup ∧
      ((twoQuads.fan v).map twoQuads.innKey).Nodup ∧
      (∀ p ∈ (twoQuads.fan v).zip (twoQuads.fan v).tail,
        twoQuads.innKey p.1 = twoQuads.outKey p.2) ∧
      ∀ h ∈ twoQuads.fan v, twoQuads.outKey h ≠ twoQuads.innKey h := by decide
  have hp : ∀ v, v < 6 →
      (twoQuads.fan v).Perm ((twoQuads.m_aapVertices[v]?).getD []) := by
    intro v hv
    by_cases h4 : v = 4
    · subst h4
      exact List.Perm.swap 2 7 []
    · have : twoQuads.fan v = (twoQuads.m_aapVertices[v]?).getD [] := by
        unfold twoQuads.fan
        split
        · exact absurd rfl h4
        · rfl
      rw [this]
  intro v hv
  exact ⟨twoQuads.fan v, hp v hv, (h v hv).1, (h v hv).2.1,
    chain'_of_zip_tail _ _ (h v hv).2.2.1, (h v hv).2.2.2⟩

theorem Finalise_manifold_witness :
    ∃ s', twoQuads.Finalise = some (s', true) ∧ s'.m_aapVertices = twoQuads.m_aapVertices ∧
      ∀ (v : Nat) (vert : List Nat) (h0 : Nat),
        s'.m_aapVertices[v]? = some vert → vert[0]? = some h0 →
        ∃ chain, s'.vertexChain h0 = some chain ∧ chain.Perm vert ∧ chain.Nodup :=
  @Finalise_manifold (positionsOnly 6) 6 [[0, 1, 4, 3], [1, 2, 5, 4]] twoQuads (by decide)
    twoQuads_manifold

/-- C5, evaluated at its failing input: on three triangles closed round
vertex 0 plus a fourth triangle touching vertex 0 only, `Finalise` returns
true although the fourth triangle's lath 9 is in the adjacency list of
vertex 0, has no vertex-neighbour and is not on the vertex-chain of the
list's first lath. -/
theorem Finalise_accepts_stray_lath :
    fanAndStray.Finalise = some (fanAndStray.finalised, true) ∧
      fanAndStray.finalised.m_aapVertices[0]? = some [0, 3, 6, 9] ∧
      fanAndStray.finalised.vertexChain 0 = some [0, 6, 3] ∧
      fanAndStray.finalised.cv 9 = some none ∧
      fanAndStray.finalised.vertexChain 9 = some [9] := by
  decide

end CqSubdivision2
end Aqsis

namespace Aqsis
namespace CqSubdivision2

theorem quadMesh_valid : quadMesh.finalised.Valid ∧ quadMesh.finalised.Unrefined :=
  finalised_valid (show buildMesh (positionsOnly 4) 4 [[0, 1, 2, 3]] = some quadMesh by decide)
    ⟨by decide, by decide⟩
    (show quadMesh.Finalise = some (quadMesh.finalised, true) by decide)

theorem twoQuads_valid : twoQuads.finalised.Valid ∧ twoQuads.finalised.Unrefined :=
  finalised_valid
    (show buildMesh (positionsOnly 6) 6 [[0, 1, 4, 3], [1, 2, 5, 4]] = some twoQuads by decide)
    ⟨by decide, by decide⟩
    (show twoQuads.Finalise = some (twoQuads.finalised, true) by decide)

/-- C6: in a well-formed topology (every finalised control mesh is one, and so
is every state a successful `SubdivideFace` call leaves), once a call
`SubdivideFace(f)` has returned the child faces `r1` and left the state `s1`,
a further call on `f` returns the same child faces in the same order and
leaves exactly the state `s1`: no lath, facet, vertex-table entry or attribute
slot is added and no link is changed.  `Qff` stands for `CqLath::Qff`, `d1`
and `d2 + 1` bound the nesting of the recursive calls. -/
theorem SubdivideFace_idempotent (Qff : CqSubdivision2 → Nat → Option (List Nat)) (d1 d2 : Nat)
    {s s1 : CqSubdivision2} {f : Nat} {r1 : List Nat} (hv : s.Valid)
    (h1 : SubdivideFace Qff d1 s f = some (s1, r1)) :
    SubdivideFace Qff (d2 + 1) s1 f = some (s1, r1) := by
  cases d1 with
  | zero => simp [SubdivideFace] at h1
  | succ d =>
    cases hl : s.lath f with
    | none => simp [SubdivideFace, hl] at h1
    | some l =>
      cases hf : l.m_pFaceVertex with
      | some fv =>
        rw [SubdivideFace_early Qff d hl hf] at h1
        have hs : s1 = s := by
          cases hq : s.Qvf fv with
          | none => rw [hq] at h1; cases h1
          | some aQvf =>
            rw [hq] at h1
            simp only [Option.some_bind] at h1
            cases hm : aQvf.mapM (fun x => (s.ccf x).bind s.ccf) with
            | none => rw [hm] at h1; cases h1
            | some r =>
              rw [hm] at h1
              simp only [Option.map_some', Option.some.injEq, Prod.mk.injEq] at h1
              exact h1.1.symm
        subst hs
        rw [SubdivideFace_early Qff d2 hl hf]
        exact h1
      | none =>
        obtain ⟨s0, aQfv, k, aV, sc, _, _, _, href⟩ := SubdivideFace_late_inv Qff d hv hl hf h1
        exact href.again Qff d2

theorem SubdivideFace_idempotent_witness :
    quadMesh.finalised.Valid ∧
    SubdivideFace Qff 1 quadMesh.finalised 0 = some (quadMesh.refined, [4, 8, 12, 16]) ∧
    SubdivideFace Qff 1 quadMesh.refined 0 = some (quadMesh.refined, [4, 8, 12, 16]) :=
  ⟨quadMesh_valid.1, by decide!,
    SubdivideFace_idempotent Qff 1 0 quadMesh_valid.1 (by decide!)⟩

/-- C7: in a well-formed control mesh that holds a single quad facet on 4
vertices (4 laths, none with a vertex-neighbour), one `SubdivideFace` call on
the quad succeeds and returns 4 child faces, each a ring of 4 laths; the
vertex array it fills is `[9, 10, 11, 12, 5, 6, 7, 8, 4]`, that is the face
point is the first new vertex (index 4), the 4 edge points are the next ones
(5 to 8) and the 4 corner children the last ones (9 to 12), none reused; the
child of corner `i` visits the vertices `9 + i`, `5 + (i + 1) mod 4`, `4` and
`5 + i`; afterwards the vertex table has 13 entries and every attribute array
13 slots. -/
theorem SubdivideFace_isolated_quad (Qff : CqSubdivision2 → Nat → Option (List Nat)) (d : Nat)
    {s : CqSubdivision2} {pFace : Nat} {aQfv : List Nat} (hv : s.Valid) (hu : s.Unrefined)
    (hN : s.m_apLaths.length = 4) (hT : s.m_aapVertices.length = 4)
    (hcv : ∀ l ∈ s.m_apLaths, l.m_pClockwiseVertex = none)
    (hq : s.Qfv pFace = some aQfv) (hn : aQfv.length = 4) :
    ∃ s' sub, SubdivideFace Qff (d + 1) s pFace = some (s', sub) ∧ sub.length = 4 ∧
      SubdivideFace.aVertices s aQfv = some (9, [9, 10, 11, 12, 5, 6, 7, 8, 4]) ∧
      (∀ i, i < 4 → ∃ A B C D, sub[i]? = some A ∧ s'.IsRing [A, B, C, D] ∧
        s'.VertexIndex A = some (9 + i) ∧ s'.VertexIndex B = some (5 + (i + 1) % 4) ∧
        s'.VertexIndex C = some 4 ∧ s'.VertexIndex D = some (5 + i)) ∧
      s'.m_aapVertices.length = 13 ∧ Uniform s'.aUserParams 13 := by
  obtain ⟨hp, hring, _⟩ := hv.qfv hq
  obtain ⟨s', sub, aQfv', k, aV, sc, e, href⟩ := SubdivideFace.refine_some hv hp
    (fun ring hr q hq' => by
      rw [hq] at hr
      cases hr
      exact ⟨[q], vertexChain_isolated hv hcv (hring.lt q hq')⟩)
  have hqq : aQfv' = aQfv := by
    have := href.qfv
    rw [hq] at this
    exact (Option.some.inj this).symm
  subst hqq
  have hpts := hu.aVertices hv (fun q hq' => hring.lt q hq')
  rw [hn, hT] at hpts
  have hkv : k = 9 ∧ aV = [9, 10, 11, 12, 5, 6, 7, 8, 4] := by
    have := href.points
    rw [hpts] at this
    simp only [Option.some.injEq, Prod.mk.injEq] at this
    exact ⟨this.1.symm, this.2.symm⟩
  obtain ⟨rfl, rfl⟩ := hkv
  refine ⟨s', sub, ?_, ?_, hpts, ?_, ?_, ?_⟩
  · rw [hu.subdivide Qff d hp]
    exact e
  · rw [href.sub_eq, hn]
    rfl
  · intro i hi
    have hi' : i < aQfv'.length := by omega
    refine ⟨4 + (4 * i + 0), 4 + (4 * i + 1), 4 + (4 * i + 2), 4 + (4 * i + 3), ?_, ?_, ?_, ?_,
      ?_, ?_⟩
    · rw [href.sub_eq, hn, hN]
      have hi4 : i = 0 ∨ i = 1 ∨ i = 2 ∨ i = 3 := by omega
      rcases hi4 with rfl | rfl | rfl | rfl <;> rfl
    · have := href.ring_new hi' 0
      rw [hN] at this
      exact this
    · have := href.VertexIndex_new hi' (show 0 < 4 by omega)
      rw [hN, hn] at this
      rw [this]
      have hi4 : i = 0 ∨ i = 1 ∨ i = 2 ∨ i = 3 := by omega
      rcases hi4 with rfl | rfl | rfl | rfl <;> rfl
    · have := href.VertexIndex_new hi' (show 1 < 4 by omega)
      rw [hN, hn] at this
      rw [this]
      have hi4 : i = 0 ∨ i = 1 ∨ i = 2 ∨ i = 3 := by omega
      rcases hi4 with rfl | rfl | rfl | rfl <;> rfl
    · have := href.VertexIndex_new hi' (show 2 < 4 by omega)
      rw [hN, hn] at this
      rw [this]
      rfl
    · have := href.VertexIndex_new hi' (show 3 < 4 by omega)
      rw [hN, hn] at this
      rw [this]
      have hi4 : i = 0 ∨ i = 1 ∨ i = 2 ∨ i = 3 := by omega
      rcases hi4 with rfl | rfl | rfl | rfl <;> rfl
  · rw [href.table_length, hT]
  · rw [href.params]
    have := hv.params.grow 9
    rw [hT] at this
    exact this

theorem SubdivideFace_isolated_quad_witness :
    quadMesh.finalised.Valid ∧ quadMesh.finalised.Unrefined ∧
    quadMesh.finalised.m_apLaths.length = 4 ∧ quadMesh.finalised.m_aapVertices.length = 4 ∧
    (∀ l ∈ quadMesh.finalised.m_apLaths, l.m_pClockwiseVertex = none) ∧
    quadMesh.finalised.Qfv 0 = some [0, 3, 2, 1] ∧ [0, 3, 2, 1].length = 4 ∧
    ∃ s' sub, SubdivideFace Qff 1 quadMesh.finalised 0 = some (s', sub) ∧ sub.length = 4 ∧
      SubdivideFace.aVertices quadMesh.finalised [0, 3, 2, 1] =
        some (9, [9, 10, 11, 12, 5, 6, 7, 8, 4]) ∧
      (∀ i, i < 4 → ∃ A B C D, sub[i]? = some A ∧ s'.IsRing [A, B, C, D] ∧
        s'.VertexIndex A = some (9 + i) ∧ s'.VertexIndex B = some (5 + (i + 1) % 4) ∧
        s'.VertexIndex C = some 4 ∧ s'.VertexIndex D = some (5 + i)) ∧
      s'.m_aapVertices.length = 13 ∧ Uniform s'.aUserParams 13 :=
  ⟨quadMesh_valid.1, quadMesh_valid.2, by decide, by decide, by decide, by decide, by decide,
    SubdivideFace_isolated_quad Qff 0 quadMesh_valid.1 quadMesh_valid.2 (by decide) (by decide)
      (by decide) (show quadMesh.finalised.Qfv 0 = some [0, 3, 2, 1] by decide) (by decide)⟩

/-- C8 (amended): in a well-formed topology, for a face `pFace` that is not refined yet
(its face-vertex pointer is NULL), that has no parent or whose pre-pass over
the parent's 1-ring changes nothing (every face of that ring is refined
already, so the call on it returns without touching the state), and round
each of whose `n` corners the walk along the vertex-neighbour links ends,
`SubdivideFace` succeeds; it returns `n` child laths, appends exactly these `n`
entries to the facet list and `4n` laths to the lath list; the `i`-th child is
a ring of four laths `A, B, C, D` in face-neighbour order whose vertices are
`aVertices[i]` (the child vertex of corner `i`), `aVertices[(i + 1) mod n + n]`
(the mid-edge vertex of edge `(i + 1) mod n`), `aVertices[2n]` (the face point)
and `aVertices[i + n]` (the mid-edge vertex of edge `i`), and each of the four
has `pFace` as parent facet. -/
theorem SubdivideFace_children (Qff : CqSubdivision2 → Nat → Option (List Nat)) (d : Nat)
    {s : CqSubdivision2} {pFace : Nat} {l : CqLath} {aQfv : List Nat} (hv : s.Valid)
    (hl : s.lath pFace = some l) (hf : l.m_pFaceVertex = none)
    (hpar : l.m_pParentFacet = none ∨
      ∃ par aQff, l.m_pParentFacet = some par ∧ Qff s par = some aQff ∧
        ∀ f ∈ aQff, ∃ r, SubdivideFace Qff d s f = some (s, r))
    (hq : s.Qfv pFace = some aQfv)
    (hch : ∀ q ∈ aQfv, ∃ chain, s.vertexChain q = some chain) :
    ∃ s' sub k aV, SubdivideFace Qff (d + 1) s pFace = some (s', sub) ∧
      SubdivideFace.aVertices s aQfv = some (k, aV) ∧
      sub.length = aQfv.length ∧ s'.m_apFacets = s.m_apFacets ++ sub ∧
      s'.m_apLaths.length = s.m_apLaths.length + 4 * aQfv.length ∧
      ∀ i, i < aQfv.length → ∃ A B C D, sub[i]? = some A ∧ s'.IsRing [A, B, C, D] ∧
        s'.VertexIndex A = aV[i]? ∧
        s'.VertexIndex B = aV[(i + 1) % aQfv.length + aQfv.length]? ∧
        s'.VertexIndex C = aV[2 * aQfv.length]? ∧
        s'.VertexIndex D = aV[i + aQfv.length]? ∧
        ∀ X ∈ [A, B, C, D], (s'.lath X).map CqLath.m_pParentFacet = some (some pFace) := by
  obtain ⟨hp, hring, _⟩ := hv.qfv hq
  obtain ⟨s', sub, aQfv', k, aV, sc, e, href⟩ := SubdivideFace.refine_some hv hp
    (fun ring hr q hq' => by
      rw [hq] at hr
      cases hr
      exact hch q hq')
  have hqq : aQfv' = aQfv := by
    have := href.qfv
    rw [hq] at this
    exact (Option.some.inj this).symm
  subst hqq
  obtain ⟨hV, _, _, _, _⟩ := SubdivideFace.aVertices_spec hv href.points
  refine ⟨s', sub, k, aV, ?_, href.points, ?_, href.facets, href.refined_length, ?_⟩
  · rw [SubdivideFace_of_noop Qff d hl hf hpar]
    exact e
  · rw [href.sub_eq]
    simp
  · intro i hi
    have hm : (i + 1) % aQfv'.length < aQfv'.length := Nat.mod_lt _ (by omega)
    refine ⟨s.m_apLaths.length + (4 * i + 0), s.m_apLaths.length + (4 * i + 1),
      s.m_apLaths.length + (4 * i + 2), s.m_apLaths.length + (4 * i + 3), ?_,
      href.ring_new hi 0, ?_, ?_, ?_, ?_, ?_⟩
    · rw [href.sub_eq]
      simp [List.getElem?_range, hi]
    · rw [href.VertexIndex_new hi (show 0 < 4 by omega),
        getElem?_getD_of_lt aV i 0 (by omega)]
      rfl
    · rw [href.VertexIndex_new hi (show 1 < 4 by omega),
        getElem?_getD_of_lt aV _ 0 (by omega)]
      rfl
    · rw [href.VertexIndex_new hi (show 2 < 4 by omega),
        getElem?_getD_of_lt aV _ 0 (by omega)]
      rfl
    · rw [href.VertexIndex_new hi (show 3 < 4 by omega),
        getElem?_getD_of_lt aV _ 0 (by omega)]
      rfl
    · intro X hX
      simp only [List.mem_cons, List.mem_singleton, List.not_mem_nil, or_false] at hX
      rcases hX with rfl | rfl | rfl | rfl
      · exact href.parent_new hi (show 0 < 4 by omega)
      · exact href.parent_new hi (show 1 < 4 by omega)
      · exact href.parent_new hi (show 2 < 4 by omega)
      · exact href.parent_new hi (show 3 < 4 by omega)

theorem SubdivideFace_children_witness :
    twoQuads.finalised.Valid ∧
    twoQuads.finalised.lath 4 = some ⟨none, some 7, none, none, none, none, 1⟩ ∧
    (⟨none, some 7, none, none, none, none, 1⟩ : CqLath).m_pFaceVertex = none ∧
    ((⟨none, some 7, none, none, none, none, 1⟩ : CqLath).m_pParentFacet = none ∨
      ∃ par aQff, (⟨none, some 7, none, none, none, none, 1⟩ : CqLath).m_pParentFacet = some par ∧
        Qff twoQuads.finalised par = some aQff ∧
        ∀ f ∈ aQff, ∃ r, SubdivideFace Qff 0 twoQuads.finalised f =
          some (twoQuads.finalised, r)) ∧
    twoQuads.finalised.Qfv 4 = some [4, 7, 6, 5] ∧
    (∀ q ∈ [4, 7, 6, 5], ∃ chain, twoQuads.finalised.vertexChain q = some chain) ∧
    ∃ s' sub k aV, SubdivideFace Qff 1 twoQuads.finalised 4 = some (s', sub) ∧
      SubdivideFace.aVertices twoQuads.finalised [4, 7, 6, 5] = some (k, aV) ∧
      sub.length = [4, 7, 6, 5].length ∧
      s'.m_apFacets = twoQuads.finalised.m_apFacets ++ sub ∧
      s'.m_apLaths.length = twoQuads.finalised.m_apLaths.length + 4 * [4, 7, 6, 5].length ∧
      ∀ i, i < [4, 7, 6, 5].length → ∃ A B C D, sub[i]? = some A ∧ s'.IsRing [A, B, C, D] ∧
        s'.VertexIndex A = aV[i]? ∧
        s'.VertexIndex B = aV[(i + 1) % [4, 7, 6, 5].length + [4, 7, 6, 5].length]? ∧
        s'.VertexIndex C = aV[2 * [4, 7, 6, 5].length]? ∧
        s'.VertexIndex D = aV[i + [4, 7, 6, 5].length]? ∧
        ∀ X ∈ [A, B, C, D], (s'.lath X).map CqLath.m_pParentFacet = some (some 4) :=
  have hch : ∀ q ∈ [4, 7, 6, 5], ∃ chain, twoQuads.finalised.vertexChain q = some chain := by
    intro q hq
    simp only [List.mem_cons, List.mem_singleton, List.not_mem_nil, or_false] at hq
    rcases hq with rfl | rfl | rfl | rfl
    · exact ⟨[4, 1], by decide⟩
    · exact ⟨[7, 2], by decide⟩
    · exact ⟨[6], by decide⟩
    · exact ⟨[5], by decide⟩
  ⟨twoQuads_valid.1, by decide, rfl, Or.inl rfl, by decide, hch,
    SubdivideFace_children Qff 0 twoQuads_valid.1
      (show twoQuads.finalised.lath 4 = some ⟨none, some 7, none, none, none, none, 1⟩ by decide)
      rfl (Or.inl rfl) (show twoQuads.finalised.Qfv 4 = some [4, 7, 6, 5] by decide) hch⟩

end CqSubdivision2
end Aqsis

namespace Aqsis
namespace CqSubdivision2

theorem CanUsePatch.every_true {α : Type} (check : α → Option Bool) (L : List α) :
    CanUsePatch.every check L = some true ↔ ∀ a ∈ L, check a = some true := by
  induction L with
  | nil => simp [CanUsePatch.every]
  | cons a rest ih =>
    simp only [CanUsePatch.every, List.mem_cons, forall_eq_or_imp]
    cases h : check a with
    | none => simp
    | some b =>
      cases b with
      | false => simp
      | true => simpa using ih

theorem CanUsePatch.closes_of_qvf (s : CqSubdivision2) (q : Nat) :
    ∀ (fuel : Nat) (p : Option Nat) (r : List Nat),
      Qvf.loop s q fuel p = some (some r) →
      ∀ fuel2, fuel ≤ fuel2 → CanUsePatch.closes s q fuel2 p = some true := by
  intro fuel
  induction fuel with
  | zero => intro p r h; simp [Qvf.loop] at h
  | succ n ih =>
    intro p r h fuel2 hle
    obtain ⟨m, rfl⟩ : ∃ m, fuel2 = m + 1 := ⟨fuel2 - 1, by omega⟩
    cases p with
    | none => simp [Qvf.loop] at h
    | some x =>
      simp only [Qvf.loop] at h
      simp only [CanUsePatch.closes]
      by_cases hx : x = q
      · simp [hx]
      · simp only [hx, if_false] at h
        have hx2 : ¬ (some x = some q) := by simpa using hx
        simp only [hx2, if_false]
        cases hc : s.cv x with
        | none => simp [hc] at h
        | some p2 =>
          simp only [hc] at h
          show CanUsePatch.closes s q m p2 = some true
          cases hl : Qvf.loop s q n p2 with
          | none => simp [hl] at h
          | some o =>
            cases o with
            | none => simp [hl] at h
            | some r2 => exact ih p2 r2 hl m (by omega)

theorem Qvf.loop_iter (s : CqSubdivision2) (q : Nat) :
    ∀ (fuel : Nat) (p : Option Nat) (r : List Nat),
      Qvf.loop s q fuel p = some (some r) →
      ∃ x, p = some x ∧ s.cvIter r.length x = some q := by
  intro fuel
  induction fuel with
  | zero => intro p r h; simp [Qvf.loop] at h
  | succ n ih =>
    intro p r h
    cases p with
    | none => simp [Qvf.loop] at h
    | some x =>
      refine ⟨x, rfl, ?_⟩
      simp only [Qvf.loop] at h
      by_cases hx : x = q
      · simp only [hx, if_true, Option.some.injEq] at h
        subst h
        simp [cvIter, hx]
      · simp only [hx, if_false] at h
        cases hc : s.cv x with
        | none => simp [hc] at h
        | some p2 =>
          simp only [hc] at h
          cases hl : Qvf.loop s q n p2 with
          | none => simp [hl] at h
          | some o =>
            cases o with
            | none => simp [hl] at h
            | some r2 =>
              simp only [hl, Option.map_some', Option.some.injEq] at h
              subst h
              obtain ⟨y, hy, hit⟩ := ih p2 r2 hl
              subst hy
              simp only [List.length_cons, cvIter]
              rw [cvD_of_cv hc]
              exact hit

theorem cQvv_four {s : CqSubdivision2} {q : Nat} (h : s.cQvv q = some 4) :
    ∃ p r, s.cv q = some p ∧ Qvf.loop s q s.m_apLaths.length p = some (some r) ∧
      r.length = 3 := by
  unfold cQvv Qvf at h
  cases hc : s.cv q with
  | none => simp [hc] at h
  | some p =>
    simp only [hc] at h
    cases hl : Qvf.loop s q s.m_apLaths.length p with
    | none => simp [hl] at h
    | some o =>
      cases o with
      | none => simp [hl] at h
      | some r =>
        simp only [hl, Option.map_some', List.length_cons, Option.some.injEq] at h
        exact ⟨p, r, rfl, hl, by omega⟩

theorem ClosedChain.of_valence {s : CqSubdivision2} {q : Nat} (h : s.cQvv q = some 4) :
    s.ClosedChain q := by
  obtain ⟨p, r, hc, hl, hr⟩ := cQvv_four h
  obtain ⟨x, rfl, hit⟩ := Qvf.loop_iter s q _ _ _ hl
  refine ⟨r.length + 1, by omega, ?_⟩
  simp only [cvIter]
  rw [cvD_of_cv hc]
  exact hit

theorem CanUsePatch.corner_true (s : CqSubdivision2) (q : Nat) :
    CanUsePatch.corner s q = some true ↔ s.cQvv q = some 4 ∧ s.Smooth q := by
  constructor
  · intro h
    unfold CanUsePatch.corner at h
    cases hc : s.cQvv q with
    | none => simp [hc] at h
    | some c =>
      simp only [hc, Option.some_bind] at h
      by_cases h4 : c = 4
      · subst h4
        by_cases hs : s.EdgeSharpness q ≠ 0 ∨ s.CornerSharpness q ≠ 0
        · simp [hs] at h
        · refine ⟨rfl, ?_⟩
          unfold Smooth
          push_neg at hs
          exact hs
      · simp [h4] at h
  · rintro ⟨hc, hs⟩
    obtain ⟨p, r, hcv, hl, _⟩ := cQvv_four hc
    have hcl := CanUsePatch.closes_of_qvf s q _ _ _ hl (s.m_apLaths.length + 1) (by omega)
    unfold CanUsePatch.corner
    unfold Smooth at hs
    simp only [hc, Option.some_bind, hs.1, hs.2, ne_eq, not_true_eq_false, or_self, if_false,
      hcv, hcl]

theorem CanUsePatch.smooth_true (s : CqSubdivision2) (q : Nat) :
    CanUsePatch.smooth s q = some true ↔ s.Smooth q := by
  unfold CanUsePatch.smooth Smooth
  by_cases hs : s.EdgeSharpness q ≠ 0 ∨ s.CornerSharpness q ≠ 0
  · simp only [hs, if_true]
    constructor
    · intro h; cases h
    · intro h; rcases hs with h1 | h1
      · exact absurd h.1 h1
      · exact absurd h.2 h1
  · simp only [hs, if_false, true_iff]
    push_neg at hs
    exact hs

theorem CanUsePatch.neighbour_true (s : CqSubdivision2) (g : Nat) :
    CanUsePatch.neighbour s g = some true ↔
      ∃ ring, s.Qfv g = some ring ∧ ring.length = 4 ∧ ∀ q ∈ ring, s.Smooth q := by
  unfold CanUsePatch.neighbour cQfv
  cases hq : s.Qfv g with
  | none => simp
  | some ring =>
    simp only [Option.map_some', Option.some_bind, Option.some.injEq, exists_eq_left']
    by_cases h4 : ring.length = 4
    · simp only [h4, ne_eq, not_true_eq_false, if_false, true_and]
      rw [CanUsePatch.every_true]
      exact forall_congr' fun q => imp_congr_right fun _ => CanUsePatch.smooth_true s q
    · simp [h4]

end CqSubdivision2
end Aqsis

namespace Aqsis

theorem truncate_of_nonneg {x : ℚ} (hx : 0 ≤ x) : truncate x = ⌊x⌋ := by
  unfold truncate
  show _ = Rat.floor x
  rw [Rat.floor_def']
  exact Int.tdiv_eq_ediv (Rat.num_nonneg.2 hx) (Int.ofNat_nonneg _)

theorem MAX_ge (a : ℚ) : 1 ≤ MAX a 1 := by
  unfold MAX
  split
  · exact le_of_lt (by assumption)
  · exact le_refl _

theorem FLT_EPSILON_lt_one : FLT_EPSILON < 1 := by
  unfold FLT_EPSILON
  norm_num

namespace CqSurfaceSubdivisionPatch

theorem Diceable.sizes_discard (ctx : DiceContext) (h0 h1 h2 h3 : ℚ × ℚ) :
    ¬ (MAX (ctx.ROUND (Diceable.uLen ctx h0 h1 h2 h3)) 1 < FLT_EPSILON ∨
        MAX (ctx.ROUND (Diceable.vLen ctx h0 h1 h3)) 1 < FLT_EPSILON) := by
  rintro (h | h)
  · exact absurd (lt_trans h FLT_EPSILON_lt_one) (not_lt.2 (MAX_ge _))
  · exact absurd (lt_trans h FLT_EPSILON_lt_one) (not_lt.2 (MAX_ge _))

theorem Diceable.cap_test {α : Type} (P : α) (a b g : ℚ) :
    (if a > g then (P, false) else if b > g then (P, false) else (P, true)) =
      (P, decide (a ≤ g ∧ b ≤ g)) := by
  by_cases hu : a > g
  · rw [if_pos hu, decide_eq_false (fun h => absurd hu (not_lt.2 h.1))]
  · rw [if_neg hu]
    by_cases hv : b > g
    · rw [if_pos hv, decide_eq_false (fun h => absurd hv (not_lt.2 h.2))]
    · rw [if_neg hv, decide_eq_true (⟨not_lt.1 hu, not_lt.1 hv⟩ : _ ∧ _)]

theorem Diceable.sizes_eq (ctx : DiceContext) (p : CqSurfaceSubdivisionPatch)
    (h0 h1 h2 h3 : ℚ × ℚ) :
    Diceable.sizes ctx p h0 h1 h2 h3 =
      ({ p with
          m_SplitDir := if Diceable.uLen ctx h0 h1 h2 h3 > Diceable.vLen ctx h0 h1 h3
            then EqSplitDir.SplitDir_U else EqSplitDir.SplitDir_V,
          m_uDiceSize :=
            ctx.CEIL_POW2 (truncate (MAX (ctx.ROUND (Diceable.uLen ctx h0 h1 h2 h3)) 1)),
          m_vDiceSize :=
            ctx.CEIL_POW2 (truncate (MAX (ctx.ROUND (Diceable.vLen ctx h0 h1 h3)) 1)) },
        decide
          (((ctx.CEIL_POW2 (truncate (MAX (ctx.ROUND (Diceable.uLen ctx h0 h1 h2 h3)) 1)) : Int)
              : ℚ) ≤ gridCap ctx ∧
            ((ctx.CEIL_POW2 (truncate (MAX (ctx.ROUND (Diceable.vLen ctx h0 h1 h3)) 1)) : Int)
              : ℚ) ≤ gridCap ctx)) := by
  unfold Diceable.sizes
  simp only [if_neg (Diceable.sizes_discard ctx h0 h1 h2 h3)]
  unfold gridCap
  cases hS : ctx.SqrtGridSize with
  | none => exact Diceable.cap_test _ _ _ _
  | some g => exact Diceable.cap_test _ _ _ _

theorem Diceable.reaches {ctx : DiceContext} {Qff : CqSubdivision2 → Nat → Option (List Nat)}
    {s : CqSubdivision2} {p : CqSurfaceSubdivisionPatch} {q0 q1 q2 q3 i0 i1 i2 i3 : Nat}
    (hd : p.m_fDiceable = true) (hc : s.CanUsePatch Qff p.m_pFace = some false)
    (hq : s.Qfv p.m_pFace = some [q0, q1, q2, q3])
    (h0 : s.VertexIndex q0 = some i0) (h1 : s.VertexIndex q1 = some i1)
    (h2 : s.VertexIndex q2 = some i2) (h3 : s.VertexIndex q3 = some i3) :
    Diceable ctx Qff s p = some (Diceable.sizes ctx p (ctx.raster i0) (ctx.raster i1)
      (ctx.raster i2) (ctx.raster i3)) := by
  unfold Diceable
  simp only [hd, Bool.not_true, Bool.false_eq_true, if_false, hc, Option.some_bind, hq, h0, h1,
    h2, h3]

end CqSurfaceSubdivisionPatch

namespace CqSurfaceSubdivisionMesh

theorem Split.split_loop (isBoundaryFacet isHoleFace : CqSubdivision2 → Nat → Bool)
    (s : CqSubdivision2) :
    ∀ (ks : List Nat) (acc : List Nat) (c : Nat), (∀ k ∈ ks, k < s.m_apFacets.length) →
      CqSubdivision2.forEach (Split.body isBoundaryFacet isHoleFace s) ks (acc, c) =
        some (acc ++ ks.filterMap (fun k =>
            if Eligible isBoundaryFacet isHoleFace s k then s.pFacet k else none),
          c + (ks.filter (Eligible isBoundaryFacet isHoleFace s)).length) := by
  intro ks
  induction ks with
  | nil => intro acc c _; simp [CqSubdivision2.forEach]
  | cons k rest ih =>
    intro acc c hk
    have hlt : k < s.m_apFacets.length := hk k (List.mem_cons_self _ _)
    have hrest : ∀ j ∈ rest, j < s.m_apFacets.length :=
      fun j hj => hk j (List.mem_cons_of_mem _ hj)
    have hpf : s.pFacet k = some (s.m_apFacets[k]) := by
      unfold CqSubdivision2.pFacet
      exact List.getElem?_eq_getElem hlt
    show (Split.body isBoundaryFacet isHoleFace s k (acc, c)).bind
      (CqSubdivision2.forEach (Split.body isBoundaryFacet isHoleFace s) rest) = _
    by_cases hb : ((!isBoundaryFacet s (s.m_apFacets[k])) || s.m_bInterpolateBoundary) = true
    · by_cases hh : (!isHoleFace s k) = true
      · have he : Eligible isBoundaryFacet isHoleFace s k = true := by
          unfold Eligible
          rw [hpf]
          simp only [Bool.and_eq_true, hh, true_and]
          rw [Bool.or_comm]
          exact hb
        have hbody : Split.body isBoundaryFacet isHoleFace s k (acc, c) =
            some (acc ++ [s.m_apFacets[k]], c + 1) := by
          unfold Split.body
          simp only [hpf, Option.some_bind, hb, hh, if_true]
        rw [hbody, Option.some_bind, ih _ _ hrest]
        simp only [List.filterMap_cons, he, if_true, hpf, List.filter_cons, List.length_cons,
          List.append_assoc, List.singleton_append]
        congr 2
        omega
      · have he : Eligible isBoundaryFacet isHoleFace s k = false := by
          unfold Eligible
          simp only [Bool.not_eq_true] at hh
          simp [hh]
        have hbody : Split.body isBoundaryFacet isHoleFace s k (acc, c) = some (acc, c) := by
          unfold Split.body
          simp only [hpf, Option.some_bind, hb, hh, if_true, if_false, Bool.false_eq_true]
        rw [hbody, Option.some_bind, ih _ _ hrest]
        simp [List.filterMap_cons, he, List.filter_cons]
    · have he : Eligible isBoundaryFacet isHoleFace s k = false := by
        unfold Eligible
        rw [hpf]
        simp only [Bool.not_eq_true] at hb
        rw [Bool.or_comm] at hb
        simp [hb]
      have hbody : Split.body isBoundaryFacet isHoleFace s k (acc, c) = some (acc, c) := by
        unfold Split.body
        simp only [hpf, Option.some_bind, hb, if_false, Bool.false_eq_true]
      rw [hbody, Option.some_bind, ih _ _ hrest]
      simp [List.filterMap_cons, he, List.filter_cons]

theorem Split.appended (e : Nat → Bool) (s : CqSubdivision2) :
    ∀ (ks : List Nat), (∀ k ∈ ks, k < s.m_apFacets.length) →
      (ks.filterMap (fun k => if e k then s.pFacet k else none)).map some =
        (ks.filter e).map s.pFacet := by
  intro ks
  induction ks with
  | nil => intro _; rfl
  | cons k rest ih =>
    intro hk
    have hlt : k < s.m_apFacets.length := hk k (List.mem_cons_self _ _)
    have hrest : ∀ j ∈ rest, j < s.m_apFacets.length :=
      fun j hj => hk j (List.mem_cons_of_mem _ hj)
    have hpf : s.pFacet k = some (s.m_apFacets[k]) := by
      unfold CqSubdivision2.pFacet
      exact List.getElem?_eq_getElem hlt
    by_cases he : e k = true
    · simp only [List.filterMap_cons, he, if_true, hpf, List.filter_cons, List.map_cons]
      rw [ih hrest]
    · simp only [List.filterMap_cons, he, if_false, Bool.false_eq_true, List.filter_cons]
      exact ih hrest

end CqSurfaceSubdivisionMesh

end Aqsis

namespace Aqsis
namespace CqSubdivision2

/-! ## Properties kept by every call of SubdivideFace -/

/-- The pre-pass of a call keeps whatever every call of smaller depth keeps. -/
theorem SubdivideFace.prepass_inv (Qff : CqSubdivision2 → Nat → Option (List Nat))
    (P : CqSubdivision2 → Prop) (d : Nat)
    (ih : ∀ (s : CqSubdivision2) (pFace : Nat) (s' : CqSubdivision2) (sub : List Nat),
      s.Valid → P s → SubdivideFace Qff d s pFace = some (s', sub) → P s')
    {s : CqSubdivision2} (hv : s.Valid) (hP : P s) (aQff : List Nat) {s1 : CqSubdivision2}
    (e1 : forEach (fun f st => (SubdivideFace Qff d st f).map Prod.fst) aQff s = some s1) :
    s1.Valid ∧ P s1 := by
  refine forEach_inv _ (fun st => st.Valid ∧ P st) aQff ?_ s s1 ⟨hv, hP⟩ e1
  intro f _ st st' hst est
  cases hS : SubdivideFace Qff d st f with
  | none => rw [hS] at est; cases est
  | some r =>
    rw [hS] at est
    simp only [Option.map_some', Option.some.injEq] at est
    subst est
    exact ⟨SubdivideFace_valid Qff d st f r.1 r.2 hst.1 hS, ih st f r.1 r.2 hst.1 hst.2 hS⟩

/-- A successful call of positive depth on a face that was not refined
before: the state after the pre-pass is well-formed, has every property every
call of smaller depth keeps, and the face is refined from it. -/
theorem SubdivideFace.late_keeps (Qff : CqSubdivision2 → Nat → Option (List Nat))
    (P : CqSubdivision2 → Prop) (d : Nat)
    (ih : ∀ (s : CqSubdivision2) (pFace : Nat) (s' : CqSubdivision2) (sub : List Nat),
      s.Valid → P s → SubdivideFace Qff d s pFace = some (s', sub) → P s')
    {s : CqSubdivision2} (hv : s.Valid) (hP : P s) {pFace : Nat} {l : CqLath}
    (hl : s.lath pFace = some l) (hf : l.m_pFaceVertex = none) {s' : CqSubdivision2}
    {sub : List Nat} (e : SubdivideFace Qff (d + 1) s pFace = some (s', sub)) :
    ∃ s0 aQfv k aV sc, s0.Valid ∧ P s0 ∧ SubdivideFace.refine s0 pFace = some (s', sub) ∧
      SubdivideFace.Refined s0 pFace s' sub aQfv k aV sc := by
  rw [SubdivideFace_late Qff d hl hf] at e
  have key : ∃ s1, s1.Valid ∧ P s1 ∧ SubdivideFace.refine s1 pFace = some (s', sub) := by
    cases hp : l.m_pParentFacet with
    | none =>
      rw [hp] at e
      exact ⟨s, hv, hP, e⟩
    | some par =>
      rw [hp] at e
      simp only at e
      cases hQ : Qff s par with
      | none => rw [hQ] at e; cases e
      | some aQff =>
        rw [hQ] at e
        simp only [Option.some_bind] at e
        cases hF : forEach (fun f st => (SubdivideFace Qff d st f).map Prod.fst) aQff s with
        | none => rw [hF] at e; cases e
        | some s1 =>
          rw [hF] at e
          obtain ⟨hv1, hP1⟩ := SubdivideFace.prepass_inv Qff P d ih hv hP aQff hF
          exact ⟨s1, hv1, hP1, e⟩
  obtain ⟨s1, hv1, hP1, e1⟩ := key
  obtain ⟨aQfv, k, aV, sc, href⟩ := SubdivideFace.refine_spec hv1 e1
  exact ⟨s1, aQfv, k, aV, sc, hv1, hP1, e1, href⟩

/-- A property kept by every refinement of one face in a well-formed
topology is kept by every successful call of `SubdivideFace`. -/
theorem SubdivideFace_induct (Qff : CqSubdivision2 → Nat → Option (List Nat))
    (P : CqSubdivision2 → Prop)
    (hstep : ∀ (t : CqSubdivision2) (f : Nat) (t2 : CqSubdivision2) (sub aQfv : List Nat)
      (k : Nat) (aV : List Nat) (sc : CqSubdivision2),
      t.Valid → P t → SubdivideFace.refine t f = some (t2, sub) →
      SubdivideFace.Refined t f t2 sub aQfv k aV sc → P t2) :
    ∀ (d : Nat) (s : CqSubdivision2) (pFace : Nat) (s' : CqSubdivision2) (sub : List Nat),
      s.Valid → P s → SubdivideFace Qff d s pFace = some (s', sub) → P s' := by
  intro d
  induction d with
  | zero => intro s pFace s' sub _ _ e; simp [SubdivideFace] at e
  | succ d ih =>
    intro s pFace s' sub hv hP e
    cases hl : s.lath pFace with
    | none => simp [SubdivideFace, hl] at e
    | some l =>
      cases hf : l.m_pFaceVertex with
      | some fv =>
        rw [SubdivideFace_early Qff d hl hf] at e
        cases hq : s.Qvf fv with
        | none => rw [hq] at e; cases e
        | some aQvf =>
          rw [hq] at e
          simp only [Option.some_bind] at e
          cases hm : aQvf.mapM (fun x => (s.ccf x).bind s.ccf) with
          | none => rw [hm] at e; cases e
          | some r =>
            rw [hm] at e
            simp only [Option.map_some', Option.some.injEq, Prod.mk.injEq] at e
            rw [← e.1]
            exact hP
      | none =>
        obtain ⟨s0, aQfv, k, aV, sc, hv0, hP0, e0, href⟩ :=
          SubdivideFace.late_keeps Qff P d ih hv hP hl hf e
        exact hstep s0 pFace s' sub aQfv k aV sc hv0 hP0 e0 href

end CqSubdivision2
end Aqsis

namespace Aqsis
namespace CqSubdivision2

/-! ## Sharpness tags -/

theorem find?_retag_self (m : List (Nat × ℚ)) (k : Nat) (v : ℚ) :
    ((k, v) :: m.filter (fun e => e.1 ≠ k)).find? (fun e => e.1 = k) = some (k, v) := by
  simp [List.find?_cons]

theorem find?_filter_other (m : List (Nat × ℚ)) {k h : Nat} (hne : h ≠ k) :
    (m.filter (fun e => e.1 ≠ k)).find? (fun e => e.1 = h) = m.find? (fun e => e.1 = h) := by
  induction m with
  | nil => rfl
  | cons a rest ih =>
    by_cases ha : a.1 = k
    · have h1 : ¬ a.1 = h := fun e => hne (e ▸ ha)
      rw [List.filter_cons_of_neg (by simpa using ha), List.find?_cons_of_neg _ (by simpa using h1)]
      exact ih
    · rw [List.filter_cons_of_pos (by simpa using ha)]
      by_cases h2 : a.1 = h
      · rw [List.find?_cons_of_pos _ (by simpa using h2),
          List.find?_cons_of_pos _ (by simpa using h2)]
      · rw [List.find?_cons_of_neg _ (by simpa using h2),
          List.find?_cons_of_neg _ (by simpa using h2)]
        exact ih

theorem find?_retag_other (m : List (Nat × ℚ)) {k h : Nat} (v : ℚ) (hne : h ≠ k) :
    ((k, v) :: m.filter (fun e => e.1 ≠ k)).find? (fun e => e.1 = h) =
      m.find? (fun e => e.1 = h) := by
  have h1 : ¬ k = h := fun e => hne e.symm
  rw [List.find?_cons_of_neg _ (by simpa using h1)]
  exact find?_filter_other m hne

theorem edgeTag_AddSharpEdge (s : CqSubdivision2) (k : Nat) (v : ℚ) (h : Nat) :
    (s.AddSharpEdge k v).edgeTag h = if h = k then some (k, v) else s.edgeTag h := by
  unfold edgeTag AddSharpEdge
  by_cases hk : h = k
  · rw [if_pos hk, hk]
    exact find?_retag_self _ k v
  · rw [if_neg hk]
    exact find?_retag_other _ v hk

theorem cornerTag_AddSharpCorner (s : CqSubdivision2) (k : Nat) (v : ℚ) (h : Nat) :
    (s.AddSharpCorner k v).cornerTag h = if h = k then some (k, v) else s.cornerTag h := by
  unfold cornerTag AddSharpCorner
  by_cases hk : h = k
  · rw [if_pos hk, hk]
    exact find?_retag_self _ k v
  · rw [if_neg hk]
    exact find?_retag_other _ v hk

theorem EdgeSharpness_of_tag {s t : CqSubdivision2} {h : Nat} (e : t.edgeTag h = s.edgeTag h) :
    t.EdgeSharpness h = s.EdgeSharpness h := by
  unfold EdgeSharpness
  unfold edgeTag at e
  rw [e]

theorem CornerSharpness_of_tag {s t : CqSubdivision2} {h : Nat}
    (e : t.cornerTag h = s.cornerTag h) : t.CornerSharpness h = s.CornerSharpness h := by
  unfold CornerSharpness
  unfold cornerTag at e
  rw [e]

theorem EdgeSharpness_of_some {s : CqSubdivision2} {h : Nat} {e : Nat × ℚ}
    (he : s.edgeTag h = some e) : s.EdgeSharpness h = e.2 := by
  unfold EdgeSharpness
  unfold edgeTag at he
  rw [he]

theorem EdgeSharpness_of_none {s : CqSubdivision2} {h : Nat}
    (he : s.edgeTag h = none) : s.EdgeSharpness h = 0 := by
  unfold EdgeSharpness
  unfold edgeTag at he
  rw [he]

theorem CornerSharpness_of_some {s : CqSubdivision2} {h : Nat} {e : Nat × ℚ}
    (he : s.cornerTag h = some e) : s.CornerSharpness h = e.2 := by
  unfold CornerSharpness
  unfold cornerTag at he
  rw [he]

theorem CornerSharpness_of_none {s : CqSubdivision2} {h : Nat}
    (he : s.cornerTag h = none) : s.CornerSharpness h = 0 := by
  unfold CornerSharpness
  unfold cornerTag at he
  rw [he]

theorem SubdivideFace.transferSharpness_eq (q qNext pA pB : Nat) (s : CqSubdivision2) :
    SubdivideFace.transferSharpness q qNext pA pB s =
      SubdivideFace.tagCorner q pA (SubdivideFace.tagEdge qNext pB
        (SubdivideFace.tagEdge q pA s)) := rfl

theorem SubdivideFace.tagEdge_edgeTag (q p : Nat) (s : CqSubdivision2) (h : Nat) :
    (SubdivideFace.tagEdge q p s).edgeTag h =
      if h = p ∧ 0 < s.EdgeSharpness q then some (p, TqFloat.mul (s.EdgeSharpness q) (s.EdgeSharpness q))
      else s.edgeTag h := by
  unfold SubdivideFace.tagEdge
  by_cases h1 : 0 < s.EdgeSharpness q
  · simp only [gt_iff_lt, h1, if_true, and_true]
    exact edgeTag_AddSharpEdge s p _ h
  · simp only [gt_iff_lt, h1, if_false, and_false]

theorem SubdivideFace.tagEdge_cornerTag (q p : Nat) (s : CqSubdivision2) (h : Nat) :
    (SubdivideFace.tagEdge q p s).cornerTag h = s.cornerTag h := by
  unfold SubdivideFace.tagEdge
  split <;> rfl

theorem SubdivideFace.tagCorner_edgeTag (q p : Nat) (s : CqSubdivision2) (h : Nat) :
    (SubdivideFace.tagCorner q p s).edgeTag h = s.edgeTag h := by
  unfold SubdivideFace.tagCorner
  split <;> rfl

theorem SubdivideFace.tagCorner_cornerTag (q p : Nat) (s : CqSubdivision2) (h : Nat) :
    (SubdivideFace.tagCorner q p s).cornerTag h =
      if h = p ∧ 0 < s.CornerSharpness q then some (p, s.CornerSharpness q)
      else s.cornerTag h := by
  unfold SubdivideFace.tagCorner
  by_cases h1 : 0 < s.CornerSharpness q
  · simp only [gt_iff_lt, h1, if_true, and_true]
    exact cornerTag_AddSharpCorner s p _ h
  · simp only [gt_iff_lt, h1, if_false, and_false]

/-- The edge tags after the part "Transfer sharpness information". -/
theorem SubdivideFace.transferSharpness_edgeTag (q qNext pA pB : Nat) (s : CqSubdivision2)
    (hqA : qNext ≠ pA) (h : Nat) :
    (SubdivideFace.transferSharpness q qNext pA pB s).edgeTag h =
      if h = pB ∧ 0 < s.EdgeSharpness qNext then
        some (pB, TqFloat.mul (s.EdgeSharpness qNext) (s.EdgeSharpness qNext))
      else if h = pA ∧ 0 < s.EdgeSharpness q then
        some (pA, TqFloat.mul (s.EdgeSharpness q) (s.EdgeSharpness q))
      else s.edgeTag h := by
  have hN : (SubdivideFace.tagEdge q pA s).EdgeSharpness qNext = s.EdgeSharpness qNext :=
    EdgeSharpness_of_tag (by
      rw [SubdivideFace.tagEdge_edgeTag]
      exact if_neg (fun hc => hqA hc.1))
  rw [SubdivideFace.transferSharpness_eq, SubdivideFace.tagCorner_edgeTag,
    SubdivideFace.tagEdge_edgeTag, hN, SubdivideFace.tagEdge_edgeTag]

/-- The corner tags after the part "Transfer sharpness information". -/
theorem SubdivideFace.transferSharpness_cornerTag (q qNext pA pB : Nat) (s : CqSubdivision2)
    (h : Nat) :
    (SubdivideFace.transferSharpness q qNext pA pB s).cornerTag h =
      if h = pA ∧ 0 < s.CornerSharpness q then some (pA, s.CornerSharpness q)
      else s.cornerTag h := by
  have hC : (SubdivideFace.tagEdge qNext pB (SubdivideFace.tagEdge q pA s)).CornerSharpness q =
      s.CornerSharpness q :=
    CornerSharpness_of_tag (by
      rw [SubdivideFace.tagEdge_cornerTag, SubdivideFace.tagEdge_cornerTag])
  rw [SubdivideFace.transferSharpness_eq, SubdivideFace.tagCorner_cornerTag, hC,
    SubdivideFace.tagEdge_cornerTag, SubdivideFace.tagEdge_cornerTag]

end CqSubdivision2
end Aqsis

namespace Aqsis
namespace CqSubdivision2

/-! ## The tags the lath-creating loop sets -/

theorem SubdivideFace.createFace_tags (pFace : Nat) (aQfv aV : List Nat) (n i : Nat)
    (st st' : SubdivideFace.CreateState) {vA vB vC vD q qNext : Nat}
    (hvA : aV[i]? = some vA) (hvB : aV[(i + 1) % n + n]? = some vB)
    (hvC : aV[2 * n]? = some vC) (hvD : aV[i + n]? = some vD)
    (hq : aQfv[i]? = some q) (hqN : aQfv[(i + 1) % n]? = some qNext)
    (hA : vA < st.1.m_aapVertices.length) (hB : vB < st.1.m_aapVertices.length)
    (hC : vC < st.1.m_aapVertices.length) (hD : vD < st.1.m_aapVertices.length)
    (hqlt : qNext < st.1.m_apLaths.length)
    (e : SubdivideFace.createFace pFace aQfv aV n i st = some st') :
    (∀ h, st'.1.edgeTag h =
      if h = st.1.m_apLaths.length + 1 ∧ 0 < st.1.EdgeSharpness qNext then
        some (st.1.m_apLaths.length + 1,
          TqFloat.mul (st.1.EdgeSharpness qNext) (st.1.EdgeSharpness qNext))
      else if h = st.1.m_apLaths.length ∧ 0 < st.1.EdgeSharpness q then
        some (st.1.m_apLaths.length, TqFloat.mul (st.1.EdgeSharpness q) (st.1.EdgeSharpness q))
      else st.1.edgeTag h) ∧
    (∀ h, st'.1.cornerTag h =
      if h = st.1.m_apLaths.length ∧ 0 < st.1.CornerSharpness q then
        some (st.1.m_apLaths.length, st.1.CornerSharpness q)
      else st.1.cornerTag h) := by
  rw [SubdivideFace.createFace_eq pFace aQfv aV n i st hvA hvB hvC hvD hq hqN hA hB hC hD] at e
  change ((SubdivideFace.allocated pFace vA vB vC vD st.1).vertexChain q).bind _ = _ at e
  cases hch : (SubdivideFace.allocated pFace vA vB vC vD st.1).vertexChain q with
  | none => rw [hch] at e; cases e
  | some chain =>
    rw [hch] at e
    simp only [Option.some_bind] at e
    change ((markChild (SubdivideFace.allocated pFace vA vB vC vD st.1) chain
      st.1.m_apLaths.length).setLath q _).bind _ = _ at e
    cases hs2 : (markChild (SubdivideFace.allocated pFace vA vB vC vD st.1) chain
      st.1.m_apLaths.length).setLath q
      (fun l => { l with m_pMidVertex := some (st.1.m_apLaths.length + 3) }) with
    | none => rw [hs2] at e; cases e
    | some s2 =>
      rw [hs2] at e
      simp only [Option.some_bind, Option.some.injEq] at e
      obtain ⟨l0, _, hs2'⟩ := setLath_eq_some hs2
      have hE : ∀ x, s2.edgeTag x = st.1.edgeTag x := by
        intro x; rw [hs2']; rfl
      have hCn : ∀ x, s2.cornerTag x = st.1.cornerTag x := by
        intro x; rw [hs2']; rfl
      have hne : qNext ≠ st.1.m_apLaths.length := by omega
      subst e
      constructor
      · intro h
        change (SubdivideFace.transferSharpness q qNext st.1.m_apLaths.length
          (st.1.m_apLaths.length + 1) s2).edgeTag h = _
        rw [SubdivideFace.transferSharpness_edgeTag _ _ _ _ _ hne,
          EdgeSharpness_of_tag (hE qNext), EdgeSharpness_of_tag (hE q), hE h]
      · intro h
        change (SubdivideFace.transferSharpness q qNext st.1.m_apLaths.length
          (st.1.m_apLaths.length + 1) s2).cornerTag h = _
        rw [SubdivideFace.transferSharpness_cornerTag,
          CornerSharpness_of_tag (hCn q), hCn h]

/-- The tags after the lath-creating loop. -/
theorem SubdivideFace.tagged_of_loop {s : CqSubdivision2} {pFace : Nat} {aQfv aV : List Nat}
    {st : SubdivideFace.CreateState}
    (hV : aV.length = 2 * aQfv.length + 1)
    (hlt : ∀ v ∈ aV, v < s.m_aapVertices.length)
    (hptr : ∀ l ∈ s.m_apLaths,
      (∀ c, l.m_pChildVertex = some c → c < s.m_apLaths.length) ∧
      (∀ m, l.m_pMidVertex = some m → m < s.m_apLaths.length))
    (hq : ∀ q ∈ aQfv, q < s.m_apLaths.length)
    (e : forEach (SubdivideFace.createFace pFace aQfv aV aQfv.length) (List.range aQfv.length)
      (s, [], []) = some st) :
    SubdivideFace.Tagged s aQfv aQfv.length st.1 := by
  have key := forEach_range_inv (SubdivideFace.createFace pFace aQfv aV aQfv.length)
    (fun i st => SubdivideFace.Created s.m_apLaths s.m_aapVertices s.m_apFacets s.aUserParams
      pFace aV aQfv.length i st ∧ SubdivideFace.Tagged s aQfv i st.1) aQfv.length ?_
    (s, [], []) st
    ⟨SubdivideFace.Created.created_zero s pFace aV aQfv.length hptr,
      ⟨fun j hj => absurd hj (Nat.not_lt_zero j), fun j hj => absurd hj (Nat.not_lt_zero j),
        fun _ _ => rfl, fun j hj => absurd hj (Nat.not_lt_zero j), fun _ _ => rfl⟩⟩ e
  · exact key.2
  intro i hi st1 st2 ⟨hc, ht⟩ e1
  obtain ⟨chain, _, hstep⟩ := SubdivideFace.Created.iter rfl hV hlt hi hc e1
  refine ⟨hc.created_step hstep, ?_⟩
  have hm : (i + 1) % aQfv.length < aQfv.length := Nat.mod_lt _ (by omega)
  have htl : st1.1.m_aapVertices.length = s.m_aapVertices.length := by
    rw [hc.table, SubdivideFace.tableAfter_length]
  have hlen : st1.1.m_apLaths.length = s.m_apLaths.length + 4 * i := hc.created_length
  have hq1 : aQfv.getD i 0 < s.m_apLaths.length := hq _ (getD_mem_of_lt aQfv i 0 hi)
  have hq2 : aQfv.getD ((i + 1) % aQfv.length) 0 < s.m_apLaths.length :=
    hq _ (getD_mem_of_lt aQfv _ 0 hm)
  obtain ⟨hE, hC⟩ := SubdivideFace.createFace_tags pFace aQfv aV aQfv.length i st1 st2
    (getElem?_getD_of_lt aV i 0 (by omega)) (getElem?_getD_of_lt aV _ 0 (by omega))
    (getElem?_getD_of_lt aV _ 0 (by omega)) (getElem?_getD_of_lt aV _ 0 (by omega))
    (getElem?_getD_of_lt aQfv i 0 (by omega)) (getElem?_getD_of_lt aQfv _ 0 (by omega))
    (htl ▸ hlt _ (getD_mem_of_lt aV _ 0 (by omega)))
    (htl ▸ hlt _ (getD_mem_of_lt aV _ 0 (by omega)))
    (htl ▸ hlt _ (getD_mem_of_lt aV _ 0 (by omega)))
    (htl ▸ hlt _ (getD_mem_of_lt aV _ 0 (by omega))) (by omega) e1
  have hold : ∀ x, x < s.m_apLaths.length →
      st1.1.edgeTag x = s.edgeTag x ∧ st1.1.cornerTag x = s.cornerTag x := fun x hx =>
    ⟨ht.edgeRest x (fun j _ => ⟨by omega, by omega⟩), ht.cornerRest x (fun j _ => by omega)⟩
  have hE1 : st1.1.EdgeSharpness (aQfv.getD i 0) = s.EdgeSharpness (aQfv.getD i 0) :=
    EdgeSharpness_of_tag (hold _ hq1).1
  have hE2 : st1.1.EdgeSharpness (aQfv.getD ((i + 1) % aQfv.length) 0) =
      s.EdgeSharpness (aQfv.getD ((i + 1) % aQfv.length) 0) :=
    EdgeSharpness_of_tag (hold _ hq2).1
  have hC1 : st1.1.CornerSharpness (aQfv.getD i 0) = s.CornerSharpness (aQfv.getD i 0) :=
    CornerSharpness_of_tag (hold _ hq1).2
  rw [hlen, hE1, hE2] at hE
  rw [hlen, hC1] at hC
  refine ⟨?_, ?_, ?_, ?_, ?_⟩
  · intro j hj
    rw [hE]
    rw [if_neg (fun hc2 => absurd hc2.1 (by omega))]
    by_cases hji : j = i
    · subst hji
      by_cases hpos : 0 < s.EdgeSharpness (aQfv.getD j 0)
      · rw [if_pos ⟨rfl, hpos⟩, if_pos hpos]
      · rw [if_neg (fun hc2 => hpos hc2.2), if_neg hpos]
        exact ht.edgeRest _ (fun j2 hj2 => ⟨by omega, by omega⟩)
    · rw [if_neg (fun hc2 => absurd hc2.1 (by omega))]
      exact ht.edgeA j (by omega)
  · intro j hj
    rw [hE]
    by_cases hji : j = i
    · subst hji
      by_cases hpos : 0 < s.EdgeSharpness (aQfv.getD ((j + 1) % aQfv.length) 0)
      · rw [if_pos ⟨rfl, hpos⟩, if_pos hpos]
      · rw [if_neg (fun hc2 => hpos hc2.2), if_neg hpos,
          if_neg (fun hc2 => absurd hc2.1 (by omega))]
        exact ht.edgeRest _ (fun j2 hj2 => ⟨by omega, by omega⟩)
    · rw [if_neg (fun hc2 => absurd hc2.1 (by omega)),
        if_neg (fun hc2 => absurd hc2.1 (by omega))]
      exact ht.edgeB j (by omega)
  · intro h hh
    rw [hE]
    have hi1 := hh i (Nat.lt_succ_self i)
    rw [if_neg (fun hc2 => hi1.2 hc2.1), if_neg (fun hc2 => hi1.1 hc2.1)]
    exact ht.edgeRest h (fun j hj => hh j (by omega))
  · intro j hj
    rw [hC]
    by_cases hji : j = i
    · subst hji
      by_cases hpos : 0 < s.CornerSharpness (aQfv.getD j 0)
      · rw [if_pos ⟨rfl, hpos⟩, if_pos hpos]
      · rw [if_neg (fun hc2 => hpos hc2.2), if_neg hpos]
        exact ht.cornerRest _ (fun j2 hj2 => by omega)
    · rw [if_neg (fun hc2 => absurd hc2.1 (by omega))]
      exact ht.cornerA j (by omega)
  · intro h hh
    rw [hC]
    have hi1 := hh i (Nat.lt_succ_self i)
    rw [if_neg (fun hc2 => hi1 hc2.1)]
    exact ht.cornerRest h (fun j hj => hh j (by omega))

/-! ## The linking loops leave the sharpness maps alone -/

theorem SameSharp.sharp_refl (s : CqSubdivision2) : SameSharp s s := ⟨rfl, rfl⟩

theorem SameSharp.sharp_trans {a b c : CqSubdivision2} (h1 : SameSharp a b) (h2 : SameSharp b c) :
    SameSharp a c := ⟨h2.1.trans h1.1, h2.2.trans h1.2⟩

theorem setLath_sameSharp {s s' : CqSubdivision2} {h : Nat} {g : CqLath → CqLath}
    (e : s.setLath h g = some s') : SameSharp s s' := by
  obtain ⟨l, _, rfl⟩ := setLath_eq_some e
  exact ⟨rfl, rfl⟩

theorem forEach_sameSharp {α : Type} (body : α → CqSubdivision2 → Option CqSubdivision2)
    (hb : ∀ a st st', body a st = some st' → SameSharp st st') (l : List α)
    {s s' : CqSubdivision2} (e : forEach body l s = some s') : SameSharp s s' :=
  forEach_inv body (fun st => SameSharp s st) l
    (fun a _ st st' hst est => hst.sharp_trans (hb a st st' est)) s s' (SameSharp.sharp_refl s) e

theorem ite_setLath_sameSharp {s s' : CqSubdivision2} {c : Prop} [Decidable c] {h : Nat}
    {g : CqLath → CqLath} (e : (if c then s.setLath h g else some s) = some s') :
    SameSharp s s' := by
  by_cases hc : c
  · rw [if_pos hc] at e
    exact setLath_sameSharp e
  · rw [if_neg hc] at e
    cases e
    exact SameSharp.sharp_refl s

end CqSubdivision2
end Aqsis

namespace Aqsis
namespace CqSubdivision2

theorem SubdivideFace.linkCorner_sameSharp (f : SqFaceLathList) (X : Nat)
    (s s' : CqSubdivision2) (e : SubdivideFace.linkCorner f X s = some s') : SameSharp s s' := by
  unfold SubdivideFace.linkCorner at e
  cases h1 : (s.cfD X).bind s.VertexIndex with
  | none => simp [h1] at e
  | some v =>
    cases h2 : s.VertexIndex f.pD with
    | none => simp [h1, h2] at e
    | some vD =>
      simp only [h1, h2] at e
      cases h3 : (if v = vD then
          s.setLath f.pA (fun l => { l with m_pClockwiseVertex := some X }) else some s) with
      | none => rw [h3] at e; cases e
      | some s1 =>
        rw [h3] at e
        simp only [Option.some_bind] at e
        have r1 := ite_setLath_sameSharp h3
        cases h4 : (s1.ccf X).bind s1.VertexIndex with
        | none => simp [h4] at e
        | some v2 =>
          cases h5 : s1.VertexIndex f.pB with
          | none => simp [h4, h5] at e
          | some vB =>
            simp only [h4, h5] at e
            exact r1.sharp_trans (ite_setLath_sameSharp e)

theorem SubdivideFace.linkFace_sameSharp (aQfv : List Nat) (apFaceLaths : List SqFaceLathList)
    (n i : Nat) (s s' : CqSubdivision2)
    (e : SubdivideFace.linkFace aQfv apFaceLaths n i s = some s') : SameSharp s s' := by
  unfold SubdivideFace.linkFace at e
  cases h1 : aQfv[i]? with
  | none => simp [h1] at e
  | some q =>
    cases h2 : apFaceLaths[i]? with
    | none => simp [h1, h2] at e
    | some f =>
      cases h3 : apFaceLaths[(i + 1) % n]? with
      | none => simp [h1, h2, h3] at e
      | some fNext =>
        simp only [h1, h2, h3] at e
        cases e1 : s.setLath q (fun l => { l with m_pFaceVertex := some f.pC }) with
        | none => rw [e1] at e; cases e
        | some s1 =>
          rw [e1] at e
          simp only [Option.some_bind] at e
          cases e2 : s1.setLath fNext.pD (fun l => { l with m_pClockwiseVertex := some f.pB }) with
          | none => rw [e2] at e; cases e
          | some s2 =>
            rw [e2] at e
            simp only [Option.some_bind] at e
            cases e3 : s2.setLath f.pC
                (fun l => { l with m_pClockwiseVertex := some fNext.pC }) with
            | none => rw [e3] at e; cases e
            | some s3 =>
              rw [e3] at e
              simp only [Option.some_bind] at e
              cases e4 : s3.VertexIndex f.pA with
              | none => rw [e4] at e; cases e
              | some vA =>
                rw [e4] at e
                simp only [Option.some_bind] at e
                cases e5 : s3.m_aapVertices[vA]? with
                | none => rw [e5] at e; cases e
                | some adj =>
                  rw [e5] at e
                  simp only [Option.some_bind] at e
                  exact (((setLath_sameSharp e1).sharp_trans (setLath_sameSharp e2)).sharp_trans
                    (setLath_sameSharp e3)).sharp_trans
                    (forEach_sameSharp _ (SubdivideFace.linkCorner_sameSharp f) adj e)

theorem SubdivideFace.linkEdgeB_sameSharp (f : SqFaceLathList) (X : Nat)
    (s s' : CqSubdivision2) (e : SubdivideFace.linkEdgeB f X s = some s') : SameSharp s s' := by
  unfold SubdivideFace.linkEdgeB at e
  cases h1 : (s.cfD X).bind s.VertexIndex with
  | none => simp [h1] at e
  | some v =>
    cases h2 : s.VertexIndex f.pA with
    | none => simp [h1, h2] at e
    | some vA =>
      simp only [h1, h2] at e
      exact ite_setLath_sameSharp e

theorem SubdivideFace.linkEdgeD_sameSharp (f : SqFaceLathList) (X : Nat)
    (s s' : CqSubdivision2) (e : SubdivideFace.linkEdgeD f X s = some s') : SameSharp s s' := by
  unfold SubdivideFace.linkEdgeD at e
  cases h1 : (s.ccf X).bind s.VertexIndex with
  | none => simp [h1] at e
  | some v =>
    cases h2 : s.VertexIndex f.pA with
    | none => simp [h1, h2] at e
    | some vA =>
      simp only [h1, h2] at e
      exact ite_setLath_sameSharp e

theorem SubdivideFace.linkEdge_sameSharp (apFaceLaths : List SqFaceLathList) (i : Nat)
    (s s' : CqSubdivision2) (e : SubdivideFace.linkEdge apFaceLaths i s = some s') :
    SameSharp s s' := by
  unfold SubdivideFace.linkEdge at e
  cases h1 : apFaceLaths[i]? with
  | none => simp [h1] at e
  | some f =>
    simp only [h1] at e
    cases e1 : s.VertexIndex f.pB with
    | none => rw [e1] at e; cases e
    | some vB =>
      rw [e1] at e
      simp only [Option.some_bind] at e
      cases e2 : s.m_aapVertices[vB]? with
      | none => rw [e2] at e; cases e
      | some adjB =>
        rw [e2] at e
        simp only [Option.some_bind] at e
        cases e3 : forEach (SubdivideFace.linkEdgeB f) adjB s with
        | none => rw [e3] at e; cases e
        | some s1 =>
          rw [e3] at e
          simp only [Option.some_bind] at e
          cases e4 : s1.VertexIndex f.pD with
          | none => rw [e4] at e; cases e
          | some vD =>
            rw [e4] at e
            simp only [Option.some_bind] at e
            cases e5 : s1.m_aapVertices[vD]? with
            | none => rw [e5] at e; cases e
            | some adjD =>
              rw [e5] at e
              simp only [Option.some_bind] at e
              exact (forEach_sameSharp _ (SubdivideFace.linkEdgeB_sameSharp f) adjB e3).sharp_trans
                (forEach_sameSharp _ (SubdivideFace.linkEdgeD_sameSharp f) adjD e)

theorem SubdivideFace.Tagged.of_sameSharp {s t t2 : CqSubdivision2} {aQfv : List Nat} {i : Nat}
    (ht : SubdivideFace.Tagged s aQfv i t) (h : SameSharp t t2) :
    SubdivideFace.Tagged s aQfv i t2 := by
  have hE : ∀ x, t2.edgeTag x = t.edgeTag x := fun x => by unfold edgeTag; rw [h.1]
  have hC : ∀ x, t2.cornerTag x = t.cornerTag x := fun x => by unfold cornerTag; rw [h.2]
  exact ⟨fun j hj => (hE _).trans (ht.edgeA j hj), fun j hj => (hE _).trans (ht.edgeB j hj),
    fun x hx => (hE _).trans (ht.edgeRest x hx), fun j hj => (hC _).trans (ht.cornerA j hj),
    fun x hx => (hC _).trans (ht.cornerRest x hx)⟩

/-- The sharpness tags after a successful refinement. -/
theorem SubdivideFace.refine_tagged {s : CqSubdivision2} (hv : s.Valid) {pFace : Nat}
    {s' : CqSubdivision2} {sub aQfv : List Nat} (hq : s.Qfv pFace = some aQfv)
    (e : SubdivideFace.refine s pFace = some (s', sub)) :
    SubdivideFace.Tagged s aQfv aQfv.length s' := by
  obtain ⟨hpl, hring, tl, htl⟩ := hv.qfv hq
  rw [SubdivideFace.refine_eq hv.params, hq] at e
  simp only [Option.some_bind] at e
  cases hp : SubdivideFace.aVertices s aQfv with
  | none => rw [hp] at e; cases e
  | some kv =>
    rw [hp] at e
    simp only [Option.some_bind] at e
    cases hc : forEach (SubdivideFace.createFace pFace aQfv kv.2 aQfv.length)
        (List.range aQfv.length) (growBy kv.1 s, [], []) with
    | none => rw [hc] at e; cases e
    | some st =>
      rw [hc] at e
      simp only [Option.some_bind] at e
      cases e1 : forEach (SubdivideFace.linkFace aQfv st.2.1 aQfv.length)
          (List.range aQfv.length) st.1 with
      | none => rw [e1] at e; cases e
      | some s1 =>
        rw [e1] at e
        simp only [Option.some_bind] at e
        cases e2 : forEach (SubdivideFace.linkEdge st.2.1) (List.range aQfv.length) s1 with
        | none => rw [e2] at e; cases e
        | some s2 =>
          rw [e2] at e
          simp only [Option.some_bind, Option.some.injEq, Prod.mk.injEq] at e
          obtain ⟨rfl, _⟩ := e
          obtain ⟨hV, hk, hlt, hTT, hne⟩ := SubdivideFace.aVertices_spec hv
            (show SubdivideFace.aVertices s aQfv = some (kv.1, kv.2) from hp)
          have hv0 := hv.growBy kv.1
          have hlt0 : ∀ v ∈ kv.2, v < (growBy kv.1 s).m_aapVertices.length := by
            intro v hvm
            rw [growBy_table_length]
            exact hlt v hvm
          have ht := SubdivideFace.tagged_of_loop (s := growBy kv.1 s) hV hlt0 hv0.childMid
            (fun q hq' => hring.lt q hq') hc
          have ht2 : SubdivideFace.Tagged s aQfv aQfv.length st.1 :=
            ⟨ht.edgeA, ht.edgeB, ht.edgeRest, ht.cornerA, ht.cornerRest⟩
          exact ht2.of_sameSharp
            ((forEach_sameSharp _ (SubdivideFace.linkFace_sameSharp aQfv st.2.1 aQfv.length)
              _ e1).sharp_trans
              (forEach_sameSharp _ (SubdivideFace.linkEdge_sameSharp st.2.1) _ e2))

end CqSubdivision2
end Aqsis

namespace Aqsis
namespace CqSubdivision2

/-! ## A refinement only appends -/

theorem getElem?_of_isPrefix {α : Type} {l1 l2 : List α} (h : l1 <+: l2) {i : Nat}
    (hi : i < l1.length) : l2[i]? = l1[i]? := by
  obtain ⟨t, rfl⟩ := h
  exact List.getElem?_append_left hi

theorem Grows.grows_refl (s : CqSubdivision2) : Grows s s :=
  ⟨List.prefix_refl _, List.prefix_refl _, fun _ a h => ⟨a, h, List.prefix_refl _⟩,
    fun _ _ => rfl, fun _ _ => rfl⟩

theorem Grows.grows_length {s t : CqSubdivision2} (h : Grows s t) :
    s.m_apLaths.length ≤ t.m_apLaths.length := by
  have := h.laths.length_le
  simpa using this

theorem Grows.grows_trans {a b c : CqSubdivision2} (h1 : Grows a b) (h2 : Grows b c) : Grows a c := by
  refine ⟨h1.laths.trans h2.laths, h1.facets.trans h2.facets, ?_, ?_, ?_⟩
  · intro v x hx
    obtain ⟨y, hy, hxy⟩ := h1.table v x hx
    obtain ⟨z, hz, hyz⟩ := h2.table v y hy
    exact ⟨z, hz, hxy.trans hyz⟩
  · intro h hh
    rw [h2.edges h (lt_of_lt_of_le hh h1.grows_length), h1.edges h hh]
  · intro h hh
    rw [h2.corners h (lt_of_lt_of_le hh h1.grows_length), h1.corners h hh]

theorem core_dropCM (l : CqLath) : CqLath.core (CqLath.dropCM l) = CqLath.core l := rfl

theorem core_dropCF (l : CqLath) : CqLath.core (CqLath.dropCF l) = CqLath.core l := rfl

theorem map_core_of_dropCM {L1 L2 : List CqLath}
    (h : L1.map CqLath.dropCM = L2) : L1.map CqLath.core = L2.map CqLath.core := by
  subst h
  rw [List.map_map]
  rfl

theorem map_core_of_dropCF {L1 L2 : List CqLath}
    (h : L1.map CqLath.dropCF = L2.map CqLath.dropCF) :
    L1.map CqLath.core = L2.map CqLath.core := by
  have h2 := congrArg (List.map CqLath.core) h
  rw [List.map_map, List.map_map] at h2
  exact h2

theorem modify_append_grows (l : List (List Nat)) (x i : Nat) {v : Nat} {a : List Nat}
    (h : l[v]? = some a) :
    ∃ a2, (l.modify (fun e => e ++ [x]) i)[v]? = some a2 ∧ a <+: a2 := by
  rw [List.getElem?_modify, h]
  by_cases hi : i = v
  · exact ⟨a ++ [x], by simp [hi], List.prefix_append _ _⟩
  · exact ⟨a, by simp [hi], List.prefix_refl _⟩

theorem SubdivideFace.hitFour_grows (table : List (List Nat)) (base vA vB vC vD : Nat)
    {v : Nat} {a : List Nat} (h : table[v]? = some a) :
    ∃ a2, (SubdivideFace.hitFour table base vA vB vC vD)[v]? = some a2 ∧ a <+: a2 := by
  unfold SubdivideFace.hitFour
  obtain ⟨a1, h1, p1⟩ := modify_append_grows table base vA h
  obtain ⟨a2, h2, p2⟩ := modify_append_grows _ (base + 1) vB h1
  obtain ⟨a3, h3, p3⟩ := modify_append_grows _ (base + 2) vC h2
  obtain ⟨a4, h4, p4⟩ := modify_append_grows _ (base + 3) vD h3
  exact ⟨a4, h4, ((p1.trans p2).trans p3).trans p4⟩

theorem SubdivideFace.tableAfter_grows (table : List (List Nat)) (N : Nat) (aV : List Nat)
    (n : Nat) {v : Nat} {a : List Nat} (h : table[v]? = some a) :
    ∀ i, ∃ a2, (SubdivideFace.tableAfter table N aV n i)[v]? = some a2 ∧ a <+: a2 := by
  intro i
  induction i with
  | zero => exact ⟨a, h, List.prefix_refl _⟩
  | succ i ih =>
    obtain ⟨a1, h1, p1⟩ := ih
    obtain ⟨a2, h2, p2⟩ := SubdivideFace.hitFour_grows _ (N + 4 * i) (aV.getD i 0)
      (aV.getD ((i + 1) % n + n) 0) (aV.getD (2 * n) 0) (aV.getD (i + n) 0) h1
    exact ⟨a2, h2, p1.trans p2⟩

/-- A successful refinement only appends. -/
theorem SubdivideFace.Refined.grows {s s' : CqSubdivision2} (hv : s.Valid) {pFace : Nat}
    {sub aQfv : List Nat} {k : Nat} {aV : List Nat} {sc : CqSubdivision2}
    (e : SubdivideFace.refine s pFace = some (s', sub))
    (hr : SubdivideFace.Refined s pFace s' sub aQfv k aV sc) : Grows s s' := by
  have ht := SubdivideFace.refine_tagged hv hr.qfv e
  refine ⟨?_, ?_, ?_, ?_, ?_⟩
  · rw [map_core_of_dropCF hr.link.same, map_core_of_dropCM hr.created.laths, List.map_append,
      List.map_map]
    exact List.prefix_append _ _
  · rw [hr.facets]
    exact List.prefix_append _ _
  · intro v a h
    rw [hr.link.table, hr.created.table]
    refine SubdivideFace.tableAfter_grows _ _ _ _ ?_ _
    show (s.m_aapVertices ++ List.replicate k [])[v]? = some a
    have hlt : v < s.m_aapVertices.length := by
      by_contra hc
      rw [List.getElem?_eq_none (by omega)] at h
      cases h
    rw [List.getElem?_append_left hlt]
    exact h
  · intro h hh
    exact ht.edgeRest h (fun j _ => ⟨by omega, by omega⟩)
  · intro h hh
    exact ht.cornerRest h (fun j _ => by omega)

/-- Every successful call of `SubdivideFace` only appends. -/
theorem SubdivideFace_grows (Qff : CqSubdivision2 → Nat → Option (List Nat)) (d : Nat)
    {s : CqSubdivision2} (hv : s.Valid) {pFace : Nat} {s' : CqSubdivision2} {sub : List Nat}
    (e : SubdivideFace Qff d s pFace = some (s', sub)) : Grows s s' :=
  SubdivideFace_induct Qff (fun t => Grows s t)
    (fun _ _ _ _ _ _ _ _ hvt hg et hrt => hg.grows_trans (hrt.grows hvt et))
    d s pFace s' sub hv (Grows.grows_refl s) e

end CqSubdivision2
end Aqsis

namespace Aqsis
namespace CqSubdivision2

/-! ## Old laths in a grown state -/

theorem Grows.core_eq {s t : CqSubdivision2} (hg : Grows s t) {h : Nat} {l : CqLath}
    (hl : s.lath h = some l) :
    ∃ l2, t.lath h = some l2 ∧ l2.m_VertexIndex = l.m_VertexIndex ∧
      l2.m_pClockwiseFacet = l.m_pClockwiseFacet ∧ l2.m_pParentFacet = l.m_pParentFacet := by
  have hlt : h < (s.m_apLaths.map CqLath.core).length := by
    rw [List.length_map]; exact lath_lt hl
  have e := getElem?_of_isPrefix hg.laths hlt
  rw [List.getElem?_map, List.getElem?_map] at e
  unfold lath at hl ⊢
  rw [hl] at e
  cases ht : t.m_apLaths[h]? with
  | none => rw [ht] at e; cases e
  | some l2 =>
    rw [ht] at e
    simp only [Option.map_some', Option.some.injEq, CqLath.core, Prod.mk.injEq] at e
    exact ⟨l2, rfl, e.1, e.2.1, e.2.2⟩

theorem Grows.cfD_eq {s t : CqSubdivision2} (hg : Grows s t) {h : Nat}
    (hh : h < s.m_apLaths.length) : t.cfD h = s.cfD h := by
  obtain ⟨l, hl⟩ : ∃ l, s.lath h = some l := ⟨s.m_apLaths[h], List.getElem?_eq_getElem hh⟩
  obtain ⟨l2, hl2, _, hcf, _⟩ := hg.core_eq hl
  unfold cfD
  rw [hl, hl2]
  exact hcf

theorem Grows.ring {s t : CqSubdivision2} (hg : Grows s t) {ring : List Nat}
    (hr : s.IsRing ring) : t.IsRing ring :=
  IsRing.ring_congr (fun x hx => hg.cfD_eq (hr.lt x hx)) hr

theorem Grows.grows_qfv {s t : CqSubdivision2} (hv : s.Valid) (hg : Grows s t) {f : Nat}
    {aQfv : List Nat} (hq : s.Qfv f = some aQfv) : t.Qfv f = some aQfv := by
  obtain ⟨_, hring, tl, rfl⟩ := hv.qfv hq
  exact Qfv_of_ring (hg.ring hring)

/-! ## Tags on laths only -/

theorem SharpKeys.refined {s s' : CqSubdivision2} (hk : s.SharpKeys) {aQfv : List Nat}
    (ht : SubdivideFace.Tagged s aQfv aQfv.length s')
    (hlen : s'.m_apLaths.length = s.m_apLaths.length + 4 * aQfv.length) : s'.SharpKeys := by
  intro h hh
  rw [hlen] at hh
  exact ⟨(ht.edgeRest h (fun j hj => ⟨by omega, by omega⟩)).trans (hk h (by omega)).1,
    (ht.cornerRest h (fun j hj => by omega)).trans (hk h (by omega)).2⟩

theorem SharpKeys.of_nil {s : CqSubdivision2} (h1 : s.m_mapSharpEdges = [])
    (h2 : s.m_mapSharpCorners = []) : s.SharpKeys := by
  intro h _
  unfold edgeTag cornerTag
  rw [h1, h2]
  exact ⟨rfl, rfl⟩

theorem SharpKeys.keys_addSharpCorner {s : CqSubdivision2} (hk : s.SharpKeys) {k : Nat}
    (hlt : k < s.m_apLaths.length) (v : ℚ) : (s.AddSharpCorner k v).SharpKeys := by
  intro h hh
  have hh2 : s.m_apLaths.length ≤ h := hh
  refine ⟨(hk h hh2).1, ?_⟩
  rw [cornerTag_AddSharpCorner, if_neg (by omega)]
  exact (hk h hh2).2

theorem Valid.valid_addSharpCorner {s : CqSubdivision2} (hv : s.Valid) (k : Nat) (v : ℚ) :
    (s.AddSharpCorner k v).Valid :=
  ⟨hv.ptr, hv.rings, hv.vlt, hv.adj, hv.params⟩

/-- The state a call leaves the pre-pass in, for a face that was not refined
before: well-formed, grown from the start state, with tags on laths only. -/
theorem SubdivideFace.late_grows (Qff : CqSubdivision2 → Nat → Option (List Nat)) (d : Nat)
    {s : CqSubdivision2} (hv : s.Valid) (hk : s.SharpKeys) {pFace : Nat} {l : CqLath}
    (hl : s.lath pFace = some l) (hf : l.m_pFaceVertex = none) {s' : CqSubdivision2}
    {sub : List Nat} (e : SubdivideFace Qff (d + 1) s pFace = some (s', sub)) :
    ∃ s0 aQfv k aV sc, s0.Valid ∧ Grows s s0 ∧ s0.SharpKeys ∧
      SubdivideFace.refine s0 pFace = some (s', sub) ∧
      SubdivideFace.Refined s0 pFace s' sub aQfv k aV sc := by
  have hstep : ∀ (t : CqSubdivision2) (f : Nat) (t2 : CqSubdivision2) (sub aQfv : List Nat)
      (k : Nat) (aV : List Nat) (sc : CqSubdivision2),
      t.Valid → (Grows s t ∧ t.SharpKeys) → SubdivideFace.refine t f = some (t2, sub) →
      SubdivideFace.Refined t f t2 sub aQfv k aV sc → (Grows s t2 ∧ t2.SharpKeys) := by
    intro t f t2 sub2 aQfv k aV sc hvt hP et hrt
    exact ⟨hP.1.grows_trans (hrt.grows hvt et),
      hP.2.refined (SubdivideFace.refine_tagged hvt hrt.qfv et) hrt.refined_length⟩
  obtain ⟨s0, aQfv, k, aV, sc, hv0, hP0, e0, href⟩ :=
    SubdivideFace.late_keeps Qff (fun t => Grows s t ∧ t.SharpKeys) d
      (SubdivideFace_induct Qff _ hstep d) hv ⟨Grows.grows_refl s, hk⟩ hl hf e
  exact ⟨s0, aQfv, k, aV, sc, hv0, hP0.1, hP0.2, e0, href⟩

/-! ## CanUsePatch returning false -/

theorem CanUsePatch.every_false {α : Type} (check : α → Option Bool) :
    ∀ (L : List α), (∀ a ∈ L, (check a).isSome) → (∃ a ∈ L, check a = some false) →
      CanUsePatch.every check L = some false := by
  intro L
  induction L with
  | nil => intro _ ⟨a, ha, _⟩; cases ha
  | cons a rest ih =>
    intro hdef hex
    unfold CanUsePatch.every
    cases hc : check a with
    | none =>
      have := hdef a (List.mem_cons_self _ _)
      rw [hc] at this
      cases this
    | some b =>
      cases b with
      | false => rfl
      | true =>
        simp only [Option.some_bind, if_true]
        refine ih (fun x hx => hdef x (List.mem_cons_of_mem _ hx)) ?_
        obtain ⟨x, hx, hxf⟩ := hex
        rcases List.mem_cons.1 hx with rfl | hx2
        · rw [hc] at hxf; cases hxf
        · exact ⟨x, hx2, hxf⟩

theorem CanUsePatch.corner_isSome {s : CqSubdivision2} {q : Nat} (h : (s.Qvf q).isSome) :
    (CanUsePatch.corner s q).isSome := by
  cases hq : s.Qvf q with
  | none => rw [hq] at h; cases h
  | some L =>
    by_cases h4 : s.cQvv q = some 4
    · by_cases hs : s.Smooth q
      · rw [(CanUsePatch.corner_true s q).2 ⟨h4, hs⟩]
        rfl
      · unfold CanUsePatch.corner
        rw [h4]
        unfold Smooth at hs
        have hs2 : s.EdgeSharpness q ≠ 0 ∨ s.CornerSharpness q ≠ 0 := by
          by_contra hc
          push_neg at hc
          exact hs hc
        simp only [Option.some_bind, ne_eq, not_true_eq_false, if_false]
        rw [if_pos hs2]
        rfl
    · unfold CanUsePatch.corner
      unfold cQvv at h4 ⊢
      rw [hq] at h4 ⊢
      simp only [Option.map_some', Option.some.injEq] at h4
      simp only [Option.map_some', Option.some_bind, ne_eq, h4, not_false_eq_true, if_true]
      rfl

theorem CanUsePatch.corner_sharp {s : CqSubdivision2} {q : Nat} (h : (s.Qvf q).isSome)
    (hs : s.CornerSharpness q ≠ 0) : CanUsePatch.corner s q = some false := by
  have hd := CanUsePatch.corner_isSome h
  cases hc : CanUsePatch.corner s q with
  | none => rw [hc] at hd; cases hd
  | some b =>
    cases b with
    | false => rfl
    | true =>
      have := ((CanUsePatch.corner_true s q).1 hc).2
      exact absurd this.2 hs

theorem sub_getElem? {N n i : Nat} (hi : i < n) :
    ((List.range n).map (fun j => N + 4 * j))[i]? = some (N + 4 * i) := by
  rw [List.getElem?_map, List.getElem?_range hi]
  rfl

theorem cornerQuad_valid (c : ℚ) : (cornerQuad c).Valid ∧ (cornerQuad c).SharpKeys :=
  ⟨quadMesh_valid.1.valid_addSharpCorner 0 c,
    (SharpKeys.of_nil (show quadMesh.finalised.m_mapSharpEdges = [] by decide)
      (show quadMesh.finalised.m_mapSharpCorners = [] by decide)).keys_addSharpCorner
      (show 0 < quadMesh.finalised.m_apLaths.length by decide) c⟩

end CqSubdivision2
end Aqsis

namespace Aqsis
namespace CqSubdivision2

/-! ## Finalise writes vertex-neighbour links only -/

theorem Finalise.write_core {s s1 : CqSubdivision2} {X : Nat} {o : Option Nat}
    (e : s.setLath X (fun l => { l with m_pClockwiseVertex := o }) = some s1) :
    s1.m_apLaths.map CqLath.dropCF = s.m_apLaths.map CqLath.dropCF ∧
      s1.m_apFacets = s.m_apFacets :=
  ⟨setLath_dropCF e (fun _ => rfl), (setLath_fields e).2.1⟩

theorem Finalise.forward_core (vert : List Nat) :
    ∀ (fuel : Nat) (s : CqSubdivision2) (aVisited : List Bool) (cVisited pCurrent : Nat)
      (r : CqSubdivision2 × List Bool × Nat × Nat),
      Finalise.forward vert fuel s aVisited cVisited pCurrent = some r →
      r.1.m_apLaths.map CqLath.dropCF = s.m_apLaths.map CqLath.dropCF ∧
        r.1.m_apFacets = s.m_apFacets := by
  intro fuel
  induction fuel with
  | zero => intro s aVisited cVisited pCurrent r e; cases e
  | succ f ih =>
    intro s aVisited cVisited pCurrent r e
    simp only [Finalise.forward] at e
    cases h1 : (s.ccf pCurrent).bind s.VertexIndex with
    | none => rw [h1] at e; cases e
    | some ccwVertex =>
      rw [h1] at e
      simp only at e
      cases h2 : Finalise.scan vert aVisited (fun h => (s.cfD h).bind s.VertexIndex) ccwVertex
          (List.range vert.length) with
      | none => rw [h2] at e; cases e
      | some o =>
        rw [h2] at e
        cases o with
        | none =>
          simp only [Option.some.injEq] at e
          subst e
          exact ⟨rfl, rfl⟩
        | some iLath =>
          simp only at e
          cases h3 : vert[iLath]? with
          | none => rw [h3] at e; cases e
          | some h =>
            rw [h3] at e
            simp only at e
            cases h4 : s.setLath pCurrent (fun l => { l with m_pClockwiseVertex := some h }) with
            | none => rw [h4] at e; cases e
            | some s1 =>
              rw [h4] at e
              simp only at e
              obtain ⟨c1, c2⟩ := Finalise.write_core h4
              obtain ⟨d1, d2⟩ := ih s1 _ _ _ r e
              exact ⟨d1.trans c1, d2.trans c2⟩

theorem Finalise.backward_core (vert : List Nat) :
    ∀ (fuel : Nat) (s : CqSubdivision2) (aVisited : List Bool) (cVisited pStart iStart : Nat)
      (r : CqSubdivision2 × List Bool × Nat × Nat × Nat),
      Finalise.backward vert fuel s aVisited cVisited pStart iStart = some r →
      r.1.m_apLaths.map CqLath.dropCF = s.m_apLaths.map CqLath.dropCF ∧
        r.1.m_apFacets = s.m_apFacets := by
  intro fuel
  induction fuel with
  | zero => intro s aVisited cVisited pStart iStart r e; cases e
  | succ f ih =>
    intro s aVisited cVisited pStart iStart r e
    simp only [Finalise.backward] at e
    cases h1 : (s.cfD pStart).bind s.VertexIndex with
    | none => rw [h1] at e; cases e
    | some cwVertex =>
      rw [h1] at e
      simp only at e
      cases h2 : Finalise.scan vert aVisited (fun h => (s.ccf h).bind s.VertexIndex) cwVertex
          (List.range vert.length) with
      | none => rw [h2] at e; cases e
      | some o =>
        rw [h2] at e
        cases o with
        | none =>
          simp only [Option.some.injEq] at e
          subst e
          exact ⟨rfl, rfl⟩
        | some iLath =>
          simp only at e
          cases h3 : vert[iLath]? with
          | none => rw [h3] at e; cases e
          | some h =>
            rw [h3] at e
            simp only at e
            cases h4 : s.setLath h (fun l => { l with m_pClockwiseVertex := some pStart }) with
            | none => rw [h4] at e; cases e
            | some s1 =>
              rw [h4] at e
              simp only at e
              obtain ⟨c1, c2⟩ := Finalise.write_core h4
              obtain ⟨d1, d2⟩ := ih s1 _ _ _ _ r e
              exact ⟨d1.trans c1, d2.trans c2⟩

theorem Finalise.vertex_core {s : CqSubdivision2} {vert : List Nat}
    {r : CqSubdivision2 × Bool} (e : Finalise.vertex s vert = some r) :
    r.1.m_apLaths.map CqLath.dropCF = s.m_apLaths.map CqLath.dropCF ∧
      r.1.m_apFacets = s.m_apFacets := by
  unfold Finalise.vertex at e
  simp only at e
  by_cases hc : vert.length ≤ 1
  · rw [if_pos hc] at e
    simp only [Option.some.injEq] at e
    subst e
    exact ⟨rfl, rfl⟩
  · rw [if_neg hc] at e
    cases h0 : vert[0]? with
    | none => rw [h0] at e; cases e
    | some pStart =>
      rw [h0] at e
      simp only at e
      cases h1 : Finalise.forward vert (2 * vert.length + 2) s
          (List.replicate vert.length false) 0 pStart with
      | none => rw [h1] at e; cases e
      | some r1 =>
        rw [h1] at e
        obtain ⟨s1, aV1, cV1, pC⟩ := r1
        simp only at e
        obtain ⟨c1, c2⟩ := Finalise.forward_core vert _ s _ _ _ _ h1
        simp only at c1 c2
        cases h2 : s1.cv pC with
        | none => rw [h2] at e; cases e
        | some pcv =>
          rw [h2] at e
          simp only at e
          cases h3 : (if pcv = none then
              Finalise.backward vert (2 * vert.length + 2) s1 aV1 cV1 pStart 0
            else some (s1, aV1, cV1, pStart, 0)) with
          | none => rw [h3] at e; cases e
          | some r2 =>
            rw [h3] at e
            obtain ⟨s2, aV2, cV2, pS2, iS2⟩ := r2
            simp only at e
            have hres : s2.m_apLaths.map CqLath.dropCF = s.m_apLaths.map CqLath.dropCF ∧
                s2.m_apFacets = s.m_apFacets := by
              by_cases hp : pcv = none
              · rw [if_pos hp] at h3
                obtain ⟨d1, d2⟩ := Finalise.backward_core vert _ s1 _ _ _ _ _ h3
                exact ⟨d1.trans c1, d2.trans c2⟩
              · rw [if_neg hp] at h3
                simp only [Option.some.injEq, Prod.mk.injEq] at h3
                rw [← h3.1]
                exact ⟨c1, c2⟩
            split at e
            · simp only [Option.some.injEq] at e
              subst e
              exact hres
            · simp only [Option.some.injEq] at e
              subst e
              exact hres

theorem Finalise.loop_core :
    ∀ (verts : List (List Nat)) (s : CqSubdivision2) (r : CqSubdivision2 × Bool),
      Finalise.loop verts s = some r →
      r.1.m_apLaths.map CqLath.dropCF = s.m_apLaths.map CqLath.dropCF ∧
        r.1.m_apFacets = s.m_apFacets := by
  intro verts
  induction verts with
  | nil =>
    intro s r e
    simp only [Finalise.loop, Option.some.injEq] at e
    subst e
    exact ⟨rfl, rfl⟩
  | cons vert rest ih =>
    intro s r e
    simp only [Finalise.loop] at e
    cases h1 : Finalise.vertex s vert with
    | none => rw [h1] at e; cases e
    | some r1 =>
      rw [h1] at e
      obtain ⟨s1, b⟩ := r1
      obtain ⟨c1, c2⟩ := Finalise.vertex_core h1
      cases b with
      | false =>
        simp only [Option.some.injEq] at e
        subst e
        exact ⟨c1, c2⟩
      | true =>
        simp only at e
        obtain ⟨d1, d2⟩ := ih s1 r e
        exact ⟨d1.trans c1, d2.trans c2⟩

/-- `Finalise` changes vertex-neighbour links only: the laths are the same
otherwise and the facet list is the same. -/
theorem Finalise_core {s : CqSubdivision2} {r : CqSubdivision2 × Bool}
    (e : s.Finalise = some r) :
    r.1.m_apLaths.map CqLath.dropCF = s.m_apLaths.map CqLath.dropCF ∧
      r.1.m_apFacets = s.m_apFacets := by
  unfold Finalise at e
  cases h1 : Finalise.loop s.m_aapVertices s with
  | none => rw [h1] at e; cases e
  | some r1 =>
    rw [h1] at e
    obtain ⟨s1, b⟩ := r1
    obtain ⟨c1, c2⟩ := Finalise.loop_core _ s _ h1
    cases b with
    | false =>
      simp only [Option.some.injEq] at e
      subst e
      exact ⟨c1, c2⟩
    | true =>
      simp only [Option.some.injEq] at e
      subst e
      exact ⟨c1, c2⟩

/-! ## Facet rings -/

theorem IsRing.length_unique {s : CqSubdivision2} {r1 r2 : List Nat} {h : Nat}
    (h1 : s.IsRing r1) (h2 : s.IsRing r2) (m1 : h ∈ r1) (m2 : h ∈ r2) :
    r1.length = r2.length := by
  obtain ⟨t1, hr1, rot1⟩ := h1.ring_of_mem m1
  obtain ⟨t2, hr2, rot2⟩ := h2.ring_of_mem m2
  have e1 := Qfv_of_ring hr1
  have e2 := Qfv_of_ring hr2
  rw [e1] at e2
  have e3 : h :: t1 = h :: t2 := Option.some.inj e2
  rw [← rot1.perm.length_eq, ← rot2.perm.length_eq, e3]

theorem Valid.valid_cfD_ccf {s : CqSubdivision2} (hs : s.Valid) {h : Nat}
    (hh : h < s.m_apLaths.length) :
    ∃ c, s.cfD h = some c ∧ c < s.m_apLaths.length ∧ s.ccf c = some h := by
  obtain ⟨ring, hring, hmem⟩ := hs.rings h hh
  obtain ⟨tl, hr, _⟩ := hring.ring_of_mem hmem
  have hnext : s.cfD h = some ((tl ++ [h]).headI) := IsCycle.next_head hr
  have hrot : s.IsRing (tl ++ [h]) := IsCycle.cycle_rotate_one hr
  cases tl with
  | nil =>
    refine ⟨h, by simpa using hnext, hh, ?_⟩
    have := ccf_of_ring hr
    simpa using this
  | cons c tl' =>
    simp only [List.cons_append, List.headI_cons] at hnext
    have hc : c < s.m_apLaths.length := hr.lt c (by simp)
    refine ⟨c, hnext, hc, ?_⟩
    have hrot' : s.IsRing (c :: (tl' ++ [h])) := by simpa using hrot
    have := ccf_of_ring hrot'
    rw [this]
    congr 1
    rw [List.getLast_cons (by simp), List.getLast_append_singleton]

/-- In a well-formed topology the face-neighbour link is injective. -/
theorem Valid.cfD_injective {s : CqSubdivision2} (hs : s.Valid) {h1 h2 c : Nat}
    (e1 : s.cfD h1 = some c) (e2 : s.cfD h2 = some c) : h1 = h2 := by
  obtain ⟨c1, hc1, _, hb1⟩ := hs.valid_cfD_ccf (cfD_lt e1)
  obtain ⟨c2, hc2, _, hb2⟩ := hs.valid_cfD_ccf (cfD_lt e2)
  rw [e1] at hc1
  rw [e2] at hc2
  cases hc1
  cases hc2
  rw [hb1] at hb2
  exact Option.some.inj hb2

end CqSubdivision2
end Aqsis

namespace Aqsis
namespace CqSubdivision2

/-! ## The facet rings of reachable states -/

theorem Fresh.parent_none {s : CqSubdivision2} (hs : s.Fresh) {h : Nat} {lh : CqLath}
    (hl : s.lath h = some lh) : lh.m_pParentFacet = none :=
  (hs.links lh (List.getElem?_mem hl)).2.1

theorem Levels.of_core {facets : List (List Nat)} {s t : CqSubdivision2}
    (hc : t.m_apLaths.map CqLath.dropCF = s.m_apLaths.map CqLath.dropCF)
    (hf : t.m_apFacets = s.m_apFacets) (hL : Levels facets s) : Levels facets t := by
  have hring : ∀ ring, s.IsRing ring → t.IsRing ring := fun ring hr =>
    IsRing.ring_congr (fun x _ => cfD_of_dropCF hc x) hr
  have hpar : ∀ h lh, t.lath h = some lh →
      ∃ l0, s.lath h = some l0 ∧ l0.m_pParentFacet = lh.m_pParentFacet := by
    intro h lh hl
    have e := field_of_map_eq CqLath.dropCF CqLath.m_pParentFacet (fun _ => rfl) hc h
    rw [hl] at e
    cases hs : s.lath h with
    | none => rw [hs] at e; cases e
    | some l0 =>
      rw [hs] at e
      simp only [Option.map_some', Option.some.injEq] at e
      exact ⟨l0, rfl, e.symm⟩
  refine ⟨?_, ?_, ?_⟩
  · intro h lh hl hp
    obtain ⟨l0, hl0, hp0⟩ := hpar h lh hl
    obtain ⟨k, l, f, ring, h1, h2, h3, h4, h5, h6⟩ := hL.control h l0 hl0 (hp0.trans hp)
    exact ⟨k, l, f, ring, h1, by rw [hf]; exact h2, hring ring h3, h4, h5, h6⟩
  · intro h lh hl hp
    obtain ⟨l0, hl0, hp0⟩ := hpar h lh hl
    obtain ⟨ring, h3, h4, h6⟩ := hL.refined h l0 hl0 (by rw [hp0]; exact hp)
    exact ⟨ring, hring ring h3, h4, h6⟩
  · intro k l hk
    obtain ⟨f, ring, h2, h3, h5, h6⟩ := hL.facet k l hk
    exact ⟨f, ring, by rw [hf]; exact h2, hring ring h3, h5, h6⟩

/-- One more facet. -/
theorem Levels.levels_addFacet {done : List (List Nat)} {s : CqSubdivision2} (hs : s.Fresh)
    (hlen : s.m_apFacets.length = done.length) (hL : Levels done s) {l : List Nat}
    (hne : l ≠ []) (hr : ∀ v ∈ l, v < s.m_aapVertices.length) :
    Levels (done ++ [l]) (AddFacet.result s l) := by
  have hfresh := hs.addFacet hne hr
  have hring : ∀ ring, s.IsRing ring → (AddFacet.result s l).IsRing ring := fun ring hr2 =>
    IsRing.ring_congr (fun x hx => AddFacet.result_cfD_old s l x (hr2.lt x hx)) hr2
  have hnew := AddFacet.result_ring s l hne
  have hnewlen : (s.m_apLaths.length :: descFrom s.m_apLaths.length (l.length - 1)).length =
      l.length := by
    have : 0 < l.length := List.length_pos.2 hne
    rw [List.length_cons, descFrom_length]
    omega
  have hfac : (AddFacet.result s l).m_apFacets = s.m_apFacets ++ [s.m_apLaths.length] := rfl
  have hfacet : ∀ (k : Nat) (l2 : List Nat), (done ++ [l])[k]? = some l2 →
      ∃ (f : Nat) (ring : List Nat), (AddFacet.result s l).m_apFacets[k]? = some f ∧
        (AddFacet.result s l).IsRing ring ∧ f ∈ ring ∧ ring.length = l2.length := by
    intro k l2 hk
    by_cases hkd : k < done.length
    · rw [List.getElem?_append_left hkd] at hk
      obtain ⟨f, ring, h2, h3, h5, h6⟩ := hL.facet k l2 hk
      refine ⟨f, ring, ?_, hring ring h3, h5, h6⟩
      rw [hfac, List.getElem?_append_left (by omega)]
      exact h2
    · have hk2 : k = done.length := by
        by_contra hc
        rw [List.getElem?_eq_none (by simp; omega)] at hk
        cases hk
      subst hk2
      rw [List.getElem?_append_right (le_refl _)] at hk
      simp only [Nat.sub_self, List.getElem?_cons_zero, Option.some.injEq] at hk
      subst hk
      refine ⟨s.m_apLaths.length, _, ?_, hnew, List.mem_cons_self _ _, hnewlen⟩
      rw [hfac, ← hlen, List.getElem?_append_right (le_refl _)]
      simp
  refine ⟨?_, ?_, hfacet⟩
  · intro h lh hl _
    by_cases hh : h < s.m_apLaths.length
    · rw [AddFacet.result_lath_old s l h hh] at hl
      obtain ⟨k, l2, f, ring, h1, h2, h3, h4, h5, h6⟩ :=
        hL.control h lh hl (hs.parent_none hl)
      have hkd : k < done.length := by
        by_contra hc
        rw [List.getElem?_eq_none (by omega)] at h1
        cases h1
      refine ⟨k, l2, f, ring, ?_, ?_, hring ring h3, h4, h5, h6⟩
      · rw [List.getElem?_append_left hkd]; exact h1
      · rw [hfac, List.getElem?_append_left (by omega)]; exact h2
    · have hlt : h < s.m_apLaths.length + l.length := by
        have := lath_lt hl
        rw [AddFacet.result_length] at this
        exact this
      obtain ⟨f, ring, h2, h3, h5, h6⟩ := hfacet done.length l (by
        rw [List.getElem?_append_right (le_refl _)]; simp)
      have hf : f = s.m_apLaths.length := by
        rw [hfac, ← hlen, List.getElem?_append_right (le_refl _)] at h2
        simp at h2
        exact h2.symm
      subst hf
      have hmem : h ∈ s.m_apLaths.length :: descFrom s.m_apLaths.length (l.length - 1) := by
        by_cases he : h = s.m_apLaths.length
        · rw [he]; exact List.mem_cons_self _ _
        · exact List.mem_cons_of_mem _ ((mem_descFrom _ _ _).2 ⟨by omega, by omega⟩)
      exact ⟨done.length, l, s.m_apLaths.length, _, by
        rw [List.getElem?_append_right (le_refl _)]; simp, h2, hnew, hmem,
        List.mem_cons_self _ _, hnewlen⟩
  · intro h lh hl hp
    exact absurd (hfresh.parent_none hl) hp

theorem Levels.levels_addFacets {fs : List (List Nat)} :
    ∀ {done : List (List Nat)} {s t : CqSubdivision2}, s.Fresh →
      s.m_apFacets.length = done.length → Levels done s → s.AddFacets fs = some t →
      Levels (done ++ fs) t := by
  induction fs with
  | nil =>
    intro done s t _ _ hL h
    simp only [AddFacets, Option.some.injEq] at h
    subst h
    rw [List.append_nil]
    exact hL
  | cons f rest ih =>
    intro done s t hs hlen hL h
    simp only [AddFacets] at h
    cases hf : s.AddFacet f with
    | none => rw [hf] at h; cases h
    | some r =>
      rw [hf] at h
      obtain ⟨hne, hr, rfl⟩ := AddFacet_some hf
      have := ih (hs.addFacet hne hr)
        (show (AddFacet.result s f).m_apFacets.length = (done ++ [f]).length by
          show (s.m_apFacets ++ [s.m_apLaths.length]).length = _
          rw [List.length_append, List.length_append, hlen]
          rfl)
        (hL.levels_addFacet hs hlen hne hr) h
      rw [List.append_assoc] at this
      exact this

/-- The facet rings of a mesh built with `Prepare` and `AddFacet`. -/
theorem Levels.built {params : List (List CqParameter)} {cVerts : Nat}
    {facets : List (List Nat)} {s : CqSubdivision2}
    (h : buildMesh params cVerts facets = some s) : Levels facets s := by
  have h0 : Levels [] ((empty params).Prepare cVerts) := by
    refine ⟨?_, ?_, ?_⟩
    · intro h lh hl _
      have := lath_lt hl
      exact absurd this (Nat.not_lt_zero _)
    · intro h lh hl _
      have := lath_lt hl
      exact absurd this (Nat.not_lt_zero _)
    · intro k l hk
      cases hk
  have := Levels.levels_addFacets (Fresh.prepare params cVerts) rfl h0 h
  rw [List.nil_append] at this
  exact this

/-- A refinement keeps the facet rings and adds rings of four. -/
theorem Levels.refine {facets : List (List Nat)} {t t2 : CqSubdivision2} (hv : t.Valid)
    (hL : Levels facets t) {f : Nat} {sub aQfv : List Nat} {k : Nat} {aV : List Nat}
    {sc : CqSubdivision2} (e : SubdivideFace.refine t f = some (t2, sub))
    (hr : SubdivideFace.Refined t f t2 sub aQfv k aV sc) : Levels facets t2 := by
  have hg := hr.grows hv e
  have hfac : ∀ (k : Nat) (x : Nat), t.m_apFacets[k]? = some x → t2.m_apFacets[k]? = some x := by
    intro k x hk
    have hlt : k < t.m_apFacets.length := by
      by_contra hc
      rw [List.getElem?_eq_none (by omega)] at hk
      cases hk
    rw [getElem?_of_isPrefix hg.facets hlt]
    exact hk
  have hcases : ∀ h lh, t2.lath h = some lh →
      (∃ l0, t.lath h = some l0 ∧ l0.m_pParentFacet = lh.m_pParentFacet) ∨
      (lh.m_pParentFacet = some f ∧ ∃ ring, t2.IsRing ring ∧ h ∈ ring ∧ ring.length = 4) := by
    intro h lh hl
    by_cases hh : h < t.m_apLaths.length
    · left
      obtain ⟨l0, hl0⟩ : ∃ l0, t.lath h = some l0 :=
        ⟨t.m_apLaths[h], List.getElem?_eq_getElem hh⟩
      obtain ⟨l2, hl2, _, _, hp⟩ := hg.core_eq hl0
      rw [hl] at hl2
      cases hl2
      exact ⟨l0, hl0, hp.symm⟩
    · right
      have hlt := lath_lt hl
      rw [hr.refined_length] at hlt
      obtain ⟨j, i, hj, hi, rfl⟩ : ∃ j i, j < aQfv.length ∧ i < 4 ∧
          h = t.m_apLaths.length + (4 * j + i) :=
        ⟨(h - t.m_apLaths.length) / 4, (h - t.m_apLaths.length) % 4, by omega, by omega,
          by omega⟩
      have hp := hr.parent_new hj hi
      rw [hl] at hp
      simp only [Option.map_some', Option.some.injEq] at hp
      refine ⟨hp, _, hr.ring_new hj 0, ?_, rfl⟩
      have h4 : i = 0 ∨ i = 1 ∨ i = 2 ∨ i = 3 := by omega
      rcases h4 with rfl | rfl | rfl | rfl <;> simp
  refine ⟨?_, ?_, ?_⟩
  · intro h lh hl hp
    rcases hcases h lh hl with ⟨l0, hl0, hp0⟩ | ⟨hpf, _⟩
    · obtain ⟨k, l, f2, ring, h1, h2, h3, h4, h5, h6⟩ := hL.control h l0 hl0 (hp0.trans hp)
      exact ⟨k, l, f2, ring, h1, hfac k f2 h2, hg.ring h3, h4, h5, h6⟩
    · rw [hp] at hpf; cases hpf
  · intro h lh hl hp
    rcases hcases h lh hl with ⟨l0, hl0, hp0⟩ | ⟨_, hring⟩
    · obtain ⟨ring, h3, h4, h6⟩ := hL.refined h l0 hl0 (by rw [hp0]; exact hp)
      exact ⟨ring, hg.ring h3, h4, h6⟩
    · exact hring
  · intro k l hk
    obtain ⟨f2, ring, h2, h3, h5, h6⟩ := hL.facet k l hk
    exact ⟨f2, ring, hfac k f2 h2, hg.ring h3, h5, h6⟩

/-- Every reachable state is well-formed and has the facet rings of its
control facets and rings of four for its refined faces. -/
theorem Reachable.levels {Qff : CqSubdivision2 → Nat → Option (List Nat)}
    {facets : List (List Nat)} {s : CqSubdivision2} (h : Reachable Qff facets s) :
    s.Valid ∧ Levels facets s := by
  induction h with
  | built hb hu =>
    obtain ⟨hp, ht⟩ := buildMesh_frame hb
    exact ⟨((Fresh.buildMesh hb).valid (by rw [hp, ht]; exact hu)).1, Levels.built hb⟩
  | finalised hb hu hf =>
    obtain ⟨c1, c2⟩ := Finalise_core hf
    exact ⟨(finalised_valid hb hu hf).1, (Levels.built hb).of_core c1 c2⟩
  | subdivided _ hs ih =>
    exact ⟨SubdivideFace_valid Qff _ _ _ _ _ ih.1 hs,
      SubdivideFace_induct Qff (Levels facets)
        (fun _ _ _ _ _ _ _ _ hvt hLt et hrt => hLt.refine hvt et hrt) _ _ _ _ _ ih.1 ih.2 hs⟩

end CqSubdivision2
end Aqsis

namespace Aqsis
namespace CqSubdivision2

/-- C11: `CanUsePatch` returns true for the face of lath `pFace` exactly when
the conditions of the specification hold: the face has four corners, every
corner has valence four, smooth edge and corner sharpness and a
vertex-neighbour chain that closes without a missing link, and the 1-ring of
the face has nine faces, each a quad with smooth corner laths. -/
theorem CanUsePatch_iff_regular (Qff : CqSubdivision2 → Nat → Option (List Nat))
    (s : CqSubdivision2) (pFace : Nat) :
    CanUsePatch Qff s pFace = some true ↔ CanUsePatch.Regular Qff s pFace := by
  constructor
  · intro h
    unfold CanUsePatch cQfv at h
    cases hq : s.Qfv pFace with
    | none => simp [hq] at h
    | some aQfv =>
      simp only [hq, Option.map_some', Option.some_bind] at h
      by_cases h4 : aQfv.length = 4
      · simp only [h4, ne_eq, not_true_eq_false, if_false] at h
        cases he : CanUsePatch.every (CanUsePatch.corner s) aQfv with
        | none => simp [he] at h
        | some ok =>
          cases ok with
          | false => simp [he] at h
          | true =>
            have hall := (CanUsePatch.every_true _ aQfv).1 he
            have hv : ∀ q ∈ aQfv, s.cQvv q = some 4 :=
              fun q hq => ((CanUsePatch.corner_true s q).1 (hall q hq)).1
            have hs : ∀ q ∈ aQfv, s.Smooth q :=
              fun q hq => ((CanUsePatch.corner_true s q).1 (hall q hq)).2
            simp only [he, Option.some_bind, if_true] at h
            cases hf : Qff s pFace with
            | none => simp [hf] at h
            | some aQff =>
              simp only [hf, Option.some_bind] at h
              by_cases h9 : aQff.length = 9
              · simp only [h9, ne_eq, not_true_eq_false, if_false] at h
                rw [CanUsePatch.every_true] at h
                exact ⟨aQfv, aQff, hq, h4, hv, hs,
                  fun q hq => ClosedChain.of_valence (hv q hq), hf, h9,
                  fun g hg => (CanUsePatch.neighbour_true s g).1 (h g hg)⟩
              · simp [h9] at h
      · simp [h4] at h
  · rintro ⟨aQfv, aQff, hq, h4, hv, hs, _, hf, h9, hn⟩
    have he : CanUsePatch.every (CanUsePatch.corner s) aQfv = some true :=
      (CanUsePatch.every_true _ aQfv).2
        (fun q hq => (CanUsePatch.corner_true s q).2 ⟨hv q hq, hs q hq⟩)
    have hn2 : CanUsePatch.every (CanUsePatch.neighbour s) aQff = some true :=
      (CanUsePatch.every_true _ aQff).2
        (fun g hg => (CanUsePatch.neighbour_true s g).2 (hn g hg))
    unfold CanUsePatch cQfv
    simp only [hq, Option.map_some', Option.some_bind, h4, ne_eq, not_true_eq_false, if_false,
      he, if_true, hf, h9, hn2]


theorem CanUsePatch_torus : CanUsePatch Qff torus.finalised 0 = some true := by decide!

theorem CanUsePatch_quadMesh : CanUsePatch Qff quadMesh.finalised 0 = some false := by decide!

end CqSubdivision2

namespace CqSurfaceSubdivisionMesh

/-- C16: `Split` on a mesh of `n` facets, all present in the topology,
appends to `aSplits` exactly one patch for each eligible facet index below
`n`, in increasing order, each for the lath `pFacet(k)`, keeps what the list
held before, and returns the number of patches appended. -/
theorem Split_appends_eligible (isBoundaryFacet isHoleFace : CqSubdivision2 → Nat → Bool)
    (s : CqSubdivision2) (n : Nat) (aSplits : List Nat) (hn : n ≤ s.m_apFacets.length) :
    ∃ L, Split isBoundaryFacet isHoleFace s n aSplits = some (aSplits ++ L, L.length) ∧
      L.map some =
        ((List.range n).filter (Eligible isBoundaryFacet isHoleFace s)).map s.pFacet := by
  have hk : ∀ k ∈ List.range n, k < s.m_apFacets.length :=
    fun k hk => lt_of_lt_of_le (List.mem_range.1 hk) hn
  have hmap := Split.appended (Eligible isBoundaryFacet isHoleFace s) s (List.range n) hk
  refine ⟨_, ?_, hmap⟩
  unfold Split
  rw [Split.split_loop isBoundaryFacet isHoleFace s (List.range n) aSplits 0 hk]
  have hlen := congrArg List.length hmap
  simp only [List.length_map] at hlen
  rw [hlen, Nat.zero_add]

theorem Split_appends_eligible_witness :
    1 ≤ CqSubdivision2.quadMesh.finalised.m_apFacets.length ∧
    ∃ L, Split (fun _ _ => false) (fun _ _ => false) CqSubdivision2.quadMesh.finalised 1 [7] =
        some ([7] ++ L, L.length) ∧
      L.map some = ((List.range 1).filter (Eligible (fun _ _ => false) (fun _ _ => false)
        CqSubdivision2.quadMesh.finalised)).map CqSubdivision2.quadMesh.finalised.pFacet :=
  ⟨by decide, Split_appends_eligible _ _ _ 1 [7] (by decide)⟩

end CqSurfaceSubdivisionMesh

namespace CqSurfaceSubdivisionPatch

/-- C17: `Diceable` returns false and leaves the patch as it was (dice
sizes, split direction and discard flag included) when the patch is marked
un-diceable, when `CanUsePatch` holds for its face, and when its face does not
have exactly four corners. -/
theorem Diceable_fail_fast (ctx : DiceContext)
    (Qff : CqSubdivision2 → Nat → Option (List Nat)) (s : CqSubdivision2)
    (p : CqSurfaceSubdivisionPatch)
    (h : p.m_fDiceable = false ∨ s.CanUsePatch Qff p.m_pFace = some true ∨
      ∃ aQfv, s.Qfv p.m_pFace = some aQfv ∧ aQfv.length ≠ 4) :
    Diceable ctx Qff s p = some (p, false) := by
  unfold Diceable
  by_cases hd : p.m_fDiceable = true
  · simp only [hd, Bool.not_true, Bool.false_eq_true, if_false]
    rcases h with h | h | ⟨aQfv, hq, hlen⟩
    · rw [hd] at h; cases h
    · rw [h]; rfl
    · have hc : s.CanUsePatch Qff p.m_pFace = some false := by
        unfold CqSubdivision2.CanUsePatch CqSubdivision2.cQfv
        simp only [hq, Option.map_some', Option.some_bind, hlen, ne_eq, not_false_eq_true,
          if_true]
      simp only [hc, Option.some_bind, Bool.false_eq_true, if_false, hq]
      match aQfv, hlen with
      | [], _ => rfl
      | [_], _ => rfl
      | [_, _], _ => rfl
      | [_, _, _], _ => rfl
      | [_, _, _, _], hl => exact absurd rfl hl
      | _ :: _ :: _ :: _ :: _ :: _, _ => rfl
  · simp only [Bool.not_eq_true] at hd
    simp only [hd, Bool.not_false, if_true]

theorem Diceable_fail_fast_witness :
    (patch0.m_fDiceable = false ∨
      CqSubdivision2.fanAndStray.finalised.CanUsePatch CqSubdivision2.Qff patch0.m_pFace =
        some true ∨
      ∃ aQfv, CqSubdivision2.fanAndStray.finalised.Qfv patch0.m_pFace = some aQfv ∧
        aQfv.length ≠ 4) ∧
    Diceable flatContext CqSubdivision2.Qff CqSubdivision2.fanAndStray.finalised patch0 =
      some (patch0, false) :=
  ⟨Or.inr (Or.inr ⟨[0, 2, 1], by decide, by decide⟩),
    Diceable_fail_fast _ _ _ _ (Or.inr (Or.inr ⟨[0, 2, 1], by decide, by decide⟩))⟩

/-- C18: `Diceable` never sets the discard flag: the lengths it tests
against `FLT_EPSILON` have been raised to at least 1 by `MAX( ROUND( . ), 1 )`
before the test, so a face of zero raster extent is not discarded. -/
theorem Diceable_never_discards (ctx : DiceContext)
    (Qff : CqSubdivision2 → Nat → Option (List Nat)) (s : CqSubdivision2)
    (p : CqSurfaceSubdivisionPatch) (r : CqSurfaceSubdivisionPatch × Bool)
    (h : Diceable ctx Qff s p = some r) : r.1.m_fDiscard = p.m_fDiscard := by
  have hsz : ∀ h0 h1 h2 h3, (Diceable.sizes ctx p h0 h1 h2 h3).1.m_fDiscard = p.m_fDiscard := by
    intro h0 h1 h2 h3
    rw [Diceable.sizes_eq]
  unfold Diceable at h
  by_cases hd : p.m_fDiceable = true
  · simp only [hd, Bool.not_true, Bool.false_eq_true, if_false] at h
    cases hc : s.CanUsePatch Qff p.m_pFace with
    | none => simp [hc] at h
    | some b =>
      simp only [hc, Option.some_bind] at h
      cases b with
      | true =>
        simp only [if_true, Option.some.injEq] at h
        rw [← h]
      | false =>
        simp only [Bool.false_eq_true, if_false] at h
        cases hq : s.Qfv p.m_pFace with
        | none => simp [hq] at h
        | some aQfv =>
          simp only [hq, Option.some_bind] at h
          split at h
          · rename_i q0 q1 q2 q3
            cases e0 : s.VertexIndex q0 with
            | none => simp [e0] at h
            | some i0 =>
            cases e1 : s.VertexIndex q1 with
            | none => simp [e0, e1] at h
            | some i1 =>
            cases e2 : s.VertexIndex q2 with
            | none => simp [e0, e1, e2] at h
            | some i2 =>
            cases e3 : s.VertexIndex q3 with
            | none => simp [e0, e1, e2, e3] at h
            | some i3 =>
              simp only [e0, e1, e2, e3, Option.some_bind, Option.some.injEq] at h
              rw [← h]
              exact hsz _ _ _ _
          · simp only [Option.some.injEq] at h
            rw [← h]
  · simp only [Bool.not_eq_true] at hd
    simp only [hd, Bool.not_false, if_true, Option.some.injEq] at h
    rw [← h]

theorem Diceable_never_discards_witness :
    Diceable.uLen flatContext (0, 0) (0, 0) (0, 0) (0, 0) = 0 ∧
    Diceable.vLen flatContext (0, 0) (0, 0) (0, 0) = 0 ∧
    Diceable flatContext CqSubdivision2.Qff CqSubdivision2.quadMesh.finalised patch0 =
      some (⟨0, true, false, EqSplitDir.SplitDir_V, 1, 1⟩, true) ∧
    (⟨0, true, false, EqSplitDir.SplitDir_V, 1, 1⟩ : CqSurfaceSubdivisionPatch).m_fDiscard =
      patch0.m_fDiscard :=
  ⟨by decide!, by decide!, by decide!,
    Diceable_never_discards flatContext CqSubdivision2.Qff CqSubdivision2.quadMesh.finalised
      patch0 (⟨0, true, false, EqSplitDir.SplitDir_V, 1, 1⟩, true) (by decide!)⟩

/-- C19: for a patch that is not marked un-diceable, whose face is a quad
for which `CanUsePatch` is false, `Diceable` returns true exactly when both
dice sizes it stores are at most the grid-size cap (the option
`System/SqrtGridSize` when set, 16 otherwise), and it leaves the discard flag
as it was. -/
theorem Diceable_true_iff_within_cap {ctx : DiceContext}
    {Qff : CqSubdivision2 → Nat → Option (List Nat)}
    {s : CqSubdivision2} {p : CqSurfaceSubdivisionPatch} {q0 q1 q2 q3 i0 i1 i2 i3 : Nat}
    (hd : p.m_fDiceable = true) (hc : s.CanUsePatch Qff p.m_pFace = some false)
    (hq : s.Qfv p.m_pFace = some [q0, q1, q2, q3])
    (h0 : s.VertexIndex q0 = some i0) (h1 : s.VertexIndex q1 = some i1)
    (h2 : s.VertexIndex q2 = some i2) (h3 : s.VertexIndex q3 = some i3) :
    ∃ p2 b, Diceable ctx Qff s p = some (p2, b) ∧
      (b = true ↔ ((p2.m_uDiceSize : ℚ) ≤ gridCap ctx ∧ (p2.m_vDiceSize : ℚ) ≤ gridCap ctx)) ∧
      p2.m_fDiscard = p.m_fDiscard := by
  rw [Diceable.reaches hd hc hq h0 h1 h2 h3, Diceable.sizes_eq]
  refine ⟨_, _, rfl, ?_, rfl⟩
  simp only [decide_eq_true_eq]

theorem Diceable_true_iff_within_cap_witness :
    ∃ p2 b, Diceable squareContext CqSubdivision2.Qff CqSubdivision2.quadMesh.finalised patch0 =
        some (p2, b) ∧
      (b = true ↔ ((p2.m_uDiceSize : ℚ) ≤ gridCap squareContext ∧
        (p2.m_vDiceSize : ℚ) ≤ gridCap squareContext)) ∧
      p2.m_fDiscard = patch0.m_fDiscard :=
  @Diceable_true_iff_within_cap squareContext CqSubdivision2.Qff
    CqSubdivision2.quadMesh.finalised patch0 0 3 2 1 0 3 2 1
    (by decide) (by decide!) (by decide) (by decide) (by decide) (by decide) (by decide)

end CqSurfaceSubdivisionPatch

end Aqsis

namespace Aqsis
namespace CqSubdivision2

/-- C12: a successful `SubdivideFace` call on a well-formed topology (one
whose attribute arrays all have the length of the vertex table) only appends:
the laths before the call are the first laths after it, each with the vertex
index, face-neighbour link and parent link it had; the facet list before the
call is a prefix of the one after it; and every adjacency list of the vertex
table is still at its place and is a prefix of the list there after the
call. -/
theorem SubdivideFace_only_appends (Qff : CqSubdivision2 → Nat → Option (List Nat)) (d : Nat)
    {s : CqSubdivision2} (hv : s.Valid) {pFace : Nat} {s' : CqSubdivision2} {sub : List Nat}
    (e : SubdivideFace Qff d s pFace = some (s', sub)) :
    s.m_apLaths.length ≤ s'.m_apLaths.length ∧
    s.m_apFacets <+: s'.m_apFacets ∧
    s.m_aapVertices.length ≤ s'.m_aapVertices.length ∧
    (∀ (v : Nat) (a : List Nat), s.m_aapVertices[v]? = some a →
      ∃ a2 : List Nat, s'.m_aapVertices[v]? = some a2 ∧ a <+: a2) ∧
    (∀ (h : Nat) (l : CqLath), s.lath h = some l →
      ∃ l2, s'.lath h = some l2 ∧ l2.m_VertexIndex = l.m_VertexIndex ∧
        l2.m_pClockwiseFacet = l.m_pClockwiseFacet ∧ l2.m_pParentFacet = l.m_pParentFacet) := by
  have hg := SubdivideFace_grows Qff d hv e
  refine ⟨hg.grows_length, hg.facets, ?_, hg.table, fun h l hl => hg.core_eq hl⟩
  by_contra hc
  have hlt : s'.m_aapVertices.length < s.m_aapVertices.length := by omega
  obtain ⟨a2, h2, _⟩ := hg.table s'.m_aapVertices.length _
    (List.getElem?_eq_getElem hlt)
  rw [List.getElem?_eq_none (le_refl _)] at h2
  cases h2

theorem SubdivideFace_only_appends_witness :
    quadMesh.finalised.Valid ∧
    SubdivideFace Qff 1 quadMesh.finalised 0 = some (quadMesh.refined, [4, 8, 12, 16]) ∧
    quadMesh.finalised.m_apLaths.length ≤ quadMesh.refined.m_apLaths.length ∧
    quadMesh.finalised.m_apFacets <+: quadMesh.refined.m_apFacets ∧
    quadMesh.finalised.m_aapVertices.length ≤ quadMesh.refined.m_aapVertices.length ∧
    (∀ (v : Nat) (a : List Nat), quadMesh.finalised.m_aapVertices[v]? = some a →
      ∃ a2 : List Nat, quadMesh.refined.m_aapVertices[v]? = some a2 ∧ a <+: a2) ∧
    (∀ (h : Nat) (l : CqLath), quadMesh.finalised.lath h = some l →
      ∃ l2, quadMesh.refined.lath h = some l2 ∧ l2.m_VertexIndex = l.m_VertexIndex ∧
        l2.m_pClockwiseFacet = l.m_pClockwiseFacet ∧ l2.m_pParentFacet = l.m_pParentFacet) :=
  have e : SubdivideFace Qff 1 quadMesh.finalised 0 =
      some (quadMesh.refined, [4, 8, 12, 16]) := by decide!
  ⟨quadMesh_valid.1, e, SubdivideFace_only_appends Qff 1 quadMesh_valid.1 e⟩

/-- C15, amended to a positive weight: in a well-formed topology whose sharpness
tags are on laths, let corner lath `i` of a quad face have the positive
corner sharpness `c`, and let the valence walk round every corner of the face
terminate.  Then `CanUsePatch` is false for the face, and after a
`SubdivideFace` call that refines the face the first lath `A` of child `i`
lies on the ring `A, A + 1, A + 2, A + 3` of that child face and has corner
sharpness exactly `c`, and `CanUsePatch` is false for the child face as soon
as the valence walk round `A` terminates. -/
theorem SubdivideFace_keeps_sharp_corner (Qff Qff2 : CqSubdivision2 → Nat → Option (List Nat))
    (d : Nat) {s : CqSubdivision2} (hv : s.Valid) (hk : s.SharpKeys) {pFace : Nat} {l : CqLath}
    (hl : s.lath pFace = some l) (hf : l.m_pFaceVertex = none) {aQfv : List Nat}
    (hq : s.Qfv pFace = some aQfv) (h4 : aQfv.length = 4) {i : Nat} (hi : i < 4) {c : ℚ}
    (hc : s.CornerSharpness (aQfv.getD i 0) = c) (hpos : 0 < c)
    (hdef : ∀ q ∈ aQfv, (s.Qvf q).isSome) {s' : CqSubdivision2} {sub : List Nat}
    (e : SubdivideFace Qff (d + 1) s pFace = some (s', sub)) :
    s.CanUsePatch Qff2 pFace = some false ∧
    ∃ A, sub[i]? = some A ∧ s'.IsRing [A, A + 1, A + 2, A + 3] ∧ s'.CornerSharpness A = c ∧
      ((s'.Qvf A).isSome → s'.CanUsePatch Qff2 A = some false) := by
  have hi4 : i < aQfv.length := by omega
  constructor
  · have hev : CanUsePatch.every (CanUsePatch.corner s) aQfv = some false :=
      CanUsePatch.every_false _ aQfv (fun q hqm => CanUsePatch.corner_isSome (hdef q hqm))
        ⟨aQfv.getD i 0, getD_mem_of_lt aQfv i 0 hi4,
          CanUsePatch.corner_sharp (hdef _ (getD_mem_of_lt aQfv i 0 hi4))
            (by rw [hc]; exact ne_of_gt hpos)⟩
    unfold CanUsePatch cQfv
    simp only [hq, Option.map_some', Option.some_bind, h4, ne_eq, not_true_eq_false, if_false,
      hev, Bool.false_eq_true]
  · obtain ⟨s0, aQfv0, k, aV, sc, hv0, hg, hk0, e0, href⟩ :=
      SubdivideFace.late_grows Qff d hv hk hl hf e
    have hq0 : aQfv0 = aQfv := by
      have h1 := hg.grows_qfv hv hq
      rw [href.qfv] at h1
      exact Option.some.inj h1
    subst hq0
    obtain ⟨_, hring, _, _⟩ := hv.qfv hq
    have ht := SubdivideFace.refine_tagged hv0 href.qfv e0
    have hq1 : aQfv0.getD i 0 < s.m_apLaths.length := hring.lt _ (getD_mem_of_lt aQfv0 i 0 hi4)
    have hC1 : s0.CornerSharpness (aQfv0.getD i 0) = c :=
      (CornerSharpness_of_tag (hg.corners _ hq1)).trans hc
    have hring2 : s'.IsRing [s0.m_apLaths.length + 4 * i, s0.m_apLaths.length + 4 * i + 1,
        s0.m_apLaths.length + 4 * i + 2, s0.m_apLaths.length + 4 * i + 3] :=
      href.ring_new hi4 0
    have hcs : s'.CornerSharpness (s0.m_apLaths.length + 4 * i) = c := by
      have htag := ht.cornerA i hi4
      rw [hC1, if_pos hpos] at htag
      exact CornerSharpness_of_some htag
    refine ⟨s0.m_apLaths.length + 4 * i, ?_, hring2, hcs, ?_⟩
    · rw [href.sub_eq]
      exact sub_getElem? hi4
    · intro hA
      have hcor := CanUsePatch.corner_sharp hA (by rw [hcs]; exact ne_of_gt hpos)
      unfold CanUsePatch cQfv
      simp only [Qfv_of_ring hring2, Option.map_some', Option.some_bind, List.length_cons,
        List.length_nil, ne_eq, not_true_eq_false, if_false, CanUsePatch.every, hcor,
        Bool.false_eq_true]

theorem SubdivideFace_keeps_sharp_corner_witness :
    (cornerQuad 1).Valid ∧ (cornerQuad 1).SharpKeys ∧
    (cornerQuad 1).lath 0 = some ⟨none, some 3, none, none, none, none, 0⟩ ∧
    (cornerQuad 1).Qfv 0 = some [0, 3, 2, 1] ∧
    (cornerQuad 1).CornerSharpness ([0, 3, 2, 1].getD 0 0) = 1 ∧
    (∀ q ∈ [0, 3, 2, 1], ((cornerQuad 1).Qvf q).isSome) ∧
    SubdivideFace Qff 1 (cornerQuad 1) 0 = some (cornerQuad.refined 1, [4, 8, 12, 16]) ∧
    ((cornerQuad.refined 1).Qvf 4).isSome ∧
    (cornerQuad 1).CanUsePatch Qff 0 = some false ∧
    ∃ A, [4, 8, 12, 16][0]? = some A ∧ (cornerQuad.refined 1).IsRing [A, A + 1, A + 2, A + 3] ∧
      (cornerQuad.refined 1).CornerSharpness A = 1 ∧
      (((cornerQuad.refined 1).Qvf A).isSome →
        (cornerQuad.refined 1).CanUsePatch Qff A = some false) :=
  have h : (cornerQuad 1).lath 0 = some ⟨none, some 3, none, none, none, none, 0⟩ ∧
      (cornerQuad 1).Qfv 0 = some [0, 3, 2, 1] ∧
      (cornerQuad 1).CornerSharpness ([0, 3, 2, 1].getD 0 0) = 1 ∧
      (∀ q ∈ [0, 3, 2, 1], ((cornerQuad 1).Qvf q).isSome) ∧
      SubdivideFace Qff 1 (cornerQuad 1) 0 = some (cornerQuad.refined 1, [4, 8, 12, 16]) ∧
      ((cornerQuad.refined 1).Qvf 4).isSome := by decide!
  ⟨(cornerQuad_valid 1).1, (cornerQuad_valid 1).2, h.1, h.2.1, h.2.2.1, h.2.2.2.1,
    h.2.2.2.2.1, h.2.2.2.2.2,
    SubdivideFace_keeps_sharp_corner Qff Qff 0 (cornerQuad_valid 1).1 (cornerQuad_valid 1).2
      h.1 rfl h.2.1 rfl (show 0 < 4 by decide) h.2.2.1 (by decide) h.2.2.2.1 h.2.2.2.2.1⟩

/-- C15, counterexample to the claim as stated: the single quad whose corner
lath 0 has the non-zero corner sharpness -1 and no other tag is subdivided with success, and
afterwards no lath of the child face at that corner (laths 4 to 7), and no
other new lath, has corner sharpness -1: they all have corner sharpness 0. -/
theorem SubdivideFace_drops_negative_corner :
    (cornerQuad (-1)).Valid ∧ (cornerQuad (-1)).Qfv 0 = some [0, 3, 2, 1] ∧
    (cornerQuad (-1)).CornerSharpness 0 = -1 ∧
    (∀ q ∈ [0, 3, 2, 1], (cornerQuad (-1)).EdgeSharpness q = 0) ∧
    (∀ q ∈ [3, 2, 1], (cornerQuad (-1)).CornerSharpness q = 0) ∧
    SubdivideFace Qff 1 (cornerQuad (-1)) 0 =
      some (cornerQuad.refined (-1), [4, 8, 12, 16]) ∧
    (cornerQuad.refined (-1)).Qfv 4 = some [4, 5, 6, 7] ∧
    (∀ A ∈ List.range 20, 4 ≤ A → (cornerQuad.refined (-1)).CornerSharpness A = 0) :=
  ⟨(cornerQuad_valid (-1)).1, by decide!⟩

end CqSubdivision2
end Aqsis

namespace Aqsis
namespace CqSubdivision2

/-- C13: in every reachable state (built with `Prepare` and `AddFacet`,
possibly finalised, then refined by `SubdivideFace` calls) the face-neighbour
link is a permutation of the laths: it takes every lath to a lath and is
injective; every lath lies on a closed facet ring; the ring of the `k`-th
facet entry has as many laths as the `k`-th inserted index list has indices;
a ring through a lath without a parent has the length of one of the inserted
index lists; and a ring through a lath with a parent, that is one created by
subdivision, has length 4. -/
theorem Reachable_facet_rings {Qff : CqSubdivision2 → Nat → Option (List Nat)}
    {facets : List (List Nat)} {s : CqSubdivision2} (h : Reachable Qff facets s) :
    (∀ h1, h1 < s.m_apLaths.length → ∃ c, s.cfD h1 = some c ∧ c < s.m_apLaths.length) ∧
    (∀ h1 h2 c, s.cfD h1 = some c → s.cfD h2 = some c → h1 = h2) ∧
    (∀ h1, h1 < s.m_apLaths.length → ∃ ring, s.IsRing ring ∧ h1 ∈ ring) ∧
    (∀ (k : Nat) (l : List Nat), facets[k]? = some l →
      ∃ (f : Nat) (ring : List Nat), s.pFacet k = some f ∧ s.IsRing ring ∧ f ∈ ring ∧
        ring.length = l.length) ∧
    (∀ (h1 : Nat) (lh : CqLath) (ring : List Nat), s.lath h1 = some lh → s.IsRing ring →
      h1 ∈ ring →
      (lh.m_pParentFacet = none →
        ∃ (k : Nat) (l : List Nat), facets[k]? = some l ∧ ring.length = l.length) ∧
      (lh.m_pParentFacet ≠ none → ring.length = 4)) := by
  obtain ⟨hv, hL⟩ := h.levels
  refine ⟨fun h1 hh => hv.cfD_some hh, fun h1 h2 c e1 e2 => hv.cfD_injective e1 e2, hv.rings,
    hL.facet, ?_⟩
  intro h1 lh ring hl hring hm
  constructor
  · intro hp
    obtain ⟨k, l, f, ring2, hk, _, hr2, hm2, _, hlen⟩ := hL.control h1 lh hl hp
    exact ⟨k, l, hk, (IsRing.length_unique hring hr2 hm hm2).trans hlen⟩
  · intro hp
    obtain ⟨ring2, hr2, hm2, hlen⟩ := hL.refined h1 lh hl hp
    exact (IsRing.length_unique hring hr2 hm hm2).trans hlen

theorem Reachable_facet_rings_witness :
    Reachable Qff [[0, 1, 2, 3]] quadMesh.refined ∧
    (∀ h1, h1 < quadMesh.refined.m_apLaths.length →
      ∃ c, quadMesh.refined.cfD h1 = some c ∧ c < quadMesh.refined.m_apLaths.length) ∧
    (∀ h1 h2 c, quadMesh.refined.cfD h1 = some c → quadMesh.refined.cfD h2 = some c →
      h1 = h2) ∧
    (∀ h1, h1 < quadMesh.refined.m_apLaths.length →
      ∃ ring, quadMesh.refined.IsRing ring ∧ h1 ∈ ring) ∧
    (∀ (k : Nat) (l : List Nat), [[0, 1, 2, 3]][k]? = some l →
      ∃ (f : Nat) (ring : List Nat), quadMesh.refined.pFacet k = some f ∧
        quadMesh.refined.IsRing ring ∧ f ∈ ring ∧ ring.length = l.length) ∧
    (∀ (h1 : Nat) (lh : CqLath) (ring : List Nat), quadMesh.refined.lath h1 = some lh →
      quadMesh.refined.IsRing ring → h1 ∈ ring →
      (lh.m_pParentFacet = none →
        ∃ (k : Nat) (l : List Nat), [[0, 1, 2, 3]][k]? = some l ∧ ring.length = l.length) ∧
      (lh.m_pParentFacet ≠ none → ring.length = 4)) :=
  ⟨Reachable.subdivided
      (Reachable.finalised
        (show buildMesh (positionsOnly 4) 4 [[0, 1, 2, 3]] = some quadMesh by decide)
        ⟨by decide, by decide⟩
        (show quadMesh.Finalise = some (quadMesh.finalised, true) by decide))
      (show SubdivideFace Qff 1 quadMesh.finalised 0 =
        some (quadMesh.refined, [4, 8, 12, 16]) by decide!),
    Reachable_facet_rings
      (Reachable.subdivided
        (Reachable.finalised
          (show buildMesh (positionsOnly 4) 4 [[0, 1, 2, 3]] = some quadMesh by decide)
          ⟨by decide, by decide⟩
          (show quadMesh.Finalise = some (quadMesh.finalised, true) by decide))
        (show SubdivideFace Qff 1 quadMesh.finalised 0 =
          some (quadMesh.refined, [4, 8, 12, 16]) by decide!))⟩

end CqSubdivision2
end Aqsis

namespace Aqsis
namespace CqSubdivision2

/-! ## The links `Finalise` writes obey the matching rule -/

theorem LinksFrom.links_refl (s : CqSubdivision2) : LinksFrom s s :=
  ⟨rfl, fun _ _ h => Or.inl h⟩

theorem outKey_of_dropCF {s t : CqSubdivision2}
    (h : t.m_apLaths.map CqLath.dropCF = s.m_apLaths.map CqLath.dropCF) (x : Nat) :
    t.outKey x = s.outKey x := by
  unfold outKey
  rw [cfD_of_dropCF h]
  cases s.cfD x with
  | none => rfl
  | some c => exact VertexIndex_of_dropCF h c

theorem innKey_of_dropCF {s t : CqSubdivision2}
    (h : t.m_apLaths.map CqLath.dropCF = s.m_apLaths.map CqLath.dropCF) (x : Nat) :
    t.innKey x = s.innKey x := by
  unfold innKey
  rw [ccf_of_dropCF h]
  cases s.ccf x with
  | none => rfl
  | some c => exact VertexIndex_of_dropCF h c

theorem LinkMatches.of_dropCF {s t : CqSubdivision2}
    (h : t.m_apLaths.map CqLath.dropCF = s.m_apLaths.map CqLath.dropCF) {L M : Nat}
    (hm : t.LinkMatches L M) : s.LinkMatches L M := by
  unfold LinkMatches at hm ⊢
  simpa only [VertexIndex_of_dropCF h, outKey_of_dropCF h, innKey_of_dropCF h] using hm

theorem LinksFrom.write {s t t1 : CqSubdivision2} (hl : LinksFrom s t) {X h : Nat}
    (e : t.setLath X (fun l => { l with m_pClockwiseVertex := some h }) = some t1)
    (hm : t.LinkMatches X h) : LinksFrom s t1 := by
  refine ⟨(setLath_dropCF e (fun _ => rfl)).trans hl.core, ?_⟩
  intro L M hcv
  unfold cv at hcv
  rw [setLath_lath e L] at hcv
  by_cases hLX : L = X
  · subst hLX
    rw [if_pos rfl] at hcv
    cases hL : t.lath L with
    | none => rw [hL] at hcv; cases hcv
    | some l =>
      rw [hL] at hcv
      simp only [Option.map_some', Option.some.injEq] at hcv
      subst hcv
      exact Or.inr (LinkMatches.of_dropCF hl.core hm)
  · rw [if_neg hLX] at hcv
    exact hl.links L M hcv

theorem Finalise.scan_found (vert : List Nat) (aVisited : List Bool) (key : Nat → Option Nat)
    (target : Nat) :
    ∀ (idxs : List Nat) (i : Nat),
      Finalise.scan vert aVisited key target idxs = some (some i) →
      ∃ h, vert[i]? = some h ∧ key h = some target := by
  intro idxs
  induction idxs with
  | nil => intro i e; simp [Finalise.scan] at e
  | cons j rest ih =>
    intro i e
    simp only [Finalise.scan] at e
    cases ha : aVisited[j]? with
    | none => simp [ha] at e
    | some visited =>
      cases hv : vert[j]? with
      | none => simp [ha, hv] at e
      | some h =>
        simp only [ha, hv] at e
        by_cases hvis : visited = true
        · rw [if_pos hvis] at e
          exact ih i e
        · rw [if_neg hvis] at e
          cases hk : key h with
          | none => simp [hk] at e
          | some w =>
            simp only [hk] at e
            by_cases hw : w = target
            · rw [if_pos hw] at e
              simp only [Option.some.injEq] at e
              subst e
              exact ⟨h, hv, by rw [hk, hw]⟩
            · rw [if_neg hw] at e
              exact ih i e

theorem Finalise.forward_links (vert : List Nat) (s0 : CqSubdivision2) (v : Nat)
    (hvert : ∀ h ∈ vert, s0.VertexIndex h = some v) :
    ∀ (fuel : Nat) (s : CqSubdivision2) (aVisited : List Bool) (cVisited pCurrent : Nat)
      (r : CqSubdivision2 × List Bool × Nat × Nat),
      LinksFrom s0 s → pCurrent ∈ vert →
      Finalise.forward vert fuel s aVisited cVisited pCurrent = some r →
      LinksFrom s0 r.1 := by
  intro fuel
  induction fuel with
  | zero => intro s aVisited cVisited pCurrent r _ _ e; cases e
  | succ f ih =>
    intro s aVisited cVisited pCurrent r hl hp e
    simp only [Finalise.forward] at e
    cases h1 : (s.ccf pCurrent).bind s.VertexIndex with
    | none => rw [h1] at e; cases e
    | some ccwVertex =>
      rw [h1] at e
      simp only at e
      cases h2 : Finalise.scan vert aVisited (fun h => (s.cfD h).bind s.VertexIndex) ccwVertex
          (List.range vert.length) with
      | none => rw [h2] at e; cases e
      | some o =>
        rw [h2] at e
        cases o with
        | none =>
          simp only [Option.some.injEq] at e
          subst e
          exact hl
        | some iLath =>
          simp only at e
          obtain ⟨h', hv', hkey⟩ := Finalise.scan_found vert aVisited _ ccwVertex _ iLath h2
          cases h3 : vert[iLath]? with
          | none => rw [h3] at e; cases e
          | some h =>
            rw [h3] at e
            simp only at e
            rw [h3] at hv'
            simp only [Option.some.injEq] at hv'
            subst hv'
            have hmem : h ∈ vert := List.mem_iff_getElem?.mpr ⟨_, h3⟩
            cases h4 : s.setLath pCurrent (fun l => { l with m_pClockwiseVertex := some h }) with
            | none => rw [h4] at e; cases e
            | some s1 =>
              rw [h4] at e
              simp only at e
              have hm : s.LinkMatches pCurrent h := by
                refine ⟨⟨v, ?_, ?_⟩, ccwVertex, hkey, h1⟩
                · rw [VertexIndex_of_dropCF hl.core]; exact hvert _ hp
                · rw [VertexIndex_of_dropCF hl.core]; exact hvert _ hmem
              exact ih s1 _ _ _ r (hl.write h4 hm) hmem e

theorem Finalise.backward_links (vert : List Nat) (s0 : CqSubdivision2) (v : Nat)
    (hvert : ∀ h ∈ vert, s0.VertexIndex h = some v) :
    ∀ (fuel : Nat) (s : CqSubdivision2) (aVisited : List Bool) (cVisited pStart iStart : Nat)
      (r : CqSubdivision2 × List Bool × Nat × Nat × Nat),
      LinksFrom s0 s → pStart ∈ vert →
      Finalise.backward vert fuel s aVisited cVisited pStart iStart = some r →
      LinksFrom s0 r.1 := by
  intro fuel
  induction fuel with
  | zero => intro s aVisited cVisited pStart iStart r _ _ e; cases e
  | succ f ih =>
    intro s aVisited cVisited pStart iStart r hl hp e
    simp only [Finalise.backward] at e
    cases h1 : (s.cfD pStart).bind s.VertexIndex with
    | none => rw [h1] at e; cases e
    | some cwVertex =>
      rw [h1] at e
      simp only at e
      cases h2 : Finalise.scan vert aVisited (fun h => (s.ccf h).bind s.VertexIndex) cwVertex
          (List.range vert.length) with
      | none => rw [h2] at e; cases e
      | some o =>
        rw [h2] at e
        cases o with
        | none =>
          simp only [Option.some.injEq] at e
          subst e
          exact hl
        | some iLath =>
          simp only at e
          obtain ⟨h', hv', hkey⟩ := Finalise.scan_found vert aVisited _ cwVertex _ iLath h2
          cases h3 : vert[iLath]? with
          | none => rw [h3] at e; cases e
          | some h =>
            rw [h3] at e
            simp only at e
            rw [h3] at hv'
            simp only [Option.some.injEq] at hv'
            subst hv'
            have hmem : h ∈ vert := List.mem_iff_getElem?.mpr ⟨_, h3⟩
            cases h4 : s.setLath h (fun l => { l with m_pClockwiseVertex := some pStart }) with
            | none => rw [h4] at e; cases e
            | some s1 =>
              rw [h4] at e
              simp only at e
              have hm : s.LinkMatches h pStart := by
                refine ⟨⟨v, ?_, ?_⟩, cwVertex, h1, hkey⟩
                · rw [VertexIndex_of_dropCF hl.core]; exact hvert _ hmem
                · rw [VertexIndex_of_dropCF hl.core]; exact hvert _ hp
              exact ih s1 _ _ _ _ r (hl.write h4 hm) hmem e

theorem Finalise.vertex_links {s0 s : CqSubdivision2} {vert : List Nat} {v : Nat}
    (hvert : ∀ h ∈ vert, s0.VertexIndex h = some v) (hl : LinksFrom s0 s)
    {r : CqSubdivision2 × Bool} (e : Finalise.vertex s vert = some r) :
    LinksFrom s0 r.1 := by
  unfold Finalise.vertex at e
  simp only at e
  by_cases hc : vert.length ≤ 1
  · rw [if_pos hc] at e
    simp only [Option.some.injEq] at e
    subst e
    exact hl
  · rw [if_neg hc] at e
    cases h0 : vert[0]? with
    | none => rw [h0] at e; cases e
    | some pStart =>
      rw [h0] at e
      simp only at e
      have hps : pStart ∈ vert := List.getElem?_mem h0
      cases h1 : Finalise.forward vert (2 * vert.length + 2) s
          (List.replicate vert.length false) 0 pStart with
      | none => rw [h1] at e; cases e
      | some r1 =>
        rw [h1] at e
        obtain ⟨s1, aV1, cV1, pC⟩ := r1
        simp only at e
        have c1 : LinksFrom s0 s1 :=
          Finalise.forward_links vert s0 v hvert _ s _ _ _ _ hl hps h1
        cases h2 : s1.cv pC with
        | none => rw [h2] at e; cases e
        | some pcv =>
          rw [h2] at e
          simp only at e
          cases h3 : (if pcv = none then
              Finalise.backward vert (2 * vert.length + 2) s1 aV1 cV1 pStart 0
            else some (s1, aV1, cV1, pStart, 0)) with
          | none => rw [h3] at e; cases e
          | some r2 =>
            rw [h3] at e
            obtain ⟨s2, aV2, cV2, pS2, iS2⟩ := r2
            simp only at e
            have hres : LinksFrom s0 s2 := by
              by_cases hp : pcv = none
              · rw [if_pos hp] at h3
                exact Finalise.backward_links vert s0 v hvert _ s1 _ _ _ _ _ c1 hps h3
              · rw [if_neg hp] at h3
                simp only [Option.some.injEq, Prod.mk.injEq] at h3
                rw [← h3.1]
                exact c1
            split at e
            · simp only [Option.some.injEq] at e
              subst e
              exact hres
            · simp only [Option.some.injEq] at e
              subst e
              exact hres

theorem Finalise.loop_links (s0 : CqSubdivision2) :
    ∀ (verts : List (List Nat)) (s : CqSubdivision2) (r : CqSubdivision2 × Bool),
      (∀ vert ∈ verts, ∃ v, ∀ h ∈ vert, s0.VertexIndex h = some v) →
      LinksFrom s0 s → Finalise.loop verts s = some r → LinksFrom s0 r.1 := by
  intro verts
  induction verts with
  | nil =>
    intro s r _ hl e
    simp only [Finalise.loop, Option.some.injEq] at e
    subst e
    exact hl
  | cons vert rest ih =>
    intro s r hv hl e
    simp only [Finalise.loop] at e
    cases h1 : Finalise.vertex s vert with
    | none => rw [h1] at e; cases e
    | some r1 =>
      rw [h1] at e
      obtain ⟨s1, b⟩ := r1
      obtain ⟨v, hvert⟩ := hv vert (List.mem_cons_self _ _)
      have c1 : LinksFrom s0 s1 := Finalise.vertex_links hvert hl h1
      cases b with
      | false =>
        simp only [Option.some.injEq] at e
        subst e
        exact c1
      | true =>
        simp only at e
        exact ih s1 r (fun x hx => hv x (List.mem_cons_of_mem _ hx)) c1 e

/-- Every vertex-neighbour link in the state `Finalise` leaves is a link of
the state it started from or joins a matching pair, when every adjacency list
holds laths of its own vertex only. -/
theorem Finalise_links {s : CqSubdivision2}
    (hadj : ∀ (v : Nat) (a : List Nat) (h : Nat),
      s.m_aapVertices[v]? = some a → h ∈ a → s.VertexIndex h = some v)
    {r : CqSubdivision2 × Bool} (e : s.Finalise = some r) : LinksFrom s r.1 := by
  unfold Finalise at e
  have hv : ∀ vert ∈ s.m_aapVertices, ∃ v, ∀ h ∈ vert, s.VertexIndex h = some v := by
    intro vert hm
    obtain ⟨v, hv⟩ := List.mem_iff_getElem?.mp hm
    exact ⟨v, fun h hh => hadj v vert h hv hh⟩
  cases h1 : Finalise.loop s.m_aapVertices s with
  | none => rw [h1] at e; cases e
  | some r1 =>
    rw [h1] at e
    obtain ⟨s1, b⟩ := r1
    have c1 : LinksFrom s s1 := Finalise.loop_links s _ s _ hv (LinksFrom.links_refl s) h1
    cases b with
    | false =>
      simp only [Option.some.injEq] at e
      subst e
      exact c1
    | true =>
      simp only [Option.some.injEq] at e
      subst e
      exact ⟨c1.core, c1.links⟩

end CqSubdivision2
end Aqsis

namespace Aqsis
namespace CqSubdivision2

/-! ## New vertices grow every attribute array -/

theorem addVertexWith_params (iIndex0 : Option Nat) (s : CqSubdivision2)
    (h : iIndex0 ≠ none ∨ s.aUserParams.flatten ≠ []) :
    ∃ r, addVertexWith iIndex0 s = some r ∧ r.1.aUserParams = grownParams s.aUserParams := by
  unfold addVertexWith
  simp only [growAll_eq]
  cases hl : s.aUserParams.flatten.getLast? with
  | some p => exact ⟨_, rfl, rfl⟩
  | none =>
    cases iIndex0 with
    | some i => exact ⟨_, rfl, rfl⟩
    | none =>
      rcases h with h | h
      · exact absurd rfl h
      · exact absurd (List.getLast?_eq_none_iff.mp hl) h

/-- C24: each of `AddVertex`, `AddEdgeVertex` and `AddFaceVertex` returns with
every attribute array of every time slot one slot longer and its type tag
kept, whatever the type (string and matrix arrays included), and with no
other change to the attribute arrays: the same time slots hold the same
arrays in the same order.  `AddEdgeVertex` leaves its index uninitialised
when there is no attribute array at all, so it is stated for a topology with
at least one array; the other two need no condition. -/
theorem AddVertex_grows_every_array (s : CqSubdivision2) (pVertex : Nat) :
    (∃ r, s.AddVertex pVertex = some r ∧ r.1.aUserParams = grownParams s.aUserParams) ∧
    (∃ r, s.AddFaceVertex pVertex = some r ∧ r.1.aUserParams = grownParams s.aUserParams) ∧
    (s.aUserParams.flatten ≠ [] →
      ∃ r, s.AddEdgeVertex pVertex = some r ∧ r.1.aUserParams = grownParams s.aUserParams) ∧
    (grownParams s.aUserParams).map List.length = s.aUserParams.map List.length ∧
    ∀ (t i : Nat) (slot : List CqParameter) (p : CqParameter),
      s.aUserParams[t]? = some slot → slot[i]? = some p →
      ((grownParams s.aUserParams)[t]?).bind (fun g => g[i]?) =
        some ⟨p.m_Type, p.m_Size + 1⟩ := by
  refine ⟨addVertexWith_params _ s (Or.inl (by simp)),
    addVertexWith_params _ s (Or.inl (by simp)),
    fun h => addVertexWith_params _ s (Or.inr h), ?_, ?_⟩
  · simp [grownParams]
  · intro t i slot p ht hi
    simp [grownParams, ht, hi]

theorem AddVertex_grows_every_array_witness :
    (quadMesh.aUserParams.flatten ≠ [] ∧
      ∃ r, quadMesh.AddEdgeVertex 0 = some r ∧
        r.1.aUserParams = grownParams quadMesh.aUserParams) ∧
    (grownParams [[⟨EqVariableType.type_string, 4⟩, ⟨EqVariableType.type_matrix, 4⟩]] =
      [[⟨EqVariableType.type_string, 5⟩, ⟨EqVariableType.type_matrix, 5⟩]]) :=
  ⟨⟨by decide, (AddVertex_grows_every_array quadMesh 0).2.2.1 (by decide)⟩, by decide⟩

/-! ## The links of Finalise -/

/-- C28: every vertex-neighbour link that `Finalise` sets joins a matching
pair.  In a topology whose adjacency lists hold laths of their own vertex only
(what `AddFacet` builds), whenever the state `Finalise` leaves has `L.cv = M`
and that link was not there before the call, `M` references the same vertex
index as `L`, and the vertex index of the face-neighbour of `M` equals the
vertex index of the face-predecessor of `L`. -/
theorem Finalise_sets_matching_links {s : CqSubdivision2}
    (hadj : ∀ (v : Nat) (a : List Nat) (h : Nat),
      s.m_aapVertices[v]? = some a → h ∈ a → s.VertexIndex h = some v)
    {r : CqSubdivision2 × Bool} (e : s.Finalise = some r) (L M : Nat)
    (hcv : r.1.cv L = some (some M)) (hnew : s.cv L ≠ some (some M)) :
    (∃ v, r.1.VertexIndex L = some v ∧ r.1.VertexIndex M = some v) ∧
      ∃ w, (r.1.cfD M).bind r.1.VertexIndex = some w ∧
        (r.1.ccf L).bind r.1.VertexIndex = some w := by
  have hl := Finalise_links hadj e
  rcases hl.links L M hcv with h | h
  · exact absurd h hnew
  · obtain ⟨⟨v, h1, h2⟩, w, h3, h4⟩ := h
    refine ⟨⟨v, ?_, ?_⟩, w, ?_, ?_⟩
    · rw [VertexIndex_of_dropCF hl.core]; exact h1
    · rw [VertexIndex_of_dropCF hl.core]; exact h2
    · have := outKey_of_dropCF hl.core M
      unfold outKey at this
      rw [this]; exact h3
    · have := innKey_of_dropCF hl.core L
      unfold innKey at this
      rw [this]; exact h4

theorem Finalise_sets_matching_links_witness :
    twoQuads.finalised.cv 7 = some (some 2) ∧ twoQuads.cv 7 ≠ some (some 2) ∧
    (∃ v, twoQuads.finalised.VertexIndex 7 = some v ∧
      twoQuads.finalised.VertexIndex 2 = some v) ∧
    ∃ w, (twoQuads.finalised.cfD 2).bind twoQuads.finalised.VertexIndex = some w ∧
      (twoQuads.finalised.ccf 7).bind twoQuads.finalised.VertexIndex = some w :=
  ⟨by decide!, by decide!,
    @Finalise_sets_matching_links twoQuads
      (fun v a h ha hh => ((Fresh.buildMesh (by decide! :
        buildMesh (positionsOnly 6) 6 [[0, 1, 4, 3], [1, 2, 5, 4]] = some twoQuads)).adj v h).mp
        ⟨a, ha, hh⟩)
      (twoQuads.finalised, true) (by decide!) 7 2 (by decide!) (by decide!)⟩

end CqSubdivision2
end Aqsis

namespace Aqsis
namespace CqSubdivision2

/-! ## The adjacency list of the face point -/

theorem getElem?_modify_ne {α : Type} (f : α → α) (L : List α) {i j : Nat} (h : i ≠ j) :
    (L.modify f i)[j]? = L[j]? := by
  rw [List.getElem?_modify]
  simp [h]

theorem getElem?_modify_self {α : Type} (f : α → α) (L : List α) (i : Nat) :
    (L.modify f i)[i]? = (L[i]?).map f := by
  rw [List.getElem?_modify]
  simp

theorem SubdivideFace.hitFour_at (Tb : List (List Nat)) (b : Nat) {vA vB vC vD : Nat}
    (hA : vA ≠ vC) (hB : vB ≠ vC) (hD : vD ≠ vC) :
    (SubdivideFace.hitFour Tb b vA vB vC vD)[vC]? = (Tb[vC]?).map (fun l => l ++ [b + 2]) := by
  unfold SubdivideFace.hitFour
  rw [getElem?_modify_ne _ _ hD, getElem?_modify_self, getElem?_modify_ne _ _ hB,
    getElem?_modify_ne _ _ hA]

theorem SubdivideFace.tableAfter_face {Tb0 : List (List Nat)} {N : Nat} {aV : List Nat}
    {n T : Nat} (h0 : Tb0[T]? = some []) (hT : aV.getD (2 * n) 0 = T)
    (hne : ∀ j, j < 2 * n → aV.getD j 0 ≠ T) :
    ∀ i, i ≤ n → (SubdivideFace.tableAfter Tb0 N aV n i)[T]? =
      some ((List.range i).map (fun j => N + (4 * j + 2))) := by
  intro i
  induction i with
  | zero => intro _; simpa [SubdivideFace.tableAfter] using h0
  | succ i ih =>
    intro hi
    have hn : 0 < n := by omega
    have hm : (i + 1) % n < n := Nat.mod_lt _ hn
    simp only [SubdivideFace.tableAfter]
    rw [hT, SubdivideFace.hitFour_at _ _ (hne i (by omega)) (hne _ (by omega))
      (hne _ (by omega)), ih (by omega)]
    simp only [Option.map_some', List.range_succ, List.map_append, List.map_cons, List.map_nil]
    rfl

theorem SubdivideFace.Refined.face_point_list {s s' : CqSubdivision2} (hv : s.Valid)
    {pFace : Nat} {sub aQfv : List Nat} {k : Nat} {aV : List Nat} {sc : CqSubdivision2}
    (hr : SubdivideFace.Refined s pFace s' sub aQfv k aV sc) :
    s'.m_aapVertices[s.m_aapVertices.length]? =
      some ((List.range aQfv.length).map (fun j => s.m_apLaths.length + (4 * j + 2))) := by
  obtain ⟨_, hk, _, hT, hne⟩ := SubdivideFace.aVertices_spec hv hr.points
  rw [hr.link.table, hr.created.table]
  refine SubdivideFace.tableAfter_face ?_ hT hne _ (Nat.le_refl _)
  unfold growBy
  simp only
  rw [List.getElem?_append_right (Nat.le_refl _)]
  simp only [Nat.sub_self]
  rw [List.getElem?_replicate]
  have hk0 : 0 < k := hk
  simp [hk0]

/-- The state a call leaves the pre-pass in, for a face that was not refined
before: well-formed and grown from the start state. -/
theorem SubdivideFace.late_grown (Qff : CqSubdivision2 → Nat → Option (List Nat)) (d : Nat)
    {s : CqSubdivision2} (hv : s.Valid) {pFace : Nat} {l : CqLath}
    (hl : s.lath pFace = some l) (hf : l.m_pFaceVertex = none) {s' : CqSubdivision2}
    {sub : List Nat} (e : SubdivideFace Qff (d + 1) s pFace = some (s', sub)) :
    ∃ s0 aQfv k aV sc, s0.Valid ∧ Grows s s0 ∧
      SubdivideFace.refine s0 pFace = some (s', sub) ∧
      SubdivideFace.Refined s0 pFace s' sub aQfv k aV sc := by
  have hstep : ∀ (t : CqSubdivision2) (f : Nat) (t2 : CqSubdivision2) (sub aQfv : List Nat)
      (k : Nat) (aV : List Nat) (sc : CqSubdivision2),
      t.Valid → Grows s t → SubdivideFace.refine t f = some (t2, sub) →
      SubdivideFace.Refined t f t2 sub aQfv k aV sc → Grows s t2 := by
    intro t f t2 sub2 aQfv k aV sc hvt hP et hrt
    exact hP.grows_trans (hrt.grows hvt et)
  exact SubdivideFace.late_keeps Qff (fun t => Grows s t) d
    (SubdivideFace_induct Qff _ hstep d) hv (Grows.grows_refl s) hl hf e

theorem Grows.grows_table_length {s t : CqSubdivision2} (h : Grows s t) :
    s.m_aapVertices.length ≤ t.m_aapVertices.length := by
  by_contra hc
  have hlt : t.m_aapVertices.length < s.m_aapVertices.length := by omega
  obtain ⟨a2, h2, _⟩ := h.table _ _ (List.getElem?_eq_getElem hlt)
  have := (List.getElem?_eq_some.mp h2).1
  omega

theorem ClosedChain.of_qvf {s : CqSubdivision2} {q x : Nat} {r : List Nat}
    (h : s.Qvf q = some (x :: r)) : s.ClosedChain q := by
  unfold Qvf at h
  cases hc : s.cv q with
  | none => simp [hc] at h
  | some p =>
    simp only [hc] at h
    cases hl : Qvf.loop s q s.m_apLaths.length p with
    | none => simp [hl] at h
    | some o =>
      cases o with
      | none => simp [hl] at h
      | some r2 =>
        obtain ⟨y, rfl, hit⟩ := Qvf.loop_iter s q _ _ _ hl
        refine ⟨r2.length + 1, by omega, ?_⟩
        simp only [cvIter]
        rw [cvD_of_cv hc]
        exact hit

end CqSubdivision2
end Aqsis

namespace Aqsis
namespace CqSubdivision2

/-! ## The face point of a refinement -/

/-- C30: when a `SubdivideFace` call refines a face with `n` corners in a
well-formed topology, the third laths `C_0 .. C_(n-1)` of the `n` child faces
(the face-neighbour of the face-neighbour of each returned lath) all reference
one vertex `T` that the topology did not have before, the adjacency list of
`T` is exactly `C_0 .. C_(n-1)`, the laths are distinct, and
`C_i.cv = C_((i+1) mod n)`: the vertex ring of `C_0` is this closed cycle, so
the face point has valence `n` and no missing vertex-neighbour link. -/
theorem SubdivideFace_face_point_cycle (Qff : CqSubdivision2 → Nat → Option (List Nat))
    (d : Nat) {s : CqSubdivision2} (hv : s.Valid) {pFace : Nat} {l : CqLath}
    (hl : s.lath pFace = some l) (hf : l.m_pFaceVertex = none) {aQfv : List Nat}
    (hq : s.Qfv pFace = some aQfv) {s' : CqSubdivision2} {sub : List Nat}
    (e : SubdivideFace Qff (d + 1) s pFace = some (s', sub)) :
    ∃ (T : Nat) (C : List Nat),
      s.m_aapVertices.length ≤ T ∧ T < s'.m_aapVertices.length ∧
      sub.length = aQfv.length ∧ C.length = aQfv.length ∧ C.Nodup ∧
      (∀ j, j < aQfv.length →
        (s'.cfD (sub.getD j 0)).bind s'.cfD = some (C.getD j 0)) ∧
      (∀ c ∈ C, s'.VertexIndex c = some T) ∧
      s'.m_aapVertices[T]? = some C ∧
      (∀ j, j < aQfv.length →
        s'.cv (C.getD j 0) = some (some (C.getD ((j + 1) % aQfv.length) 0))) ∧
      s'.Qvf (C.getD 0 0) = some C ∧ s'.cQvv (C.getD 0 0) = some aQfv.length ∧
      s'.ClosedChain (C.getD 0 0) := by
  obtain ⟨s0, aQ0, k, aV, sc, hv0, hg, e0, hr⟩ := SubdivideFace.late_grown Qff d hv hl hf e
  have hq0 : aQ0 = aQfv := by
    have := hg.grows_qfv hv hq
    rw [hr.qfv] at this
    exact Option.some.inj this
  subst hq0
  obtain ⟨_, hk, _, hT, _⟩ := SubdivideFace.aVertices_spec hv0 hr.points
  obtain ⟨tl, htl⟩ := Qfv_head hr.qfv
  have hn : 0 < aQ0.length := by rw [htl]; simp
  have hsub := hr.sub_eq
  have hC : ∀ j, j < aQ0.length →
      ((List.range aQ0.length).map (fun j => s0.m_apLaths.length + (4 * j + 2))).getD j 0 =
        s0.m_apLaths.length + (4 * j + 2) := by
    intro j hj
    rw [List.getD_eq_getElem?_getD, List.getElem?_map, List.getElem?_range hj]
    rfl
  have hS : ∀ j, j < aQ0.length → sub.getD j 0 = s0.m_apLaths.length + (4 * j + 0) := by
    intro j hj
    rw [hsub, List.getD_eq_getElem?_getD, List.getElem?_map, List.getElem?_range hj]
    rfl
  have hqvf := hr.qvf
  refine ⟨s0.m_aapVertices.length,
    (List.range aQ0.length).map (fun j => s0.m_apLaths.length + (4 * j + 2)),
    hg.grows_table_length, by rw [hr.table_length]; omega, by rw [hsub]; simp, by simp, ?_, ?_, ?_,
    hr.face_point_list hv0, ?_, ?_, ?_, ?_⟩
  · refine (List.nodup_range _).map ?_
    intro a b hab
    simp only at hab
    omega
  · intro j hj
    rw [hS j hj, hC j hj, hr.cfD_new hj (by omega)]
    simp only [Option.some_bind]
    rw [hr.cfD_new hj (by omega)]
  · intro c hc
    obtain ⟨j, hj, rfl⟩ := List.mem_map.mp hc
    rw [hr.VertexIndex_new (List.mem_range.mp hj) (by omega : 2 < 4)]
    simp only [SubdivideFace.cornerVertex, hT]
  · intro j hj
    rw [hC j hj, hC _ (Nat.mod_lt _ hn)]
    exact hr.cvC j hj
  · rw [hC 0 hn]
    exact hqvf
  · rw [hC 0 hn]
    unfold cQvv
    rw [hqvf]
    simp
  · rw [hC 0 hn]
    obtain ⟨m, hm⟩ : ∃ m, aQ0.length = m + 1 := ⟨aQ0.length - 1, by omega⟩
    rw [hm, List.range_succ_eq_map, List.map_cons] at hqvf
    exact ClosedChain.of_qvf hqvf

theorem SubdivideFace_face_point_cycle_witness :
    quadMesh.finalised.Valid ∧
    quadMesh.finalised.Qfv 0 = some [0, 3, 2, 1] ∧
    SubdivideFace Qff 1 quadMesh.finalised 0 = some (quadMesh.refined, [4, 8, 12, 16]) ∧
    ∃ (T : Nat) (C : List Nat),
      quadMesh.finalised.m_aapVertices.length ≤ T ∧ T < quadMesh.refined.m_aapVertices.length ∧
      [4, 8, 12, 16].length = [0, 3, 2, 1].length ∧ C.length = [0, 3, 2, 1].length ∧ C.Nodup ∧
      (∀ j, j < [0, 3, 2, 1].length →
        (quadMesh.refined.cfD (([4, 8, 12, 16] : List Nat).getD j 0)).bind quadMesh.refined.cfD =
          some (C.getD j 0)) ∧
      (∀ c ∈ C, quadMesh.refined.VertexIndex c = some T) ∧
      quadMesh.refined.m_aapVertices[T]? = some C ∧
      (∀ j, j < [0, 3, 2, 1].length →
        quadMesh.refined.cv (C.getD j 0) =
          some (some (C.getD ((j + 1) % [0, 3, 2, 1].length) 0))) ∧
      quadMesh.refined.Qvf (C.getD 0 0) = some C ∧
      quadMesh.refined.cQvv (C.getD 0 0) = some [0, 3, 2, 1].length ∧
      quadMesh.refined.ClosedChain (C.getD 0 0) :=
  ⟨quadMesh_valid.1, by decide!, by decide!,
    SubdivideFace_face_point_cycle Qff 0 quadMesh_valid.1
      (show quadMesh.finalised.lath 0 = some ⟨none, some 3, none, none, none, none, 0⟩
        by decide!) rfl
      (show quadMesh.finalised.Qfv 0 = some [0, 3, 2, 1] by decide!)
      (show SubdivideFace Qff 1 quadMesh.finalised 0 =
        some (quadMesh.refined, [4, 8, 12, 16]) by decide!)⟩

end CqSubdivision2
end Aqsis

namespace Aqsis
namespace CqImageChannel

/-! ## Copying between image channels -/

theorem sampleIndex_inj (ch : CqImageChannel) (hs : 0 < ch.m_stride) {r c r2 c2 : Nat}
    (hc : c < ch.m_width) (hc2 : c2 < ch.m_width)
    (h : ch.sampleIndex r c = ch.sampleIndex r2 c2) : r = r2 ∧ c = c2 := by
  unfold sampleIndex at h
  have h1 : (r * (ch.m_width + ch.m_rowSkip) + c) * ch.m_stride =
      (r2 * (ch.m_width + ch.m_rowSkip) + c2) * ch.m_stride := by omega
  have h2 := Nat.eq_of_mul_eq_mul_right hs h1
  rcases Nat.lt_trichotomy r r2 with hlt | heq | hgt
  · have := Nat.mul_le_mul_right (ch.m_width + ch.m_rowSkip) (show r + 1 ≤ r2 from hlt)
    rw [Nat.add_mul, Nat.one_mul] at this
    omega
  · subst heq
    exact ⟨rfl, by omega⟩
  · have := Nat.mul_le_mul_right (ch.m_width + ch.m_rowSkip) (show r2 + 1 ≤ r from hgt)
    rw [Nat.add_mul, Nat.one_mul] at this
    omega

theorem copyFrom.row_spec (dest src : CqImageChannel) (srcBuf : List ℚ) (row : Nat)
    (hs : 0 < dest.m_stride) :
    ∀ (n col : Nat) (destBuf out : List ℚ), col + n ≤ dest.m_width →
      copyFrom.row dest src srcBuf row n col destBuf = some out →
      out.length = destBuf.length ∧
      (∀ i, (∀ c, col ≤ c → c < col + n → i ≠ dest.sampleIndex row c) →
        out[i]? = destBuf[i]?) ∧
      (∀ c, col ≤ c → c < col + n → out[dest.sampleIndex row c]? =
        (srcBuf[src.sampleIndex row c]?).map (convert src.m_chanInfo dest.m_chanInfo)) := by
  intro n
  induction n with
  | zero =>
    intro col destBuf out _ e
    simp only [copyFrom.row, Option.some.injEq] at e
    subst e
    exact ⟨rfl, fun _ _ => rfl, fun c h1 h2 => by omega⟩
  | succ n ih =>
    intro col destBuf out hw e
    simp only [copyFrom.row] at e
    cases hv : srcBuf[src.sampleIndex row col]? with
    | none => rw [hv] at e; cases e
    | some v =>
      rw [hv] at e
      simp only at e
      by_cases hd : dest.sampleIndex row col < destBuf.length
      · rw [if_pos hd] at e
        obtain ⟨h1, h2, h3⟩ := ih (col + 1) _ out (by omega) e
        refine ⟨by rw [h1, List.length_set], ?_, ?_⟩
        · intro i hi
          rw [h2 i (fun c hc1 hc2 => hi c (by omega) (by omega))]
          rw [List.getElem?_set_ne]
          exact fun h => hi col (Nat.le_refl _) (by omega) h.symm
        · intro c hc1 hc2
          by_cases hcc : c = col
          · subst hcc
            rw [h2 _ (fun c2 hc3 hc4 h => by
              have := (sampleIndex_inj dest hs (by omega) (by omega) h).2
              omega)]
            rw [List.getElem?_set_self hd, hv]
            rfl
          · exact h3 c (by omega) (by omega)
      · rw [if_neg hd] at e
        cases e

theorem copyFrom.row_total (dest src : CqImageChannel) (srcBuf : List ℚ) (row : Nat) :
    ∀ (n col : Nat) (destBuf : List ℚ),
      (∀ c, col ≤ c → c < col + n → src.sampleIndex row c < srcBuf.length ∧
        dest.sampleIndex row c < destBuf.length) →
      ∃ out, copyFrom.row dest src srcBuf row n col destBuf = some out := by
  intro n
  induction n with
  | zero => intro col destBuf _; exact ⟨destBuf, rfl⟩
  | succ n ih =>
    intro col destBuf h
    obtain ⟨h1, h2⟩ := h col (Nat.le_refl _) (by omega)
    simp only [copyFrom.row, List.getElem?_eq_getElem h1, if_pos h2]
    refine ih (col + 1) _ (fun c hc1 hc2 => ?_)
    rw [List.length_set]
    exact h c (by omega) (by omega)

theorem copyFrom.row_congr (dest src : CqImageChannel) (srcBuf srcBuf2 : List ℚ) (row : Nat) :
    ∀ (n col : Nat) (destBuf : List ℚ),
      (∀ c, col ≤ c → c < col + n →
        srcBuf2[src.sampleIndex row c]? = srcBuf[src.sampleIndex row c]?) →
      copyFrom.row dest src srcBuf2 row n col destBuf =
        copyFrom.row dest src srcBuf row n col destBuf := by
  intro n
  induction n with
  | zero => intro col destBuf _; rfl
  | succ n ih =>
    intro col destBuf h
    simp only [copyFrom.row]
    rw [h col (Nat.le_refl _) (by omega)]
    cases srcBuf[src.sampleIndex row col]? with
    | none => rfl
    | some v =>
      simp only
      by_cases hd : dest.sampleIndex row col < destBuf.length
      · rw [if_pos hd, if_pos hd]
        exact ih (col + 1) _ (fun c hc1 hc2 => h c (by omega) (by omega))
      · rw [if_neg hd, if_neg hd]

theorem copyFrom.rows_spec (dest src : CqImageChannel) (srcBuf : List ℚ)
    (hs : 0 < dest.m_stride) :
    ∀ (n row : Nat) (destBuf out : List ℚ),
      copyFrom.rows dest src srcBuf n row destBuf = some out →
      out.length = destBuf.length ∧
      (∀ i, (∀ r c, row ≤ r → r < row + n → c < dest.m_width → i ≠ dest.sampleIndex r c) →
        out[i]? = destBuf[i]?) ∧
      (∀ r c, row ≤ r → r < row + n → c < dest.m_width → out[dest.sampleIndex r c]? =
        (srcBuf[src.sampleIndex r c]?).map (convert src.m_chanInfo dest.m_chanInfo)) := by
  intro n
  induction n with
  | zero =>
    intro row destBuf out e
    simp only [copyFrom.rows, Option.some.injEq] at e
    subst e
    exact ⟨rfl, fun _ _ => rfl, fun r c h1 h2 => by omega⟩
  | succ n ih =>
    intro row destBuf out e
    simp only [copyFrom.rows] at e
    cases hm : copyFrom.row dest src srcBuf row dest.m_width 0 destBuf with
    | none => rw [hm] at e; cases e
    | some mid =>
      rw [hm] at e
      simp only [Option.some_bind] at e
      obtain ⟨a1, a2, a3⟩ := copyFrom.row_spec dest src srcBuf row hs _ _ _ _ (by omega) hm
      obtain ⟨b1, b2, b3⟩ := ih (row + 1) mid out e
      refine ⟨b1.trans a1, ?_, ?_⟩
      · intro i hi
        rw [b2 i (fun r c h1 h2 h3 => hi r c (by omega) (by omega) h3)]
        exact a2 i (fun c _ h2 => hi row c (Nat.le_refl _) (by omega) (by omega))
      · intro r c h1 h2 h3
        by_cases hr : r = row
        · subst hr
          rw [b2 _ (fun r2 c2 h4 _ h6 h => by
            have := (sampleIndex_inj dest hs h3 h6 h).1
            omega)]
          exact a3 c (Nat.zero_le _) (by omega)
        · exact b3 r c (by omega) (by omega) h3

theorem copyFrom.rows_total (dest src : CqImageChannel) (srcBuf : List ℚ)
    (hs : 0 < dest.m_stride) :
    ∀ (n row : Nat) (destBuf : List ℚ),
      (∀ r c, row ≤ r → r < row + n → c < dest.m_width →
        src.sampleIndex r c < srcBuf.length ∧ dest.sampleIndex r c < destBuf.length) →
      ∃ out, copyFrom.rows dest src srcBuf n row destBuf = some out := by
  intro n
  induction n with
  | zero => intro row destBuf _; exact ⟨destBuf, rfl⟩
  | succ n ih =>
    intro row destBuf h
    obtain ⟨mid, hm⟩ := copyFrom.row_total dest src srcBuf row dest.m_width 0 destBuf
      (fun c _ hc => h row c (Nat.le_refl _) (by omega) (by omega))
    obtain ⟨a1, _, _⟩ := copyFrom.row_spec dest src srcBuf row hs _ _ _ _ (by omega) hm
    simp only [copyFrom.rows, hm, Option.some_bind]
    refine ih (row + 1) mid (fun r c h1 h2 h3 => ?_)
    rw [a1]
    exact h r c (by omega) (by omega) h3

theorem copyFrom.rows_congr (dest src : CqImageChannel) (srcBuf srcBuf2 : List ℚ) :
    ∀ (n row : Nat) (destBuf : List ℚ),
      (∀ r c, row ≤ r → r < row + n → c < dest.m_width →
        srcBuf2[src.sampleIndex r c]? = srcBuf[src.sampleIndex r c]?) →
      copyFrom.rows dest src srcBuf2 n row destBuf =
        copyFrom.rows dest src srcBuf n row destBuf := by
  intro n
  induction n with
  | zero => intro row destBuf _; rfl
  | succ n ih =>
    intro row destBuf h
    simp only [copyFrom.rows]
    rw [copyFrom.row_congr dest src srcBuf srcBuf2 row _ _ _
      (fun c _ hc => h row c (Nat.le_refl _) (by omega) (by omega))]
    cases copyFrom.row dest src srcBuf row dest.m_width 0 destBuf with
    | none => rfl
    | some mid =>
      simp only [Option.some_bind]
      exact ih (row + 1) mid (fun r c h1 h2 h3 => h r c (by omega) (by omega) h3)

/-- What a copy between channels of the same size does when every pixel of
both channels lies inside its array: it returns an array of the length of the
destination array, in which every position that is not a pixel of the
destination channel is unchanged and every pixel of the destination channel
holds the converted sample of the same pixel of the source channel. -/
theorem copyFrom_spec (dest src : CqImageChannel) (destBuf srcBuf : List ℚ)
    (hw : src.m_width = dest.m_width) (hh : src.m_height = dest.m_height)
    (hs : 0 < dest.m_stride)
    (hsrc : ∀ r c, r < src.m_height → c < src.m_width → src.sampleIndex r c < srcBuf.length)
    (hdst : ∀ r c, r < dest.m_height → c < dest.m_width →
      dest.sampleIndex r c < destBuf.length) :
    ∃ out, copyFrom dest src destBuf srcBuf = some out ∧ out.length = destBuf.length ∧
      (∀ i, ¬ dest.Selected i → out[i]? = destBuf[i]?) ∧
      ∀ r c, r < dest.m_height → c < dest.m_width →
        ∃ v, srcBuf[src.sampleIndex r c]? = some v ∧
          out[dest.sampleIndex r c]? = some (convert src.m_chanInfo dest.m_chanInfo v) := by
  obtain ⟨out, ho⟩ := copyFrom.rows_total dest src srcBuf hs dest.m_height 0 destBuf
    (fun r c _ h2 h3 => ⟨hsrc r c (by omega) (by omega), hdst r c (by omega) h3⟩)
  obtain ⟨a1, a2, a3⟩ := copyFrom.rows_spec dest src srcBuf hs _ _ _ _ ho
  refine ⟨out, by unfold copyFrom; rw [if_pos ⟨hw, hh⟩]; exact ho, a1, ?_, ?_⟩
  · intro i hi
    exact a2 i (fun r c _ h2 h3 h => hi ⟨r, c, by omega, h3, h⟩)
  · intro r c hr hc
    have hlt := hsrc r c (by omega) (by omega)
    refine ⟨srcBuf[src.sampleIndex r c], List.getElem?_eq_getElem hlt, ?_⟩
    rw [a3 r c (Nat.zero_le _) (by omega) hc, List.getElem?_eq_getElem hlt]
    rfl

theorem copyFrom_congr (dest src : CqImageChannel) (destBuf srcBuf srcBuf2 : List ℚ)
    (h : ∀ i, src.Selected i → srcBuf2[i]? = srcBuf[i]?) :
    copyFrom dest src destBuf srcBuf2 = copyFrom dest src destBuf srcBuf := by
  unfold copyFrom
  by_cases hc : src.m_width = dest.m_width ∧ src.m_height = dest.m_height
  · rw [if_pos hc, if_pos hc]
    exact copyFrom.rows_congr dest src srcBuf srcBuf2 _ _ _
      (fun r c _ h2 h3 => h _ ⟨r, c, by omega, by omega, rfl⟩)
  · rw [if_neg hc, if_neg hc]

end CqImageChannel
end Aqsis

namespace Aqsis
namespace CqImageChannel

open EqChannelType

/-! ## Sample conversions -/

theorem lround_natCast (k : Nat) : lround (k : ℚ) = k := by
  unfold lround
  rw [if_pos (Nat.cast_nonneg k)]
  rw [Int.floor_eq_iff]
  constructor
  · push_cast; linarith
  · push_cast; linarith

theorem clamp_of_mem {x : ℚ} (h0 : 0 ≤ x) (h1 : x ≤ 1) : clamp x 0 1 = x := by
  unfold clamp
  rw [min_eq_left h1, max_eq_right h0]

theorem max_pos {t : EqChannelType} {m : ℚ} (h : t.max = some m) : 0 < m := by
  cases t <;> simp [EqChannelType.max] at h <;> subst h <;> norm_num

/-- A sample converted to the common form and back to its own type is the
sample itself. -/
theorem convert_roundtrip (t : EqChannelType) (v : ℚ) (hv : t.Holds v) :
    convertFromFloat t (convertToFloat t v) = v := by
  unfold convertFromFloat convertToFloat
  cases hm : t.max with
  | none => rfl
  | some m =>
    obtain ⟨k, rfl, hk⟩ := hv m hm
    have hpos := max_pos hm
    simp only
    have h0 : (0 : ℚ) ≤ (k : ℚ) / m := div_nonneg (Nat.cast_nonneg k) hpos.le
    have h1 : (k : ℚ) / m ≤ 1 := (div_le_one hpos).mpr hk
    rw [clamp_of_mem h0 h1, div_mul_cancel₀ _ hpos.ne', lround_natCast]
    simp

theorem convert_full_range (s d : EqChannelType) (ms md : ℚ) (hne : s ≠ d)
    (hs : s.max = some ms) (hd : d.max = some md) :
    convert s d 0 = 0 ∧ convert s d ms = md := by
  cases s <;> cases d <;> simp [EqChannelType.max] at hs hd <;>
    first
    | exact absurd rfl hne
    | (subst hs; subst hd; exact ⟨by decide!, by decide!⟩)

theorem convert_to_float (s : EqChannelType) (ms v : ℚ) (hs : s.max = some ms) :
    convert s Channel_Float32 v = v / ms := by
  have hne : s ≠ Channel_Float32 := by
    intro h; subst h; simp [EqChannelType.max] at hs
  unfold convert convertFromFloat convertToFloat
  rw [if_neg hne, hs]
  rfl

end CqImageChannel
end Aqsis

namespace Aqsis
namespace CqImageChannel

open EqChannelType

/-! ## The unit tests of the image channel -/

/-- The test `CqImageChannel_test_copyFrom_simpleTest`. -/
theorem copyFrom_simpleTest :
    copyFrom (channelFromArray Channel_Unsigned8 2 1 1 0 0)
      (channelFromArray Channel_Unsigned16 2 1 1 0 0) [0, 0] [0x100, 0x200] = some [1, 2] := by
  decide!

/-- The test `CqImageChannel_test_copyFrom_offset_and_stride`. -/
theorem copyFrom_offset_and_stride :
    copyFrom (channelFromArray Channel_Unsigned8 2 1 2 0 0)
      (channelFromArray Channel_Unsigned16 2 1 2 1 0) [0, 0, 0, 0]
      [0x100, 0x200, 0x300, 0x400] = some [2, 0, 4, 0] := by
  decide!

/-- The test `CqImageChannel_test_copyFrom_rowSkip`. -/
theorem copyFrom_rowSkip :
    copyFrom (channelFromArray Channel_Unsigned8 1 2 1 0 0)
      (channelFromArray Channel_Unsigned16 1 2 1 0 1) [0, 0]
      [0x100, 0x200, 0x300, 0x400] = some [1, 3] := by
  decide!

/-- The test `CqImageChannel_test_copyFrom_floatOut`; the value stored for
`uShortMax/2` is within the tolerance of the test of `0.5`. -/
theorem copyFrom_floatOut :
    copyFrom (channelFromArray Channel_Float32 2 1 1 0 0)
      (channelFromArray Channel_Unsigned16 2 1 1 0 0) [0, 0]
      [((65535 / 2 : Nat) : ℚ), 65535] = some [32767 / 65535, 1] ∧
    |(32767 / 65535 : ℚ) - 1 / 2| ≤ 1 / 65535 * (1 / 2) := by
  constructor
  · decide!
  · norm_num [abs_le]

/-- The test `CqImageChannel_test_copyFromSameType`. -/
theorem copyFrom_sameType_test :
    copyFrom (channelFromArray Channel_Unsigned16 2 1 1 0 0)
      (channelFromArray Channel_Unsigned16 2 1 1 0 0) [0, 0] [0x100, 0x200] =
      some [0x100, 0x200] := by
  decide!

/-! ## Copying between channels -/

/-- C25: for a source and a destination channel of the same width and height
whose pixels lie inside their arrays, `copyFrom` returns and every pixel of
the destination channel holds the converted sample of the same pixel of the
source channel.  The conversion rescales the full range of the source type
onto the full range of the destination type: between two integer types it
takes zero to zero and the maximum to the maximum, and to the floating point
type it divides by the maximum.  Unsigned 16-bit to unsigned 8-bit takes
0x100 to 1 and 0x200 to 2; unsigned 16-bit to floating point takes 65535 to 1
and 65535/2 to within 1/65535, relative, of 0.5. -/
theorem copyFrom_rescales (dest src : CqImageChannel) (destBuf srcBuf : List ℚ)
    (hw : src.m_width = dest.m_width) (hh : src.m_height = dest.m_height)
    (hs : 0 < dest.m_stride)
    (hsrc : ∀ r c, r < src.m_height → c < src.m_width → src.sampleIndex r c < srcBuf.length)
    (hdst : ∀ r c, r < dest.m_height → c < dest.m_width →
      dest.sampleIndex r c < destBuf.length) :
    (∃ out, copyFrom dest src destBuf srcBuf = some out ∧
      ∀ r c, r < dest.m_height → c < dest.m_width →
        ∃ v, srcBuf[src.sampleIndex r c]? = some v ∧
          out[dest.sampleIndex r c]? = some (convert src.m_chanInfo dest.m_chanInfo v)) ∧
    (∀ (s d : EqChannelType) (ms md : ℚ), s ≠ d → s.max = some ms → d.max = some md →
      convert s d 0 = 0 ∧ convert s d ms = md) ∧
    (∀ (s : EqChannelType) (ms v : ℚ), s.max = some ms →
      convert s Channel_Float32 v = v / ms) ∧
    convert Channel_Unsigned16 Channel_Unsigned8 0x100 = 1 ∧
    convert Channel_Unsigned16 Channel_Unsigned8 0x200 = 2 ∧
    convert Channel_Unsigned16 Channel_Float32 65535 = 1 ∧
    |convert Channel_Unsigned16 Channel_Float32 ((65535 / 2 : Nat) : ℚ) - 1 / 2| ≤
      1 / 65535 * (1 / 2) := by
  obtain ⟨out, h1, _, _, h4⟩ := copyFrom_spec dest src destBuf srcBuf hw hh hs hsrc hdst
  refine ⟨⟨out, h1, h4⟩, convert_full_range, convert_to_float, by decide!, by decide!,
    by decide!, ?_⟩
  rw [convert_to_float Channel_Unsigned16 65535 _ rfl]
  norm_num [abs_le]

theorem copyFrom_rescales_witness :
    (∃ out, copyFrom (channelFromArray Channel_Unsigned8 2 1 1 0 0)
        (channelFromArray Channel_Unsigned16 2 1 1 0 0) [0, 0] [0x100, 0x200] = some out ∧
      ∀ r c, r < 1 → c < 2 →
        ∃ v, ([0x100, 0x200] : List ℚ)[(channelFromArray Channel_Unsigned16 2 1 1 0 0).sampleIndex
            r c]? = some v ∧
          out[(channelFromArray Channel_Unsigned8 2 1 1 0 0).sampleIndex r c]? =
            some (convert Channel_Unsigned16 Channel_Unsigned8 v)) :=
  (copyFrom_rescales (channelFromArray Channel_Unsigned8 2 1 1 0 0)
    (channelFromArray Channel_Unsigned16 2 1 1 0 0) [0, 0] [0x100, 0x200] rfl rfl (by decide)
    (fun r c hr hc => by
      simp only [channelFromArray] at hr hc
      simp only [sampleIndex, channelFromArray, List.length_cons, List.length_nil]
      omega)
    (fun r c hr hc => by
      simp only [channelFromArray] at hr hc
      simp only [sampleIndex, channelFromArray, List.length_cons, List.length_nil]
      omega)).1

/-- C26: for channels of the same size over interleaved arrays, with every
pixel inside its array, `copyFrom` returns an array of the length of the
destination array in which every pixel of the destination channel (the
positions given by its offset, stride and row skip) holds the converted sample
of the same pixel of the source channel, and every other position (the other
interleaved channels) holds what it held before; the result is the same for
every source array with the same samples at the positions given by the offset,
stride and row skip of the source channel. -/
theorem copyFrom_touches_selected_only (dest src : CqImageChannel) (destBuf srcBuf : List ℚ)
    (hw : src.m_width = dest.m_width) (hh : src.m_height = dest.m_height)
    (hs : 0 < dest.m_stride)
    (hsrc : ∀ r c, r < src.m_height → c < src.m_width → src.sampleIndex r c < srcBuf.length)
    (hdst : ∀ r c, r < dest.m_height → c < dest.m_width →
      dest.sampleIndex r c < destBuf.length) :
    ∃ out, copyFrom dest src destBuf srcBuf = some out ∧ out.length = destBuf.length ∧
      (∀ i, ¬ dest.Selected i → out[i]? = destBuf[i]?) ∧
      (∀ r c, r < dest.m_height → c < dest.m_width →
        out[dest.sampleIndex r c]? =
          (srcBuf[src.sampleIndex r c]?).map (convert src.m_chanInfo dest.m_chanInfo)) ∧
      ∀ srcBuf2 : List ℚ, (∀ i, src.Selected i → srcBuf2[i]? = srcBuf[i]?) →
        copyFrom dest src destBuf srcBuf2 = some out := by
  obtain ⟨out, h1, h2, h3, h4⟩ := copyFrom_spec dest src destBuf srcBuf hw hh hs hsrc hdst
  refine ⟨out, h1, h2, h3, ?_, ?_⟩
  · intro r c hr hc
    obtain ⟨v, hv, ho⟩ := h4 r c hr hc
    rw [ho, hv]
    rfl
  · intro srcBuf2 h
    rw [copyFrom_congr dest src destBuf srcBuf srcBuf2 h]
    exact h1

theorem copyFrom_touches_selected_only_witness :
    ∃ out, copyFrom (channelFromArray Channel_Unsigned8 2 1 2 0 0)
        (channelFromArray Channel_Unsigned16 2 1 2 1 0) [0, 7, 0, 9]
        [0x100, 0x200, 0x300, 0x400] = some out ∧
      out.length = ([0, 7, 0, 9] : List ℚ).length ∧
      (∀ i, ¬ (channelFromArray Channel_Unsigned8 2 1 2 0 0).Selected i →
        out[i]? = ([0, 7, 0, 9] : List ℚ)[i]?) ∧
      (∀ r c, r < 1 → c < 2 →
        out[(channelFromArray Channel_Unsigned8 2 1 2 0 0).sampleIndex r c]? =
          (([0x100, 0x200, 0x300, 0x400] : List ℚ)[(channelFromArray Channel_Unsigned16
            2 1 2 1 0).sampleIndex r c]?).map (convert Channel_Unsigned16 Channel_Unsigned8)) ∧
      ∀ srcBuf2 : List ℚ,
        (∀ i, (channelFromArray Channel_Unsigned16 2 1 2 1 0).Selected i →
          srcBuf2[i]? = ([0x100, 0x200, 0x300, 0x400] : List ℚ)[i]?) →
        copyFrom (channelFromArray Channel_Unsigned8 2 1 2 0 0)
          (channelFromArray Channel_Unsigned16 2 1 2 1 0) [0, 7, 0, 9] srcBuf2 = some out :=
  copyFrom_touches_selected_only (channelFromArray Channel_Unsigned8 2 1 2 0 0)
    (channelFromArray Channel_Unsigned16 2 1 2 1 0) [0, 7, 0, 9] [0x100, 0x200, 0x300, 0x400]
    rfl rfl (by decide)
    (fun r c hr hc => by
      simp only [channelFromArray] at hr hc
      simp only [sampleIndex, channelFromArray, List.length_cons, List.length_nil]
      omega)
    (fun r c hr hc => by
      simp only [channelFromArray] at hr hc
      simp only [sampleIndex, channelFromArray, List.length_cons, List.length_nil]
      omega)

/-- C27: for a source and a destination channel of the same sample type and
the same width and height, with every pixel inside its array, after
`destChan.copyFrom(srcChan)` every pixel of the destination channel holds
exactly the sample of the same pixel of the source channel; and the
conversion through the common floating point form would lose nothing either:
it gives every value of the type back. -/
theorem copyFrom_same_type_identity (dest src : CqImageChannel) (destBuf srcBuf : List ℚ)
    (ht : src.m_chanInfo = dest.m_chanInfo)
    (hw : src.m_width = dest.m_width) (hh : src.m_height = dest.m_height)
    (hs : 0 < dest.m_stride)
    (hsrc : ∀ r c, r < src.m_height → c < src.m_width → src.sampleIndex r c < srcBuf.length)
    (hdst : ∀ r c, r < dest.m_height → c < dest.m_width →
      dest.sampleIndex r c < destBuf.length) :
    (∃ out, copyFrom dest src destBuf srcBuf = some out ∧
      ∀ r c, r < dest.m_height → c < dest.m_width →
        ∃ v, srcBuf[src.sampleIndex r c]? = some v ∧ out[dest.sampleIndex r c]? = some v) ∧
    ∀ v, dest.m_chanInfo.Holds v →
      convertFromFloat dest.m_chanInfo (convertToFloat src.m_chanInfo v) = v := by
  obtain ⟨out, h1, _, _, h4⟩ := copyFrom_spec dest src destBuf srcBuf hw hh hs hsrc hdst
  refine ⟨⟨out, h1, ?_⟩, ?_⟩
  · intro r c hr hc
    obtain ⟨v, hv, ho⟩ := h4 r c hr hc
    refine ⟨v, hv, ?_⟩
    rw [ho]
    unfold convert
    rw [if_pos ht]
  · intro v hv
    rw [ht]
    exact convert_roundtrip _ v hv

theorem copyFrom_same_type_identity_witness :
    ∃ out, copyFrom (channelFromArray Channel_Unsigned16 2 1 1 0 0)
        (channelFromArray Channel_Unsigned16 2 1 1 0 0) [0, 0] [0x100, 0x200] = some out ∧
      ∀ r c, r < 1 → c < 2 →
        ∃ v, ([0x100, 0x200] : List ℚ)[(channelFromArray Channel_Unsigned16 2 1 1 0 0).sampleIndex
            r c]? = some v ∧
          out[(channelFromArray Channel_Unsigned16 2 1 1 0 0).sampleIndex r c]? = some v :=
  (copyFrom_same_type_identity (channelFromArray Channel_Unsigned16 2 1 1 0 0)
    (channelFromArray Channel_Unsigned16 2 1 1 0 0) [0, 0] [0x100, 0x200] rfl rfl rfl (by decide)
    (fun r c hr hc => by
      simp only [channelFromArray] at hr hc
      simp only [sampleIndex, channelFromArray, List.length_cons, List.length_nil]
      omega)
    (fun r c hr hc => by
      simp only [channelFromArray] at hr hc
      simp only [sampleIndex, channelFromArray, List.length_cons, List.length_nil]
      omega)).1

end CqImageChannel
end Aqsis

namespace Aqsis
namespace CqSubdivision2

/-! ## Where the pointers of a refinement come from -/

theorem SubdivideFace.Origin.origin_zero (s : CqSubdivision2) : SubdivideFace.Origin s 0 s := by
  intro y ly hy
  exact ⟨fun m hm => Or.inr ⟨ly, hy, hm⟩, fun m hm => Or.inr ⟨ly, hy, hm⟩⟩

theorem SubdivideFace.four_pointers {pFace base vA vB vC vD : Nat} {l : CqLath}
    (h : l ∈ SubdivideFace.four pFace base vA vB vC vD) :
    l.m_pChildVertex = none ∧ l.m_pMidVertex = none ∧ l.m_pFaceVertex = none := by
  simp only [SubdivideFace.four, List.mem_cons, List.mem_singleton, List.not_mem_nil,
    or_false] at h
  rcases h with rfl | rfl | rfl | rfl <;> exact ⟨rfl, rfl, rfl⟩

theorem SubdivideFace.Origin.origin_step {s : CqSubdivision2} {pFace q vA vB vC vD : Nat}
    {chain : List Nat} {i : Nat} {st st' : SubdivideFace.CreateState}
    (hlen : st.1.m_apLaths.length = s.m_apLaths.length + 4 * i)
    (ho : SubdivideFace.Origin s i st.1)
    (hs : SubdivideFace.Step pFace q vA vB vC vD chain st st') :
    SubdivideFace.Origin s (i + 1) st'.1 := by
  intro y ly hy
  rw [hs.laths y] at hy
  cases hg : (st.1.m_apLaths ++
      SubdivideFace.four pFace st.1.m_apLaths.length vA vB vC vD)[y]? with
  | none => rw [hg] at hy; cases hy
  | some l =>
    rw [hg] at hy
    simp only [Option.map_some', Option.some.injEq] at hy
    subst hy
    have hold : (∀ m, l.m_pChildVertex = some m →
        (∃ j, j < i + 1 ∧ m = s.m_apLaths.length + 4 * j) ∨
          ∃ l0, s.lath y = some l0 ∧ l0.m_pChildVertex = some m) ∧
        (∀ m, l.m_pMidVertex = some m →
        (∃ j, j < i + 1 ∧ m = s.m_apLaths.length + (4 * j + 3)) ∨
          ∃ l0, s.lath y = some l0 ∧ l0.m_pMidVertex = some m) := by
      by_cases hy : y < st.1.m_apLaths.length
      · rw [List.getElem?_append_left hy] at hg
        obtain ⟨h1, h2⟩ := ho y l hg
        constructor
        · intro m hm
          rcases h1 m hm with ⟨j, hj, e⟩ | h
          · exact Or.inl ⟨j, by omega, e⟩
          · exact Or.inr h
        · intro m hm
          rcases h2 m hm with ⟨j, hj, e⟩ | h
          · exact Or.inl ⟨j, by omega, e⟩
          · exact Or.inr h
      · rw [List.getElem?_append_right (by omega)] at hg
        obtain ⟨e1, e2, _⟩ := SubdivideFace.four_pointers (List.getElem?_mem hg)
        constructor
        · intro m hm; rw [e1] at hm; cases hm
        · intro m hm; rw [e2] at hm; cases hm
    constructor
    · intro m hm
      by_cases hc : y ∈ chain
      · simp only [if_pos hc] at hm
        simp only [Option.some.injEq] at hm
        exact Or.inl ⟨i, by omega, by omega⟩
      · simp only [if_neg hc] at hm
        exact hold.1 m hm
    · intro m hm
      simp only at hm
      by_cases hq : y = q
      · rw [if_pos hq] at hm
        simp only [Option.some.injEq] at hm
        exact Or.inl ⟨i, by omega, by omega⟩
      · rw [if_neg hq] at hm
        exact hold.2 m hm

theorem SubdivideFace.origin_of_loop {s : CqSubdivision2} {pFace : Nat} {aQfv aV : List Nat}
    {st : SubdivideFace.CreateState}
    (hV : aV.length = 2 * aQfv.length + 1)
    (hlt : ∀ v ∈ aV, v < s.m_aapVertices.length)
    (hptr : ∀ l ∈ s.m_apLaths,
      (∀ c, l.m_pChildVertex = some c → c < s.m_apLaths.length) ∧
      (∀ m, l.m_pMidVertex = some m → m < s.m_apLaths.length))
    (e : forEach (SubdivideFace.createFace pFace aQfv aV aQfv.length) (List.range aQfv.length)
      (s, [], []) = some st) :
    SubdivideFace.Origin s aQfv.length st.1 := by
  have := forEach_range_inv (SubdivideFace.createFace pFace aQfv aV aQfv.length)
    (fun i st => SubdivideFace.Created s.m_apLaths s.m_aapVertices s.m_apFacets s.aUserParams
      pFace aV aQfv.length i st ∧ SubdivideFace.Origin s i st.1) aQfv.length
    (fun i hi st1 st2 hc e1 => by
      obtain ⟨chain, _, hstep⟩ := SubdivideFace.Created.iter rfl hV hlt hi hc.1 e1
      exact ⟨hc.1.created_step hstep,
        SubdivideFace.Origin.origin_step hc.1.created_length hc.2 hstep⟩)
    (s, [], []) st
    ⟨SubdivideFace.Created.created_zero s pFace aV aQfv.length hptr,
      SubdivideFace.Origin.origin_zero s⟩ e
  exact this.2

/-- A successful refinement with the origin of its child-vertex and
mid-vertex pointers. -/
theorem SubdivideFace.refine_origin {s : CqSubdivision2} (hv : s.Valid) {pFace : Nat}
    {s' : CqSubdivision2} {sub : List Nat}
    (e : SubdivideFace.refine s pFace = some (s', sub)) :
    ∃ aQfv k aV sc, SubdivideFace.Refined s pFace s' sub aQfv k aV sc ∧
      SubdivideFace.Origin s aQfv.length sc := by
  have e0 := e
  rw [SubdivideFace.refine_eq hv.params] at e
  cases hq : s.Qfv pFace with
  | none => rw [hq] at e; cases e
  | some aQfv =>
    rw [hq] at e
    simp only [Option.some_bind] at e
    cases hp : SubdivideFace.aVertices s aQfv with
    | none => rw [hp] at e; cases e
    | some kv =>
      rw [hp] at e
      simp only [Option.some_bind] at e
      cases hc : forEach (SubdivideFace.createFace pFace aQfv kv.2 aQfv.length)
          (List.range aQfv.length) (growBy kv.1 s, [], []) with
      | none => rw [hc] at e; cases e
      | some st =>
        obtain ⟨s2, e2, href⟩ := SubdivideFace.refine_of_created hv hq
          (show SubdivideFace.aVertices s aQfv = some (kv.1, kv.2) from hp) hc
        rw [e0] at e2
        simp only [Option.some.injEq, Prod.mk.injEq] at e2
        obtain ⟨rfl, rfl⟩ := e2
        obtain ⟨hV, _, hlt, _, _⟩ := SubdivideFace.aVertices_spec hv
          (show SubdivideFace.aVertices s aQfv = some (kv.1, kv.2) from hp)
        have ho := SubdivideFace.origin_of_loop (s := growBy kv.1 s) hV
          (fun v hvm => by rw [growBy_table_length]; exact hlt v hvm) (hv.growBy kv.1).childMid hc
        exact ⟨aQfv, kv.1, kv.2, st.1, href, ho⟩

theorem SubdivideFace.edgeReuse_origin {s : CqSubdivision2} {q v : Nat}
    (e : SubdivideFace.edgeReuse s q = some (some v)) :
    ∃ y ly m, s.lath y = some ly ∧ ly.m_pMidVertex = some m ∧ s.VertexIndex m = some v := by
  unfold SubdivideFace.edgeReuse at e
  cases h1 : s.ec q with
  | none => rw [h1] at e; cases e
  | some o =>
    rw [h1] at e
    cases o with
    | none => cases e
    | some x =>
      simp only at e
      cases h2 : s.lath x with
      | none => rw [h2] at e; cases e
      | some le =>
        rw [h2] at e
        simp only at e
        cases h3 : le.m_pMidVertex with
        | none => rw [h3] at e; cases e
        | some m =>
          rw [h3] at e
          simp only at e
          cases h4 : s.VertexIndex m with
          | none => rw [h4] at e; cases e
          | some w =>
            rw [h4] at e
            simp only [Option.map_some', Option.some.injEq] at e
            subst e
            exact ⟨x, le, m, h2, h3, h4⟩

theorem SubdivideFace.cornerReuse_origin {s : CqSubdivision2} {q v : Nat}
    (e : SubdivideFace.cornerReuse s q = some (some v)) :
    ∃ y ly m, s.lath y = some ly ∧ ly.m_pChildVertex = some m ∧ s.VertexIndex m = some v := by
  unfold SubdivideFace.cornerReuse at e
  cases h2 : s.lath q with
  | none => rw [h2] at e; cases e
  | some lq =>
    rw [h2] at e
    simp only at e
    cases h3 : lq.m_pChildVertex with
    | none => rw [h3] at e; cases e
    | some m =>
      rw [h3] at e
      simp only at e
      cases h4 : s.VertexIndex m with
      | none => rw [h4] at e; cases e
      | some w =>
        rw [h4] at e
        simp only [Option.map_some', Option.some.injEq] at e
        subst e
        exact ⟨q, lq, m, h2, h3, h4⟩

/-- An entry of the vertex array other than the face point is a new vertex or
the vertex of a lath some mid-vertex or child-vertex pointer leads to. -/
theorem SubdivideFace.aVertices_origin {s : CqSubdivision2} {aQfv : List Nat} {k : Nat}
    {aV : List Nat} (e : SubdivideFace.aVertices s aQfv = some (k, aV)) (j : Nat)
    (hj : j < 2 * aQfv.length) :
    s.m_aapVertices.length ≤ aV.getD j 0 ∨
      ∃ y ly m, s.lath y = some ly ∧
        (ly.m_pMidVertex = some m ∨ ly.m_pChildVertex = some m) ∧
        s.VertexIndex m = some (aV.getD j 0) := by
  obtain ⟨kE, vE, vV, hE, hV, rfl⟩ := SubdivideFace.aVertices_parts e
  obtain ⟨_, hE2, hE3⟩ := SubdivideFace.pointsFold_spec _ _ _ _ _ _ hE
  obtain ⟨_, hV2, hV3⟩ := SubdivideFace.pointsFold_spec _ _ _ _ _ _ hV
  by_cases hjn : j < aQfv.length
  · obtain ⟨w, hw, hcase⟩ := hV3 j aQfv[j] (List.getElem?_eq_getElem hjn)
    have hget : (vV ++ vE ++ [s.m_aapVertices.length]).getD j 0 = w := by
      rw [List.getD_eq_getElem?_getD, List.append_assoc,
        List.getElem?_append_left (by omega), hw]
      rfl
    rw [hget]
    rcases hcase with hc | ⟨_, hc, _⟩
    · obtain ⟨y, ly, m, h1, h2, h3⟩ := SubdivideFace.cornerReuse_origin hc
      exact Or.inr ⟨y, ly, m, h1, Or.inr h2, h3⟩
    · exact Or.inl (by omega)
  · have hi : j - aQfv.length < aQfv.length := by omega
    obtain ⟨w, hw, hcase⟩ := hE3 (j - aQfv.length) aQfv[j - aQfv.length]
      (List.getElem?_eq_getElem hi)
    have hget : (vV ++ vE ++ [s.m_aapVertices.length]).getD j 0 = w := by
      rw [List.getD_eq_getElem?_getD, List.append_assoc,
        List.getElem?_append_right (by omega), List.getElem?_append_left (by omega), hV2, hw]
      rfl
    rw [hget]
    rcases hcase with hc | ⟨_, hc, _⟩
    · obtain ⟨y, ly, m, h1, h2, h3⟩ := SubdivideFace.edgeReuse_origin hc
      exact Or.inr ⟨y, ly, m, h1, Or.inl h2, h3⟩
    · exact Or.inl (by omega)

end CqSubdivision2
end Aqsis

namespace Aqsis
namespace CqSubdivision2

/-! ## Face points are kept by a refinement -/

theorem cvD_congr {s t : CqSubdivision2} {x : Nat} (h : t.cv x = s.cv x) :
    t.cvD x = s.cvD x := by
  unfold cv at h
  unfold cvD
  cases hs : s.lath x with
  | none =>
    rw [hs] at h
    cases ht : t.lath x with
    | none => rfl
    | some l => rw [ht] at h; cases h
  | some l =>
    rw [hs] at h
    cases ht : t.lath x with
    | none => rw [ht] at h; cases h
    | some l2 =>
      rw [ht] at h
      simp only [Option.map_some', Option.some.injEq] at h
      simp only [Option.some_bind]
      exact h

/-- The face-vertex pointers after a refinement: the corners of the refined
face lead to the third laths of their child faces, every other lath has the
pointer it had. -/
theorem SubdivideFace.Refined.face_cases {s s' : CqSubdivision2} {pFace : Nat}
    {sub aQfv : List Nat} {k : Nat} {aV : List Nat} {sc : CqSubdivision2}
    (hr : SubdivideFace.Refined s pFace s' sub aQfv k aV sc) {h : Nat} {l2 : CqLath} {c : Nat}
    (h2 : s'.lath h = some l2) (hc : l2.m_pFaceVertex = some c) :
    (∃ j, j < aQfv.length ∧ h = aQfv.getD j 0 ∧ c = s.m_apLaths.length + (4 * j + 2)) ∨
      (h < s.m_apLaths.length ∧ h ∉ aQfv ∧
        ∃ l0, s.lath h = some l0 ∧ l0.m_pFaceVertex = some c) := by
  by_cases hm : h ∈ aQfv
  · obtain ⟨j, hj⟩ := List.mem_iff_getElem?.mp hm
    obtain ⟨hjn, hget⟩ := getD_of_getElem? hj
    have hf := hr.face j hjn
    rw [hget, h2] at hf
    simp only [Option.map_some', Option.some.injEq] at hf
    rw [hc] at hf
    exact Or.inl ⟨j, hjn, hget.symm, Option.some.inj hf⟩
  · by_cases hlt : h < s.m_apLaths.length
    · obtain ⟨l, l', h0, h', e1, _⟩ := hr.face_other hlt hm
      rw [h2] at h'
      cases h'
      exact Or.inr ⟨hlt, hm, l, h0, by rw [← e1]; exact hc⟩
    · exfalso
      have hlen := lath_lt h2
      rw [hr.refined_length] at hlen
      obtain ⟨j, i, hj, hi, rfl⟩ : ∃ j i, j < aQfv.length ∧ i < 4 ∧
          h = s.m_apLaths.length + (4 * j + i) :=
        ⟨(h - s.m_apLaths.length) / 4, (h - s.m_apLaths.length) % 4, by omega, by omega,
          by omega⟩
      obtain ⟨l, hl, _, _, _, hfv, _⟩ := hr.created.new_fields hj hi
      have hff := hr.link.faceFrame _ hm
      rw [h2] at hff
      have hl' : sc.lath (s.m_apLaths.length + (4 * j + i)) = some l := hl
      rw [hl'] at hff
      simp only [Option.map_some', Option.some.injEq] at hff
      rw [hff, hfv] at hc
      cases hc

/-- The child-vertex and mid-vertex pointers after a refinement. -/
theorem SubdivideFace.Refined.pointer_cases {s s' : CqSubdivision2} {pFace : Nat}
    {sub aQfv : List Nat} {k : Nat} {aV : List Nat} {sc : CqSubdivision2}
    (hr : SubdivideFace.Refined s pFace s' sub aQfv k aV sc)
    (ho : SubdivideFace.Origin s aQfv.length sc) {y : Nat} {l2 : CqLath} {m : Nat}
    (h2 : s'.lath y = some l2)
    (hm : l2.m_pMidVertex = some m ∨ l2.m_pChildVertex = some m) :
    (∃ j, j < 2 * aQfv.length ∧ m < s'.m_apLaths.length ∧ s.m_apLaths.length ≤ m ∧
        s'.VertexIndex m = some (aV.getD j 0)) ∨
      ∃ l0, s.lath y = some l0 ∧ (l0.m_pMidVertex = some m ∨ l0.m_pChildVertex = some m) := by
  have hy : y < sc.m_apLaths.length := by
    rw [← hr.link.link_length]; exact lath_lt h2
  obtain ⟨lc, hlc⟩ : ∃ lc, sc.lath y = some lc := ⟨sc.m_apLaths[y], List.getElem?_eq_getElem hy⟩
  obtain ⟨l', h', _, _, e3, e4, _⟩ := hr.linked_fields hlc
  rw [h2] at h'
  cases h'
  obtain ⟨o1, o2⟩ := ho y lc hlc
  have hn : 0 < aQfv.length ∨ aQfv.length = 0 := by omega
  rcases hm with hm | hm
  · rw [e4] at hm
    rcases o2 m hm with ⟨j, hj, rfl⟩ | ⟨l0, h0, hp⟩
    · refine Or.inl ⟨j + aQfv.length, by omega, by rw [hr.refined_length]; omega, by omega, ?_⟩
      rw [hr.VertexIndex_new hj (by omega : 3 < 4)]
      rfl
    · exact Or.inr ⟨l0, h0, Or.inl hp⟩
  · rw [e3] at hm
    rcases o1 m hm with ⟨j, hj, rfl⟩ | ⟨l0, h0, hp⟩
    · refine Or.inl ⟨j, by omega, by rw [hr.refined_length]; omega, by omega, ?_⟩
      have := hr.VertexIndex_new hj (by omega : 0 < 4)
      simp only [Nat.add_zero] at this
      rw [this]
      rfl
    · exact Or.inr ⟨l0, h0, Or.inr hp⟩

/-- A refinement keeps the face points in place. -/
theorem FacePoints.facePoints_refine {t t2 : CqSubdivision2} (hv : t.Valid) (hf : t.FacePoints)
    {f : Nat} {sub : List Nat} (e : SubdivideFace.refine t f = some (t2, sub)) :
    t2.FacePoints := by
  obtain ⟨aQfv, k, aV, sc, hr, ho⟩ := SubdivideFace.refine_origin hv e
  obtain ⟨_, hk, _, hT, hne⟩ := SubdivideFace.aVertices_spec hv hr.points
  obtain ⟨tl0, htl0⟩ := Qfv_head hr.qfv
  have hn : 0 < aQfv.length := by rw [htl0]; simp
  -- the entries of the vertex array are apart from the old face points
  have hA : ∀ j, j < 2 * aQfv.length → ∀ (h : Nat) (l : CqLath) (c : Nat),
      t.lath h = some l → l.m_pFaceVertex = some c →
      t.VertexIndex c ≠ some (aV.getD j 0) := by
    intro j hj h l c hl hc hcontra
    rcases SubdivideFace.aVertices_origin hr.points j hj with hge | ⟨y, ly, m, h1, h2, h3⟩
    · have := hv.vertex_lt hcontra
      omega
    · exact hf.apart h l c y ly m hl hc h1 h2 (by rw [h3, hcontra])
  have hnewV : ∀ j, j < aQfv.length →
      t2.VertexIndex (t.m_apLaths.length + (4 * j + 2)) = some t.m_aapVertices.length := by
    intro j hj
    rw [hr.VertexIndex_new hj (by omega : 2 < 4)]
    simp only [SubdivideFace.cornerVertex, hT]
  constructor
  · intro h l2 c h2 hc
    rcases hr.face_cases h2 hc with ⟨j, hj, rfl, rfl⟩ | ⟨hlt, hnm, l0, h0, hc0⟩
    · -- a corner of the refined face
      have hmem : aQfv.getD j 0 ∈ aQfv := getD_mem_of_lt aQfv j 0 hj
      have hring2 : t2.IsRing aQfv := hr.ring_old hr.ring
      obtain ⟨tl, hrt, _⟩ := hring2.ring_of_mem hmem
      have hq := Qfv_of_ring hrt
      have hlen := IsRing.length_unique hrt hring2 (List.mem_cons_self _ _) hmem
      have hcy := IsCycle.of_range t2.cvD (fun j => t.m_apLaths.length + (4 * j + 2))
        aQfv.length hn (fun i j _ _ e => by simp only at e; omega)
        (fun j hj => cvD_of_cv (hr.cvC j hj))
      have hcm : t.m_apLaths.length + (4 * j + 2) ∈
          (List.range aQfv.length).map (fun j => t.m_apLaths.length + (4 * j + 2)) :=
        List.mem_map.mpr ⟨j, List.mem_range.mpr hj, rfl⟩
      obtain ⟨ctl, hc1, hrot⟩ := hcy.cycle_of_mem hcm
      refine ⟨_, ctl, hq, hc1, ?_, ?_⟩
      · rw [hrot.perm.length_eq, hlen]
        simp
      · intro x hx
        obtain ⟨j2, hj2, rfl⟩ := List.mem_map.mp (hrot.mem_iff.mp hx)
        rw [hnewV j2 (List.mem_range.mp hj2), hnewV j hj]
    · -- a lath that had its pointer before
      obtain ⟨ring, tl, hq, hcy, hlen, hV⟩ := hf.cycle h l0 c h0 hc0
      have hxlt : ∀ x ∈ c :: tl, x < t.m_apLaths.length := by
        intro x hx
        obtain ⟨y, hy, _⟩ := hcy.next_mem x hx
        exact cvD_lt hy
      have hcv : ∀ x ∈ c :: tl, t2.cvD x = t.cvD x := by
        intro x hx
        apply cvD_congr
        apply hr.cv_other (hxlt x hx)
        intro j hj hcontra
        exact hA j hj h l0 c h0 hc0 (by rw [← hV x hx, hcontra])
      refine ⟨ring, tl, hr.qfv_old hv hq, IsCycle.cycle_congr hcv hcy, hlen, ?_⟩
      intro x hx
      rw [hr.VertexIndex_old (hxlt x hx),
        hr.VertexIndex_old (hxlt c (List.mem_cons_self _ _))]
      exact hV x hx
  · intro h l2 c y ly2 m h2 hc hy hm
    rcases hr.face_cases h2 hc with ⟨j, hj, rfl, rfl⟩ | ⟨hlt, hnm, l0, h0, hc0⟩
    · rw [hnewV j hj]
      rcases hr.pointer_cases ho hy hm with ⟨j2, hj2, _, _, hV2⟩ | ⟨ly0, hy0, hm0⟩
      · rw [hV2]
        intro hcontra
        exact hne j2 hj2 (Option.some.inj hcontra)
      · have hmlt : m < t.m_apLaths.length := by
          obtain ⟨_, _, p3, p4, _⟩ := hv.lath_ptr hy0
          rcases hm0 with hm0 | hm0
          · exact p4 m hm0
          · exact p3 m hm0
        rw [hr.VertexIndex_old hmlt]
        intro hcontra
        have := hv.vertex_lt hcontra
        omega
    · have hclt : c < t.m_apLaths.length := (hv.lath_ptr h0).2.2.2.2 c hc0
      rw [hr.VertexIndex_old hclt]
      rcases hr.pointer_cases ho hy hm with ⟨j2, hj2, _, _, hV2⟩ | ⟨ly0, hy0, hm0⟩
      · rw [hV2]
        exact fun hcontra => hA j2 hj2 h l0 c h0 hc0 hcontra.symm
      · have hmlt : m < t.m_apLaths.length := by
          obtain ⟨_, _, p3, p4, _⟩ := hv.lath_ptr hy0
          rcases hm0 with hm0 | hm0
          · exact p4 m hm0
          · exact p3 m hm0
        rw [hr.VertexIndex_old hmlt]
        exact hf.apart h l0 c y ly0 m h0 hc0 hy0 hm0

theorem FacePoints.of_unrefined {s : CqSubdivision2} (hu : s.Unrefined) : s.FacePoints := by
  constructor
  · intro h l c hl hc
    have := (hu l (List.getElem?_mem hl)).2.2.2
    rw [this] at hc
    cases hc
  · intro h l c y ly m hl hc
    have := (hu l (List.getElem?_mem hl)).2.2.2
    rw [this] at hc
    cases hc

end CqSubdivision2
end Aqsis

namespace Aqsis
namespace CqSubdivision2

/-! ## The number of child faces a call returns -/

theorem mapM_length {f : Nat → Option Nat} :
    ∀ (l r : List Nat), l.mapM f = some r → r.length = l.length := by
  intro l
  induction l with
  | nil =>
    intro r h
    simp only [List.mapM_nil] at h
    cases h
    rfl
  | cons a tl ih =>
    intro r h
    rw [List.mapM_cons] at h
    cases ha : f a with
    | none => rw [ha] at h; cases h
    | some b =>
      rw [ha] at h
      cases ht : tl.mapM f with
      | none => rw [ht] at h; cases h
      | some r2 =>
        rw [ht] at h
        cases h
        simp [ih r2 ht]

theorem Reachable.facePoints {Qff : CqSubdivision2 → Nat → Option (List Nat)}
    {facets : List (List Nat)} {s : CqSubdivision2} (h : Reachable Qff facets s) :
    s.FacePoints := by
  induction h with
  | built hb hu =>
    apply FacePoints.of_unrefined
    intro l hl
    obtain ⟨_, h2, h3, h4, h5⟩ := (Fresh.buildMesh hb).links l hl
    exact ⟨h2, h3, h4, h5⟩
  | finalised hb hu hf => exact FacePoints.of_unrefined (finalised_valid hb hu hf).2
  | subdivided hr hs ih =>
    exact SubdivideFace_induct Qff FacePoints
      (fun _ _ _ _ _ _ _ _ hvt hPt et _ => hPt.facePoints_refine hvt et) _ _ _ _ _ hr.levels.1 ih hs

/-- A call of `SubdivideFace` on a face with `n` corners returns `n` child
faces, whether it refines the face or finds it refined. -/
theorem SubdivideFace_count (Qff : CqSubdivision2 → Nat → Option (List Nat)) (d : Nat)
    {s : CqSubdivision2} (hv : s.Valid) (hf : s.FacePoints) {pFace : Nat} {aQfv : List Nat}
    (hq : s.Qfv pFace = some aQfv) {s' : CqSubdivision2} {sub : List Nat}
    (e : SubdivideFace Qff d s pFace = some (s', sub)) : sub.length = aQfv.length := by
  cases d with
  | zero => simp [SubdivideFace] at e
  | succ d =>
    cases hl : s.lath pFace with
    | none => simp [SubdivideFace, hl] at e
    | some l =>
      cases hfv : l.m_pFaceVertex with
      | some fv =>
        rw [SubdivideFace_early Qff d hl hfv] at e
        obtain ⟨ring, tl, hq2, hcy, hlen, _⟩ := hf.cycle pFace l fv hl hfv
        rw [hq] at hq2
        cases hq2
        rw [Qvf_of_cycle hcy] at e
        simp only [Option.some_bind] at e
        cases hm : (fv :: tl).mapM (fun x => (s.ccf x).bind s.ccf) with
        | none => rw [hm] at e; cases e
        | some r =>
          rw [hm] at e
          simp only [Option.map_some', Option.some.injEq, Prod.mk.injEq] at e
          rw [← e.2, mapM_length _ _ hm, hlen]
      | none =>
        obtain ⟨s0, aQ0, k, aV, sc, hv0, hg, e0, hr⟩ := SubdivideFace.late_grown Qff d hv hl hfv e
        have := hg.grows_qfv hv hq
        rw [hr.qfv] at this
        cases this
        rw [hr.sub_eq]
        simp

end CqSubdivision2
end Aqsis

namespace Aqsis
namespace CqSurfaceSubdivisionPatch

open CqSubdivision2

/-! ## Dicing -/

/-- For the dice sizes 2, 4, 8 and 16 the subdivision depth is the base-2
logarithm of the size and the grid resolution is the size; for every other
size, 1 included, the depth is 1 and the grid resolution is 2. -/
theorem Dice.sdcount_table (d : Int) :
    (d = 2 → Dice.sdcount d = 1) ∧ (d = 4 → Dice.sdcount d = 2) ∧
    (d = 8 → Dice.sdcount d = 3) ∧ (d = 16 → Dice.sdcount d = 4) ∧
    (d ≠ 2 → d ≠ 4 → d ≠ 8 → d ≠ 16 → Dice.sdcount d = 1) := by
  refine ⟨?_, ?_, ?_, ?_, ?_⟩
  · rintro rfl; rfl
  · rintro rfl; rfl
  · rintro rfl; rfl
  · rintro rfl; rfl
  · intro h2 h4 h8 h16
    simp [Dice.sdcount, h2, h4, h8, h16]

/-- The dice size 2 on the single quad: one level of subdivision, a grid of
resolution 2 and one sample at each of the nine grid indices, in order. -/
theorem Dice_quadMesh_two :
    Dice Qff 1 quadMesh.finalised ⟨0, true, false, EqSplitDir.SplitDir_V, 2, 2⟩ =
      some (quadMesh.refined,
        [⟨2, 2, [(0, 9), (1, 5), (2, 12), (3, 6), (4, 4), (5, 8), (6, 10), (7, 7), (8, 11)]⟩]) := by
  decide!

/-- C21: the dice size 1 on the single quad, which `Diceable` accepts in a
render context where the face has no raster extent.  `Dice` subdivides the
face one level deep (not zero levels) and constructs a grid of resolution
2 x 2, which has nine vertices, but walks `nc = nr = 1`: it stores four
samples, at the grid indices 0, 1, 2 and 3, and nothing at the indices 4 to
8. -/
theorem Dice_size_one_underfills_grid :
    Diceable flatContext Qff quadMesh.finalised patch0 =
      some (⟨0, true, false, EqSplitDir.SplitDir_V, 1, 1⟩, true) ∧
    Dice.maxSize ⟨0, true, false, EqSplitDir.SplitDir_V, 1, 1⟩ = 1 ∧
    Dice Qff 1 quadMesh.finalised ⟨0, true, false, EqSplitDir.SplitDir_V, 1, 1⟩ =
      some (quadMesh.refined, [⟨2, 2, [(0, 9), (1, 5), (2, 6), (3, 4)]⟩]) ∧
    quadMesh.refined ≠ quadMesh.finalised ∧
    (([(0, 9), (1, 5), (2, 6), (3, 4)] : List (Int × Nat)).map Prod.fst).length <
      (2 + 1) * (2 + 1) := by
  have h3 : Diceable flatContext Qff quadMesh.finalised patch0 =
        some (⟨0, true, false, EqSplitDir.SplitDir_V, 1, 1⟩, true) ∧
      Dice.maxSize ⟨0, true, false, EqSplitDir.SplitDir_V, 1, 1⟩ = 1 ∧
      Dice Qff 1 quadMesh.finalised ⟨0, true, false, EqSplitDir.SplitDir_V, 1, 1⟩ =
        some (quadMesh.refined, [⟨2, 2, [(0, 9), (1, 5), (2, 6), (3, 4)]⟩]) := by decide!
  refine ⟨h3.1, h3.2.1, h3.2.2, ?_, by decide⟩
  intro h
  have := congrArg (fun s => s.m_apLaths.length) h
  revert this
  decide!

end CqSurfaceSubdivisionPatch
end Aqsis

namespace Aqsis
namespace CqSurfaceSubdivisionPatch

open CqSubdivision2

/-! ## Splitting a patch that is not regular -/

theorem Split_of_not_patch (Qff : CqSubdivision2 → Nat → Option (List Nat)) (depth : Nat)
    (s : CqSubdivision2) (p : CqSurfaceSubdivisionPatch) (aSplits : List CqBasicSurface)
    (hc : s.CanUsePatch Qff p.m_pFace = some false) :
    Split Qff depth s p aSplits =
      (SubdivideFace Qff depth s p.m_pFace).map fun r =>
        (r.1, aSplits ++ r.2.map CqBasicSurface.subdivisionPatch,
          aSplits.length + r.2.length) := by
  unfold Split
  rw [hc]
  simp only [Option.some_bind, Bool.false_eq_true, if_false]
  cases SubdivideFace Qff depth s p.m_pFace with
  | none => rfl
  | some r => simp

/-- A face that is refined already: the call finds its child faces. -/
theorem SubdivideFace_refined_returns (Qff : CqSubdivision2 → Nat → Option (List Nat))
    (d : Nat) {s : CqSubdivision2} (hv : s.Valid) (hf : s.FacePoints) {pFace : Nat}
    {l : CqLath} {fv : Nat} (hl : s.lath pFace = some l) (hfv : l.m_pFaceVertex = some fv) :
    ∃ sub, SubdivideFace Qff (d + 1) s pFace = some (s, sub) := by
  rw [SubdivideFace_early Qff d hl hfv]
  obtain ⟨ring, tl, _, hcy, _, _⟩ := hf.cycle pFace l fv hl hfv
  rw [Qvf_of_cycle hcy]
  simp only [Option.some_bind]
  have hlt : ∀ x ∈ fv :: tl, x < s.m_apLaths.length := by
    intro x hx
    obtain ⟨c, hc, _⟩ := IsCycle.next_mem hcy x hx
    unfold cvD at hc
    cases hx2 : s.lath x with
    | none => rw [hx2] at hc; cases hc
    | some lx => exact lath_lt hx2
  have hm : (fv :: tl).mapM (fun x => (s.ccf x).bind s.ccf) =
      some ((fv :: tl).map (fun x => ((s.ccf x).bind s.ccf).getD 0)) := by
    apply mapM_eq_map
    intro x hx
    obtain ⟨c, hc, hcl⟩ := hv.ccf_some (hlt x hx)
    obtain ⟨c2, hc2, _⟩ := hv.ccf_some hcl
    simp only [hc, Option.some_bind, hc2, Option.getD_some]
  rw [hm]
  exact ⟨_, rfl⟩

/-- C22 (amended): when `CanUsePatch` is false for the face of the patch, in a
well-formed topology whose face points are in place (every state reached by
`Prepare`, `AddFacet`, `Finalise` and `SubdivideFace` calls is one), `Split`
returns exactly when the call of `SubdivideFace` on the face returns.  When the
call returns, it returns as many child faces as the face has corners, and
`Split` appends one new subdivision patch for each child face returned, in the
order returned, each over the topology the call left and the lath of its own
child face, and returns the new length of `aSplits`.  The call does return
when the face is refined already, and when it is unrefined, has no parent or a
pre-pass over the parent's 1-ring that changes nothing, and the walk along the
vertex-neighbour links round each of its corners ends. -/
theorem Split_subdivides_when_not_patch (Qff : CqSubdivision2 → Nat → Option (List Nat))
    (d : Nat) {s : CqSubdivision2} (hv : s.Valid) (hf : s.FacePoints)
    (p : CqSurfaceSubdivisionPatch) (aSplits : List CqBasicSurface) {l : CqLath}
    {aQfv : List Nat} (hl : s.lath p.m_pFace = some l)
    (hq : s.Qfv p.m_pFace = some aQfv)
    (hc : s.CanUsePatch Qff p.m_pFace = some false) :
    (SubdivideFace Qff (d + 1) s p.m_pFace = none → Split Qff (d + 1) s p aSplits = none) ∧
    (∀ (s' : CqSubdivision2) (sub : List Nat),
      SubdivideFace Qff (d + 1) s p.m_pFace = some (s', sub) →
      sub.length = aQfv.length ∧
      Split Qff (d + 1) s p aSplits =
        some (s', aSplits ++ sub.map CqBasicSurface.subdivisionPatch,
          aSplits.length + aQfv.length)) ∧
    ((l.m_pFaceVertex ≠ none ∨
      ((l.m_pParentFacet = none ∨
        ∃ par aQff, l.m_pParentFacet = some par ∧ Qff s par = some aQff ∧
          ∀ f ∈ aQff, ∃ r, SubdivideFace Qff d s f = some (s, r)) ∧
        ∀ q ∈ aQfv, ∃ chain, s.vertexChain q = some chain)) →
      ∃ s' sub, SubdivideFace Qff (d + 1) s p.m_pFace = some (s', sub) ∧
        sub.length = aQfv.length ∧
        Split Qff (d + 1) s p aSplits =
          some (s', aSplits ++ sub.map CqBasicSurface.subdivisionPatch,
            aSplits.length + aQfv.length)) := by
  have h1 := Split_of_not_patch Qff (d + 1) s p aSplits hc
  have h2 : ∀ (s' : CqSubdivision2) (sub : List Nat),
      SubdivideFace Qff (d + 1) s p.m_pFace = some (s', sub) →
      sub.length = aQfv.length ∧
      Split Qff (d + 1) s p aSplits =
        some (s', aSplits ++ sub.map CqBasicSurface.subdivisionPatch,
          aSplits.length + aQfv.length) := by
    intro s' sub e
    have hn := SubdivideFace_count Qff (d + 1) hv hf hq e
    refine ⟨hn, ?_⟩
    rw [h1, e, ← hn]
    rfl
  refine ⟨fun e => by rw [h1, e]; rfl, h2, ?_⟩
  intro hready
  have key : ∃ s' sub, SubdivideFace Qff (d + 1) s p.m_pFace = some (s', sub) := by
    cases hfv : l.m_pFaceVertex with
    | some fv =>
      obtain ⟨sub, e⟩ := SubdivideFace_refined_returns Qff d hv hf hl hfv
      exact ⟨s, sub, e⟩
    | none =>
      rcases hready with h | ⟨hpar, hch⟩
      · exact absurd hfv h
      · obtain ⟨s', sub, aQfv2, k, aV, sc, e, _⟩ := SubdivideFace.refine_some hv (lath_lt hl)
          (fun ring hr q hq2 => by
            rw [hq] at hr
            cases hr
            exact hch q hq2)
        exact ⟨s', sub, by rw [SubdivideFace_of_noop Qff d hl hfv hpar]; exact e⟩
  obtain ⟨s', sub, e⟩ := key
  exact ⟨s', sub, e, h2 s' sub e⟩

theorem Split_subdivides_when_not_patch_witness :
    quadMesh.finalised.Valid ∧ quadMesh.finalised.FacePoints ∧
    quadMesh.finalised.lath patch0.m_pFace =
      some ⟨none, some 3, none, none, none, none, 0⟩ ∧
    quadMesh.finalised.Qfv patch0.m_pFace = some [0, 3, 2, 1] ∧
    (∀ q ∈ [0, 3, 2, 1], ∃ chain, quadMesh.finalised.vertexChain q = some chain) ∧
    CanUsePatch Qff quadMesh.finalised patch0.m_pFace = some false ∧
    SubdivideFace Qff (0 + 1) quadMesh.finalised patch0.m_pFace =
      some (quadMesh.refined, [4, 8, 12, 16]) ∧
    ([4, 8, 12, 16] : List Nat).length = [0, 3, 2, 1].length ∧
    Split Qff (0 + 1) quadMesh.finalised patch0 [] =
      some (quadMesh.refined,
        [] ++ ([4, 8, 12, 16] : List Nat).map CqBasicSurface.subdivisionPatch,
        ([] : List CqBasicSurface).length + [0, 3, 2, 1].length) ∧
    ∃ s' sub, SubdivideFace Qff (0 + 1) quadMesh.finalised patch0.m_pFace = some (s', sub) ∧
      sub.length = [0, 3, 2, 1].length ∧
      Split Qff (0 + 1) quadMesh.finalised patch0 [] =
        some (s', [] ++ sub.map CqBasicSurface.subdivisionPatch,
          ([] : List CqBasicSurface).length + [0, 3, 2, 1].length) :=
  have hch : ∀ q ∈ [0, 3, 2, 1], ∃ chain, quadMesh.finalised.vertexChain q = some chain := by
    intro q hq
    simp only [List.mem_cons, List.mem_singleton, List.not_mem_nil, or_false] at hq
    rcases hq with rfl | rfl | rfl | rfl
    · exact ⟨[0], by decide⟩
    · exact ⟨[3], by decide⟩
    · exact ⟨[2], by decide⟩
    · exact ⟨[1], by decide⟩
  have hsub : SubdivideFace Qff (0 + 1) quadMesh.finalised patch0.m_pFace =
      some (quadMesh.refined, [4, 8, 12, 16]) := by decide!
  have h := Split_subdivides_when_not_patch Qff 0 quadMesh_valid.1
      (FacePoints.of_unrefined quadMesh_valid.2) patch0 []
      (show quadMesh.finalised.lath patch0.m_pFace =
        some ⟨none, some 3, none, none, none, none, 0⟩ by decide)
      (show quadMesh.finalised.Qfv patch0.m_pFace = some [0, 3, 2, 1] by decide)
      (show CanUsePatch Qff quadMesh.finalised patch0.m_pFace = some false by decide!)
  ⟨quadMesh_valid.1, FacePoints.of_unrefined quadMesh_valid.2, by decide, by decide, hch,
    by decide!, hsub, (h.2.1 _ _ hsub).1, (h.2.1 _ _ hsub).2,
    h.2.2 (Or.inr ⟨Or.inl rfl, hch⟩)⟩

end CqSurfaceSubdivisionPatch
end Aqsis

namespace Aqsis
namespace CqSubdivision2

/-! ## Walking a matched topology -/

section Walk

variable {s : CqSubdivision2}

theorem Valid.cfD_nx (hv : s.Valid) {h : Nat} (hh : h < s.m_apLaths.length) :
    s.cfD h = some (s.nx h) ∧ s.nx h < s.m_apLaths.length := by
  obtain ⟨c, hc, hlt⟩ := hv.cfD_some hh
  unfold nx
  rw [hc]
  exact ⟨rfl, hlt⟩

theorem Valid.ccf_pv (hv : s.Valid) {h : Nat} (hh : h < s.m_apLaths.length) :
    s.ccf h = some (s.pv h) ∧ s.pv h < s.m_apLaths.length := by
  obtain ⟨c, hc, hlt⟩ := hv.ccf_some hh
  unfold pv
  rw [hc]
  exact ⟨rfl, hlt⟩

theorem Valid.pv_nx (hv : s.Valid) {h : Nat} (hh : h < s.m_apLaths.length) :
    s.pv (s.nx h) = h := by
  obtain ⟨c, hc, _, hb⟩ := hv.valid_cfD_ccf hh
  unfold pv nx
  rw [hc]
  simp only [Option.getD_some]
  rw [hb]
  rfl

theorem Valid.nx_pv (hv : s.Valid) {h : Nat} (hh : h < s.m_apLaths.length) :
    s.nx (s.pv h) = h := by
  obtain ⟨ring, hr, hm⟩ := hv.rings h hh
  obtain ⟨tl, hr', _⟩ := hr.ring_of_mem hm
  have h1 := ccf_of_ring hr'
  have h2 : s.cfD ((h :: tl).getLast (by simp)) = some h := IsCycle.next_last hr'
  unfold pv nx
  rw [h1]
  simp only [Option.getD_some]
  rw [h2]
  rfl

theorem Valid.vx_eq (_hv : s.Valid) {h : Nat} (hh : h < s.m_apLaths.length) :
    s.VertexIndex h = some (s.vx h) := by
  obtain ⟨v, hv'⟩ := VertexIndex_some hh
  unfold vx
  rw [hv']
  rfl

theorem Valid.outKey_eq (hv : s.Valid) {h : Nat} (hh : h < s.m_apLaths.length) :
    s.outKey h = some (s.vx (s.nx h)) := by
  obtain ⟨h1, h2⟩ := hv.cfD_nx hh
  unfold outKey
  rw [h1]
  exact hv.vx_eq h2

theorem Valid.innKey_eq (hv : s.Valid) {h : Nat} (hh : h < s.m_apLaths.length) :
    s.innKey h = some (s.vx (s.pv h)) := by
  obtain ⟨h1, h2⟩ := hv.ccf_pv hh
  unfold innKey
  rw [h1]
  exact hv.vx_eq h2

/-- The link rule of a matched topology, on the total accessors. -/
theorem MatchedLinks.link_iff (hm : s.MatchedLinks) {x y : Nat}
    (hx : x < s.m_apLaths.length) (hy : y < s.m_apLaths.length) :
    s.cv x = some (some y) ↔ (s.vx y = s.vx x ∧ s.vx (s.nx y) = s.vx (s.pv x)) := by
  rw [hm.link x y hx hy, hm.valid.vx_eq hx, hm.valid.vx_eq hy, hm.valid.outKey_eq hy,
    hm.valid.innKey_eq hx]
  simp

theorem MatchedLinks.out_inj (hm : s.MatchedLinks) {x y : Nat}
    (hx : x < s.m_apLaths.length) (hy : y < s.m_apLaths.length)
    (h1 : s.vx x = s.vx y) (h2 : s.vx (s.nx x) = s.vx (s.nx y)) : x = y := by
  apply hm.out x y hx hy
  · rw [hm.valid.vx_eq hx, hm.valid.vx_eq hy, h1]
  · rw [hm.valid.outKey_eq hx, hm.valid.outKey_eq hy, h2]

/-- The lath before a linked lath is the vertex-neighbour of the lath after
its target: the link backwards along the edge. -/
theorem MatchedLinks.cv_nx (hm : s.MatchedLinks) {a b : Nat}
    (e : s.cv a = some (some b)) : s.cv (s.nx b) = some (some (s.pv a)) := by
  have ha : a < s.m_apLaths.length := by
    unfold cv at e
    cases hl : s.lath a with
    | none => rw [hl] at e; cases e
    | some l => exact lath_lt hl
  have hb := hm.valid.cv_lt e
  obtain ⟨e1, e2⟩ := (hm.link_iff ha hb).mp e
  rw [hm.link_iff (hm.valid.cfD_nx hb).2 (hm.valid.ccf_pv ha).2,
    hm.valid.nx_pv ha, hm.valid.pv_nx hb]
  exact ⟨e2.symm, e1.symm⟩

/-- The face-predecessor of the lath linked to a corner is the
vertex-neighbour of the next corner of the face. -/
theorem MatchedLinks.pv_fan (hm : s.MatchedLinks) {a q b : Nat}
    (ha : s.cv a = some (some q)) (hb : s.cv (s.nx q) = some (some b)) :
    s.pv a = b := by
  have hal : a < s.m_apLaths.length := by
    unfold cv at ha
    cases hl : s.lath a with
    | none => rw [hl] at ha; cases ha
    | some l => exact lath_lt hl
  have hq := hm.valid.cv_lt ha
  have hbl := hm.valid.cv_lt hb
  have hn := (hm.valid.cfD_nx hq).2
  obtain ⟨e1, e2⟩ := (hm.link_iff hal hq).mp ha
  obtain ⟨e3, e4⟩ := (hm.link_iff hn hbl).mp hb
  rw [hm.valid.pv_nx hq] at e4
  apply hm.out_inj (hm.valid.ccf_pv hal).2 hbl
  · rw [← e2, e3]
  · rw [hm.valid.nx_pv hal, e4, e1]

/-- One step of the walk of `Qvf`, read backwards from its result. -/
theorem Qvf.loop_inv (s : CqSubdivision2) (q : Nat) (fuel : Nat) (p : Option Nat)
    (r : List Nat) (h : Qvf.loop s q fuel p = some (some r)) :
    (r = [] ∧ p = some q) ∨
      ∃ x r1 p2 n, r = x :: r1 ∧ p = some x ∧ s.cv x = some p2 ∧
        Qvf.loop s q n p2 = some (some r1) := by
  cases fuel with
  | zero => simp [Qvf.loop] at h
  | succ n =>
    cases p with
    | none => simp [Qvf.loop] at h
    | some x =>
      simp only [Qvf.loop] at h
      by_cases hx : x = q
      · simp only [hx, if_true, Option.some.injEq] at h
        exact Or.inl ⟨h.symm, by rw [hx]⟩
      · simp only [hx, if_false] at h
        cases hc : s.cv x with
        | none => simp [hc] at h
        | some p2 =>
          simp only [hc] at h
          cases hl : Qvf.loop s q n p2 with
          | none => simp [hl] at h
          | some o =>
            cases o with
            | none => simp [hl] at h
            | some r2 =>
              simp only [hl, Option.map_some', Option.some.injEq] at h
              exact Or.inr ⟨x, r2, p2, n, h.symm, rfl, hc, hl⟩

/-- A corner of valence four: its three vertex-neighbours in turn, the last
of which is linked back to the corner. -/
theorem fan_of_valence {q : Nat} (h : s.cQvv q = some 4) :
    ∃ a1 a2 a3, s.cv q = some (some a1) ∧ s.cv a1 = some (some a2) ∧
      s.cv a2 = some (some a3) ∧ s.cv a3 = some (some q) ∧
      s.Qvf q = some [q, a1, a2, a3] := by
  obtain ⟨p, r, hc, hl, hr⟩ := cQvv_four h
  have hq : s.Qvf q = some (q :: r) := by
    unfold Qvf
    rw [hc]
    simp only
    rw [hl]
  rcases Qvf.loop_inv s q _ _ _ hl with ⟨rfl, _⟩ | ⟨a1, r1, p1, n1, rfl, rfl, hc1, hl1⟩
  · simp at hr
  rcases Qvf.loop_inv s q _ _ _ hl1 with ⟨rfl, _⟩ | ⟨a2, r2, p2, n2, rfl, rfl, hc2, hl2⟩
  · simp at hr
  rcases Qvf.loop_inv s q _ _ _ hl2 with ⟨rfl, _⟩ | ⟨a3, r3, p3, n3, rfl, rfl, hc3, hl3⟩
  · simp at hr
  rcases Qvf.loop_inv s q _ _ _ hl3 with ⟨rfl, rfl⟩ | ⟨a4, r4, p4, n4, rfl, _, _, _⟩
  · exact ⟨a1, a2, a3, hc, hc1, hc2, hc3, hq⟩
  · simp at hr

/-- On a facet ring of four laths the face-neighbour link has period four
and the face-predecessor is the third face-neighbour. -/
theorem quad_ring (hv : s.Valid) {g h : Nat} {ring : List Nat}
    (hq : s.Qfv g = some ring) (hl : ring.length = 4) (hh : h ∈ ring) :
    s.nx (s.nx (s.nx (s.nx h))) = h ∧ s.pv h = s.nx (s.nx (s.nx h)) ∧
      s.pv (s.pv h) = s.nx (s.nx h) := by
  obtain ⟨_, hr, _⟩ := hv.qfv hq
  have hlt : h < s.m_apLaths.length := hr.lt h hh
  obtain ⟨tl, hr1, hrot⟩ := hr.ring_of_mem hh
  have hl1 : (h :: tl).length = 4 := by rw [hrot.perm.length_eq, hl]
  match tl, hl1, hr1 with
  | [b, c, d], _, hr1 =>
    rw [IsRing.ring_cons_iff] at hr1
    obtain ⟨_, hch⟩ := hr1
    simp only [List.cons_append, List.nil_append, List.chain'_cons, List.chain'_singleton,
      and_true] at hch
    obtain ⟨e1, e2, e3, e4⟩ := hch
    have n1 : s.nx h = b := by unfold nx; rw [e1]; rfl
    have n2 : s.nx b = c := by unfold nx; rw [e2]; rfl
    have n3 : s.nx c = d := by unfold nx; rw [e3]; rfl
    have n4 : s.nx d = h := by unfold nx; rw [e4]; rfl
    have hd : d < s.m_apLaths.length := cfD_lt e4
    have hc : c < s.m_apLaths.length := cfD_lt e3
    have p1 : s.pv h = d := by rw [← n4]; exact hv.pv_nx hd
    have p2 : s.pv d = c := by rw [← n3]; exact hv.pv_nx hc
    refine ⟨?_, ?_, ?_⟩
    · rw [n1, n2, n3, n4]
    · rw [n1, n2, n3, p1]
    · rw [p1, p2, n1, n2]

end Walk

end CqSubdivision2
end Aqsis

namespace Aqsis
namespace CqSubdivision2

/-! ## The faces round a face -/

theorem Qff.seen_true (s : CqSubdivision2) (x : Nat) :
    ∀ acc, Qff.seen s x acc = some true →
      ∃ g ∈ acc, ∃ ring, s.Qfv g = some ring ∧ x ∈ ring := by
  intro acc
  induction acc with
  | nil => intro h; simp [Qff.seen] at h
  | cons y rest ih =>
    intro h
    simp only [Qff.seen] at h
    cases hq : s.Qfv y with
    | none => rw [hq] at h; cases h
    | some ring =>
      rw [hq] at h
      simp only at h
      by_cases hc : ring.contains x = true
      · exact ⟨y, List.mem_cons_self _ _, ring, hq, by simpa using hc⟩
      · rw [if_neg hc] at h
        obtain ⟨g, hg, r, hr, hx⟩ := ih h
        exact ⟨g, List.mem_cons_of_mem _ hg, r, hr, hx⟩

/-- One iteration of the inner loop of `Qff`: the list of faces only grows
and afterwards holds a face with the lath on its ring. -/
theorem Qff.inner_step {s : CqSubdivision2} (hv : s.Valid) {x : Nat}
    (hx : x < s.m_apLaths.length) {acc1 acc2 : List Nat}
    (e : (Qff.seen s x acc1).map (fun dup => if dup then acc1 else acc1 ++ [x]) = some acc2) :
    (∀ g ∈ acc1, g ∈ acc2) ∧ ∃ g ∈ acc2, ∃ ring, s.Qfv g = some ring ∧ x ∈ ring := by
  cases hs : Qff.seen s x acc1 with
  | none => rw [hs] at e; cases e
  | some dup =>
    rw [hs] at e
    simp only [Option.map_some', Option.some.injEq] at e
    cases dup with
    | true =>
      simp only [if_true] at e
      subst e
      exact ⟨fun _ h => h, Qff.seen_true s x acc1 hs⟩
    | false =>
      simp only [Bool.false_eq_true, if_false] at e
      subst e
      refine ⟨fun g h => List.mem_append_left _ h, x, by simp, ?_⟩
      obtain ⟨ring, hr, hm⟩ := hv.rings x hx
      obtain ⟨tl, hr1, _⟩ := hr.ring_of_mem hm
      exact ⟨x :: tl, Qfv_of_ring hr1, List.mem_cons_self _ _⟩

theorem Qff.inner_loop {s : CqSubdivision2} (hv : s.Valid) :
    ∀ (around acc acc2 : List Nat), (∀ x ∈ around, x < s.m_apLaths.length) →
      forEach (fun x acc1 =>
        (Qff.seen s x acc1).map (fun dup => if dup then acc1 else acc1 ++ [x])) around acc =
          some acc2 →
      (∀ g ∈ acc, g ∈ acc2) ∧
        ∀ x ∈ around, ∃ g ∈ acc2, ∃ ring, s.Qfv g = some ring ∧ x ∈ ring := by
  intro around
  induction around with
  | nil =>
    intro acc acc2 _ e
    simp only [forEach, Option.some.injEq] at e
    subst e
    exact ⟨fun _ h => h, fun x hx => by cases hx⟩
  | cons a rest ih =>
    intro acc acc2 hlt e
    simp only [forEach] at e
    cases hb : (Qff.seen s a acc).map (fun dup => if dup then acc else acc ++ [a]) with
    | none => rw [hb] at e; cases e
    | some acc1 =>
      rw [hb] at e
      simp only [Option.some_bind] at e
      obtain ⟨m1, g, hg, ring, hr, hx⟩ := Qff.inner_step hv (hlt a (List.mem_cons_self _ _)) hb
      obtain ⟨m2, hall⟩ := ih acc1 acc2 (fun x hx => hlt x (List.mem_cons_of_mem _ hx)) e
      refine ⟨fun g hg => m2 g (m1 g hg), ?_⟩
      intro x hx
      rcases List.mem_cons.mp hx with rfl | hx
      · exact ⟨g, m2 g hg, ring, hr, ‹_›⟩
      · exact hall x hx

/-- The inner loop of `Qff` only appends. -/
theorem Qff.inner_grows (s : CqSubdivision2) :
    ∀ (around acc acc2 : List Nat),
      forEach (fun x acc1 =>
        (Qff.seen s x acc1).map (fun dup => if dup then acc1 else acc1 ++ [x])) around acc =
          some acc2 →
      ∀ g ∈ acc, g ∈ acc2 := by
  intro around
  induction around with
  | nil =>
    intro acc acc2 e
    simp only [forEach, Option.some.injEq] at e
    subst e
    exact fun _ h => h
  | cons a rest ih =>
    intro acc acc2 e
    simp only [forEach] at e
    cases hs : Qff.seen s a acc with
    | none => rw [hs] at e; cases e
    | some dup =>
      rw [hs] at e
      simp only [Option.map_some', Option.some_bind] at e
      intro g hg
      apply ih _ acc2 e
      cases dup with
      | true => simpa using hg
      | false => simp [hg]

theorem Qff.outer_loop {s : CqSubdivision2} (hv : s.Valid) :
    ∀ (corners acc acc2 : List Nat),
      forEach (fun c acc =>
        (s.Qvf c).bind (fun around =>
          forEach (fun x acc1 =>
            (Qff.seen s x acc1).map (fun dup => if dup then acc1 else acc1 ++ [x]))
            around acc)) corners acc = some acc2 →
      (∀ g ∈ acc, g ∈ acc2) ∧
        ∀ c ∈ corners, ∀ around, s.Qvf c = some around →
          (∀ x ∈ around, x < s.m_apLaths.length) →
          ∀ x ∈ around, ∃ g ∈ acc2, ∃ ring, s.Qfv g = some ring ∧ x ∈ ring := by
  intro corners
  induction corners with
  | nil =>
    intro acc acc2 e
    simp only [forEach, Option.some.injEq] at e
    subst e
    exact ⟨fun _ h => h, fun c hc => by cases hc⟩
  | cons c rest ih =>
    intro acc acc2 e
    simp only [forEach] at e
    cases hq : s.Qvf c with
    | none => rw [hq] at e; cases e
    | some around =>
      rw [hq] at e
      simp only [Option.some_bind] at e
      cases hb : forEach (fun x acc1 =>
            (Qff.seen s x acc1).map (fun dup => if dup then acc1 else acc1 ++ [x]))
            around acc with
      | none => rw [hb] at e; cases e
      | some acc1 =>
        rw [hb] at e
        simp only [Option.some_bind] at e
        obtain ⟨m2, hall⟩ := ih acc1 acc2 e
        refine ⟨?_, ?_⟩
        · intro g hg
          by_cases hlt : ∀ x ∈ around, x < s.m_apLaths.length
          · exact m2 g ((Qff.inner_loop hv around acc acc1 hlt hb).1 g hg)
          · -- the list only grows, whatever the laths are
            exact m2 g (Qff.inner_grows s around acc acc1 hb g hg)
        · intro c2 hc2 ar2 hq2 hlt x hx
          rcases List.mem_cons.mp hc2 with rfl | hc2
          · rw [hq] at hq2
            cases hq2
            obtain ⟨g, hg, ring, hr, hm⟩ := (Qff.inner_loop hv around acc acc1 hlt hb).2 x hx
            exact ⟨g, m2 g hg, ring, hr, hm⟩
          · exact hall c2 hc2 ar2 hq2 hlt x hx

end CqSubdivision2
end Aqsis

namespace Aqsis
namespace CqSubdivision2

/-! ## What a successful regularity test says -/

theorem CanUsePatch.regular_of_true (Qff : CqSubdivision2 → Nat → Option (List Nat))
    (s : CqSubdivision2) (pFace : Nat) (h : CanUsePatch Qff s pFace = some true) :
    CanUsePatch.Regular Qff s pFace := by
  unfold CanUsePatch cQfv at h
  cases hq : s.Qfv pFace with
  | none => simp [hq] at h
  | some aQfv =>
    simp only [hq, Option.map_some', Option.some_bind] at h
    by_cases h4 : aQfv.length = 4
    · simp only [h4, ne_eq, not_true_eq_false, if_false] at h
      cases he : CanUsePatch.every (CanUsePatch.corner s) aQfv with
      | none => simp [he] at h
      | some ok =>
        cases ok with
        | false => simp [he] at h
        | true =>
          have hall := (CanUsePatch.every_true _ aQfv).1 he
          have hv : ∀ q ∈ aQfv, s.cQvv q = some 4 :=
            fun q hq => ((CanUsePatch.corner_true s q).1 (hall q hq)).1
          have hs : ∀ q ∈ aQfv, s.Smooth q :=
            fun q hq => ((CanUsePatch.corner_true s q).1 (hall q hq)).2
          simp only [he, Option.some_bind, if_true] at h
          cases hf : Qff s pFace with
          | none => simp [hf] at h
          | some aQff =>
            simp only [hf, Option.some_bind] at h
            by_cases h9 : aQff.length = 9
            · simp only [h9, ne_eq, not_true_eq_false, if_false] at h
              rw [CanUsePatch.every_true] at h
              exact ⟨aQfv, aQff, hq, h4, hv, hs,
                fun q hq => ClosedChain.of_valence (hv q hq), hf, h9,
                fun g hg => (CanUsePatch.neighbour_true s g).1 (h g hg)⟩
            · simp [h9] at h
    · simp [h4] at h

/-- Every lath round a corner of a face lies on the ring of one of the
faces `Qff` lists for the face. -/
theorem Qff.covers {s : CqSubdivision2} (hv : s.Valid) {f : Nat} {aQff corners : List Nat}
    (e : Qff s f = some aQff) (hq : s.Qfv f = some corners) {c : Nat} (hc : c ∈ corners)
    {around : List Nat} (ha : s.Qvf c = some around)
    (hlt : ∀ x ∈ around, x < s.m_apLaths.length) {x : Nat} (hx : x ∈ around) :
    ∃ g ∈ aQff, ∃ ring, s.Qfv g = some ring ∧ x ∈ ring := by
  unfold Qff at e
  rw [hq] at e
  simp only [Option.some_bind] at e
  exact (Qff.outer_loop hv corners [] aQff e).2 c hc around ha hlt x hx

end CqSubdivision2

namespace CqSurfaceSubdivisionPatch

open CqSubdivision2

/-! ## The walk of `Split` over the control points -/

section Walk

variable {s : CqSubdivision2}

theorem cv_src_lt {a b : Nat} (e : s.cv a = some (some b)) : a < s.m_apLaths.length := by
  unfold cv at e
  cases hl : s.lath a with
  | none => rw [hl] at e; cases e
  | some l => exact lath_lt hl

/-- The step `ccv()->cf()` from a lath whose face-neighbour is linked to
`b`. -/
theorem Split.stepRest_eq (hv : s.Valid) {h b : Nat} (hh : h < s.m_apLaths.length)
    (e : s.cv (s.nx h) = some (some b)) :
    Split.stepRest s h = some (s.nx (s.nx b)) := by
  have hb := hv.cv_lt e
  obtain ⟨e1, h1⟩ := hv.cfD_nx hb
  obtain ⟨e2, _⟩ := hv.cfD_nx h1
  obtain ⟨e0, _⟩ := hv.cfD_nx hh
  unfold Split.stepRest Split.ccvD ccv ec
  rw [e0]
  simp only [Option.some_bind, e]
  rw [cf_of_cfD e1]
  simp only [Option.some_bind, id]
  exact e2

/-- The step `ccv()->cf()` from the target of a link goes to the
face-neighbour of the source of the link. -/
theorem Split.stepRest_of_link (hm : s.MatchedLinks) {a h : Nat}
    (e : s.cv a = some (some h)) : Split.stepRest s h = some (s.nx a) := by
  have ha := cv_src_lt e
  have hh := hm.valid.cv_lt e
  rw [Split.stepRest_eq hm.valid hh (hm.cv_nx e), hm.valid.nx_pv ha]

/-- The step `cv()->ccf()` from the face-neighbour of the target of a
link. -/
theorem Split.stepFirst_of_link (hm : s.MatchedLinks) {a b : Nat}
    (e : s.cv a = some (some b)) :
    Split.stepFirst s (s.nx b) = some (s.pv (s.pv a)) := by
  have ha := cv_src_lt e
  unfold Split.stepFirst
  rw [cvD_of_cv (hm.cv_nx e)]
  exact (hm.valid.ccf_pv (hm.valid.ccf_pv ha).2).1

/-- The walk of `Split` written out: when every step of the walk is
defined the sixteen vertex indices are pushed row by row. -/
theorem Split.aiVertices_of_steps (s : CqSubdivision2) {f x1 x2 : Nat}
    {P0 P1 P2 P3 P4 P5 P6 P7 P8 P9 P10 P11 P12 P13 P14 P15 : Nat}
    (h1 : s.cvD f = some x1) (h2 : s.cvD x1 = some x2) (h3 : s.cfD x2 = some P1)
    (h4 : s.cfD P1 = some P0)
    (a1 : s.ccf P0 = some P1) (a2 : Split.stepFirst s P1 = some P2)
    (a3 : Split.stepFirst s P2 = some P3)
    (e1 : s.cfD P0 = some P4)
    (b1 : s.cfD P4 = some P5) (b2 : Split.stepRest s P5 = some P6)
    (b3 : Split.stepRest s P6 = some P7)
    (e2 : Split.stepRest s P4 = some P8)
    (c1 : s.cfD P8 = some P9) (c2 : Split.stepRest s P9 = some P10)
    (c3 : Split.stepRest s P10 = some P11)
    (e3 : Split.stepRest s P8 = some P12)
    (d1 : s.cfD P12 = some P13) (d2 : Split.stepRest s P13 = some P14)
    (d3 : Split.stepRest s P14 = some P15)
    (hv : ∀ x ∈ [P0, P1, P2, P3, P4, P5, P6, P7, P8, P9, P10, P11, P12, P13, P14, P15],
      s.VertexIndex x = some (s.vx x)) :
    Split.aiVertices s f =
      some ([P0, P1, P2, P3, P4, P5, P6, P7, P8, P9, P10, P11, P12, P13, P14, P15].map s.vx) := by
  have v0 := hv P0 (by simp)
  have v1 := hv P1 (by simp)
  have v2 := hv P2 (by simp)
  have v3 := hv P3 (by simp)
  have v4 := hv P4 (by simp)
  have v5 := hv P5 (by simp)
  have v6 := hv P6 (by simp)
  have v7 := hv P7 (by simp)
  have v8 := hv P8 (by simp)
  have v9 := hv P9 (by simp)
  have v10 := hv P10 (by simp)
  have v11 := hv P11 (by simp)
  have v12 := hv P12 (by simp)
  have v13 := hv P13 (by simp)
  have v14 := hv P14 (by simp)
  have v15 := hv P15 (by simp)
  have r0 : Split.row s P0 [s.ccf, Split.stepFirst s, Split.stepFirst s] [] =
      some [s.vx P0, s.vx P1, s.vx P2, s.vx P3] := by
    simp [Split.row, forEach, Split.point, v0, v1, v2, v3, a1, a2, a3]
  have r1 : ∀ ai, Split.row s P4 [s.cfD, Split.stepRest s, Split.stepRest s] ai =
      some (ai ++ [s.vx P4, s.vx P5, s.vx P6, s.vx P7]) := by
    intro ai
    simp [Split.row, forEach, Split.point, v4, v5, v6, v7, b1, b2, b3]
  have r2 : ∀ ai, Split.row s P8 [s.cfD, Split.stepRest s, Split.stepRest s] ai =
      some (ai ++ [s.vx P8, s.vx P9, s.vx P10, s.vx P11]) := by
    intro ai
    simp [Split.row, forEach, Split.point, v8, v9, v10, v11, c1, c2, c3]
  have r3 : ∀ ai, Split.row s P12 [s.cfD, Split.stepRest s, Split.stepRest s] ai =
      some (ai ++ [s.vx P12, s.vx P13, s.vx P14, s.vx P15]) := by
    intro ai
    simp [Split.row, forEach, Split.point, v12, v13, v14, v15, d1, d2, d3]
  unfold Split.aiVertices
  rw [h1]
  simp only [Option.some_bind]
  rw [h2]
  simp only [Option.some_bind]
  rw [h3]
  simp only [Option.some_bind]
  rw [h4]
  simp only [Option.some_bind]
  rw [r0]
  simp only [Option.some_bind]
  rw [e1]
  simp only [Option.some_bind]
  rw [r1]
  simp only [Option.some_bind]
  rw [e2]
  simp only [Option.some_bind]
  rw [r2]
  simp only [Option.some_bind]
  rw [e3]
  simp only [Option.some_bind]
  rw [r3]
  simp

end Walk

end CqSurfaceSubdivisionPatch
end Aqsis

namespace Aqsis
namespace CqSurfaceSubdivisionPatch

open CqSubdivision2

/-! ## The walk of `Split` is defined on a regular face -/

section Walk

variable {s : CqSubdivision2}

/-- Every lath round a corner of a regular face lies on a ring of four. -/
theorem regular_quads (hv : s.Valid) {f : Nat}
    (hr : CanUsePatch.Regular CqSubdivision2.Qff s f) {corners : List Nat}
    (hq : s.Qfv f = some corners) {c : Nat} (hc : c ∈ corners) {around : List Nat}
    (ha : s.Qvf c = some around) (hlt : ∀ x ∈ around, x < s.m_apLaths.length) {x : Nat}
    (hx : x ∈ around) :
    s.nx (s.nx (s.nx (s.nx x))) = x ∧ s.pv x = s.nx (s.nx (s.nx x)) ∧
      s.pv (s.pv x) = s.nx (s.nx x) := by
  obtain ⟨_, aQff, _, _, _, _, _, hf, _, hn⟩ := hr
  obtain ⟨g, hg, ring, hring, hm⟩ := Qff.covers hv hf hq hc ha hlt hx
  obtain ⟨ring2, h2, hl, _⟩ := hn g hg
  rw [hring] at h2
  cases h2
  exact quad_ring hv hring hl hm

/-- On a regular face of a matched topology the walk of `Split` over the
control points meets no missing link: it collects sixteen vertex indices, and
those at the positions 5, 6, 9 and 10 are the vertex indices of the corners of
the face. -/
theorem Split.aiVertices_corners (hm : s.MatchedLinks) {f : Nat}
    (hr : CanUsePatch.Regular CqSubdivision2.Qff s f) :
    ∃ ai q1 q2 q3, Split.aiVertices s f = some ai ∧ ai.length = 16 ∧
      s.Qfv f = some [f, q1, q2, q3] ∧
      ai[5]? = some (s.vx f) ∧ ai[6]? = some (s.vx q3) ∧
      ai[9]? = some (s.vx q1) ∧ ai[10]? = some (s.vx q2) := by
  have hv := hm.valid
  have hr0 := hr
  obtain ⟨aQfv, aQff, hq, h4, hval, _, _, hf, _, hn⟩ := hr
  obtain ⟨hfl, hring, tl, rfl⟩ := hv.qfv hq
  match tl, h4, hring, hq with
  | [q1, q2, q3], _, hring, hq =>
    rw [IsRing.ring_cons_iff] at hring
    obtain ⟨_, hch⟩ := hring
    simp only [List.cons_append, List.nil_append, List.chain'_cons, List.chain'_singleton,
      and_true] at hch
    obtain ⟨f1, f2, f3, f4⟩ := hch
    have n0 : s.nx f = q1 := by unfold nx; rw [f1]; rfl
    have n1 : s.nx q1 = q2 := by unfold nx; rw [f2]; rfl
    have n3 : s.nx q3 = f := by unfold nx; rw [f4]; rfl
    obtain ⟨a1, a2, a3, ha0, ha1, ha2, ha3, hqa⟩ := fan_of_valence (hval f (by simp))
    obtain ⟨b1, b2, b3, hb0, hb1, hb2, hb3, hqb⟩ := fan_of_valence (hval q1 (by simp))
    obtain ⟨c1, c2, c3, hc0, hc1, hc2, hc3, _⟩ := fan_of_valence (hval q2 (by simp))
    obtain ⟨d1, d2, d3, hd0, hd1, hd2, hd3, _⟩ := fan_of_valence (hval q3 (by simp))
    have la1 := hv.cv_lt ha0
    have la2 := hv.cv_lt ha1
    have la3 := hv.cv_lt ha2
    have lb1 := hv.cv_lt hb0
    have lb2 := hv.cv_lt hb1
    have lb3 := hv.cv_lt hb2
    have lc1 := hv.cv_lt hc0
    have lc2 := hv.cv_lt hc1
    have lc3 := hv.cv_lt hc2
    have ld2 := hv.cv_lt hd1
    have ld3 := hv.cv_lt hd2
    have lq1 := cv_src_lt hb0
    have lq2 := cv_src_lt hc0
    have L : ∀ {x : Nat}, x < s.m_apLaths.length → s.nx x < s.m_apLaths.length :=
      fun hx => (hv.cfD_nx hx).2
    have Lp : ∀ {x : Nat}, x < s.m_apLaths.length → s.pv x < s.m_apLaths.length :=
      fun hx => (hv.ccf_pv hx).2
    have C : ∀ {x : Nat}, x < s.m_apLaths.length → s.cfD x = some (s.nx x) :=
      fun hx => (hv.cfD_nx hx).1
    have hlta : ∀ x ∈ [f, a1, a2, a3], x < s.m_apLaths.length := by
      intro x hx
      simp only [List.mem_cons, List.mem_singleton, List.not_mem_nil, or_false] at hx
      rcases hx with rfl | rfl | rfl | rfl
      · exact hfl
      · exact la1
      · exact la2
      · exact la3
    have hltb : ∀ x ∈ [q1, b1, b2, b3], x < s.m_apLaths.length := by
      intro x hx
      simp only [List.mem_cons, List.mem_singleton, List.not_mem_nil, or_false] at hx
      rcases hx with rfl | rfl | rfl | rfl
      · exact lq1
      · exact lb1
      · exact lb2
      · exact lb3
    have Qa1 := regular_quads hv hr0 hq (by simp) hqa hlta (show a1 ∈ [f, a1, a2, a3] by simp)
    have Qa2 := regular_quads hv hr0 hq (by simp) hqa hlta (show a2 ∈ [f, a1, a2, a3] by simp)
    have Qa3 := regular_quads hv hr0 hq (by simp) hqa hlta (show a3 ∈ [f, a1, a2, a3] by simp)
    have Qb2 := regular_quads hv hr0 hq (show q1 ∈ [f, q1, q2, q3] by simp) hqb hltb
      (show b2 ∈ [q1, b1, b2, b3] by simp)
    have Qb3 := regular_quads hv hr0 hq (show q1 ∈ [f, q1, q2, q3] by simp) hqb hltb
      (show b3 ∈ [q1, b1, b2, b3] by simp)
    -- the fans of neighbouring corners meet
    have pd3 : s.pv d3 = a1 := hm.pv_fan hd3 (by rw [n3]; exact ha0)
    have pa3 : s.pv a3 = b1 := hm.pv_fan ha3 (by rw [n0]; exact hb0)
    have pb3 : s.pv b3 = c1 := hm.pv_fan hb3 (by rw [n1]; exact hc0)
    have ed3 : d3 = s.nx a1 := by rw [← pd3]; exact (hv.nx_pv ld3).symm
    -- the sixteen laths
    have a1e : s.ccf (s.nx (s.nx a2)) = some (s.nx a2) := by
      have := (hv.ccf_pv (L (L la2))).1
      rw [hv.pv_nx (L la2)] at this
      exact this
    have a2e : Split.stepFirst s (s.nx a2) = some (s.pv (s.pv a1)) :=
      Split.stepFirst_of_link hm ha1
    have a3e : Split.stepFirst s (s.pv (s.pv a1)) = some (s.pv (s.pv d2)) := by
      have := Split.stepFirst_of_link hm hd2
      rw [ed3, ← Qa1.2.2] at this
      exact this
    have b1e : s.cfD (s.nx (s.nx (s.nx a2))) = some a2 := by
      have := C (L (L (L la2)))
      rw [Qa2.1] at this
      exact this
    have b2e : Split.stepRest s a2 = some (s.nx a1) := Split.stepRest_of_link hm ha1
    have b3e : Split.stepRest s (s.nx a1) = some (s.nx d2) := by
      have := Split.stepRest_of_link hm hd2
      rw [ed3] at this
      exact this
    have e2e : Split.stepRest s (s.nx (s.nx (s.nx a2))) = some (s.nx (s.nx a3)) :=
      Split.stepRest_eq hv (L (L (L la2))) (by rw [Qa2.1]; exact ha2)
    have n3a3 : s.nx (s.nx (s.nx a3)) = b1 := by rw [← Qa3.2.1, pa3]
    have c1e : s.cfD (s.nx (s.nx a3)) = some b1 := by
      have := C (L (L la3))
      rw [n3a3] at this
      exact this
    have c2e : Split.stepRest s b1 = some q2 := by
      have := Split.stepRest_of_link hm hb0
      rw [n1] at this
      exact this
    have c3e : Split.stepRest s q2 = some (s.nx c3) := Split.stepRest_of_link hm hc3
    have e3e : Split.stepRest s (s.nx (s.nx a3)) = some (s.nx (s.nx b2)) :=
      Split.stepRest_eq hv (L (L la3)) (by rw [n3a3]; exact hb1)
    have d2e : Split.stepRest s (s.nx (s.nx (s.nx b2))) = some (s.nx (s.nx b3)) :=
      Split.stepRest_eq hv (L (L (L lb2))) (by rw [Qb2.1]; exact hb2)
    have d3e : Split.stepRest s (s.nx (s.nx b3)) = some (s.nx (s.nx c2)) :=
      Split.stepRest_eq hv (L (L lb3)) (by rw [← Qb3.2.1, pb3]; exact hc1)
    have va1 := ((hm.link_iff hfl la1).mp ha0).1
    have va2 := ((hm.link_iff la1 la2).mp ha1).1
    have vb1 := ((hm.link_iff lq1 lb1).mp hb0).1
    have vd3 := ((hm.link_iff ld3 (cv_src_lt hd0)).mp hd3).1
    refine ⟨_, q1, q2, q3,
      Split.aiVertices_of_steps s (cvD_of_cv ha0) (cvD_of_cv ha1) (C la2) (C (L la2))
      a1e a2e a3e (C (L (L la2))) b1e b2e b3e e2e c1e c2e c3e e3e (C (L (L lb2))) d2e d3e ?_,
      by simp, hq, ?_, ?_, ?_, ?_⟩
    rotate_left
    · simp only [List.map_cons, List.getElem?_cons_succ, List.getElem?_cons_zero]
      rw [va2, va1]
    · simp only [List.map_cons, List.getElem?_cons_succ, List.getElem?_cons_zero]
      rw [← ed3, vd3]
    · simp only [List.map_cons, List.getElem?_cons_succ, List.getElem?_cons_zero]
      rw [vb1]
    · simp only [List.map_cons, List.getElem?_cons_succ, List.getElem?_cons_zero]
    intro x hx
    apply hv.vx_eq
    simp only [List.mem_cons, List.mem_singleton, List.not_mem_nil, or_false] at hx
    rcases hx with rfl | rfl | rfl | rfl | rfl | rfl | rfl | rfl | rfl | rfl | rfl | rfl |
      rfl | rfl | rfl | rfl
    · exact L (L la2)
    · exact L la2
    · exact Lp (Lp la1)
    · exact Lp (Lp ld2)
    · exact L (L (L la2))
    · exact la2
    · exact L la1
    · exact L ld2
    · exact L (L la3)
    · exact lb1
    · exact lq2
    · exact L lc3
    · exact L (L lb2)
    · exact L (L (L lb2))
    · exact L (L lb3)
    · exact L (L lc2)

/-- On a regular face of a matched topology the walk of `Split` over the
control points meets no missing link: it collects sixteen vertex indices. -/
theorem Split.aiVertices_regular (hm : s.MatchedLinks) {f : Nat}
    (hr : CanUsePatch.Regular CqSubdivision2.Qff s f) :
    ∃ ai, Split.aiVertices s f = some ai ∧ ai.length = 16 := by
  obtain ⟨ai, _, _, _, h1, h2, _⟩ := Split.aiVertices_corners hm hr
  exact ⟨ai, h1, h2⟩

end Walk

end CqSurfaceSubdivisionPatch
end Aqsis

namespace Aqsis
namespace CqSubdivision2

/-! ## Finalised manifold meshes are matched -/

/-- The topology `Finalise` leaves a manifold control mesh in is matched. -/
theorem MatchedLinks.of_finalise {s : CqSubdivision2} (hs : s.Fresh)
    (hu : Uniform s.aUserParams s.m_aapVertices.length)
    (hmv : ∀ v, v < s.m_aapVertices.length → s.ManifoldVertex v) :
    ∃ t, s.Finalise = some (t, true) ∧ t.MatchedLinks := by
  obtain ⟨F, hF, hall⟩ := Finalise_manifold_links hs hmv
  refine ⟨_, hF, ?_⟩
  obtain ⟨hv0, hu0⟩ := hs.valid hu
  have hval := (Finalise_valid hv0 hu0 hF).1
  have hlen : ({ s.withCv F with m_fFinalised := true } : CqSubdivision2).m_apLaths.length =
      s.m_apLaths.length := withCv_length s F
  have hV : ∀ h, ({ s.withCv F with m_fFinalised := true } : CqSubdivision2).VertexIndex h =
      s.VertexIndex h := fun h => withCv_VertexIndex s F h
  have hO : ∀ h, ({ s.withCv F with m_fFinalised := true } : CqSubdivision2).outKey h =
      s.outKey h := fun h => withCv_outKey s F h
  have hI : ∀ h, ({ s.withCv F with m_fFinalised := true } : CqSubdivision2).innKey h =
      s.innKey h := by
    intro h
    have hD : ∀ x, ({ s.withCv F with m_fFinalised := true } : CqSubdivision2).cfD x =
        s.cfD x := fun x => withCv_cfD s F x
    have hC : ({ s.withCv F with m_fFinalised := true } : CqSubdivision2).ccf h = s.ccf h :=
      ccf_congr hD hlen h
    unfold innKey
    rw [hC]
    cases s.ccf h with
    | none => rfl
    | some c => exact hV c
  have hvert : ∀ x, x < s.m_apLaths.length →
      ∃ v vert, s.VertexIndex x = some v ∧ s.m_aapVertices[v]? = some vert ∧ x ∈ vert := by
    intro x hx
    obtain ⟨v, hv⟩ := VertexIndex_some hx
    obtain ⟨a, ha, hm⟩ := (hs.adj v x).mpr hv
    exact ⟨v, a, hv, ha, hm⟩
  refine ⟨hval, ?_, ?_⟩
  · intro x y hx hy
    rw [hlen] at hx hy
    obtain ⟨v, vert, hxv, hva, hxm⟩ := hvert x hx
    have hcv : ({ s.withCv F with m_fFinalised := true } : CqSubdivision2).cv x =
        some (F x) := withCv_cv s F x hx
    rw [hcv, hV, hV, hO, hI, hxv]
    have hM := hall vert (List.mem_iff_getElem?.mpr ⟨_, hva⟩) x hxm y
    constructor
    · intro e
      have e2 : F x = some y := Option.some.inj e
      obtain ⟨hym, hk⟩ := hM.mp e2
      exact ⟨(hs.adj v y).mp ⟨vert, hva, hym⟩, hk⟩
    · rintro ⟨hyv, hk⟩
      obtain ⟨a, ha, hym⟩ := (hs.adj v y).mpr hyv
      rw [hva] at ha
      cases ha
      rw [hM.mpr ⟨hym, hk⟩]
  · intro x y hx hy e1 e2
    rw [hlen] at hx hy
    rw [hV, hV] at e1
    rw [hO, hO] at e2
    obtain ⟨v, vert, hxv, hva, hxm⟩ := hvert x hx
    rw [hxv] at e1
    obtain ⟨a, ha, hym⟩ := (hs.adj v y).mpr e1.symm
    rw [hva] at ha
    cases ha
    have hv : v < s.m_aapVertices.length := hs.vertexLt x v hxv
    obtain ⟨_, _, hinj, _⟩ := ManifoldVertex.data hs hva (hmv v hv)
    exact hinj x hxm y hym (by rw [e2])

end CqSubdivision2
end Aqsis

namespace Aqsis
namespace CqSurfaceSubdivisionPatch

open CqSubdivision2

/-! ## Splitting a regular patch -/

theorem Split.surface_one (ai : List Nat) :
    Split.surface ai 1 = CqBasicSurface.bicubic ⟨ai, 0⟩ := rfl

theorem Split.surface_many (ai : List Nat) {n : Nat} (hn : n ≠ 1) :
    Split.surface ai n =
      CqBasicSurface.deforming
        ((List.range n).map fun iTime => (⟨ai, iTime⟩ : CqSurfacePatchBicubic)) := by
  have key : ∀ l : List CqSurfacePatchBicubic, l.length ≠ 1 →
      (match l with
        | [pSurface] => CqBasicSurface.bicubic pSurface
        | _ => CqBasicSurface.deforming l) = CqBasicSurface.deforming l := by
    intro l hl
    match l, hl with
    | [], _ => rfl
    | [_], h => simp at h
    | _ :: _ :: _, _ => rfl
  unfold Split.surface
  exact key _ (by simpa using hn)

/-- The torus of nine quads: it is built and finalised, its links are the
matching ones, and its first face is regular. -/
theorem torus_links :
    buildMesh (positionsOnly 9) 9
      [[0, 3, 4, 1], [1, 4, 5, 2], [2, 5, 3, 0], [3, 6, 7, 4], [4, 7, 8, 5], [5, 8, 6, 3],
        [6, 0, 1, 7], [7, 1, 2, 8], [8, 2, 0, 6]] = some torus ∧
    torus.Finalise = some (torus.finalised, true) ∧
    torus.finalised.m_apLaths.length = 36 ∧
    (∀ x, x < 36 → ∀ y, y < 36 →
      (torus.finalised.cv x = some (some y) ↔
        (torus.finalised.VertexIndex y = torus.finalised.VertexIndex x ∧
          torus.finalised.outKey y = torus.finalised.innKey x))) ∧
    (∀ x, x < 36 → ∀ y, y < 36 →
      torus.finalised.VertexIndex x = torus.finalised.VertexIndex y →
      torus.finalised.outKey x = torus.finalised.outKey y → x = y) ∧
    CanUsePatch CqSubdivision2.Qff torus.finalised 0 = some true := by
  decide!

/-- The torus of nine quads, finalised, is a matched topology. -/
theorem torus_matched : torus.finalised.MatchedLinks := by
  obtain ⟨hb, hf, hlen, h1, h2, _⟩ := torus_links
  have hv : torus.finalised.Valid := (finalised_valid hb ⟨by decide, by decide⟩ hf).1
  refine ⟨hv, ?_, ?_⟩
  · intro x y hx hy
    rw [hlen] at hx hy
    exact h1 x hx y hy
  · intro x y hx hy
    rw [hlen] at hx hy
    exact h2 x hx y hy

/-- The regular patch of the torus: the sixteen control vertices of its
first face, and the topology unchanged. -/
theorem Split_torus :
    Split CqSubdivision2.Qff 1 torus.finalised patch0 [] =
      some (torus.finalised,
        [CqBasicSurface.bicubic ⟨[8, 2, 5, 8, 6, 0, 3, 6, 7, 1, 4, 7, 8, 2, 5, 8], 0⟩], 1) := by
  decide!

/-- C23 (amended): when `CanUsePatch` holds for the face of the patch, in a matched
topology (the vertex-neighbour links are the ones the matching rule of
`Finalise` prescribes; every finalised manifold control mesh is one), the walk
of `Split` over the control points meets no missing link and collects sixteen
vertex indices, and `Split` appends exactly one surface to `aSplits` and
returns the new length: the bicubic patch itself when the topology has one time
slot, otherwise a single deforming surface holding one bicubic patch for each
time slot.  The topology is returned as it was: no lath, facet or vertex is
added and no attribute array changes. -/
theorem Split_regular_appends_one_surface (depth : Nat) {s : CqSubdivision2}
    (hm : s.MatchedLinks) (p : CqSurfaceSubdivisionPatch) (aSplits : List CqBasicSurface)
    (hc : s.CanUsePatch CqSubdivision2.Qff p.m_pFace = some true) :
    ∃ ai surface, Split.aiVertices s p.m_pFace = some ai ∧ ai.length = 16 ∧
      Split CqSubdivision2.Qff depth s p aSplits =
        some (s, aSplits ++ [surface], aSplits.length + 1) ∧
      (s.aUserParams.length = 1 → surface = CqBasicSurface.bicubic ⟨ai, 0⟩) ∧
      (s.aUserParams.length ≠ 1 →
        surface = CqBasicSurface.deforming
          ((List.range s.aUserParams.length).map fun iTime =>
            (⟨ai, iTime⟩ : CqSurfacePatchBicubic))) := by
  obtain ⟨ai, hai, hl⟩ :=
    Split.aiVertices_regular hm (CanUsePatch.regular_of_true _ s p.m_pFace hc)
  refine ⟨ai, Split.surface ai s.aUserParams.length, hai, hl, ?_, ?_, ?_⟩
  · unfold Split
    rw [hc]
    simp only [Option.some_bind, if_true]
    rw [hai]
    simp
  · intro h1
    rw [h1]
    rfl
  · intro h1
    exact Split.surface_many ai h1

theorem Split_regular_appends_one_surface_witness :
    ∃ ai surface, Split.aiVertices torus.finalised patch0.m_pFace = some ai ∧ ai.length = 16 ∧
      Split CqSubdivision2.Qff 1 torus.finalised patch0 [] =
        some (torus.finalised, [] ++ [surface], ([] : List CqBasicSurface).length + 1) ∧
      (torus.finalised.aUserParams.length = 1 → surface = CqBasicSurface.bicubic ⟨ai, 0⟩) ∧
      (torus.finalised.aUserParams.length ≠ 1 →
        surface = CqBasicSurface.deforming
          ((List.range torus.finalised.aUserParams.length).map fun iTime =>
            (⟨ai, iTime⟩ : CqSurfacePatchBicubic))) :=
  Split_regular_appends_one_surface 1 torus_matched patch0 []
    (show CanUsePatch CqSubdivision2.Qff torus.finalised patch0.m_pFace = some true from
      torus_links.2.2.2.2.2)

end CqSurfaceSubdivisionPatch
end Aqsis

namespace Aqsis
namespace CqSubdivision2

/-! ## The index of a new vertex -/

theorem addVertexWith_uniform (iIndex0 : Option Nat) (s : CqSubdivision2)
    (hu : Uniform s.aUserParams s.m_aapVertices.length) :
    addVertexWith iIndex0 s =
      some ({ s with aUserParams := grownParams s.aUserParams,
                     m_aapVertices := s.m_aapVertices ++ [[]] },
        s.m_aapVertices.length) := by
  have h := addVertexWith_growBy iIndex0 hu 0
  rw [growBy_zero] at h
  rw [h]
  rfl

/-- C32 (as the code has it): each of `AddVertex`, `AddEdgeVertex` and
`AddFaceVertex` returns the size the last attribute array had before the call
and resizes the vertex table to that size plus one.  In a topology with four
vertex-table entries over a position array of two elements, `AddVertex`
returns 2, not 4, and leaves a table of three entries: the fourth entry and
its lath are gone. -/
theorem AddVertex_index_follows_array :
    ((buildMesh (positionsOnly 2) 4 [[0, 1, 2, 3]]).getD (empty [])).m_aapVertices =
        [[0], [1], [2], [3]] ∧
      (((buildMesh (positionsOnly 2) 4 [[0, 1, 2, 3]]).getD (empty [])).AddVertex 0).map
        (fun r => (r.2, r.1.m_aapVertices)) = some (2, [[0], [1], [2]]) ∧
      (((buildMesh (positionsOnly 2) 4 [[0, 1, 2, 3]]).getD (empty [])).AddEdgeVertex 0).map
        (fun r => (r.2, r.1.m_aapVertices)) = some (2, [[0], [1], [2]]) ∧
      (((buildMesh (positionsOnly 2) 4 [[0, 1, 2, 3]]).getD (empty [])).AddFaceVertex 0).map
        (fun r => (r.2, r.1.m_aapVertices)) = some (2, [[0], [1], [2]]) := by
  decide

/-- C32 (amended): in a topology that has at least one attribute array and
whose attribute arrays all hold as many elements as the vertex table has
entries, each of `AddVertex`, `AddEdgeVertex` and `AddFaceVertex` returns the
number of vertex-table entries before the call, and leaves the vertex table
with exactly one more entry, an empty one, after all the previous entries;
nothing else changes but the attribute arrays, each of which is one element
longer. -/
theorem AddVertex_returns_new_index (s : CqSubdivision2) (pVertex : Nat)
    (hu : Uniform s.aUserParams s.m_aapVertices.length) :
    s.AddVertex pVertex =
        some ({ s with aUserParams := grownParams s.aUserParams,
                       m_aapVertices := s.m_aapVertices ++ [[]] },
          s.m_aapVertices.length) ∧
      s.AddEdgeVertex pVertex =
        some ({ s with aUserParams := grownParams s.aUserParams,
                       m_aapVertices := s.m_aapVertices ++ [[]] },
          s.m_aapVertices.length) ∧
      s.AddFaceVertex pVertex =
        some ({ s with aUserParams := grownParams s.aUserParams,
                       m_aapVertices := s.m_aapVertices ++ [[]] },
          s.m_aapVertices.length) :=
  ⟨addVertexWith_uniform _ s hu, addVertexWith_uniform _ s hu, addVertexWith_uniform _ s hu⟩

theorem AddVertex_returns_new_index_witness :
    Uniform quadMesh.aUserParams quadMesh.m_aapVertices.length ∧
      quadMesh.m_aapVertices.length = 4 ∧
      quadMesh.AddEdgeVertex 0 =
        some ({ quadMesh with aUserParams := grownParams quadMesh.aUserParams,
                              m_aapVertices := quadMesh.m_aapVertices ++ [[]] },
          quadMesh.m_aapVertices.length) :=
  ⟨⟨by decide, by decide⟩, by decide,
    (AddVertex_returns_new_index quadMesh 0 ⟨by decide, by decide⟩).2.1⟩

end CqSubdivision2
end Aqsis

namespace Aqsis
namespace CqSubdivision2

/-! ## The frame of Finalise -/

theorem Finalise.Touched.touched_refl (W : Nat → Prop) (s : CqSubdivision2) :
    Finalise.Touched W s s :=
  ⟨rfl, rfl, fun _ l hl => ⟨l.m_pClockwiseVertex, hl⟩, fun _ _ => rfl⟩

theorem Finalise.Touched.touched_trans {W : Nat → Prop} {s t u : CqSubdivision2}
    (h1 : Finalise.Touched W s t) (h2 : Finalise.Touched W t u) : Finalise.Touched W s u := by
  refine ⟨?_, h2.length.trans h1.length, ?_, ?_⟩
  · have a := h1.rest
    have b := h2.rest
    rw [b, a]
  · intro h l hl
    obtain ⟨o, ho⟩ := h1.lath h l hl
    obtain ⟨o2, ho2⟩ := h2.lath h _ ho
    exact ⟨o2, ho2⟩
  · intro h hw
    rw [h2.same h hw, h1.same h hw]

theorem Finalise.Touched.touched_mono {W V : Nat → Prop} {s t : CqSubdivision2}
    (h1 : Finalise.Touched W s t) (hwv : ∀ h, W h → V h) : Finalise.Touched V s t :=
  ⟨h1.rest, h1.length, h1.lath, fun h hv => h1.same h (fun hw => hv (hwv h hw))⟩

theorem Finalise.write_touched {W : Nat → Prop} {s s1 : CqSubdivision2} {X : Nat}
    {o : Option Nat} (hX : W X)
    (e : s.setLath X (fun l => { l with m_pClockwiseVertex := o }) = some s1) :
    Finalise.Touched W s s1 := by
  obtain ⟨l, hl, rfl⟩ := setLath_eq_some e
  refine ⟨rfl, by simp, ?_, ?_⟩
  · intro h l2 hl2
    by_cases hh : X = h
    · subst hh
      have : l2 = l := by
        have := hl2.symm.trans hl
        simpa using this
      subst this
      refine ⟨o, ?_⟩
      have hlt : X < s.m_apLaths.length := by
        rcases Nat.lt_or_ge X s.m_apLaths.length with h | h
        · exact h
        · rw [List.getElem?_eq_none h] at hl2; cases hl2
      simp [List.getElem?_set, hlt]
    · refine ⟨l2.m_pClockwiseVertex, ?_⟩
      simp only [List.getElem?_set, hh, if_false]
      exact hl2
  · intro h hw
    have hh : X ≠ h := fun e => hw (e ▸ hX)
    simp [List.getElem?_set, hh]

theorem Finalise.forward_touched (vert : List Nat) :
    ∀ (fuel : Nat) (s : CqSubdivision2) (aVisited : List Bool) (cVisited pCurrent : Nat)
      (r : CqSubdivision2 × List Bool × Nat × Nat), pCurrent ∈ vert →
      Finalise.forward vert fuel s aVisited cVisited pCurrent = some r →
      Finalise.Touched (fun h => h ∈ vert) s r.1 := by
  intro fuel
  induction fuel with
  | zero => intro s aVisited cVisited pCurrent r _ e; cases e
  | succ f ih =>
    intro s aVisited cVisited pCurrent r hp e
    simp only [Finalise.forward] at e
    cases h1 : (s.ccf pCurrent).bind s.VertexIndex with
    | none => rw [h1] at e; cases e
    | some ccwVertex =>
      rw [h1] at e
      simp only at e
      cases h2 : Finalise.scan vert aVisited (fun h => (s.cfD h).bind s.VertexIndex) ccwVertex
          (List.range vert.length) with
      | none => rw [h2] at e; cases e
      | some o =>
        rw [h2] at e
        cases o with
        | none =>
          simp only [Option.some.injEq] at e
          subst e
          exact Finalise.Touched.touched_refl _ _
        | some iLath =>
          simp only at e
          cases h3 : vert[iLath]? with
          | none => rw [h3] at e; cases e
          | some h =>
            rw [h3] at e
            simp only at e
            cases h4 : s.setLath pCurrent (fun l => { l with m_pClockwiseVertex := some h }) with
            | none => rw [h4] at e; cases e
            | some s1 =>
              rw [h4] at e
              simp only at e
              have c := @Finalise.write_touched (fun h => h ∈ vert) _ _ _ _ hp h4
              have d := ih s1 _ _ _ r (List.mem_iff_getElem?.mpr ⟨_, h3⟩) e
              exact c.touched_trans d

theorem Finalise.backward_touched (vert : List Nat) :
    ∀ (fuel : Nat) (s : CqSubdivision2) (aVisited : List Bool) (cVisited pStart iStart : Nat)
      (r : CqSubdivision2 × List Bool × Nat × Nat × Nat),
      Finalise.backward vert fuel s aVisited cVisited pStart iStart = some r →
      Finalise.Touched (fun h => h ∈ vert) s r.1 := by
  intro fuel
  induction fuel with
  | zero => intro s aVisited cVisited pStart iStart r e; cases e
  | succ f ih =>
    intro s aVisited cVisited pStart iStart r e
    simp only [Finalise.backward] at e
    cases h1 : (s.cfD pStart).bind s.VertexIndex with
    | none => rw [h1] at e; cases e
    | some cwVertex =>
      rw [h1] at e
      simp only at e
      cases h2 : Finalise.scan vert aVisited (fun h => (s.ccf h).bind s.VertexIndex) cwVertex
          (List.range vert.length) with
      | none => rw [h2] at e; cases e
      | some o =>
        rw [h2] at e
        cases o with
        | none =>
          simp only [Option.some.injEq] at e
          subst e
          exact Finalise.Touched.touched_refl _ _
        | some iLath =>
          simp only at e
          cases h3 : vert[iLath]? with
          | none => rw [h3] at e; cases e
          | some h =>
            rw [h3] at e
            simp only at e
            cases h4 : s.setLath h (fun l => { l with m_pClockwiseVertex := some pStart }) with
            | none => rw [h4] at e; cases e
            | some s1 =>
              rw [h4] at e
              simp only at e
              have c := @Finalise.write_touched (fun h => h ∈ vert) _ _ _ _
                (List.mem_iff_getElem?.mpr ⟨_, h3⟩) h4
              have d := ih s1 _ _ _ _ r e
              exact c.touched_trans d

theorem Finalise.vertex_touched {s : CqSubdivision2} {vert : List Nat}
    {r : CqSubdivision2 × Bool} (e : Finalise.vertex s vert = some r) :
    Finalise.Touched (fun h => 2 ≤ vert.length ∧ h ∈ vert) s r.1 := by
  unfold Finalise.vertex at e
  simp only at e
  by_cases hc : vert.length ≤ 1
  · rw [if_pos hc] at e
    simp only [Option.some.injEq] at e
    subst e
    exact Finalise.Touched.touched_refl _ _
  · rw [if_neg hc] at e
    have hmono : ∀ h, h ∈ vert → (2 ≤ vert.length ∧ h ∈ vert) := fun h hh => ⟨by omega, hh⟩
    cases h0 : vert[0]? with
    | none => rw [h0] at e; cases e
    | some pStart =>
      rw [h0] at e
      simp only at e
      cases h1 : Finalise.forward vert (2 * vert.length + 2) s
          (List.replicate vert.length false) 0 pStart with
      | none => rw [h1] at e; cases e
      | some r1 =>
        rw [h1] at e
        obtain ⟨s1, aV1, cV1, pC⟩ := r1
        simp only at e
        have c := Finalise.forward_touched vert _ s _ _ _ _
          (List.mem_iff_getElem?.mpr ⟨_, h0⟩) h1
        simp only at c
        cases h2 : s1.cv pC with
        | none => rw [h2] at e; cases e
        | some pcv =>
          rw [h2] at e
          simp only at e
          cases h3 : (if pcv = none then
              Finalise.backward vert (2 * vert.length + 2) s1 aV1 cV1 pStart 0
            else some (s1, aV1, cV1, pStart, 0)) with
          | none => rw [h3] at e; cases e
          | some r2 =>
            rw [h3] at e
            obtain ⟨s2, aV2, cV2, pS2, iS2⟩ := r2
            simp only at e
            have hres : Finalise.Touched (fun h => h ∈ vert) s s2 := by
              by_cases hp : pcv = none
              · rw [if_pos hp] at h3
                exact c.touched_trans (Finalise.backward_touched vert _ s1 _ _ _ _ _ h3)
              · rw [if_neg hp] at h3
                simp only [Option.some.injEq, Prod.mk.injEq] at h3
                rw [← h3.1]
                exact c
            split at e
            · simp only [Option.some.injEq] at e
              subst e
              exact hres.touched_mono hmono
            · simp only [Option.some.injEq] at e
              subst e
              exact hres.touched_mono hmono

theorem Finalise.loop_touched :
    ∀ (verts : List (List Nat)) (s : CqSubdivision2) (r : CqSubdivision2 × Bool),
      Finalise.loop verts s = some r →
      Finalise.Touched (fun h => ∃ vert ∈ verts, 2 ≤ vert.length ∧ h ∈ vert) s r.1 := by
  intro verts
  induction verts with
  | nil =>
    intro s r e
    simp only [Finalise.loop, Option.some.injEq] at e
    subst e
    exact Finalise.Touched.touched_refl _ _
  | cons vert rest ih =>
    intro s r e
    simp only [Finalise.loop] at e
    cases h1 : Finalise.vertex s vert with
    | none => rw [h1] at e; cases e
    | some r1 =>
      rw [h1] at e
      obtain ⟨s1, b⟩ := r1
      have c := (Finalise.vertex_touched h1).touched_mono
        (V := fun h => ∃ v ∈ vert :: rest, 2 ≤ v.length ∧ h ∈ v)
        (fun h hh => ⟨vert, List.mem_cons_self _ _, hh⟩)
      cases b with
      | false =>
        simp only [Option.some.injEq] at e
        subst e
        exact c
      | true =>
        simp only at e
        have d := (ih s1 r e).touched_mono
          (V := fun h => ∃ v ∈ vert :: rest, 2 ≤ v.length ∧ h ∈ v)
          (fun h ⟨v, hv, hh⟩ => ⟨v, List.mem_cons_of_mem _ hv, hh⟩)
        exact c.touched_trans d

/-- What a call of `Finalise` leaves: the state the outer loop leaves, with
the flag set when the call returns true. -/
theorem Finalise_touched {s : CqSubdivision2} {r : CqSubdivision2 × Bool}
    (e : s.Finalise = some r) :
    ∃ t, Finalise.Touched (fun h => ∃ vert ∈ s.m_aapVertices, 2 ≤ vert.length ∧ h ∈ vert) s t ∧
      r.1 = { t with m_fFinalised := r.2 || s.m_fFinalised } := by
  unfold Finalise at e
  cases h1 : Finalise.loop s.m_aapVertices s with
  | none => rw [h1] at e; cases e
  | some r1 =>
    rw [h1] at e
    obtain ⟨s1, b⟩ := r1
    have c := Finalise.loop_touched _ s _ h1
    have hf : s1.m_fFinalised = s.m_fFinalised := by
      have := c.rest
      simp only at this
      rw [this]
    cases b with
    | false =>
      simp only [Option.some.injEq] at e
      subst e
      refine ⟨s1, c, ?_⟩
      simp only [Bool.false_or]
      rw [← hf]
    | true =>
      simp only [Option.some.injEq] at e
      subst e
      exact ⟨s1, c, rfl⟩

end CqSubdivision2
end Aqsis

namespace Aqsis
namespace CqSubdivision2

/-! ## What Finalise leaves alone -/

theorem AddFacet_flag {s : CqSubdivision2} {l : List Nat} {q : CqSubdivision2 × Nat}
    (e : s.AddFacet l = some q) : q.1.m_fFinalised = s.m_fFinalised := by
  have hr : ∀ v ∈ l, v < s.m_aapVertices.length := by
    unfold AddFacet at e
    cases h1 : AddFacet.loop l 0 s none none with
    | none => rw [h1] at e; cases e
    | some r => exact AddFacet.loop_some l 0 s none none r h1
  have hne : l ≠ [] := by
    rintro rfl
    simp [AddFacet, AddFacet.loop] at e
  rw [AddFacet_eq s l hne hr] at e
  simp only [Option.some.injEq] at e
  subst e
  rfl

/-- C34: `Finalise` changes nothing but vertex-neighbour links.  Whenever a
call returns, there are as many laths as before, every lath is the lath it was
with at most its vertex-neighbour link changed (so its vertex index and its
face-neighbour link are the same), the facet list, the adjacency table, the
sharpness maps and the attribute arrays are the same, and a lath that lies in
no adjacency list of two or more laths is the same lath as before.  In a
topology whose adjacency lists hold laths of their own vertex only (what
`AddFacet` builds) this says: no link is set on a lath whose vertex has fewer
than two incident laths. -/
theorem Finalise_changes_links_only {s : CqSubdivision2} {r : CqSubdivision2 × Bool}
    (e : s.Finalise = some r) :
    r.1.m_apLaths.length = s.m_apLaths.length ∧
    (∀ (h : Nat) (l : CqLath), s.m_apLaths[h]? = some l →
      ∃ o, r.1.m_apLaths[h]? = some { l with m_pClockwiseVertex := o }) ∧
    (∀ h, r.1.VertexIndex h = s.VertexIndex h ∧ r.1.cf h = s.cf h) ∧
    r.1.m_apFacets = s.m_apFacets ∧
    r.1.m_aapVertices = s.m_aapVertices ∧
    r.1.m_bInterpolateBoundary = s.m_bInterpolateBoundary ∧
    r.1.m_mapSharpEdges = s.m_mapSharpEdges ∧
    r.1.m_mapSharpCorners = s.m_mapSharpCorners ∧
    r.1.aUserParams = s.aUserParams ∧
    (∀ h, (∀ vert ∈ s.m_aapVertices, h ∈ vert → vert.length < 2) →
      r.1.m_apLaths[h]? = s.m_apLaths[h]?) ∧
    ((∀ (v : Nat) (a : List Nat) (h : Nat),
        s.m_aapVertices[v]? = some a → h ∈ a → s.VertexIndex h = some v) →
      ∀ (h v : Nat) (vert : List Nat), s.VertexIndex h = some v →
        s.m_aapVertices[v]? = some vert → vert.length < 2 → r.1.cv h = s.cv h) := by
  obtain ⟨t, ht, hr⟩ := Finalise_touched e
  have hrest := ht.rest
  have hl : r.1.m_apLaths = t.m_apLaths := by rw [hr]
  have hsame : ∀ h, (∀ vert ∈ s.m_aapVertices, h ∈ vert → vert.length < 2) →
      r.1.m_apLaths[h]? = s.m_apLaths[h]? := by
    intro h hh
    rw [hl]
    apply ht.same
    rintro ⟨vert, hv, h2, hm⟩
    have := hh vert hv hm
    omega
  refine ⟨by rw [hl]; exact ht.length, ?_, ?_, ?_, ?_, ?_, ?_, ?_, ?_, hsame, ?_⟩
  · intro h l hh
    rw [hl]
    exact ht.lath h l hh
  · intro h
    unfold VertexIndex cf lath
    rw [hl]
    cases hh : s.m_apLaths[h]? with
    | none =>
      have : t.m_apLaths[h]? = none := by
        rw [List.getElem?_eq_none_iff] at hh ⊢
        rw [ht.length]; exact hh
      rw [this]
      exact ⟨rfl, rfl⟩
    | some l =>
      obtain ⟨o, ho⟩ := ht.lath h l hh
      rw [ho]
      exact ⟨rfl, rfl⟩
  · rw [hr, hrest]
  · rw [hr, hrest]
  · rw [hr, hrest]
  · rw [hr, hrest]
  · rw [hr, hrest]
  · rw [hr, hrest]
  · intro hadj h v vert hv hvert hlen
    have := hsame h (by
      intro vert2 hv2 hm
      obtain ⟨i, hi⟩ := List.mem_iff_getElem?.mp hv2
      have h1 := hadj i vert2 h hi hm
      rw [hv] at h1
      have : v = i := Option.some.inj h1
      subst this
      rw [hvert] at hi
      rw [← Option.some.inj hi]
      exact hlen)
    unfold cv lath
    rw [this]

theorem Finalise_changes_links_only_witness :
    twoQuads.Finalise = some (twoQuads.finalised, true) ∧
    twoQuads.finalised.m_apLaths.length = twoQuads.m_apLaths.length ∧
    twoQuads.m_aapVertices[0]? = some [0] ∧
    twoQuads.finalised.m_apLaths[0]? = twoQuads.m_apLaths[0]? ∧
    twoQuads.finalised.m_aapVertices = twoQuads.m_aapVertices :=
  ⟨by decide!,
    (@Finalise_changes_links_only twoQuads (twoQuads.finalised, true) (by decide!)).1,
    by decide!,
    (@Finalise_changes_links_only twoQuads (twoQuads.finalised, true) (by decide!)).2.2.2.2.2.2.2.2.2.1
      0 (by decide!),
    (@Finalise_changes_links_only twoQuads (twoQuads.finalised, true) (by decide!)).2.2.2.2.1⟩

/-! ## The finalised flag -/

/-- C36 (as the code has it): a call of `Finalise` that returns false leaves
the flag as it was, and `AddFacet` does not clear it.  After `Prepare(4)`,
`AddFacet` of the quad 0, 1, 2, 3 and a call of `Finalise` that returns true,
two more `AddFacet` calls of the same quad make every vertex non-manifold:
the next call of `Finalise` returns false and the flag is still true. -/
theorem Finalise_false_keeps_flag :
    quadMesh.Finalise = some (quadMesh.finalised, true) ∧
      ((quadMesh.finalised.AddFacets [[0, 1, 2, 3], [0, 1, 2, 3]]).bind Finalise).map
        (fun r => (r.2, r.1.m_fFinalised)) = some (false, true) := by
  decide!

/-- C36 (amended): in every sequence of `Prepare`, `AddFacet` and `Finalise`
calls, a call of `Finalise` that returns true leaves the finalised flag true,
and a call that returns false leaves the flag as it was before the call;
`Prepare` clears the flag and `AddFacet` keeps it.  So the flag is false after
a call that returns false whenever no call of `Finalise` since the last
`Prepare` has returned true, as for a mesh built with `Prepare` and
`AddFacet` calls only. -/
theorem Finalise_flag {s : CqSubdivision2} {r : CqSubdivision2 × Bool}
    (e : s.Finalise = some r) :
    (r.2 = true → r.1.m_fFinalised = true) ∧
    (r.2 = false → r.1.m_fFinalised = s.m_fFinalised) ∧
    (∀ cVerts, (s.Prepare cVerts).m_fFinalised = false) ∧
    (∀ (pIndices : List Nat) (q : CqSubdivision2 × Nat),
      s.AddFacet pIndices = some q → q.1.m_fFinalised = s.m_fFinalised) ∧
    ((∃ params cVerts facets, buildMesh params cVerts facets = some s) →
      r.2 = false → r.1.m_fFinalised = false) := by
  obtain ⟨t, ht, hr⟩ := Finalise_touched e
  have hrest := ht.rest
  have hf : r.2 = false → r.1.m_fFinalised = s.m_fFinalised := by
    intro h
    rw [hr, h]
    rfl
  refine ⟨?_, hf, fun _ => rfl, fun _ _ h => AddFacet_flag h, ?_⟩
  · intro h
    rw [hr, h]
    rfl
  · rintro ⟨params, cVerts, facets, hb⟩ h
    rw [hf h]
    have : ∀ (fs : List (List Nat)) (a b : CqSubdivision2), a.AddFacets fs = some b →
        b.m_fFinalised = a.m_fFinalised := by
      intro fs
      induction fs with
      | nil => intro a b h; simp only [AddFacets, Option.some.injEq] at h; rw [h]
      | cons f rest ih =>
        intro a b h
        simp only [AddFacets] at h
        cases hq : a.AddFacet f with
        | none => rw [hq] at h; cases h
        | some q =>
          rw [hq] at h
          simp only [Option.bind] at h
          rw [ih _ _ h, AddFacet_flag hq]
    exact this _ _ _ hb

theorem Finalise_flag_witness :
    (buildMesh (positionsOnly 4) 4 [[0, 1, 2, 3], [0, 1, 2, 3], [0, 1, 2, 3]]).map Finalise =
        some (some ((buildMesh (positionsOnly 4) 4
          [[0, 1, 2, 3], [0, 1, 2, 3], [0, 1, 2, 3]]).getD (empty []), false)) ∧
      ((buildMesh (positionsOnly 4) 4
          [[0, 1, 2, 3], [0, 1, 2, 3], [0, 1, 2, 3]]).getD (empty [])).m_fFinalised = false :=
  ⟨by decide!,
    (@Finalise_flag ((buildMesh (positionsOnly 4) 4
        [[0, 1, 2, 3], [0, 1, 2, 3], [0, 1, 2, 3]]).getD (empty []))
      ((buildMesh (positionsOnly 4) 4
        [[0, 1, 2, 3], [0, 1, 2, 3], [0, 1, 2, 3]]).getD (empty []), false)
      (by decide!)).2.2.2.2 ⟨_, _, _, (by decide! :
        buildMesh (positionsOnly 4) 4 [[0, 1, 2, 3], [0, 1, 2, 3], [0, 1, 2, 3]] = some _)⟩ rfl⟩

end CqSubdivision2
end Aqsis

namespace Aqsis
namespace CqSubdivision2

/-! ## Finalise terminates -/

theorem count_false_set (l : List Bool) :
    ∀ (i : Nat), l[i]? = some false → (l.set i true).count false + 1 = l.count false := by
  induction l with
  | nil => intro i h; simp at h
  | cons b rest ih =>
    intro i h
    cases i with
    | zero =>
      simp only [List.getElem?_cons_zero, Option.some.injEq] at h
      subst h
      simp
    | succ j =>
      simp only [List.getElem?_cons_succ] at h
      have := ih j h
      cases b <;> simp [List.set_cons_succ, List.count_cons] <;> omega

theorem count_false_set_true (l : List Bool) :
    ∀ (i : Nat), l[i]? = some true → (l.set i true).count false = l.count false := by
  induction l with
  | nil => intro i h; simp at h
  | cons b rest ih =>
    intro i h
    cases i with
    | zero =>
      simp only [List.getElem?_cons_zero, Option.some.injEq] at h
      subst h
      simp
    | succ j =>
      simp only [List.getElem?_cons_succ] at h
      have := ih j h
      cases b <;> simp [List.set_cons_succ, List.count_cons] <;> omega

theorem count_false_pos (l : List Bool) (i : Nat) (h : l[i]? = some false) :
    0 < l.count false := by
  have := count_false_set l i h
  omega

theorem Finalise.scan_cases (vert : List Nat) (aVisited : List Bool) (key : Nat → Option Nat)
    (κ : Nat → Nat) (target : Nat) (hlen : aVisited.length = vert.length)
    (hkey : ∀ h ∈ vert, key h = some (κ h)) :
    Finalise.scan vert aVisited key target (List.range vert.length) = some none ∨
      ∃ i h, Finalise.scan vert aVisited key target (List.range vert.length) = some (some i) ∧
        vert[i]? = some h ∧ aVisited[i]? = some false ∧ κ h = target := by
  rw [Finalise.scan_eq_find vert aVisited key κ target hlen hkey _
    (fun i hi => List.mem_range.mp hi)]
  cases hf : (List.range vert.length).find?
      (fun i => !(aVisited.getD i true) && decide (κ (vert.getD i 0) = target)) with
  | none => exact Or.inl rfl
  | some i =>
    right
    have hp := List.find?_some hf
    have hm := List.mem_range.mp (List.mem_of_find?_eq_some hf)
    simp only [Bool.and_eq_true, Bool.not_eq_true', decide_eq_true_eq] at hp
    have hia : i < aVisited.length := by omega
    refine ⟨i, vert[i], rfl, List.getElem?_eq_getElem hm, ?_, ?_⟩
    · have := hp.1
      rw [List.getD_eq_getElem?_getD, List.getElem?_eq_getElem hia] at this
      rw [List.getElem?_eq_getElem hia]
      simpa using this
    · have := hp.2
      rw [List.getD_eq_getElem?_getD, List.getElem?_eq_getElem hm] at this
      simpa using this

section
variable (vert : List Nat) (κo κi : Nat → Nat)

theorem Finalise.keys_write {s s1 : CqSubdivision2} {X : Nat} {o : Option Nat}
    (hk : ∀ h ∈ vert, h < s.m_apLaths.length ∧ s.outKey h = some (κo h) ∧
      s.innKey h = some (κi h))
    (e : s.setLath X (fun l => { l with m_pClockwiseVertex := o }) = some s1) :
    ∀ h ∈ vert, h < s1.m_apLaths.length ∧ s1.outKey h = some (κo h) ∧
      s1.innKey h = some (κi h) := by
  intro h hh
  obtain ⟨a, b, c⟩ := hk h hh
  have hc := setLath_dropCF e (fun _ => rfl)
  exact ⟨by rw [setLath_length e]; exact a, by rw [outKey_of_dropCF hc]; exact b,
    by rw [innKey_of_dropCF hc]; exact c⟩

/-- The forward loop returns within one iteration more than there are
unvisited positions. -/
theorem Finalise.forward_returns :
    ∀ (fuel : Nat) (s : CqSubdivision2) (aVisited : List Bool) (cVisited pCurrent : Nat),
      aVisited.length = vert.length → pCurrent ∈ vert →
      (∀ h ∈ vert, h < s.m_apLaths.length ∧ s.outKey h = some (κo h) ∧
        s.innKey h = some (κi h)) →
      aVisited.count false < fuel →
      ∃ r, Finalise.forward vert fuel s aVisited cVisited pCurrent = some r ∧
        (∀ h ∈ vert, h < r.1.m_apLaths.length ∧ r.1.outKey h = some (κo h) ∧
          r.1.innKey h = some (κi h)) ∧
        r.2.1.length = vert.length ∧ r.2.2.2 ∈ vert := by
  intro fuel
  induction fuel with
  | zero => intro s aVisited cVisited pCurrent _ _ _ h; omega
  | succ f ih =>
    intro s aVisited cVisited pCurrent hlen hp hk hc
    simp only [Finalise.forward]
    have h1 : (s.ccf pCurrent).bind s.VertexIndex = some (κi pCurrent) := (hk _ hp).2.2
    rw [h1]
    simp only
    rcases Finalise.scan_cases vert aVisited (fun h => (s.cfD h).bind s.VertexIndex) κo
        (κi pCurrent) hlen (fun h hh => (hk h hh).2.1) with h2 | ⟨i, h, h2, h3, h4, _⟩
    · rw [h2]
      exact ⟨_, rfl, hk, hlen, hp⟩
    · rw [h2]
      simp only [h3]
      have h5 := setLath_of_lt s (fun l => { l with m_pClockwiseVertex := some h })
        (hk _ hp).1
      rw [h5]
      simp only
      have hk1 := Finalise.keys_write vert κo κi hk h5
      have hcount := count_false_set aVisited i h4
      exact ih _ (aVisited.set i true) (cVisited + 1) h (by simp [hlen])
        (List.mem_iff_getElem?.mpr ⟨_, h3⟩) hk1 (by omega)

/-- The backward loop returns within twice as many iterations as there are
positions. -/
theorem Finalise.backward_returns :
    ∀ (fuel : Nat) (s : CqSubdivision2) (aVisited : List Bool) (cVisited pStart iStart : Nat),
      aVisited.length = vert.length → vert[iStart]? = some pStart →
      (∀ h ∈ vert, h < s.m_apLaths.length ∧ s.outKey h = some (κo h) ∧
        s.innKey h = some (κi h)) →
      2 * aVisited.count false < fuel + (if aVisited[iStart]? = some false then 1 else 0) →
      ∃ r, Finalise.backward vert fuel s aVisited cVisited pStart iStart = some r ∧
        (∀ h ∈ vert, h < r.1.m_apLaths.length ∧ r.1.outKey h = some (κo h) ∧
          r.1.innKey h = some (κi h)) := by
  intro fuel
  induction fuel with
  | zero =>
    intro s aVisited cVisited pStart iStart _ _ _ h
    split at h
    · next hf => have := count_false_pos _ _ hf; omega
    · omega
  | succ f ih =>
    intro s aVisited cVisited pStart iStart hlen hp hk hc
    have hpm : pStart ∈ vert := List.mem_iff_getElem?.mpr ⟨_, hp⟩
    simp only [Finalise.backward]
    have h1 : (s.cfD pStart).bind s.VertexIndex = some (κo pStart) := (hk _ hpm).2.1
    rw [h1]
    simp only
    rcases Finalise.scan_cases vert aVisited (fun h => (s.ccf h).bind s.VertexIndex) κi
        (κo pStart) hlen (fun h hh => (hk h hh).2.2) with h2 | ⟨i, h, h2, h3, h4, _⟩
    · rw [h2]
      exact ⟨_, rfl, hk⟩
    · rw [h2]
      simp only [h3]
      have hhm : h ∈ vert := List.mem_iff_getElem?.mpr ⟨_, h3⟩
      have h5 := setLath_of_lt s (fun l => { l with m_pClockwiseVertex := some pStart })
        (hk _ hhm).1
      rw [h5]
      simp only
      have hk1 := Finalise.keys_write vert κo κi hk h5
      have hsl : iStart < aVisited.length := by
        rw [hlen]
        exact (List.getElem?_eq_some.mp hp).1
      apply ih _ (aVisited.set iStart true) (cVisited + 1) h i (by simp [hlen]) h3 hk1
      by_cases hii : i = iStart
      · subst hii
        have hcount := count_false_set aVisited i h4
        rw [h4] at hc
        simp only [if_true] at hc
        have : (aVisited.set i true)[i]? = some true := by
          simp [List.getElem?_set, hsl]
        rw [this]
        simp only [Option.some.injEq, Bool.true_eq_false, if_false]
        omega
      · have hi2 : (aVisited.set iStart true)[i]? = some false := by
          rw [List.getElem?_set_ne (fun e => hii e.symm)]
          exact h4
        rw [hi2]
        simp only [if_true]
        cases hb : aVisited[iStart] with
        | false =>
          have hs : aVisited[iStart]? = some false := by
            rw [List.getElem?_eq_getElem hsl, hb]
          have hcount := count_false_set aVisited iStart hs
          rw [hs] at hc
          simp only [if_true] at hc
          omega
        | true =>
          have hs : aVisited[iStart]? = some true := by
            rw [List.getElem?_eq_getElem hsl, hb]
          have hcount := count_false_set_true aVisited iStart hs
          rw [hs] at hc
          simp only [Option.some.injEq, Bool.true_eq_false, if_false] at hc
          omega

/-- The backward loop at a vertex none of whose laths has the same vertex
before and after it in its facet returns within one iteration more than there
are unvisited positions other than the current one. -/
theorem Finalise.backward_plain (hne : ∀ h ∈ vert, κo h ≠ κi h) :
    ∀ (fuel : Nat) (s : CqSubdivision2) (aVisited : List Bool) (cVisited pStart iStart : Nat),
      aVisited.length = vert.length → vert[iStart]? = some pStart →
      (∀ h ∈ vert, h < s.m_apLaths.length ∧ s.outKey h = some (κo h) ∧
        s.innKey h = some (κi h)) →
      aVisited.count false < fuel + (if aVisited[iStart]? = some false then 1 else 0) →
      ∃ r, Finalise.backward vert fuel s aVisited cVisited pStart iStart = some r := by
  intro fuel
  induction fuel with
  | zero =>
    intro s aVisited cVisited pStart iStart _ _ _ h
    split at h
    · next hf => have := count_false_pos _ _ hf; omega
    · omega
  | succ f ih =>
    intro s aVisited cVisited pStart iStart hlen hp hk hc
    have hpm : pStart ∈ vert := List.mem_iff_getElem?.mpr ⟨_, hp⟩
    simp only [Finalise.backward]
    have h1 : (s.cfD pStart).bind s.VertexIndex = some (κo pStart) := (hk _ hpm).2.1
    rw [h1]
    simp only
    rcases Finalise.scan_cases vert aVisited (fun h => (s.ccf h).bind s.VertexIndex) κi
        (κo pStart) hlen (fun h hh => (hk h hh).2.2) with h2 | ⟨i, h, h2, h3, h4, h6⟩
    · rw [h2]
      exact ⟨_, rfl⟩
    · rw [h2]
      simp only [h3]
      have hhm : h ∈ vert := List.mem_iff_getElem?.mpr ⟨_, h3⟩
      have h5 := setLath_of_lt s (fun l => { l with m_pClockwiseVertex := some pStart })
        (hk _ hhm).1
      rw [h5]
      simp only
      have hk1 := Finalise.keys_write vert κo κi hk h5
      have hsl : iStart < aVisited.length := by
        rw [hlen]
        exact (List.getElem?_eq_some.mp hp).1
      apply ih _ (aVisited.set iStart true) (cVisited + 1) h i (by simp [hlen]) h3 hk1
      have hii : i ≠ iStart := by
        rintro rfl
        rw [h3] at hp
        have : h = pStart := Option.some.inj hp
        subst this
        exact hne h hhm h6.symm
      have hi2 : (aVisited.set iStart true)[i]? = some false := by
        rw [List.getElem?_set_ne (fun e => hii e.symm)]
        exact h4
      rw [hi2]
      simp only [if_true]
      cases hb : aVisited[iStart] with
      | false =>
        have hs : aVisited[iStart]? = some false := by
          rw [List.getElem?_eq_getElem hsl, hb]
        have hcount := count_false_set aVisited iStart hs
        rw [hs] at hc
        simp only [if_true] at hc
        omega
      | true =>
        have hs : aVisited[iStart]? = some true := by
          rw [List.getElem?_eq_getElem hsl, hb]
        have hcount := count_false_set_true aVisited iStart hs
        rw [hs] at hc
        simp only [Option.some.injEq, Bool.true_eq_false, if_false] at hc
        omega

end

/-- More iterations than needed change nothing. -/
theorem Finalise.forward_more (vert : List Nat) :
    ∀ (fuel : Nat) (s : CqSubdivision2) (aVisited : List Bool) (cVisited pCurrent : Nat)
      (r : CqSubdivision2 × List Bool × Nat × Nat),
      Finalise.forward vert fuel s aVisited cVisited pCurrent = some r →
      ∀ d, Finalise.forward vert (fuel + d) s aVisited cVisited pCurrent = some r := by
  intro fuel
  induction fuel with
  | zero => intro s aVisited cVisited pCurrent r e; cases e
  | succ f ih =>
    intro s aVisited cVisited pCurrent r e d
    rw [show f + 1 + d = (f + d) + 1 by omega]
    simp only [Finalise.forward] at e ⊢
    cases h1 : (s.ccf pCurrent).bind s.VertexIndex with
    | none => rw [h1] at e; cases e
    | some ccwVertex =>
      rw [h1] at e
      simp only at e ⊢
      cases h2 : Finalise.scan vert aVisited (fun h => (s.cfD h).bind s.VertexIndex) ccwVertex
          (List.range vert.length) with
      | none => rw [h2] at e; cases e
      | some o =>
        rw [h2] at e
        cases o with
        | none => exact e
        | some iLath =>
          simp only at e ⊢
          cases h3 : vert[iLath]? with
          | none => rw [h3] at e; cases e
          | some h =>
            rw [h3] at e
            simp only at e ⊢
            cases h4 : s.setLath pCurrent (fun l => { l with m_pClockwiseVertex := some h }) with
            | none => rw [h4] at e; cases e
            | some s1 =>
              rw [h4] at e
              simp only at e ⊢
              exact ih s1 _ _ _ r e d

theorem Finalise.backward_more (vert : List Nat) :
    ∀ (fuel : Nat) (s : CqSubdivision2) (aVisited : List Bool) (cVisited pStart iStart : Nat)
      (r : CqSubdivision2 × List Bool × Nat × Nat × Nat),
      Finalise.backward vert fuel s aVisited cVisited pStart iStart = some r →
      ∀ d, Finalise.backward vert (fuel + d) s aVisited cVisited pStart iStart = some r := by
  intro fuel
  induction fuel with
  | zero => intro s aVisited cVisited pStart iStart r e; cases e
  | succ f ih =>
    intro s aVisited cVisited pStart iStart r e d
    rw [show f + 1 + d = (f + d) + 1 by omega]
    simp only [Finalise.backward] at e ⊢
    cases h1 : (s.cfD pStart).bind s.VertexIndex with
    | none => rw [h1] at e; cases e
    | some cwVertex =>
      rw [h1] at e
      simp only at e ⊢
      cases h2 : Finalise.scan vert aVisited (fun h => (s.ccf h).bind s.VertexIndex) cwVertex
          (List.range vert.length) with
      | none => rw [h2] at e; cases e
      | some o =>
        rw [h2] at e
        cases o with
        | none => exact e
        | some iLath =>
          simp only at e ⊢
          cases h3 : vert[iLath]? with
          | none => rw [h3] at e; cases e
          | some h =>
            rw [h3] at e
            simp only at e ⊢
            cases h4 : s.setLath h (fun l => { l with m_pClockwiseVertex := some pStart }) with
            | none => rw [h4] at e; cases e
            | some s1 =>
              rw [h4] at e
              simp only at e ⊢
              exact ih s1 _ _ _ _ r e d

theorem count_false_le (l : List Bool) : l.count false ≤ l.length := List.count_le_length _ _

theorem count_false_of_true (l : List Bool) :
    ∀ (i : Nat), l[i]? = some true → l.count false < l.length := by
  induction l with
  | nil => intro i h; simp at h
  | cons b rest ih =>
    intro i h
    cases i with
    | zero =>
      simp only [List.getElem?_cons_zero, Option.some.injEq] at h
      subst h
      have := List.count_le_length false rest
      simp
      omega
    | succ j =>
      simp only [List.getElem?_cons_succ] at h
      have := ih j h
      cases b <;> simp [List.count_cons] <;> omega

theorem count_false_lt (l : List Bool) (i : Nat) (h : i < l.length) :
    l.count false < l.length + (if l[i]? = some false then 1 else 0) := by
  rw [List.getElem?_eq_getElem h]
  cases hb : l[i] with
  | false => simp; have := List.count_le_length false l; omega
  | true =>
    simp only [Option.some.injEq, Bool.true_eq_false, if_false, Nat.add_zero]
    have hs : l[i]? = some true := by rw [List.getElem?_eq_getElem h, hb]
    exact count_false_of_true l i hs

theorem Finalise.vertex_returns {s : CqSubdivision2} {vert : List Nat} (κo κi : Nat → Nat)
    (hk : ∀ h ∈ vert, h < s.m_apLaths.length ∧ s.outKey h = some (κo h) ∧
      s.innKey h = some (κi h)) :
    ∃ r, Finalise.vertex s vert = some r := by
  unfold Finalise.vertex
  simp only
  by_cases hc : vert.length ≤ 1
  · rw [if_pos hc]
    exact ⟨_, rfl⟩
  · rw [if_neg hc]
    have h0 : vert[0]? = some vert[0] := List.getElem?_eq_getElem (by omega)
    rw [h0]
    simp only
    obtain ⟨r1, e1, hk1, hl1, hp1⟩ := Finalise.forward_returns vert κo κi
      (2 * vert.length + 2) s (List.replicate vert.length false) 0 vert[0] (by simp)
      (List.getElem_mem _) hk (by simp; omega)
    rw [e1]
    obtain ⟨s1, aV1, cV1, pC⟩ := r1
    simp only at hk1 hl1 hp1 ⊢
    obtain ⟨pcv, hcv⟩ : ∃ pcv, s1.cv pC = some pcv := by
      unfold cv lath
      rw [List.getElem?_eq_getElem (hk1 _ hp1).1]
      exact ⟨_, rfl⟩
    rw [hcv]
    simp only
    by_cases hp : pcv = none
    · rw [if_pos hp]
      obtain ⟨r2, e2, _⟩ := Finalise.backward_returns vert κo κi (2 * vert.length + 2) s1 aV1
        cV1 vert[0] 0 hl1 h0 hk1 (by have := count_false_le aV1; omega)
      rw [e2]
      obtain ⟨s2, aV2, cV2, pS2, iS2⟩ := r2
      simp only
      split
      · exact ⟨_, rfl⟩
      · exact ⟨_, rfl⟩
    · rw [if_neg hp]
      simp only
      split
      · exact ⟨_, rfl⟩
      · exact ⟨_, rfl⟩

theorem Finalise.loop_returns (κo κi : Nat → Nat) :
    ∀ (verts : List (List Nat)) (s : CqSubdivision2),
      (∀ vert ∈ verts, ∀ h ∈ vert, h < s.m_apLaths.length ∧ s.outKey h = some (κo h) ∧
        s.innKey h = some (κi h)) →
      ∃ r, Finalise.loop verts s = some r := by
  intro verts
  induction verts with
  | nil => intro s _; exact ⟨_, rfl⟩
  | cons vert rest ih =>
    intro s hk
    simp only [Finalise.loop]
    obtain ⟨r1, e1⟩ := Finalise.vertex_returns κo κi (hk vert (List.mem_cons_self _ _))
    rw [e1]
    obtain ⟨s1, b⟩ := r1
    cases b with
    | false => exact ⟨_, rfl⟩
    | true =>
      simp only
      have hc := (Finalise.vertex_core e1).1
      simp only at hc
      apply ih
      intro v hv h hh
      obtain ⟨a, b, c⟩ := hk v (List.mem_cons_of_mem _ hv) h hh
      have hlen : s1.m_apLaths.length = s.m_apLaths.length := by
        have := congrArg List.length hc
        simpa using this
      exact ⟨by rw [hlen]; exact a, by rw [outKey_of_dropCF hc]; exact b,
        by rw [innKey_of_dropCF hc]; exact c⟩

theorem Fresh.keys {s : CqSubdivision2} (hs : s.Fresh) :
    ∀ vert ∈ s.m_aapVertices, ∀ h ∈ vert, h < s.m_apLaths.length ∧
      s.outKey h = some ((s.outKey h).getD 0) ∧ s.innKey h = some ((s.innKey h).getD 0) := by
  intro vert hv h hh
  obtain ⟨i, hi⟩ := List.mem_iff_getElem?.mp hv
  have hlt := hs.mem_adj_lt hi hh
  exact ⟨hlt, hs.outKey_some hlt, hs.innKey_some hlt⟩

theorem Fresh.Finalise_returns {s : CqSubdivision2} (hs : s.Fresh) :
    ∃ r, s.Finalise = some r := by
  obtain ⟨r1, e1⟩ := Finalise.loop_returns _ _ s.m_aapVertices s hs.keys
  unfold Finalise
  rw [e1]
  obtain ⟨s1, b⟩ := r1
  cases b with
  | false => exact ⟨_, rfl⟩
  | true => exact ⟨_, rfl⟩

end CqSubdivision2
end Aqsis

namespace Aqsis
namespace CqSubdivision2

/-! ## Finalise terminates -/

/-- C35 (as the code has it): the backward loop marks the position it leaves,
not the position it finds, so a lath that has the same vertex before and after
it in its facet is found twice: once from the previous start and once from
itself.  At vertex 0 of `pinchedFan`, which has the three incident laths 0, 3
and 7, the forward loop ends in its first iteration with nothing linked, and
the backward loop is not done after 4 iterations; it returns in its fifth. -/
theorem Finalise_backward_exceeds_bound :
    pinchedFan.m_aapVertices[0]? = some [0, 3, 7] ∧
      Finalise.forward [0, 3, 7] 4 pinchedFan [false, false, false] 0 0 =
        some (pinchedFan, [false, false, false], 0, 0) ∧
      pinchedFan.cv 0 = some none ∧
      Finalise.backward [0, 3, 7] 4 pinchedFan [false, false, false] 0 0 0 = none ∧
      (Finalise.backward [0, 3, 7] 5 pinchedFan [false, false, false] 0 0 0).map
        (fun r => (r.2.1, r.2.2.1)) = some ([true, true, true], 4) := by
  decide!

/-- C35 (amended): `Finalise` returns on every topology built by `Prepare` and
`AddFacet`, non-manifold and degenerate ones included.  In every state the call
passes through (the laths of the built mesh with any vertex-neighbour links),
at a vertex with `k` incident laths the forward matching loop returns within
`k + 1` iterations and the backward matching loop within `2 * k` iterations,
whatever the visited flags and the current lath; the backward loop returns
within `k + 1` iterations when no lath at the vertex has the same vertex
before and after it in its facet.  The result is the one the loop of the model,
which allows `2 * k + 2` iterations, computes. -/
theorem Finalise_terminates {params : List (List CqParameter)} {cVerts : Nat}
    {facets : List (List Nat)} {s : CqSubdivision2}
    (hb : buildMesh params cVerts facets = some s) :
    (∃ r, s.Finalise = some r) ∧
    ∀ (t : CqSubdivision2) (vert : List Nat), vert ∈ s.m_aapVertices →
      t.m_apLaths.map CqLath.dropCF = s.m_apLaths.map CqLath.dropCF →
      ∀ (aVisited : List Bool) (cVisited : Nat), aVisited.length = vert.length →
        (∀ pCurrent ∈ vert, ∃ r,
          Finalise.forward vert (vert.length + 1) t aVisited cVisited pCurrent = some r ∧
          Finalise.forward vert (2 * vert.length + 2) t aVisited cVisited pCurrent = some r) ∧
        (∀ (iStart pStart : Nat), vert[iStart]? = some pStart →
          (∃ r, Finalise.backward vert (2 * vert.length) t aVisited cVisited pStart iStart =
              some r ∧
            Finalise.backward vert (2 * vert.length + 2) t aVisited cVisited pStart iStart =
              some r) ∧
          ((∀ h ∈ vert, s.outKey h ≠ s.innKey h) →
            ∃ r, Finalise.backward vert (vert.length + 1) t aVisited cVisited pStart iStart =
                some r ∧
              Finalise.backward vert (2 * vert.length + 2) t aVisited cVisited pStart iStart =
                some r)) := by
  have hs : s.Fresh := Fresh.buildMesh hb
  refine ⟨hs.Finalise_returns, ?_⟩
  intro t vert hv hc aVisited cVisited hlen
  have hk : ∀ h ∈ vert, h < t.m_apLaths.length ∧ t.outKey h = some ((s.outKey h).getD 0) ∧
      t.innKey h = some ((s.innKey h).getD 0) := by
    intro h hh
    obtain ⟨a, b, c⟩ := hs.keys vert hv h hh
    have hl : t.m_apLaths.length = s.m_apLaths.length := by
      have := congrArg List.length hc
      simpa using this
    exact ⟨by rw [hl]; exact a, by rw [outKey_of_dropCF hc]; exact b,
      by rw [innKey_of_dropCF hc]; exact c⟩
  constructor
  · intro pCurrent hp
    obtain ⟨r, e, _⟩ := Finalise.forward_returns vert _ _ (vert.length + 1) t aVisited cVisited
      pCurrent hlen hp hk (by have := count_false_le aVisited; omega)
    refine ⟨r, e, ?_⟩
    have := Finalise.forward_more vert _ t aVisited cVisited pCurrent r e (vert.length + 1)
    rw [show vert.length + 1 + (vert.length + 1) = 2 * vert.length + 2 by omega] at this
    exact this
  · intro iStart pStart hp
    have hsl : iStart < aVisited.length := by
      rw [hlen]
      exact (List.getElem?_eq_some.mp hp).1
    have hlt := count_false_lt aVisited iStart hsl
    constructor
    · obtain ⟨r, e, _⟩ := Finalise.backward_returns vert _ _ (2 * vert.length) t aVisited
        cVisited pStart iStart hlen hp hk (by
          have := count_false_le aVisited
          split at hlt
          · next h => rw [if_pos h]; omega
          · next h => rw [if_neg h]; omega)
      refine ⟨r, e, ?_⟩
      exact Finalise.backward_more vert _ t aVisited cVisited pStart iStart r e 2
    · intro hne
      obtain ⟨r, e⟩ := Finalise.backward_plain vert _ _ (fun h hh e => by
          apply hne h hh
          obtain ⟨_, b, c⟩ := hs.keys vert hv h hh
          rw [b, c, e]) (vert.length + 1) t aVisited
        cVisited pStart iStart hlen hp hk (by rw [← hlen]; omega)
      refine ⟨r, e, ?_⟩
      have := Finalise.backward_more vert _ t aVisited cVisited pStart iStart r e
        (vert.length + 1)
      rw [show vert.length + 1 + (vert.length + 1) = 2 * vert.length + 2 by omega] at this
      exact this

theorem Finalise_terminates_witness :
    buildMesh (positionsOnly 5) 5 [[0, 1, 2], [0, 2, 3, 2], [0, 2, 4, 2]] = some pinchedFan ∧
      ∃ r, pinchedFan.Finalise = some r :=
  ⟨by decide!, (Finalise_terminates (by decide! :
    buildMesh (positionsOnly 5) 5 [[0, 1, 2], [0, 2, 3, 2], [0, 2, 4, 2]] = some pinchedFan)).1⟩

end CqSubdivision2
end Aqsis

namespace Aqsis
namespace CqSurfaceSubdivisionPatch

open CqSubdivision2

/-! ## The value Split returns -/

/-- C39 does not hold of the code: `CqSurfaceSubdivisionPatch::Split` returns
`aSplits.size()`, the size of the whole list after the call, where
`CqSurfaceSubdivisionMesh::Split` returns the count of the surfaces it
created.  Whenever the call returns, the list is the list passed in followed
by the surfaces this call appended, and the value returned is the number of
surfaces passed in plus the number appended: the number appended only for an
empty list. -/
theorem Split_returns_list_size (Qff : CqSubdivision2 → Nat → Option (List Nat)) (depth : Nat)
    (s : CqSubdivision2) (p : CqSurfaceSubdivisionPatch) (aSplits : List CqBasicSurface)
    (r : CqSubdivision2 × List CqBasicSurface × Nat)
    (e : Split Qff depth s p aSplits = some r) :
    ∃ appended, r.2.1 = aSplits ++ appended ∧ r.2.2 = aSplits.length + appended.length ∧
      (r.2.2 = appended.length ↔ aSplits = []) := by
  have key : ∀ appended : List CqBasicSurface,
      ((aSplits ++ appended).length = aSplits.length + appended.length) ∧
      ((aSplits ++ appended).length = appended.length ↔ aSplits = []) := by
    intro appended
    refine ⟨by simp, ?_⟩
    rw [List.length_append]
    constructor
    · intro h
      exact List.length_eq_zero.mp (by omega)
    · rintro rfl
      simp
  unfold Split at e
  cases hc : s.CanUsePatch Qff p.m_pFace with
  | none => rw [hc] at e; cases e
  | some patch =>
    rw [hc] at e
    simp only [Option.bind] at e
    cases patch with
    | true =>
      simp only [if_true] at e
      cases ha : Split.aiVertices s p.m_pFace with
      | none => rw [ha] at e; cases e
      | some ai =>
        rw [ha] at e
        simp only [Option.map_some', Option.some.injEq] at e
        subst e
        exact ⟨[Split.surface ai s.aUserParams.length], rfl, (key _).1, (key _).2⟩
    | false =>
      simp only [Bool.false_eq_true, if_false] at e
      cases ha : SubdivideFace Qff depth s p.m_pFace with
      | none => rw [ha] at e; cases e
      | some q =>
        rw [ha] at e
        simp only [Option.map_some', Option.some.injEq] at e
        subst e
        exact ⟨q.2.map CqBasicSurface.subdivisionPatch, rfl, (key _).1, (key _).2⟩

theorem Split_returns_list_size_witness :
    Split CqSubdivision2.Qff 1 torus.finalised patch0 [CqBasicSurface.subdivisionPatch 4] =
        some (torus.finalised,
          [CqBasicSurface.subdivisionPatch 4,
            CqBasicSurface.bicubic ⟨[8, 2, 5, 8, 6, 0, 3, 6, 7, 1, 4, 7, 8, 2, 5, 8], 0⟩], 2) ∧
      ∃ appended,
        [CqBasicSurface.subdivisionPatch 4,
            CqBasicSurface.bicubic ⟨[8, 2, 5, 8, 6, 0, 3, 6, 7, 1, 4, 7, 8, 2, 5, 8], 0⟩] =
          [CqBasicSurface.subdivisionPatch 4] ++ appended ∧
        2 = [CqBasicSurface.subdivisionPatch 4].length + appended.length ∧
        (2 = appended.length ↔ [CqBasicSurface.subdivisionPatch 4] = []) :=
  ⟨by decide!,
    Split_returns_list_size CqSubdivision2.Qff 1 torus.finalised patch0
      [CqBasicSurface.subdivisionPatch 4]
      (torus.finalised,
        [CqBasicSurface.subdivisionPatch 4,
          CqBasicSurface.bicubic ⟨[8, 2, 5, 8, 6, 0, 3, 6, 7, 1, 4, 7, 8, 2, 5, 8], 0⟩], 2)
      (by decide!)⟩

end CqSurfaceSubdivisionPatch
end Aqsis

namespace Aqsis
namespace CqSurfaceSubdivisionPatch

open CqSubdivision2

/-! ## The raster extents of Diceable -/

theorem Magnitude2_nonneg (v : ℚ × ℚ) : 0 ≤ Magnitude2 v := by
  unfold Magnitude2
  nlinarith [mul_self_nonneg v.1, mul_self_nonneg v.2]

/-- C38 does not hold of the code: the two axes are not measured the same
way.  The squared u extent is the larger of the squared lengths of
`hull[1] - hull[0]` and `hull[2] - hull[3]`, but for the v extent the second
vector is `avecHull[ 1 ] - avecHull[ 1 ]`, the zero vector, so the squared v
extent is the squared length of `hull[3] - hull[0]` alone and the hull edge
from `hull[1]` to `hull[2]` is never measured.  On the raster trapezium of
`trapeziumContext` that edge has squared length 64 and the measured one has
squared length 1: `Diceable` stores the v dice size 1 where the larger of the
two edges gives 8. -/
theorem Diceable_v_extent_ignores_far_edge :
    (∀ (ctx : DiceContext) (h0 h1 h2 h3 : ℚ × ℚ),
      Diceable.uLen ctx h0 h1 h2 h3 =
        ctx.sqrt (max (Magnitude2 (vsub h1 h0)) (Magnitude2 (vsub h2 h3)) / ctx.ShadingRate)) ∧
    (∀ (ctx : DiceContext) (h0 h1 h3 : ℚ × ℚ),
      Diceable.vLen ctx h0 h1 h3 = ctx.sqrt (Magnitude2 (vsub h3 h0) / ctx.ShadingRate)) ∧
    CqSubdivision2.quadMesh.finalised.Qfv patch0.m_pFace = some [0, 3, 2, 1] ∧
    Magnitude2 (vsub (trapeziumContext.raster 1) (trapeziumContext.raster 0)) = 1 ∧
    Magnitude2 (vsub (trapeziumContext.raster 2) (trapeziumContext.raster 3)) = 64 ∧
    Diceable trapeziumContext CqSubdivision2.Qff CqSubdivision2.quadMesh.finalised patch0 =
      some (⟨0, true, false, EqSplitDir.SplitDir_U, 8, 1⟩, true) := by
  refine ⟨?_, ?_, by decide!, by decide!, by decide!, by decide!⟩
  · intro ctx h0 h1 h2 h3
    unfold Diceable.uLen
    simp only
    congr 2
    by_cases h : Magnitude2 (vsub h1 h0) > Magnitude2 (vsub h2 h3)
    · rw [if_pos h, max_eq_left (le_of_lt h)]
    · rw [if_neg h, max_eq_right (not_lt.mp h)]
  · intro ctx h0 h1 h3
    unfold Diceable.vLen
    simp only
    congr 2
    have hz : Magnitude2 (vsub h1 h1) = 0 := by simp [Magnitude2, vsub]
    rw [hz]
    by_cases h : Magnitude2 (vsub h3 h0) > 0
    · rw [if_pos h]
    · rw [if_neg h]
      exact le_antisymm (Magnitude2_nonneg _) (not_lt.mp h)

end CqSurfaceSubdivisionPatch
end Aqsis

namespace Aqsis
namespace CqTextureMapBuffer

/-! ## Texture map buffers -/

theorem index_inj {W S x y s x' y' s' : Nat} (hx : x < W) (hs : s < S) (hx' : x' < W)
    (hs' : s' < S) (e : y * (W * S) + x * S + s = y' * (W * S) + x' * S + s') :
    x = x' ∧ y = y' ∧ s = s' := by
  have e1 : (y * W + x) * S + s = (y' * W + x') * S + s' := by
    have a : (y * W + x) * S + s = y * (W * S) + x * S + s := by ring
    have b : (y' * W + x') * S + s' = y' * (W * S) + x' * S + s' := by ring
    rw [a, b, e]
  have hS : 0 < S := by omega
  have hW : 0 < W := by omega
  have m1 : ((y * W + x) * S + s) % S = s := by
    rw [Nat.add_comm, Nat.add_mul_mod_self_right, Nat.mod_eq_of_lt hs]
  have m2 : ((y' * W + x') * S + s') % S = s' := by
    rw [Nat.add_comm, Nat.add_mul_mod_self_right, Nat.mod_eq_of_lt hs']
  have d1 : ((y * W + x) * S + s) / S = y * W + x := by
    rw [Nat.add_comm, Nat.add_mul_div_right _ _ hS, Nat.div_eq_of_lt hs, Nat.zero_add]
  have d2 : ((y' * W + x') * S + s') / S = y' * W + x' := by
    rw [Nat.add_comm, Nat.add_mul_div_right _ _ hS, Nat.div_eq_of_lt hs', Nat.zero_add]
  have es : s = s' := by rw [← m1, ← m2, e1]
  have e2 : y * W + x = y' * W + x' := by rw [← d1, ← d2, e1]
  have n1 : (y * W + x) % W = x := by
    rw [Nat.add_comm, Nat.add_mul_mod_self_right, Nat.mod_eq_of_lt hx]
  have n2 : (y' * W + x') % W = x' := by
    rw [Nat.add_comm, Nat.add_mul_mod_self_right, Nat.mod_eq_of_lt hx']
  have c1 : (y * W + x) / W = y := by
    rw [Nat.add_comm, Nat.add_mul_div_right _ _ hW, Nat.div_eq_of_lt hx, Nat.zero_add]
  have c2 : (y' * W + x') / W = y' := by
    rw [Nat.add_comm, Nat.add_mul_div_right _ _ hW, Nat.div_eq_of_lt hx', Nat.zero_add]
  exact ⟨by rw [← n1, ← n2, e2], by rw [← c1, ← c2, e2], es⟩

theorem index_lt {W H S x y s : Nat} (hx : x < W) (hy : y < H) (hs : s < S) :
    y * (W * S) + x * S + s < W * H * S := by
  have h1 : y * (W * S) + x * S + s < (y * W + x + 1) * S := by
    have : (y * W + x + 1) * S = y * (W * S) + x * S + S := by ring
    omega
  have h2 : y * W + x + 1 ≤ H * W := by
    have : (y + 1) * W ≤ H * W := Nat.mul_le_mul_right _ hy
    have e : (y + 1) * W = y * W + W := by ring
    omega
  calc y * (W * S) + x * S + s < (y * W + x + 1) * S := h1
    _ ≤ H * W * S := Nat.mul_le_mul_right _ h2
    _ = W * H * S := by ring

/-- C33 does not hold of the code at `v = 1`.  The value is stored as the
byte `value * 256.0f` truncated and read back as the byte over `256.0f`, so
whatever byte a pixel holds, `GetValue` returns at most 255/256: no stored byte
is read back within less than 1/256 of 1, and 256 itself is not a `TqUchar`
(the conversion is undefined).  The scaling by 256 is exact in floats, so the
rational model loses nothing.  For every segment of `m_Width * m_Height`
pixels of `m_Samples` bytes and every in-range position, with `0 <= v < 1` the
claim does hold: `SetValue` stores a byte, `GetValue` then returns a value in
[0, 1], not above `v` and less than 1/256 below it, and every other in-range
position reads as before. -/
theorem SetValue_GetValue_roundtrip (b : CqTextureMapBuffer) (x y sample : Nat) (v : ℚ)
    (hlen : b.m_pBufferData.length = b.m_Width * b.m_Height * b.m_Samples)
    (hx : x < b.m_Width) (hy : y < b.m_Height) (hs : sample < b.m_Samples)
    (h0 : 0 ≤ v) (h1 : v ≤ 1) :
    (v < 1 → ∃ b', b.SetValue x y sample v = some b' ∧
      (∃ r, b'.GetValue x y sample = some r ∧ 0 ≤ r ∧ r ≤ 1 ∧ r ≤ v ∧ v - r < 1 / 256) ∧
      ∀ x' y' sample', x' < b.m_Width → y' < b.m_Height → sample' < b.m_Samples →
        (x', y', sample') ≠ (x, y, sample) →
        b'.GetValue x' y' sample' = b.GetValue x' y' sample') ∧
    (v = 1 → b.SetValue x y sample v = none ∧
      ∀ (b' : CqTextureMapBuffer) (r : ℚ), b'.GetValue x y sample = some r →
        1 / 256 ≤ |r - v|) := by
  have hidx : y * (b.m_Width * b.ElemSize) + x * b.ElemSize + sample <
      b.m_pBufferData.length := by
    rw [hlen]
    simp only [ElemSize, Nat.mul_one]
    exact index_lt hx hy hs
  constructor
  · intro hv
    have hnn : 0 ≤ v * 256 := by positivity
    have hfl : truncate (v * 256) = ⌊v * 256⌋ := truncate_of_nonneg hnn
    have hc0 : 0 ≤ ⌊v * 256⌋ := Int.floor_nonneg.mpr hnn
    have hc1 : ⌊v * 256⌋ < 256 := by
      rw [Int.floor_lt]
      push_cast
      linarith
    have hset : b.SetValue x y sample v =
        some { b with m_pBufferData := (b.m_pBufferData.set
          (y * (b.m_Width * b.ElemSize) + x * b.ElemSize + sample)
          (Fin.ofNat ⌊v * 256⌋.toNat)) } := by
      unfold SetValue
      simp only [hfl]
      rw [if_pos ⟨hidx, hc0, hc1⟩]
    refine ⟨_, hset, ?_, ?_⟩
    · have hval : ((Fin.ofNat ⌊v * 256⌋.toNat : Fin 256).val : ℚ) = (⌊v * 256⌋ : ℚ) := by
        have h2 : ⌊v * 256⌋.toNat < 256 := by omega
        have h3 : (Fin.ofNat ⌊v * 256⌋.toNat : Fin 256).val = ⌊v * 256⌋.toNat := by
          simp [Fin.ofNat, Nat.mod_eq_of_lt h2]
        rw [h3]
        have h4 : ((⌊v * 256⌋.toNat : Int)) = ⌊v * 256⌋ := Int.toNat_of_nonneg hc0
        exact_mod_cast h4
      refine ⟨(⌊v * 256⌋ : ℚ) / 256, ?_, ?_, ?_, ?_, ?_⟩
      · unfold GetValue
        simp only [ElemSize, Nat.mul_one] at hidx ⊢
        rw [List.getElem?_set_self hidx]
        simp only [Option.map_some', Option.some.injEq]
        rw [hval]
      · have : (0 : ℚ) ≤ (⌊v * 256⌋ : ℚ) := by exact_mod_cast hc0
        positivity
      · have : (⌊v * 256⌋ : ℚ) ≤ v * 256 := Int.floor_le _
        linarith
      · have : (⌊v * 256⌋ : ℚ) ≤ v * 256 := Int.floor_le _
        linarith
      · have : v * 256 < (⌊v * 256⌋ : ℚ) + 1 := Int.lt_floor_add_one _
        linarith
    · intro x' y' sample' hx' hy' hs' hne
      unfold GetValue
      simp only [ElemSize, Nat.mul_one]
      rw [List.getElem?_set_ne]
      intro e
      obtain ⟨a, b, c⟩ := index_inj hx hs hx' hs' e
      exact hne (by rw [a, b, c])
  · intro hv
    subst hv
    constructor
    · unfold SetValue
      have : truncate ((1 : ℚ) * 256) = 256 := by
        rw [truncate_of_nonneg (by norm_num)]
        have e : (1 : ℚ) * 256 = ((256 : ℤ) : ℚ) := by norm_num
        rw [e, Int.floor_intCast]
      simp only [this]
      rw [if_neg (by simp)]
    · intro b' r hr
      unfold GetValue at hr
      simp only at hr
      cases hc : b'.m_pBufferData[y * (b'.m_Width * b'.ElemSize) + x * b'.ElemSize + sample]? with
      | none => rw [hc] at hr; cases hr
      | some c =>
        rw [hc] at hr
        simp only [Option.map_some', Option.some.injEq] at hr
        subst hr
        have hc2 : (c.val : ℚ) ≤ 255 := by
          have := c.isLt
          have h2 : c.val ≤ 255 := by omega
          exact_mod_cast h2
        rw [abs_sub_comm, abs_of_nonneg (by linarith)]
        linarith

theorem SetValue_GetValue_roundtrip_witness :
    (∃ b', blank.SetValue 1 0 2 (1 / 2) = some b' ∧
      (∃ r, b'.GetValue 1 0 2 = some r ∧ 0 ≤ r ∧ r ≤ 1 ∧ r ≤ 1 / 2 ∧
        (1 : ℚ) / 2 - r < 1 / 256) ∧
      ∀ x' y' sample', x' < blank.m_Width → y' < blank.m_Height → sample' < blank.m_Samples →
        (x', y', sample') ≠ (1, 0, 2) →
        b'.GetValue x' y' sample' = blank.GetValue x' y' sample') ∧
    blank.SetValue 1 0 2 1 = none :=
  ⟨(SetValue_GetValue_roundtrip blank 1 0 2 (1 / 2) (by decide) (by decide) (by decide)
      (by decide) (by norm_num) (by norm_num)).1 (by norm_num),
    ((SetValue_GetValue_roundtrip blank 1 0 2 1 (by decide) (by decide) (by decide)
      (by decide) (by norm_num) (by norm_num)).2 rfl).1⟩

end CqTextureMapBuffer
end Aqsis

namespace Aqsis
namespace CqSurfaceSubdivisionPatch

open CqSubdivision2

/-! ## The walk of Split over the control points -/

/-- C40 (as the code has it): links that all obey the matching rule need not
all be there.  On `strayTorus`, built with `Prepare` and `AddFacet`, `Finalise`
returns false at vertex 4 and leaves the later vertices unlinked; every
vertex-neighbour link of the state it leaves obeys the matching rule, and
`CanUsePatch` is true of the face of the first facet, whose corners 0, 1, 2, 3
are linked; but the walk of `Split` from that face follows a missing link. -/
theorem Split_walk_meets_missing_link :
    strayTorus.Finalise = some (strayTorus.linked, false) ∧
    (∀ L M, strayTorus.linked.cv L = some (some M) →
      (∃ v, strayTorus.linked.VertexIndex L = some v ∧
        strayTorus.linked.VertexIndex M = some v) ∧
      ∃ w, (strayTorus.linked.cfD M).bind strayTorus.linked.VertexIndex = some w ∧
        (strayTorus.linked.ccf L).bind strayTorus.linked.VertexIndex = some w) ∧
    strayTorus.linked.CanUsePatch CqSubdivision2.Qff 0 = some true ∧
    Split.aiVertices strayTorus.linked 0 = none := by
  have h : buildMesh (positionsOnly 13) 13
      [[0, 2, 3, 1], [1, 3, 8, 7], [7, 8, 2, 0], [2, 4, 5, 3], [3, 5, 6, 8], [8, 6, 4, 2],
        [4, 0, 1, 5], [5, 1, 7, 6], [6, 7, 0, 4], [4, 9, 10], [4, 11, 12]] =
      some strayTorus ∧
      strayTorus.Finalise = some (strayTorus.linked, false) ∧
      strayTorus.linked.CanUsePatch CqSubdivision2.Qff 0 = some true ∧
      Split.aiVertices strayTorus.linked 0 = none := by decide!
  obtain ⟨hb, e, hcan, hwalk⟩ := h
  have hf : strayTorus.Fresh := Fresh.buildMesh hb
  refine ⟨e, ?_, hcan, hwalk⟩
  intro L M hcv
  have hl := Finalise_links (fun v a h ha hh => (hf.adj v h).mp ⟨a, ha, hh⟩) e
  rcases hl.links L M hcv with h | h
  · exfalso
    unfold cv lath at h
    cases hL : strayTorus.m_apLaths[L]? with
    | none => rw [hL] at h; cases h
    | some l =>
      rw [hL] at h
      simp only [Option.map_some', Option.some.injEq] at h
      have := (hf.links l (List.mem_iff_getElem?.mpr ⟨_, hL⟩)).1
      rw [this] at h
      cases h
  · obtain ⟨⟨v, h1, h2⟩, w, h3, h4⟩ := h
    refine ⟨⟨v, ?_, ?_⟩, w, ?_, ?_⟩
    · rw [VertexIndex_of_dropCF hl.core]; exact h1
    · rw [VertexIndex_of_dropCF hl.core]; exact h2
    · have := outKey_of_dropCF hl.core M
      unfold outKey at this
      rw [this]; exact h3
    · have := innKey_of_dropCF hl.core L
      unfold innKey at this
      rw [this]; exact h4

/-- C40 (amended): in a matched topology (the vertex-neighbour links are
exactly the ones the matching rule prescribes: `L.cv = M` if and only if the
pair matches, and no two laths of a vertex leave it by the same edge; every
finalised manifold control mesh is one), whenever `CanUsePatch(f)` is true the
walk of `Split` over the control points follows no missing link, yields
exactly 16 indices, and the indices at the positions 5, 6, 9 and 10 are the
vertex indices of the four corners of the face of `f`: of `f` itself, of its
face-predecessor, of its face-neighbour and of the lath opposite. -/
theorem Split_walk_on_regular_face {s : CqSubdivision2} (hm : s.MatchedLinks) {f : Nat}
    (hc : s.CanUsePatch CqSubdivision2.Qff f = some true) :
    ∃ ai q1 q2 q3, Split.aiVertices s f = some ai ∧ ai.length = 16 ∧
      s.Qfv f = some [f, q1, q2, q3] ∧
      ai[5]? = s.VertexIndex f ∧ ai[6]? = s.VertexIndex q3 ∧
      ai[9]? = s.VertexIndex q1 ∧ ai[10]? = s.VertexIndex q2 := by
  obtain ⟨ai, q1, q2, q3, h1, h2, h3, h5, h6, h9, h10⟩ :=
    Split.aiVertices_corners hm (CanUsePatch.regular_of_true _ s f hc)
  have hv := hm.valid
  obtain ⟨_, hring, _⟩ := hv.qfv h3
  have e0 := hv.vx_eq (hring.lt f (by simp))
  have e1 := hv.vx_eq (hring.lt q1 (by simp))
  have e2 := hv.vx_eq (hring.lt q2 (by simp))
  have e3 := hv.vx_eq (hring.lt q3 (by simp))
  exact ⟨ai, q1, q2, q3, h1, h2, h3, by rw [h5, e0], by rw [h6, e3], by rw [h9, e1],
    by rw [h10, e2]⟩

theorem Split_walk_on_regular_face_witness :
    ∃ ai q1 q2 q3, Split.aiVertices torus.finalised 0 = some ai ∧ ai.length = 16 ∧
      torus.finalised.Qfv 0 = some [0, q1, q2, q3] ∧
      ai[5]? = torus.finalised.VertexIndex 0 ∧ ai[6]? = torus.finalised.VertexIndex q3 ∧
      ai[9]? = torus.finalised.VertexIndex q1 ∧ ai[10]? = torus.finalised.VertexIndex q2 :=
  Split_walk_on_regular_face torus_matched torus_links.2.2.2.2.2

end CqSurfaceSubdivisionPatch
end Aqsis

namespace Aqsis
namespace CqSubdivision2

/-! ## The links SubdivideFace writes obey the matching rule -/

theorem LinksFrom.write0 {s t t1 : CqSubdivision2} (hl : LinksFrom s t) {X h : Nat}
    (e : t.setLath X (fun l => { l with m_pClockwiseVertex := some h }) = some t1)
    (hm : s.LinkMatches X h) : LinksFrom s t1 := by
  refine ⟨(setLath_dropCF e (fun _ => rfl)).trans hl.core, ?_⟩
  intro L M hcv
  unfold cv at hcv
  rw [setLath_lath e L] at hcv
  by_cases hLX : L = X
  · subst hLX
    rw [if_pos rfl] at hcv
    cases hL : t.lath L with
    | none => rw [hL] at hcv; cases hcv
    | some l =>
      rw [hL] at hcv
      simp only [Option.map_some', Option.some.injEq] at hcv
      subst hcv
      exact Or.inr hm
  · rw [if_neg hLX] at hcv
    exact hl.links L M hcv

theorem LinksFrom.write_face {s t t1 : CqSubdivision2} (hl : LinksFrom s t) {X : Nat}
    {o : Option Nat}
    (e : t.setLath X (fun l => { l with m_pFaceVertex := o }) = some t1) : LinksFrom s t1 := by
  refine ⟨(setLath_dropCF e (fun _ => rfl)).trans hl.core, ?_⟩
  intro L M hcv
  apply hl.links L M
  unfold cv at hcv ⊢
  rw [setLath_lath e L] at hcv
  by_cases hLX : L = X
  · rw [if_pos hLX] at hcv
    cases hL : t.lath L with
    | none => rw [hL] at hcv; cases hcv
    | some l =>
      rw [hL] at hcv
      exact hcv
  · rw [if_neg hLX] at hcv
    exact hcv

/-- A conditional write of a link that obeys the matching rule when the
condition holds. -/
theorem LinksFrom.write_if {s t t1 : CqSubdivision2} (hl : LinksFrom s t) {X h : Nat}
    (b : Prop) [Decidable b]
    (e : (if b then t.setLath X (fun l => { l with m_pClockwiseVertex := some h })
      else some t) = some t1)
    (hm : b → s.LinkMatches X h) : LinksFrom s t1 ∧ t1.m_aapVertices = t.m_aapVertices := by
  by_cases hb : b
  · rw [if_pos hb] at e
    exact ⟨hl.write0 e (hm hb), (setLath_fields e).1⟩
  · rw [if_neg hb] at e
    cases e
    exact ⟨hl, rfl⟩

theorem SubdivideFace.linkCorner_sound {s0 t t' : CqSubdivision2} {f : SqFaceLathList}
    {X vA : Nat} (hl : LinksFrom s0 t) (hj : SubdivideFace.Joined s0 f)
    (hA : s0.VertexIndex f.pA = some vA) (hX : s0.VertexIndex X = some vA)
    (e : SubdivideFace.linkCorner f X t = some t') :
    LinksFrom s0 t' ∧ t'.m_aapVertices = t.m_aapVertices := by
  unfold SubdivideFace.linkCorner at e
  cases h1 : (t.cfD X).bind t.VertexIndex with
  | none => rw [h1] at e; simp at e
  | some v =>
    cases h2 : t.VertexIndex f.pD with
    | none => rw [h1, h2] at e; simp at e
    | some vD =>
      rw [h1, h2] at e
      simp only at e
      cases h3 : (if v = vD then t.setLath f.pA (fun l => { l with m_pClockwiseVertex := some X })
          else some t) with
      | none => rw [h3] at e; simp at e
      | some t1 =>
        rw [h3] at e
        simp only [Option.some_bind] at e
        obtain ⟨hl1, ht1⟩ := hl.write_if (v = vD) h3 (fun hb =>
          ⟨⟨vA, hA, hX⟩, v, (outKey_of_dropCF hl.core X).symm.trans h1, by
            rw [hj.innA, ← VertexIndex_of_dropCF hl.core, h2, hb]⟩)
        cases h4 : (t1.ccf X).bind t1.VertexIndex with
        | none => rw [h4] at e; simp at e
        | some v2 =>
          cases h5 : t1.VertexIndex f.pB with
          | none => rw [h4, h5] at e; simp at e
          | some vB =>
            rw [h4, h5] at e
            simp only at e
            obtain ⟨hl2, ht2⟩ := hl1.write_if (v2 = vB) e (fun hb =>
              ⟨⟨vA, hX, hA⟩, vB, by
                rw [hj.outA, ← VertexIndex_of_dropCF hl1.core, h5], (innKey_of_dropCF hl1.core X).symm.trans (h4.trans (by rw [hb]))⟩)
            exact ⟨hl2, ht2.trans ht1⟩

theorem SubdivideFace.linkEdgeB_sound {s0 t t' : CqSubdivision2} {f : SqFaceLathList}
    {X vB : Nat} (hl : LinksFrom s0 t) (hj : SubdivideFace.Joined s0 f)
    (hB : s0.VertexIndex f.pB = some vB) (hX : s0.VertexIndex X = some vB)
    (e : SubdivideFace.linkEdgeB f X t = some t') :
    LinksFrom s0 t' ∧ t'.m_aapVertices = t.m_aapVertices := by
  unfold SubdivideFace.linkEdgeB at e
  cases h1 : (t.cfD X).bind t.VertexIndex with
  | none => rw [h1] at e; simp at e
  | some v =>
    cases h2 : t.VertexIndex f.pA with
    | none => rw [h1, h2] at e; simp at e
    | some vA =>
      rw [h1, h2] at e
      simp only at e
      exact hl.write_if (v = vA) e (fun hb =>
        ⟨⟨vB, hB, hX⟩, v, (outKey_of_dropCF hl.core X).symm.trans h1, by
          rw [hj.innB, ← VertexIndex_of_dropCF hl.core, h2, hb]⟩)

theorem SubdivideFace.linkEdgeD_sound {s0 t t' : CqSubdivision2} {f : SqFaceLathList}
    {X vD : Nat} (hl : LinksFrom s0 t) (hj : SubdivideFace.Joined s0 f)
    (hD : s0.VertexIndex f.pD = some vD) (hX : s0.VertexIndex X = some vD)
    (e : SubdivideFace.linkEdgeD f X t = some t') :
    LinksFrom s0 t' ∧ t'.m_aapVertices = t.m_aapVertices := by
  unfold SubdivideFace.linkEdgeD at e
  cases h1 : (t.ccf X).bind t.VertexIndex with
  | none => rw [h1] at e; simp at e
  | some v =>
    cases h2 : t.VertexIndex f.pA with
    | none => rw [h1, h2] at e; simp at e
    | some vA =>
      rw [h1, h2] at e
      simp only at e
      exact hl.write_if (v = vA) e (fun hb =>
        ⟨⟨vD, hX, hD⟩, vA, by
          rw [hj.outD, ← VertexIndex_of_dropCF hl.core, h2], (innKey_of_dropCF hl.core X).symm.trans (h1.trans (by rw [hb]))⟩)

/-- A scan of an adjacency list by a body that keeps the invariant. -/
theorem SubdivideFace.scan_sound {s0 : CqSubdivision2}
    (body : Nat → CqSubdivision2 → Option CqSubdivision2) (adj : List Nat)
    (hbody : ∀ X ∈ adj, ∀ t t' : CqSubdivision2, LinksFrom s0 t → body X t = some t' →
      LinksFrom s0 t' ∧ t'.m_aapVertices = t.m_aapVertices)
    {t t' : CqSubdivision2} (hl : LinksFrom s0 t) (e : forEach body adj t = some t') :
    LinksFrom s0 t' ∧ t'.m_aapVertices = t.m_aapVertices :=
  forEach_inv body (fun u => LinksFrom s0 u ∧ u.m_aapVertices = t.m_aapVertices) adj
    (fun X hX u u' hu eu => by
      obtain ⟨a, b⟩ := hbody X hX u u' hu.1 eu
      exact ⟨a, b.trans hu.2⟩)
    t t' ⟨hl, rfl⟩ e

theorem SubdivideFace.linkFace_sound {s0 t t' : CqSubdivision2} {aQfv : List Nat}
    {faces : List SqFaceLathList} {n i : Nat} {f fN : SqFaceLathList} {vB vC : Nat}
    (hl : LinksFrom s0 t) (htab : t.m_aapVertices = s0.m_aapVertices)
    (hadj : ∀ (v : Nat) (a : List Nat) (h : Nat),
      s0.m_aapVertices[v]? = some a → h ∈ a → s0.VertexIndex h = some v)
    (hf : faces[i]? = some f) (hfN : faces[(i + 1) % n]? = some fN)
    (hj : SubdivideFace.Joined s0 f) (hjN : SubdivideFace.Joined s0 fN)
    (hB : s0.VertexIndex f.pB = some vB) (hND : s0.VertexIndex fN.pD = some vB)
    (hC : s0.VertexIndex f.pC = some vC) (hNC : s0.VertexIndex fN.pC = some vC)
    (e : SubdivideFace.linkFace aQfv faces n i t = some t') :
    LinksFrom s0 t' ∧ t'.m_aapVertices = s0.m_aapVertices := by
  unfold SubdivideFace.linkFace at e
  cases hq : aQfv[i]? with
  | none => rw [hq] at e; simp at e
  | some q =>
    rw [hq, hf, hfN] at e
    simp only at e
    cases h1 : t.setLath q (fun l => { l with m_pFaceVertex := some f.pC }) with
    | none => rw [h1] at e; simp at e
    | some t1 =>
      rw [h1] at e
      simp only [Option.some_bind] at e
      have hl1 := hl.write_face h1
      have ht1 := (setLath_fields h1).1
      cases h2 : t1.setLath fN.pD (fun l => { l with m_pClockwiseVertex := some f.pB }) with
      | none => rw [h2] at e; simp at e
      | some t2 =>
        rw [h2] at e
        simp only [Option.some_bind] at e
        have hl2 := hl1.write0 h2 ⟨⟨vB, hND, hB⟩, vC, by rw [hj.outB, hC],
          by rw [hjN.innD, hNC]⟩
        have ht2 := (setLath_fields h2).1
        cases h3 : t2.setLath f.pC (fun l => { l with m_pClockwiseVertex := some fN.pC }) with
        | none => rw [h3] at e; simp at e
        | some t3 =>
          rw [h3] at e
          simp only [Option.some_bind] at e
          have hl3 := hl2.write0 h3 ⟨⟨vC, hC, hNC⟩, vB, by rw [hjN.outC, hND],
            by rw [hj.innC, hB]⟩
          have ht3 := (setLath_fields h3).1
          cases h4 : t3.VertexIndex f.pA with
          | none => rw [h4] at e; simp at e
          | some vA =>
            rw [h4] at e
            simp only [Option.some_bind] at e
            cases h5 : t3.m_aapVertices[vA]? with
            | none => rw [h5] at e; simp at e
            | some adj =>
              rw [h5] at e
              simp only [Option.some_bind] at e
              have htab3 : t3.m_aapVertices = s0.m_aapVertices := by
                rw [ht3, ht2, ht1, htab]
              have hA : s0.VertexIndex f.pA = some vA := by
                rw [← VertexIndex_of_dropCF hl3.core]; exact h4
              obtain ⟨hl4, ht4⟩ := SubdivideFace.scan_sound (SubdivideFace.linkCorner f) adj
                (fun X hX u u' hu eu => SubdivideFace.linkCorner_sound hu hj hA
                  (hadj vA adj X (by rw [← htab3]; exact h5) hX) eu) hl3 e
              exact ⟨hl4, ht4.trans htab3⟩

theorem SubdivideFace.linkEdge_sound {s0 t t' : CqSubdivision2}
    {faces : List SqFaceLathList} {i : Nat} {f : SqFaceLathList}
    (hl : LinksFrom s0 t) (htab : t.m_aapVertices = s0.m_aapVertices)
    (hadj : ∀ (v : Nat) (a : List Nat) (h : Nat),
      s0.m_aapVertices[v]? = some a → h ∈ a → s0.VertexIndex h = some v)
    (hf : faces[i]? = some f) (hj : SubdivideFace.Joined s0 f)
    (e : SubdivideFace.linkEdge faces i t = some t') :
    LinksFrom s0 t' ∧ t'.m_aapVertices = s0.m_aapVertices := by
  unfold SubdivideFace.linkEdge at e
  rw [hf] at e
  simp only at e
  cases h1 : t.VertexIndex f.pB with
  | none => rw [h1] at e; simp at e
  | some vB =>
    rw [h1] at e
    simp only [Option.some_bind] at e
    cases h2 : t.m_aapVertices[vB]? with
    | none => rw [h2] at e; simp at e
    | some adjB =>
      rw [h2] at e
      simp only [Option.some_bind] at e
      cases h3 : forEach (SubdivideFace.linkEdgeB f) adjB t with
      | none => rw [h3] at e; simp at e
      | some t1 =>
        rw [h3] at e
        simp only [Option.some_bind] at e
        have hB : s0.VertexIndex f.pB = some vB := by
          rw [← VertexIndex_of_dropCF hl.core]; exact h1
        obtain ⟨hl1, ht1⟩ := SubdivideFace.scan_sound (SubdivideFace.linkEdgeB f) adjB
          (fun X hX u u' hu eu => SubdivideFace.linkEdgeB_sound hu hj hB
            (hadj vB adjB X (by rw [← htab]; exact h2) hX) eu) hl h3
        have htab1 : t1.m_aapVertices = s0.m_aapVertices := ht1.trans htab
        cases h4 : t1.VertexIndex f.pD with
        | none => rw [h4] at e; simp at e
        | some vD =>
          rw [h4] at e
          simp only [Option.some_bind] at e
          cases h5 : t1.m_aapVertices[vD]? with
          | none => rw [h5] at e; simp at e
          | some adjD =>
            rw [h5] at e
            simp only [Option.some_bind] at e
            have hD : s0.VertexIndex f.pD = some vD := by
              rw [← VertexIndex_of_dropCF hl1.core]; exact h4
            obtain ⟨hl2, ht2⟩ := SubdivideFace.scan_sound (SubdivideFace.linkEdgeD f) adjD
              (fun X hX u u' hu eu => SubdivideFace.linkEdgeD_sound hu hj hD
                (hadj vD adjD X (by rw [← htab1]; exact h5) hX) eu) hl1 e
            exact ⟨hl2, ht2.trans htab1⟩

/-- The laths of a child face are joined as the lath-creating loop joined
them, in every well-formed state in which they are linked clockwise. -/
theorem SubdivideFace.Joined.of_cfD {sc : CqSubdivision2} (hv : sc.Valid) {N j : Nat}
    (hcf : ∀ k, k < 4 → sc.cfD (N + (4 * j + k)) = some (N + (4 * j + (k + 1) % 4)))
    (hlt : N + 4 * j + 3 < sc.m_apLaths.length) :
    SubdivideFace.Joined sc (SubdivideFace.faceLaths N j) := by
  have c0 : sc.cfD (N + 4 * j) = some (N + 4 * j + 1) := hcf 0 (by omega)
  have c1 : sc.cfD (N + 4 * j + 1) = some (N + 4 * j + 2) := hcf 1 (by omega)
  have c2 : sc.cfD (N + 4 * j + 2) = some (N + 4 * j + 3) := hcf 2 (by omega)
  have c3 : sc.cfD (N + 4 * j + 3) = some (N + 4 * j) := hcf 3 (by omega)
  have back : ∀ {a b : Nat}, a < sc.m_apLaths.length → sc.cfD a = some b →
      sc.ccf b = some a := by
    intro a b ha hab
    have hn : sc.nx a = b := by unfold nx; rw [hab]; rfl
    have hb : b < sc.m_apLaths.length := by rw [← hn]; exact (hv.cfD_nx ha).2
    have := (hv.ccf_pv hb).1
    rw [← hn, hv.pv_nx ha] at this
    rw [← hn]
    exact this
  have p0 := back (by omega) c3
  have p1 := back (by omega) c0
  have p2 := back (by omega) c1
  have p3 := back (by omega) c2
  refine ⟨?_, ?_, ?_, ?_, ?_, ?_, ?_, ?_⟩ <;>
    simp only [SubdivideFace.faceLaths, outKey, innKey, c0, c1, c2, c3, p0, p1, p2, p3,
      Option.some_bind]

/-- Both linking loops write links that obey the matching rule only. -/
theorem SubdivideFace.linked_sound {sc s1 s2 : CqSubdivision2} (hv : sc.Valid) {N n : Nat}
    (aQfv aV : List Nat) (hlen : sc.m_apLaths.length = N + 4 * n)
    (hcf : ∀ j k, j < n → k < 4 → sc.cfD (N + (4 * j + k)) = some (N + (4 * j + (k + 1) % 4)))
    (hvi : ∀ j k, j < n → k < 4 →
      sc.VertexIndex (N + (4 * j + k)) = some (SubdivideFace.cornerVertex aV n j k))
    (e1 : forEach (SubdivideFace.linkFace aQfv ((List.range n).map (SubdivideFace.faceLaths N))
      n) (List.range n) sc = some s1)
    (e2 : forEach (SubdivideFace.linkEdge ((List.range n).map (SubdivideFace.faceLaths N)))
      (List.range n) s1 = some s2) :
    LinksFrom sc s2 := by
  have hj : ∀ j, j < n → SubdivideFace.Joined sc (SubdivideFace.faceLaths N j) := fun j hj =>
    SubdivideFace.Joined.of_cfD hv (fun k hk => hcf j k hj hk) (by omega)
  have h1 := forEach_inv _ (fun u => LinksFrom sc u ∧ u.m_aapVertices = sc.m_aapVertices)
    (List.range n)
    (fun i hi u u' hu eu => by
      have hin : i < n := List.mem_range.mp hi
      have hm : (i + 1) % n < n := Nat.mod_lt _ (by omega)
      exact SubdivideFace.linkFace_sound (n := n) hu.1 hu.2 hv.adj
        (SubdivideFace.faces_getElem? N n i hin) (SubdivideFace.faces_getElem? N n _ hm)
        (hj i hin) (hj _ hm)
        (show sc.VertexIndex (SubdivideFace.faceLaths N i).pB =
            some (aV.getD ((i + 1) % n + n) 0) by
          simpa [SubdivideFace.faceLaths, SubdivideFace.cornerVertex, Nat.add_assoc]
            using hvi i 1 hin (by omega))
        (show sc.VertexIndex (SubdivideFace.faceLaths N ((i + 1) % n)).pD =
            some (aV.getD ((i + 1) % n + n) 0) by
          simpa [SubdivideFace.faceLaths, SubdivideFace.cornerVertex, Nat.add_assoc]
            using hvi ((i + 1) % n) 3 hm (by omega))
        (show sc.VertexIndex (SubdivideFace.faceLaths N i).pC = some (aV.getD (2 * n) 0) by
          simpa [SubdivideFace.faceLaths, SubdivideFace.cornerVertex, Nat.add_assoc]
            using hvi i 2 hin (by omega))
        (show sc.VertexIndex (SubdivideFace.faceLaths N ((i + 1) % n)).pC =
            some (aV.getD (2 * n) 0) by
          simpa [SubdivideFace.faceLaths, SubdivideFace.cornerVertex, Nat.add_assoc]
            using hvi ((i + 1) % n) 2 hm (by omega))
        eu)
    sc s1 ⟨LinksFrom.links_refl sc, rfl⟩ e1
  have h2 := forEach_inv _ (fun u => LinksFrom sc u ∧ u.m_aapVertices = sc.m_aapVertices)
    (List.range n)
    (fun i hi u u' hu eu => by
      have hin : i < n := List.mem_range.mp hi
      exact SubdivideFace.linkEdge_sound hu.1 hu.2 hv.adj
        (SubdivideFace.faces_getElem? N n i hin) (hj i hin) eu)
    s1 s2 h1 e2
  exact h2.1

/-- A refinement of one face: the state after the lath-creating loop, and
the links of the final state, each of which is a link of that state or obeys
the matching rule. -/
theorem SubdivideFace.refine_sound {s : CqSubdivision2} (hv : s.Valid) {pFace : Nat}
    {s' : CqSubdivision2} {sub : List Nat}
    (e : SubdivideFace.refine s pFace = some (s', sub)) :
    ∃ aQfv k aV sc, SubdivideFace.Refined s pFace s' sub aQfv k aV sc ∧ LinksFrom sc s' := by
  have e0 := e
  rw [SubdivideFace.refine_eq hv.params] at e
  cases hq : s.Qfv pFace with
  | none => rw [hq] at e; cases e
  | some aQfv =>
    rw [hq] at e
    simp only [Option.some_bind] at e
    cases hp : SubdivideFace.aVertices s aQfv with
    | none => rw [hp] at e; cases e
    | some kv =>
      rw [hp] at e
      simp only [Option.some_bind] at e
      cases hc : forEach (SubdivideFace.createFace pFace aQfv kv.2 aQfv.length)
          (List.range aQfv.length) (growBy kv.1 s, [], []) with
      | none => rw [hc] at e; cases e
      | some st =>
        obtain ⟨s2, e2, href⟩ := SubdivideFace.refine_of_created hv hq
          (show SubdivideFace.aVertices s aQfv = some (kv.1, kv.2) from hp) hc
        rw [e0] at e2
        simp only [Option.some.injEq, Prod.mk.injEq] at e2
        obtain ⟨rfl, rfl⟩ := e2
        refine ⟨aQfv, kv.1, kv.2, st.1, href, ?_⟩
        rw [hc] at e
        simp only [Option.some_bind] at e
        obtain ⟨hV, _, hlt, _, _⟩ := SubdivideFace.aVertices_spec hv
          (show SubdivideFace.aVertices s aQfv = some (kv.1, kv.2) from hp)
        have hv0 := hv.growBy kv.1
        have hlt0 : ∀ v ∈ kv.2, v < (growBy kv.1 s).m_aapVertices.length := by
          intro v hvm
          rw [growBy_table_length]
          exact hlt v hvm
        have hcr := SubdivideFace.created_of_loop (s := growBy kv.1 s) rfl hV hlt0
          hv0.childMid hc
        have hfaces : st.2.1 =
            (List.range aQfv.length).map (SubdivideFace.faceLaths s.m_apLaths.length) :=
          hcr.faces
        rw [hfaces] at e
        cases h1 : forEach (SubdivideFace.linkFace aQfv
            ((List.range aQfv.length).map (SubdivideFace.faceLaths s.m_apLaths.length))
            aQfv.length) (List.range aQfv.length) st.1 with
        | none => rw [h1] at e; cases e
        | some s1 =>
          rw [h1] at e
          simp only [Option.some_bind] at e
          cases h2 : forEach (SubdivideFace.linkEdge
              ((List.range aQfv.length).map (SubdivideFace.faceLaths s.m_apLaths.length)))
              (List.range aQfv.length) s1 with
          | none => rw [h2] at e; cases e
          | some s2 =>
            rw [h2] at e
            simp only [Option.some_bind, Option.some.injEq, Prod.mk.injEq] at e
            rw [← e.1]
            exact SubdivideFace.linked_sound href.validC aQfv kv.2
              href.created.created_length
              (fun j k hj hk => href.created.created_cfD_new hj hk)
              (fun j k hj hk => href.created.created_VertexIndex_new hj hk) h1 h2

theorem LinkMatches.both_lt {s : CqSubdivision2} {L M : Nat} (hm : s.LinkMatches L M) :
    L < s.m_apLaths.length ∧ M < s.m_apLaths.length := by
  obtain ⟨⟨v, h1, h2⟩, _⟩ := hm
  exact ⟨VertexIndex_lt h1, VertexIndex_lt h2⟩

theorem Grows.VertexIndex_eq {s t : CqSubdivision2} (hg : Grows s t) {h : Nat}
    (hh : h < s.m_apLaths.length) : t.VertexIndex h = s.VertexIndex h := by
  obtain ⟨l, hl⟩ : ∃ l, s.lath h = some l := ⟨s.m_apLaths[h], List.getElem?_eq_getElem hh⟩
  obtain ⟨l2, hl2, hvi, _, _⟩ := hg.core_eq hl
  unfold VertexIndex
  rw [hl, hl2]
  simp only [Option.map_some', Option.some.injEq]
  exact hvi

theorem Grows.ccf_eq {s t : CqSubdivision2} (hv : s.Valid) (hg : Grows s t) {h : Nat}
    (hh : h < s.m_apLaths.length) : t.ccf h = s.ccf h := by
  obtain ⟨ring, hr, hm⟩ := hv.rings h hh
  obtain ⟨tl, hr', _⟩ := hr.ring_of_mem hm
  rw [ccf_of_ring hr', ccf_of_ring (hg.ring hr')]

/-- A matching pair stays one when the topology grows. -/
theorem LinkMatches.match_grows {s t : CqSubdivision2} (hv : s.Valid) (hg : Grows s t) {L M : Nat}
    (hm : s.LinkMatches L M) : t.LinkMatches L M := by
  obtain ⟨hL, hM⟩ := hm.both_lt
  obtain ⟨⟨v, h1, h2⟩, w, h3, h4⟩ := hm
  refine ⟨⟨v, ?_, ?_⟩, w, ?_, ?_⟩
  · rw [hg.VertexIndex_eq hL]; exact h1
  · rw [hg.VertexIndex_eq hM]; exact h2
  · obtain ⟨c, hc, hcl⟩ := hv.cfD_some hM
    unfold outKey at h3 ⊢
    rw [hc] at h3
    rw [hg.cfD_eq hM, hc]
    simp only [Option.some_bind] at h3 ⊢
    rw [hg.VertexIndex_eq hcl]; exact h3
  · obtain ⟨c, hc, hcl⟩ := hv.ccf_some hL
    unfold innKey at h4 ⊢
    rw [hc] at h4
    rw [hg.ccf_eq hv hL, hc]
    simp only [Option.some_bind] at h4 ⊢
    rw [hg.VertexIndex_eq hcl]; exact h4

/-- Every vertex-neighbour link after a refinement of one face was there
before or joins a matching pair. -/
theorem SubdivideFace.refine_links {s : CqSubdivision2} (hv : s.Valid) {pFace : Nat}
    {s' : CqSubdivision2} {sub : List Nat}
    (e : SubdivideFace.refine s pFace = some (s', sub)) (L M : Nat)
    (hcv : s'.cv L = some (some M)) : s.cv L = some (some M) ∨ s'.LinkMatches L M := by
  obtain ⟨aQfv, k, aV, sc, href, hl⟩ := SubdivideFace.refine_sound hv e
  rcases hl.links L M hcv with h | h
  · left
    have hLc : L < sc.m_apLaths.length := by
      unfold cv at h
      cases hx : sc.lath L with
      | none => rw [hx] at h; cases h
      | some l => exact lath_lt hx
    have hlen := href.created.created_length
    simp only at hlen
    by_cases hLo : L < s.m_apLaths.length
    · obtain ⟨l, lc, h0, hc, e1, _⟩ := href.old_created hLo
      unfold cv at h ⊢
      rw [hc] at h
      rw [h0]
      simp only [Option.map_some', Option.some.injEq] at h ⊢
      rw [← e1]; exact h
    · exfalso
      have hj : (L - s.m_apLaths.length) / 4 < aQfv.length := by omega
      have hk : (L - s.m_apLaths.length) % 4 < 4 := Nat.mod_lt _ (by omega)
      obtain ⟨l, hl1, hcvn, _⟩ := href.created.new_fields hj hk
      have hL : s.m_apLaths.length + (4 * ((L - s.m_apLaths.length) / 4) +
          (L - s.m_apLaths.length) % 4) = L := by
        have := Nat.div_add_mod (L - s.m_apLaths.length) 4
        omega
      rw [hL] at hl1
      unfold cv at h
      simp only at hl1
      rw [hl1] at h
      simp only [Option.map_some', Option.some.injEq] at h
      rw [hcvn] at h
      cases h
  · right
    exact LinkMatches.of_dropCF hl.core.symm h

/-- Every vertex-neighbour link after a call of `SubdivideFace`, pre-pass
included, was there before the call or joins a matching pair. -/
theorem SubdivideFace_links (Qff : CqSubdivision2 → Nat → Option (List Nat)) (d : Nat)
    {s : CqSubdivision2} (hv : s.Valid) {pFace : Nat} {s' : CqSubdivision2} {sub : List Nat}
    (e : SubdivideFace Qff d s pFace = some (s', sub)) (L M : Nat)
    (hcv : s'.cv L = some (some M)) : s.cv L = some (some M) ∨ s'.LinkMatches L M := by
  have key := SubdivideFace_induct Qff
    (fun t => ∀ L M, t.cv L = some (some M) → s.cv L = some (some M) ∨ t.LinkMatches L M)
    (fun t f t2 sub aQfv k aV sc hvt hP et href L M hc => by
      rcases SubdivideFace.refine_links hvt et L M hc with h | h
      · rcases hP L M h with h2 | h2
        · exact Or.inl h2
        · exact Or.inr (h2.match_grows hvt (href.grows hvt et))
      · exact Or.inr h)
    d s pFace s' sub hv (fun L M h => Or.inl h) e
  exact key L M hcv

end CqSubdivision2
end Aqsis

namespace Aqsis
namespace CqSubdivision2

/-! ## The links of SubdivideFace -/

/-- C37: every vertex-neighbour link that `SubdivideFace` sets joins a
matching pair.  In a well-formed topology, whenever the state a call leaves
(pre-pass included) has `L.cv = M` and that link was not there before the call,
`M` references the same vertex index as `L`, and the vertex index of the
face-neighbour of `M` equals the vertex index of the face-predecessor of `L`.
This covers the links of the face-point ring, the mid-edge pairs, and the
links the two scans set between the new laths and the laths of neighbours
refined before. -/
theorem SubdivideFace_sets_matching_links (Qff : CqSubdivision2 → Nat → Option (List Nat))
    (depth : Nat) {s : CqSubdivision2} (hv : s.Valid) {pFace : Nat} {s' : CqSubdivision2}
    {sub : List Nat} (e : SubdivideFace Qff depth s pFace = some (s', sub)) (L M : Nat)
    (hcv : s'.cv L = some (some M)) (hnew : s.cv L ≠ some (some M)) :
    (∃ v, s'.VertexIndex L = some v ∧ s'.VertexIndex M = some v) ∧
      ∃ w, (s'.cfD M).bind s'.VertexIndex = some w ∧
        (s'.ccf L).bind s'.VertexIndex = some w := by
  rcases SubdivideFace_links Qff depth hv e L M hcv with h | h
  · exact absurd h hnew
  · exact h

/-- The two quads: the cycle round the shared mid-edge vertex runs through the
two children of the first quad and then through the two of the second. -/
theorem twoQuads_cycle_by_face :
    twoQuads.finalised.ec 1 = some (some 7) ∧ twoQuads.finalised.ec 7 = some (some 1) ∧
    SubdivideFace Qff 1 twoQuads.finalised 0 = some (twoQuads.refined1, [8, 12, 16, 20]) ∧
    SubdivideFace Qff 1 twoQuads.refined1 4 = some (twoQuads.refined2, [24, 28, 32, 36]) ∧
    twoQuads.refined2.VertexIndex 23 = some 10 ∧ twoQuads.refined2.VertexIndex 17 = some 10 ∧
    twoQuads.refined2.VertexIndex 31 = some 10 ∧ twoQuads.refined2.VertexIndex 25 = some 10 ∧
    twoQuads.refined2.cv 23 = some (some 17) ∧ twoQuads.refined2.cv 17 = some (some 31) ∧
    twoQuads.refined2.cv 31 = some (some 25) ∧ twoQuads.refined2.cv 25 = some (some 23) ∧
    (twoQuads.refined2.lath 23).map CqLath.m_pParentFacet = some (some 0) ∧
    (twoQuads.refined2.lath 17).map CqLath.m_pParentFacet = some (some 0) ∧
    (twoQuads.refined2.lath 31).map CqLath.m_pParentFacet = some (some 4) ∧
    (twoQuads.refined2.lath 25).map CqLath.m_pParentFacet = some (some 4) := by
  decide!

theorem SubdivideFace_sets_matching_links_witness :
    twoQuads.refined2.cv 25 = some (some 23) ∧ twoQuads.refined1.cv 25 ≠ some (some 23) ∧
    (∃ v, twoQuads.refined2.VertexIndex 25 = some v ∧
      twoQuads.refined2.VertexIndex 23 = some v) ∧
    ∃ w, (twoQuads.refined2.cfD 23).bind twoQuads.refined2.VertexIndex = some w ∧
      (twoQuads.refined2.ccf 25).bind twoQuads.refined2.VertexIndex = some w :=
  have h : twoQuads.refined1.cv 25 ≠ some (some 23) := by decide!
  ⟨twoQuads_cycle_by_face.2.2.2.2.2.2.2.2.2.2.2.1, h,
    SubdivideFace_sets_matching_links Qff 1
      (SubdivideFace_valid Qff 1 twoQuads.finalised 0 twoQuads.refined1 [8, 12, 16, 20]
        twoQuads_valid.1 twoQuads_cycle_by_face.2.2.1)
      twoQuads_cycle_by_face.2.2.2.1 25 23 twoQuads_cycle_by_face.2.2.2.2.2.2.2.2.2.2.2.1 h⟩

end CqSubdivision2
end Aqsis

namespace Aqsis
namespace CqSubdivision2

/-! ## Walks along an injective link -/

/-- A list of distinct numbers below `N` has at most `N` members. -/
theorem nodup_length_le {l : List Nat} {N : Nat} (hnd : l.Nodup) (hlt : ∀ x ∈ l, x < N) :
    l.length ≤ N := by
  have hsub : l ⊆ List.range N := fun x hx => List.mem_range.mpr (hlt x hx)
  have := (List.subperm_of_subset hnd hsub).length_le
  simpa using this

/-- In a path written newest first, every member but the last is the
successor of a member. -/
theorem path_pred {g : Nat → Option Nat} :
    ∀ (rpath : List Nat) (start : Nat),
      List.Chain' (fun b a => g a = some b) (rpath ++ [start]) →
      ∀ q ∈ rpath, ∃ w ∈ rpath ++ [start], g w = some q := by
  intro rpath
  induction rpath with
  | nil => intro _ _ q hq; cases hq
  | cons p rest ih =>
    intro start hch q hq
    rcases List.mem_cons.mp hq with rfl | hq
    · cases rest with
      | nil =>
        simp only [List.nil_append, List.cons_append, List.chain'_cons, List.chain'_singleton,
          and_true] at hch
        exact ⟨start, by simp, hch⟩
      | cons w r =>
        simp only [List.cons_append, List.chain'_cons] at hch
        exact ⟨w, by simp, hch.1⟩
    · have hch2 : List.Chain' (fun b a => g a = some b) (rest ++ [start]) := by
        simp only [List.cons_append] at hch
        exact hch.tail
      obtain ⟨w, hw, e⟩ := ih start hch2 q hq
      exact ⟨w, List.mem_cons_of_mem _ hw, e⟩

/-- The successor of the newest member of a path along an injective link is
new, unless it is the start of the path. -/
theorem path_fresh {g : Nat → Option Nat}
    (inj : ∀ a b c, g a = some c → g b = some c → a = b)
    {rest : List Nat} {start p q : Nat}
    (hch : List.Chain' (fun b a => g a = some b) (p :: rest))
    (hnd : (p :: rest).Nodup) (hlast : (p :: rest).getLast (by simp) = start)
    (hq : g p = some q) (hne : q ≠ start) : q ∉ p :: rest := by
  intro hmem
  -- split the path as init ++ [start]
  obtain ⟨init, hinit⟩ : ∃ init, p :: rest = init ++ [start] := by
    refine ⟨(p :: rest).dropLast, ?_⟩
    rw [← hlast]
    exact (List.dropLast_append_getLast (by simp)).symm
  rw [hinit] at hch hnd hmem
  have hqi : q ∈ init := by
    rcases List.mem_append.mp hmem with h | h
    · exact h
    · simp only [List.mem_singleton] at h
      exact absurd h hne
  obtain ⟨w, hw, e⟩ := path_pred init start hch q hqi
  have hwp : w = p := inj w p q e hq
  subst hwp
  -- `w` is the head of the path and occurs after `q` in it
  cases init with
  | nil => cases hqi
  | cons p0 r0 =>
    have hp0 : p0 = w := by
      have := congrArg List.head? hinit
      simpa using this.symm
    subst hp0
    -- the head has no predecessor inside the path: the chain gives g x = p0 for the
    -- member after it only when p0 occurs twice
    rcases List.mem_cons.mp hqi with rfl | hq2
    · -- q = p0: g p0 = p0, and p0 has a predecessor w2 with g w2 = p0, so w2 = p0
      cases r0 with
      | nil =>
        simp only [List.cons_append, List.nil_append, List.chain'_cons, List.chain'_singleton,
          and_true] at hch
        have := inj start q q hch hq
        subst this
        simp at hnd
      | cons w2 r2 =>
        simp only [List.cons_append, List.chain'_cons] at hch
        have := inj w2 q q hch.1 hq
        subst this
        simp at hnd
    · -- q lies deeper: its predecessor in the path is p0 again, at a later position
      have hch2 : List.Chain' (fun b a => g a = some b) (r0 ++ [start]) := by
        simp only [List.cons_append] at hch
        exact hch.tail
      obtain ⟨w2, hw2, e2⟩ := path_pred r0 start hch2 q hq2
      have := inj w2 p0 q e2 hq
      subst this
      simp only [List.cons_append, List.nodup_cons] at hnd
      exact hnd.1 hw2

end CqSubdivision2
end Aqsis

namespace Aqsis
namespace CqSubdivision2

/-! ## The vertex-neighbour link of a matched topology -/

section Links

variable {s : CqSubdivision2}

theorem cv_source_lt {a : Nat} {o : Option Nat} (e : s.cv a = some o) :
    a < s.m_apLaths.length := by
  unfold cv at e
  cases hl : s.lath a with
  | none => rw [hl] at e; cases e
  | some l => exact lath_lt hl

theorem MatchedLinks.inn_inj (hm : s.MatchedLinks) {x y : Nat}
    (hx : x < s.m_apLaths.length) (hy : y < s.m_apLaths.length)
    (h1 : s.vx x = s.vx y) (h2 : s.vx (s.pv x) = s.vx (s.pv y)) : x = y := by
  have hv := hm.valid
  have hpx := (hv.ccf_pv hx).2
  have hpy := (hv.ccf_pv hy).2
  have : s.pv x = s.pv y := by
    apply hm.out_inj hpx hpy h2
    rw [hv.nx_pv hx, hv.nx_pv hy, h1]
  rw [← hv.nx_pv hx, ← hv.nx_pv hy, this]

/-- No two laths of a matched topology have the same vertex-neighbour. -/
theorem MatchedLinks.cv_inj (hm : s.MatchedLinks) {x y z : Nat}
    (h1 : s.cv x = some (some z)) (h2 : s.cv y = some (some z)) : x = y := by
  have hx := cv_source_lt h1
  have hy := cv_source_lt h2
  have hz := hm.valid.cv_lt h1
  obtain ⟨a1, a2⟩ := (hm.link_iff hx hz).mp h1
  obtain ⟨b1, b2⟩ := (hm.link_iff hy hz).mp h2
  exact hm.inn_inj hx hy (by rw [← a1, b1]) (by rw [← a2, b2])

theorem MatchedLinks.cvD_inj (hm : s.MatchedLinks) :
    ∀ a b c, s.cvD a = some c → s.cvD b = some c → a = b :=
  fun _ _ _ h1 h2 => hm.cv_inj (cv_of_cvD h1) (cv_of_cvD h2)

/-- In a matched topology `ccv` undoes `cv`. -/
theorem MatchedLinks.ccv_of_cv (hm : s.MatchedLinks) {a b : Nat}
    (e : s.cv a = some (some b)) : s.ccv b = some (some a) := by
  have ha := cv_source_lt e
  have hb := hm.valid.cv_lt e
  have h1 := hm.cv_nx e
  obtain ⟨e0, _⟩ := hm.valid.cfD_nx hb
  obtain ⟨e1, _⟩ := hm.valid.cfD_nx (hm.valid.ccf_pv ha).2
  unfold ccv ec
  rw [e0]
  simp only [Option.some_bind, h1]
  rw [cf_of_cfD e1, hm.valid.nx_pv ha]

theorem MatchedLinks.ccv_some (hm : s.MatchedLinks) {b : Nat} (hb : b < s.m_apLaths.length) :
    ∃ o, s.ccv b = some o := by
  obtain ⟨e0, h0⟩ := hm.valid.cfD_nx hb
  obtain ⟨o, ho⟩ := hm.valid.cv_some h0
  unfold ccv ec
  rw [e0]
  simp only [Option.some_bind, ho]
  cases o with
  | none => exact ⟨none, rfl⟩
  | some z =>
    have hz := hm.valid.cv_lt ho
    obtain ⟨e1, _⟩ := hm.valid.cfD_nx hz
    exact ⟨some (s.nx z), cf_of_cfD e1⟩

/-- In a matched topology `cv` undoes `ccv`. -/
theorem MatchedLinks.cv_of_ccv (hm : s.MatchedLinks) {a b : Nat}
    (e : s.ccv b = some (some a)) : s.cv a = some (some b) := by
  have hb : b < s.m_apLaths.length := by
    unfold ccv at e
    cases hc : s.cfD b with
    | none => rw [hc] at e; cases e
    | some c => exact cfD_lt hc
  obtain ⟨e0, h0⟩ := hm.valid.cfD_nx hb
  obtain ⟨o, ho⟩ := hm.valid.cv_some h0
  unfold ccv ec at e
  rw [e0] at e
  simp only [Option.some_bind, ho] at e
  cases o with
  | none => cases e
  | some z =>
    simp only at e
    have hz := hm.valid.cv_lt ho
    obtain ⟨e1, _⟩ := hm.valid.cfD_nx hz
    rw [cf_of_cfD e1] at e
    have ea : s.nx z = a := by
      have := Option.some.inj e
      exact Option.some.inj this
    have h2 := hm.cv_nx ho
    rw [ea, hm.valid.pv_nx hb] at h2
    exact h2

theorem MatchedLinks.ccv_inj (hm : s.MatchedLinks) {x y z : Nat}
    (h1 : s.ccv x = some (some z)) (h2 : s.ccv y = some (some z)) : x = y := by
  have a := hm.cv_of_ccv h1
  have b := hm.cv_of_ccv h2
  rw [a] at b
  exact Option.some.inj (Option.some.inj b)

theorem cvIter_add (s : CqSubdivision2) :
    ∀ (a b x : Nat), s.cvIter (a + b) x = (s.cvIter a x).bind (s.cvIter b) := by
  intro a
  induction a with
  | zero => intro b x; simp [cvIter]
  | succ a ih =>
    intro b x
    rw [Nat.succ_add]
    simp only [cvIter]
    cases s.cvD x with
    | none => rfl
    | some y => simp only [Option.some_bind]; exact ih b y

/-- A chain that comes back to its start never ends. -/
theorem cvIter_cycle {x : Nat} {j : Nat} (hj : s.cvIter (j + 1) x = some x) :
    ∀ n, ∃ y, s.cvIter n x = some y := by
  intro n
  induction n using Nat.strong_induction_on with
  | _ n ih =>
    by_cases hn : n ≤ j
    · -- a prefix of the cycle
      have : s.cvIter (n + (j + 1 - n)) x = some x := by
        rw [show n + (j + 1 - n) = j + 1 by omega]
        exact hj
      rw [cvIter_add] at this
      cases h : s.cvIter n x with
      | none => rw [h] at this; cases this
      | some y => exact ⟨y, rfl⟩
    · have e : n = (j + 1) + (n - (j + 1)) := by omega
      rw [e, cvIter_add, hj]
      simp only [Option.some_bind]
      exact ih _ (by omega)

end Links

end CqSubdivision2
end Aqsis

namespace Aqsis
namespace CqSubdivision2

/-! ## The walks round a vertex of a matched topology end -/

section Walks

variable {s : CqSubdivision2}

/-- The forward walk ends: with the path so far and the fuel left adding up
to more than the number of laths, the walk from `p` returns. -/
theorem vertexChain.forward_total (hm : s.MatchedLinks) (start : Nat) :
    ∀ (fuel p : Nat) (rest : List Nat),
      List.Chain' (fun b a => s.cvD a = some b) (p :: rest) → (p :: rest).Nodup →
      (p :: rest).getLast (by simp) = start → (∀ x ∈ p :: rest, x < s.m_apLaths.length) →
      s.m_apLaths.length + 2 ≤ (p :: rest).length + fuel →
      ∃ r, vertexChain.forward s start fuel p = some r := by
  intro fuel
  induction fuel with
  | zero =>
    intro p rest _ hnd _ hlt hlen
    have := nodup_length_le hnd hlt
    omega
  | succ f ih =>
    intro p rest hch hnd hlast hlt hlen
    have hp : p < s.m_apLaths.length := hlt p (List.mem_cons_self _ _)
    obtain ⟨o, ho⟩ := hm.valid.cv_some hp
    simp only [vertexChain.forward, ho]
    cases o with
    | none => exact ⟨_, rfl⟩
    | some q =>
      simp only
      by_cases hq : q = start
      · simp only [hq, if_true]
        exact ⟨_, rfl⟩
      · simp only [hq, if_false]
        have hfresh := path_fresh hm.cvD_inj hch hnd hlast (cvD_of_cv ho) hq
        obtain ⟨r, hr⟩ := ih q (p :: rest)
          (List.chain'_cons.mpr ⟨cvD_of_cv ho, hch⟩)
          (List.nodup_cons.mpr ⟨hfresh, hnd⟩)
          (by rw [List.getLast_cons (by simp)]; exact hlast)
          (by
            intro x hx
            rcases List.mem_cons.mp hx with rfl | hx
            · exact hm.valid.cv_lt ho
            · exact hlt x hx)
          (by simp only [List.length_cons] at hlen ⊢; omega)
        rw [hr]
        exact ⟨_, rfl⟩

/-- A forward walk that stops at a missing link: the chain from its first
lath reaches a lath without vertex-neighbour. -/
theorem vertexChain.forward_dead (s : CqSubdivision2) (start : Nat) :
    ∀ (fuel p : Nat) (fw : List Nat), vertexChain.forward s start fuel p = some (fw, false) →
      ∃ k z, s.cvIter k p = some z ∧ s.cv z = some none := by
  intro fuel
  induction fuel with
  | zero => intro p fw e; cases e
  | succ f ih =>
    intro p fw e
    simp only [vertexChain.forward] at e
    cases ho : s.cv p with
    | none => rw [ho] at e; cases e
    | some o =>
      rw [ho] at e
      cases o with
      | none => exact ⟨0, p, rfl, ho⟩
      | some q =>
        simp only at e
        by_cases hq : q = start
        · simp [hq] at e
        · simp only [hq, if_false] at e
          cases hf : vertexChain.forward s start f q with
          | none => rw [hf] at e; cases e
          | some r =>
            rw [hf] at e
            simp only [Option.map_some', Option.some.injEq, Prod.mk.injEq] at e
            obtain ⟨k, z, hk, hz⟩ := ih q r.1 (by rw [hf, ← e.2])
            refine ⟨k + 1, z, ?_, hz⟩
            simp only [cvIter]
            rw [cvD_of_cv ho]
            exact hk

/-- A path of `ccv` steps, newest first, read as a chain of `cv` steps back
to its start. -/
theorem cvIter_of_path (hm : s.MatchedLinks) :
    ∀ (rest : List Nat) (p start : Nat),
      List.Chain' (fun b a => (s.ccv a).bind id = some b) (p :: rest) →
      (p :: rest).getLast (by simp) = start → s.cvIter rest.length p = some start := by
  intro rest
  induction rest with
  | nil =>
    intro p start _ hl
    simp only [List.getLast_singleton] at hl
    simp [cvIter, hl]
  | cons w r ih =>
    intro p start hch hl
    simp only [List.chain'_cons] at hch
    have hcc : s.ccv w = some (some p) := by
      cases h : s.ccv w with
      | none => rw [h] at hch; simp at hch
      | some o =>
        rw [h] at hch
        cases o with
        | none => simp at hch
        | some x =>
          simp only [Option.some_bind, id, Option.some.injEq] at hch
          rw [hch.1]
    have hcv := hm.cv_of_ccv hcc
    simp only [List.length_cons, cvIter]
    rw [cvD_of_cv hcv]
    simp only [Option.some_bind]
    apply ih w start hch.2
    rw [List.getLast_cons (by simp)] at hl
    exact hl

theorem ccvD_inj (hm : s.MatchedLinks) :
    ∀ a b c, (s.ccv a).bind id = some c → (s.ccv b).bind id = some c → a = b := by
  intro a b c h1 h2
  have e1 : s.ccv a = some (some c) := by
    cases h : s.ccv a with
    | none => rw [h] at h1; cases h1
    | some o =>
      rw [h] at h1
      cases o with
      | none => cases h1
      | some x => simp only [Option.some_bind, id, Option.some.injEq] at h1; rw [h1]
  have e2 : s.ccv b = some (some c) := by
    cases h : s.ccv b with
    | none => rw [h] at h2; cases h2
    | some o =>
      rw [h] at h2
      cases o with
      | none => cases h2
      | some x => simp only [Option.some_bind, id, Option.some.injEq] at h2; rw [h2]
  exact hm.ccv_inj e1 e2

/-- The backward walk ends without meeting the start, when the chain from
the start reaches a missing link. -/
theorem vertexChain.backward_total (hm : s.MatchedLinks) (start : Nat)
    (hdead : ∃ k z, s.cvIter k start = some z ∧ s.cv z = some none) :
    ∀ (fuel : Nat) (o : Option Nat) (rest : List Nat), rest ≠ [] →
      (∀ p, o = some p →
        List.Chain' (fun b a => (s.ccv a).bind id = some b) (p :: rest) ∧ (p :: rest).Nodup) →
      rest.getLast? = some start → rest.Nodup → (∀ x ∈ rest, x < s.m_apLaths.length) →
      s.m_apLaths.length + 1 ≤ rest.length + fuel →
      ∃ r, vertexChain.backward s start fuel o = some r := by
  intro fuel
  induction fuel with
  | zero =>
    intro o rest _ _ _ hnd hlt hlen
    have := nodup_length_le hnd hlt
    omega
  | succ f ih =>
    intro o rest hne hp hlast hnd hlt hlen
    cases o with
    | none => exact ⟨[], rfl⟩
    | some p =>
      obtain ⟨hch, hnd2⟩ := hp p rfl
      have hmem : start ∈ rest := List.mem_of_mem_getLast? hlast
      have hps : p ≠ start := by
        intro e
        subst e
        exact (List.nodup_cons.mp hnd2).1 hmem
      have hlast2 : (p :: rest).getLast (by simp) = start := by
        rw [List.getLast_cons hne]
        have := List.getLast?_eq_getLast rest hne
        rw [this] at hlast
        exact Option.some.inj hlast
      have hpl : p < s.m_apLaths.length := by
        cases rest with
        | nil => exact absurd rfl hne
        | cons w r =>
          simp only [List.chain'_cons] at hch
          have hcc : s.ccv w = some (some p) := by
            cases h : s.ccv w with
            | none => rw [h] at hch; simp at hch
            | some o =>
              rw [h] at hch
              cases o with
              | none => simp at hch
              | some x =>
                simp only [Option.some_bind, id, Option.some.injEq] at hch
                rw [hch.1]
          exact cv_source_lt (hm.cv_of_ccv hcc)
      simp only [vertexChain.backward, hps, if_false]
      obtain ⟨o2, ho2⟩ := hm.ccv_some hpl
      rw [ho2]
      simp only
      obtain ⟨r, hr⟩ := ih o2 (p :: rest) (by simp)
        (by
          intro q hq
          subst hq
          have hstep : (s.ccv p).bind id = some q := by rw [ho2]; rfl
          have hch2 : List.Chain' (fun b a => (s.ccv a).bind id = some b) (q :: p :: rest) :=
            List.chain'_cons.mpr ⟨hstep, hch⟩
          refine ⟨hch2, ?_⟩
          have hqs : q ≠ start := by
            intro e
            subst e
            have hcyc := cvIter_of_path hm (p :: rest) q q hch2
              (by rw [List.getLast_cons (by simp)]; exact hlast2)
            simp only [List.length_cons] at hcyc
            obtain ⟨k, z, hk, hz⟩ := hdead
            obtain ⟨y, hy⟩ := cvIter_cycle hcyc (k + 1)
            rw [cvIter_add, hk] at hy
            simp only [Option.some_bind, cvIter] at hy
            have : s.cvD z = none := by
              unfold cvD
              unfold cv at hz
              cases hl : s.lath z with
              | none => rfl
              | some l =>
                rw [hl] at hz
                simp only [Option.map_some', Option.some.injEq] at hz
                simp [hz]
            rw [this] at hy
            cases hy
          exact List.nodup_cons.mpr
            ⟨path_fresh (ccvD_inj hm) hch hnd2 hlast2 hstep hqs, hnd2⟩)
        (by rw [List.getLast?_eq_getLast _ (by simp), hlast2])
        hnd2
        (by
          intro x hx
          rcases List.mem_cons.mp hx with rfl | hx
          · exact hpl
          · exact hlt x hx)
        (by simp only [List.length_cons]; omega)
      rw [hr]
      exact ⟨_, rfl⟩

end Walks

end CqSubdivision2
end Aqsis

namespace Aqsis
namespace CqSubdivision2

/-! ## The enumerations of a matched topology return -/

section Total

variable {s : CqSubdivision2}

theorem cvD_none_of_cv {z : Nat} (hz : s.cv z = some none) : s.cvD z = none := by
  unfold cvD
  unfold cv at hz
  cases hl : s.lath z with
  | none => rfl
  | some l =>
    rw [hl] at hz
    simp only [Option.map_some', Option.some.injEq] at hz
    simp [hz]

/-- The walk round the vertex of any lath of a matched topology ends. -/
theorem MatchedLinks.vertexChain_some (hm : s.MatchedLinks) {q : Nat}
    (hq : q < s.m_apLaths.length) : ∃ chain, s.vertexChain q = some chain := by
  obtain ⟨r, hr⟩ := vertexChain.forward_total hm q (s.m_apLaths.length + 1) q []
    (List.chain'_singleton q) (List.nodup_singleton q) (by simp)
    (by intro x hx; simp only [List.mem_singleton] at hx; omega)
    (by simp only [List.length_singleton]; omega)
  unfold vertexChain
  rw [hr]
  obtain ⟨fw, b⟩ := r
  cases b with
  | true => exact ⟨fw, rfl⟩
  | false =>
    simp only
    have hdead := vertexChain.forward_dead s q _ q fw hr
    obtain ⟨o, ho⟩ := hm.ccv_some hq
    rw [ho]
    simp only [Option.some_bind]
    obtain ⟨bw, hbw⟩ := vertexChain.backward_total hm q hdead (s.m_apLaths.length + 1) o [q]
      (by simp)
      (by
        intro p hp
        subst hp
        have hstep : (s.ccv q).bind id = some p := by rw [ho]; rfl
        refine ⟨List.chain'_cons.mpr ⟨hstep, List.chain'_singleton q⟩, ?_⟩
        have hpq : p ≠ q := by
          intro e
          subst e
          have hcv := hm.cv_of_ccv ho
          have hcyc : s.cvIter (0 + 1) p = some p := by
            simp only [cvIter]
            rw [cvD_of_cv hcv]
            rfl
          obtain ⟨k, z, hk, hz⟩ := hdead
          obtain ⟨y, hy⟩ := cvIter_cycle hcyc (k + 1)
          rw [cvIter_add, hk] at hy
          simp only [Option.some_bind, cvIter] at hy
          rw [cvD_none_of_cv hz] at hy
          cases hy
        simp [hpq])
      (by simp) (List.nodup_singleton q)
      (by intro x hx; simp only [List.mem_singleton] at hx; omega)
      (by simp only [List.length_singleton]; omega)
    rw [hbw]
    exact ⟨_, rfl⟩

/-- The walk of `Qvf` ends. -/
theorem Qvf.loop_total (hm : s.MatchedLinks) (this : Nat) :
    ∀ (fuel : Nat) (o : Option Nat) (x : Nat) (r : List Nat),
      s.cv x = some o → List.Chain' (fun b a => s.cvD a = some b) (x :: r) → (x :: r).Nodup →
      (x :: r).getLast (by simp) = this → (∀ y ∈ x :: r, y < s.m_apLaths.length) →
      s.m_apLaths.length + 1 ≤ (x :: r).length + fuel →
      ∃ res, Qvf.loop s this fuel o = some res ∧
        ∀ l, res = some l → ∀ y ∈ l, y < s.m_apLaths.length := by
  intro fuel
  induction fuel with
  | zero =>
    intro o x r _ _ hnd _ hlt hlen
    have := nodup_length_le hnd hlt
    omega
  | succ f ih =>
    intro o x r hx hch hnd hlast hlt hlen
    cases o with
    | none => exact ⟨none, rfl, fun l hl => by cases hl⟩
    | some p =>
      simp only [Qvf.loop]
      by_cases hp : p = this
      · simp only [hp, if_true]
        exact ⟨some [], rfl, fun l hl y hy => by
          simp only [Option.some.injEq] at hl
          subst hl
          cases hy⟩
      · simp only [hp, if_false]
        have hpl := hm.valid.cv_lt hx
        obtain ⟨o2, ho2⟩ := hm.valid.cv_some hpl
        rw [ho2]
        simp only
        have hfresh := path_fresh hm.cvD_inj hch hnd hlast (cvD_of_cv hx) hp
        obtain ⟨res, hres, hmem⟩ := ih o2 p (x :: r) ho2
          (List.chain'_cons.mpr ⟨cvD_of_cv hx, hch⟩)
          (List.nodup_cons.mpr ⟨hfresh, hnd⟩)
          (by rw [List.getLast_cons (by simp)]; exact hlast)
          (by
            intro y hy
            rcases List.mem_cons.mp hy with rfl | hy
            · exact hpl
            · exact hlt y hy)
          (by simp only [List.length_cons] at hlen ⊢; omega)
        rw [hres]
        refine ⟨res.map (fun l => p :: l), rfl, ?_⟩
        intro l hl y hy
        cases res with
        | none => cases hl
        | some l0 =>
          simp only [Option.map_some', Option.some.injEq] at hl
          subst hl
          rcases List.mem_cons.mp hy with rfl | hy
          · exact hpl
          · exact hmem l0 rfl y hy

/-- The vertex ring of any lath of a matched topology is enumerated, and
holds laths only. -/
theorem MatchedLinks.Qvf_some (hm : s.MatchedLinks) {q : Nat} (hq : q < s.m_apLaths.length) :
    ∃ l, s.Qvf q = some l ∧ ∀ y ∈ l, y < s.m_apLaths.length := by
  obtain ⟨o, ho⟩ := hm.valid.cv_some hq
  obtain ⟨res, hres, hmem⟩ := Qvf.loop_total hm q s.m_apLaths.length o q [] ho
    (List.chain'_singleton q) (List.nodup_singleton q) (by simp)
    (by intro x hx; simp only [List.mem_singleton] at hx; omega)
    (by simp only [List.length_singleton]; omega)
  unfold Qvf
  rw [ho]
  simp only
  rw [hres]
  cases res with
  | none => exact ⟨[], rfl, fun y hy => by cases hy⟩
  | some l =>
    refine ⟨q :: l, rfl, ?_⟩
    intro y hy
    rcases List.mem_cons.mp hy with rfl | hy
    · exact hq
    · exact hmem l rfl y hy

theorem Valid.Qfv_some (hv : s.Valid) {q : Nat} (hq : q < s.m_apLaths.length) :
    ∃ ring, s.Qfv q = some ring ∧ ∀ y ∈ ring, y < s.m_apLaths.length := by
  obtain ⟨ring, hr, hmem⟩ := hv.rings q hq
  obtain ⟨tl, hr1, _⟩ := hr.ring_of_mem hmem
  exact ⟨q :: tl, Qfv_of_ring hr1, fun y hy => hr1.lt y hy⟩

theorem Qff.seen_some (hv : s.Valid) (x : Nat) :
    ∀ acc : List Nat, (∀ y ∈ acc, y < s.m_apLaths.length) → ∃ b, Qff.seen s x acc = some b := by
  intro acc
  induction acc with
  | nil => intro _; exact ⟨false, rfl⟩
  | cons y rest ih =>
    intro hlt
    obtain ⟨ring, hr, _⟩ := hv.Qfv_some (hlt y (List.mem_cons_self _ _))
    simp only [Qff.seen, hr]
    by_cases hc : ring.contains x = true
    · simp only [hc, if_true]
      exact ⟨true, rfl⟩
    · simp only [hc, if_false]
      exact ih (fun z hz => hlt z (List.mem_cons_of_mem _ hz))

/-- The faces round any face of a matched topology are enumerated, and are
laths. -/
theorem MatchedLinks.Qff_some (hm : s.MatchedLinks) {f : Nat} (hf : f < s.m_apLaths.length) :
    ∃ l, Qff s f = some l ∧ ∀ y ∈ l, y < s.m_apLaths.length := by
  obtain ⟨corners, hc, hclt⟩ := hm.valid.Qfv_some hf
  unfold Qff
  rw [hc]
  simp only [Option.some_bind]
  apply forEach_some _ (fun acc => ∀ y ∈ acc, y < s.m_apLaths.length) corners _ []
    (fun y hy => by cases hy)
  intro c hcm acc hacc
  obtain ⟨around, ha, halt⟩ := hm.Qvf_some (hclt c hcm)
  rw [ha]
  simp only [Option.some_bind]
  apply forEach_some _ (fun acc => ∀ y ∈ acc, y < s.m_apLaths.length) around _ acc hacc
  intro x hxm acc1 hacc1
  obtain ⟨b, hb⟩ := Qff.seen_some hm.valid x acc1 hacc1
  rw [hb]
  cases b with
  | true => exact ⟨acc1, rfl, hacc1⟩
  | false =>
    refine ⟨acc1 ++ [x], rfl, ?_⟩
    intro y hy
    rcases List.mem_append.mp hy with h | h
    · exact hacc1 y h
    · simp only [List.mem_singleton] at h
      subst h
      exact halt y hxm

end Total

end CqSubdivision2
end Aqsis

namespace Aqsis
namespace CqSubdivision2

/-! ## The linking loops never clear a link -/

theorem SubdivideFace.Kept.kept_refl (s : CqSubdivision2) : SubdivideFace.Kept s s :=
  ⟨rfl, rfl, fun _ x h => ⟨x, h⟩⟩

theorem SubdivideFace.Kept.kept_trans {a b c : CqSubdivision2} (h1 : SubdivideFace.Kept a b)
    (h2 : SubdivideFace.Kept b c) : SubdivideFace.Kept a c :=
  ⟨h2.core.trans h1.core, h2.table.trans h1.table, fun h x hx => by
    obtain ⟨y, hy⟩ := h1.kept h x hx
    exact h2.kept h y hy⟩

theorem SubdivideFace.Kept.kept_outKey {s t : CqSubdivision2} (h : SubdivideFace.Kept s t)
    (x : Nat) : t.outKey x = s.outKey x := outKey_of_dropCF h.core x

theorem SubdivideFace.Kept.kept_innKey {s t : CqSubdivision2} (h : SubdivideFace.Kept s t)
    (x : Nat) : t.innKey x = s.innKey x := innKey_of_dropCF h.core x

theorem SubdivideFace.Kept.vertex_eq {s t : CqSubdivision2} (h : SubdivideFace.Kept s t)
    (x : Nat) : t.VertexIndex x = s.VertexIndex x := VertexIndex_of_dropCF h.core x

/-- A write of a vertex-neighbour link. -/
theorem SubdivideFace.Kept.kept_write {t t1 : CqSubdivision2} {X c : Nat}
    (e : t.setLath X (fun l => { l with m_pClockwiseVertex := some c }) = some t1) :
    SubdivideFace.Kept t t1 ∧ t1.cv X = some (some c) := by
  have hcv : ∀ h, t1.cv h = if h = X then (t.lath h).map (fun _ => some c) else t.cv h := by
    intro h
    unfold cv
    rw [setLath_lath e h]
    by_cases hh : h = X
    · simp only [hh, if_true, Option.map_map]
      rfl
    · simp only [hh, if_false]
  obtain ⟨l, hl, _⟩ := setLath_eq_some e
  refine ⟨⟨setLath_dropCF e (fun _ => rfl), (setLath_fields e).1, ?_⟩, ?_⟩
  · intro h x hx
    rw [hcv h]
    by_cases hh : h = X
    · subst hh
      rw [if_pos rfl, hl]
      exact ⟨c, rfl⟩
    · rw [if_neg hh]
      exact ⟨x, hx⟩
  · rw [hcv X, if_pos rfl, hl]
    rfl

/-- A write of a face-vertex pointer. -/
theorem SubdivideFace.Kept.kept_write_face {t t1 : CqSubdivision2} {X : Nat} {o : Option Nat}
    (e : t.setLath X (fun l => { l with m_pFaceVertex := o }) = some t1) :
    SubdivideFace.Kept t t1 := by
  refine ⟨setLath_dropCF e (fun _ => rfl), (setLath_fields e).1, ?_⟩
  intro h x hx
  refine ⟨x, ?_⟩
  unfold cv at hx ⊢
  rw [setLath_lath e h]
  by_cases hh : h = X
  · rw [if_pos hh]
    cases hl : t.lath h with
    | none => rw [hl] at hx; cases hx
    | some l =>
      rw [hl] at hx
      exact hx
  · rw [if_neg hh]
    exact hx

/-- A conditional write of a vertex-neighbour link. -/
theorem SubdivideFace.Kept.kept_write_if {t t1 : CqSubdivision2} {X c : Nat} (b : Prop)
    [Decidable b]
    (e : (if b then t.setLath X (fun l => { l with m_pClockwiseVertex := some c })
      else some t) = some t1) :
    SubdivideFace.Kept t t1 ∧ (b → t1.cv X = some (some c)) := by
  by_cases hb : b
  · rw [if_pos hb] at e
    obtain ⟨h1, h2⟩ := SubdivideFace.Kept.kept_write e
    exact ⟨h1, fun _ => h2⟩
  · rw [if_neg hb] at e
    cases e
    exact ⟨SubdivideFace.Kept.kept_refl t, fun h => absurd h hb⟩

theorem SubdivideFace.linkCorner_kept {t t' : CqSubdivision2} {f : SqFaceLathList} {X : Nat}
    (e : SubdivideFace.linkCorner f X t = some t') : SubdivideFace.Kept t t' := by
  unfold SubdivideFace.linkCorner at e
  cases h1 : (t.cfD X).bind t.VertexIndex with
  | none => rw [h1] at e; simp at e
  | some v =>
    cases h2 : t.VertexIndex f.pD with
    | none => rw [h1, h2] at e; simp at e
    | some vD =>
      rw [h1, h2] at e
      simp only at e
      cases h3 : (if v = vD then t.setLath f.pA (fun l => { l with m_pClockwiseVertex := some X })
          else some t) with
      | none => rw [h3] at e; simp at e
      | some t1 =>
        rw [h3] at e
        simp only [Option.some_bind] at e
        obtain ⟨k1, _⟩ := SubdivideFace.Kept.kept_write_if (v = vD) h3
        cases h4 : (t1.ccf X).bind t1.VertexIndex with
        | none => rw [h4] at e; simp at e
        | some v2 =>
          cases h5 : t1.VertexIndex f.pB with
          | none => rw [h4, h5] at e; simp at e
          | some vB =>
            rw [h4, h5] at e
            simp only at e
            obtain ⟨k2, _⟩ := SubdivideFace.Kept.kept_write_if (v2 = vB) e
            exact k1.kept_trans k2

theorem SubdivideFace.linkEdgeB_kept {t t' : CqSubdivision2} {f : SqFaceLathList} {X : Nat}
    (e : SubdivideFace.linkEdgeB f X t = some t') :
    SubdivideFace.Kept t t' ∧
      (t.outKey X = t.VertexIndex f.pA → ∃ y, t'.cv f.pB = some (some y)) := by
  unfold SubdivideFace.linkEdgeB at e
  cases h1 : (t.cfD X).bind t.VertexIndex with
  | none => rw [h1] at e; simp at e
  | some v =>
    cases h2 : t.VertexIndex f.pA with
    | none => rw [h1, h2] at e; simp at e
    | some vA =>
      rw [h1, h2] at e
      simp only at e
      obtain ⟨k1, w1⟩ := SubdivideFace.Kept.kept_write_if (v = vA) e
      refine ⟨k1, fun hm => ⟨X, w1 ?_⟩⟩
      have : t.outKey X = some v := h1
      rw [this] at hm
      exact Option.some.inj hm

theorem SubdivideFace.linkEdgeD_kept {t t' : CqSubdivision2} {f : SqFaceLathList} {X : Nat}
    (e : SubdivideFace.linkEdgeD f X t = some t') :
    SubdivideFace.Kept t t' ∧
      (t.innKey X = t.VertexIndex f.pA → t'.cv X = some (some f.pD)) := by
  unfold SubdivideFace.linkEdgeD at e
  cases h1 : (t.ccf X).bind t.VertexIndex with
  | none => rw [h1] at e; simp at e
  | some v =>
    cases h2 : t.VertexIndex f.pA with
    | none => rw [h1, h2] at e; simp at e
    | some vA =>
      rw [h1, h2] at e
      simp only at e
      obtain ⟨k1, w1⟩ := SubdivideFace.Kept.kept_write_if (v = vA) e
      refine ⟨k1, fun hm => w1 ?_⟩
      have : t.innKey X = some v := h1
      rw [this] at hm
      exact Option.some.inj hm

/-- A scan by a body that keeps the links: the links are kept, and a link a
step of the scan has set is still set at the end. -/
theorem SubdivideFace.scan_kept (body : Nat → CqSubdivision2 → Option CqSubdivision2) :
    ∀ (adj : List Nat),
      (∀ X ∈ adj, ∀ (t t' : CqSubdivision2), body X t = some t' → SubdivideFace.Kept t t') →
      ∀ (t t' : CqSubdivision2), forEach body adj t = some t' →
      SubdivideFace.Kept t t' ∧
      ∀ X ∈ adj, ∀ (h : Nat), (∀ u u' : CqSubdivision2, SubdivideFace.Kept t u →
          body X u = some u' → ∃ y, u'.cv h = some (some y)) →
        ∃ y, t'.cv h = some (some y) := by
  intro adj
  induction adj with
  | nil =>
    intro _ t t' e
    simp only [forEach, Option.some.injEq] at e
    subst e
    exact ⟨SubdivideFace.Kept.kept_refl t, fun X hX => by cases hX⟩
  | cons a rest ih =>
    intro hbody t t' e
    simp only [forEach] at e
    cases h1 : body a t with
    | none => rw [h1] at e; simp at e
    | some t1 =>
      rw [h1] at e
      simp only [Option.some_bind] at e
      have k1 := hbody a (List.mem_cons_self _ _) t t1 h1
      obtain ⟨k2, w2⟩ := ih (fun X hX => hbody X (List.mem_cons_of_mem _ hX)) t1 t' e
      refine ⟨k1.kept_trans k2, ?_⟩
      intro X hX h hw
      rcases List.mem_cons.mp hX with rfl | hX
      · obtain ⟨y, hy⟩ := hw t t1 (SubdivideFace.Kept.kept_refl t) h1
        exact k2.kept h y hy
      · exact w2 X hX h (fun u u' ku eu => hw u u' (k1.kept_trans ku) eu)

/-- An iteration of the first linking loop keeps the links and links the
fourth lath of the next child face. -/
theorem SubdivideFace.linkFace_kept {t t' : CqSubdivision2} {aQfv : List Nat}
    {faces : List SqFaceLathList} {n i : Nat} {f fN : SqFaceLathList}
    (hf : faces[i]? = some f) (hfN : faces[(i + 1) % n]? = some fN)
    (e : SubdivideFace.linkFace aQfv faces n i t = some t') :
    SubdivideFace.Kept t t' ∧ ∃ y, t'.cv fN.pD = some (some y) := by
  unfold SubdivideFace.linkFace at e
  cases hq : aQfv[i]? with
  | none => rw [hq] at e; simp at e
  | some q =>
    rw [hq, hf, hfN] at e
    simp only at e
    cases h1 : t.setLath q (fun l => { l with m_pFaceVertex := some f.pC }) with
    | none => rw [h1] at e; simp at e
    | some t1 =>
      rw [h1] at e
      simp only [Option.some_bind] at e
      have k1 := SubdivideFace.Kept.kept_write_face h1
      cases h2 : t1.setLath fN.pD (fun l => { l with m_pClockwiseVertex := some f.pB }) with
      | none => rw [h2] at e; simp at e
      | some t2 =>
        rw [h2] at e
        simp only [Option.some_bind] at e
        obtain ⟨k2, w2⟩ := SubdivideFace.Kept.kept_write h2
        cases h3 : t2.setLath f.pC (fun l => { l with m_pClockwiseVertex := some fN.pC }) with
        | none => rw [h3] at e; simp at e
        | some t3 =>
          rw [h3] at e
          simp only [Option.some_bind] at e
          obtain ⟨k3, _⟩ := SubdivideFace.Kept.kept_write h3
          cases h4 : t3.VertexIndex f.pA with
          | none => rw [h4] at e; simp at e
          | some vA =>
            rw [h4] at e
            simp only [Option.some_bind] at e
            cases h5 : t3.m_aapVertices[vA]? with
            | none => rw [h5] at e; simp at e
            | some adj =>
              rw [h5] at e
              simp only [Option.some_bind] at e
              obtain ⟨k4, _⟩ := SubdivideFace.scan_kept (SubdivideFace.linkCorner f) adj
                (fun X _ u u' eu => SubdivideFace.linkCorner_kept eu) t3 t' e
              refine ⟨((k1.kept_trans k2).kept_trans k3).kept_trans k4, ?_⟩
              obtain ⟨y, hy⟩ := k3.kept _ _ w2
              exact k4.kept _ _ hy

/-- An iteration of the second linking loop keeps the links, links the second
lath of the child face when a lath at its vertex matches, and links every
lath at the vertex of the fourth lath that matches. -/
theorem SubdivideFace.linkEdge_kept {t t' : CqSubdivision2}
    {faces : List SqFaceLathList} {i : Nat} {f : SqFaceLathList}
    (hf : faces[i]? = some f)
    (e : SubdivideFace.linkEdge faces i t = some t') :
    SubdivideFace.Kept t t' ∧
      (∀ vB adjB X, t.VertexIndex f.pB = some vB → t.m_aapVertices[vB]? = some adjB →
        X ∈ adjB → t.outKey X = t.VertexIndex f.pA → ∃ y, t'.cv f.pB = some (some y)) ∧
      (∀ vD adjD X, t.VertexIndex f.pD = some vD → t.m_aapVertices[vD]? = some adjD →
        X ∈ adjD → t.innKey X = t.VertexIndex f.pA → ∃ y, t'.cv X = some (some y)) := by
  unfold SubdivideFace.linkEdge at e
  rw [hf] at e
  simp only at e
  cases h1 : t.VertexIndex f.pB with
  | none => rw [h1] at e; simp at e
  | some vB =>
    rw [h1] at e
    simp only [Option.some_bind] at e
    cases h2 : t.m_aapVertices[vB]? with
    | none => rw [h2] at e; simp at e
    | some adjB =>
      rw [h2] at e
      simp only [Option.some_bind] at e
      cases h3 : forEach (SubdivideFace.linkEdgeB f) adjB t with
      | none => rw [h3] at e; simp at e
      | some t1 =>
        rw [h3] at e
        simp only [Option.some_bind] at e
        obtain ⟨k1, w1⟩ := SubdivideFace.scan_kept (SubdivideFace.linkEdgeB f) adjB
          (fun X _ u u' eu => (SubdivideFace.linkEdgeB_kept eu).1) t t1 h3
        cases h4 : t1.VertexIndex f.pD with
        | none => rw [h4] at e; simp at e
        | some vD =>
          rw [h4] at e
          simp only [Option.some_bind] at e
          cases h5 : t1.m_aapVertices[vD]? with
          | none => rw [h5] at e; simp at e
          | some adjD =>
            rw [h5] at e
            simp only [Option.some_bind] at e
            obtain ⟨k2, w2⟩ := SubdivideFace.scan_kept (SubdivideFace.linkEdgeD f) adjD
              (fun X _ u u' eu => (SubdivideFace.linkEdgeD_kept eu).1) t1 t' e
            refine ⟨k1.kept_trans k2, ?_, ?_⟩
            · intro vB2 adjB2 X hvB hadj hX hkey
              cases hvB
              rw [h2] at hadj
              cases hadj
              obtain ⟨y, hy⟩ := w1 X hX f.pB (fun u u' ku eu =>
                (SubdivideFace.linkEdgeB_kept eu).2 (by
                  rw [ku.kept_outKey, ku.vertex_eq]
                  exact hkey))
              exact k2.kept _ _ hy
            · intro vD2 adjD2 X hvD hadj hX hkey
              rw [← k1.vertex_eq, h4] at hvD
              cases hvD
              rw [← k1.table, h5] at hadj
              cases hadj
              exact w2 X hX X (fun u u' ku eu =>
                ⟨f.pD, (SubdivideFace.linkEdgeD_kept eu).2 (by
                  rw [ku.kept_innKey, ku.vertex_eq, k1.kept_innKey, k1.vertex_eq]
                  exact hkey)⟩)

/-- The two linking loops keep the links of the state they start in, link the
fourth lath of every child face, link the second lath of a child face when a
lath at its vertex matches it, and link every lath that matches the fourth lath
of a child face. -/
theorem SubdivideFace.linked_kept {sc s1 s2 : CqSubdivision2} {N n : Nat}
    (aQfv aV : List Nat)
    (hvi : ∀ j k, j < n → k < 4 →
      sc.VertexIndex (N + (4 * j + k)) = some (SubdivideFace.cornerVertex aV n j k))
    (e1 : forEach (SubdivideFace.linkFace aQfv ((List.range n).map (SubdivideFace.faceLaths N))
      n) (List.range n) sc = some s1)
    (e2 : forEach (SubdivideFace.linkEdge ((List.range n).map (SubdivideFace.faceLaths N)))
      (List.range n) s1 = some s2) :
    SubdivideFace.Kept sc s2 ∧
      (∀ j, j < n → ∃ y, s2.cv (N + (4 * j + 3)) = some (some y)) ∧
      (∀ j adj X, j < n →
        sc.m_aapVertices[aV.getD ((j + 1) % n + n) 0]? = some adj → X ∈ adj →
        sc.outKey X = some (aV.getD j 0) → ∃ y, s2.cv (N + (4 * j + 1)) = some (some y)) ∧
      (∀ j adj X, j < n → sc.m_aapVertices[aV.getD (j + n) 0]? = some adj → X ∈ adj →
        sc.innKey X = some (aV.getD j 0) → ∃ y, s2.cv X = some (some y)) := by
  have hA : ∀ j, j < n → sc.VertexIndex (SubdivideFace.faceLaths N j).pA =
      some (aV.getD j 0) := fun j hj => by
    simpa [SubdivideFace.faceLaths, SubdivideFace.cornerVertex, Nat.add_assoc]
      using hvi j 0 hj (by omega)
  have hB : ∀ j, j < n → sc.VertexIndex (SubdivideFace.faceLaths N j).pB =
      some (aV.getD ((j + 1) % n + n) 0) := fun j hj => by
    simpa [SubdivideFace.faceLaths, SubdivideFace.cornerVertex, Nat.add_assoc]
      using hvi j 1 hj (by omega)
  have hD : ∀ j, j < n → sc.VertexIndex (SubdivideFace.faceLaths N j).pD =
      some (aV.getD (j + n) 0) := fun j hj => by
    simpa [SubdivideFace.faceLaths, SubdivideFace.cornerVertex, Nat.add_assoc]
      using hvi j 3 hj (by omega)
  obtain ⟨k1, w1⟩ := SubdivideFace.scan_kept _ (List.range n)
    (fun i hi u u' eu => (SubdivideFace.linkFace_kept
      (SubdivideFace.faces_getElem? N n i (List.mem_range.mp hi))
      (SubdivideFace.faces_getElem? N n _ (Nat.mod_lt _ (by
        have := List.mem_range.mp hi
        omega))) eu).1) sc s1 e1
  obtain ⟨k2, w2⟩ := SubdivideFace.scan_kept _ (List.range n)
    (fun i hi u u' eu => (SubdivideFace.linkEdge_kept
      (SubdivideFace.faces_getElem? N n i (List.mem_range.mp hi)) eu).1) s1 s2 e2
  refine ⟨k1.kept_trans k2, ?_, ?_, ?_⟩
  · intro j hj
    have hi : (j + n - 1) % n < n := Nat.mod_lt _ (by omega)
    have hji : ((j + n - 1) % n + 1) % n = j := by
      rcases Nat.eq_zero_or_pos j with h0 | hpos
      · subst h0
        rcases Nat.lt_or_ge 1 n with h1 | h1
        · rw [Nat.zero_add, Nat.mod_eq_of_lt (show n - 1 < n by omega),
            show n - 1 + 1 = n by omega, Nat.mod_self]
        · have : n = 1 := by omega
          subst this
          rfl
      · rw [show j + n - 1 = (j - 1) + n by omega, Nat.add_mod_right,
          Nat.mod_eq_of_lt (show j - 1 < n by omega), show j - 1 + 1 = j by omega,
          Nat.mod_eq_of_lt hj]
    obtain ⟨y, hy⟩ := w1 ((j + n - 1) % n) (List.mem_range.mpr hi) (N + (4 * j + 3))
      (fun u u' ku eu => by
        have := (SubdivideFace.linkFace_kept
          (SubdivideFace.faces_getElem? N n _ hi)
          (SubdivideFace.faces_getElem? N n _ (Nat.mod_lt _ (by omega))) eu).2
        rw [hji] at this
        simpa [SubdivideFace.faceLaths, Nat.add_assoc] using this)
    exact k2.kept _ _ hy
  · intro j adj X hj hadj hX hkey
    have := w2 j (List.mem_range.mpr hj) (N + (4 * j + 1)) (fun u u' ku eu => by
      have h := (SubdivideFace.linkEdge_kept (SubdivideFace.faces_getElem? N n j hj) eu).2.1
        (aV.getD ((j + 1) % n + n) 0) adj X
        (by rw [ku.vertex_eq, k1.vertex_eq]; exact hB j hj)
        (by rw [ku.table, k1.table]; exact hadj) hX
        (by rw [ku.kept_outKey, k1.kept_outKey, ku.vertex_eq, k1.vertex_eq, hA j hj]; exact hkey)
      simpa [SubdivideFace.faceLaths, Nat.add_assoc] using h)
    exact this
  · intro j adj X hj hadj hX hkey
    exact w2 j (List.mem_range.mpr hj) X (fun u u' ku eu =>
      (SubdivideFace.linkEdge_kept (SubdivideFace.faces_getElem? N n j hj) eu).2.2
        (aV.getD (j + n) 0) adj X
        (by rw [ku.vertex_eq, k1.vertex_eq]; exact hD j hj)
        (by rw [ku.table, k1.table]; exact hadj) hX
        (by rw [ku.kept_innKey, k1.kept_innKey, ku.vertex_eq, k1.vertex_eq, hA j hj]; exact hkey))

/-- A successful refinement with everything the linking loops are known to
do: the origin of the child-vertex and mid-vertex pointers, the matching rule
for every new link, and the links that are certainly set. -/
theorem SubdivideFace.refine_trace {s : CqSubdivision2} (hv : s.Valid) {pFace : Nat}
    {s' : CqSubdivision2} {sub : List Nat}
    (e : SubdivideFace.refine s pFace = some (s', sub)) :
    ∃ aQfv k aV sc, SubdivideFace.Refined s pFace s' sub aQfv k aV sc ∧
      SubdivideFace.Origin s aQfv.length sc ∧ LinksFrom sc s' ∧ SubdivideFace.Kept sc s' ∧
      (∀ j, j < aQfv.length →
        ∃ y, s'.cv (s.m_apLaths.length + (4 * j + 3)) = some (some y)) ∧
      (∀ j adj X, j < aQfv.length →
        sc.m_aapVertices[aV.getD ((j + 1) % aQfv.length + aQfv.length) 0]? = some adj →
        X ∈ adj → sc.outKey X = some (aV.getD j 0) →
        ∃ y, s'.cv (s.m_apLaths.length + (4 * j + 1)) = some (some y)) ∧
      (∀ j adj X, j < aQfv.length →
        sc.m_aapVertices[aV.getD (j + aQfv.length) 0]? = some adj → X ∈ adj →
        sc.innKey X = some (aV.getD j 0) → ∃ y, s'.cv X = some (some y)) := by
  have e0 := e
  rw [SubdivideFace.refine_eq hv.params] at e
  cases hq : s.Qfv pFace with
  | none => rw [hq] at e; cases e
  | some aQfv =>
    rw [hq] at e
    simp only [Option.some_bind] at e
    cases hp : SubdivideFace.aVertices s aQfv with
    | none => rw [hp] at e; cases e
    | some kv =>
      rw [hp] at e
      simp only [Option.some_bind] at e
      cases hc : forEach (SubdivideFace.createFace pFace aQfv kv.2 aQfv.length)
          (List.range aQfv.length) (growBy kv.1 s, [], []) with
      | none => rw [hc] at e; cases e
      | some st =>
        obtain ⟨s2, e2, href⟩ := SubdivideFace.refine_of_created hv hq
          (show SubdivideFace.aVertices s aQfv = some (kv.1, kv.2) from hp) hc
        rw [e0] at e2
        simp only [Option.some.injEq, Prod.mk.injEq] at e2
        obtain ⟨rfl, rfl⟩ := e2
        rw [hc] at e
        simp only [Option.some_bind] at e
        obtain ⟨hV, _, hlt, _, _⟩ := SubdivideFace.aVertices_spec hv
          (show SubdivideFace.aVertices s aQfv = some (kv.1, kv.2) from hp)
        have hv0 := hv.growBy kv.1
        have hlt0 : ∀ v ∈ kv.2, v < (growBy kv.1 s).m_aapVertices.length := by
          intro v hvm
          rw [growBy_table_length]
          exact hlt v hvm
        have ho := SubdivideFace.origin_of_loop (s := growBy kv.1 s) hV hlt0 hv0.childMid hc
        have hcr := SubdivideFace.created_of_loop (s := growBy kv.1 s) rfl hV hlt0
          hv0.childMid hc
        have hfaces : st.2.1 =
            (List.range aQfv.length).map (SubdivideFace.faceLaths s.m_apLaths.length) :=
          hcr.faces
        rw [hfaces] at e
        cases h1 : forEach (SubdivideFace.linkFace aQfv
            ((List.range aQfv.length).map (SubdivideFace.faceLaths s.m_apLaths.length))
            aQfv.length) (List.range aQfv.length) st.1 with
        | none => rw [h1] at e; cases e
        | some s1 =>
          rw [h1] at e
          simp only [Option.some_bind] at e
          cases h2 : forEach (SubdivideFace.linkEdge
              ((List.range aQfv.length).map (SubdivideFace.faceLaths s.m_apLaths.length)))
              (List.range aQfv.length) s1 with
          | none => rw [h2] at e; cases e
          | some s2 =>
            rw [h2] at e
            simp only [Option.some_bind, Option.some.injEq, Prod.mk.injEq] at e
            have hs2 : s2 = s' := e.1
            subst hs2
            have hsound := SubdivideFace.linked_sound href.validC aQfv kv.2
              href.created.created_length
              (fun j k hj hk => href.created.created_cfD_new hj hk)
              (fun j k hj hk => href.created.created_VertexIndex_new hj hk) h1 h2
            obtain ⟨hk, w1, w2, w3⟩ := SubdivideFace.linked_kept aQfv kv.2
              (fun j k hj hk => href.created.created_VertexIndex_new hj hk) h1 h2
            exact ⟨aQfv, kv.1, kv.2, st.1, href, ho, hsound, hk, w1,
              fun j adj X hj => w2 j adj X hj, fun j adj X hj => w3 j adj X hj⟩

end CqSubdivision2
end Aqsis

namespace Aqsis
namespace CqSubdivision2

variable {s : CqSubdivision2}

/-! ## Membership in a vertex-chain -/

/-- The forward walk starts with the lath it is started at. -/
theorem vertexChain.forward_head (s : CqSubdivision2) (start : Nat) :
    ∀ (fuel p : Nat) (fw : List Nat) (b : Bool),
      vertexChain.forward s start fuel p = some (fw, b) → p ∈ fw := by
  intro fuel
  cases fuel with
  | zero => intro p fw b e; simp [vertexChain.forward] at e
  | succ fuel =>
    intro p fw b e
    simp only [vertexChain.forward] at e
    cases h : s.cv p with
    | none => rw [h] at e; simp at e
    | some o =>
      rw [h] at e
      cases o with
      | none =>
        simp only [Option.some.injEq, Prod.mk.injEq] at e
        rw [← e.1]
        exact List.mem_singleton_self p
      | some q =>
        simp only at e
        by_cases hq : q = start
        · rw [if_pos hq] at e
          simp only [Option.some.injEq, Prod.mk.injEq] at e
          rw [← e.1]
          exact List.mem_singleton_self p
        · rw [if_neg hq] at e
          cases hr : vertexChain.forward s start fuel q with
          | none => rw [hr] at e; simp at e
          | some r =>
            rw [hr] at e
            simp only [Option.map_some', Option.some.injEq, Prod.mk.injEq] at e
            rw [← e.1]
            exact List.mem_cons_self _ _

/-- A property the vertex-neighbour links hand on holds all along the forward
walk. -/
theorem vertexChain.forward_all (s : CqSubdivision2) (start : Nat) (P : Nat → Prop)
    (hP : ∀ x y, s.cv x = some (some y) → P x → P y) :
    ∀ (fuel p : Nat) (fw : List Nat) (b : Bool),
      vertexChain.forward s start fuel p = some (fw, b) → P p → ∀ x ∈ fw, P x := by
  intro fuel
  induction fuel with
  | zero => intro p fw b e; simp [vertexChain.forward] at e
  | succ fuel ih =>
    intro p fw b e hp
    simp only [vertexChain.forward] at e
    cases h : s.cv p with
    | none => rw [h] at e; simp at e
    | some o =>
      rw [h] at e
      cases o with
      | none =>
        simp only [Option.some.injEq, Prod.mk.injEq] at e
        rw [← e.1]
        intro x hx
        rw [List.mem_singleton.mp hx]
        exact hp
      | some q =>
        simp only at e
        by_cases hq : q = start
        · rw [if_pos hq] at e
          simp only [Option.some.injEq, Prod.mk.injEq] at e
          rw [← e.1]
          intro x hx
          rw [List.mem_singleton.mp hx]
          exact hp
        · rw [if_neg hq] at e
          cases hr : vertexChain.forward s start fuel q with
          | none => rw [hr] at e; simp at e
          | some r =>
            rw [hr] at e
            simp only [Option.map_some', Option.some.injEq, Prod.mk.injEq] at e
            rw [← e.1]
            intro x hx
            rcases List.mem_cons.mp hx with rfl | hx
            · exact hp
            · exact ih q r.1 r.2 hr (hP p q h hp) x hx

/-- The vertex-neighbour of a lath of the forward walk is the start or on the
walk. -/
theorem vertexChain.forward_next (s : CqSubdivision2) (start : Nat) :
    ∀ (fuel p : Nat) (fw : List Nat) (b : Bool),
      vertexChain.forward s start fuel p = some (fw, b) →
      ∀ x ∈ fw, ∀ y, s.cv x = some (some y) → y = start ∨ y ∈ fw := by
  intro fuel
  induction fuel with
  | zero => intro p fw b e; simp [vertexChain.forward] at e
  | succ fuel ih =>
    intro p fw b e
    simp only [vertexChain.forward] at e
    cases h : s.cv p with
    | none => rw [h] at e; simp at e
    | some o =>
      rw [h] at e
      cases o with
      | none =>
        simp only [Option.some.injEq, Prod.mk.injEq] at e
        rw [← e.1]
        intro x hx y hy
        rw [List.mem_singleton.mp hx, h] at hy
        cases hy
      | some q =>
        simp only at e
        by_cases hq : q = start
        · rw [if_pos hq] at e
          simp only [Option.some.injEq, Prod.mk.injEq] at e
          rw [← e.1]
          intro x hx y hy
          rw [List.mem_singleton.mp hx, h] at hy
          simp only [Option.some.injEq] at hy
          exact Or.inl (hy ▸ hq)
        · rw [if_neg hq] at e
          cases hr : vertexChain.forward s start fuel q with
          | none => rw [hr] at e; simp at e
          | some r =>
            rw [hr] at e
            simp only [Option.map_some', Option.some.injEq, Prod.mk.injEq] at e
            rw [← e.1]
            intro x hx y hy
            rcases List.mem_cons.mp hx with rfl | hx
            · rw [h] at hy
              simp only [Option.some.injEq] at hy
              subst hy
              exact Or.inr (List.mem_cons_of_mem _
                (vertexChain.forward_head s start fuel q r.1 r.2 hr))
            · rcases ih q r.1 r.2 hr x hx y hy with h1 | h1
              · exact Or.inl h1
              · exact Or.inr (List.mem_cons_of_mem _ h1)

/-- A forward walk that comes back to the start ends with the lath linked to
the start. -/
theorem vertexChain.forward_last (s : CqSubdivision2) (start : Nat) :
    ∀ (fuel p : Nat) (fw : List Nat),
      vertexChain.forward s start fuel p = some (fw, true) →
      ∃ z ∈ fw, s.cv z = some (some start) := by
  intro fuel
  induction fuel with
  | zero => intro p fw e; simp [vertexChain.forward] at e
  | succ fuel ih =>
    intro p fw e
    simp only [vertexChain.forward] at e
    cases h : s.cv p with
    | none => rw [h] at e; simp at e
    | some o =>
      rw [h] at e
      cases o with
      | none => simp at e
      | some q =>
        simp only at e
        by_cases hq : q = start
        · rw [if_pos hq] at e
          simp only [Option.some.injEq, Prod.mk.injEq] at e
          rw [← e.1]
          exact ⟨p, List.mem_singleton_self p, hq ▸ h⟩
        · rw [if_neg hq] at e
          cases hr : vertexChain.forward s start fuel q with
          | none => rw [hr] at e; simp at e
          | some r =>
            rw [hr] at e
            simp only [Option.map_some', Option.some.injEq, Prod.mk.injEq] at e
            obtain ⟨z, hz, hzc⟩ := ih q r.1 (by rw [hr, ← e.2])
            rw [← e.1]
            exact ⟨z, List.mem_cons_of_mem _ hz, hzc⟩

/-- A property the links hand on backwards holds all along the backward
walk. -/
theorem vertexChain.backward_all (s : CqSubdivision2) (start : Nat) (P : Nat → Prop)
    (hP : ∀ x y, s.ccv x = some (some y) → P x → P y) :
    ∀ (fuel : Nat) (o : Option Nat) (bw : List Nat),
      vertexChain.backward s start fuel o = some bw → (∀ p, o = some p → P p) →
      ∀ x ∈ bw, P x := by
  intro fuel
  induction fuel with
  | zero => intro o bw e; simp [vertexChain.backward] at e
  | succ fuel ih =>
    intro o bw e hp
    cases o with
    | none =>
      simp only [vertexChain.backward, Option.some.injEq] at e
      rw [← e]
      intro x hx
      cases hx
    | some p =>
      simp only [vertexChain.backward] at e
      by_cases hs : p = start
      · rw [if_pos hs] at e
        cases e
      · rw [if_neg hs] at e
        cases hc : s.ccv p with
        | none => rw [hc] at e; simp at e
        | some q =>
          rw [hc] at e
          simp only at e
          cases hr : vertexChain.backward s start fuel q with
          | none => rw [hr] at e; simp at e
          | some r =>
            rw [hr] at e
            simp only [Option.map_some', Option.some.injEq] at e
            rw [← e]
            intro x hx
            rcases List.mem_cons.mp hx with rfl | hx
            · exact hp _ rfl
            · exact ih q r hr (fun p2 hp2 => hP p p2 (hp2 ▸ hc) (hp _ rfl)) x hx

/-- The backward walk starts with the lath it is started at. -/
theorem vertexChain.backward_head (s : CqSubdivision2) (start : Nat) (fuel p : Nat)
    (bw : List Nat) (e : vertexChain.backward s start fuel (some p) = some bw) : p ∈ bw := by
  cases fuel with
  | zero => simp [vertexChain.backward] at e
  | succ fuel =>
    simp only [vertexChain.backward] at e
    by_cases hs : p = start
    · rw [if_pos hs] at e
      cases e
    · rw [if_neg hs] at e
      cases hc : s.ccv p with
      | none => rw [hc] at e; simp at e
      | some q =>
        rw [hc] at e
        simp only at e
        cases hr : vertexChain.backward s start fuel q with
        | none => rw [hr] at e; simp at e
        | some r =>
          rw [hr] at e
          simp only [Option.map_some', Option.some.injEq] at e
          rw [← e]
          exact List.mem_cons_self _ _

/-- The parts of a vertex-chain. -/
theorem vertexChain_parts {q : Nat} {chain : List Nat} (e : s.vertexChain q = some chain) :
    ∃ fw b, vertexChain.forward s q (s.m_apLaths.length + 1) q = some (fw, b) ∧
      ((b = true ∧ chain = fw) ∨
        (b = false ∧ ∃ p bw, s.ccv q = some p ∧
          vertexChain.backward s q (s.m_apLaths.length + 1) p = some bw ∧ chain = fw ++ bw)) := by
  unfold vertexChain at e
  cases hf : vertexChain.forward s q (s.m_apLaths.length + 1) q with
  | none => rw [hf] at e; simp at e
  | some r =>
    obtain ⟨fw, b⟩ := r
    rw [hf] at e
    refine ⟨fw, b, rfl, ?_⟩
    cases b with
    | true =>
      simp only [Option.some.injEq] at e
      exact Or.inl ⟨rfl, e.symm⟩
    | false =>
      simp only at e
      cases hc : s.ccv q with
      | none => rw [hc] at e; simp at e
      | some p =>
        rw [hc] at e
        simp only [Option.some_bind] at e
        cases hb : vertexChain.backward s q (s.m_apLaths.length + 1) p with
        | none => rw [hb] at e; simp at e
        | some bw =>
          rw [hb] at e
          simp only [Option.map_some', Option.some.injEq] at e
          exact Or.inr ⟨rfl, p, bw, rfl, hb, e.symm⟩

/-- The start of a vertex-chain is on it. -/
theorem vertexChain_self {q : Nat} {chain : List Nat} (e : s.vertexChain q = some chain) :
    q ∈ chain := by
  obtain ⟨fw, b, hf, hcase⟩ := vertexChain_parts e
  have := vertexChain.forward_head s q _ q fw b hf
  rcases hcase with ⟨_, rfl⟩ | ⟨_, p, bw, _, _, rfl⟩
  · exact this
  · exact List.mem_append_left _ this

/-- A property that the links hand on in both directions holds all along a
vertex-chain. -/
theorem vertexChain_all (hm : s.MatchedLinks) (P : Nat → Prop)
    (hP : ∀ x y, s.cv x = some (some y) → (P x ↔ P y))
    {q : Nat} {chain : List Nat} (e : s.vertexChain q = some chain) (hq : P q) :
    ∀ x ∈ chain, P x := by
  obtain ⟨fw, b, hf, hcase⟩ := vertexChain_parts e
  have h1 := vertexChain.forward_all s q P (fun x y h hx => (hP x y h).mp hx) _ q fw b hf hq
  rcases hcase with ⟨_, rfl⟩ | ⟨_, p, bw, hc, hb, rfl⟩
  · exact h1
  · intro x hx
    rcases List.mem_append.mp hx with hx | hx
    · exact h1 x hx
    · exact vertexChain.backward_all s q P
        (fun x y h hx => (hP y x (hm.cv_of_ccv h)).mpr hx) _ p bw hb
        (fun p2 hp2 => (hP p2 q (hm.cv_of_ccv (hp2 ▸ hc))).mpr hq) x hx

/-- The laths of a vertex-chain of a matched topology are at the vertex of its
start. -/
theorem MatchedLinks.vertexChain_vertex (hm : s.MatchedLinks) {q : Nat} {chain : List Nat}
    (e : s.vertexChain q = some chain) :
    ∀ x ∈ chain, s.VertexIndex x = s.VertexIndex q := by
  refine vertexChain_all hm (fun x => s.VertexIndex x = s.VertexIndex q) ?_ e rfl
  intro x y h
  have hx := cv_source_lt h
  have hy : y < s.m_apLaths.length := by
    obtain ⟨l, hl⟩ : ∃ l, s.lath x = some l := ⟨s.m_apLaths[x], List.getElem?_eq_getElem hx⟩
    have hcv : l.m_pClockwiseVertex = some y := by
      unfold cv at h
      rw [hl] at h
      simpa using h
    exact (hm.valid.lath_ptr hl).1 y hcv
  have := ((hm.link x y hx hy).mp h).1
  simp only
  rw [this]

/-- The vertex-neighbour of a lath is on the lath's vertex-chain. -/
theorem vertexChain_next {q M : Nat} {chain : List Nat} (e : s.vertexChain q = some chain)
    (h : s.cv q = some (some M)) : M ∈ chain := by
  obtain ⟨fw, b, hf, hcase⟩ := vertexChain_parts e
  have hq := vertexChain.forward_head s q _ q fw b hf
  have hM : M ∈ fw := by
    rcases vertexChain.forward_next s q _ q fw b hf q hq M h with h1 | h1
    · rw [h1]; exact hq
    · exact h1
  rcases hcase with ⟨_, rfl⟩ | ⟨_, p, bw, _, _, rfl⟩
  · exact hM
  · exact List.mem_append_left _ hM

/-- A lath linked to lath `q` is on the vertex-chain of `q`. -/
theorem MatchedLinks.vertexChain_pred (hm : s.MatchedLinks) {q e : Nat} {chain : List Nat}
    (hc : s.vertexChain q = some chain) (h : s.cv e = some (some q)) : e ∈ chain := by
  obtain ⟨fw, b, hf, hcase⟩ := vertexChain_parts hc
  rcases hcase with ⟨hb, hch⟩ | ⟨_, p, bw, hp, hb, rfl⟩
  · subst hb
    obtain ⟨z, hz, hzc⟩ := vertexChain.forward_last s q _ q fw hf
    rw [hm.cv_inj h hzc, hch]
    exact hz
  · rw [hm.ccv_of_cv h] at hp
    simp only [Option.some.injEq] at hp
    subst hp
    exact List.mem_append_right _ (vertexChain.backward_head s q _ e bw hb)

end CqSubdivision2
end Aqsis

namespace Aqsis
namespace CqSubdivision2

/-! ## The trace of a refinement -/

theorem Grows.grows_outKey {s t : CqSubdivision2} (hv : s.Valid) (hg : Grows s t) {h : Nat}
    (hh : h < s.m_apLaths.length) : t.outKey h = s.outKey h := by
  obtain ⟨c, hc, hcl⟩ := hv.cfD_some hh
  unfold outKey
  rw [hg.cfD_eq hh, hc]
  simp only [Option.some_bind]
  exact hg.VertexIndex_eq hcl

theorem Grows.grows_innKey {s t : CqSubdivision2} (hv : s.Valid) (hg : Grows s t) {h : Nat}
    (hh : h < s.m_apLaths.length) : t.innKey h = s.innKey h := by
  obtain ⟨c, hc, hcl⟩ := hv.ccf_some hh
  unfold innKey
  rw [hg.ccf_eq hv hh, hc]
  simp only [Option.some_bind]
  exact hg.VertexIndex_eq hcl

/-- A successful refinement, traced. -/
theorem SubdivideFace.refine_traced {s : CqSubdivision2} (hv : s.Valid) {pFace : Nat}
    {s' : CqSubdivision2} {sub : List Nat}
    (e : SubdivideFace.refine s pFace = some (s', sub)) :
    ∃ aQfv k aV sc, SubdivideFace.Traced s pFace s' sub aQfv k aV sc := by
  obtain ⟨aQfv, k, aV, sc, href, ho, _, hk, w1, w2, w3⟩ := SubdivideFace.refine_trace hv e
  refine ⟨aQfv, k, aV, sc, href, ?_, href.grows hv e, SubdivideFace.refine_links hv e, ?_, ?_,
    w1, ?_, ?_⟩
  · intro y ly hly
    have hlen : sc.m_apLaths.length = s'.m_apLaths.length := by
      have := congrArg List.length hk.core
      simp only [List.length_map] at this
      exact this.symm
    have hy : y < sc.m_apLaths.length := by
      rw [hlen]
      exact lath_lt hly
    obtain ⟨lc, hlc⟩ : ∃ lc, sc.lath y = some lc :=
      ⟨sc.m_apLaths[y], List.getElem?_eq_getElem hy⟩
    obtain ⟨l', hl', _, _, hch, hmid, _⟩ := href.linked_fields hlc
    rw [hly] at hl'
    cases hl'
    obtain ⟨o1, o2⟩ := ho y lc hlc
    exact ⟨fun m hm => o1 m (hch ▸ hm), fun m hm => o2 m (hmid ▸ hm)⟩
  · intro h x hx
    obtain ⟨l, lc, h0, hc, e1, _⟩ := href.old_created (cv_source_lt hx)
    refine hk.kept h x ?_
    unfold cv at hx ⊢
    rw [h0] at hx
    rw [hc]
    simp only [Option.map_some', Option.some.injEq] at hx ⊢
    rw [e1]
    exact hx
  · rw [hk.table]
    exact href.created.table
  · intro j adj X hj hadj hX hkey
    exact w2 j adj X hj (by rw [← hk.table]; exact hadj) hX (by rw [← hk.kept_outKey]; exact hkey)
  · intro j adj X hj hadj hX hkey
    exact w3 j adj X hj (by rw [← hk.table]; exact hadj) hX (by rw [← hk.kept_innKey]; exact hkey)

variable {s s' : CqSubdivision2} {pFace : Nat} {sub aQfv : List Nat} {k : Nat} {aV : List Nat}
  {sc : CqSubdivision2}

/-- A lath at a vertex after a refinement is an old lath at that vertex or a
new lath made for it. -/
theorem SubdivideFace.Traced.at_vertex (ht : SubdivideFace.Traced s pFace s' sub aQfv k aV sc)
    {h v : Nat} (e : s'.VertexIndex h = some v) :
    (h < s.m_apLaths.length ∧ s.VertexIndex h = some v) ∨
      ∃ j i, j < aQfv.length ∧ i < 4 ∧ h = s.m_apLaths.length + (4 * j + i) ∧
        SubdivideFace.cornerVertex aV aQfv.length j i = v := by
  have hlt := VertexIndex_lt e
  rw [ht.refined.refined_length] at hlt
  by_cases ho : h < s.m_apLaths.length
  · left
    rw [ht.refined.VertexIndex_old ho] at e
    exact ⟨ho, e⟩
  · right
    refine ⟨(h - s.m_apLaths.length) / 4, (h - s.m_apLaths.length) % 4, by omega,
      Nat.mod_lt _ (by omega), by omega, ?_⟩
    have hh : h = s.m_apLaths.length +
        (4 * ((h - s.m_apLaths.length) / 4) + (h - s.m_apLaths.length) % 4) := by omega
    rw [hh, ht.refined.VertexIndex_new (by omega) (Nat.mod_lt _ (by omega))] at e
    exact Option.some.inj e

/-- The keys of the new laths. -/
theorem SubdivideFace.Traced.keys_new (ht : SubdivideFace.Traced s pFace s' sub aQfv k aV sc)
    {j i : Nat} (hj : j < aQfv.length) (hi : i < 4) :
    s'.outKey (s.m_apLaths.length + (4 * j + i)) =
        some (SubdivideFace.cornerVertex aV aQfv.length j ((i + 1) % 4)) ∧
      s'.innKey (s.m_apLaths.length + (4 * j + i)) =
        some (SubdivideFace.cornerVertex aV aQfv.length j ((i + 3) % 4)) := by
  have hjo := SubdivideFace.Joined.of_cfD ht.refined.valid
    (fun k2 hk2 => ht.refined.cfD_new hj hk2)
    (by rw [ht.refined.refined_length]; omega)
  have hV : ∀ i2, i2 < 4 → s'.VertexIndex (s.m_apLaths.length + (4 * j + i2)) =
      some (SubdivideFace.cornerVertex aV aQfv.length j i2) :=
    fun i2 hi2 => ht.refined.VertexIndex_new hj hi2
  have h0 := hV 0 (by omega)
  have h1 := hV 1 (by omega)
  have h2 := hV 2 (by omega)
  have h3 := hV 3 (by omega)
  have e0 : s.m_apLaths.length + (4 * j + 0) = (SubdivideFace.faceLaths s.m_apLaths.length j).pA :=
    rfl
  have e1 : s.m_apLaths.length + (4 * j + 1) = (SubdivideFace.faceLaths s.m_apLaths.length j).pB :=
    by simp [SubdivideFace.faceLaths, Nat.add_assoc]
  have e2 : s.m_apLaths.length + (4 * j + 2) = (SubdivideFace.faceLaths s.m_apLaths.length j).pC :=
    by simp [SubdivideFace.faceLaths, Nat.add_assoc]
  have e3 : s.m_apLaths.length + (4 * j + 3) = (SubdivideFace.faceLaths s.m_apLaths.length j).pD :=
    by simp [SubdivideFace.faceLaths, Nat.add_assoc]
  rw [e0] at h0
  rw [e1] at h1
  rw [e2] at h2
  rw [e3] at h3
  have hcases : i = 0 ∨ i = 1 ∨ i = 2 ∨ i = 3 := by omega
  rcases hcases with rfl | rfl | rfl | rfl
  · rw [e0, hjo.outA, hjo.innA]; exact ⟨h1, h3⟩
  · rw [e1, hjo.outB, hjo.innB]; exact ⟨h2, h0⟩
  · rw [e2, hjo.outC, hjo.innC]; exact ⟨h3, h1⟩
  · rw [e3, hjo.outD, hjo.innD]; exact ⟨h0, h2⟩

/-- The keys of the old laths. -/
theorem SubdivideFace.Traced.keys_old (hv : s.Valid)
    (ht : SubdivideFace.Traced s pFace s' sub aQfv k aV sc) {h : Nat}
    (hh : h < s.m_apLaths.length) :
    s'.VertexIndex h = s.VertexIndex h ∧ s'.outKey h = s.outKey h ∧
      s'.innKey h = s.innKey h :=
  ⟨ht.grows.VertexIndex_eq hh, ht.grows.grows_outKey hv hh, ht.grows.grows_innKey hv hh⟩

/-- A link of a new lath joins a matching pair. -/
theorem SubdivideFace.Traced.link_new (ht : SubdivideFace.Traced s pFace s' sub aQfv k aV sc)
    {L M : Nat} (hL : s.m_apLaths.length ≤ L) (e : s'.cv L = some (some M)) :
    s'.LinkMatches L M := by
  rcases ht.links L M e with h | h
  · have := cv_source_lt h
    omega
  · exact h

/-- A lath of the new topology has a vertex-neighbour link or none. -/
theorem cv_some_of_lt {t : CqSubdivision2} {h : Nat} (hh : h < t.m_apLaths.length) :
    ∃ o, t.cv h = some o := by
  unfold cv
  rw [show t.lath h = some t.m_apLaths[h] from List.getElem?_eq_getElem hh]
  exact ⟨_, rfl⟩

/-! ## The new laths in the adjacency table -/

theorem modify_append_mem (l : List (List Nat)) (x i : Nat) (hi : i < l.length) :
    ∃ a, (l.modify (fun e => e ++ [x]) i)[i]? = some a ∧ x ∈ a := by
  rw [List.getElem?_modify, List.getElem?_eq_getElem hi]
  exact ⟨l[i] ++ [x], by simp, by simp⟩

theorem modify_append_length (l : List (List Nat)) (x i : Nat) :
    (l.modify (fun e => e ++ [x]) i).length = l.length := by
  simp

/-- The four new laths of a child face are in the adjacency lists of their
vertices. -/
theorem SubdivideFace.hitFour_mem (Tb : List (List Nat)) (b : Nat) {vA vB vC vD : Nat}
    (hA : vA < Tb.length) (hB : vB < Tb.length) (hC : vC < Tb.length) (hD : vD < Tb.length) :
    (∃ a, (SubdivideFace.hitFour Tb b vA vB vC vD)[vA]? = some a ∧ b ∈ a) ∧
    (∃ a, (SubdivideFace.hitFour Tb b vA vB vC vD)[vB]? = some a ∧ b + 1 ∈ a) ∧
    (∃ a, (SubdivideFace.hitFour Tb b vA vB vC vD)[vC]? = some a ∧ b + 2 ∈ a) ∧
    (∃ a, (SubdivideFace.hitFour Tb b vA vB vC vD)[vD]? = some a ∧ b + 3 ∈ a) := by
  unfold SubdivideFace.hitFour
  obtain ⟨a1, h1, m1⟩ := modify_append_mem Tb b vA hA
  have l1 := modify_append_length Tb b vA
  obtain ⟨a2, h2, m2⟩ := modify_append_mem (Tb.modify (fun e => e ++ [b]) vA) (b + 1) vB
    (by rw [l1]; exact hB)
  have l2 := modify_append_length (Tb.modify (fun e => e ++ [b]) vA) (b + 1) vB
  obtain ⟨a3, h3, m3⟩ := modify_append_mem
    ((Tb.modify (fun e => e ++ [b]) vA).modify (fun e => e ++ [b + 1]) vB) (b + 2) vC
    (by rw [l2, l1]; exact hC)
  have l3 := modify_append_length
    ((Tb.modify (fun e => e ++ [b]) vA).modify (fun e => e ++ [b + 1]) vB) (b + 2) vC
  obtain ⟨a4, h4, m4⟩ := modify_append_mem
    (((Tb.modify (fun e => e ++ [b]) vA).modify (fun e => e ++ [b + 1]) vB).modify
      (fun e => e ++ [b + 2]) vC) (b + 3) vD
    (by rw [l3, l2, l1]; exact hD)
  refine ⟨?_, ?_, ?_, ⟨a4, h4, m4⟩⟩
  · obtain ⟨x2, g2, p2⟩ := modify_append_grows _ (b + 1) vB h1
    obtain ⟨x3, g3, p3⟩ := modify_append_grows _ (b + 2) vC g2
    obtain ⟨x4, g4, p4⟩ := modify_append_grows _ (b + 3) vD g3
    exact ⟨x4, g4, ((p2.trans p3).trans p4).subset m1⟩
  · obtain ⟨x3, g3, p3⟩ := modify_append_grows _ (b + 2) vC h2
    obtain ⟨x4, g4, p4⟩ := modify_append_grows _ (b + 3) vD g3
    exact ⟨x4, g4, (p3.trans p4).subset m2⟩
  · obtain ⟨x4, g4, p4⟩ := modify_append_grows _ (b + 3) vD h3
    exact ⟨x4, g4, p4.subset m3⟩

/-- Every new lath is in the adjacency list of its vertex. -/
theorem SubdivideFace.tableAfter_mem {Tb0 : List (List Nat)} {N : Nat} {aV : List Nat}
    {n : Nat} (hlt : ∀ j i, j < n → i < 4 → SubdivideFace.cornerVertex aV n j i < Tb0.length) :
    ∀ (m j i : Nat), m ≤ n → j < m → i < 4 →
      ∃ a, (SubdivideFace.tableAfter Tb0 N aV n m)[SubdivideFace.cornerVertex aV n j i]? =
        some a ∧ N + (4 * j + i) ∈ a := by
  intro m
  induction m with
  | zero => intro j i _ hj; omega
  | succ m ih =>
    intro j i hm hj hi
    by_cases hjm : j < m
    · obtain ⟨a, ha, hmem⟩ := ih j i (by omega) hjm hi
      obtain ⟨a2, h2, p2⟩ := SubdivideFace.hitFour_grows _ (N + 4 * m) (aV.getD m 0)
        (aV.getD ((m + 1) % n + n) 0) (aV.getD (2 * n) 0) (aV.getD (m + n) 0) ha
      exact ⟨a2, h2, p2.subset hmem⟩
    · have hje : j = m := by omega
      subst hje
      have hlen := SubdivideFace.tableAfter_length Tb0 N aV n j
      have hb : ∀ i2, i2 < 4 → SubdivideFace.cornerVertex aV n j i2 <
          (SubdivideFace.tableAfter Tb0 N aV n j).length := by
        intro i2 hi2
        rw [hlen]
        exact hlt j i2 (by omega) hi2
      obtain ⟨hA, hB, hC, hD⟩ := SubdivideFace.hitFour_mem
        (SubdivideFace.tableAfter Tb0 N aV n j) (N + 4 * j) (hb 0 (by omega)) (hb 1 (by omega))
        (hb 2 (by omega)) (hb 3 (by omega))
      have hcases : i = 0 ∨ i = 1 ∨ i = 2 ∨ i = 3 := by omega
      rcases hcases with rfl | rfl | rfl | rfl
      · exact hA
      · obtain ⟨a, ha, hmem⟩ := hB
        exact ⟨a, ha, by rw [← Nat.add_assoc]; exact hmem⟩
      · obtain ⟨a, ha, hmem⟩ := hC
        exact ⟨a, ha, by rw [← Nat.add_assoc]; exact hmem⟩
      · obtain ⟨a, ha, hmem⟩ := hD
        exact ⟨a, ha, by rw [← Nat.add_assoc]; exact hmem⟩

/-- After a refinement every new lath is in the adjacency list of its
vertex. -/
theorem SubdivideFace.Traced.mem_new (hv : s.Valid)
    (ht : SubdivideFace.Traced s pFace s' sub aQfv k aV sc) {j i : Nat}
    (hj : j < aQfv.length) (hi : i < 4) :
    ∃ a, s'.m_aapVertices[SubdivideFace.cornerVertex aV aQfv.length j i]? = some a ∧
      s.m_apLaths.length + (4 * j + i) ∈ a := by
  obtain ⟨hV, _, hlt, _, _⟩ := SubdivideFace.aVertices_spec hv ht.refined.points
  rw [ht.table]
  exact SubdivideFace.tableAfter_mem (fun j2 i2 hj2 _ => by
    rw [growBy_table_length]
    exact hlt _ (SubdivideFace.cornerVertex_mem hV hj2)) aQfv.length j i (Nat.le_refl _) hj hi

/-- After a refinement every old entry of the adjacency table is still
there. -/
theorem SubdivideFace.Traced.mem_old (ht : SubdivideFace.Traced s pFace s' sub aQfv k aV sc)
    {v h : Nat} {a : List Nat} (ha : s.m_aapVertices[v]? = some a) (hh : h ∈ a) :
    ∃ a2, s'.m_aapVertices[v]? = some a2 ∧ h ∈ a2 := by
  obtain ⟨a2, h2, p2⟩ := ht.grows.table v a ha
  exact ⟨a2, h2, p2.subset hh⟩

/-! ## Arithmetic of the corner before -/

theorem succ_pred_mod {n i : Nat} (hi : i < n) : ((i + n - 1) % n + 1) % n = i := by
  rcases Nat.eq_zero_or_pos i with h0 | hpos
  · subst h0
    rcases Nat.lt_or_ge 1 n with h1 | h1
    · rw [Nat.zero_add, Nat.mod_eq_of_lt (show n - 1 < n by omega),
        show n - 1 + 1 = n by omega, Nat.mod_self]
    · have : n = 1 := by omega
      subst this
      rfl
  · rw [show i + n - 1 = (i - 1) + n by omega, Nat.add_mod_right,
      Nat.mod_eq_of_lt (show i - 1 < n by omega), show i - 1 + 1 = i by omega,
      Nat.mod_eq_of_lt hi]

theorem pred_of_succ_mod {n i j : Nat} (hj : j < n) (h : (j + 1) % n = i) :
    j = (i + n - 1) % n := by
  rcases Nat.lt_or_ge (j + 1) n with h1 | h1
  · rw [Nat.mod_eq_of_lt h1] at h
    subst h
    rw [show j + 1 + n - 1 = j + n by omega, Nat.add_mod_right, Nat.mod_eq_of_lt hj]
  · have hn : j + 1 = n := by omega
    rw [hn, Nat.mod_self] at h
    subst h
    rw [Nat.zero_add, Nat.mod_eq_of_lt (by omega)]
    omega

theorem pred_mod_ne {n i : Nat} (hn : 2 ≤ n) (hi : i < n) : (i + n - 1) % n ≠ i := by
  intro h
  have := succ_pred_mod hi
  rw [h] at this
  rcases Nat.lt_or_ge (i + 1) n with h1 | h1
  · rw [Nat.mod_eq_of_lt h1] at this
    omega
  · have hn2 : i + 1 = n := by omega
    rw [hn2, Nat.mod_self] at this
    omega

end CqSubdivision2
end Aqsis

namespace Aqsis
namespace CqSubdivision2

/-! ## Edge companions and shared corners -/

/-- The successor of the `j`-th member of a cycle is the next member, the
first one after the last. -/
theorem IsCycle.next_at {next : Nat → Option Nat} {ring : List Nat}
    (hr : IsCycle next ring) (j : Nat) (hj : j < ring.length) :
    next (ring.getD j 0) = some (ring.getD ((j + 1) % ring.length) 0) := by
  obtain ⟨hne, _, hch, hlast⟩ := hr
  by_cases hj1 : j + 1 < ring.length
  · rw [Nat.mod_eq_of_lt hj1]
    have := (List.chain'_iff_get.mp hch) j (by omega)
    rw [List.getD_eq_getElem ring 0 hj, List.getD_eq_getElem ring 0 hj1]
    simpa using this
  · have hjl : j + 1 = ring.length := by omega
    rw [hjl, Nat.mod_self]
    have h0 : 0 < ring.length := by omega
    rw [List.getLast?_eq_getLast ring hne, List.head?_eq_head hne] at hlast
    simp only [Option.some_bind] at hlast
    rw [List.getD_eq_getElem ring 0 hj, List.getD_eq_getElem ring 0 h0]
    have e1 : ring.getLast hne = ring[j] := by
      rw [List.getLast_eq_getElem]
      congr 1
      omega
    have e2 : ring.head hne = ring[0] := by
      cases ring with
      | nil => exact absurd rfl hne
      | cons a r => rfl
    rw [← e1, hlast, e2]

theorem getD_nodup_inj {l : List Nat} (hnd : l.Nodup) {i j : Nat} (hi : i < l.length)
    (hj : j < l.length) (e : l.getD i 0 = l.getD j 0) : i = j := by
  rw [List.getD_eq_getElem l 0 hi, List.getD_eq_getElem l 0 hj] at e
  exact (List.Nodup.getElem_inj_iff hnd).mp e

variable {s : CqSubdivision2}

/-- The edge companion of a lath is the face-neighbour of its
vertex-neighbour. -/
theorem ec_split {q e : Nat} (h : s.ec q = some (some e)) :
    ∃ c, s.cv q = some (some c) ∧ s.cfD c = some e := by
  unfold ec at h
  cases hc : s.cv q with
  | none => rw [hc] at h; cases h
  | some o =>
    rw [hc] at h
    cases o with
    | none => cases h
    | some c =>
      simp only at h
      refine ⟨c, rfl, ?_⟩
      unfold cf at h
      unfold cfD
      cases hl : s.lath c with
      | none => rw [hl] at h; cases h
      | some l =>
        rw [hl] at h
        simp only [Option.map_some', Option.some.injEq] at h
        simpa using h

/-- The lath whose face-neighbour is the `i`-th lath of a ring is the lath
before it on the ring. -/
theorem IsRing.pred_at (hv : s.Valid) {ring : List Nat} (hr : s.IsRing ring) {i c : Nat}
    (hi : i < ring.length) (h : s.cfD c = some (ring.getD i 0)) :
    c = ring.getD ((i + ring.length - 1) % ring.length) 0 := by
  have hjp : (i + ring.length - 1) % ring.length < ring.length := Nat.mod_lt _ (by omega)
  have := IsCycle.next_at hr _ hjp
  rw [succ_pred_mod hi] at this
  exact hv.cfD_injective h this

/-- No two laths of a matched topology have the same edge companion. -/
theorem MatchedLinks.ec_inj (hm : s.MatchedLinks) {a b e : Nat}
    (h1 : s.ec a = some (some e)) (h2 : s.ec b = some (some e)) : a = b := by
  obtain ⟨c1, hc1, hf1⟩ := ec_split h1
  obtain ⟨c2, hc2, hf2⟩ := ec_split h2
  have := hm.valid.cfD_injective hf1 hf2
  subst this
  exact hm.cv_inj hc1 hc2

/-- A facet ring of a matched topology that has a lath with an edge companion
off the ring has two laths at least. -/
theorem MatchedLinks.ring_two (hm : s.MatchedLinks) {ring : List Nat} (hr : s.IsRing ring)
    {q e : Nat} (hq : q ∈ ring) (he : s.ec q = some (some e)) (hne : e ∉ ring) :
    2 ≤ ring.length := by
  by_contra hcon
  obtain ⟨i, hi, hget⟩ := List.getElem_of_mem hq
  have hlen : ring.length = 1 := by omega
  have hi0 : i = 0 := by omega
  subst hi0
  have hq0 : ring.getD 0 0 = q := by
    rw [List.getD_eq_getElem ring 0 hi]
    exact hget
  have hcf := IsCycle.next_at hr 0 hi
  rw [hlen] at hcf
  simp only [Nat.mod_self] at hcf
  rw [hq0] at hcf
  -- the lath is its own face-neighbour, hence its own vertex-neighbour
  have hql := hr.lt q hq
  have hself : s.cv q = some (some q) := by
    refine (hm.link q q hql hql).mpr ⟨rfl, ?_⟩
    unfold outKey innKey
    obtain ⟨tl, hr2, hrot⟩ := hr.ring_of_mem hq
    have hl2 : (q :: tl).length = 1 := by
      rw [hrot.perm.length_eq]
      exact hlen
    have htl : tl = [] := by
      cases tl with
      | nil => rfl
      | cons a t => simp at hl2
    subst htl
    rw [ccf_of_ring hr2, hcf]
    rfl
  obtain ⟨c, hc, hf⟩ := ec_split he
  rw [hself] at hc
  simp only [Option.some.injEq] at hc
  subst hc
  rw [hcf] at hf
  cases hf
  exact hne hq

end CqSubdivision2
end Aqsis

namespace Aqsis
namespace CqSubdivision2

/-! ## The entries of the vertex array -/

/-- Every corner entry and every edge entry of the vertex array is a vertex the
reuse test has found or a new vertex. -/
theorem SubdivideFace.aVertices_cases {s : CqSubdivision2} {aQfv : List Nat} {k : Nat}
    {aV : List Nat} (e : SubdivideFace.aVertices s aQfv = some (k, aV)) {j : Nat}
    (hj : j < aQfv.length) :
    (SubdivideFace.cornerReuse s (aQfv.getD j 0) = some (some (aV.getD j 0)) ∨
      s.m_aapVertices.length ≤ aV.getD j 0) ∧
    (SubdivideFace.edgeReuse s (aQfv.getD j 0) = some (some (aV.getD (j + aQfv.length) 0)) ∨
      s.m_aapVertices.length ≤ aV.getD (j + aQfv.length) 0) := by
  obtain ⟨kE, vE, vV, hE, hV, rfl⟩ := SubdivideFace.aVertices_parts e
  obtain ⟨_, hE2, hE3⟩ := SubdivideFace.pointsFold_spec _ _ _ _ _ _ hE
  obtain ⟨_, hV2, hV3⟩ := SubdivideFace.pointsFold_spec _ _ _ _ _ _ hV
  have hq := getElem?_getD_of_lt aQfv j 0 hj
  constructor
  · obtain ⟨w, hw, hcase⟩ := hV3 j _ hq
    have hi : j < vV.length := by omega
    have hget : (vV ++ vE ++ [s.m_aapVertices.length]).getD j 0 = w := by
      rw [List.getD_eq_getElem?_getD, List.append_assoc, List.getElem?_append_left hi, hw]
      rfl
    rw [hget]
    rcases hcase with hc | ⟨_, hlo, _⟩
    · exact Or.inl hc
    · exact Or.inr (by omega)
  · obtain ⟨w, hw, hcase⟩ := hE3 j _ hq
    have hi : j < vE.length := by omega
    have hget : (vV ++ vE ++ [s.m_aapVertices.length]).getD (j + aQfv.length) 0 = w := by
      rw [List.getD_eq_getElem?_getD, List.append_assoc,
        List.getElem?_append_right (by omega)]
      have : j + aQfv.length - vV.length = j := by omega
      rw [this, List.getElem?_append_left hi, hw]
      rfl
    rw [hget]
    rcases hcase with hc | ⟨_, hlo, _⟩
    · exact Or.inl hc
    · exact Or.inr (by omega)

end CqSubdivision2
end Aqsis

namespace Aqsis
namespace CqSubdivision2

/-! ## Parent facets -/

/-- A new lath keeps its parent facet when the topology grows. -/
theorem Grows.parent_eq {s t : CqSubdivision2} (hg : Grows s t) {h : Nat} {o : Option Nat}
    (e : (s.lath h).map CqLath.m_pParentFacet = some o) :
    (t.lath h).map CqLath.m_pParentFacet = some o := by
  cases hl : s.lath h with
  | none => rw [hl] at e; cases e
  | some l =>
    obtain ⟨l2, hl2, _, _, hp⟩ := hg.core_eq hl
    rw [hl] at e
    rw [hl2]
    simp only [Option.map_some', Option.some.injEq] at e ⊢
    rw [hp]
    exact e

end CqSubdivision2
end Aqsis

namespace Aqsis

/-- The `TqFloat` product of the float nearest to 0.1 with itself is
10737419 / 2^30, not the exact square of that float. -/
theorem TqFloat.mul_tenth :
    TqFloat.mul (13421773 / 134217728) (13421773 / 134217728) = 10737419 / 1073741824 ∧
    TqFloat.mul (13421773 / 134217728) (13421773 / 134217728) ≠
      (13421773 / 134217728) * (13421773 / 134217728) := by
  decide!

namespace CqSubdivision2

/-- C8, counterexample to the claim as stated: `Finalise` accepts the quad
with the facet indices 0, 1, 0, 2; its face (lath 0, corners 0, 3, 2, 1) is not
refined and has no parent, but the walk round corner 3 does not end (the
vertex-chain of lath 3 is undefined), and no call of `SubdivideFace` on the
face returns, whatever the depth bound. -/
theorem SubdivideFace_pinched_never_returns :
    pinchedQuad.Finalise = some (pinchedQuad.finalised, true) ∧
    pinchedQuad.finalised.lath 0 = some ⟨some 2, some 3, none, none, none, none, 0⟩ ∧
    pinchedQuad.finalised.Qfv 0 = some [0, 3, 2, 1] ∧
    pinchedQuad.finalised.vertexChain 3 = none ∧
    ∀ d, SubdivideFace Qff d pinchedQuad.finalised 0 = none := by
  refine ⟨by decide, by decide, by decide, by decide, ?_⟩
  intro d
  cases d with
  | zero => rfl
  | succ d =>
    rw [SubdivideFace_of_noop Qff d
      (show pinchedQuad.finalised.lath 0 = some ⟨some 2, some 3, none, none, none, none, 0⟩
        by decide) rfl (Or.inl rfl)]
    decide

end CqSubdivision2

namespace CqSurfaceSubdivisionPatch

open CqSubdivision2

/-- C22, counterexample to the claim as stated: for the quad with the facet
indices 0, 1, 0, 2, which `Finalise` accepts, `CanUsePatch` is false, but
`Split` does not return, whatever the depth bound, because the call of
`SubdivideFace` on the face does not: no patch is appended. -/
theorem Split_pinched_never_returns :
    pinchedQuad.Finalise = some (pinchedQuad.finalised, true) ∧
    CanUsePatch Qff pinchedQuad.finalised patch0.m_pFace = some false ∧
    ∀ d aSplits, Split Qff d pinchedQuad.finalised patch0 aSplits = none := by
  have hc : CanUsePatch Qff pinchedQuad.finalised patch0.m_pFace = some false := by decide!
  refine ⟨by decide, hc, ?_⟩
  intro d aSplits
  rw [Split_of_not_patch Qff d pinchedQuad.finalised patch0 aSplits hc]
  have h : SubdivideFace Qff d pinchedQuad.finalised patch0.m_pFace = none := by
    cases d with
    | zero => rfl
    | succ d =>
      rw [SubdivideFace_of_noop Qff d
        (show pinchedQuad.finalised.lath patch0.m_pFace =
          some ⟨some 2, some 3, none, none, none, none, 0⟩ by decide) rfl (Or.inl rfl)]
      decide
  rw [h]
  rfl

/-- C23, counterexample to the claim as stated: `Finalise` accepts the torus
of nine quads with a triangle on the vertices 3, 9, 4 added; the topology has
one time slot and `CanUsePatch` holds for the face of lath 16 (the quad
4, 7, 8, 5), but the walk of `Split` over the control points of that face meets
a NULL link, and `Split` does not return: no surface is appended. -/
theorem Split_regular_missing_link :
    finnedTorus.Finalise = some (finnedTorus.finalised, true) ∧
    finnedTorus.finalised.aUserParams.length = 1 ∧
    CanUsePatch CqSubdivision2.Qff finnedTorus.finalised 16 = some true ∧
    Split.aiVertices finnedTorus.finalised 16 = none ∧
    ∀ d aSplits, Split CqSubdivision2.Qff d finnedTorus.finalised
      ⟨16, true, false, EqSplitDir.SplitDir_U, 0, 0⟩ aSplits = none := by
  have h : finnedTorus.Finalise = some (finnedTorus.finalised, true) ∧
      finnedTorus.finalised.aUserParams.length = 1 ∧
      CanUsePatch CqSubdivision2.Qff finnedTorus.finalised 16 = some true ∧
      Split.aiVertices finnedTorus.finalised 16 = none := by decide!
  obtain ⟨hf, hp, hc, ha⟩ := h
  refine ⟨hf, hp, hc, ha, ?_⟩
  intro d aSplits
  unfold Split
  simp only [hc, ha, Option.some_bind, if_true, Option.map_none']

end CqSurfaceSubdivisionPatch
end Aqsis

namespace Aqsis
namespace CqSubdivision2

/-! ## Properties kept along a sequence of calls -/

/-- A property kept by every refinement of one face in a well-formed
topology is kept by every successful call of `SubdivideFace`; the refinement
of a face without a parent starts with its face-vertex pointer NULL. -/
theorem SubdivideFace_guarded (Qff : CqSubdivision2 → Nat → Option (List Nat))
    (P : CqSubdivision2 → Prop)
    (hstep : ∀ (t : CqSubdivision2) (f : Nat) (t2 : CqSubdivision2) (sub aQfv : List Nat)
      (k : Nat) (aV : List Nat) (sc : CqSubdivision2) (l : CqLath),
      t.Valid → P t → t.lath f = some l →
      (l.m_pParentFacet = none → l.m_pFaceVertex = none) →
      SubdivideFace.refine t f = some (t2, sub) →
      SubdivideFace.Traced t f t2 sub aQfv k aV sc → P t2) :
    ∀ (d : Nat) (s : CqSubdivision2) (pFace : Nat) (s' : CqSubdivision2) (sub : List Nat),
      s.Valid → P s → SubdivideFace Qff d s pFace = some (s', sub) → P s' := by
  intro d
  induction d with
  | zero => intro s pFace s' sub _ _ e; simp [SubdivideFace] at e
  | succ d ih =>
    intro s pFace s' sub hv hP e
    cases hl : s.lath pFace with
    | none => simp [SubdivideFace, hl] at e
    | some l =>
      cases hf : l.m_pFaceVertex with
      | some fv =>
        rw [SubdivideFace_early Qff d hl hf] at e
        cases hq : s.Qvf fv with
        | none => rw [hq] at e; cases e
        | some aQvf =>
          rw [hq] at e
          simp only [Option.some_bind] at e
          cases hm : aQvf.mapM (fun x => (s.ccf x).bind s.ccf) with
          | none => rw [hm] at e; cases e
          | some r =>
            rw [hm] at e
            simp only [Option.map_some', Option.some.injEq, Prod.mk.injEq] at e
            rw [← e.1]
            exact hP
      | none =>
        rw [SubdivideFace_late Qff d hl hf] at e
        cases hp : l.m_pParentFacet with
        | none =>
          rw [hp] at e
          have e' : SubdivideFace.refine s pFace = some (s', sub) := e
          obtain ⟨aQfv, k, aV, sc, ht⟩ := SubdivideFace.refine_traced hv e'
          exact hstep s pFace s' sub aQfv k aV sc l hv hP hl (fun _ => hf) e' ht
        | some par =>
          rw [hp] at e
          simp only at e
          cases hQ : Qff s par with
          | none => rw [hQ] at e; cases e
          | some aQff =>
            rw [hQ] at e
            simp only [Option.some_bind] at e
            cases hF : forEach (fun f st => (SubdivideFace Qff d st f).map Prod.fst) aQff s with
            | none => rw [hF] at e; cases e
            | some s1 =>
              rw [hF] at e
              have e' : SubdivideFace.refine s1 pFace = some (s', sub) := e
              obtain ⟨hv1, hP1, hg1⟩ := SubdivideFace.prepass_inv Qff
                (fun t => P t ∧ Grows s t) d
                (fun st f st' sub2 hvst hPst est =>
                  ⟨ih st f st' sub2 hvst hPst.1 est,
                    hPst.2.grows_trans (SubdivideFace_grows Qff d hvst est)⟩)
                hv ⟨hP, Grows.grows_refl s⟩ aQff hF
              obtain ⟨l2, hl2, _, _, hp2⟩ := hg1.core_eq hl
              obtain ⟨aQfv, k, aV, sc, ht⟩ := SubdivideFace.refine_traced hv1 e'
              refine hstep s1 pFace s' sub aQfv k aV sc l2 hv1 hP1 hl2 ?_ e' ht
              intro hcon
              rw [hp2, hp] at hcon
              cases hcon

/-- A sequence of calls followed by a sequence of calls. -/
theorem Calls.calls_trans {Qff : CqSubdivision2 → Nat → Option (List Nat)}
    {a b c : CqSubdivision2} (h1 : Calls Qff a b) (h2 : Calls Qff b c) : Calls Qff a c := by
  induction h2 with
  | refl => exact h1
  | step _ e ih => exact Calls.step ih e

/-- A single successful call is a sequence of calls. -/
theorem Calls.of_call {Qff : CqSubdivision2 → Nat → Option (List Nat)} {d : Nat}
    {s t : CqSubdivision2} {pFace : Nat} {sub : List Nat}
    (e : SubdivideFace Qff d s pFace = some (t, sub)) : Calls Qff s t :=
  Calls.step (Calls.refl s) e

/-- A property kept by every refinement is kept along a sequence of calls. -/
theorem Calls.keeps {Qff : CqSubdivision2 → Nat → Option (List Nat)}
    (P : CqSubdivision2 → Prop)
    (hstep : ∀ (t : CqSubdivision2) (f : Nat) (t2 : CqSubdivision2) (sub aQfv : List Nat)
      (k : Nat) (aV : List Nat) (sc : CqSubdivision2) (l : CqLath),
      t.Valid → P t → t.lath f = some l →
      (l.m_pParentFacet = none → l.m_pFaceVertex = none) →
      SubdivideFace.refine t f = some (t2, sub) →
      SubdivideFace.Traced t f t2 sub aQfv k aV sc → P t2)
    {s t : CqSubdivision2} (hc : Calls Qff s t) (hv : s.Valid) (hP : P s) : t.Valid ∧ P t := by
  induction hc with
  | refl => exact ⟨hv, hP⟩
  | step _ e ih =>
    exact ⟨SubdivideFace_valid Qff _ _ _ _ _ ih.1 e,
      SubdivideFace_guarded Qff P hstep _ _ _ _ _ ih.1 ih.2 e⟩

/-- A sequence of calls only appends. -/
theorem Calls.calls_grows {Qff : CqSubdivision2 → Nat → Option (List Nat)}
    {s t : CqSubdivision2} (hc : Calls Qff s t) (hv : s.Valid) : t.Valid ∧ Grows s t := by
  induction hc with
  | refl => exact ⟨hv, Grows.grows_refl _⟩
  | step _ e ih =>
    exact ⟨SubdivideFace_valid Qff _ _ _ _ _ ih.1 e,
      ih.2.grows_trans (SubdivideFace_grows Qff _ ih.1 e)⟩

end CqSubdivision2
end Aqsis

namespace Aqsis
namespace CqSubdivision2

/-! ## States that descend from a control mesh -/

theorem VertexIndex_lath_lt {s : CqSubdivision2} {h v : Nat} (e : s.VertexIndex h = some v) :
    h < s.m_apLaths.length := by
  unfold VertexIndex at e
  cases hl : s.lath h with
  | none => rw [hl] at e; cases e
  | some l => exact lath_lt hl

theorem cv_lath_lt {s : CqSubdivision2} {h : Nat} {o : Option Nat} (e : s.cv h = some o) :
    h < s.m_apLaths.length := by
  unfold cv at e
  cases hl : s.lath h with
  | none => rw [hl] at e; cases e
  | some l => exact lath_lt hl

theorem lath_of_lt {s : CqSubdivision2} {h : Nat} (hh : h < s.m_apLaths.length) :
    ∃ l, s.lath h = some l := ⟨s.m_apLaths[h], List.getElem?_eq_getElem hh⟩

/-- A control mesh descends from itself. -/
theorem Descends.of_control {s0 : CqSubdivision2} (hv : s0.Valid) (hu : s0.Unrefined) :
    Descends s0 s0 := by
  refine ⟨hv, Grows.grows_refl s0, fun _ _ => rfl, ?_, ?_, ?_⟩
  rotate_left 2
  · intro L M hL e
    have := cv_lath_lt e
    omega
  · intro y v hy e
    have := VertexIndex_lath_lt e
    omega
  · intro y l m hl hm
    obtain ⟨_, h2, h3, _⟩ := hu.lath hl
    rcases hm with hm | hm
    · rw [h3] at hm; cases hm
    · rw [h2] at hm; cases hm

/-- A lath of the control mesh references a vertex of the control mesh. -/
theorem Descends.old_vertex {s0 t : CqSubdivision2} (hd : Descends s0 t) (hs0 : s0.Valid)
    {y : Nat} (hy : y < s0.m_apLaths.length) :
    ∃ v, t.VertexIndex y = some v ∧ s0.VertexIndex y = some v ∧ v < s0.m_aapVertices.length := by
  obtain ⟨l, hl⟩ := lath_of_lt hy
  have e0 : s0.VertexIndex y = some l.m_VertexIndex := by
    unfold VertexIndex; rw [hl]; rfl
  exact ⟨l.m_VertexIndex, by rw [hd.grows.VertexIndex_eq hy]; exact e0, e0, hs0.vertex_lt e0⟩

/-- A lath at a vertex of the control mesh is a lath of the control mesh. -/
theorem Descends.old_of_vertex {s0 t : CqSubdivision2} (hd : Descends s0 t) {y v : Nat}
    (e : t.VertexIndex y = some v) (hv : v < s0.m_aapVertices.length) :
    y < s0.m_apLaths.length := by
  by_contra hcon
  have := hd.newV y v (by omega) e
  omega

/-- Every entry of the vertex array of a refinement is a vertex made after
the control mesh. -/
theorem Descends.aV_new {s0 t : CqSubdivision2} (hd : Descends s0 t) {aQfv : List Nat}
    {k : Nat} {aV : List Nat} (hp : SubdivideFace.aVertices t aQfv = some (k, aV)) (j : Nat)
    (hj : j ≤ 2 * aQfv.length) : s0.m_aapVertices.length ≤ aV.getD j 0 := by
  have hT := hd.grows.grows_table_length
  rcases Nat.lt_or_ge j (2 * aQfv.length) with hlt | hge
  · rcases SubdivideFace.aVertices_origin hp j hlt with h | ⟨y, ly, m, hly, hm, hvm⟩
    · omega
    · exact hd.newV m _ (hd.ptrNew y ly m hly hm) hvm
  · have : j = 2 * aQfv.length := by omega
    subst this
    obtain ⟨_, _, _, h4, _⟩ := SubdivideFace.aVertices_spec hd.valid hp
    omega

theorem SubdivideFace.cornerVertex_le (aV : List Nat) (n j i : Nat) (hj : j < n) :
    ∃ m, m ≤ 2 * n ∧ SubdivideFace.cornerVertex aV n j i = aV.getD m 0 := by
  have hmod : (j + 1) % n < n := Nat.mod_lt _ (by omega)
  match i with
  | 0 => exact ⟨j, by omega, rfl⟩
  | 1 => exact ⟨(j + 1) % n + n, by omega, rfl⟩
  | 2 => exact ⟨2 * n, by omega, rfl⟩
  | i + 3 => exact ⟨j + n, by omega, rfl⟩

/-- A refinement of a state that descends from a control mesh leaves a state
that descends from it. -/
theorem Descends.step {s0 t t2 : CqSubdivision2} (hd : Descends s0 t) (hs0 : s0.Valid)
    {f : Nat} {sub aQfv : List Nat} {k : Nat} {aV : List Nat} {sc : CqSubdivision2}
    (ht : SubdivideFace.Traced t f t2 sub aQfv k aV sc) : Descends s0 t2 := by
  have hN := hd.grows.grows_length
  have hlen := ht.refined.refined_length
  have hnewV : ∀ y v, s0.m_apLaths.length ≤ y → t2.VertexIndex y = some v →
      s0.m_aapVertices.length ≤ v := by
    intro y v hy e
    by_cases hlt : y < t.m_apLaths.length
    · rw [ht.refined.VertexIndex_old hlt] at e
      exact hd.newV y v hy e
    · have hy2 := VertexIndex_lath_lt e
      rw [hlen] at hy2
      have hj : (y - t.m_apLaths.length) / 4 < aQfv.length := by omega
      have hyy : y = t.m_apLaths.length +
          (4 * ((y - t.m_apLaths.length) / 4) + (y - t.m_apLaths.length) % 4) := by omega
      rw [hyy, ht.refined.VertexIndex_new hj (Nat.mod_lt _ (by omega))] at e
      obtain ⟨m, hm, hcv⟩ := SubdivideFace.cornerVertex_le aV aQfv.length
        ((y - t.m_apLaths.length) / 4) ((y - t.m_apLaths.length) % 4) hj
      rw [hcv] at e
      simp only [Option.some.injEq] at e
      rw [← e]
      exact hd.aV_new ht.refined.points m hm
  refine ⟨ht.refined.valid, hd.grows.grows_trans ht.grows, ?_, hnewV, ?_, ?_⟩
  rotate_left 2
  · intro L M hL e
    rcases ht.links L M e with h | ⟨⟨v, hvL, hvM⟩, _⟩
    · exact hd.cvNew L M hL h
    · have hv0 := hnewV L v hL hvL
      by_contra hcon
      have hM : M < s0.m_apLaths.length := by omega
      obtain ⟨l, hl⟩ := lath_of_lt hM
      have e0 : s0.VertexIndex M = some l.m_VertexIndex := by
        unfold VertexIndex; rw [hl]; rfl
      have e2 := (hd.grows.grows_trans ht.grows).VertexIndex_eq hM
      rw [hvM, e0] at e2
      have := hs0.vertex_lt e0
      simp only [Option.some.injEq] at e2
      omega
  · intro y hy
    rw [ht.refined.cv_other (by omega), hd.cvOld y hy]
    intro j hj hcon
    obtain ⟨v, hv1, _, hv2⟩ := hd.old_vertex hs0 hy
    rw [hv1] at hcon
    have := hd.aV_new ht.refined.points j (by omega)
    simp only [Option.some.injEq] at hcon
    omega
  · intro y l m hl hm
    obtain ⟨o1, o2⟩ := ht.origin y l hl
    rcases hm with hm | hm
    · rcases o2 m hm with ⟨j, _, rfl⟩ | ⟨l0, h0, hp⟩
      · omega
      · exact hd.ptrNew y l0 m h0 (Or.inl hp)
    · rcases o1 m hm with ⟨j, _, rfl⟩ | ⟨l0, h0, hp⟩
      · omega
      · exact hd.ptrNew y l0 m h0 (Or.inr hp)

/-- Every state reached by calls from a state that descends from a control
mesh descends from it. -/
theorem Calls.descends {Qff : CqSubdivision2 → Nat → Option (List Nat)}
    {s0 s t : CqSubdivision2} (hc : Calls Qff s t) (hs0 : s0.Valid) (hd : Descends s0 s) :
    Descends s0 t :=
  (Calls.keeps (Descends s0)
    (fun _ _ _ _ _ _ _ _ _ _ hP _ _ _ ht => hP.step hs0 ht) hc hd.valid hd).2

theorem Descends.cf_control {s0 t : CqSubdivision2} (hd : Descends s0 t) {y : Nat}
    (hy : y < s0.m_apLaths.length) : t.cf y = s0.cf y := by
  obtain ⟨l, hl⟩ := lath_of_lt hy
  obtain ⟨l2, hl2, _, hcf, _⟩ := hd.grows.core_eq hl
  unfold cf
  rw [hl, hl2]
  simp only [Option.map_some', Option.some.injEq]
  exact hcf

/-- The edge companion of a lath of the control mesh is the one it had. -/
theorem Descends.ec_control {s0 t : CqSubdivision2} (hd : Descends s0 t) (hs0 : s0.Valid) {q : Nat}
    (hq : q < s0.m_apLaths.length) : t.ec q = s0.ec q := by
  unfold ec
  rw [hd.cvOld q hq]
  cases hc : s0.cv q with
  | none => rfl
  | some o =>
    cases o with
    | none => rfl
    | some c => exact hd.cf_control (hs0.cv_lt hc)

theorem Descends.ccv_old {s0 t : CqSubdivision2} (hd : Descends s0 t) (hs0 : s0.Valid) {q : Nat}
    (hq : q < s0.m_apLaths.length) : t.ccv q = s0.ccv q := by
  unfold ccv
  rw [hd.grows.cfD_eq hq]
  obtain ⟨c, hc, hcl⟩ := hs0.cfD_some hq
  rw [hc]
  exact hd.ec_control hs0 hcl

/-- A lath of the control mesh has no parent. -/
theorem Descends.parent_old {s0 t : CqSubdivision2} (hd : Descends s0 t) (hu : s0.Unrefined)
    {y : Nat} {l : CqLath} (hy : y < s0.m_apLaths.length) (hl : t.lath y = some l) :
    l.m_pParentFacet = none := by
  obtain ⟨l0, hl0⟩ := lath_of_lt hy
  obtain ⟨l2, hl2, _, _, hp⟩ := hd.grows.core_eq hl0
  rw [hl] at hl2
  cases hl2
  rw [hp]
  exact (hu.lath hl0).1

/-- A call on an unrefined face of the control mesh is the refinement of the
face. -/
theorem Descends.subdivide_control {s0 t : CqSubdivision2} (hd : Descends s0 t) (hs0 : s0.Valid)
    (hu : s0.Unrefined) (Qff : CqSubdivision2 → Nat → Option (List Nat)) {d f : Nat}
    {ring : List Nat} (hr : s0.Qfv f = some ring) (hn : t.facePtr f = none)
    {t2 : CqSubdivision2} {sub : List Nat} (e : SubdivideFace Qff d t f = some (t2, sub)) :
    SubdivideFace.refine t f = some (t2, sub) ∧
      ∃ k aV sc, SubdivideFace.Traced t f t2 sub ring k aV sc := by
  obtain ⟨hf0, _, _⟩ := hs0.qfv hr
  have hft : f < t.m_apLaths.length := lt_of_lt_of_le hf0 hd.grows.grows_length
  obtain ⟨l, hl⟩ := lath_of_lt hft
  have hfv : l.m_pFaceVertex = none := by
    unfold facePtr at hn
    rw [hl] at hn
    exact hn
  cases d with
  | zero => simp [SubdivideFace] at e
  | succ d =>
    rw [SubdivideFace_of_noop Qff d hl hfv (Or.inl (hd.parent_old hu hf0 hl))] at e
    refine ⟨e, ?_⟩
    obtain ⟨aQfv, k, aV, sc, ht⟩ := SubdivideFace.refine_traced hd.valid e
    have hq := ht.refined.qfv
    rw [hd.grows.grows_qfv hs0 hr] at hq
    cases hq
    exact ⟨k, aV, sc, ht⟩

end CqSubdivision2
end Aqsis

namespace Aqsis
namespace CqSubdivision2

/-! ## Face-vertex and mid-vertex pointers along a sequence of calls -/

theorem bind_of_map {α β : Type} {o : Option α} {g : α → Option β} {v : Option β}
    (e : o.map g = some v) : o.bind g = v := by
  cases o with
  | none => cases e
  | some a =>
    simp only [Option.map_some', Option.some.injEq] at e
    exact e

theorem bind_eq_of_map_eq {α β : Type} {o o2 : Option α} {g : α → Option β}
    (e : o.map g = o2.map g) : o.bind g = o2.bind g := by
  cases o with
  | none =>
    cases o2 with
    | none => rfl
    | some b => cases e
  | some a =>
    cases o2 with
    | none => cases e
    | some b =>
      simp only [Option.map_some', Option.some.injEq] at e
      exact e

/-- Two facet rings with a common lath have the same laths. -/
theorem IsRing.mem_of_shared {s : CqSubdivision2} {r1 r2 : List Nat} (h1 : s.IsRing r1)
    (h2 : s.IsRing r2) {x y : Nat} (hx1 : x ∈ r1) (hx2 : x ∈ r2) (hy : y ∈ r2) : y ∈ r1 := by
  obtain ⟨tl1, hr1, hrot1⟩ := h1.ring_of_mem hx1
  obtain ⟨tl2, hr2, hrot2⟩ := h2.ring_of_mem hx2
  have e1 := Qfv_of_ring hr1
  have e2 := Qfv_of_ring hr2
  rw [e1] at e2
  simp only [Option.some.injEq] at e2
  rw [← hrot1.mem_iff, e2, hrot2.mem_iff]
  exact hy

theorem SubdivideFace.Refined.facePtr_corner {s s' : CqSubdivision2} {pFace : Nat}
    {sub aQfv : List Nat} {k : Nat} {aV : List Nat} {sc : CqSubdivision2}
    (hr : SubdivideFace.Refined s pFace s' sub aQfv k aV sc) {x : Nat} (hx : x ∈ aQfv) :
    ∃ c, s'.facePtr x = some c := by
  obtain ⟨j, hj⟩ := List.mem_iff_getElem?.mp hx
  obtain ⟨hjn, hget⟩ := getD_of_getElem? hj
  have hf := hr.face j hjn
  rw [hget] at hf
  exact ⟨_, bind_of_map hf⟩

theorem SubdivideFace.Refined.facePtr_other {s s' : CqSubdivision2} {pFace : Nat}
    {sub aQfv : List Nat} {k : Nat} {aV : List Nat} {sc : CqSubdivision2}
    (hr : SubdivideFace.Refined s pFace s' sub aQfv k aV sc) {x : Nat} (hx : x ∉ aQfv) :
    s'.facePtr x = s.facePtr x := by
  by_cases hlt : x < s.m_apLaths.length
  · obtain ⟨l, l', h0, h', e1, _⟩ := hr.face_other hlt hx
    unfold facePtr
    rw [h0, h']
    exact e1
  · have h0 : s.lath x = none := by
      cases hl : s.lath x with
      | none => rfl
      | some l => exact absurd (lath_lt hl) hlt
    unfold facePtr
    rw [h0]
    cases h2 : s'.lath x with
    | none => rfl
    | some l2 =>
      cases hc : l2.m_pFaceVertex with
      | none => simp only [Option.some_bind, hc, Option.none_bind]
      | some c =>
        rcases hr.face_cases h2 hc with ⟨j, hj, rfl, _⟩ | ⟨h, _⟩
        · exact absurd (getD_mem_of_lt aQfv j 0 hj) hx
        · exact absurd h hlt

/-- A face-vertex pointer that is set stays set. -/
theorem SubdivideFace.Refined.facePtr_keeps {s s' : CqSubdivision2} {pFace : Nat}
    {sub aQfv : List Nat} {k : Nat} {aV : List Nat} {sc : CqSubdivision2}
    (hr : SubdivideFace.Refined s pFace s' sub aQfv k aV sc) {x : Nat}
    (hx : s.facePtr x ≠ none) : s'.facePtr x ≠ none := by
  by_cases hm : x ∈ aQfv
  · obtain ⟨c, hc⟩ := hr.facePtr_corner hm
    rw [hc]
    exact Option.some_ne_none c
  · rw [hr.facePtr_other hm]
    exact hx

theorem SubdivideFace.Refined.midPtr_corner {s s' : CqSubdivision2} {pFace : Nat}
    {sub aQfv : List Nat} {k : Nat} {aV : List Nat} {sc : CqSubdivision2}
    (hr : SubdivideFace.Refined s pFace s' sub aQfv k aV sc) {j : Nat} (hj : j < aQfv.length) :
    s'.midPtr (aQfv.getD j 0) = some (s.m_apLaths.length + (4 * j + 3)) :=
  bind_of_map (hr.mid_corner hj)

theorem SubdivideFace.Refined.midPtr_other {s s' : CqSubdivision2} {pFace : Nat}
    {sub aQfv : List Nat} {k : Nat} {aV : List Nat} {sc : CqSubdivision2}
    (hr : SubdivideFace.Refined s pFace s' sub aQfv k aV sc) {h : Nat}
    (hh : h < s.m_apLaths.length) (hn : h ∉ aQfv) : s'.midPtr h = s.midPtr h :=
  bind_eq_of_map_eq (hr.mid_other hh hn)

/-- A face-vertex pointer that is set stays set along a sequence of calls. -/
theorem Calls.facePtr_stays {Qff : CqSubdivision2 → Nat → Option (List Nat)}
    {s t : CqSubdivision2} (hc : Calls Qff s t) (hv : s.Valid) {x : Nat}
    (hx : s.facePtr x ≠ none) : t.facePtr x ≠ none :=
  (Calls.keeps (fun u => u.facePtr x ≠ none)
    (fun _ _ _ _ _ _ _ _ _ _ hP _ _ _ ht => ht.refined.facePtr_keeps hP) hc hv hx).2

/-- In every state reached by calls from a control mesh, a lath of the control
mesh whose mid-vertex pointer is set has its face-vertex pointer set, and the
face-vertex pointers of the laths of a facet ring of the control mesh are set
together. -/
theorem Calls.face_marks {Qff : CqSubdivision2 → Nat → Option (List Nat)}
    {s0 t : CqSubdivision2} (hc : Calls Qff s0 t) (hs0 : s0.Valid) (hu : s0.Unrefined) :
    (∀ x, x < s0.m_apLaths.length → t.midPtr x ≠ none → t.facePtr x ≠ none) ∧
    (∀ f ring, s0.Qfv f = some ring → ∀ x ∈ ring, t.facePtr x ≠ none →
      ∀ y ∈ ring, t.facePtr y ≠ none) := by
  have key := (Calls.keeps (fun u => Descends s0 u ∧
      (∀ x, x < s0.m_apLaths.length → u.midPtr x ≠ none → u.facePtr x ≠ none) ∧
      (∀ f ring, s0.Qfv f = some ring → ∀ x ∈ ring, u.facePtr x ≠ none →
        ∀ y ∈ ring, u.facePtr y ≠ none)) ?_ hc hs0 ⟨Descends.of_control hs0 hu, ?_, ?_⟩).2
  · exact key.2
  · intro u f u2 sub aQfv k aV sc l hvu hP _ _ _ ht
    obtain ⟨hd, hA, hB⟩ := hP
    have hN := hd.grows.grows_length
    refine ⟨hd.step hs0 ht, ?_, ?_⟩
    · intro x hx hm
      by_cases hxa : x ∈ aQfv
      · obtain ⟨c, hc⟩ := ht.refined.facePtr_corner hxa
        rw [hc]
        exact Option.some_ne_none c
      · rw [ht.refined.midPtr_other (by omega) hxa] at hm
        rw [ht.refined.facePtr_other hxa]
        exact hA x hx hm
    · intro f0 ring hr x hx hfx y hy
      have hring : u.IsRing ring := hd.grows.ring (hs0.qfv hr).2.1
      by_cases hxa : x ∈ aQfv
      · have hya : y ∈ aQfv := IsRing.mem_of_shared ht.refined.ring hring hxa hx hy
        obtain ⟨c, hc⟩ := ht.refined.facePtr_corner hya
        rw [hc]
        exact Option.some_ne_none c
      · rw [ht.refined.facePtr_other hxa] at hfx
        exact ht.refined.facePtr_keeps (hB f0 ring hr x hx hfx y hy)
  · intro x hx hm
    exfalso
    obtain ⟨l, hl⟩ := lath_of_lt hx
    apply hm
    unfold midPtr
    rw [hl]
    exact (hu.lath hl).2.2.1
  · intro f ring hr x hx hfx
    exfalso
    obtain ⟨_, hring, _⟩ := hs0.qfv hr
    obtain ⟨l, hl⟩ := lath_of_lt (hring.lt x hx)
    apply hfx
    unfold facePtr
    rw [hl]
    exact (hu.lath hl).2.2.2

end CqSubdivision2
end Aqsis

namespace Aqsis
namespace CqSubdivision2

theorem midPtr_lath {s : CqSubdivision2} {h c : Nat} (e : s.midPtr h = some c) :
    ∃ l, s.lath h = some l ∧ l.m_pMidVertex = some c := by
  unfold midPtr at e
  cases hl : s.lath h with
  | none => rw [hl] at e; cases e
  | some l =>
    rw [hl] at e
    exact ⟨l, rfl, e⟩

theorem midPtr_none_lath {s : CqSubdivision2} {h : Nat} {l : CqLath}
    (e : s.midPtr h = none) (hl : s.lath h = some l) : l.m_pMidVertex = none := by
  unfold midPtr at e
  rw [hl] at e
  exact e

theorem quadStrip_valid : quadStrip.finalised.Valid ∧ quadStrip.finalised.Unrefined :=
  finalised_valid
    (show buildMesh (positionsOnly 8) 8 [[0, 1, 5, 4], [1, 2, 6, 5], [2, 3, 7, 6]] =
      some quadStrip by decide)
    ⟨by decide, by decide⟩
    (show quadStrip.Finalise = some (quadStrip.finalised, true) by decide)

/-- The strip of three quads: the second and the third quad share the edge
of the companions 5 and 11, and the three quads are subdivided one after the
other. -/
theorem quadStrip_run :
    (quadStrip.finalised.Qfv 4 = some [4, 7, 6, 5] ∧
      quadStrip.finalised.Qfv 8 = some [8, 11, 10, 9] ∧
      quadStrip.finalised.ec 5 = some (some 11) ∧
      quadStrip.finalised.ec 11 = some (some 5) ∧
      ([4, 7, 6, 5].map quadStrip.finalised.VertexIndex).Nodup) ∧
    SubdivideFace Qff 1 quadStrip.finalised 0 = some (quadStrip.refined1, [12, 16, 20, 24]) ∧
    quadStrip.refined1.facePtr 4 = none ∧
    SubdivideFace Qff 1 quadStrip.refined1 4 = some (quadStrip.refined2, [28, 32, 36, 40]) ∧
    quadStrip.refined2.facePtr 8 = none ∧
    SubdivideFace Qff 1 quadStrip.refined2 8 =
      some (quadStrip.refined3, [44, 48, 52, 56]) := by
  decide!

theorem quadStrip_first :
    SubdivideFace Qff 1 quadStrip.finalised 0 = some (quadStrip.refined1, [12, 16, 20, 24]) :=
  quadStrip_run.2.1

theorem quadStrip_second :
    SubdivideFace Qff 1 quadStrip.refined1 4 = some (quadStrip.refined2, [28, 32, 36, 40]) :=
  quadStrip_run.2.2.2.1

theorem quadStrip_third :
    SubdivideFace Qff 1 quadStrip.refined2 8 = some (quadStrip.refined3, [44, 48, 52, 56]) :=
  quadStrip_run.2.2.2.2.2

end CqSubdivision2
end Aqsis

namespace Aqsis
namespace CqSubdivision2

/-! ## Which laths a refinement gives a child-vertex pointer -/

theorem Valid.ccv_total {s : CqSubdivision2} (hv : s.Valid) {x : Nat}
    (hx : x < s.m_apLaths.length) :
    ∃ o, s.ccv x = some o ∧ ∀ z, o = some z → z < s.m_apLaths.length := by
  obtain ⟨c, hc, hcl⟩ := hv.cfD_some hx
  obtain ⟨oc, hoc⟩ := hv.cv_some hcl
  unfold ccv ec
  rw [hc]
  simp only [Option.some_bind, hoc]
  cases oc with
  | none => exact ⟨none, rfl, fun z hz => by cases hz⟩
  | some c2 =>
    obtain ⟨y, hy, hyl⟩ := hv.cfD_some (hv.cv_lt hoc)
    refine ⟨some y, cf_of_cfD hy, ?_⟩
    intro z hz
    simp only [Option.some.injEq] at hz
    omega

theorem SubdivideFace.Source.source_zero (s : CqSubdivision2) (aQfv : List Nat) :
    SubdivideFace.Source s aQfv 0 s :=
  ⟨fun _ ly _ hy hm => Or.inr ⟨ly, hy, hm⟩, fun _ l0 m0 hy hm => ⟨l0, m0, hy, hm⟩⟩

/-- A lath on a vertex-chain, in a state with more laths, is reached from the
start of the chain along the vertex-neighbour links of the state before. -/
theorem vertexChain_reached {s t : CqSubdivision2} {X : List CqLath} (hv : s.Valid)
    (h : t.m_apLaths.map CqLath.dropCM = s.m_apLaths.map CqLath.dropCM ++ X) {q : Nat}
    (hq : q < s.m_apLaths.length) {chain : List Nat} (e : t.vertexChain q = some chain)
    (P : Nat → Prop) (h1 : ∀ x z, s.cv x = some (some z) → P x → P z)
    (h2 : ∀ x z, s.ccv x = some (some z) → P x → P z) (hP : P q) : ∀ y ∈ chain, P y := by
  have hcv : ∀ x z, t.cv x = some (some z) → (x < s.m_apLaths.length ∧ P x) →
      (z < s.m_apLaths.length ∧ P z) := by
    intro x z hxz hx
    obtain ⟨o, ho⟩ := hv.cv_some hx.1
    have := cv_of_append h ho
    rw [hxz] at this
    simp only [Option.some.injEq] at this
    subst this
    exact ⟨hv.cv_lt ho, h1 x z ho hx.2⟩
  have hccv : ∀ x z, t.ccv x = some (some z) → (x < s.m_apLaths.length ∧ P x) →
      (z < s.m_apLaths.length ∧ P z) := by
    intro x z hxz hx
    obtain ⟨o, ho, hol⟩ := hv.ccv_total hx.1
    have := ccv_of_append h ho
    rw [hxz] at this
    simp only [Option.some.injEq] at this
    subst this
    exact ⟨hol z rfl, h2 x z ho hx.2⟩
  obtain ⟨fw, b, hf, hcase⟩ := vertexChain_parts e
  have hfw := vertexChain.forward_all t q (fun x => x < s.m_apLaths.length ∧ P x) hcv _ q fw b
    hf ⟨hq, hP⟩
  rcases hcase with ⟨_, rfl⟩ | ⟨_, p, bw, hp, hb, rfl⟩
  · exact fun y hy => (hfw y hy).2
  · intro y hy
    rcases List.mem_append.mp hy with hy | hy
    · exact (hfw y hy).2
    · exact (vertexChain.backward_all t q (fun x => x < s.m_apLaths.length ∧ P x) hccv _ p bw hb
        (fun p' hp' => by rw [hp'] at hp; exact hccv q p' hp ⟨hq, hP⟩) y hy).2

theorem SubdivideFace.Source.source_step {s : CqSubdivision2} {pFace : Nat} {aQfv aV : List Nat}
    {n i : Nat} {st st' : SubdivideFace.CreateState} {chain : List Nat} (hv : s.Valid)
    (hq : aQfv.getD i 0 < s.m_apLaths.length)
    (hc : SubdivideFace.Created s.m_apLaths s.m_aapVertices s.m_apFacets s.aUserParams pFace aV
      n i st)
    (ho : SubdivideFace.Source s aQfv i st.1)
    (hch : (SubdivideFace.allocated pFace (aV.getD i 0) (aV.getD ((i + 1) % n + n) 0)
        (aV.getD (2 * n) 0) (aV.getD (i + n) 0) st.1).vertexChain (aQfv.getD i 0) = some chain)
    (hs : SubdivideFace.Step pFace (aQfv.getD i 0) (aV.getD i 0) (aV.getD ((i + 1) % n + n) 0)
      (aV.getD (2 * n) 0) (aV.getD (i + n) 0) chain st st') :
    SubdivideFace.Source s aQfv (i + 1) st'.1 := by
  have hlen := hc.created_length
  have hA : (SubdivideFace.allocated pFace (aV.getD i 0) (aV.getD ((i + 1) % n + n) 0)
      (aV.getD (2 * n) 0) (aV.getD (i + n) 0) st.1).m_apLaths.map CqLath.dropCM =
      s.m_apLaths.map CqLath.dropCM ++
        (SubdivideFace.children pFace s.m_apLaths.length aV n i ++
          SubdivideFace.four pFace st.1.m_apLaths.length (aV.getD i 0)
            (aV.getD ((i + 1) % n + n) 0) (aV.getD (2 * n) 0) (aV.getD (i + n) 0)) := by
    simp only [SubdivideFace.allocated, List.map_append, hc.laths,
      SubdivideFace.four_dropCM, List.append_assoc]
  constructor
  · intro y ly m hy hm
    rw [hs.laths y] at hy
    cases hg : (st.1.m_apLaths ++
        SubdivideFace.four pFace st.1.m_apLaths.length (aV.getD i 0)
          (aV.getD ((i + 1) % n + n) 0) (aV.getD (2 * n) 0) (aV.getD (i + n) 0))[y]? with
    | none => rw [hg] at hy; cases hy
    | some l =>
      rw [hg] at hy
      simp only [Option.map_some', Option.some.injEq] at hy
      subst hy
      by_cases hyc : y ∈ chain
      · simp only [if_pos hyc] at hm
        simp only [Option.some.injEq] at hm
        refine Or.inl ⟨i, by omega, by omega, ?_⟩
        intro P h1 h2 hP
        exact vertexChain_reached hv hA hq hch P h1 h2 hP y hyc
      · simp only [if_neg hyc] at hm
        by_cases hlt : y < st.1.m_apLaths.length
        · rw [List.getElem?_append_left hlt] at hg
          rcases ho.origin y l m hg hm with ⟨j, hj, e, h⟩ | h
          · exact Or.inl ⟨j, by omega, e, h⟩
          · exact Or.inr h
        · rw [List.getElem?_append_right (by omega)] at hg
          obtain ⟨e1, _, _⟩ := SubdivideFace.four_pointers (List.getElem?_mem hg)
          rw [e1] at hm
          cases hm
  · intro y l0 m0 hy hm
    obtain ⟨ly, m, h1, h2⟩ := ho.kept y l0 m0 hy hm
    have hlt : y < st.1.m_apLaths.length := lath_lt h1
    have h3 := hs.laths y
    have h1' : st.1.m_apLaths[y]? = some ly := h1
    rw [List.getElem?_append_left hlt, h1'] at h3
    simp only [Option.map_some'] at h3
    by_cases hyc : y ∈ chain
    · exact ⟨_, st.1.m_apLaths.length, h3, by simp only [if_pos hyc]⟩
    · exact ⟨_, m, h3, by simp only [if_neg hyc]; exact h2⟩

theorem SubdivideFace.source_of_loop {s : CqSubdivision2} {pFace : Nat} {aQfv aV : List Nat}
    {st : SubdivideFace.CreateState} (hv : s.Valid)
    (hq : ∀ q ∈ aQfv, q < s.m_apLaths.length)
    (hV : aV.length = 2 * aQfv.length + 1)
    (hlt : ∀ v ∈ aV, v < s.m_aapVertices.length)
    (e : forEach (SubdivideFace.createFace pFace aQfv aV aQfv.length) (List.range aQfv.length)
      (s, [], []) = some st) :
    SubdivideFace.Source s aQfv aQfv.length st.1 := by
  have := forEach_range_inv (SubdivideFace.createFace pFace aQfv aV aQfv.length)
    (fun i st => SubdivideFace.Created s.m_apLaths s.m_aapVertices s.m_apFacets s.aUserParams
      pFace aV aQfv.length i st ∧ SubdivideFace.Source s aQfv i st.1) aQfv.length
    (fun i hi st1 st2 hc e1 => by
      obtain ⟨chain, hch, hstep⟩ := SubdivideFace.Created.iter rfl hV hlt hi hc.1 e1
      exact ⟨hc.1.created_step hstep,
        SubdivideFace.Source.source_step hv (hq _ (getD_mem_of_lt aQfv i 0 hi)) hc.1 hc.2 hch
          hstep⟩)
    (s, [], []) st
    ⟨SubdivideFace.Created.created_zero s pFace aV aQfv.length hv.childMid,
      SubdivideFace.Source.source_zero s aQfv⟩ e
  exact this.2

/-- After a successful refinement, a lath with a new child-vertex pointer is
reached along vertex-neighbour links from the corner the pointer was made for,
and a lath that had a child-vertex pointer has one. -/
theorem SubdivideFace.refine_source {s : CqSubdivision2} (hv : s.Valid) {pFace : Nat}
    {s' : CqSubdivision2} {sub aQfv : List Nat} (hq : s.Qfv pFace = some aQfv)
    (e : SubdivideFace.refine s pFace = some (s', sub)) :
    SubdivideFace.Source s aQfv aQfv.length s' := by
  have e0 := e
  obtain ⟨_, hring, _⟩ := hv.qfv hq
  rw [SubdivideFace.refine_eq hv.params, hq] at e
  simp only [Option.some_bind] at e
  cases hp : SubdivideFace.aVertices s aQfv with
  | none => rw [hp] at e; cases e
  | some kv =>
    rw [hp] at e
    simp only [Option.some_bind] at e
    cases hc : forEach (SubdivideFace.createFace pFace aQfv kv.2 aQfv.length)
        (List.range aQfv.length) (growBy kv.1 s, [], []) with
    | none => rw [hc] at e; cases e
    | some st =>
      obtain ⟨s2, e2, href⟩ := SubdivideFace.refine_of_created hv hq
        (show SubdivideFace.aVertices s aQfv = some (kv.1, kv.2) from hp) hc
      rw [e0] at e2
      simp only [Option.some.injEq, Prod.mk.injEq] at e2
      obtain ⟨rfl, rfl⟩ := e2
      obtain ⟨hV, _, hlt, _, _⟩ := SubdivideFace.aVertices_spec hv
        (show SubdivideFace.aVertices s aQfv = some (kv.1, kv.2) from hp)
      have ho := SubdivideFace.source_of_loop (s := growBy kv.1 s) (hv.growBy kv.1)
        (fun q hq' => hring.lt q hq') hV
        (fun v hvm => by rw [growBy_table_length]; exact hlt v hvm) hc
      have hcv : ∀ x, (growBy kv.1 s).cv x = s.cv x := fun _ => rfl
      have hccv : ∀ x, (growBy kv.1 s).ccv x = s.ccv x :=
        ccv_of_dropCM (s := s) (t := growBy kv.1 s) rfl
      constructor
      · intro y ly m hy hm
        have hyc : y < st.1.m_apLaths.length := by
          rw [← href.link.link_length]; exact lath_lt hy
        obtain ⟨lc, hlc⟩ := lath_of_lt hyc
        obtain ⟨l', h', _, _, e3, _, _⟩ := href.linked_fields hlc
        rw [hy] at h'
        cases h'
        rw [e3] at hm
        rcases ho.origin y lc m hlc hm with ⟨j, hj, em, h⟩ | h
        · refine Or.inl ⟨j, hj, em, ?_⟩
          intro P h1 h2 hP
          exact h P (fun x z hxz => h1 x z (by rw [← hcv]; exact hxz))
            (fun x z hxz => h2 x z (by rw [← hccv]; exact hxz)) hP
        · exact Or.inr h
      · intro y l0 m0 hy hm
        obtain ⟨lc, m, h1, h2⟩ := ho.kept y l0 m0 hy hm
        obtain ⟨l', h', _, _, e3, _, _⟩ := href.linked_fields h1
        exact ⟨l', m, h', by rw [e3]; exact h2⟩

end CqSubdivision2
end Aqsis

namespace Aqsis
namespace CqSubdivision2

/-! ## Vertex-chains of a matched topology and of the states refined from it -/

theorem vertexChain.forward_prev (s : CqSubdivision2) (start : Nat) :
    ∀ (fuel p : Nat) (fw : List Nat) (b : Bool),
      vertexChain.forward s start fuel p = some (fw, b) →
      ∀ y ∈ fw, y = p ∨ ∃ z ∈ fw, s.cv z = some (some y) := by
  intro fuel
  induction fuel with
  | zero => intro p fw b e; simp [vertexChain.forward] at e
  | succ fuel ih =>
    intro p fw b e
    simp only [vertexChain.forward] at e
    cases h : s.cv p with
    | none => rw [h] at e; simp at e
    | some o =>
      rw [h] at e
      cases o with
      | none =>
        simp only [Option.some.injEq, Prod.mk.injEq] at e
        obtain ⟨rfl, _⟩ := e
        intro y hy
        simp only [List.mem_singleton] at hy
        exact Or.inl hy
      | some q =>
        simp only at e
        by_cases hq : q = start
        · rw [if_pos hq] at e
          simp only [Option.some.injEq, Prod.mk.injEq] at e
          obtain ⟨rfl, _⟩ := e
          intro y hy
          simp only [List.mem_singleton] at hy
          exact Or.inl hy
        · rw [if_neg hq] at e
          cases hr : vertexChain.forward s start fuel q with
          | none => rw [hr] at e; simp at e
          | some r =>
            rw [hr] at e
            simp only [Option.map_some', Option.some.injEq, Prod.mk.injEq] at e
            obtain ⟨rfl, _⟩ := e
            intro y hy
            rcases List.mem_cons.mp hy with rfl | hy
            · exact Or.inl rfl
            · right
              rcases ih q r.1 r.2 hr y hy with rfl | ⟨z, hz, hzc⟩
              · exact ⟨p, List.mem_cons_self _ _, h⟩
              · exact ⟨z, List.mem_cons_of_mem _ hz, hzc⟩

theorem vertexChain.backward_prev (s : CqSubdivision2) (start : Nat) :
    ∀ (fuel : Nat) (o : Option Nat) (bw : List Nat),
      vertexChain.backward s start fuel o = some bw →
      ∀ x ∈ bw, o = some x ∨ ∃ z ∈ bw, s.ccv z = some (some x) := by
  intro fuel
  induction fuel with
  | zero => intro o bw e; simp [vertexChain.backward] at e
  | succ fuel ih =>
    intro o bw e
    cases o with
    | none =>
      simp only [vertexChain.backward, Option.some.injEq] at e
      subst e
      intro x hx
      cases hx
    | some p =>
      simp only [vertexChain.backward] at e
      by_cases hs : p = start
      · rw [if_pos hs] at e
        cases e
      · rw [if_neg hs] at e
        cases hc : s.ccv p with
        | none => rw [hc] at e; simp at e
        | some q =>
          rw [hc] at e
          simp only at e
          cases hr : vertexChain.backward s start fuel q with
          | none => rw [hr] at e; simp at e
          | some r =>
            rw [hr] at e
            simp only [Option.map_some', Option.some.injEq] at e
            subst e
            intro x hx
            rcases List.mem_cons.mp hx with rfl | hx
            · exact Or.inl rfl
            · right
              rcases ih q r hr x hx with rfl | ⟨z, hz, hzc⟩
              · exact ⟨p, List.mem_cons_self _ _, hc⟩
              · exact ⟨z, List.mem_cons_of_mem _ hz, hzc⟩

theorem vertexChain.backward_next (s : CqSubdivision2) (start : Nat) :
    ∀ (fuel : Nat) (o : Option Nat) (bw : List Nat),
      vertexChain.backward s start fuel o = some bw →
      ∀ y ∈ bw, ∀ x, s.ccv y = some (some x) → x ∈ bw := by
  intro fuel
  induction fuel with
  | zero => intro o bw e; simp [vertexChain.backward] at e
  | succ fuel ih =>
    intro o bw e
    cases o with
    | none =>
      simp only [vertexChain.backward, Option.some.injEq] at e
      subst e
      intro y hy
      cases hy
    | some p =>
      simp only [vertexChain.backward] at e
      by_cases hs : p = start
      · rw [if_pos hs] at e
        cases e
      · rw [if_neg hs] at e
        cases hc : s.ccv p with
        | none => rw [hc] at e; simp at e
        | some q =>
          rw [hc] at e
          simp only at e
          cases hr : vertexChain.backward s start fuel q with
          | none => rw [hr] at e; simp at e
          | some r =>
            rw [hr] at e
            simp only [Option.map_some', Option.some.injEq] at e
            subst e
            intro y hy x hx
            rcases List.mem_cons.mp hy with rfl | hy
            · rw [hc] at hx
              simp only [Option.some.injEq] at hx
              subst hx
              exact List.mem_cons_of_mem _ (vertexChain.backward_head s start fuel x r hr)
            · exact List.mem_cons_of_mem _ (ih q r hr y hy x hx)

section Matched

variable {s : CqSubdivision2}

/-- The vertex-neighbour of a lath of a vertex-chain is on the chain. -/
theorem MatchedLinks.chain_next (hm : s.MatchedLinks) {q : Nat} {chain : List Nat}
    (hc : s.vertexChain q = some chain) {x y : Nat} (hx : x ∈ chain)
    (h : s.cv x = some (some y)) : y ∈ chain := by
  obtain ⟨fw, b, hf, hcase⟩ := vertexChain_parts hc
  have hq := vertexChain.forward_head s q _ q fw b hf
  have hfw : x ∈ fw → y ∈ fw := by
    intro hxf
    rcases vertexChain.forward_next s q _ q fw b hf x hxf y h with h1 | h1
    · rw [h1]; exact hq
    · exact h1
  rcases hcase with ⟨_, rfl⟩ | ⟨_, p, bw, hp, hb, rfl⟩
  · exact hfw hx
  · rcases List.mem_append.mp hx with hx | hx
    · exact List.mem_append_left _ (hfw hx)
    · rcases vertexChain.backward_prev s q _ p bw hb x hx with rfl | ⟨z, hz, hzc⟩
      · have := hm.cv_of_ccv hp
        rw [h] at this
        simp only [Option.some.injEq] at this
        rw [this]
        exact List.mem_append_left _ hq
      · have := hm.cv_of_ccv hzc
        rw [h] at this
        simp only [Option.some.injEq] at this
        rw [this]
        exact List.mem_append_right _ hz

/-- A lath whose vertex-neighbour is on a vertex-chain is on the chain. -/
theorem MatchedLinks.chain_prev (hm : s.MatchedLinks) {q : Nat} {chain : List Nat}
    (hc : s.vertexChain q = some chain) {x y : Nat} (hy : y ∈ chain)
    (h : s.cv x = some (some y)) : x ∈ chain := by
  obtain ⟨fw, b, hf, hcase⟩ := vertexChain_parts hc
  have hfw : y ∈ fw → x ∈ chain := by
    intro hyf
    rcases vertexChain.forward_prev s q _ q fw b hf y hyf with rfl | ⟨z, hz, hzc⟩
    · exact hm.vertexChain_pred hc h
    · have := hm.cv_inj h hzc
      subst this
      rcases hcase with ⟨_, rfl⟩ | ⟨_, p, bw, _, _, rfl⟩
      · exact hz
      · exact List.mem_append_left _ hz
  rcases hcase with ⟨hb', rfl⟩ | ⟨hb', p, bw, hp, hb, rfl⟩
  · exact hfw hy
  · rcases List.mem_append.mp hy with hy | hy
    · exact hfw hy
    · exact List.mem_append_right _
        (vertexChain.backward_next s q _ p bw hb y hy x (hm.ccv_of_cv h))

/-- Two vertex-chains with a common lath: the start of the one is on the
other. -/
theorem MatchedLinks.chain_shared (hm : s.MatchedLinks) {q q2 : Nat} {c c2 : List Nat}
    (hc : s.vertexChain q = some c) (hc2 : s.vertexChain q2 = some c2) {K : Nat}
    (h1 : K ∈ c) (h2 : K ∈ c2) : q2 ∈ c := by
  by_contra hn
  exact vertexChain_all hm (fun x => x ∉ c)
    (fun x y h => not_congr ⟨fun hx => hm.chain_next hc hx h, fun hy => hm.chain_prev hc hy h⟩)
    hc2 hn K h2 h1

end Matched

/-! ### Chains in a state that descends from a control mesh -/

theorem Descends.forward_keep {s0 t : CqSubdivision2} (hd : Descends s0 t) (start : Nat) :
    ∀ (fuel fuel' p : Nat) (r : List Nat × Bool), fuel ≤ fuel' →
      vertexChain.forward s0 start fuel p = some r →
      vertexChain.forward t start fuel' p = some r := by
  intro fuel
  induction fuel with
  | zero => intro fuel' p r _ e; cases e
  | succ f ih =>
    intro fuel' p r hle e
    obtain ⟨g, rfl⟩ : ∃ g, fuel' = g + 1 := ⟨fuel' - 1, by omega⟩
    simp only [vertexChain.forward] at e ⊢
    cases h : s0.cv p with
    | none => rw [h] at e; cases e
    | some o =>
      rw [hd.cvOld p (cv_source_lt h), h]
      rw [h] at e
      cases o with
      | none => exact e
      | some q =>
        simp only at e ⊢
        by_cases hq : q = start
        · rw [if_pos hq] at e ⊢
          exact e
        · rw [if_neg hq] at e ⊢
          cases hr : vertexChain.forward s0 start f q with
          | none => rw [hr] at e; cases e
          | some r2 =>
            rw [hr] at e
            rw [ih g q r2 (by omega) hr]
            exact e

theorem Descends.backward_keep {s0 t : CqSubdivision2} (hd : Descends s0 t) (hs0 : s0.Valid)
    (start : Nat) :
    ∀ (fuel fuel' : Nat) (p : Option Nat) (r : List Nat), fuel ≤ fuel' →
      vertexChain.backward s0 start fuel p = some r →
      vertexChain.backward t start fuel' p = some r := by
  intro fuel
  induction fuel with
  | zero => intro fuel' p r _ e; cases e
  | succ f ih =>
    intro fuel' p r hle e
    obtain ⟨g, rfl⟩ : ∃ g, fuel' = g + 1 := ⟨fuel' - 1, by omega⟩
    cases p with
    | none => exact e
    | some p =>
      simp only [vertexChain.backward] at e ⊢
      by_cases hs : p = start
      · rw [if_pos hs] at e
        cases e
      · rw [if_neg hs] at e ⊢
        cases hc : s0.ccv p with
        | none => rw [hc] at e; cases e
        | some q =>
          have hp : p < s0.m_apLaths.length := by
            unfold ccv at hc
            cases hcf : s0.cfD p with
            | none => rw [hcf] at hc; cases hc
            | some c => exact cfD_lt hcf
          rw [hd.ccv_old hs0 hp, hc]
          rw [hc] at e
          simp only at e ⊢
          cases hr : vertexChain.backward s0 start f q with
          | none => rw [hr] at e; cases e
          | some r2 =>
            rw [hr] at e
            rw [ih g q r2 (by omega) hr]
            exact e

/-- The vertex-chain of a lath of the control mesh is the one it had. -/
theorem Descends.chain_old {s0 t : CqSubdivision2} (hd : Descends s0 t) (hs0 : s0.Valid)
    {q : Nat} {chain : List Nat} (e : s0.vertexChain q = some chain) :
    t.vertexChain q = some chain := by
  have hlen := hd.grows.grows_length
  obtain ⟨fw, b, hf, hcase⟩ := vertexChain_parts e
  have hq : q < s0.m_apLaths.length := by
    cases hfu : s0.m_apLaths.length + 1 with
    | zero => omega
    | succ n =>
      rw [hfu] at hf
      simp only [vertexChain.forward] at hf
      cases h : s0.cv q with
      | none => rw [h] at hf; cases hf
      | some o => exact cv_source_lt h
  unfold vertexChain
  rw [hd.forward_keep q _ (t.m_apLaths.length + 1) q (fw, b) (by omega) hf]
  rcases hcase with ⟨rfl, rfl⟩ | ⟨rfl, p, bw, hp, hb, rfl⟩
  · rfl
  · simp only
    rw [hd.ccv_old hs0 hq, hp]
    simp only [Option.some_bind]
    rw [hd.backward_keep hs0 q _ (t.m_apLaths.length + 1) p bw (by omega) hb]
    rfl

/-- The face-neighbour of a later lath is a later lath. -/
theorem Descends.cfD_later {s0 t : CqSubdivision2} (hd : Descends s0 t) (hs0 : s0.Valid)
    {x c : Nat} (hx : s0.m_apLaths.length ≤ x) (e : t.cfD x = some c) :
    s0.m_apLaths.length ≤ c := by
  by_contra hcon
  have hc : c < s0.m_apLaths.length := by omega
  obtain ⟨_, hp⟩ := hs0.ccf_pv hc
  obtain ⟨h1, _⟩ := hs0.cfD_nx hp
  rw [hs0.nx_pv hc] at h1
  have h2 : t.cfD (s0.pv c) = some c := by rw [hd.grows.cfD_eq hp]; exact h1
  have := hd.valid.cfD_injective e h2
  omega

theorem Descends.ccv_new {s0 t : CqSubdivision2} (hd : Descends s0 t) (hs0 : s0.Valid)
    {x y : Nat} (hx : s0.m_apLaths.length ≤ x) (e : t.ccv x = some (some y)) :
    s0.m_apLaths.length ≤ y := by
  unfold ccv at e
  cases hc : t.cfD x with
  | none => rw [hc] at e; cases e
  | some c =>
    rw [hc] at e
    simp only [Option.some_bind] at e
    obtain ⟨c2, h1, h2⟩ := ec_split e
    exact hd.cfD_later hs0 (hd.cvNew c c2 (hd.cfD_later hs0 hx hc) h1) h2

/-- The vertex-chain of a later lath holds later laths only. -/
theorem Descends.chain_new {s0 t : CqSubdivision2} (hd : Descends s0 t) (hs0 : s0.Valid)
    {q : Nat} {chain : List Nat} (hq : s0.m_apLaths.length ≤ q)
    (e : t.vertexChain q = some chain) : ∀ x ∈ chain, s0.m_apLaths.length ≤ x := by
  obtain ⟨fw, b, hf, hcase⟩ := vertexChain_parts e
  have h1 := vertexChain.forward_all t q (fun x => s0.m_apLaths.length ≤ x)
    (fun x y h hx => hd.cvNew x y hx h) _ q fw b hf hq
  rcases hcase with ⟨_, rfl⟩ | ⟨_, p, bw, hp, hb, rfl⟩
  · exact h1
  · intro x hx
    rcases List.mem_append.mp hx with hx | hx
    · exact h1 x hx
    · exact vertexChain.backward_all t q (fun x => s0.m_apLaths.length ≤ x)
        (fun x y h hx => hd.ccv_new hs0 hx h) _ p bw hb
        (fun p' hp' => by rw [hp'] at hp; exact hd.ccv_new hs0 hq hp) x hx

end CqSubdivision2
end Aqsis

namespace Aqsis
namespace CqSubdivision2

theorem childPtr_lath {s : CqSubdivision2} {h c : Nat} (e : s.childPtr h = some c) :
    ∃ l, s.lath h = some l ∧ l.m_pChildVertex = some c := by
  unfold childPtr at e
  cases hl : s.lath h with
  | none => rw [hl] at e; cases e
  | some l =>
    rw [hl] at e
    exact ⟨l, rfl, e⟩

theorem SubdivideFace.cornerReuse_of_child {s : CqSubdivision2} {q m v : Nat}
    (h1 : s.childPtr q = some m) (h2 : s.VertexIndex m = some v) :
    SubdivideFace.cornerReuse s q = some (some v) := by
  obtain ⟨l, hl, hc⟩ := childPtr_lath h1
  unfold SubdivideFace.cornerReuse
  simp only [hl, hc, h2, Option.map_some']

/-- The child vertex of a vertex-chain of a matched control mesh is kept by
every refinement: when every lath of the chain `c` refers to a child lath at
vertex `v`, it does so after the refinement. -/
theorem SubdivideFace.Traced.child_kept {s0 u u2 : CqSubdivision2} (hm : s0.MatchedLinks)
    (hd : Descends s0 u) {q1 : Nat} {c : List Nat} (hcq : s0.vertexChain q1 = some c) {v : Nat}
    (hC : ∀ K ∈ c, ∃ m, u.childPtr K = some m ∧ u.VertexIndex m = some v)
    {g : Nat} {sub aQfv : List Nat} {k : Nat} {aV : List Nat} {sc : CqSubdivision2}
    (e : SubdivideFace.refine u g = some (u2, sub))
    (ht : SubdivideFace.Traced u g u2 sub aQfv k aV sc) :
    ∀ K ∈ c, ∃ m, u2.childPtr K = some m ∧ u2.VertexIndex m = some v := by
  have hv := hm.valid
  have hsrc := SubdivideFace.refine_source hd.valid ht.refined.qfv e
  intro K hK
  obtain ⟨m0, hm0, hvm0⟩ := hC K hK
  obtain ⟨l0, hl0, hc0⟩ := childPtr_lath hm0
  obtain ⟨ly, m, hly, hcm⟩ := hsrc.kept K l0 m0 hl0 hc0
  have hK0 : K < s0.m_apLaths.length := vertexChain_lt hcq K hK
  refine ⟨m, by unfold childPtr; rw [hly]; exact hcm, ?_⟩
  rcases hsrc.origin K ly m hly hcm with ⟨j, hj, rfl, hclo⟩ | ⟨l0', hl0', hc0'⟩
  · -- a new pointer: the corner it was made for is on the chain
    have hq : aQfv.getD j 0 < s0.m_apLaths.length ∧ aQfv.getD j 0 ∈ c := by
      by_contra hcon
      refine hclo (fun x => ¬ (x < s0.m_apLaths.length ∧ x ∈ c)) ?_ ?_ hcon ⟨hK0, hK⟩
      · intro x z hxz hPx hz
        apply hPx
        by_cases hx : x < s0.m_apLaths.length
        · rw [hd.cvOld x hx] at hxz
          exact ⟨hx, hm.chain_prev hcq hz.2 hxz⟩
        · have := hd.cvNew x z (by omega) hxz
          omega
      · intro x z hxz hPx hz
        apply hPx
        by_cases hx : x < s0.m_apLaths.length
        · rw [hd.ccv_old hv hx] at hxz
          exact ⟨hx, hm.chain_next hcq hz.2 (hm.cv_of_ccv hxz)⟩
        · have := hd.ccv_new hv (by omega) hxz
          omega
    obtain ⟨m', hm', hvm'⟩ := hC _ hq.2
    have hre := SubdivideFace.cornerReuse_of_child hm' hvm'
    have hav := SubdivideFace.aVertices_corner ht.refined.points
      (getElem?_getD_of_lt aQfv j 0 hj) hre
    have := ht.refined.VertexIndex_new hj (show 0 < 4 by omega)
    rw [show u.m_apLaths.length + 4 * j = u.m_apLaths.length + (4 * j + 0) from rfl, this]
    exact congrArg some hav
  · rw [hl0] at hl0'
    cases hl0'
    rw [hc0] at hc0'
    cases hc0'
    rw [ht.refined.VertexIndex_old (VertexIndex_lath_lt hvm0)]
    exact hvm0

/-- The strip of three quads, finalised, is a matched topology. -/
theorem quadStrip_matched : quadStrip.finalised.MatchedLinks := by
  have h : quadStrip.finalised.m_apLaths.length = 12 ∧
      (∀ x, x < 12 → ∀ y, y < 12 →
        (quadStrip.finalised.cv x = some (some y) ↔
          (quadStrip.finalised.VertexIndex y = quadStrip.finalised.VertexIndex x ∧
            quadStrip.finalised.outKey y = quadStrip.finalised.innKey x))) ∧
      (∀ x, x < 12 → ∀ y, y < 12 →
        quadStrip.finalised.VertexIndex x = quadStrip.finalised.VertexIndex y →
        quadStrip.finalised.outKey x = quadStrip.finalised.outKey y → x = y) := by decide!
  obtain ⟨hlen, h1, h2⟩ := h
  refine ⟨quadStrip_valid.1, ?_, ?_⟩
  · intro x y hx hy
    rw [hlen] at hx hy
    exact h1 x hx y hy
  · intro x y hx hy
    rw [hlen] at hx hy
    exact h2 x hx y hy

set_option synthInstance.maxSize 2048 in
set_option synthInstance.maxHeartbeats 200000 in
/-- The bow-tie hexagon, subdivided at the hexagon and then at the triangle
0, 2, 1.  First, the child-vertex pointer on the chain of corner 0 is the
child of corner 3.  Second, the mesh is built, and its links after `Finalise`
are the matching ones.  Third, the hexagon and the triangle share the edge
between the vertices 0 and 1, and after both are subdivided the four child
laths at the mid-edge vertex 6 form an open chain. -/
theorem bowTie_run :
    (bowTie.Finalise = some (bowTie.finalised, true) ∧
      bowTie.finalised.Qfv 0 = some [0, 5, 4, 3, 2, 1] ∧
      bowTie.finalised.vertexChain 0 = some [0, 6, 3, 9] ∧
      bowTie.finalised.vertexChain 3 = some [3, 9, 0, 6] ∧
      SubdivideFace Qff 1 bowTie.finalised 0 =
        some (bowTie.refined1, [12, 16, 20, 24, 28, 32]) ∧
      bowTie.refined1.childPtr 6 = some 24 ∧
      bowTie.refined1.VertexIndex 12 = some 12 ∧ bowTie.refined1.VertexIndex 24 = some 15 ∧
      bowTie.finalised.Qfv 6 = some [6, 8, 7] ∧
      SubdivideFace Qff 1 bowTie.refined1 6 = some (bowTie.refined2, [36, 40, 44]) ∧
      bowTie.refined2.VertexIndex 12 = some 12 ∧ bowTie.refined2.VertexIndex 36 = some 15) ∧
    (buildMesh (positionsOnly 5) 5 [[0, 1, 2, 0, 3, 4], [0, 2, 1], [0, 4, 3]] = some bowTie ∧
      bowTie.finalised.m_apLaths.length = 12 ∧
      (∀ x, x < 12 → ∀ y, y < 12 →
        (bowTie.finalised.cv x = some (some y) ↔
          (bowTie.finalised.VertexIndex y = bowTie.finalised.VertexIndex x ∧
            bowTie.finalised.outKey y = bowTie.finalised.innKey x))) ∧
      (∀ x, x < 12 → ∀ y, y < 12 →
        bowTie.finalised.VertexIndex x = bowTie.finalised.VertexIndex y →
        bowTie.finalised.outKey x = bowTie.finalised.outKey y → x = y)) ∧
    (bowTie.finalised.Qfv 0 = some [0, 5, 4, 3, 2, 1] ∧
      bowTie.finalised.Qfv 6 = some [6, 8, 7] ∧
      bowTie.finalised.VertexIndex 0 = some 0 ∧ bowTie.finalised.VertexIndex 3 = some 0 ∧
      bowTie.finalised.ec 0 = some (some 8) ∧ bowTie.finalised.ec 8 = some (some 0) ∧
      SubdivideFace Qff 1 bowTie.finalised 0 =
        some (bowTie.refined1, [12, 16, 20, 24, 28, 32]) ∧
      bowTie.refined1.facePtr 6 = none ∧
      SubdivideFace Qff 1 bowTie.refined1 6 = some (bowTie.refined2, [36, 40, 44])) ∧
    (bowTie.refined2.m_apLaths.length = 48 ∧
      (∀ h, h < 48 → (bowTie.refined2.VertexIndex h = some 6 ↔
        (h = 15 ∨ h = 33 ∨ h = 43 ∨ h = 37)))) ∧
    (bowTie.refined2.cv 15 = some (some 33) ∧ bowTie.refined2.cv 33 = some (some 43) ∧
      bowTie.refined2.cv 43 = some (some 37) ∧ bowTie.refined2.cv 37 = some none ∧
      bowTie.refined2.outKey 15 = some 12 ∧ bowTie.refined2.innKey 37 = some 15) := by
  decide!

end CqSubdivision2
end Aqsis

namespace Aqsis
namespace CqSubdivision2

/-! ## The new vertices of one refinement are distinct -/

/-- The new indices a point loop stores grow with the corner: of two corners
for which a new vertex is made, the later one gets the larger index. -/
theorem SubdivideFace.pointsFold_mono (reuse : Nat → Option (Option Nat)) (T : Nat) :
    ∀ (qs : List Nat) (k k' : Nat) (vs : List Nat),
      SubdivideFace.pointsFold reuse T qs k = some (k', vs) →
      ∀ (i i' q q' : Nat), i < i' → qs[i]? = some q → qs[i']? = some q' →
        reuse q = some none → reuse q' = some none → vs.getD i 0 < vs.getD i' 0 := by
  intro qs
  induction qs with
  | nil =>
    intro k k' vs _ i i' q q' _ hq
    simp at hq
  | cons q0 rest ih =>
    intro k k' vs h i i' q q' hlt hq hq' hr hr'
    simp only [SubdivideFace.pointsFold] at h
    cases hr0 : reuse q0 with
    | none => rw [hr0] at h; cases h
    | some o =>
      rw [hr0] at h
      cases o with
      | none =>
        simp only at h
        cases hf : SubdivideFace.pointsFold reuse T rest (k + 1) with
        | none => rw [hf] at h; cases h
        | some r =>
          rw [hf] at h
          simp only [Option.map_some', Option.some.injEq, Prod.mk.injEq] at h
          obtain ⟨rfl, rfl⟩ := h
          obtain ⟨h1, h2, h3⟩ := SubdivideFace.pointsFold_spec reuse T rest (k + 1) r.1 r.2 hf
          cases i' with
          | zero => omega
          | succ i' =>
            simp only [List.getElem?_cons_succ] at hq'
            cases i with
            | zero =>
              obtain ⟨v, hv, hcase⟩ := h3 i' q' hq'
              have hg : ((T + k) :: r.2).getD (i' + 1) 0 = v := by
                rw [List.getD_eq_getElem?_getD, List.getElem?_cons_succ, hv]
                rfl
              rw [hg]
              rcases hcase with hc | ⟨_, hlo, _⟩
              · rw [hr'] at hc; cases hc
              · simp only [List.getD_cons_zero]
                omega
            | succ i =>
              simp only [List.getElem?_cons_succ] at hq
              have := ih (k + 1) r.1 r.2 hf i i' q q' (by omega) hq hq' hr hr'
              simpa [List.getD_eq_getElem?_getD] using this
      | some v0 =>
        simp only at h
        cases hf : SubdivideFace.pointsFold reuse T rest k with
        | none => rw [hf] at h; cases h
        | some r =>
          rw [hf] at h
          simp only [Option.map_some', Option.some.injEq, Prod.mk.injEq] at h
          obtain ⟨rfl, rfl⟩ := h
          cases i' with
          | zero => omega
          | succ i' =>
            simp only [List.getElem?_cons_succ] at hq'
            cases i with
            | zero =>
              simp only [List.getElem?_cons_zero, Option.some.injEq] at hq
              subst hq
              rw [hr0] at hr
              cases hr
            | succ i =>
              simp only [List.getElem?_cons_succ] at hq
              have := ih k r.1 r.2 hf i i' q q' (by omega) hq hq' hr hr'
              simpa [List.getD_eq_getElem?_getD] using this

/-- Every entry of the vertex array told: a corner entry is the vertex the
corner test found or a new vertex, an edge entry is the vertex the edge test
found or a new vertex; the new edge vertices come before the new corner
vertices, and within each loop the new indices grow with the corner. -/
theorem SubdivideFace.aVertices_entries {s : CqSubdivision2} {aQfv : List Nat} {k : Nat}
    {aV : List Nat} (e : SubdivideFace.aVertices s aQfv = some (k, aV)) :
    ∃ kE,
      (∀ j, j < aQfv.length →
        SubdivideFace.cornerReuse s (aQfv.getD j 0) = some (some (aV.getD j 0)) ∨
        (SubdivideFace.cornerReuse s (aQfv.getD j 0) = some none ∧
          s.m_aapVertices.length + kE ≤ aV.getD j 0)) ∧
      (∀ j, j < aQfv.length →
        SubdivideFace.edgeReuse s (aQfv.getD j 0) =
          some (some (aV.getD (j + aQfv.length) 0)) ∨
        (SubdivideFace.edgeReuse s (aQfv.getD j 0) = some none ∧
          s.m_aapVertices.length + 1 ≤ aV.getD (j + aQfv.length) 0 ∧
          aV.getD (j + aQfv.length) 0 < s.m_aapVertices.length + kE)) ∧
      (∀ j j', j < j' → j' < aQfv.length →
        SubdivideFace.cornerReuse s (aQfv.getD j 0) = some none →
        SubdivideFace.cornerReuse s (aQfv.getD j' 0) = some none →
        aV.getD j 0 < aV.getD j' 0) ∧
      (∀ j j', j < j' → j' < aQfv.length →
        SubdivideFace.edgeReuse s (aQfv.getD j 0) = some none →
        SubdivideFace.edgeReuse s (aQfv.getD j' 0) = some none →
        aV.getD (j + aQfv.length) 0 < aV.getD (j' + aQfv.length) 0) := by
  obtain ⟨kE, vE, vV, hE, hV, rfl⟩ := SubdivideFace.aVertices_parts e
  obtain ⟨_, hE2, hE3⟩ := SubdivideFace.pointsFold_spec _ _ _ _ _ _ hE
  obtain ⟨_, hV2, hV3⟩ := SubdivideFace.pointsFold_spec _ _ _ _ _ _ hV
  have hgV : ∀ j, j < aQfv.length →
      (vV ++ vE ++ [s.m_aapVertices.length]).getD j 0 = vV.getD j 0 := by
    intro j hj
    rw [List.getD_eq_getElem?_getD, List.append_assoc,
      List.getElem?_append_left (by omega), List.getD_eq_getElem?_getD]
  have hgE : ∀ j, j < aQfv.length →
      (vV ++ vE ++ [s.m_aapVertices.length]).getD (j + aQfv.length) 0 = vE.getD j 0 := by
    intro j hj
    rw [List.getD_eq_getElem?_getD, List.append_assoc,
      List.getElem?_append_right (by omega)]
    have : j + aQfv.length - vV.length = j := by omega
    rw [this, List.getElem?_append_left (by omega), List.getD_eq_getElem?_getD]
  refine ⟨kE, ?_, ?_, ?_, ?_⟩
  · intro j hj
    obtain ⟨w, hw, hcase⟩ := hV3 j _ (getElem?_getD_of_lt aQfv j 0 hj)
    have hget : vV.getD j 0 = w := by
      rw [List.getD_eq_getElem?_getD, hw]; rfl
    rw [hgV j hj, hget]
    rcases hcase with hc | ⟨hc, hlo, _⟩
    · exact Or.inl hc
    · exact Or.inr ⟨hc, hlo⟩
  · intro j hj
    obtain ⟨w, hw, hcase⟩ := hE3 j _ (getElem?_getD_of_lt aQfv j 0 hj)
    have hget : vE.getD j 0 = w := by
      rw [List.getD_eq_getElem?_getD, hw]; rfl
    rw [hgE j hj, hget]
    rcases hcase with hc | ⟨hc, hlo, hhi⟩
    · exact Or.inl hc
    · exact Or.inr ⟨hc, hlo, hhi⟩
  · intro j j' hlt hj' h1 h2
    rw [hgV j (by omega), hgV j' hj']
    exact SubdivideFace.pointsFold_mono _ _ _ _ _ _ hV j j' _ _ hlt
      (getElem?_getD_of_lt aQfv j 0 (by omega)) (getElem?_getD_of_lt aQfv j' 0 hj') h1 h2
  · intro j j' hlt hj' h1 h2
    rw [hgE j (by omega), hgE j' hj']
    exact SubdivideFace.pointsFold_mono _ _ _ _ _ _ hE j j' _ _ hlt
      (getElem?_getD_of_lt aQfv j 0 (by omega)) (getElem?_getD_of_lt aQfv j' 0 hj') h1 h2

/-- A new vertex stands once in the vertex array: two corner or edge entries
that hold the same vertex, a vertex made by this refinement, are the same
entry. -/
theorem SubdivideFace.aVertices_inj {s : CqSubdivision2} (hv : s.Valid) {aQfv : List Nat}
    {k : Nat} {aV : List Nat} (e : SubdivideFace.aVertices s aQfv = some (k, aV))
    {a b : Nat} (ha : a < 2 * aQfv.length) (hb : b < 2 * aQfv.length)
    (hf : s.m_aapVertices.length ≤ aV.getD a 0) (heq : aV.getD a 0 = aV.getD b 0) :
    a = b := by
  obtain ⟨kE, hC, hEd, hCm, hEm⟩ := SubdivideFace.aVertices_entries e
  -- what is known of one entry holding a new vertex
  have key : ∀ c, c < 2 * aQfv.length → s.m_aapVertices.length ≤ aV.getD c 0 →
      (c < aQfv.length ∧ SubdivideFace.cornerReuse s (aQfv.getD c 0) = some none ∧
        s.m_aapVertices.length + kE ≤ aV.getD c 0) ∨
      (aQfv.length ≤ c ∧
        SubdivideFace.edgeReuse s (aQfv.getD (c - aQfv.length) 0) = some none ∧
        aV.getD c 0 < s.m_aapVertices.length + kE) := by
    intro c hc hfc
    by_cases hcn : c < aQfv.length
    · rcases hC c hcn with h | ⟨h, hlo⟩
      · have := SubdivideFace.cornerReuse_lt hv h
        omega
      · exact Or.inl ⟨hcn, h, hlo⟩
    · have hcc : c - aQfv.length + aQfv.length = c := by omega
      rcases hEd (c - aQfv.length) (by omega) with h | ⟨h, _, hhi⟩
      · rw [hcc] at h
        have := SubdivideFace.edgeReuse_lt hv h
        omega
      · rw [hcc] at hhi
        exact Or.inr ⟨by omega, h, hhi⟩
  rcases key a ha hf with ⟨ha1, ha2, ha3⟩ | ⟨ha1, ha2, ha3⟩ <;>
    rcases key b hb (heq ▸ hf) with ⟨hb1, hb2, hb3⟩ | ⟨hb1, hb2, hb3⟩
  · rcases Nat.lt_trichotomy a b with h | h | h
    · have := hCm a b h hb1 ha2 hb2
      omega
    · exact h
    · have := hCm b a h ha1 hb2 ha2
      omega
  · omega
  · omega
  · rcases Nat.lt_trichotomy a b with h | h | h
    · have := hEm (a - aQfv.length) (b - aQfv.length) (by omega) (by omega) ha2 hb2
      rw [show a - aQfv.length + aQfv.length = a by omega,
        show b - aQfv.length + aQfv.length = b by omega] at this
      omega
    · exact h
    · have := hEm (b - aQfv.length) (a - aQfv.length) (by omega) (by omega) hb2 ha2
      rw [show a - aQfv.length + aQfv.length = a by omega,
        show b - aQfv.length + aQfv.length = b by omega] at this
      omega

/-- The corner test read back: the vertex found is the vertex of the child
lath the corner refers to. -/
theorem SubdivideFace.cornerReuse_child {s : CqSubdivision2} {q v : Nat}
    (e : SubdivideFace.cornerReuse s q = some (some v)) :
    ∃ c, s.childPtr q = some c ∧ s.VertexIndex c = some v := by
  unfold SubdivideFace.cornerReuse at e
  cases h2 : s.lath q with
  | none => rw [h2] at e; cases e
  | some lq =>
    rw [h2] at e
    simp only at e
    cases h3 : lq.m_pChildVertex with
    | none => rw [h3] at e; cases e
    | some c =>
      rw [h3] at e
      simp only at e
      cases h4 : s.VertexIndex c with
      | none => rw [h4] at e; cases e
      | some w =>
        rw [h4] at e
        simp only [Option.map_some', Option.some.injEq] at e
        subst e
        exact ⟨c, by unfold childPtr; rw [h2]; exact h3, h4⟩

/-- The edge test read back: the vertex found is the vertex of the lath the
mid-vertex pointer of the edge companion refers to. -/
theorem SubdivideFace.edgeReuse_mid {s : CqSubdivision2} {q v : Nat}
    (e : SubdivideFace.edgeReuse s q = some (some v)) :
    ∃ c m, s.ec q = some (some c) ∧ s.midPtr c = some m ∧ s.VertexIndex m = some v := by
  unfold SubdivideFace.edgeReuse at e
  cases h1 : s.ec q with
  | none => rw [h1] at e; cases e
  | some o =>
    rw [h1] at e
    cases o with
    | none => cases e
    | some c =>
      simp only at e
      cases h2 : s.lath c with
      | none => rw [h2] at e; cases e
      | some lc =>
        rw [h2] at e
        simp only at e
        cases h3 : lc.m_pMidVertex with
        | none => rw [h3] at e; cases e
        | some m =>
          rw [h3] at e
          simp only at e
          cases h4 : s.VertexIndex m with
          | none => rw [h4] at e; cases e
          | some w =>
            rw [h4] at e
            simp only [Option.map_some', Option.some.injEq] at e
            subst e
            exact ⟨c, m, rfl, by unfold midPtr; rw [h2]; exact h3, h4⟩

end CqSubdivision2
end Aqsis

namespace Aqsis
namespace CqSubdivision2

/-! ## Child vertices of different control vertices are different -/

/-- A vertex-neighbour link of a matched topology joins two laths of one
vertex. -/
theorem MatchedLinks.cv_vertex {s : CqSubdivision2} (hm : s.MatchedLinks) {x y : Nat}
    (e : s.cv x = some (some y)) : s.VertexIndex y = s.VertexIndex x :=
  ((hm.link x y (cv_lath_lt e) (hm.valid.cv_lt e)).mp e).1

/-- A new child-vertex pointer of a lath of the control mesh was made for a
corner of the control mesh at the vertex of that lath. -/
theorem Descends.corner_of_child {s0 u : CqSubdivision2} (hm : s0.MatchedLinks)
    (hd : Descends s0 u) {y q : Nat} (hy : y < s0.m_apLaths.length)
    (hclo : ∀ P : Nat → Prop, (∀ x z, u.cv x = some (some z) → P x → P z) →
      (∀ x z, u.ccv x = some (some z) → P x → P z) → P q → P y) :
    q < s0.m_apLaths.length ∧ s0.VertexIndex q = s0.VertexIndex y := by
  have hv := hm.valid
  by_contra hcon
  refine hclo (fun x => ¬ (x < s0.m_apLaths.length ∧ s0.VertexIndex x = s0.VertexIndex y))
    ?_ ?_ hcon ⟨hy, rfl⟩
  · intro x z hxz hPx hz
    apply hPx
    by_cases hx : x < s0.m_apLaths.length
    · rw [hd.cvOld x hx] at hxz
      exact ⟨hx, (hm.cv_vertex hxz).symm.trans hz.2⟩
    · have := hd.cvNew x z (by omega) hxz
      omega
  · intro x z hxz hPx hz
    apply hPx
    by_cases hx : x < s0.m_apLaths.length
    · rw [hd.ccv_old hv hx] at hxz
      exact ⟨hx, (hm.cv_vertex (hm.cv_of_ccv hxz)).trans hz.2⟩
    · have := hd.ccv_new hv (by omega) hxz
      omega

/-- A refinement keeps the child vertices of different control vertices
apart: when no two laths of the control mesh at different vertices refer to
child laths of one vertex, none do after the refinement. -/
theorem SubdivideFace.Traced.child_apart {s0 u u2 : CqSubdivision2} (hm : s0.MatchedLinks)
    (hd : Descends s0 u)
    (hJ : ∀ y y' c c' w, y < s0.m_apLaths.length → y' < s0.m_apLaths.length →
      u.childPtr y = some c → u.childPtr y' = some c' → u.VertexIndex c = some w →
      u.VertexIndex c' = some w → s0.VertexIndex y = s0.VertexIndex y')
    {g : Nat} {sub aQfv : List Nat} {k : Nat} {aV : List Nat} {sc : CqSubdivision2}
    (e : SubdivideFace.refine u g = some (u2, sub))
    (ht : SubdivideFace.Traced u g u2 sub aQfv k aV sc) :
    ∀ y y' c c' w, y < s0.m_apLaths.length → y' < s0.m_apLaths.length →
      u2.childPtr y = some c → u2.childPtr y' = some c' → u2.VertexIndex c = some w →
      u2.VertexIndex c' = some w → s0.VertexIndex y = s0.VertexIndex y' := by
  have hsrc := SubdivideFace.refine_source hd.valid ht.refined.qfv e
  -- one pointer of the new state told
  have key : ∀ y c w, y < s0.m_apLaths.length → u2.childPtr y = some c →
      u2.VertexIndex c = some w →
      (u.childPtr y = some c ∧ u.VertexIndex c = some w) ∨
      ∃ j, j < aQfv.length ∧ aV.getD j 0 = w ∧ aQfv.getD j 0 < s0.m_apLaths.length ∧
        s0.VertexIndex (aQfv.getD j 0) = s0.VertexIndex y := by
    intro y c w hy hc hw
    obtain ⟨ly, hly, hcm⟩ := childPtr_lath hc
    rcases hsrc.origin y ly c hly hcm with ⟨j, hj, rfl, hclo⟩ | ⟨l0, hl0, hc0⟩
    · right
      obtain ⟨hq, hvq⟩ := hd.corner_of_child hm hy hclo
      have := ht.refined.VertexIndex_new hj (show 0 < 4 by omega)
      rw [show u.m_apLaths.length + (4 * j + 0) = u.m_apLaths.length + 4 * j from rfl,
        hw] at this
      simp only [SubdivideFace.cornerVertex, Option.some.injEq] at this
      exact ⟨j, hj, this.symm, hq, hvq⟩
    · left
      have hcl := (hd.valid.lath_ptr hl0).2.2.1 c hc0
      refine ⟨by unfold childPtr; rw [hl0]; exact hc0, ?_⟩
      rw [← ht.refined.VertexIndex_old hcl]
      exact hw
  -- the corner a reused vertex was found at
  have reuse : ∀ j w, j < aQfv.length → aV.getD j 0 = w → w < u.m_aapVertices.length →
      ∃ c, u.childPtr (aQfv.getD j 0) = some c ∧ u.VertexIndex c = some w := by
    intro j w hj hjw hlt
    rcases (SubdivideFace.aVertices_cases ht.refined.points hj).1 with h | h
    · rw [hjw] at h
      exact SubdivideFace.cornerReuse_child h
    · omega
  intro y y' c c' w hy hy' hc hc' hw hw'
  rcases key y c w hy hc hw with ⟨h1, h2⟩ | ⟨j, hj, hjw, hq, hvq⟩ <;>
    rcases key y' c' w hy' hc' hw' with ⟨h1', h2'⟩ | ⟨j', hj', hjw', hq', hvq'⟩
  · exact hJ y y' c c' w hy hy' h1 h1' h2 h2'
  · obtain ⟨c2, hc2, hv2⟩ := reuse j' w hj' hjw' (hd.valid.vertex_lt h2)
    rw [← hvq']
    exact hJ y _ c c2 w hy hq' h1 hc2 h2 hv2
  · obtain ⟨c2, hc2, hv2⟩ := reuse j w hj hjw (hd.valid.vertex_lt h2')
    rw [← hvq]
    exact hJ _ y' c2 c' w hq hy' hc2 h1' hv2 h2'
  · by_cases hf : u.m_aapVertices.length ≤ w
    · have hjj : j = j' := SubdivideFace.aVertices_inj hd.valid ht.refined.points
        (by omega) (by omega) (by omega) (hjw.trans hjw'.symm)
      subst hjj
      exact hvq.symm.trans hvq'
    · obtain ⟨c1, hc1, hv1⟩ := reuse j w hj hjw (by omega)
      obtain ⟨c2, hc2, hv2⟩ := reuse j' w hj' hjw' (by omega)
      rw [← hvq, ← hvq']
      exact hJ _ _ c1 c2 w hq hq' hc1 hc2 hv1 hv2

/-- Along any sequence of calls from a matched control mesh, two laths of the
control mesh that refer to child laths of one vertex are at one vertex. -/
theorem Calls.children_apart {Qff : CqSubdivision2 → Nat → Option (List Nat)}
    {s0 s : CqSubdivision2} (hc : Calls Qff s0 s) (hm : s0.MatchedLinks) (hu : s0.Unrefined) :
    ∀ y y' c c' w, y < s0.m_apLaths.length → y' < s0.m_apLaths.length →
      s.childPtr y = some c → s.childPtr y' = some c' → s.VertexIndex c = some w →
      s.VertexIndex c' = some w → s0.VertexIndex y = s0.VertexIndex y' := by
  have hv := hm.valid
  refine (Calls.keeps (fun u => Descends s0 u ∧
      ∀ y y' c c' w, y < s0.m_apLaths.length → y' < s0.m_apLaths.length →
        u.childPtr y = some c → u.childPtr y' = some c' → u.VertexIndex c = some w →
        u.VertexIndex c' = some w → s0.VertexIndex y = s0.VertexIndex y')
    (fun u g u2 sub aQfv k aV sc l _ hP _ _ e ht =>
      ⟨hP.1.step hv ht, ht.child_apart hm hP.1 hP.2 e⟩)
    hc hv ⟨Descends.of_control hv hu, ?_⟩).2.2
  intro y y' c c' w _ _ h1
  obtain ⟨l, hl, hcl⟩ := childPtr_lath h1
  rw [(hu.lath hl).2.1] at hcl
  cases hcl

end CqSubdivision2
end Aqsis

namespace Aqsis
namespace CqSubdivision2

/-! ## The mid-edge vertex while one face of the edge is refined -/

/-- The laths a refinement makes have no mid-vertex pointer. -/
theorem SubdivideFace.refine_mid_new {s : CqSubdivision2} (hv : s.Valid) {pFace : Nat}
    {s' : CqSubdivision2} {sub aQfv : List Nat} (hq : s.Qfv pFace = some aQfv)
    (e : SubdivideFace.refine s pFace = some (s', sub)) :
    ∀ y, s.m_apLaths.length ≤ y → s'.midPtr y = none := by
  have e0 := e
  obtain ⟨_, hring, _⟩ := hv.qfv hq
  rw [SubdivideFace.refine_eq hv.params, hq] at e
  simp only [Option.some_bind] at e
  cases hp : SubdivideFace.aVertices s aQfv with
  | none => rw [hp] at e; cases e
  | some kv =>
    rw [hp] at e
    simp only [Option.some_bind] at e
    cases hc : forEach (SubdivideFace.createFace pFace aQfv kv.2 aQfv.length)
        (List.range aQfv.length) (growBy kv.1 s, [], []) with
    | none => rw [hc] at e; cases e
    | some st =>
      obtain ⟨s2, e2, href⟩ := SubdivideFace.refine_of_created hv hq
        (show SubdivideFace.aVertices s aQfv = some (kv.1, kv.2) from hp) hc
      rw [e0] at e2
      simp only [Option.some.injEq, Prod.mk.injEq] at e2
      obtain ⟨rfl, rfl⟩ := e2
      obtain ⟨hV, _, hlt, _, _⟩ := SubdivideFace.aVertices_spec hv
        (show SubdivideFace.aVertices s aQfv = some (kv.1, kv.2) from hp)
      have hloop := forEach_range_inv (SubdivideFace.createFace pFace aQfv kv.2 aQfv.length)
        (fun i st => SubdivideFace.Created (growBy kv.1 s).m_apLaths
          (growBy kv.1 s).m_aapVertices (growBy kv.1 s).m_apFacets (growBy kv.1 s).aUserParams
          pFace kv.2 aQfv.length i st ∧
          ∀ y ly, s.m_apLaths.length ≤ y → st.1.lath y = some ly → ly.m_pMidVertex = none)
        aQfv.length
        (fun i hi st1 st2 hc1 e1 => by
          obtain ⟨chain, _, hstep⟩ := SubdivideFace.Created.iter rfl hV
            (fun v hvm => by rw [growBy_table_length]; exact hlt v hvm) hi hc1.1 e1
          refine ⟨hc1.1.created_step hstep, ?_⟩
          intro y ly hy hly
          rw [hstep.laths y] at hly
          cases hg : (st1.1.m_apLaths ++ SubdivideFace.four pFace st1.1.m_apLaths.length
              (kv.2.getD i 0) (kv.2.getD ((i + 1) % aQfv.length + aQfv.length) 0)
              (kv.2.getD (2 * aQfv.length) 0) (kv.2.getD (i + aQfv.length) 0))[y]? with
          | none => rw [hg] at hly; cases hly
          | some l =>
            rw [hg] at hly
            simp only [Option.map_some', Option.some.injEq] at hly
            subst hly
            have hqi : aQfv.getD i 0 < s.m_apLaths.length :=
              hring.lt _ (getD_mem_of_lt aQfv i 0 hi)
            have hne : y ≠ aQfv.getD i 0 := by omega
            simp only [if_neg hne]
            by_cases hys : y < st1.1.m_apLaths.length
            · rw [List.getElem?_append_left hys] at hg
              exact hc1.2 y l hy hg
            · rw [List.getElem?_append_right (by omega)] at hg
              exact (SubdivideFace.four_pointers (List.getElem?_mem hg)).2.1)
        (growBy kv.1 s, [], []) st
        ⟨SubdivideFace.Created.created_zero (growBy kv.1 s) pFace kv.2 aQfv.length
            (hv.growBy kv.1).childMid, by
          intro y ly hy hly
          have h1 : y < (growBy kv.1 s).m_apLaths.length := lath_lt hly
          have hl : (growBy kv.1 s).m_apLaths.length = s.m_apLaths.length := rfl
          omega⟩ hc
      intro y hy
      unfold midPtr
      cases hly : s'.lath y with
      | none => rfl
      | some ly =>
        have hyc : y < st.1.m_apLaths.length := by
          rw [← href.link.link_length]; exact lath_lt hly
        obtain ⟨lc, hlc⟩ := lath_of_lt hyc
        obtain ⟨l', h', _, _, _, e4, _⟩ := href.linked_fields hlc
        rw [hly] at h'
        cases h'
        simp only [Option.some_bind]
        rw [e4]
        exact hloop.2 y lc hy hlc

/-- In a state that descends from a matched control mesh, the only lath whose
edge companion is the lath `q1` of the control mesh is the edge companion of
`q1` in the control mesh. -/
theorem Descends.ec_source {s0 u : CqSubdivision2} (hd : Descends s0 u)
    (hm : s0.MatchedLinks) {q1 q2 : Nat} (hq1 : q1 < s0.m_apLaths.length)
    (he21 : s0.ec q2 = some (some q1)) {x : Nat} (h : u.ec x = some (some q1)) : x = q2 := by
  have hv := hm.valid
  by_cases hx : x < s0.m_apLaths.length
  · rw [hd.ec_control hv hx] at h
    exact hm.ec_inj h he21
  · obtain ⟨c, hc, hcf⟩ := ec_split h
    have h1 := hd.cvNew x c (by omega) hc
    have h2 := hd.cfD_later hv h1 hcf
    omega

/-- A refinement of a face that does not hold the corner `q2` on the other
side of the edge leaves the mid-edge vertex as it is. -/
theorem SubdivideFace.Traced.edge_open {s0 u u2 : CqSubdivision2} (hm : s0.MatchedLinks)
    (hd : Descends s0 u) {q1 q2 : Nat} (hq1 : q1 < s0.m_apLaths.length)
    (he21 : s0.ec q2 = some (some q1)) {m D B a fp b : Nat}
    (hafp : a ≠ fp) (hab : a ≠ b) (hfb : fp ≠ b)
    (hE : EdgeOpen u m D B a fp b q1)
    {g : Nat} {sub aQfv : List Nat} {k : Nat} {aV : List Nat} {sc : CqSubdivision2}
    (ht : SubdivideFace.Traced u g u2 sub aQfv k aV sc) (hq2 : q2 ∉ aQfv) :
    EdgeOpen u2 m D B a fp b q1 := by
  have hvu := hd.valid
  have hmT : m < u.m_aapVertices.length := hvu.vertex_lt hE.atD
  have hDl : D < u.m_apLaths.length := VertexIndex_lath_lt hE.atD
  have hBl : B < u.m_apLaths.length := VertexIndex_lath_lt hE.atB
  have hcorner : ∀ j, j < aQfv.length → aV.getD j 0 ≠ m := by
    intro j hj heq
    rcases (SubdivideFace.aVertices_cases ht.refined.points hj).1 with h | h
    · rw [heq] at h
      obtain ⟨c, hc, hvc⟩ := SubdivideFace.cornerReuse_child h
      exact hE.child _ c hc hvc
    · omega
  have hedge : ∀ j, j < aQfv.length → aV.getD (j + aQfv.length) 0 ≠ m := by
    intro j hj heq
    rcases (SubdivideFace.aVertices_cases ht.refined.points hj).2 with h | h
    · rw [heq] at h
      obtain ⟨c, mm, hec, hmid, hvm⟩ := SubdivideFace.edgeReuse_mid h
      have hc1 := hE.mid c mm hmid hvm
      subst hc1
      have hx := hd.ec_source hm hq1 he21 hec
      apply hq2
      rw [← hx]
      exact getD_mem_of_lt aQfv j 0 hj
    · omega
  have hface : aV.getD (2 * aQfv.length) 0 ≠ m := by
    obtain ⟨_, _, _, h4, _⟩ := SubdivideFace.aVertices_spec hvu ht.refined.points
    omega
  have hnew : ∀ j i, j < aQfv.length → i < 4 →
      SubdivideFace.cornerVertex aV aQfv.length j i ≠ m := by
    intro j i hj hi
    have hcases : i = 0 ∨ i = 1 ∨ i = 2 ∨ i = 3 := by omega
    rcases hcases with rfl | rfl | rfl | rfl
    · exact hcorner j hj
    · exact hedge ((j + 1) % aQfv.length) (Nat.mod_lt _ (by omega))
    · exact hface
    · exact hedge j hj
  obtain ⟨vD, oD, iD⟩ := ht.keys_old hvu hDl
  obtain ⟨vB, oB, iB⟩ := ht.keys_old hvu hBl
  have hall : ∀ h, u2.VertexIndex h = some m → h = D ∨ h = B := by
    intro h hh
    rcases ht.at_vertex hh with ⟨_, ho⟩ | ⟨j, i, hj, hi, rfl, hc⟩
    · exact hE.all h ho
    · exact absurd hc (hnew j i hj hi)
  have hvD2 : u2.VertexIndex D = some m := vD.trans hE.atD
  have hvB2 : u2.VertexIndex B = some m := vB.trans hE.atB
  have hoD2 : u2.outKey D = some a := oD.trans hE.outD
  have hiD2 : u2.innKey D = some fp := iD.trans hE.innD
  have hoB2 : u2.outKey B = some fp := oB.trans hE.outB
  have hiB2 : u2.innKey B = some b := iB.trans hE.innB
  refine ⟨?_, ?_, hall, ?_, ?_, hvD2, hvB2, hoD2, hiD2, hoB2, hiB2, ?_⟩
  · intro y c hc hvc
    obtain ⟨ly, hly, hcm⟩ := childPtr_lath hc
    rcases (ht.origin y ly hly).1 c hcm with ⟨j, hj, rfl⟩ | ⟨l0, hl0, hc0⟩
    · have := ht.refined.VertexIndex_new hj (show 0 < 4 by omega)
      rw [show u.m_apLaths.length + (4 * j + 0) = u.m_apLaths.length + 4 * j from rfl,
        hvc] at this
      simp only [Option.some.injEq] at this
      exact hnew j 0 hj (by omega) this.symm
    · have hcl := (hvu.lath_ptr hl0).2.2.1 c hc0
      refine hE.child y c (by unfold childPtr; rw [hl0]; exact hc0) ?_
      rw [← ht.refined.VertexIndex_old hcl]
      exact hvc
  · intro y c hc hvc
    obtain ⟨ly, hly, hcm⟩ := midPtr_lath hc
    rcases (ht.origin y ly hly).2 c hcm with ⟨j, hj, rfl⟩ | ⟨l0, hl0, hc0⟩
    · have := ht.refined.VertexIndex_new hj (show 3 < 4 by omega)
      rw [hvc] at this
      simp only [Option.some.injEq] at this
      exact absurd this.symm (hnew j 3 hj (by omega))
    · have hcl := (hvu.lath_ptr hl0).2.2.2.1 c hc0
      refine hE.mid y c (by unfold midPtr; rw [hl0]; exact hc0) ?_
      rw [← ht.refined.VertexIndex_old hcl]
      exact hvc
  · obtain ⟨y, hy⟩ := ht.kept _ _ hE.cvD
    rcases ht.links _ _ hy with h | ⟨⟨v, h1, h2⟩, w, h3, h4⟩
    · rw [hE.cvD] at h
      simp only [Option.some.injEq] at h
      rw [h]
      exact hy
    · rw [hvD2] at h1
      cases h1
      rw [hiD2] at h4
      cases h4
      rcases hall y h2 with rfl | rfl
      · rw [hoD2] at h3
        simp only [Option.some.injEq] at h3
        exact absurd h3 hafp
      · exact hy
  · obtain ⟨o, ho⟩ := cv_some_of_lt (VertexIndex_lath_lt hvB2)
    cases o with
    | none => exact ho
    | some M =>
      exfalso
      rcases ht.links _ _ ho with h | ⟨⟨v, h1, h2⟩, w, h3, h4⟩
      · rw [hE.cvB] at h
        cases h
      · rw [hvB2] at h1
        cases h1
        rw [hiB2] at h4
        cases h4
        rcases hall M h2 with rfl | rfl
        · rw [hoD2] at h3
          simp only [Option.some.injEq] at h3
          exact hab h3
        · rw [hoB2] at h3
          simp only [Option.some.injEq] at h3
          exact hfb h3
  · obtain ⟨adj, ha, hDa, hBa⟩ := hE.listed
    obtain ⟨a2, ha2, hD2⟩ := ht.mem_old ha hDa
    obtain ⟨a3, ha3, hB3⟩ := ht.mem_old ha hBa
    rw [ha2] at ha3
    cases ha3
    exact ⟨a2, ha2, hD2, hB3⟩

end CqSubdivision2
end Aqsis

namespace Aqsis
namespace CqSubdivision2

/-! ## The mid-edge vertex after the first and after the second refinement -/

/-- The far end of an edge of a well-formed topology is a vertex of the
table. -/
theorem Valid.outKey_lt {s : CqSubdivision2} (hv : s.Valid) {h v : Nat}
    (e : s.outKey h = some v) : v < s.m_aapVertices.length := by
  unfold outKey at e
  cases hc : s.cfD h with
  | none => rw [hc] at e; cases e
  | some c =>
    rw [hc] at e
    exact hv.vertex_lt e

/-- The mid-edge vertex of an edge after the first face at the edge is
refined, when the refinement makes that vertex: the laths at the vertex are
the fourth lath of child `i` and the second lath of the child before, linked
as an open chain. -/
theorem SubdivideFace.Traced.edge_first {s s1 : CqSubdivision2} (hv : s.Valid) {f : Nat}
    {r1 ring : List Nat} {k : Nat} {aV : List Nat} {sc : CqSubdivision2}
    (e : SubdivideFace.refine s f = some (s1, r1))
    (ht : SubdivideFace.Traced s f s1 r1 ring k aV sc)
    (hn : 2 ≤ ring.length) {i : Nat} (hi : i < ring.length)
    (hfresh : s.m_aapVertices.length ≤ aV.getD (i + ring.length) 0)
    (hab : aV.getD i 0 ≠ aV.getD ((i + ring.length - 1) % ring.length) 0) :
    EdgeOpen s1 (aV.getD (i + ring.length) 0) (s.m_apLaths.length + (4 * i + 3))
      (s.m_apLaths.length + (4 * ((i + ring.length - 1) % ring.length) + 1))
      (aV.getD i 0) s.m_aapVertices.length
      (aV.getD ((i + ring.length - 1) % ring.length) 0) (ring.getD i 0) := by
  have hp := ht.refined.points
  obtain ⟨_, _, _, h4, h5⟩ := SubdivideFace.aVertices_spec hv hp
  have hjp : (i + ring.length - 1) % ring.length < ring.length := Nat.mod_lt _ (by omega)
  have hsucc := succ_pred_mod hi
  have hne := pred_mod_ne hn hi
  generalize (i + ring.length - 1) % ring.length = jp at *
  have inj : ∀ c, c < 2 * ring.length → aV.getD c 0 = aV.getD (i + ring.length) 0 →
      c = i + ring.length := fun c hc heq =>
    (SubdivideFace.aVertices_inj hv hp (show i + ring.length < 2 * ring.length by omega) hc
      hfresh heq.symm).symm
  have hVD : s1.VertexIndex (s.m_apLaths.length + (4 * i + 3)) =
      some (aV.getD (i + ring.length) 0) := ht.refined.VertexIndex_new hi (show 3 < 4 by omega)
  have hVB : s1.VertexIndex (s.m_apLaths.length + (4 * jp + 1)) =
      some (aV.getD (i + ring.length) 0) := by
    rw [ht.refined.VertexIndex_new hjp (show 1 < 4 by omega)]
    show some (aV.getD ((jp + 1) % ring.length + ring.length) 0) = _
    rw [hsucc]
  obtain ⟨oD, iD⟩ := ht.keys_new hi (show 3 < 4 by omega)
  obtain ⟨oB, iB⟩ := ht.keys_new hjp (show 1 < 4 by omega)
  have hoD : s1.outKey (s.m_apLaths.length + (4 * i + 3)) = some (aV.getD i 0) := oD
  have hiD : s1.innKey (s.m_apLaths.length + (4 * i + 3)) = some s.m_aapVertices.length := by
    rw [iD]
    exact congrArg some h4
  have hoB : s1.outKey (s.m_apLaths.length + (4 * jp + 1)) = some s.m_aapVertices.length := by
    rw [oB]
    exact congrArg some h4
  have hiB : s1.innKey (s.m_apLaths.length + (4 * jp + 1)) = some (aV.getD jp 0) := iB
  have hafp : aV.getD i 0 ≠ s.m_aapVertices.length := h5 i (by omega)
  have hfb : s.m_aapVertices.length ≠ aV.getD jp 0 := fun h => h5 jp (by omega) h.symm
  have hold : ∀ c, c < s.m_apLaths.length →
      s1.VertexIndex c ≠ some (aV.getD (i + ring.length) 0) := by
    intro c hc heq
    rw [ht.refined.VertexIndex_old hc] at heq
    have := hv.vertex_lt heq
    omega
  have hall : ∀ h, s1.VertexIndex h = some (aV.getD (i + ring.length) 0) →
      h = s.m_apLaths.length + (4 * i + 3) ∨ h = s.m_apLaths.length + (4 * jp + 1) := by
    intro h hh
    rcases ht.at_vertex hh with ⟨hlt, _⟩ | ⟨j, i', hj, hi', rfl, hc⟩
    · exact absurd hh (hold h hlt)
    · have hcases : i' = 0 ∨ i' = 1 ∨ i' = 2 ∨ i' = 3 := by omega
      rcases hcases with rfl | rfl | rfl | rfl
      · have := inj j (by omega) hc
        omega
      · have hlt : (j + 1) % ring.length < ring.length := Nat.mod_lt _ (by omega)
        have h2 := inj ((j + 1) % ring.length + ring.length) (by omega) hc
        have h3 := pred_of_succ_mod hj (show (j + 1) % ring.length = i by omega)
        have h4' := pred_of_succ_mod hjp hsucc
        right
        rw [h3, ← h4']
      · have : aV.getD (2 * ring.length) 0 = aV.getD (i + ring.length) 0 := hc
        rw [h4] at this
        exact absurd this.symm (h5 (i + ring.length) (by omega))
      · have := inj (j + ring.length) (by omega) hc
        left
        have hji : j = i := by omega
        rw [hji]
  refine ⟨?_, ?_, hall, ?_, ?_, hVD, hVB, hoD, hiD, hoB, hiB, ?_⟩
  · intro y c hc hvc
    obtain ⟨ly, hly, hcm⟩ := childPtr_lath hc
    rcases (ht.origin y ly hly).1 c hcm with ⟨j, hj, rfl⟩ | ⟨l0, hl0, hc0⟩
    · have := ht.refined.VertexIndex_new hj (show 0 < 4 by omega)
      rw [show s.m_apLaths.length + (4 * j + 0) = s.m_apLaths.length + 4 * j from rfl,
        hvc] at this
      simp only [Option.some.injEq] at this
      have := inj j (by omega) this.symm
      omega
    · exact hold c ((hv.lath_ptr hl0).2.2.1 c hc0) hvc
  · intro y c hc hvc
    by_cases hy : y < s.m_apLaths.length
    · by_cases hyr : y ∈ ring
      · obtain ⟨j, hj, hget⟩ := List.getElem_of_mem hyr
        have hgd : ring.getD j 0 = y := by
          rw [List.getD_eq_getElem ring 0 hj]; exact hget
        have hmc := ht.refined.midPtr_corner hj
        rw [hgd, hc] at hmc
        simp only [Option.some.injEq] at hmc
        subst hmc
        rw [ht.refined.VertexIndex_new hj (show 3 < 4 by omega)] at hvc
        simp only [Option.some.injEq] at hvc
        have := inj (j + ring.length) (by omega) hvc
        have hji : j = i := by omega
        rw [← hgd, hji]
      · exfalso
        rw [ht.refined.midPtr_other hy hyr] at hc
        obtain ⟨l0, hl0, hc0⟩ := midPtr_lath hc
        exact hold c ((hv.lath_ptr hl0).2.2.2.1 c hc0) hvc
    · rw [SubdivideFace.refine_mid_new hv ht.refined.qfv e y (by omega)] at hc
      cases hc
  · obtain ⟨y, hy⟩ := ht.occF i hi
    obtain ⟨⟨v, h1, h2⟩, w, h3, h4'⟩ := ht.link_new (by omega) hy
    rw [hVD] at h1
    cases h1
    rw [hiD] at h4'
    cases h4'
    rcases hall y h2 with rfl | rfl
    · rw [hoD] at h3
      simp only [Option.some.injEq] at h3
      exact absurd h3 hafp
    · exact hy
  · obtain ⟨o, ho⟩ := cv_some_of_lt (VertexIndex_lath_lt hVB)
    cases o with
    | none => exact ho
    | some M =>
      exfalso
      obtain ⟨⟨v, h1, h2⟩, w, h3, h4'⟩ := ht.link_new (by omega) ho
      rw [hVB] at h1
      cases h1
      rw [hiB] at h4'
      cases h4'
      rcases hall M h2 with rfl | rfl
      · rw [hoD] at h3
        simp only [Option.some.injEq] at h3
        exact hab h3
      · rw [hoB] at h3
        simp only [Option.some.injEq] at h3
        exact hfb h3
  · obtain ⟨a1, ha1, hD1⟩ := ht.mem_new hv hi (show 3 < 4 by omega)
    obtain ⟨a2, ha2, hB2⟩ := ht.mem_new hv hjp (show 1 < 4 by omega)
    have e1 : SubdivideFace.cornerVertex aV ring.length i 3 = aV.getD (i + ring.length) 0 := rfl
    have e2 : SubdivideFace.cornerVertex aV ring.length jp 1 =
        aV.getD (i + ring.length) 0 := by
      show aV.getD ((jp + 1) % ring.length + ring.length) 0 = _
      rw [hsucc]
    rw [e1] at ha1
    rw [e2, ha1] at ha2
    cases ha2
    exact ⟨a1, ha1, hD1, hB2⟩

/-- The mid-edge vertex of an edge after the second face at the edge is
refined: the refinement finds the vertex `m` for the edge of its corner `i2`
and the child vertices `b`, `a` of the ends of the edge; the laths at `m` are
`D`, `B` and the fourth lath of child `i2` and the second lath of the child
before, and the links run `D`, `B`, these two, and back to `D`. -/
theorem SubdivideFace.Traced.edge_closed {s0 t s2 : CqSubdivision2} (hm : s0.MatchedLinks)
    (hd : Descends s0 t) {q1 q2 : Nat} (hq1 : q1 < s0.m_apLaths.length)
    (he21 : s0.ec q2 = some (some q1)) {m D B a fp b : Nat}
    (hafp : a ≠ fp) (hab : a ≠ b) (hfb : fp ≠ b)
    (hE : EdgeOpen t m D B a fp b q1)
    {f2 : Nat} {r2 ring2 : List Nat} {k2 : Nat} {aV2 : List Nat} {sc2 : CqSubdivision2}
    (e2 : SubdivideFace.refine t f2 = some (s2, r2))
    (ht2 : SubdivideFace.Traced t f2 s2 r2 ring2 k2 aV2 sc2) (hn2 : 2 ≤ ring2.length)
    {i2 : Nat} (hq2 : ring2[i2]? = some q2)
    (hem : aV2.getD (i2 + ring2.length) 0 = m) (heb : aV2.getD i2 0 = b)
    (hea : aV2.getD ((i2 + ring2.length - 1) % ring2.length) 0 = a) :
    [a, fp, b, t.m_aapVertices.length].Nodup ∧
    EdgeClosed s2 m D B (t.m_apLaths.length + (4 * i2 + 3))
      (t.m_apLaths.length + (4 * ((i2 + ring2.length - 1) % ring2.length) + 1))
      a fp b t.m_aapVertices.length q1 q2 := by
  have hvt := hd.valid
  obtain ⟨hi2, hg2⟩ := getD_of_getElem? hq2
  have hp := ht2.refined.points
  obtain ⟨_, _, _, h4, h5⟩ := SubdivideFace.aVertices_spec hvt hp
  have hmT : m < t.m_aapVertices.length := hvt.vertex_lt hE.atD
  have hfpT : fp < t.m_aapVertices.length := hvt.outKey_lt hE.outB
  have hDl : D < t.m_apLaths.length := VertexIndex_lath_lt hE.atD
  have hBl : B < t.m_apLaths.length := VertexIndex_lath_lt hE.atB
  have hjq : (i2 + ring2.length - 1) % ring2.length < ring2.length := Nat.mod_lt _ (by omega)
  have hsucc2 := succ_pred_mod hi2
  generalize (i2 + ring2.length - 1) % ring2.length = jq at *
  have ha2 : a ≠ t.m_aapVertices.length := hea ▸ h5 jq (by omega)
  have hb2 : b ≠ t.m_aapVertices.length := heb ▸ h5 i2 (by omega)
  have hcorner : ∀ j, j < ring2.length → aV2.getD j 0 ≠ m := by
    intro j hj heq
    rcases (SubdivideFace.aVertices_cases hp hj).1 with h | h
    · rw [heq] at h
      obtain ⟨c, hc, hvc⟩ := SubdivideFace.cornerReuse_child h
      exact hE.child _ c hc hvc
    · omega
  have hedge : ∀ j, j < ring2.length → aV2.getD (j + ring2.length) 0 = m → j = i2 := by
    intro j hj heq
    rcases (SubdivideFace.aVertices_cases hp hj).2 with h | h
    · rw [heq] at h
      obtain ⟨c, mm, hec, hmid, hvm⟩ := SubdivideFace.edgeReuse_mid h
      have hc1 := hE.mid c mm hmid hvm
      subst hc1
      have hx := hd.ec_source hm hq1 he21 hec
      exact getD_nodup_inj ht2.refined.ring.nodup hj hi2 (hx.trans hg2.symm)
    · omega
  obtain ⟨vD1, kD1o, kD1i⟩ := ht2.keys_old hvt hDl
  obtain ⟨vB1, kB1o, kB1i⟩ := ht2.keys_old hvt hBl
  rw [hE.atD] at vD1
  rw [hE.atB] at vB1
  rw [hE.outD] at kD1o
  rw [hE.innD] at kD1i
  rw [hE.outB] at kB1o
  rw [hE.innB] at kB1i
  have vD2 : s2.VertexIndex (t.m_apLaths.length + (4 * i2 + 3)) = some m := by
    rw [ht2.refined.VertexIndex_new hi2 (by omega)]
    exact congrArg some hem
  have vB2 : s2.VertexIndex (t.m_apLaths.length + (4 * jq + 1)) = some m := by
    rw [ht2.refined.VertexIndex_new hjq (by omega)]
    show some (aV2.getD ((jq + 1) % ring2.length + ring2.length) 0) = _
    rw [hsucc2]
    exact congrArg some hem
  obtain ⟨oD, iD⟩ := ht2.keys_new hi2 (show 3 < 4 by omega)
  obtain ⟨oB, iB⟩ := ht2.keys_new hjq (show 1 < 4 by omega)
  have kD2o : s2.outKey (t.m_apLaths.length + (4 * i2 + 3)) = some b := by
    rw [oD]
    exact congrArg some heb
  have kD2i : s2.innKey (t.m_apLaths.length + (4 * i2 + 3)) =
      some t.m_aapVertices.length := by
    rw [iD]
    exact congrArg some h4
  have kB2o : s2.outKey (t.m_apLaths.length + (4 * jq + 1)) =
      some t.m_aapVertices.length := by
    rw [oB]
    exact congrArg some h4
  have kB2i : s2.innKey (t.m_apLaths.length + (4 * jq + 1)) = some a := by
    rw [iB]
    exact congrArg some hea
  have hall : ∀ h, s2.VertexIndex h = some m →
      h = D ∨ h = B ∨ h = t.m_apLaths.length + (4 * i2 + 3) ∨
      h = t.m_apLaths.length + (4 * jq + 1) := by
    intro h hh
    rcases ht2.at_vertex hh with ⟨_, ho⟩ | ⟨j, i, hj, hi, rfl, hc⟩
    · rcases hE.all h ho with h1 | h1
      · exact Or.inl h1
      · exact Or.inr (Or.inl h1)
    · have hcases : i = 0 ∨ i = 1 ∨ i = 2 ∨ i = 3 := by omega
      rcases hcases with rfl | rfl | rfl | rfl
      · exact absurd hc (hcorner j hj)
      · have hlt : (j + 1) % ring2.length < ring2.length := Nat.mod_lt _ (by omega)
        have h2 := hedge _ hlt hc
        have h3 := pred_of_succ_mod hj h2
        have h4' := pred_of_succ_mod hjq hsucc2
        right; right; right
        rw [h3, ← h4']
      · have : aV2.getD (2 * ring2.length) 0 = m := hc
        rw [h4] at this
        omega
      · have h2 := hedge j hj hc
        right; right; left
        rw [h2]
  obtain ⟨adj, hadj, hDa, hBa⟩ := hE.listed
  obtain ⟨a2, hadj2, hDa2⟩ := ht2.mem_old hadj hDa
  obtain ⟨a3, hadj3, hBa3⟩ := ht2.mem_old hadj hBa
  rw [hadj2] at hadj3
  cases hadj3
  refine ⟨?_, ?_, ?_, ?_, ?_, ?_, ?_, ?_, kD1o, kB1o, kD2o, kB2o, kD1i, kB1i, kD2i, kB2i⟩
  · simp only [List.nodup_cons, List.mem_cons, List.mem_singleton, List.not_mem_nil,
      or_false, not_or, List.nodup_nil, not_false_eq_true, and_true]
    exact ⟨⟨hafp, hab, ha2⟩, ⟨hfb, by omega⟩, hb2⟩
  · intro y c hc hvc
    obtain ⟨ly, hly, hcm⟩ := childPtr_lath hc
    rcases (ht2.origin y ly hly).1 c hcm with ⟨j, hj, rfl⟩ | ⟨l0, hl0, hc0⟩
    · have := ht2.refined.VertexIndex_new hj (show 0 < 4 by omega)
      rw [show t.m_apLaths.length + (4 * j + 0) = t.m_apLaths.length + 4 * j from rfl,
        hvc] at this
      simp only [Option.some.injEq] at this
      exact hcorner j hj this.symm
    · have hcl := (hvt.lath_ptr hl0).2.2.1 c hc0
      refine hE.child y c (by unfold childPtr; rw [hl0]; exact hc0) ?_
      rw [← ht2.refined.VertexIndex_old hcl]
      exact hvc
  · intro y c hc hvc
    by_cases hy : y < t.m_apLaths.length
    · by_cases hyr : y ∈ ring2
      · right
        obtain ⟨j, hj, hget⟩ := List.getElem_of_mem hyr
        have hgd : ring2.getD j 0 = y := by
          rw [List.getD_eq_getElem ring2 0 hj]; exact hget
        have hmc := ht2.refined.midPtr_corner hj
        rw [hgd, hc] at hmc
        simp only [Option.some.injEq] at hmc
        subst hmc
        rw [ht2.refined.VertexIndex_new hj (show 3 < 4 by omega)] at hvc
        simp only [Option.some.injEq] at hvc
        have hji := hedge j hj hvc
        rw [← hgd, hji]
        exact hg2
      · left
        rw [ht2.refined.midPtr_other hy hyr] at hc
        obtain ⟨l0, hl0, hc0⟩ := midPtr_lath hc
        have hcl := (hvt.lath_ptr hl0).2.2.2.1 c hc0
        refine hE.mid y c hc ?_
        rw [← ht2.refined.VertexIndex_old hcl]
        exact hvc
    · rw [SubdivideFace.refine_mid_new hvt ht2.refined.qfv e2 y (by omega)] at hc
      cases hc
  · intro h
    constructor
    · exact hall h
    · rintro (rfl | rfl | rfl | rfl)
      · exact vD1
      · exact vB1
      · exact vD2
      · exact vB2
  · -- D keeps its link
    obtain ⟨y, hy⟩ := ht2.kept _ _ hE.cvD
    rcases ht2.links _ _ hy with h | ⟨⟨v, h1, h2⟩, w, h3, h4'⟩
    · rw [hE.cvD] at h
      simp only [Option.some.injEq] at h
      rw [h]
      exact hy
    · rw [vD1] at h1
      cases h1
      rw [kD1i] at h4'
      cases h4'
      rcases hall y h2 with rfl | rfl | rfl | rfl
      · rw [kD1o] at h3
        simp only [Option.some.injEq] at h3
        exact absurd h3 hafp
      · exact hy
      · rw [kD2o] at h3
        simp only [Option.some.injEq] at h3
        exact absurd h3.symm hfb
      · rw [kB2o] at h3
        simp only [Option.some.injEq] at h3
        omega
  · -- B is linked by the scan for the new fourth lath
    obtain ⟨y, hy⟩ := ht2.occD i2 a2 _ hi2 (by rw [hem]; exact hadj2) hBa3
      (by rw [kB1i, heb])
    rcases ht2.links _ _ hy with h | ⟨⟨v, h1, h2⟩, w, h3, h4'⟩
    · rw [hE.cvB] at h
      cases h
    · rw [vB1] at h1
      cases h1
      rw [kB1i] at h4'
      cases h4'
      rcases hall y h2 with rfl | rfl | rfl | rfl
      · rw [kD1o] at h3
        simp only [Option.some.injEq] at h3
        exact absurd h3 hab
      · rw [kB1o] at h3
        simp only [Option.some.injEq] at h3
        exact absurd h3 hfb
      · exact hy
      · rw [kB2o] at h3
        simp only [Option.some.injEq] at h3
        exact absurd h3.symm hb2
  · -- the new fourth lath is linked by the first loop
    obtain ⟨y, hy⟩ := ht2.occF i2 hi2
    obtain ⟨⟨v, h1, h2⟩, w, h3, h4'⟩ := ht2.link_new (by omega) hy
    rw [vD2] at h1
    cases h1
    rw [kD2i] at h4'
    cases h4'
    rcases hall y h2 with rfl | rfl | rfl | rfl
    · rw [kD1o] at h3
      simp only [Option.some.injEq] at h3
      exact absurd h3 ha2
    · rw [kB1o] at h3
      simp only [Option.some.injEq] at h3
      omega
    · rw [kD2o] at h3
      simp only [Option.some.injEq] at h3
      exact absurd h3 hb2
    · exact hy
  · -- the new second lath is linked by the scan of its own adjacency list
    obtain ⟨y, hy⟩ := ht2.occB jq a2 _ hjq (by rw [hsucc2, hem]; exact hadj2) hDa2
      (by rw [kD1o, hea])
    obtain ⟨⟨v, h1, h2⟩, w, h3, h4'⟩ := ht2.link_new (by omega) hy
    rw [vB2] at h1
    cases h1
    rw [kB2i] at h4'
    cases h4'
    rcases hall y h2 with rfl | rfl | rfl | rfl
    · exact hy
    · rw [kB1o] at h3
      simp only [Option.some.injEq] at h3
      exact absurd h3.symm hafp
    · rw [kD2o] at h3
      simp only [Option.some.injEq] at h3
      exact absurd h3.symm hab
    · rw [kB2o] at h3
      simp only [Option.some.injEq] at h3
      exact absurd h3.symm ha2

/-- A refinement of a face that holds neither corner of the edge leaves the
closed cycle at the mid-edge vertex as it is. -/
theorem SubdivideFace.Traced.edge_kept {s0 u u2 : CqSubdivision2} (hm : s0.MatchedLinks)
    (hd : Descends s0 u) {q1 q2 : Nat} (hq1 : q1 < s0.m_apLaths.length)
    (hq2 : q2 < s0.m_apLaths.length)
    (he12 : s0.ec q1 = some (some q2)) (he21 : s0.ec q2 = some (some q1))
    {m D1 B1 D2 B2 a fp b fp2 : Nat} (hnd : [a, fp, b, fp2].Nodup)
    (hE : EdgeClosed u m D1 B1 D2 B2 a fp b fp2 q1 q2)
    {g : Nat} {sub aQfv : List Nat} {k : Nat} {aV : List Nat} {sc : CqSubdivision2}
    (ht : SubdivideFace.Traced u g u2 sub aQfv k aV sc) (hq1a : q1 ∉ aQfv)
    (hq2a : q2 ∉ aQfv) :
    EdgeClosed u2 m D1 B1 D2 B2 a fp b fp2 q1 q2 := by
  have hvu := hd.valid
  simp only [List.nodup_cons, List.mem_cons, List.mem_singleton, List.not_mem_nil,
    or_false, not_or, List.nodup_nil, not_false_eq_true, and_true] at hnd
  obtain ⟨⟨hafp, hab, haf2⟩, ⟨hfb, hff2⟩, hbf2⟩ := hnd
  have hatD1 := (hE.all D1).mpr (Or.inl rfl)
  have hatB1 := (hE.all B1).mpr (Or.inr (Or.inl rfl))
  have hatD2 := (hE.all D2).mpr (Or.inr (Or.inr (Or.inl rfl)))
  have hatB2 := (hE.all B2).mpr (Or.inr (Or.inr (Or.inr rfl)))
  have hmT : m < u.m_aapVertices.length := hvu.vertex_lt hatD1
  have hcorner : ∀ j, j < aQfv.length → aV.getD j 0 ≠ m := by
    intro j hj heq
    rcases (SubdivideFace.aVertices_cases ht.refined.points hj).1 with h | h
    · rw [heq] at h
      obtain ⟨c, hc, hvc⟩ := SubdivideFace.cornerReuse_child h
      exact hE.child _ c hc hvc
    · omega
  have hedge : ∀ j, j < aQfv.length → aV.getD (j + aQfv.length) 0 ≠ m := by
    intro j hj heq
    rcases (SubdivideFace.aVertices_cases ht.refined.points hj).2 with h | h
    · rw [heq] at h
      obtain ⟨c, mm, hec, hmid, hvm⟩ := SubdivideFace.edgeReuse_mid h
      rcases hE.mid c mm hmid hvm with hc1 | hc1
      · subst hc1
        have hx := hd.ec_source hm hq1 he21 hec
        apply hq2a
        rw [← hx]
        exact getD_mem_of_lt aQfv j 0 hj
      · subst hc1
        have hx := hd.ec_source hm hq2 he12 hec
        apply hq1a
        rw [← hx]
        exact getD_mem_of_lt aQfv j 0 hj
    · omega
  have hface : aV.getD (2 * aQfv.length) 0 ≠ m := by
    obtain ⟨_, _, _, h4, _⟩ := SubdivideFace.aVertices_spec hvu ht.refined.points
    omega
  have hnew : ∀ j i, j < aQfv.length → i < 4 →
      SubdivideFace.cornerVertex aV aQfv.length j i ≠ m := by
    intro j i hj hi
    have hcases : i = 0 ∨ i = 1 ∨ i = 2 ∨ i = 3 := by omega
    rcases hcases with rfl | rfl | rfl | rfl
    · exact hcorner j hj
    · exact hedge ((j + 1) % aQfv.length) (Nat.mod_lt _ (by omega))
    · exact hface
    · exact hedge j hj
  obtain ⟨vD1, oD1, iD1⟩ := ht.keys_old hvu (VertexIndex_lath_lt hatD1)
  obtain ⟨vB1, oB1, iB1⟩ := ht.keys_old hvu (VertexIndex_lath_lt hatB1)
  obtain ⟨vD2, oD2, iD2⟩ := ht.keys_old hvu (VertexIndex_lath_lt hatD2)
  obtain ⟨vB2, oB2, iB2⟩ := ht.keys_old hvu (VertexIndex_lath_lt hatB2)
  have kD1 := vD1.trans hatD1
  have kB1 := vB1.trans hatB1
  have kD2 := vD2.trans hatD2
  have kB2 := vB2.trans hatB2
  have kD1o := oD1.trans hE.outD1
  have kB1o := oB1.trans hE.outB1
  have kD2o := oD2.trans hE.outD2
  have kB2o := oB2.trans hE.outB2
  have kD1i := iD1.trans hE.innD1
  have kB1i := iB1.trans hE.innB1
  have kD2i := iD2.trans hE.innD2
  have kB2i := iB2.trans hE.innB2
  have hall : ∀ h, u2.VertexIndex h = some m → h = D1 ∨ h = B1 ∨ h = D2 ∨ h = B2 := by
    intro h hh
    rcases ht.at_vertex hh with ⟨_, ho⟩ | ⟨j, i, hj, hi, rfl, hc⟩
    · exact (hE.all h).mp ho
    · exact absurd hc (hnew j i hj hi)
  -- a link at the vertex is kept: only one lath leaves the vertex by the edge
  have keep : ∀ L M wk, u.cv L = some (some M) → u2.VertexIndex L = some m →
      u2.innKey L = some wk →
      (∀ y, (y = D1 ∨ y = B1 ∨ y = D2 ∨ y = B2) → u2.outKey y = some wk → y = M) →
      u2.cv L = some (some M) := by
    intro L M wk hcv hvL hiL huniq
    obtain ⟨y, hy⟩ := ht.kept _ _ hcv
    rcases ht.links _ _ hy with h | ⟨⟨v, h1, h2⟩, w, h3, h4⟩
    · rw [hcv] at h
      simp only [Option.some.injEq] at h
      rw [h]
      exact hy
    · rw [hvL] at h1
      cases h1
      rw [hiL] at h4
      cases h4
      rw [← huniq y (hall y h2) h3]
      exact hy
  refine ⟨?_, ?_, ?_, ?_, ?_, ?_, ?_, kD1o, kB1o, kD2o, kB2o, kD1i, kB1i, kD2i, kB2i⟩
  · intro y c hc hvc
    obtain ⟨ly, hly, hcm⟩ := childPtr_lath hc
    rcases (ht.origin y ly hly).1 c hcm with ⟨j, hj, rfl⟩ | ⟨l0, hl0, hc0⟩
    · have := ht.refined.VertexIndex_new hj (show 0 < 4 by omega)
      rw [show u.m_apLaths.length + (4 * j + 0) = u.m_apLaths.length + 4 * j from rfl,
        hvc] at this
      simp only [Option.some.injEq] at this
      exact hnew j 0 hj (by omega) this.symm
    · have hcl := (hvu.lath_ptr hl0).2.2.1 c hc0
      refine hE.child y c (by unfold childPtr; rw [hl0]; exact hc0) ?_
      rw [← ht.refined.VertexIndex_old hcl]
      exact hvc
  · intro y c hc hvc
    obtain ⟨ly, hly, hcm⟩ := midPtr_lath hc
    rcases (ht.origin y ly hly).2 c hcm with ⟨j, hj, rfl⟩ | ⟨l0, hl0, hc0⟩
    · have := ht.refined.VertexIndex_new hj (show 3 < 4 by omega)
      rw [hvc] at this
      simp only [Option.some.injEq] at this
      exact absurd this.symm (hnew j 3 hj (by omega))
    · have hcl := (hvu.lath_ptr hl0).2.2.2.1 c hc0
      refine hE.mid y c (by unfold midPtr; rw [hl0]; exact hc0) ?_
      rw [← ht.refined.VertexIndex_old hcl]
      exact hvc
  · intro h
    constructor
    · exact hall h
    · rintro (rfl | rfl | rfl | rfl)
      · exact kD1
      · exact kB1
      · exact kD2
      · exact kB2
  · refine keep D1 B1 fp hE.cvD1 kD1 kD1i ?_
    rintro y (rfl | rfl | rfl | rfl) h3
    · rw [kD1o] at h3; simp only [Option.some.injEq] at h3; exact absurd h3 hafp
    · rfl
    · rw [kD2o] at h3; simp only [Option.some.injEq] at h3; exact absurd h3.symm hfb
    · rw [kB2o] at h3; simp only [Option.some.injEq] at h3; exact absurd h3.symm hff2
  · refine keep B1 D2 b hE.cvB1 kB1 kB1i ?_
    rintro y (rfl | rfl | rfl | rfl) h3
    · rw [kD1o] at h3; simp only [Option.some.injEq] at h3; exact absurd h3 hab
    · rw [kB1o] at h3; simp only [Option.some.injEq] at h3; exact absurd h3 hfb
    · rfl
    · rw [kB2o] at h3; simp only [Option.some.injEq] at h3; exact absurd h3.symm hbf2
  · refine keep D2 B2 fp2 hE.cvD2 kD2 kD2i ?_
    rintro y (rfl | rfl | rfl | rfl) h3
    · rw [kD1o] at h3; simp only [Option.some.injEq] at h3; exact absurd h3 haf2
    · rw [kB1o] at h3; simp only [Option.some.injEq] at h3; exact absurd h3 hff2
    · rw [kD2o] at h3; simp only [Option.some.injEq] at h3; exact absurd h3 hbf2
    · rfl
  · refine keep B2 D1 a hE.cvB2 kB2 kB2i ?_
    rintro y (rfl | rfl | rfl | rfl) h3
    · rfl
    · rw [kB1o] at h3; simp only [Option.some.injEq] at h3; exact absurd h3.symm hafp
    · rw [kD2o] at h3; simp only [Option.some.injEq] at h3; exact absurd h3.symm hab
    · rw [kB2o] at h3; simp only [Option.some.injEq] at h3; exact absurd h3.symm haf2

end CqSubdivision2
end Aqsis

namespace Aqsis
namespace CqSubdivision2

/-! ## C31: the vertex ring of a shared mid-edge vertex -/

/-- Positions of a list whose images under `f` are pairwise different hold
different entries. -/
theorem getD_map_nodup_inj {l : List Nat} {f : Nat → Option Nat} (hnd : (l.map f).Nodup)
    {i j : Nat} (hi : i < l.length) (hj : j < l.length)
    (e : f (l.getD i 0) = f (l.getD j 0)) : i = j := by
  rw [List.getD_eq_getElem l 0 hi, List.getD_eq_getElem l 0 hj] at e
  have hi' : i < (l.map f).length := by rw [List.length_map]; exact hi
  have hj' : j < (l.map f).length := by rw [List.length_map]; exact hj
  have e' : (l.map f)[i] = (l.map f)[j] := by
    rw [List.getElem_map, List.getElem_map]
    exact e
  exact (List.Nodup.getElem_inj_iff hnd).mp e'

/-- The child vertex of a corner of the first face refined, whose corners are
at distinct vertices, is kept on the vertex-chain of the corner along any
further calls. -/
theorem Calls.corner_kept {Qff : CqSubdivision2 → Nat → Option (List Nat)}
    {s0 s s1 t : CqSubdivision2} (hm : s0.MatchedLinks) {f1 : Nat} {r1 ring1 : List Nat}
    {k1 : Nat} {aV1 : List Nat} {sc1 : CqSubdivision2} (hds : Descends s0 s)
    (hring1 : s0.IsRing ring1) (hnd : (ring1.map s0.VertexIndex).Nodup)
    (ht1 : SubdivideFace.Traced s f1 s1 r1 ring1 k1 aV1 sc1) (hc1 : Calls Qff s1 t)
    {j : Nat} (hj : j < ring1.length) {c : List Nat}
    (hc : s0.vertexChain (ring1.getD j 0) = some c) :
    ∀ K ∈ c, ∃ mm, t.childPtr K = some mm ∧ t.VertexIndex mm = some (aV1.getD j 0) := by
  have hv := hm.valid
  have href1 := ht1.refined
  have hds1 := hds.step hv ht1
  have hchild : ∀ K ∈ c,
      (s1.lath K).map CqLath.m_pChildVertex = some (some (s.m_apLaths.length + 4 * j)) := by
    intro K hK
    refine href1.child_chain hj (hds.chain_old hv hc) ?_ hK
    intro j2 hlt hj2
    obtain ⟨c2, hc2⟩ := hm.vertexChain_some (hring1.lt _ (getD_mem_of_lt ring1 j2 0 hj2))
    refine ⟨c2, hds.chain_old hv hc2, ?_⟩
    intro x hx hx2
    have e1 := hm.vertexChain_vertex hc x hx
    have e2 := hm.vertexChain_vertex hc2 x hx2
    have := getD_map_nodup_inj hnd hj hj2 (e1.symm.trans e2)
    omega
  have hviA : s1.VertexIndex (s.m_apLaths.length + 4 * j) = some (aV1.getD j 0) :=
    href1.VertexIndex_new hj (show 0 < 4 by omega)
  exact (Calls.keeps (fun u => Descends s0 u ∧
      ∀ K ∈ c, ∃ mm, u.childPtr K = some mm ∧ u.VertexIndex mm = some (aV1.getD j 0))
    (fun u g u2 sub aQfv k aV sc l _ hP _ _ e ht =>
      ⟨hP.1.step hv ht, ht.child_kept hm hP.1 hc hP.2 e⟩)
    hc1 href1.valid
    ⟨hds1, fun K hK => ⟨_, bind_of_map (hchild K hK), hviA⟩⟩).2.2

/-- C31 (amended): in a matched control mesh `s0` (what `Finalise` leaves of a
manifold mesh), let two faces share an edge: corner `q1` of the first and
corner `q2` of the second are edge companions of each other; the corners of
the first face are at distinct vertices.  Let `s` be any
state reached from `s0` by successful calls of `SubdivideFace` in which the
first face is not refined, let a call on the first face succeed there, let `t`
be any state reached by further successful calls (none, or any number on any
faces) in which the second face is not refined, let a call on the second face
succeed there, and let `w` be any state reached by further successful calls
after that.  With `A1`, `P1` the first laths of the children `i1` and
`i1 - 1` of the first face and `A2`, `P2` those of the children `i2` and
`i2 - 1` of the second, the laths `A1 + 3`, `P1 + 1`, `A2 + 3`, `P2 + 1` are
four distinct laths, the first two children of the first face and the other
two children of the second.  The mid-edge vertex `m` is made by the call on
the first face.  In `t`, while only the first face is refined, the laths at
`m` are `A1 + 3` and `P1 + 1`, and they form an open chain: `A1 + 3` is linked
to `P1 + 1`, whose link is missing.  In `w`, once both faces are refined, the
laths at `m` are exactly these four, and they form one closed
vertex-neighbour cycle of length 4 in which the two laths of each face follow each other: `A1 + 3`, `P1 + 1`,
`A2 + 3`, `P2 + 1` and back to `A1 + 3`.  The hypotheses but the one on the
corners are symmetric in the two faces, so the statement covers either
order. -/
theorem SubdivideFace_edge_cycle (Qff : CqSubdivision2 → Nat → Option (List Nat))
    (d1 d2 : Nat) {s0 s s1 t s2 w : CqSubdivision2} {f1 f2 q1 q2 i1 i2 : Nat}
    {ring1 ring2 r1 r2 : List Nat} (hm : s0.MatchedLinks) (hu : s0.Unrefined)
    (hr1 : s0.Qfv f1 = some ring1) (hr2 : s0.Qfv f2 = some ring2)
    (hnd : (ring1.map s0.VertexIndex).Nodup)
    (hq1 : ring1[i1]? = some q1) (hq2 : ring2[i2]? = some q2)
    (he12 : s0.ec q1 = some (some q2)) (he21 : s0.ec q2 = some (some q1))
    (hc0 : Calls Qff s0 s) (hn1 : s.facePtr f1 = none)
    (h1 : SubdivideFace Qff d1 s f1 = some (s1, r1))
    (hc1 : Calls Qff s1 t) (hn2 : t.facePtr f2 = none)
    (h2 : SubdivideFace Qff d2 t f2 = some (s2, r2)) (hc2 : Calls Qff s2 w) :
    ∃ A1 P1 A2 P2 m,
      r1[i1]? = some A1 ∧ r1[(i1 + ring1.length - 1) % ring1.length]? = some P1 ∧
      r2[i2]? = some A2 ∧ r2[(i2 + ring2.length - 1) % ring2.length]? = some P2 ∧
      [A1 + 3, P1 + 1, A2 + 3, P2 + 1].Nodup ∧
      (w.lath (A1 + 3)).map CqLath.m_pParentFacet = some (some f1) ∧
      (w.lath (P1 + 1)).map CqLath.m_pParentFacet = some (some f1) ∧
      (w.lath (A2 + 3)).map CqLath.m_pParentFacet = some (some f2) ∧
      (w.lath (P2 + 1)).map CqLath.m_pParentFacet = some (some f2) ∧
      s.m_aapVertices.length ≤ m ∧ m < s1.m_aapVertices.length ∧
      (∀ h, t.VertexIndex h = some m ↔ (h = A1 + 3 ∨ h = P1 + 1)) ∧
      t.cv (A1 + 3) = some (some (P1 + 1)) ∧ t.cv (P1 + 1) = some none ∧
      (∀ h, w.VertexIndex h = some m ↔
        (h = A1 + 3 ∨ h = P1 + 1 ∨ h = A2 + 3 ∨ h = P2 + 1)) ∧
      w.cv (A1 + 3) = some (some (P1 + 1)) ∧ w.cv (P1 + 1) = some (some (A2 + 3)) ∧
      w.cv (A2 + 3) = some (some (P2 + 1)) ∧ w.cv (P2 + 1) = some (some (A1 + 3)) := by
  have hv := hm.valid
  have hds := hc0.descends hv (Descends.of_control hv hu)
  obtain ⟨e1, k1, aV1, sc1, ht1⟩ := hds.subdivide_control hv hu Qff hr1 hn1 h1
  have hds1 := hds.step hv ht1
  have hdt := hc1.descends hv hds1
  obtain ⟨e2, k2, aV2, sc2, ht2⟩ := hdt.subdivide_control hv hu Qff hr2 hn2 h2
  have href1 := ht1.refined
  have href2 := ht2.refined
  obtain ⟨hi1, hg1⟩ := getD_of_getElem? hq1
  obtain ⟨hi2, hg2⟩ := getD_of_getElem? hq2
  obtain ⟨_, hring1, tl1, htl1⟩ := hv.qfv hr1
  obtain ⟨_, hring2, tl2, htl2⟩ := hv.qfv hr2
  have hq1m : q1 ∈ ring1 := List.getElem?_mem hq1
  have hq2m : q2 ∈ ring2 := List.getElem?_mem hq2
  have hf2m : f2 ∈ ring2 := by rw [htl2]; exact List.mem_cons_self _ _
  have hq1l : q1 < s0.m_apLaths.length := hring1.lt q1 hq1m
  have hq2l : q2 < s0.m_apLaths.length := hring2.lt q2 hq2m
  have hNs := hds.grows.grows_length
  have hl1 := href1.refined_length
  have hg1t := (Calls.calls_grows hc1 href1.valid).2
  have hNt := hg1t.grows_length
  -- the two faces are different faces
  have hdis : List.Disjoint ring1 ring2 := by
    intro x hx1 hx2
    have hf2r : f2 ∈ ring1 := IsRing.mem_of_shared hring1 hring2 hx1 hx2 hf2m
    obtain ⟨c, hc⟩ := href1.facePtr_corner hf2r
    exact hc1.facePtr_stays href1.valid (by rw [hc]; exact Option.some_ne_none c) hn2
  have hn1' : 2 ≤ ring1.length := hm.ring_two hring1 hq1m he12 (fun h => hdis h hq2m)
  have hn2' : 2 ≤ ring2.length := hm.ring_two hring2 hq2m he21 (fun h => hdis hq1m h)
  have hjp : (i1 + ring1.length - 1) % ring1.length < ring1.length := Nat.mod_lt _ (by omega)
  have hjq : (i2 + ring2.length - 1) % ring2.length < ring2.length := Nat.mod_lt _ (by omega)
  have hnep := pred_mod_ne hn1' hi1
  -- the second face is not refined when the first is
  have hn2s : s.facePtr f2 = none := by
    by_contra hcon
    exact (((Calls.of_call h1).calls_trans hc1).facePtr_stays hds.valid hcon) hn2
  obtain ⟨hA, hB⟩ := hc0.face_marks hv hu
  have hmid2 : s.midPtr q2 = none := by
    by_contra hcon
    exact hB f2 ring2 hr2 q2 hq2m (hA q2 hq2l hcon) f2 hf2m hn2s
  -- so the first call makes the edge point
  have hre1 : SubdivideFace.edgeReuse s q1 = some none := by
    obtain ⟨l2, hl2⟩ := lath_of_lt (lt_of_lt_of_le hq2l hNs)
    unfold SubdivideFace.edgeReuse
    rw [hds.ec_control hv hq1l, he12]
    simp only [hl2, midPtr_none_lath hmid2 hl2]
  have hfresh : s.m_aapVertices.length ≤ aV1.getD (i1 + ring1.length) 0 := by
    rcases (SubdivideFace.aVertices_cases href1.points hi1).2 with h | h
    · rw [hg1, hre1] at h; cases h
    · exact h
  -- the child vertices of the two ends of the edge are different
  have hJ := hc0.children_apart hm hu
  have hab : aV1.getD i1 0 ≠ aV1.getD ((i1 + ring1.length - 1) % ring1.length) 0 := by
    intro heq
    by_cases hf : s.m_aapVertices.length ≤ aV1.getD i1 0
    · have := SubdivideFace.aVertices_inj hds.valid href1.points
        (show i1 < 2 * ring1.length by omega)
        (show (i1 + ring1.length - 1) % ring1.length < 2 * ring1.length by omega) hf heq
      exact hnep this.symm
    · rcases (SubdivideFace.aVertices_cases href1.points hi1).1 with ha | ha
      · rcases (SubdivideFace.aVertices_cases href1.points hjp).1 with hb | hb
        · obtain ⟨c, hc, hvc⟩ := SubdivideFace.cornerReuse_child ha
          obtain ⟨c', hc', hvc'⟩ := SubdivideFace.cornerReuse_child hb
          rw [← heq] at hvc'
          have := hJ _ _ c c' _ (hring1.lt _ (getD_mem_of_lt ring1 i1 0 hi1))
            (hring1.lt _ (getD_mem_of_lt ring1 _ 0 hjp)) hc hc' hvc hvc'
          exact hnep (getD_map_nodup_inj hnd hi1 hjp this).symm
        · omega
      · omega
  obtain ⟨_, _, _, _, h5⟩ := SubdivideFace.aVertices_spec hds.valid href1.points
  have hafp : aV1.getD i1 0 ≠ s.m_aapVertices.length := h5 i1 (by omega)
  have hfb : s.m_aapVertices.length ≠ aV1.getD ((i1 + ring1.length - 1) % ring1.length) 0 :=
    fun h => h5 _ (show (i1 + ring1.length - 1) % ring1.length < 2 * ring1.length by omega)
      h.symm
  have hE1 := ht1.edge_first hds.valid e1 hn1' hi1 hfresh hab
  rw [hg1] at hE1
  have hmid1 : s1.midPtr q1 = some (s.m_apLaths.length + (4 * i1 + 3)) := by
    have := href1.midPtr_corner hi1
    rw [hg1] at this
    exact this
  -- the state of the mid-edge vertex is kept until the second face is refined
  have hkeep := (Calls.keeps (fun u => Descends s0 u ∧
      u.midPtr q1 = some (s.m_apLaths.length + (4 * i1 + 3)) ∧
      (∀ x ∈ ring1, u.facePtr x ≠ none) ∧
      (u.facePtr f2 = none →
        EdgeOpen u (aV1.getD (i1 + ring1.length) 0) (s.m_apLaths.length + (4 * i1 + 3))
          (s.m_apLaths.length + (4 * ((i1 + ring1.length - 1) % ring1.length) + 1))
          (aV1.getD i1 0) s.m_aapVertices.length
          (aV1.getD ((i1 + ring1.length - 1) % ring1.length) 0) q1)) ?_ hc1 href1.valid
      ⟨hds1, hmid1, fun x hx => by
        obtain ⟨c, hc⟩ := href1.facePtr_corner hx
        rw [hc]; exact Option.some_ne_none c, fun _ => hE1⟩).2
  swap
  · intro u g u2 sub aQfv k aV sc l hvu hP hl hguard _ ht
    obtain ⟨hd, hmq, hF, hE⟩ := hP
    refine ⟨hd.step hv ht, ?_, fun x hx => ht.refined.facePtr_keeps (hF x hx), ?_⟩
    · by_cases hqa : q1 ∈ aQfv
      · exfalso
        obtain ⟨_, _, tl, htl⟩ := hvu.qfv ht.refined.qfv
        have hga : g ∈ aQfv := by rw [htl]; exact List.mem_cons_self _ _
        have hg1' : g ∈ ring1 :=
          IsRing.mem_of_shared (hd.grows.ring hring1) ht.refined.ring hq1m hqa hga
        have hfv := hguard (hd.parent_old hu (hring1.lt g hg1') hl)
        apply hF g hg1'
        unfold facePtr
        rw [hl]
        exact hfv
      · rw [ht.refined.midPtr_other (lt_of_lt_of_le hq1l hd.grows.grows_length) hqa]
        exact hmq
    · intro hn
      have hnu : u.facePtr f2 = none := by
        by_contra hcon
        exact ht.refined.facePtr_keeps hcon hn
      have hq2a : q2 ∉ aQfv := by
        intro hqa
        have hfa : f2 ∈ aQfv :=
          IsRing.mem_of_shared ht.refined.ring (hd.grows.ring hring2) hqa hq2m hf2m
        obtain ⟨c, hc⟩ := ht.refined.facePtr_corner hfa
        rw [hc] at hn
        cases hn
      exact ht.edge_open hm hd hq1l he21 hafp hab hfb (hE hnu) hq2a
  obtain ⟨_, hmidt, hFt, hEt'⟩ := hkeep
  have hEt := hEt' hn2
  -- the second call finds the edge point
  have hre2 : SubdivideFace.edgeReuse t q2 =
      some (some (aV1.getD (i1 + ring1.length) 0)) := by
    obtain ⟨l1, hl1', hl1m⟩ := midPtr_lath hmidt
    unfold SubdivideFace.edgeReuse
    rw [hdt.ec_control hv hq2l, he21]
    simp only [hl1', hl1m, hEt.atD, Option.map_some']
  have hem := SubdivideFace.aVertices_edge href2.points hq2 hre2
  -- and the child vertices of the two ends of the edge
  obtain ⟨cA, hcA⟩ := hm.vertexChain_some (hring1.lt _ (getD_mem_of_lt ring1 i1 0 hi1))
  obtain ⟨cB, hcB⟩ := hm.vertexChain_some (hring1.lt _ (getD_mem_of_lt ring1 _ 0 hjp))
  have hCA := Calls.corner_kept hm hds hring1 hnd ht1 hc1 hi1 hcA
  have hCB := Calls.corner_kept hm hds hring1 hnd ht1 hc1 hjp hcB
  have heb : aV2.getD i2 0 = aV1.getD ((i1 + ring1.length - 1) % ring1.length) 0 := by
    obtain ⟨c, hc, hcf⟩ := ec_split he21
    rw [← hg1] at hcf
    have hcp := IsRing.pred_at hv hring1 hi1 hcf
    rw [hcp] at hc
    obtain ⟨mm, hmm, hvmm⟩ := hCB q2 (hm.vertexChain_pred hcB hc)
    exact SubdivideFace.aVertices_corner href2.points hq2
      (SubdivideFace.cornerReuse_of_child hmm hvmm)
  have hea : aV2.getD ((i2 + ring2.length - 1) % ring2.length) 0 = aV1.getD i1 0 := by
    obtain ⟨c, hc, hcf⟩ := ec_split he12
    rw [← hg2] at hcf
    have hcp := IsRing.pred_at hv hring2 hi2 hcf
    rw [hcp, ← hg1] at hc
    obtain ⟨mm, hmm, hvmm⟩ := hCA _ (vertexChain_next hcA hc)
    exact SubdivideFace.aVertices_corner href2.points
      (getElem?_getD_of_lt ring2 _ 0 hjq) (SubdivideFace.cornerReuse_of_child hmm hvmm)
  obtain ⟨hnd4, hEc⟩ :=
    ht2.edge_closed hm hdt hq1l he21 hafp hab hfb hEt e2 hn2' hq2 hem heb hea
  -- the closed cycle is kept by every later call
  have hkeep2 := (Calls.keeps (fun u => Descends s0 u ∧
      (∀ x ∈ ring1, u.facePtr x ≠ none) ∧ (∀ x ∈ ring2, u.facePtr x ≠ none) ∧
      EdgeClosed u (aV1.getD (i1 + ring1.length) 0) (s.m_apLaths.length + (4 * i1 + 3))
        (s.m_apLaths.length + (4 * ((i1 + ring1.length - 1) % ring1.length) + 1))
        (t.m_apLaths.length + (4 * i2 + 3))
        (t.m_apLaths.length + (4 * ((i2 + ring2.length - 1) % ring2.length) + 1))
        (aV1.getD i1 0) s.m_aapVertices.length
        (aV1.getD ((i1 + ring1.length - 1) % ring1.length) 0) t.m_aapVertices.length q1 q2)
      ?_ hc2 href2.valid
      ⟨hdt.step hv ht2, fun x hx => href2.facePtr_keeps (hFt x hx), fun x hx => by
        obtain ⟨c, hc⟩ := href2.facePtr_corner hx
        rw [hc]; exact Option.some_ne_none c, hEc⟩).2
  swap
  · intro u g u2 sub aQfv k aV sc l hvu hP hl hguard _ ht
    obtain ⟨hd, hF1, hF2, hE⟩ := hP
    have excl : ∀ (ring : List Nat) (q : Nat), s0.IsRing ring → q ∈ ring →
        (∀ x ∈ ring, u.facePtr x ≠ none) → q ∉ aQfv := by
      intro ring q hring hqm hF hqa
      obtain ⟨_, _, tl, htl⟩ := hvu.qfv ht.refined.qfv
      have hga : g ∈ aQfv := by rw [htl]; exact List.mem_cons_self _ _
      have hgr : g ∈ ring :=
        IsRing.mem_of_shared (hd.grows.ring hring) ht.refined.ring hqm hqa hga
      have hfv := hguard (hd.parent_old hu (hring.lt g hgr) hl)
      apply hF g hgr
      unfold facePtr
      rw [hl]
      exact hfv
    exact ⟨hd.step hv ht, fun x hx => ht.refined.facePtr_keeps (hF1 x hx),
      fun x hx => ht.refined.facePtr_keeps (hF2 x hx),
      ht.edge_kept hm hd hq1l hq2l he12 he21 hnd4 hE (excl ring1 q1 hring1 hq1m hF1)
        (excl ring2 q2 hring2 hq2m hF2)⟩
  obtain ⟨_, _, _, hEw⟩ := hkeep2
  have hg2w := (Calls.calls_grows hc2 href2.valid).2
  have hg1w : Grows s1 w := (hg1t.grows_trans ht2.grows).grows_trans hg2w
  have pD1 := hg1w.parent_eq (href1.parent_new hi1 (show 3 < 4 by omega))
  have pB1 := hg1w.parent_eq (href1.parent_new hjp (show 1 < 4 by omega))
  have pD2 := hg2w.parent_eq (href2.parent_new hi2 (show 3 < 4 by omega))
  have pB2 := hg2w.parent_eq (href2.parent_new hjq (show 1 < 4 by omega))
  have hmlt : aV1.getD (i1 + ring1.length) 0 < s1.m_aapVertices.length := by
    have := href1.VertexIndex_new hi1 (show 3 < 4 by omega)
    exact href1.valid.vertex_lt this
  generalize (i1 + ring1.length - 1) % ring1.length = jp at *
  generalize (i2 + ring2.length - 1) % ring2.length = jq at *
  have eD1 : s.m_apLaths.length + 4 * i1 + 3 = s.m_apLaths.length + (4 * i1 + 3) := by omega
  have eB1 : s.m_apLaths.length + 4 * jp + 1 = s.m_apLaths.length + (4 * jp + 1) := by omega
  have eD2 : t.m_apLaths.length + 4 * i2 + 3 = t.m_apLaths.length + (4 * i2 + 3) := by omega
  have eB2 : t.m_apLaths.length + 4 * jq + 1 = t.m_apLaths.length + (4 * jq + 1) := by omega
  refine ⟨s.m_apLaths.length + 4 * i1, s.m_apLaths.length + 4 * jp,
    t.m_apLaths.length + 4 * i2, t.m_apLaths.length + 4 * jq,
    aV1.getD (i1 + ring1.length) 0, ?_, ?_, ?_, ?_, ?_, ?_⟩
  · rw [href1.sub_eq]; exact sub_getElem? hi1
  · rw [href1.sub_eq]; exact sub_getElem? hjp
  · rw [href2.sub_eq]; exact sub_getElem? hi2
  · rw [href2.sub_eq]; exact sub_getElem? hjq
  · simp only [List.nodup_cons, List.mem_cons, List.mem_singleton, List.not_mem_nil,
      or_false, not_or, List.nodup_nil, not_false_eq_true, and_true]
    omega
  · rw [eD1, eB1, eD2, eB2]
    refine ⟨pD1, pB1, pD2, pB2, hfresh, hmlt, ?_, hEt.cvD, hEt.cvB, hEw.all, hEw.cvD1,
      hEw.cvB1, hEw.cvD2, hEw.cvB2⟩
    intro h
    constructor
    · exact hEt.all h
    · rintro (rfl | rfl)
      · exact hEt.atD
      · exact hEt.atB

theorem SubdivideFace_edge_cycle_witness :
    quadStrip.finalised.MatchedLinks ∧ quadStrip.finalised.Unrefined ∧
    quadStrip.finalised.Qfv 4 = some [4, 7, 6, 5] ∧
    quadStrip.finalised.Qfv 8 = some [8, 11, 10, 9] ∧
    ([4, 7, 6, 5].map quadStrip.finalised.VertexIndex).Nodup ∧
    [4, 7, 6, 5][3]? = some 5 ∧ [8, 11, 10, 9][1]? = some 11 ∧
    quadStrip.finalised.ec 5 = some (some 11) ∧ quadStrip.finalised.ec 11 = some (some 5) ∧
    Calls Qff quadStrip.finalised quadStrip.refined1 ∧
    quadStrip.refined1.facePtr 4 = none ∧
    SubdivideFace Qff 1 quadStrip.refined1 4 = some (quadStrip.refined2, [28, 32, 36, 40]) ∧
    Calls Qff quadStrip.refined2 quadStrip.refined2 ∧
    quadStrip.refined2.facePtr 8 = none ∧
    SubdivideFace Qff 1 quadStrip.refined2 8 = some (quadStrip.refined3, [44, 48, 52, 56]) ∧
    Calls Qff quadStrip.refined3 quadStrip.refined3 ∧
    ∃ A1 P1 A2 P2 m,
      [28, 32, 36, 40][3]? = some A1 ∧
      [28, 32, 36, 40][(3 + [4, 7, 6, 5].length - 1) % [4, 7, 6, 5].length]? = some P1 ∧
      [44, 48, 52, 56][1]? = some A2 ∧
      [44, 48, 52, 56][(1 + [8, 11, 10, 9].length - 1) % [8, 11, 10, 9].length]? = some P2 ∧
      [A1 + 3, P1 + 1, A2 + 3, P2 + 1].Nodup ∧
      (quadStrip.refined3.lath (A1 + 3)).map CqLath.m_pParentFacet = some (some 4) ∧
      (quadStrip.refined3.lath (P1 + 1)).map CqLath.m_pParentFacet = some (some 4) ∧
      (quadStrip.refined3.lath (A2 + 3)).map CqLath.m_pParentFacet = some (some 8) ∧
      (quadStrip.refined3.lath (P2 + 1)).map CqLath.m_pParentFacet = some (some 8) ∧
      quadStrip.refined1.m_aapVertices.length ≤ m ∧
      m < quadStrip.refined2.m_aapVertices.length ∧
      (∀ h, quadStrip.refined2.VertexIndex h = some m ↔ (h = A1 + 3 ∨ h = P1 + 1)) ∧
      quadStrip.refined2.cv (A1 + 3) = some (some (P1 + 1)) ∧
      quadStrip.refined2.cv (P1 + 1) = some none ∧
      (∀ h, quadStrip.refined3.VertexIndex h = some m ↔
        (h = A1 + 3 ∨ h = P1 + 1 ∨ h = A2 + 3 ∨ h = P2 + 1)) ∧
      quadStrip.refined3.cv (A1 + 3) = some (some (P1 + 1)) ∧
      quadStrip.refined3.cv (P1 + 1) = some (some (A2 + 3)) ∧
      quadStrip.refined3.cv (A2 + 3) = some (some (P2 + 1)) ∧
      quadStrip.refined3.cv (P2 + 1) = some (some (A1 + 3)) :=
  ⟨quadStrip_matched, quadStrip_valid.2, quadStrip_run.1.1, quadStrip_run.1.2.1,
    quadStrip_run.1.2.2.2.2, rfl, rfl, quadStrip_run.1.2.2.1, quadStrip_run.1.2.2.2.1,
    Calls.of_call quadStrip_first, quadStrip_run.2.2.1, quadStrip_second,
    Calls.refl _, quadStrip_run.2.2.2.2.1, quadStrip_third, Calls.refl _,
    SubdivideFace_edge_cycle Qff 1 1 quadStrip_matched quadStrip_valid.2
      quadStrip_run.1.1 quadStrip_run.1.2.1 quadStrip_run.1.2.2.2.2
      (show [4, 7, 6, 5][3]? = some 5 from rfl) (show [8, 11, 10, 9][1]? = some 11 from rfl)
      quadStrip_run.1.2.2.1 quadStrip_run.1.2.2.2.1
      (Calls.of_call quadStrip_first) quadStrip_run.2.2.1
      quadStrip_second (Calls.refl _) quadStrip_run.2.2.2.2.1
      quadStrip_third (Calls.refl _)⟩

/-- The bow-tie hexagon, finalised, is a well-formed control mesh. -/
theorem bowTie_valid : bowTie.finalised.Valid ∧ bowTie.finalised.Unrefined :=
  finalised_valid bowTie_run.2.1.1 ⟨by decide, by decide⟩ bowTie_run.1.1

/-- The bow-tie hexagon, finalised, is a matched topology. -/
theorem bowTie_matched : bowTie.finalised.MatchedLinks := by
  obtain ⟨hlen, h1, h2⟩ := bowTie_run.2.1.2
  refine ⟨bowTie_valid.1, ?_, ?_⟩
  · intro x y hx hy
    rw [hlen] at hx hy
    exact h1 x hx y hy
  · intro x y hx hy
    rw [hlen] at hx hy
    exact h2 x hx y hy

/-- C31 (as the code has it).  First, the cycle round a shared mid-edge
vertex does not alternate between the children of the two faces.  The two
quads of `twoQuads`, which share the edge of the companions 1 and 7, are
subdivided one after the other.  The four child laths at the shared mid-edge
vertex 10 are 23, 17, 31 and 25 and they form the closed cycle 23, 17, 31, 25,
23; but 23 and 17, which follow each other, are both children of the first
quad (parent facet 0), and 31 and 25 are both children of the second (parent
facet 4).  Second, the cycle need not close when a face passes through a
vertex twice.  `Finalise` accepts the bow-tie hexagon 0, 1, 2, 0, 3, 4 with
the triangles 0, 2, 1 and 0, 4, 3, and leaves a matched control mesh; the
corners 0 and 3 of the hexagon are both at vertex 0; corner 0 of the hexagon
and corner 8 of the first triangle are edge companions of each other.  After
`SubdivideFace` on the hexagon and then on the triangle, the laths at the
mid-edge vertex 6 are, of the 48 laths, the four child laths 15, 33, 43 and
37, linked 15, 33, 43, 37, and the link of 37 is missing: the chain is open.  The facet of 15
leaves the vertex for vertex 12, the child of corner 0 of the hexagon, but the
facet of 37 reaches it from vertex 15, the child of its corner 3. -/
theorem SubdivideFace_cycle_not_alternating :
    (twoQuads.finalised.ec 1 = some (some 7) ∧ twoQuads.finalised.ec 7 = some (some 1) ∧
      SubdivideFace Qff 1 twoQuads.finalised 0 = some (twoQuads.refined1, [8, 12, 16, 20]) ∧
      SubdivideFace Qff 1 twoQuads.refined1 4 = some (twoQuads.refined2, [24, 28, 32, 36]) ∧
      twoQuads.refined2.VertexIndex 23 = some 10 ∧
      twoQuads.refined2.VertexIndex 17 = some 10 ∧
      twoQuads.refined2.VertexIndex 31 = some 10 ∧
      twoQuads.refined2.VertexIndex 25 = some 10 ∧
      twoQuads.refined2.cv 23 = some (some 17) ∧ twoQuads.refined2.cv 17 = some (some 31) ∧
      twoQuads.refined2.cv 31 = some (some 25) ∧ twoQuads.refined2.cv 25 = some (some 23) ∧
      (twoQuads.refined2.lath 23).map CqLath.m_pParentFacet = some (some 0) ∧
      (twoQuads.refined2.lath 17).map CqLath.m_pParentFacet = some (some 0) ∧
      (twoQuads.refined2.lath 31).map CqLath.m_pParentFacet = some (some 4) ∧
      (twoQuads.refined2.lath 25).map CqLath.m_pParentFacet = some (some 4)) ∧
    (bowTie.Finalise = some (bowTie.finalised, true) ∧
      bowTie.finalised.MatchedLinks ∧ bowTie.finalised.Unrefined) ∧
    (bowTie.finalised.Qfv 0 = some [0, 5, 4, 3, 2, 1] ∧
      bowTie.finalised.Qfv 6 = some [6, 8, 7] ∧
      bowTie.finalised.VertexIndex 0 = some 0 ∧ bowTie.finalised.VertexIndex 3 = some 0 ∧
      bowTie.finalised.ec 0 = some (some 8) ∧ bowTie.finalised.ec 8 = some (some 0) ∧
      SubdivideFace Qff 1 bowTie.finalised 0 =
        some (bowTie.refined1, [12, 16, 20, 24, 28, 32]) ∧
      bowTie.refined1.facePtr 6 = none ∧
      SubdivideFace Qff 1 bowTie.refined1 6 = some (bowTie.refined2, [36, 40, 44])) ∧
    (bowTie.refined2.m_apLaths.length = 48 ∧
      (∀ h, h < 48 → (bowTie.refined2.VertexIndex h = some 6 ↔
        (h = 15 ∨ h = 33 ∨ h = 43 ∨ h = 37)))) ∧
    (bowTie.refined2.cv 15 = some (some 33) ∧ bowTie.refined2.cv 33 = some (some 43) ∧
      bowTie.refined2.cv 43 = some (some 37) ∧ bowTie.refined2.cv 37 = some none ∧
      bowTie.refined2.outKey 15 = some 12 ∧ bowTie.refined2.innKey 37 = some 15) :=
  ⟨twoQuads_cycle_by_face,
    ⟨bowTie_run.1.1, bowTie_matched, bowTie_valid.2⟩, bowTie_run.2.2⟩

end CqSubdivision2
end Aqsis
